import Mathlib

/-!
# Primal-decomposition coordinator of HiOp: a verification development

Shallow embedding of `src/Optimization/hiopAlgPrimalDecomp.cpp`.

* Scalars (`double`) are the elements of a linearly ordered field `K`
  (exact arithmetic); the square root used by `hiopVector::twonorm` is an
  explicit argument `sqrt`.  The options object, which compares and copies
  its numeric values and does no arithmetic on them, is embedded for any type
  of values with a comparison, among them `double K`, which has NaN.
* A `hiopVector` of local size `n` is a function `Fin n → K`.
* `std::max(a, b)` and `std::min(a, b)` are transcribed from their
  definitions (`(a < b) ? b : a` and `(b < a) ? b : a`).
* MPI point-to-point traffic is a FIFO inbox per (sender, receiver, tag);
  the outcome of every `MPI_Test` on a pending request is read from a
  schedule, so that every completion order is covered.
-/

namespace hiop

set_option linter.unusedVariables false
set_option linter.unusedSectionVars false

/-! ## Scalars and vectors -/

/-- The C++ `std::max(a, b)`: `(a < b) ? b : a`. -/
def std_max {K : Type} [LinearOrderedField K] (a b : K) : K :=
  if a < b then b else a

/-- The C++ `std::min(a, b)`: `(b < a) ? b : a`. -/
def std_min {K : Type} [LinearOrderedField K] (a b : K) : K :=
  if b < a then b else a

/-- A `hiopVector` of local size `n`. -/
abbrev Vec (K : Type) (n : Nat) : Type := Fin n → K

/-- The method `hiopVector::dotProductWith`. -/
def dotProductWith {K : Type} [LinearOrderedField K] {n : Nat} (v w : Vec K n) : K :=
  ∑ i, v i * w i

/-- The method `hiopVector::twonorm`: square root of the sum of squares. -/
def twonorm {K : Type} [LinearOrderedField K] {n : Nat} (sqrt : K → K) (v : Vec K n) : K :=
  sqrt (dotProductWith v v)

/-- The method `hiopVector::axpy`: `this += a * x`. -/
def axpy {K : Type} [LinearOrderedField K] {n : Nat} (this : Vec K n) (a : K) (x : Vec K n) :
    Vec K n :=
  fun i => this i + a * x i

/-- The method `hiopVector::scale`: `this *= a`. -/
def scale {K : Type} [LinearOrderedField K] {n : Nat} (this : Vec K n) (a : K) : Vec K n :=
  fun i => this i * a

/-- The method `hiopVector::setToConstant`. -/
def setToConstant {K : Type} {n : Nat} (c : K) : Vec K n :=
  fun _ => c

/-- The method `hiopVector::setToZero`. -/
def setToZero {K : Type} [LinearOrderedField K] {n : Nat} : Vec K n :=
  fun _ => 0

/-! ## `HessianApprox`: the trust-region model -/

/-- The data members of `hiopAlgPrimalDecomposition::HessianApprox`.  The four
vectors are allocated by the constructor and never released before the
destructor, so the `== NULL` branches of `initialize` are dead and the vectors
are modelled as always present.  The bounds `alpha_min`, `alpha_max`,
`ratio_min`, `ratio_max` and the factor `tr_ratio_` get their initial values in
the class declaration, which is not part of the sources at hand: they are
arbitrary fields here. -/
structure HessianApprox (K : Type) (n : Nat) where
  /-- current function value `fk` -/
  fk : K
  /-- previous function value `fkm1` -/
  fkm1 : K
  /-- linear term `fkm1_lin = gkm1 . skm1` -/
  fkm1_lin : K
  /-- previous point `xkm1` -/
  xkm1 : Vec K n
  /-- step `skm1 = x_k - x_{k-1}` -/
  skm1 : Vec K n
  /-- gradient difference `ykm1 = g_k - g_{k-1}` -/
  ykm1 : Vec K n
  /-- previous gradient `gkm1` -/
  gkm1 : Vec K n
  /-- quadratic coefficient `alpha_` -/
  alpha_ : K
  /-- the alpha ratio `ratio_` -/
  ratio_ : K
  /-- the factor `tr_ratio_` of `get_alpha_tr` -/
  tr_ratio_ : K
  ratio_min : K
  ratio_max : K
  alpha_min : K
  alpha_max : K

namespace HessianApprox

variable {K : Type} [LinearOrderedField K] {n : Nat}

/-- The constructor `HessianApprox(n, ratio, priDecProb, options, comm)`:
`fkm1 = fk = fkm1_lin = 1e20`, freshly created vectors (their content is the
argument `fresh`), and `ratio_ = ratio`, stored as passed.  The members
initialised in the class declaration are the argument `decl`. -/
def mk_ratio (decl : HessianApprox K n) (fresh : Vec K n) (ratio : K) : HessianApprox K n :=
  { decl with
    fkm1 := 10 ^ 20, fk := 10 ^ 20, fkm1_lin := 10 ^ 20,
    xkm1 := fresh, skm1 := fresh, ykm1 := fresh, gkm1 := fresh,
    ratio_ := ratio }

/-- The setter `set_alpha_min`. -/
def set_alpha_min (h : HessianApprox K n) (alp_min : K) : HessianApprox K n :=
  { h with alpha_min := alp_min }

/-- The setter `set_alpha_max`. -/
def set_alpha_max (h : HessianApprox K n) (alp_max : K) : HessianApprox K n :=
  { h with alpha_max := alp_max }

/-- The setter `set_alpha_ratio_min`. -/
def set_alpha_ratio_min (h : HessianApprox K n) (r : K) : HessianApprox K n :=
  { h with ratio_min := r }

/-- The setter `set_alpha_ratio_max`. -/
def set_alpha_ratio_max (h : HessianApprox K n) (r : K) : HessianApprox K n :=
  { h with ratio_max := r }

/-- The method `initialize(f_val, xk, grad)` (spelt `initialise`, the source's
name being a reserved word): `fk = f_val`, and `xkm1`, `gkm1` receive the `n_`
entries of `xk` and `grad` (`copyFromStarting(0, ., n_)`). -/
def initialise (h : HessianApprox K n) (f_val : K) (xk grad : Vec K n) : HessianApprox K n :=
  { h with fk := f_val, xkm1 := xk, gkm1 := grad }

/-- The method `update_hess_coeff(xk, gk, f_val)`. -/
def update_hess_coeff (h : HessianApprox K n) (xk gk : Vec K n) (f_val : K) :
    HessianApprox K n :=
  let fkm1 := h.fk
  let fk := f_val
  let skm1 := axpy xk (-1) h.xkm1
  let ykm1 := axpy gk (-1) h.gkm1
  let xkm1 := xk
  let fkm1_lin := dotProductWith h.gkm1 skm1
  let gkm1 := gk
  { h with fkm1 := fkm1, fk := fk, skm1 := skm1, ykm1 := ykm1, xkm1 := xkm1,
           fkm1_lin := fkm1_lin, gkm1 := gkm1 }

/-- The two-argument overload `update_ratio_tr(rhok, alpha_ratio)`; the result
is the new value of the reference argument `alpha_ratio`. -/
def update_ratio_tr (h : HessianApprox K n) (rhok alpha_ratio : K) : K :=
  let alpha_ratio :=
    if rhok < 1 / 4 then alpha_ratio / (3 / 4)
    else if rhok > 3 / 4 then alpha_ratio * (3 / 4)
    else alpha_ratio
  let alpha_ratio := std_max h.ratio_min alpha_ratio
  std_min h.ratio_max alpha_ratio

/-- The overload `update_ratio(base_v, base_vm1)`. -/
def update_ratio (sqrt : K → K) (h : HessianApprox K n) (base_v base_vm1 : K) :
    HessianApprox K n :=
  let rk := h.fkm1 + h.fkm1_lin
  let rk := rk + 1 / 2 * h.alpha_ * twonorm sqrt h.skm1 * twonorm sqrt h.skm1
  let rho_k := (base_vm1 + h.fkm1 - h.fk - base_v) / (h.fkm1 + base_vm1 - rk - base_v)
  { h with ratio_ := update_ratio_tr h rho_k h.ratio_ }

/-- The method `get_alpha_BB()`: returned value and new state. -/
def get_alpha_BB (h : HessianApprox K n) : K × HessianApprox K n :=
  let temp1 := dotProductWith h.skm1 h.skm1
  let temp2 := dotProductWith h.skm1 h.ykm1
  let alpha_ := temp2 / temp1
  let alpha_ := std_max h.alpha_min alpha_
  let alpha_ := std_min h.alpha_max alpha_
  (alpha_, { h with alpha_ := alpha_ })

/-- The method `get_alpha_f(gk)`: returned value and new state. -/
def get_alpha_f (sqrt : K → K) (h : HessianApprox K n) (gk : Vec K n) : K × HessianApprox K n :=
  let temp3 := twonorm sqrt gk * twonorm sqrt gk
  let alpha_ := temp3 / 2 / h.fk
  let alpha_ := alpha_ * h.ratio_
  let alpha_ := std_max h.alpha_min alpha_
  let alpha_ := std_min h.alpha_max alpha_
  (alpha_, { h with alpha_ := alpha_ })

/-- The method `get_alpha_tr()`: returned value and new state. -/
def get_alpha_tr (h : HessianApprox K n) : K × HessianApprox K n :=
  let alpha_ := h.alpha_ * h.tr_ratio_
  let alpha_ := std_max h.alpha_min alpha_
  let alpha_ := std_min h.alpha_max alpha_
  (alpha_, { h with alpha_ := alpha_ })

/-- The method `check_convergence_grad(gk)`. -/
def check_convergence_grad (sqrt : K → K) (h : HessianApprox K n) (gk : Vec K n) : K :=
  let temp := scale h.skm1 (-h.alpha_)
  let temp := axpy temp 1 h.ykm1
  let temp1 := twonorm sqrt temp
  let temp2 := twonorm sqrt gk
  temp1 / temp2

/-- The method `check_convergence_fcn(base_v, base_vm1)`. -/
def check_convergence_fcn (sqrt : K → K) (h : HessianApprox K n) (base_v base_vm1 : K) : K :=
  let predicted_decrease := h.fkm1_lin
  let predicted_decrease :=
    predicted_decrease + 1 / 2 * h.alpha_ * twonorm sqrt h.skm1 * twonorm sqrt h.skm1
  let predicted_decrease := predicted_decrease + (base_v - base_vm1)
  |predicted_decrease|

/-- The method `compute_base(val)`. -/
def compute_base (sqrt : K → K) (h : HessianApprox K n) (val : K) : K :=
  let rec_appx := h.fkm1 + h.fkm1_lin
  let rec_appx := rec_appx + 1 / 2 * h.alpha_ * twonorm sqrt h.skm1 * twonorm sqrt h.skm1
  val - rec_appx

end HessianApprox

/-! ## `HessianApprox`: the update of the ratio without basecase values -/

namespace HessianApprox

variable {K : Type} [LinearOrderedField K] {n : Nat}

/-- The five-argument overload
`update_ratio_tr(rhok, rkm1, rk, alpha_g_ratio, alpha_ratio)`; the result is
the new value of the reference argument `alpha_ratio`.  The literals `0.75`,
`1.333` and `0.1` are the fractions `3/4`, `1333/1000` and `1/10`. -/
def update_ratio_tr5 (h : HessianApprox K n) (rhok rkm1 rk alpha_g_ratio alpha_ratio : K) : K :=
  let alpha_ratio :=
    if rhok > 0 ∧ rhok < 1 / 4 ∧ rkm1 - rk > 0 then alpha_ratio / (3 / 4)
    else if rhok < 0 ∧ rkm1 - rk < 0 then alpha_ratio / (3 / 4)
    else if rhok > 3 / 4 ∧ rhok < 1333 / 1000 ∧ rkm1 - rk > 0 ∧ alpha_g_ratio > 1 / 10 then
      alpha_ratio * (3 / 4)
    else if rhok > 1333 / 1000 ∧ rkm1 - rk < 0 then alpha_ratio / (3 / 4)
    else alpha_ratio
  let alpha_ratio := std_max h.ratio_min alpha_ratio
  std_min h.ratio_max alpha_ratio

/-- The overload `update_ratio()`, without basecase values. -/
def update_ratio0 (sqrt : K → K) (h : HessianApprox K n) : HessianApprox K n :=
  let rk := h.fkm1 + h.fkm1_lin
  let rk := rk + 1 / 2 * h.alpha_ * twonorm sqrt h.skm1 * twonorm sqrt h.skm1
  let rho_k := (h.fkm1 - h.fk) / (h.fkm1 - rk)
  let quanorm := 0 + dotProductWith h.skm1 h.skm1
  let gradnorm := 0 + h.fkm1_lin
  let quanorm := h.alpha_ * quanorm
  let alpha_g_ratio := quanorm / |gradnorm|
  { h with ratio_ := update_ratio_tr5 h rho_k h.fkm1 h.fk alpha_g_ratio h.ratio_ }

end HessianApprox

namespace HessianApprox

variable {K : Type} [LinearOrderedField K] {n : Nat}

/-- The local `rk` of `update_ratio(base_v, base_vm1)`: `fkm1 + fkm1_lin`
plus `0.5 * alpha_ * skm1->twonorm() * skm1->twonorm()`. -/
def update_ratio_rk (sqrt : K → K) (h : HessianApprox K n) : K :=
  let rk := h.fkm1 + h.fkm1_lin
  rk + 1 / 2 * h.alpha_ * twonorm sqrt h.skm1 * twonorm sqrt h.skm1

/-- The dividend of the local `rho_k` of `update_ratio(base_v, base_vm1)`. -/
def rho_k_num (h : HessianApprox K n) (base_v base_vm1 : K) : K :=
  base_vm1 + h.fkm1 - h.fk - base_v

/-- The divisor of the local `rho_k` of `update_ratio(base_v, base_vm1)`. -/
def rho_k_den (sqrt : K → K) (h : HessianApprox K n) (base_v base_vm1 : K) : K :=
  h.fkm1 + base_vm1 - update_ratio_rk sqrt h - base_v

/-- The local `rho_k` of `update_ratio(base_v, base_vm1)`. -/
def rho_k (sqrt : K → K) (h : HessianApprox K n) (base_v base_vm1 : K) : K :=
  rho_k_num h base_v base_vm1 / rho_k_den sqrt h base_v base_vm1

end HessianApprox

/-! ## The driver: configuration and the model update of one outer iteration -/

/-- The enumeration `hiopSolveStatus`; the driver only stores and returns it.
`Solve_Success` is its value `0`. -/
abbrev hiopSolveStatus : Type := Int

/-- The enumerator `Solve_Success`. -/
def Solve_Success : hiopSolveStatus := 0

/-- The data members of `hiopAlgPrimalDecomposition` that the algorithm reads
(the logger, the options object and the MPI communicator are left out). -/
structure hiopAlgPrimalDecomposition (K : Type) (n nc : Nat) where
  /-- number of recourse terms `S_` -/
  S_ : Nat
  /-- number of ranks `comm_size_` -/
  comm_size_ : Nat
  /-- rank of this process `my_rank_` -/
  my_rank_ : Nat
  tol_ : K
  accp_tol_ : K
  accp_count_ : Int
  max_iter_ : Int
  alpha_max_ : K
  alpha_min_ : K
  alpha_ratio_ : K
  /-- the option `accum_local` is `"yes"` -/
  local_accum_ : Bool
  ver_ : Int
  it_ : Int
  solver_status_ : hiopSolveStatus
  /-- master variables `x_` -/
  x_ : Vec K n
  /-- indices of the coupled variables `xc_idx_` -/
  xc_idx_ : Fin nc → Fin n

namespace hiopAlgPrimalDecomposition

variable {K : Type} [LinearOrderedField K] {n nc : Nat}

/-- The setter `set_initial_alpha_ratio(alpha)`: `none` when the assertion
`alpha >= 0 && alpha < 10.` fails. -/
def set_initial_alpha_ratio (a : hiopAlgPrimalDecomposition K n nc) (alpha : K) :
    Option (hiopAlgPrimalDecomposition K n nc) :=
  if alpha ≥ 0 ∧ alpha < 10 then some { a with alpha_ratio_ := alpha } else none

/-- The object `hess_appx_2` every variant of the driver creates before its
outer loop: `new HessianApprox(nc_, alpha_ratio_, ...)` followed by
`set_alpha_min(alpha_min_)` and `set_alpha_max(alpha_max_)`. -/
def new_hess_appx_2 (a : hiopAlgPrimalDecomposition K n nc) (decl : HessianApprox K nc)
    (fresh : Vec K nc) : HessianApprox K nc :=
  ((HessianApprox.mk_ratio decl fresh a.alpha_ratio_).set_alpha_min a.alpha_min_).set_alpha_max
    a.alpha_max_

end hiopAlgPrimalDecomposition

/-- The locals of the driver that the model update of an iteration writes. -/
structure DriverVars (K : Type) (nc : Nat) where
  base_val : K
  base_valm1 : K
  convg : K
  convg_g : K
  convg_f : K
  /-- the curvature vector `hess_appx` handed to the master problem -/
  hess_appx : Vec K nc

/-- What an outer iteration feeds into the model update: the aggregate
`rval`, `grad_r`, the coupled point `x0` and the value
`master_prob_->get_objective()`. -/
structure IterInput (K : Type) (nc : Nat) where
  rval : K
  x0 : Vec K nc
  grad_r : Vec K nc
  objective : K

variable {K : Type} [LinearOrderedField K] {nc : Nat}

/-- The model update up to, and excluding, the call of `get_alpha_f`: for
`it == 0` the call `initialize(rval, x0, grad_r)`, otherwise
`update_hess_coeff`, the new `base_val` from `compute_base`, and
`update_ratio(base_val, base_valm1)`.  The state returned is the one
`get_alpha_f` is called on. -/
def model_pre (sqrt : K → K) (it : Nat) (h : HessianApprox K nc) (v : DriverVars K nc)
    (inp : IterInput K nc) : HessianApprox K nc × DriverVars K nc :=
  if it = 0 then
    (h.initialise inp.rval inp.x0 inp.grad_r, v)
  else
    let h := h.update_hess_coeff inp.x0 inp.grad_r inp.rval
    let base_valm1 := v.base_val
    let base_val := h.compute_base sqrt inp.objective
    let h := h.update_ratio sqrt base_val base_valm1
    (h, { v with base_val := base_val, base_valm1 := base_valm1 })

/-- The model update of one outer iteration (the `if(it == 0) ... else ...`
block common to `run`, `run_local` and `run_single`). -/
def model_update (sqrt : K → K) (it : Nat) (h : HessianApprox K nc) (v : DriverVars K nc)
    (inp : IterInput K nc) : HessianApprox K nc × DriverVars K nc :=
  let hv := model_pre sqrt it h v inp
  let r := hv.1.get_alpha_f sqrt inp.grad_r
  let alp_temp := r.1
  let h := r.2
  let v := hv.2
  if it = 0 then
    (h, { v with hess_appx := setToConstant alp_temp })
  else
    let convg_g := h.check_convergence_grad sqrt inp.grad_r
    let convg_f := h.check_convergence_fcn sqrt v.base_val v.base_valm1
    let convg := std_min convg_f convg_g
    (h, { v with convg_g := convg_g, convg_f := convg_f, convg := convg,
                 hess_appx := setToConstant alp_temp })

/-- One record per outer iteration: the state `get_alpha_f` was called on, and
the state and locals after the model update. -/
structure ModelStep (K : Type) (nc : Nat) where
  pre : HessianApprox K nc
  post : HessianApprox K nc
  vars : DriverVars K nc

/-- The model updates of the outer iterations `it, it+1, ...`, one per element
of `inps`. -/
def model_run (sqrt : K → K) :
    Nat → List (IterInput K nc) → HessianApprox K nc → DriverVars K nc → List (ModelStep K nc)
  | _, [], _, _ => []
  | it, inp :: rest, h, v =>
    let pre := (model_pre sqrt it h v inp).1
    let hv := model_update sqrt it h v inp
    { pre := pre, post := hv.1, vars := hv.2 } :: model_run sqrt (it + 1) rest hv.1 hv.2

/-! ## Completion handles and messages -/

/-- The member `request_` of a handle: `MPI_REQUEST_NULL` (idle) or an
operation in flight. -/
inductive MPI_Request
  | MPI_REQUEST_NULL
  | pending
  deriving DecidableEq, Repr

/-- What stops a rank: a failed assertion of the source, an access outside a
vector, or the end of the bounded unfolding of a polling loop. -/
inductive Fault
  /-- `assert(static_cast<int>(S_) >= comm_size_ - 1)` -/
  | S_lt_workers
  /-- `assert(request_ == MPI_REQUEST_NULL)` in a `post_*` method -/
  | request_not_null
  /-- a read `cont_idx[idx]` outside the vector -/
  | cont_idx_out_of_range
  /-- `assert(rval == 0)` or `assert(grad_r_vec[i] == 0.)` of `run_local` -/
  | accumulator_not_zero
  /-- `assert(curr->request_ == MPI_REQUEST_NULL)` at the end of the iteration -/
  | request_not_completed
  /-- the polling loop was still running when the unfolding ended -/
  | still_polling
  deriving DecidableEq, Repr

namespace MPI_Request

/-- The methods `post_send`, `post_recv`, `post_send_end_signal`,
`post_recv_end_signal` as far as `request_` goes: the assertion
`request_ == MPI_REQUEST_NULL`, then an operation in flight. -/
def post (q : MPI_Request) : Except Fault MPI_Request :=
  if q = MPI_REQUEST_NULL then .ok pending else .error Fault.request_not_null

/-- The method `wait()`: returns with `request_ = MPI_REQUEST_NULL`. -/
def wait (q : MPI_Request) : MPI_Request :=
  MPI_REQUEST_NULL

/-- The method `test()` as far as `request_` goes; `completed` says whether the
operation in flight has completed.  `MPI_Test` on a null request reports
completion. -/
def test (q : MPI_Request) (completed : Bool) : Bool × MPI_Request :=
  match q with
  | MPI_REQUEST_NULL => (true, MPI_REQUEST_NULL)
  | pending => if completed then (true, MPI_REQUEST_NULL) else (false, pending)

end MPI_Request

/-- A message of tag 2, evaluator to master: the buffer of a
`ReqRecourseApprox` (value and gradient), or the one-integer signal of
`post_send_end_signal`. -/
inductive Msg (K : Type) (nc : Nat)
  | result (value : K) (grad : Vec K nc)
  | end_signal

/-- The two calls of `hiopInterfacePriDecProblem` an evaluation makes.  Each
takes the index, the coupled point and the content of its output argument
before the call, and gives back its `bool` and the content after the call. -/
structure RecourseProblem (K : Type) (nc : Nat) where
  eval_f_rterm : Int → Vec K nc → K → Bool × K
  eval_grad_rterm : Int → Vec K nc → Vec K nc → Bool × Vec K nc

/-! ## The evaluator ranks (`my_rank_ != 0`) -/

/-- Where an evaluator rank stands in its block of the outer iteration. -/
inductive WorkerPhase
  /-- at the blocking `MPI_Recv` of the first index -/
  | at_recv
  /-- in `while(cont_idx[0] != -1)` -/
  | in_loop
  /-- past the loop -/
  | exited
  deriving DecidableEq, Repr

/-- State of an evaluator rank within an outer iteration. -/
structure Worker (K : Type) (nc : Nat) where
  phase : WorkerPhase
  /-- `cont_idx[0]` -/
  cont_idx0 : Int
  /-- `rec_val`, `grad_acc` of `run()` -/
  rec_val : K
  grad_acc : Vec K nc
  /-- `rval`, `grad_r`: the accumulators of `run_local()` -/
  rval : K
  grad_r : Vec K nc
  /-- `rec_prob[my_rank_]->request_`, the send handle -/
  rec_prob : MPI_Request
  /-- `req_cont_idx[my_rank_]->request_`, the receive handle -/
  req_cont_idx : MPI_Request
  /-- `req_cont_idx[my_rank_]->value()` -/
  req_cont_idx_value : Int
  /-- tag 1: indices the master has sent and this rank has not yet received -/
  inbox : List Int
  /-- tag 2: what this rank has sent, oldest first -/
  outbox : List (Msg K nc)
  /-- the indices handed to `eval_f_rterm`, oldest first -/
  evaluated : List Int

section worker

variable {K : Type} [LinearOrderedField K] {n nc : Nat}

/-- An evaluator rank at the start of its block: fresh handles
(`new ReqRecourseApprox(nc_)`, `new ReqContingencyIdx(0)`); `rec_val`,
`grad_acc` hold what the previous iteration left (`rec_val0`, `grad_acc0`), and
so do `rval`, `grad_r` in `run()`, whereas `run_local()` has just executed
`rval = 0.; grad_r->setToZero();`. -/
def worker_init (a : hiopAlgPrimalDecomposition K n nc) (rec_val0 : K) (grad_acc0 : Vec K nc)
    (rval0 : K) (grad_r0 : Vec K nc) (inbox : List Int) : Worker K nc :=
  { phase := .at_recv, cont_idx0 := 0,
    rec_val := rec_val0, grad_acc := grad_acc0,
    rval := if a.local_accum_ then 0 else rval0,
    grad_r := if a.local_accum_ then setToZero else grad_r0,
    rec_prob := .MPI_REQUEST_NULL, req_cont_idx := .MPI_REQUEST_NULL, req_cont_idx_value := 0,
    inbox := inbox, outbox := [], evaluated := [] }

/-- Evaluation of the sub-problem `cont_idx[0]` and the two posts that follow
it; the same statements stand after the first `MPI_Recv` and inside the loop.
In `run()`: `rec_val`, `grad_acc` are zeroed and receive value and gradient,
the buffer is sent with `post_send`.  In `run_local()`: value and gradient are
added to `rval`, `grad_r`, and `post_send_end_signal` is used.  Both then
`post_recv` the next index. -/
def worker_eval (a : hiopAlgPrimalDecomposition K n nc) (prob : RecourseProblem K nc)
    (x0 : Vec K nc) (w : Worker K nc) : Except Fault (Worker K nc) := do
  let idx_temp := w.cont_idx0
  -- aux = 0.; bret = eval_f_rterm(idx_temp, nc_, x0_vec, aux);   (bret is ignored)
  let aux := (prob.eval_f_rterm idx_temp x0 0).2
  -- grad_aux->setToZero(); bret = eval_grad_rterm(idx_temp, nc_, x0_vec, *grad_aux);
  let grad_aux := (prob.eval_grad_rterm idx_temp x0 setToZero).2
  let w := { w with evaluated := w.evaluated ++ [idx_temp] }
  let w :=
    if a.local_accum_ then
      { w with rval := w.rval + aux, grad_r := axpy w.grad_r 1 grad_aux }
    else
      { w with rec_val := 0 + aux, grad_acc := axpy setToZero 1 grad_aux }
  -- rec_prob[my_rank_]->wait();
  let w := { w with rec_prob := w.rec_prob.wait }
  -- post_send(2, rank_master, ...) / post_send_end_signal(2, rank_master, ...)
  let q ← w.rec_prob.post
  let msg : Msg K nc := if a.local_accum_ then .end_signal else .result w.rec_val w.grad_acc
  let w := { w with rec_prob := q, outbox := w.outbox ++ [msg] }
  -- req_cont_idx[my_rank_]->post_recv(1, rank_master, ...)
  let q ← w.req_cont_idx.post
  pure { w with req_cont_idx := q }

/-- One step of an evaluator rank.  At the `MPI_Recv`: nothing happens until an
index is there; then it is evaluated.  In the loop: one test of the loop
condition and, if it holds, one execution of the body, where `ready` says
whether `MPI_Test` sees the next index if one has been sent. -/
def worker_step (a : hiopAlgPrimalDecomposition K n nc) (prob : RecourseProblem K nc)
    (x0 : Vec K nc) (ready : Bool) (w : Worker K nc) : Except Fault (Worker K nc) :=
  match w.phase with
  | .at_recv =>
    match w.inbox with
    | [] => pure w
    | cont_i :: rest =>
      worker_eval a prob x0 { w with cont_idx0 := cont_i, inbox := rest, phase := .in_loop }
  | .in_loop =>
    if w.cont_idx0 ≠ -1 then
      -- mpi_test_flag = req_cont_idx[my_rank_]->test();
      match w.req_cont_idx, w.inbox with
      | .MPI_REQUEST_NULL, _ =>
        -- a null request tests as completed; value() is the stale index
        let w := { w with cont_idx0 := w.req_cont_idx_value }
        if w.cont_idx0 = -1 then pure { w with phase := .exited } else worker_eval a prob x0 w
      | .pending, [] => pure w
      | .pending, i :: rest =>
        if ready then
          let w := { w with req_cont_idx := .MPI_REQUEST_NULL, req_cont_idx_value := i,
                            inbox := rest }
          let w := { w with cont_idx0 := w.req_cont_idx_value }
          if w.cont_idx0 = -1 then pure { w with phase := .exited } else worker_eval a prob x0 w
        else pure w
    else pure { w with phase := .exited }
  | .exited => pure w

/-- The evaluator block unfolded for `fuel` steps, the `t`-th test reading
`ready t`. -/
def worker_run (a : hiopAlgPrimalDecomposition K n nc) (prob : RecourseProblem K nc)
    (x0 : Vec K nc) (ready : Nat → Bool) : Nat → Nat → Worker K nc → Except Fault (Worker K nc)
  | 0, _, w => pure w
  | fuel + 1, t, w => do
    let w ← worker_step a prob x0 (ready t) w
    worker_run a prob x0 ready fuel (t + 1) w

/-- The evaluator rank run on the indices `inbox` until it has taken all of
them or has left its loop, every test seeing the index at once. -/
def worker_exec (a : hiopAlgPrimalDecomposition K n nc) (prob : RecourseProblem K nc)
    (x0 : Vec K nc) (rec_val0 : K) (grad_acc0 : Vec K nc) (rval0 : K) (grad_r0 : Vec K nc)
    (inbox : List Int) : Except Fault (Worker K nc) :=
  worker_run a prob x0 (fun _ => true) (inbox.length + 1) 0
    (worker_init a rec_val0 grad_acc0 rval0 grad_r0 inbox)

/-- The tag-2 messages an evaluator rank sends once it has been sent the
indices `inbox`.  (They do not depend on what the rank's variables held on
entry, nor, as shown below, on when its tests succeed.) -/
def worker_posts (a : hiopAlgPrimalDecomposition K n nc) (prob : RecourseProblem K nc)
    (x0 : Vec K nc) (inbox : List Int) : List (Msg K nc) :=
  match worker_exec a prob x0 0 setToZero 0 setToZero inbox with
  | .ok w => w.outbox
  | .error _ => []

end worker

/-! ## The master rank (`my_rank_ == 0`) -/

/-- What the master does on the wire, in the order it does it. -/
inductive Event
  /-- the index `i` is sent to rank `r` (tag 1, by `MPI_Send` or `post_send`) -/
  | send (r : Nat) (i : Int)
  /-- a completed receive from rank `r` is taken into account; `idx` is the
  value of the variable `idx` at that moment -/
  | consume (r : Nat) (idx : Nat)
  deriving DecidableEq, Repr

/-- State of the master rank within an outer iteration, followed by the state
of the wire as the master sees it. -/
structure Master (K : Type) (nc : Nat) where
  /-- `idx`: the next contingency to be sent out -/
  idx : Nat
  rval : K
  grad_r : Vec K nc
  finish_flag : Nat → Int
  last_loop : Int
  /-- `rec_prob[r]->request_`, the receive handles -/
  rec_prob : Nat → MPI_Request
  /-- the buffer of `rec_prob[r]`: `value()` and `grad(i)` -/
  rec_prob_buffer : Nat → K × Vec K nc
  /-- `req_cont_idx[r]->request_`, the send handles -/
  req_cont_idx : Nat → MPI_Request
  /-- `req_cont_idx[r]->value()` -/
  req_cont_idx_value : Nat → Int
  /-- tag 1: every index sent to rank `r` so far, oldest first -/
  inbox : Nat → List Int
  /-- tag 2: how many messages of rank `r` have been received so far -/
  nrecv : Nat → Nat
  /-- the wire events so far, oldest first -/
  log : List Event

/-- A fault of the master comes with the wire events that preceded it. -/
abbrev MasterM (K : Type) (nc : Nat) : Type := Except (Fault × List Event) (Master K nc)

section master

variable {K : Type} [LinearOrderedField K] {n nc : Nat}

/-- The vector `cont_idx` of the master: `cont_idx[i] = i` for `i < S_`. -/
def cont_idx (a : hiopAlgPrimalDecomposition K n nc) : List Int :=
  (List.range a.S_).map Int.ofNat

/-- The ranks visited by `for(int r = 1; r < comm_size_; r++)`. -/
def ranks (a : hiopAlgPrimalDecomposition K n nc) : List Nat :=
  List.range' 1 (a.comm_size_ - 1)

/-- The master on entry to its block: fresh handles, nothing on the wire;
`rval`, `grad_r` and the receive buffers hold whatever they held. -/
def master_init (rval0 : K) (grad_r0 : Vec K nc) (buf0 : Nat → K × Vec K nc) : Master K nc :=
  { idx := 0, rval := rval0, grad_r := grad_r0, finish_flag := fun _ => 0, last_loop := 0,
    rec_prob := fun _ => .MPI_REQUEST_NULL, rec_prob_buffer := buf0,
    req_cont_idx := fun _ => .MPI_REQUEST_NULL, req_cont_idx_value := fun _ => 0,
    inbox := fun _ => [], nrecv := fun _ => 0, log := [] }

/-- A `post_*` call of the master; a failed assertion stops it. -/
def master_post (log : List Event) (q : MPI_Request) : Except (Fault × List Event) MPI_Request :=
  match q.post with
  | .ok q1 => .ok q1
  | .error f => .error (f, log)

/-- Body of the first `for` loop: `cur_idx = cont_idx[idx]`, `MPI_Send` of it to
rank `r`, `idx += 1`. -/
def master_initial_send (a : hiopAlgPrimalDecomposition K n nc) (m : Master K nc) (r : Nat) :
    MasterM K nc :=
  match (cont_idx a)[m.idx]? with
  | none => .error (Fault.cont_idx_out_of_range, m.log)
  | some cur_idx =>
    .ok { m with inbox := Function.update m.inbox r (m.inbox r ++ [cur_idx]),
                 log := m.log ++ [Event.send r cur_idx],
                 idx := m.idx + 1 }

/-- Body of the second `for` loop: `rec_prob[r]->post_recv(2, r, ...)`, in
`run_local()` `post_recv_end_signal`. -/
def master_initial_recv (m : Master K nc) (r : Nat) : MasterM K nc := do
  let q ← master_post m.log (m.rec_prob r)
  pure { m with rec_prob := Function.update m.rec_prob r q }

/-- Start of the master block, up to the `while` loop: `rval`, `grad_r` zeroed
(`run()` does it here, `run_local()` just before the rank test), the assertion
on `S_`, the initial sends and receives, `finish_flag` and `last_loop`
zeroed. -/
def master_begin (a : hiopAlgPrimalDecomposition K n nc) (m : Master K nc) : MasterM K nc := do
  let m := { m with rval := 0, grad_r := setToZero }
  if ¬ ((a.S_ : Int) ≥ (a.comm_size_ : Int) - 1) then
    throw (Fault.S_lt_workers, m.log)
  let m := { m with idx := 0 }
  let m ← (ranks a).foldlM (master_initial_send a) m
  let m ← (ranks a).foldlM master_initial_recv m
  pure { m with finish_flag := fun _ => 0, last_loop := 0 }

/-- The call `rec_prob[r]->test()` of the master.  A pending receive completes
when the schedule says so (`ready`) and rank `r` has sent a message not yet
received; the message then fills the buffer (an end signal carries no
data). -/
def master_test (a : hiopAlgPrimalDecomposition K n nc) (prob : RecourseProblem K nc)
    (x0 : Vec K nc) (ready : Bool) (r : Nat) (m : Master K nc) : Bool × Master K nc :=
  match m.rec_prob r with
  | .MPI_REQUEST_NULL => (true, m)
  | .pending =>
    match (worker_posts a prob x0 (m.inbox r))[m.nrecv r]? with
    | none => (false, m)
    | some msg =>
      if ready then
        (true, { m with
          rec_prob := Function.update m.rec_prob r .MPI_REQUEST_NULL,
          nrecv := Function.update m.nrecv r (m.nrecv r + 1),
          rec_prob_buffer :=
            match msg with
            | .result v g => Function.update m.rec_prob_buffer r (v, g)
            | .end_signal => m.rec_prob_buffer })
      else (false, m)

/-- Body of the `for` loop inside the `while` loop, for rank `r`. -/
def master_visit (a : hiopAlgPrimalDecomposition K n nc) (prob : RecourseProblem K nc)
    (x0 : Vec K nc) (ready : Bool) (m : Master K nc) (r : Nat) : MasterM K nc :=
  let tm := master_test a prob x0 ready r m
  let mpi_test_flag := tm.1
  let m := tm.2
  if mpi_test_flag = true ∧ m.finish_flag r = 0 then do
    -- add to the master rank variables (commented out in run_local)
    let m :=
      if a.local_accum_ then m
      else { m with rval := m.rval + (m.rec_prob_buffer r).1,
                    grad_r := fun i => m.grad_r i + (m.rec_prob_buffer r).2 i }
    let m := { m with log := m.log ++ [Event.consume r m.idx] }
    let m := if m.last_loop ≠ 0 then { m with finish_flag := Function.update m.finish_flag r 1 }
             else m
    let m ←
      if m.idx < a.S_ then do
        -- req_cont_idx[r]->wait(); set_idx(cont_idx[idx]); post_send(1, r, ...);
        let q := (m.req_cont_idx r).wait
        match (cont_idx a)[m.idx]? with
        | none => throw (Fault.cont_idx_out_of_range, m.log)
        | some i =>
          let q ← master_post m.log q
          let m := { m with req_cont_idx := Function.update m.req_cont_idx r q,
                            req_cont_idx_value := Function.update m.req_cont_idx_value r i,
                            inbox := Function.update m.inbox r (m.inbox r ++ [i]),
                            log := m.log ++ [Event.send r i] }
          -- rec_prob[r]->post_recv(2, r, ...) / post_recv_end_signal(2, r, ...)
          let q ← master_post m.log (m.rec_prob r)
          pure { m with rec_prob := Function.update m.rec_prob r q }
      else
        pure { m with finish_flag := Function.update m.finish_flag r 1, last_loop := 1 }
    pure { m with idx := m.idx + 1 }
  else pure m

/-- One execution of the body of the `while` loop: the `for` loop over the
ranks, then the recomputation of `last_loop`.  `ready r` is what the schedule
says for rank `r` in this pass. -/
def master_pass (a : hiopAlgPrimalDecomposition K n nc) (prob : RecourseProblem K nc)
    (x0 : Vec K nc) (ready : Nat → Bool) (m : Master K nc) : MasterM K nc := do
  let m ← (ranks a).foldlM (fun m r => master_visit a prob x0 (ready r) m r) m
  if m.last_loop ≠ 0 then
    pure { m with last_loop := if (ranks a).any (fun r => m.finish_flag r = 0) then 1 else 0 }
  else pure m

/-- The loop `while(idx <= S_ || last_loop)`, unfolded for at most `fuel`
passes; pass number `t` reads the schedule at `t`. -/
def master_loop (a : hiopAlgPrimalDecomposition K n nc) (prob : RecourseProblem K nc)
    (x0 : Vec K nc) (ready : Nat → Nat → Bool) : Nat → Nat → Master K nc → MasterM K nc
  | 0, _, m =>
    if m.idx ≤ a.S_ ∨ m.last_loop ≠ 0 then .error (Fault.still_polling, m.log) else .ok m
  | fuel + 1, t, m =>
    if m.idx ≤ a.S_ ∨ m.last_loop ≠ 0 then do
      let m ← master_pass a prob x0 (ready t) m
      master_loop a prob x0 ready fuel (t + 1) m
    else .ok m

/-- Body of the loop that ends the evaluators: `req_cont_idx[r]->wait()`,
`set_idx(-1)`, `post_send(1, r, ...)`. -/
def master_sentinel (m : Master K nc) (r : Nat) : MasterM K nc := do
  let q := (m.req_cont_idx r).wait
  let q ← master_post m.log q
  pure { m with req_cont_idx := Function.update m.req_cont_idx r q,
                req_cont_idx_value := Function.update m.req_cont_idx_value r (-1),
                inbox := Function.update m.inbox r (m.inbox r ++ [-1]),
                log := m.log ++ [Event.send r (-1)] }

/-- After the `while` loop: in `run()` `rval /= S_` and
`grad_r->scale(1.0 / S_)`; then the end signal to every evaluator. -/
def master_end (a : hiopAlgPrimalDecomposition K n nc) (m : Master K nc) : MasterM K nc := do
  let m :=
    if a.local_accum_ then m
    else { m with rval := m.rval / (a.S_ : K), grad_r := scale m.grad_r (1 / (a.S_ : K)) }
  (ranks a).foldlM master_sentinel m

/-- The second `if(my_rank_ == 0)` block, up to its assertions: in
`run_local()` the assertions that `rval` and `grad_r` are zero; the final
`wait()` on both handles of every evaluator; the assertions that every handle
of both vectors has `request_ == MPI_REQUEST_NULL`. -/
def master_finish (a : hiopAlgPrimalDecomposition K n nc) (m : Master K nc) : MasterM K nc := do
  if a.local_accum_ = true ∧ ¬ (m.rval = 0 ∧ ∀ i, m.grad_r i = 0) then
    throw (Fault.accumulator_not_zero, m.log)
  let m := (ranks a).foldl
    (fun m r => { m with rec_prob := Function.update m.rec_prob r (m.rec_prob r).wait,
                         req_cont_idx := Function.update m.req_cont_idx r (m.req_cont_idx r).wait })
    m
  if (List.range a.comm_size_).all
      (fun r => m.rec_prob r = .MPI_REQUEST_NULL ∧ m.req_cont_idx r = .MPI_REQUEST_NULL) then
    pure m
  else throw (Fault.request_not_completed, m.log)

/-- The master's side of the distribution and collection of one outer
iteration, up to the `while` loop's exit. -/
def master_dispatch (a : hiopAlgPrimalDecomposition K n nc) (prob : RecourseProblem K nc)
    (x0 : Vec K nc) (ready : Nat → Nat → Bool) (fuel : Nat) (m : Master K nc) : MasterM K nc := do
  let m ← master_begin a m
  master_loop a prob x0 ready fuel 0 m

/-- The master's side of one outer iteration, through the end signals and the
final waits. -/
def master_block (a : hiopAlgPrimalDecomposition K n nc) (prob : RecourseProblem K nc)
    (x0 : Vec K nc) (ready : Nat → Nat → Bool) (fuel : Nat) (m : Master K nc) : MasterM K nc := do
  let m ← master_dispatch a prob x0 ready fuel m
  let m ← master_end a m
  master_finish a m

/-- The evaluator of rank `r` as the end of the outer iteration finds it: it
has been sent `m.inbox r` and must have left its loop.  `prev r` is what its
variables `rec_val`, `grad_acc`, `rval`, `grad_r` held on entry. -/
def worker_final (a : hiopAlgPrimalDecomposition K n nc) (prob : RecourseProblem K nc)
    (x0 : Vec K nc) (prev : Nat → (K × Vec K nc) × (K × Vec K nc)) (m : Master K nc) (r : Nat) :
    Except (Fault × List Event) (Worker K nc) :=
  match worker_exec a prob x0 (prev r).1.1 (prev r).1.2 (prev r).2.1 (prev r).2.2 (m.inbox r) with
  | .ok w => if w.phase = .exited then .ok w else .error (Fault.still_polling, m.log)
  | .error f => .error (f, m.log)

/-- The aggregate `(rval, grad_r)` rank 0 holds when the distribution and
collection of one outer iteration are over.  In `run()` it is what the master
block left.  In `run_local()` the two `MPI_Reduce` sum `rval` and `grad_r` of
all ranks into `rval_main`, `grad_r_main`, which rank 0 copies and divides by
`S_`. -/
def dispatch_aggregate (a : hiopAlgPrimalDecomposition K n nc) (prob : RecourseProblem K nc)
    (x0 : Vec K nc) (ready : Nat → Nat → Bool) (fuel : Nat) (m : Master K nc)
    (prev : Nat → (K × Vec K nc) × (K × Vec K nc)) : Except (Fault × List Event) (K × Vec K nc) := do
  let m ← master_dispatch a prob x0 ready fuel m
  let m ← master_end a m
  let ws ← (ranks a).mapM (worker_final a prob x0 prev m)
  let m ← master_finish a m
  if a.local_accum_ then
    let rval_main := m.rval + (ws.map (fun w => w.rval)).sum
    let grad_r_main : Vec K nc := fun i => m.grad_r i + (ws.map (fun w => w.grad_r i)).sum
    pure (rval_main / (a.S_ : K), scale grad_r_main (1 / (a.S_ : K)))
  else pure (m.rval, m.grad_r)

/-- The aggregation of `run_single()`: every index of `cont_idx` in turn,
`rval += aux` and `grad_r->axpy(1.0, *grad_aux)`, then the division by
`S_`. -/
def run_single_aggregate (a : hiopAlgPrimalDecomposition K n nc) (prob : RecourseProblem K nc)
    (x0 : Vec K nc) : K × Vec K nc :=
  let acc := (cont_idx a).foldl
    (fun (acc : K × Vec K nc) idx_temp =>
      let aux := (prob.eval_f_rterm idx_temp x0 0).2
      let grad_aux := (prob.eval_grad_rterm idx_temp x0 setToZero).2
      (acc.1 + aux, axpy acc.2 1 grad_aux))
    (0, setToZero)
  (acc.1 / (a.S_ : K), scale acc.2 (1 / (a.S_ : K)))

end master

/-! ## Vocabulary of the statements -/

section specfun

variable {K : Type} [LinearOrderedField K] {n nc : Nat}

/-- The value `f_i(x0)` an evaluation of sub-problem `i` obtains: the content
of `aux` after `aux = 0.; eval_f_rterm(i, nc_, x0_vec, aux)`. -/
def f_rterm (prob : RecourseProblem K nc) (x0 : Vec K nc) (i : Int) : K :=
  (prob.eval_f_rterm i x0 0).2

/-- The gradient `grad f_i(x0)` an evaluation of sub-problem `i` obtains: the
content of `grad_aux` after `grad_aux->setToZero(); eval_grad_rterm(...)`. -/
def grad_rterm (prob : RecourseProblem K nc) (x0 : Vec K nc) (i : Int) : Vec K nc :=
  (prob.eval_grad_rterm i x0 setToZero).2

/-- Value and gradient of sub-problem `i` as one element of `K × Vec K nc`. -/
def rterm (prob : RecourseProblem K nc) (x0 : Vec K nc) (i : Int) : K × Vec K nc :=
  (f_rterm prob x0 i, grad_rterm prob x0 i)

/-- The message that answers index `i`: value and gradient of sub-problem `i`
in `run()`, the end signal in `run_local()`. -/
def worker_reply (a : hiopAlgPrimalDecomposition K n nc) (prob : RecourseProblem K nc)
    (x0 : Vec K nc) (i : Int) : Msg K nc :=
  if a.local_accum_ then .end_signal else .result (f_rterm prob x0 i) (grad_rterm prob x0 i)

/-- An evaluator rank inside its loop, having taken and evaluated the indices
`done` (none of them `-1`), with `rest` still to be received, both handles
in flight, and, in `run_local()`, the sums over `done` in `rval`, `grad_r`. -/
def WLoop (a : hiopAlgPrimalDecomposition K n nc) (prob : RecourseProblem K nc) (x0 : Vec K nc)
    (rval0 : K) (grad_r0 : Vec K nc) (done rest : List Int) (w : Worker K nc) : Prop :=
  w.phase = .in_loop ∧ w.inbox = rest ∧ w.outbox = done.map (worker_reply a prob x0) ∧
  w.evaluated = done ∧ w.rec_prob = .pending ∧ w.req_cont_idx = .pending ∧
  w.cont_idx0 ≠ -1 ∧ (∀ i ∈ done, i ≠ -1) ∧
  w.rval = (if a.local_accum_ then (done.map (f_rterm prob x0)).sum else rval0) ∧
  w.grad_r = (if a.local_accum_ then (done.map (grad_rterm prob x0)).sum else grad_r0)

/-- An evaluator rank past its loop, having evaluated exactly the indices
`done`, with `rest` never received, and no receive in flight. -/
def WExited (a : hiopAlgPrimalDecomposition K n nc) (prob : RecourseProblem K nc) (x0 : Vec K nc)
    (rval0 : K) (grad_r0 : Vec K nc) (done rest : List Int) (w : Worker K nc) : Prop :=
  w.phase = .exited ∧ w.inbox = rest ∧ w.outbox = done.map (worker_reply a prob x0) ∧
  w.evaluated = done ∧ w.req_cont_idx = .MPI_REQUEST_NULL ∧
  w.rval = (if a.local_accum_ then (done.map (f_rterm prob x0)).sum else rval0) ∧
  w.grad_r = (if a.local_accum_ then (done.map (grad_rterm prob x0)).sum else grad_r0)

/-- The receive handle of an evaluator is idle before the first index has
been received and in flight inside the loop. -/
def WSafe (w : Worker K nc) : Prop :=
  (w.phase = .at_recv → w.req_cont_idx = .MPI_REQUEST_NULL) ∧
  (w.phase = .in_loop → w.req_cont_idx = .pending)

/-- A schedule of an evaluator's tests in which a test succeeds again and
again. -/
def FairPoll (ready : Nat → Bool) : Prop :=
  ∀ t, ∃ t1, t ≤ t1 ∧ ready t1 = true

/-- A schedule of the master's tests in which, for every evaluator rank, a
test succeeds again and again. -/
def Fair (a : hiopAlgPrimalDecomposition K n nc) (ready : Nat → Nat → Bool) : Prop :=
  ∀ r ∈ ranks a, ∀ t, ∃ t1, t ≤ t1 ∧ ready t1 r = true

end specfun

/-! ## Vocabulary of the statements: the trust-region quantities -/

section specfun2

variable {K : Type} [LinearOrderedField K] {n : Nat}

/-- The predicted value of the spec:
`rk = f_{k-1} + linear_term + 0.5 alpha ||s||^2`. -/
def predicted_value (sqrt : K → K) (h : HessianApprox K n) : K :=
  h.fkm1 + h.fkm1_lin + 1 / 2 * h.alpha_ * twonorm sqrt h.skm1 ^ 2

/-- The trust-region ratio of the spec: actual decrease over predicted
decrease of the sum of the recourse value and the basecase value. -/
def trust_ratio (sqrt : K → K) (h : HessianApprox K n) (base_v base_vm1 : K) : K :=
  ((h.fkm1 + base_vm1) - (h.fk + base_v)) /
    ((h.fkm1 + base_vm1) - (predicted_value sqrt h + base_v))

end specfun2

section specfun3

variable {K : Type} [LinearOrderedField K] {n : Nat}

/-- The local `alpha_g_ratio` of `update_ratio()`:
`alpha_ * (skm1 . skm1) / |fkm1_lin|`. -/
def alpha_g_ratio (h : HessianApprox K n) : K :=
  h.alpha_ * dotProductWith h.skm1 h.skm1 / |h.fkm1_lin|

end specfun3

/-! ## Shape of the wire log, and the invariants of the master's loop -/

section inv

variable {K : Type} [LinearOrderedField K] {n nc : Nat}

/-- The events of the initial blocking sends: rank `r` is sent index `r - 1`. -/
def initLog (a : hiopAlgPrimalDecomposition K n nc) : List Event :=
  (ranks a).map (fun r => Event.send r (Int.ofNat (r - 1)))

/-- The events of the dispatch phase: the results consumed while `idx < S_`,
from the ranks `rs` in turn, each followed at once by the sending of the next
index to the same rank; `j` is the value of `idx` at the first of them. -/
def mainLog : Nat → List Nat → List Event
  | _, [] => []
  | j, r :: rs => Event.consume r j :: Event.send r (Int.ofNat j) :: mainLog (j + 1) rs

/-- The events of the drain phase: the results consumed once `idx ≥ S_`, from
the ranks `ds` in turn, with nothing sent. -/
def drainLog : Nat → List Nat → List Event
  | _, [] => []
  | j, r :: ds => Event.consume r j :: drainLog (j + 1) ds

/-- The events of the end signals: `-1` to every rank in turn. -/
def sentinelLog (a : hiopAlgPrimalDecomposition K n nc) : List Event :=
  (ranks a).map (fun r => Event.send r (-1))

/-- The indices sent, in the order of the log. -/
def sentIndices : List Event → List Int
  | [] => []
  | Event.send _ i :: l => i :: sentIndices l
  | Event.consume _ _ :: l => sentIndices l

/-- The ranks whose results were consumed, with the value of `idx` at that
moment, in the order of the log. -/
def consumed : List Event → List (Nat × Nat)
  | [] => []
  | Event.send _ _ :: l => consumed l
  | Event.consume r j :: l => (r, j) :: consumed l

/-- Sum of the values and gradients of the sub-problems `l`. -/
def rtermSum (prob : RecourseProblem K nc) (x0 : Vec K nc) (l : List Int) : K × Vec K nc :=
  (l.map (rterm prob x0)).sum

/-- The invariant of the master between two visits of ranks.
* an evaluator not yet finished has one index unanswered and the receive for
  its answer in flight; a finished one has none, and no receive in flight;
* no handle of another rank has been touched, every evaluator has been sent
  an index, and no `-1` was sent;
* the log is: initial sends, dispatch phase, drain phase, the drained ranks
  being the finished ones, each once;
* the indices sent so far are `0 .. min idx S_ - 1`, and `rval`, `grad_r` are
  the sums over the answered ones (zero in `run_local()`). -/
def MInv (a : hiopAlgPrimalDecomposition K n nc) (prob : RecourseProblem K nc) (x0 : Vec K nc)
    (m : Master K nc) : Prop :=
  (∀ r ∈ ranks a, m.finish_flag r = 0 →
    m.rec_prob r = .pending ∧ (m.inbox r).length = m.nrecv r + 1) ∧
  (∀ r ∈ ranks a, m.finish_flag r ≠ 0 →
    m.rec_prob r = .MPI_REQUEST_NULL ∧ (m.inbox r).length = m.nrecv r) ∧
  (∀ r ∈ ranks a, ∀ i ∈ m.inbox r, i ≠ -1) ∧
  (∀ r, r ∉ ranks a → m.rec_prob r = .MPI_REQUEST_NULL ∧ m.req_cont_idx r = .MPI_REQUEST_NULL) ∧
  (∃ rs ds, m.log = initLog a ++ mainLog (a.comm_size_ - 1) rs ++ drainLog a.S_ ds ∧
    (∀ r ∈ rs, r ∈ ranks a) ∧
    rs.length + (a.comm_size_ - 1) = min m.idx a.S_ ∧ ds.length + a.S_ = max m.idx a.S_ ∧
    ds.Nodup ∧ ∀ r, r ∈ ds ↔ r ∈ ranks a ∧ m.finish_flag r ≠ 0) ∧
  (((ranks a).map (fun r => rtermSum prob x0 (m.inbox r))).sum =
    rtermSum prob x0 ((List.range (min m.idx a.S_)).map Int.ofNat)) ∧
  ((m.rval, m.grad_r) =
    if a.local_accum_ then 0
    else ((ranks a).map (fun r => rtermSum prob x0 ((m.inbox r).take (m.nrecv r)))).sum) ∧
  (∀ r ∈ ranks a, m.inbox r ≠ [])

/-- The invariant inside a pass of the `while` loop: `last_loop` is set exactly
when `idx` has passed `S_`. -/
def PInv (a : hiopAlgPrimalDecomposition K n nc) (prob : RecourseProblem K nc) (x0 : Vec K nc)
    (m : Master K nc) : Prop :=
  MInv a prob x0 m ∧ (a.S_ < m.idx ↔ m.last_loop ≠ 0)

/-- The invariant at the head of the `while` loop: until `idx` passes `S_`,
`last_loop` is zero; afterwards it is set exactly when some evaluator is not
finished. -/
def HeadInv (a : hiopAlgPrimalDecomposition K n nc) (prob : RecourseProblem K nc) (x0 : Vec K nc)
    (m : Master K nc) : Prop :=
  MInv a prob x0 m ∧ (m.idx ≤ a.S_ → m.last_loop = 0) ∧
  (a.S_ < m.idx → (m.last_loop ≠ 0 ↔ ∃ r ∈ ranks a, m.finish_flag r = 0))

/-- The state in which the master reaches its `while` loop. -/
def master_at_loop (a : hiopAlgPrimalDecomposition K n nc) (buf0 : Nat → K × Vec K nc) :
    Master K nc :=
  { idx := a.comm_size_ - 1, rval := 0, grad_r := setToZero, finish_flag := fun _ => 0,
    last_loop := 0,
    rec_prob := fun r => if r ∈ ranks a then .pending else .MPI_REQUEST_NULL,
    rec_prob_buffer := buf0,
    req_cont_idx := fun _ => .MPI_REQUEST_NULL, req_cont_idx_value := fun _ => 0,
    inbox := fun r => if r ∈ ranks a then [Int.ofNat (r - 1)] else [],
    nrecv := fun _ => 0, log := initLog a }


end inv

/-! ## The outer loop -/

/-- What `stopping_criteria` writes to the log before it returns `true`. -/
inductive StopMessage
  /-- "reaching error tolerance, successfully found solution" -/
  | reaching_error_tolerance
  /-- "reached maximum iterations, optimization stops." -/
  | reached_maximum_iterations
  /-- "reached acceptable tolerance of ... for ... iterations, optimization stops." -/
  | reached_acceptable_tolerance
  deriving DecidableEq, Repr

/-- The object `evaluator` of class `RecourseApproxEvaluator` as the driver
fills it with `set_rval`, `set_rgrad`, `set_rhess`, `set_x0`.  The class is
declared outside the sources at hand; its constructor is taken to allocate
the vectors, so that `assert(evaluator->get_rgrad() != NULL)` holds. -/
structure RecourseApproxEvaluator (K : Type) (nc : Nat) where
  rval : K
  rgrad : Vec K nc
  rhess : Vec K nc
  x0 : Vec K nc

/-- The interface `hiopInterfacePriDecProblem` behind `master_prob_`, supplied
by the user of the solver.  The master side is an object with a state of type
`σ`: `solve_master(x, include_r, ...)` takes the state and the content of `x`
and gives back the status, the new content of `x` and the new state;
`set_recourse_approx_evaluator` gives back its `bool` and the new state;
`get_objective` reads the state.  The evaluations of the recourse terms are
`rterms`. -/
structure hiopInterfacePriDecProblem (K : Type) (σ : Type) (n nc : Nat) where
  rterms : RecourseProblem K nc
  solve_master : σ → Vec K n → Bool → hiopSolveStatus × Vec K n × σ
  get_objective : σ → K
  set_recourse_approx_evaluator : σ → RecourseApproxEvaluator K nc → Bool × σ

/-- A call of the driver into the master side of `master_prob_`. -/
inductive Call (K : Type) (nc : Nat)
  /-- `solve_master(*x_, include_r, 0, 0, 0, file)` -/
  | solve_master (include_r : Bool)
  /-- `set_recourse_approx_evaluator(nc_, evaluator)` with the evaluator's content -/
  | set_recourse_approx_evaluator (ev : RecourseApproxEvaluator K nc)

/-- What stops the driver before its `return`: the assertion `nc_ == n_`, or
a fault of the distribution and collection of an outer iteration. -/
inductive RunFault
  /-- `assert(nc_ == n_)` -/
  | nc_neq_n
  /-- fault inside the dispatch of an iteration, with the wire events so far -/
  | dispatch (f : Fault) (log : List Event)

/-- One record per outer iteration of the rank that solves the master
problem. -/
structure IterRecord (K : Type) (nc : Nat) where
  /-- the loop variable `it` -/
  it : Nat
  /-- the aggregate, the coupled point and `get_objective()` at the model update -/
  inp : IterInput K nc
  /-- the trust-region state `get_alpha_f` was called on, the state after the
  model update, and the locals after it -/
  step : ModelStep K nc
  /-- first argument of the call `stopping_criteria(it, convg, accp_count)` -/
  sc_it : Int
  /-- second argument of the call -/
  sc_convg : K
  /-- third argument of the call -/
  sc_accp_count : Int
  /-- what the call returned -/
  stop : Bool
  /-- what the call logged -/
  message : List StopMessage

/-- The variables of the rank that solves the master problem (the only rank of
`run_single()`, rank 0 of `run()` and `run_local()`), followed by what it has
done so far. -/
structure Driver (K : Type) (σ : Type) (n nc : Nat) where
  x_ : Vec K n
  /-- state of the object behind `master_prob_` -/
  master_prob_ : σ
  hess_appx_2 : HessianApprox K nc
  /-- `base_val`, `base_valm1`, `convg`, `convg_g`, `convg_f`, `hess_appx` -/
  vars : DriverVars K nc
  rval : K
  grad_r : Vec K nc
  x0 : Vec K nc
  recourse_val : K
  dinf : K
  accp_count : Int
  end_signal : Int
  it_ : Int
  solver_status_ : hiopSolveStatus
  /-- the calls into `master_prob_`, oldest first -/
  calls : List (Call K nc)
  /-- one record per outer iteration, oldest first -/
  trace : List (IterRecord K nc)
  /-- rank 0 of `run()`, `run_local()`: the two `MPI_Bcast` of each outer
  iteration, `x_` and `end_signal`, oldest first -/
  bcasts : List (Vec K n × Int)

/-- What an outer iteration of `run()`, `run_local()` meets outside rank 0:
the outcomes of the `MPI_Test` calls, the bound of the unfolding of the
polling loop, the content of the fresh receive buffers, and what the variables
`rec_val`, `grad_acc`, `rval`, `grad_r` of the evaluator ranks hold on
entry.  The first argument is the outer iteration. -/
structure Schedule (K : Type) (nc : Nat) where
  ready : Nat → Nat → Nat → Bool
  fuel : Nat → Nat
  buf0 : Nat → Nat → K × Vec K nc
  prev : Nat → Nat → (K × Vec K nc) × (K × Vec K nc)

namespace hiopAlgPrimalDecomposition

variable {K : Type} [LinearOrderedField K] {n nc : Nat}

/-- The method `stopping_criteria(it, convg, accp_count)`: the returned `bool`
and what it logs.  The `int` arguments are integers; `max_iter_ - 1` is exact
(no overflow for `max_iter_ > INT_MIN`). -/
def stopping_criteria (a : hiopAlgPrimalDecomposition K n nc) (it : Int) (convg : K)
    (accp_count : Int) : Bool × List StopMessage :=
  if convg < a.tol_ then (true, [.reaching_error_tolerance])
  else if it = a.max_iter_ - 1 then (true, [.reached_maximum_iterations])
  else if accp_count = a.accp_count_ then (true, [.reached_acceptable_tolerance])
  else (false, [])

/-- The method `step_size_inf(nc, idx, x, x0)` at `idx = xc_idx_`: the two-norm
of `x[idx] - x0`. -/
def step_size_inf (sqrt : K → K) (a : hiopAlgPrimalDecomposition K n nc) (x : Vec K n)
    (x0 : Vec K nc) : K :=
  let temp : Vec K nc := fun i => x (a.xc_idx_ i)
  let temp := axpy temp (-1) x0
  twonorm sqrt temp

/-- The coupled point `x0` taken from `x_`: `copy_from_indexes(*x_, *xc_idx_)`
if `nc_ < n_`, otherwise the assertion `nc_ == n_` and
`copyFromStarting(0, *x_)`; `none` when the assertion fails. -/
def coupled_point (a : hiopAlgPrimalDecomposition K n nc) (x : Vec K n) : Option (Vec K nc) :=
  if nc < n then some (fun i => x (a.xc_idx_ i))
  else if h : nc = n then some (fun i => x (Fin.cast h i))
  else none

end hiopAlgPrimalDecomposition

/-- Content of the vectors the driver allocates and does not fill before the
outer loop: the four vectors of `hess_appx_2`, and, in `run_single()`,
`hess_appx` and `x0` (`alloc_clone`). -/
structure Uninit (K : Type) (nc : Nat) where
  hess_vectors : Vec K nc
  hess_appx : Vec K nc
  x0 : Vec K nc

section outer

variable {K : Type} [LinearOrderedField K] {σ : Type} {n nc : Nat}

/-- The variables of `run_single()` on entry to its outer loop: `x_` zeroed,
`rval = 0`, `grad_r` zeroed, `hess_appx_2` created from `alpha_ratio_`,
`alpha_min_`, `alpha_max_`, `base_val = base_valm1 = recourse_val = dinf = 0`,
`convg = convg_f = convg_g = 1e20`, `accp_count = 0`. -/
def run_single_init (a : hiopAlgPrimalDecomposition K n nc) (decl : HessianApprox K nc)
    (u : Uninit K nc) (s0 : σ) : Driver K σ n nc :=
  { x_ := setToZero, master_prob_ := s0,
    hess_appx_2 := a.new_hess_appx_2 decl u.hess_vectors,
    vars := { base_val := 0, base_valm1 := 0, convg := 10 ^ 20, convg_g := 10 ^ 20,
              convg_f := 10 ^ 20, hess_appx := u.hess_appx },
    rval := 0, grad_r := setToZero, x0 := u.x0, recourse_val := 0, dinf := 0,
    accp_count := 0, end_signal := 0, it_ := a.it_, solver_status_ := a.solver_status_,
    calls := [], trace := [], bcasts := [] }

/-- The variables of rank 0 of `run()` and `run_local()` on entry to the outer
loop: as in `run_single()`, with `x_` set to the constant `0.0`, `hess_appx`
and `x0` zeroed, and `end_signal = 0`.  The statement
`if(ver_ >= hovSummary) hess_appx_2->set_verbosity(ver_);` of the two
methods is left out: `hovSummary` is declared outside the sources at hand, and
the member `ver_` of `HessianApprox`, which the callee sets after
`assert(i <= 3 && i >= 0)`, is read by the printing only. -/
def run_master_init (a : hiopAlgPrimalDecomposition K n nc) (decl : HessianApprox K nc)
    (u : Uninit K nc) (s0 : σ) : Driver K σ n nc :=
  { x_ := setToConstant 0, master_prob_ := s0,
    hess_appx_2 := a.new_hess_appx_2 decl u.hess_vectors,
    vars := { base_val := 0, base_valm1 := 0, convg := 10 ^ 20, convg_g := 10 ^ 20,
              convg_f := 10 ^ 20, hess_appx := setToZero },
    rval := 0, grad_r := setToZero, x0 := setToZero, recourse_val := 0, dinf := 0,
    accp_count := 0, end_signal := 0, it_ := a.it_, solver_status_ := a.solver_status_,
    calls := [], trace := [], bcasts := [] }

/-- Head of an outer iteration: `it_ = it`, and for `it == 0` the solve of the
basecase, `solve_master(*x_, false, ...)`, after which `base_val` and
`base_valm1` are `get_objective()`. -/
def initial_solve (p : hiopInterfacePriDecProblem K σ n nc) (it : Nat) (d : Driver K σ n nc) :
    Driver K σ n nc :=
  let d := { d with it_ := (it : Int) }
  if it = 0 then
    let r := p.solve_master d.master_prob_ d.x_ false
    let base_val := p.get_objective r.2.2
    let base_valm1 := p.get_objective r.2.2
    { d with solver_status_ := r.1, x_ := r.2.1, master_prob_ := r.2.2,
             calls := d.calls ++ [Call.solve_master false],
             vars := { d.vars with base_val := base_val, base_valm1 := base_valm1 } }
  else d

/-- Tail of an outer iteration, from `hess_appx->setToConstant(...)` to the
call of `stopping_criteria`: `hess_appx` set to the constant `c0` (`1e6` in
`run_single()`, `1.0` in `run()` and `run_local()`), the model update, the
evaluator filled and installed, the solve of the full problem
`solve_master(*x_, true, ...)`, `dinf`, the update of `accp_count`, and the
call `stopping_criteria(it, convg, accp_count)`, whose result is the second
component. -/
def model_and_solve (sqrt : K → K) (a : hiopAlgPrimalDecomposition K n nc)
    (p : hiopInterfacePriDecProblem K σ n nc) (c0 : K) (it : Nat) (d : Driver K σ n nc) :
    Driver K σ n nc × Bool :=
  let vars := { d.vars with hess_appx := setToConstant c0 }
  let inp : IterInput K nc :=
    { rval := d.rval, x0 := d.x0, grad_r := d.grad_r,
      objective := p.get_objective d.master_prob_ }
  let pre := (model_pre sqrt it d.hess_appx_2 vars inp).1
  let hv := model_update sqrt it d.hess_appx_2 vars inp
  let evaluator : RecourseApproxEvaluator K nc :=
    { rval := d.rval, rgrad := d.grad_r, rhess := hv.2.hess_appx, x0 := d.x0 }
  let bret := p.set_recourse_approx_evaluator d.master_prob_ evaluator
  let r := p.solve_master bret.2 d.x_ true
  let dinf := a.step_size_inf sqrt r.2.1 d.x0
  let accp_count := if hv.2.convg ≤ a.accp_tol_ then d.accp_count + 1 else 0
  let sc := a.stopping_criteria (it : Int) hv.2.convg accp_count
  let record : IterRecord K nc :=
    { it := it, inp := inp, step := { pre := pre, post := hv.1, vars := hv.2 },
      sc_it := (it : Int), sc_convg := hv.2.convg, sc_accp_count := accp_count,
      stop := sc.1, message := sc.2 }
  ({ d with hess_appx_2 := hv.1, vars := hv.2,
            master_prob_ := r.2.2, x_ := r.2.1, solver_status_ := r.1, dinf := dinf,
            accp_count := accp_count,
            calls := d.calls ++ [Call.set_recourse_approx_evaluator evaluator,
                                 Call.solve_master true],
            trace := d.trace ++ [record] }, sc.1)

/-- Body of the outer loop of `run_single()`; the second component says
whether the loop is left by `break`.  After the head: `rval`, `grad_r` zeroed,
the coupled point, the aggregation, `recourse_val = rval`, and the tail. -/
def run_single_iteration (sqrt : K → K) (a : hiopAlgPrimalDecomposition K n nc)
    (p : hiopInterfacePriDecProblem K σ n nc) (it : Nat) (d : Driver K σ n nc) :
    Except RunFault (Driver K σ n nc × Bool) :=
  let d := initial_solve p it d
  let d := { d with rval := 0, grad_r := setToZero }
  match a.coupled_point d.x_ with
  | none => .error RunFault.nc_neq_n
  | some x0 =>
    let agg := run_single_aggregate a p.rterms x0
    let d := { d with x0 := x0, rval := agg.1, grad_r := agg.2, recourse_val := agg.1 }
    .ok (model_and_solve sqrt a p (10 ^ 6) it d)

/-- Body of the outer loop of `run()` and `run_local()` on rank 0.  `x_` is
broadcast, the evaluators take the coupled point from it, the distribution and
collection deliver the aggregate (`run()` copies it to `recourse_val`,
`run_local()` does not), and after the tail of the iteration `end_signal` is
set to `1` if `stopping_criteria` returned `true`, and
broadcast; the loop is left if `end_signal` is not zero. -/
def run_master_iteration (sqrt : K → K) (a : hiopAlgPrimalDecomposition K n nc)
    (p : hiopInterfacePriDecProblem K σ n nc) (sched : Schedule K nc) (it : Nat)
    (d : Driver K σ n nc) : Except RunFault (Driver K σ n nc × Bool) :=
  let d := initial_solve p it d
  let x_bcast := d.x_
  match a.coupled_point d.x_ with
  | none => .error RunFault.nc_neq_n
  | some x0 =>
    match dispatch_aggregate a p.rterms x0 (sched.ready it) (sched.fuel it)
        (master_init d.rval d.grad_r (sched.buf0 it)) (sched.prev it) with
    | .error (f, l) => .error (RunFault.dispatch f l)
    | .ok agg =>
      let d := { d with x0 := x0, rval := agg.1, grad_r := agg.2,
                        recourse_val := if a.local_accum_ then d.recourse_val else agg.1 }
      let ds := model_and_solve sqrt a p 1 it d
      let d := ds.1
      let end_signal := if ds.2 then 1 else d.end_signal
      .ok ({ d with end_signal := end_signal, bcasts := d.bcasts ++ [(x_bcast, end_signal)] },
           decide (end_signal ≠ 0))

/-- The loop `for(int it = 0; it < max_iter_; it++)` with `k` iterations left
before `it` reaches `max_iter_`; `step` is its body. -/
def outer_loop {D : Type} (step : Nat → D → Except RunFault (D × Bool)) :
    Nat → Nat → D → Except RunFault D
  | 0, _, d => .ok d
  | k + 1, it, d =>
    match step it d with
    | .error e => .error e
    | .ok (d1, true) => .ok d1
    | .ok (d1, false) => outer_loop step k (it + 1) d1

/-- The method `run_single()`: the returned status, `Solve_Success`, and the
variables at the return. -/
def run_single (sqrt : K → K) (a : hiopAlgPrimalDecomposition K n nc)
    (p : hiopInterfacePriDecProblem K σ n nc) (decl : HessianApprox K nc) (u : Uninit K nc)
    (s0 : σ) : Except RunFault (hiopSolveStatus × Driver K σ n nc) :=
  match outer_loop (run_single_iteration sqrt a p) a.max_iter_.toNat 0
      (run_single_init a decl u s0) with
  | .error e => .error e
  | .ok d => .ok (Solve_Success, d)

/-- Rank 0 in the part of `run()` and of `run_local()` for more than one
rank (`a.local_accum_` says which of the two): the returned status,
`solver_status_`, and the variables at the return. -/
def run_master (sqrt : K → K) (a : hiopAlgPrimalDecomposition K n nc)
    (p : hiopInterfacePriDecProblem K σ n nc) (decl : HessianApprox K nc) (u : Uninit K nc)
    (s0 : σ) (sched : Schedule K nc) : Except RunFault (hiopSolveStatus × Driver K σ n nc) :=
  match outer_loop (run_master_iteration sqrt a p sched) a.max_iter_.toNat 0
      (run_master_init a decl u s0) with
  | .error e => .error e
  | .ok d => .ok (d.solver_status_, d)

end outer

/-! ## The evaluator ranks in the outer loop, and the entry points -/

/-- The variables of an evaluator rank (`my_rank_ != 0`) of `run()` and
`run_local()` that the end of an outer iteration reads or writes, followed by
what it has seen so far. -/
structure EvaluatorLoop (K : Type) (n : Nat) where
  x_ : Vec K n
  /-- `convg`, which only rank 0 ever assigns -/
  convg : K
  accp_count : Int
  end_signal : Int
  it_ : Int
  /-- for each completed outer iteration: `end_signal` after the rank's own
  call of `stopping_criteria`, and `end_signal` after `MPI_Bcast` -/
  signals : List (Int × Int)

/-- How an evaluator rank ends: it returns (with the broadcasts of rank 0 it
has not taken part in), or it waits for ever in an `MPI_Bcast` that rank 0
never enters. -/
inductive EvaluatorOutcome (K : Type) (n : Nat)
  | returned (status : hiopSolveStatus) (w : EvaluatorLoop K n)
      (unmatched : List (Vec K n × Int))
  | blocked (w : EvaluatorLoop K n)

section ranks

variable {K : Type} [LinearOrderedField K] {σ : Type} {n nc : Nat}

/-- An evaluator rank on entry to the outer loop: `x_` set to the constant
`0.0`, `convg = 1e20`, `accp_count = 0`, `end_signal = 0`. -/
def evaluator_init (a : hiopAlgPrimalDecomposition K n nc) : EvaluatorLoop K n :=
  { x_ := setToConstant 0, convg := 10 ^ 20, accp_count := 0, end_signal := 0, it_ := a.it_,
    signals := [] }

/-- Body of the outer loop on an evaluator rank, as far as these variables go:
`it_ = it`, `x_` received by `MPI_Bcast` (`b.1`), the evaluator block, which
touches none of them, the update of `accp_count`, the rank's own call of
`stopping_criteria`, and `end_signal` overwritten by the `MPI_Bcast` from rank 0
(`b.2`); the loop is left if `end_signal` is not zero. -/
def evaluator_iteration (a : hiopAlgPrimalDecomposition K n nc) (it : Nat) (b : Vec K n × Int)
    (w : EvaluatorLoop K n) : EvaluatorLoop K n × Bool :=
  let accp_count := if w.convg ≤ a.accp_tol_ then w.accp_count + 1 else 0
  let own := if (a.stopping_criteria (it : Int) w.convg accp_count).1 then 1 else w.end_signal
  let end_signal := b.2
  ({ w with it_ := (it : Int), x_ := b.1, accp_count := accp_count, end_signal := end_signal,
            signals := w.signals ++ [(own, end_signal)] }, decide (end_signal ≠ 0))

/-- The outer loop on an evaluator rank, with `k` iterations left before `it`
reaches `max_iter_`, and `bc` the broadcasts rank 0 makes from now on. -/
def evaluator_loop (a : hiopAlgPrimalDecomposition K n nc) :
    Nat → Nat → List (Vec K n × Int) → EvaluatorLoop K n → EvaluatorOutcome K n
  | 0, _, bc, w => .returned Solve_Success w bc
  | _ + 1, it, [], w => .blocked { w with it_ := (it : Int) }
  | k + 1, it, b :: bc, w =>
    match evaluator_iteration a it b w with
    | (w1, true) => .returned Solve_Success w1 bc
    | (w1, false) => evaluator_loop a k (it + 1) bc w1

/-- An evaluator rank in the part of `run()` and of `run_local()` for more
than one rank. -/
def run_evaluator (a : hiopAlgPrimalDecomposition K n nc) (bc : List (Vec K n × Int)) :
    EvaluatorOutcome K n :=
  evaluator_loop a a.max_iter_.toNat 0 bc (evaluator_init a)

end ranks

/-- What a call of `run()` or `run_local()` amounts to on the calling rank. -/
inductive RunOutcome (K : Type) (σ : Type) (n nc : Nat)
  /-- the rank solves the master problem: `run_single()`, or rank 0 -/
  | solver (r : Except RunFault (hiopSolveStatus × Driver K σ n nc))
  /-- the rank is an evaluator -/
  | evaluator (r : EvaluatorOutcome K n)

section entry

variable {K : Type} [LinearOrderedField K] {σ : Type} {n nc : Nat}

/-- The method `run_local()`: `run_single()` if `comm_size_ == 1`, otherwise
the scheme with local accumulation.  `sched` and `bc` are what the rank meets
from the other ranks. -/
def run_local (sqrt : K → K) (a : hiopAlgPrimalDecomposition K n nc)
    (p : hiopInterfacePriDecProblem K σ n nc) (decl : HessianApprox K nc) (u : Uninit K nc)
    (s0 : σ) (sched : Schedule K nc) (bc : List (Vec K n × Int)) : RunOutcome K σ n nc :=
  if a.comm_size_ = 1 then .solver (run_single sqrt a p decl u s0)
  else if a.my_rank_ = 0 then
    .solver (run_master sqrt { a with local_accum_ := true } p decl u s0 sched)
  else .evaluator (run_evaluator a bc)

/-- The method `run()` of a build with MPI: `run_local()` if the option
`accum_local` is `"yes"`, `run_single()` if `comm_size_ == 1`, otherwise the
fully asynchronous scheme. -/
def run (sqrt : K → K) (a : hiopAlgPrimalDecomposition K n nc)
    (p : hiopInterfacePriDecProblem K σ n nc) (decl : HessianApprox K nc) (u : Uninit K nc)
    (s0 : σ) (sched : Schedule K nc) (bc : List (Vec K n × Int)) : RunOutcome K σ n nc :=
  if a.local_accum_ then run_local sqrt a p decl u s0 sched bc
  else if a.comm_size_ = 1 then .solver (run_single sqrt a p decl u s0)
  else if a.my_rank_ = 0 then .solver (run_master sqrt a p decl u s0 sched)
  else .evaluator (run_evaluator a bc)

end entry

/-! ## Vocabulary of the statements on the outer loop -/

section outerspec

variable {K : Type} [LinearOrderedField K] {σ σ1 : Type} {n nc : Nat}

/-- Length of the longest run of values `≤ tol` at the end of the list `cs`. -/
def streak (tol : K) (cs : List K) : Nat :=
  (cs.reverse.takeWhile (fun c => decide (c ≤ tol))).length

/-- What an outer iteration shows: the iteration index, the coupled point, the
aggregate, the curvature vector installed, the convergence metric, the count
and whether the loop stops. -/
structure Observed (K : Type) (nc : Nat) where
  it : Nat
  x0 : Vec K nc
  rval : K
  grad_r : Vec K nc
  hess_appx : Vec K nc
  alpha : K
  convg : K
  accp_count : Int
  stop : Bool

/-- The visible part of an iteration record. -/
def IterRecord.observed (r : IterRecord K nc) : Observed K nc :=
  { it := r.it, x0 := r.inp.x0, rval := r.inp.rval, grad_r := r.inp.grad_r,
    hess_appx := r.step.vars.hess_appx, alpha := r.step.post.alpha_, convg := r.sc_convg,
    accp_count := r.sc_accp_count, stop := r.stop }

/-- Two objects behind `master_prob_`, with states related by `R`, give the
same numeric responses: the same values and gradients of the recourse terms,
the same objective, the same `x` out of `solve_master`, and states that are
related again.  Nothing is asked of the `bool`s and of the statuses. -/
structure SameResponses (p : hiopInterfacePriDecProblem K σ n nc)
    (p1 : hiopInterfacePriDecProblem K σ1 n nc) (R : σ → σ1 → Prop) : Prop where
  eval_f : ∀ i x v, (p.rterms.eval_f_rterm i x v).2 = (p1.rterms.eval_f_rterm i x v).2
  eval_grad : ∀ i x g, (p.rterms.eval_grad_rterm i x g).2 = (p1.rterms.eval_grad_rterm i x g).2
  objective : ∀ s s1, R s s1 → p.get_objective s = p1.get_objective s1
  solve_x : ∀ s s1 x b, R s s1 → (p.solve_master s x b).2.1 = (p1.solve_master s1 x b).2.1
  solve_state : ∀ s s1 x b, R s s1 → R (p.solve_master s x b).2.2 (p1.solve_master s1 x b).2.2
  set_state : ∀ s s1 ev, R s s1 →
    R (p.set_recourse_approx_evaluator s ev).2 (p1.set_recourse_approx_evaluator s1 ev).2

end outerspec

/-! ## Invariants of the outer loop -/

section outerinv

variable {K : Type} [LinearOrderedField K] {σ : Type} {n nc : Nat}

/-- An iteration record is what one pass through the tail of an outer
iteration leaves: the trust-region states and the locals come from the model
update of iteration `it` at some earlier state, and `stopping_criteria` was
called with `it`, the `convg` of these locals and the recorded count. -/
def IterRecord.Sound (sqrt : K → K) (a : hiopAlgPrimalDecomposition K n nc)
    (r : IterRecord K nc) : Prop :=
  r.sc_it = (r.it : Int) ∧
  (∃ h0 v0, r.step.pre = (model_pre sqrt r.it h0 v0 r.inp).1 ∧
    r.step.post = (model_update sqrt r.it h0 v0 r.inp).1 ∧
    r.step.vars = (model_update sqrt r.it h0 v0 r.inp).2) ∧
  r.sc_convg = r.step.vars.convg ∧
  r.stop = (a.stopping_criteria r.sc_it r.sc_convg r.sc_accp_count).1 ∧
  r.message = (a.stopping_criteria r.sc_it r.sc_convg r.sc_accp_count).2

/-- The records of a trace are numbered from `0`, each is sound, and the count
handed to `stopping_criteria` in iteration `k` is the streak of the metrics of
the iterations `0 .. k`. -/
def TraceOK (sqrt : K → K) (a : hiopAlgPrimalDecomposition K n nc)
    (tr : List (IterRecord K nc)) : Prop :=
  ∀ k r, tr[k]? = some r →
    r.it = k ∧ r.Sound sqrt a ∧
    r.sc_accp_count =
      ((streak a.accp_tol_ ((tr.take (k + 1)).map (fun r => r.sc_convg)) : Nat) : Int)

/-- What the body of an outer loop does to the trace, the count and
`end_signal`, when entered with `end_signal = 0`. -/
def StepSpec (sqrt : K → K) (a : hiopAlgPrimalDecomposition K n nc)
    (step : Nat → Driver K σ n nc → Except RunFault (Driver K σ n nc × Bool)) : Prop :=
  ∀ it d d1 b, d.end_signal = 0 → step it d = .ok (d1, b) →
    ∃ r : IterRecord K nc, d1.trace = d.trace ++ [r] ∧ r.it = it ∧ r.Sound sqrt a ∧
      r.sc_accp_count = (if r.sc_convg ≤ a.accp_tol_ then d.accp_count + 1 else 0) ∧
      d1.accp_count = r.sc_accp_count ∧ b = r.stop ∧ d1.it_ = (it : Int) ∧
      (b = false → d1.end_signal = 0) ∧
      (it = 0 → r.sc_convg = d.vars.convg)

/-- The loop has made `it` iterations and goes on: no record says stop, the
count is the streak of the metrics so far, `end_signal` is zero. -/
def LoopInv (sqrt : K → K) (a : hiopAlgPrimalDecomposition K n nc) (it : Nat)
    (d : Driver K σ n nc) : Prop :=
  TraceOK sqrt a d.trace ∧ d.trace.length = it ∧ (∀ r ∈ d.trace, r.stop = false) ∧
  d.accp_count = ((streak a.accp_tol_ (d.trace.map (fun r => r.sc_convg)) : Nat) : Int) ∧
  d.end_signal = 0

/-- The loop has been left in iteration `j`: record `j` is the last one and
the only one that says stop. -/
def LoopEnd (sqrt : K → K) (a : hiopAlgPrimalDecomposition K n nc) (j : Nat)
    (d : Driver K σ n nc) : Prop :=
  TraceOK sqrt a d.trace ∧ d.trace.length = j + 1 ∧ d.it_ = (j : Int) ∧
  ∀ k r, d.trace[k]? = some r → (r.stop = true ↔ k = j)

end outerinv

/-! ## Relations between two runs -/

section rel

variable {K : Type} [LinearOrderedField K] {σ σ1 : Type} {n nc : Nat}

/-- Two driver objects agree on the members the outer loop of the solving rank
reads: `S_`, the tolerances and counts, the bounds and the initial ratio of
the curvature, and the coupled indices.  Nothing is asked of `my_rank_`,
`comm_size_`, `local_accum_`, `ver_`, `it_`, `solver_status_` and `x_`. -/
def SameConfig (a a1 : hiopAlgPrimalDecomposition K n nc) : Prop :=
  a.S_ = a1.S_ ∧ a.tol_ = a1.tol_ ∧ a.accp_tol_ = a1.accp_tol_ ∧
  a.accp_count_ = a1.accp_count_ ∧ a.max_iter_ = a1.max_iter_ ∧
  a.alpha_min_ = a1.alpha_min_ ∧ a.alpha_max_ = a1.alpha_max_ ∧
  a.alpha_ratio_ = a1.alpha_ratio_ ∧ a.xc_idx_ = a1.xc_idx_

/-- Two trust-region states agree on what the model update of iteration `it`
reads before it writes it: the ratio and the four bounds, and from iteration 1
on also `fk`, `xkm1`, `gkm1` and `alpha_`. -/
def HessRel (it : Nat) (h h1 : HessianApprox K nc) : Prop :=
  h.ratio_ = h1.ratio_ ∧ h.ratio_min = h1.ratio_min ∧ h.ratio_max = h1.ratio_max ∧
  h.alpha_min = h1.alpha_min ∧ h.alpha_max = h1.alpha_max ∧
  (1 ≤ it → h.fk = h1.fk ∧ h.xkm1 = h1.xkm1 ∧ h.gkm1 = h1.gkm1 ∧ h.alpha_ = h1.alpha_)

/-- Two solving ranks at the head of iteration `it` agree on `x_`, on what the
model update reads, on `base_val`, `convg` and the count, and on what they have
shown so far; the states of their master problems are related by `R`. -/
def DriverRel (R : σ → σ1 → Prop) (it : Nat) (d : Driver K σ n nc) (d1 : Driver K σ1 n nc) :
    Prop :=
  d.x_ = d1.x_ ∧ R d.master_prob_ d1.master_prob_ ∧ HessRel it d.hess_appx_2 d1.hess_appx_2 ∧
  d.vars.base_val = d1.vars.base_val ∧ d.vars.convg = d1.vars.convg ∧
  d.accp_count = d1.accp_count ∧
  d.trace.map IterRecord.observed = d1.trace.map IterRecord.observed

/-- Two ranks 0 of `run()` or `run_local()` at the head of iteration `it`:
related as solving ranks, and with the same `end_signal`, the same broadcasts
so far and the same `rval`, `grad_r`. -/
def MasterRel (R : σ → σ1 → Prop) (it : Nat) (d : Driver K σ n nc) (d1 : Driver K σ1 n nc) :
    Prop :=
  DriverRel R it d d1 ∧ d.end_signal = d1.end_signal ∧ d.bcasts = d1.bcasts ∧
  d.rval = d1.rval ∧ d.grad_r = d1.grad_r

/-- Two outcomes are both results, related by `P`, or both the same fault. -/
def ExceptRel {α β : Type} (P : α → β → Prop) (x : Except RunFault α) (y : Except RunFault β) :
    Prop :=
  match x, y with
  | .ok v, .ok w => P v w
  | .error _, .error _ => True
  | _, _ => False

end rel

/-! ## Vocabulary of the statements on the calls into the master problem -/

section callspec

variable {K : Type} [LinearOrderedField K] {σ : Type} {n nc : Nat}

/-- The model an outer iteration installs: the evaluator filled with the
aggregate `rval`, `grad_r`, the curvature vector and the coupled point. -/
def IterRecord.installed (r : IterRecord K nc) : RecourseApproxEvaluator K nc :=
  { rval := r.inp.rval, rgrad := r.inp.grad_r, rhess := r.step.vars.hess_appx, x0 := r.inp.x0 }

/-- The calls of the tails of outer iterations: for each record, in order,
`set_recourse_approx_evaluator` with the model of the record, then
`solve_master` with the recourse model. -/
def iteration_calls : List (IterRecord K nc) → List (Call K nc)
  | [] => []
  | r :: rest =>
    Call.set_recourse_approx_evaluator r.installed :: Call.solve_master true ::
      iteration_calls rest

/-- The calls into the master problem of a run with the records `tr`: none
if there is no iteration; otherwise one `solve_master` without the recourse
model, then the calls of the tails of the iterations. -/
def expected_calls : List (IterRecord K nc) → List (Call K nc)
  | [] => []
  | r :: rest => Call.solve_master false :: iteration_calls (r :: rest)

/-- The argument `include_r` of a call of `solve_master`; `none` for another
call. -/
def Call.solve_flag : Call K nc → Option Bool
  | .solve_master include_r => some include_r
  | .set_recourse_approx_evaluator _ => none

/-- The arguments `include_r` of the solves of a run of `k` outer iterations:
none for `k = 0`, otherwise `false` followed by `k` times `true`. -/
def expected_solves : Nat → List Bool
  | 0 => []
  | k + 1 => false :: List.replicate (k + 1) true

/-- What the body of an outer loop does to the log of the calls: in iteration
0 a solve without the recourse model; in every iteration one more record, whose
coupled point is taken from `x_` as the head of the iteration left it, and
whose model, with the curvature `get_alpha_f` returned in all entries, is
installed before the solve with the recourse model. -/
def CallSpec (sqrt : K → K) (a : hiopAlgPrimalDecomposition K n nc)
    (p : hiopInterfacePriDecProblem K σ n nc)
    (step : Nat → Driver K σ n nc → Except RunFault (Driver K σ n nc × Bool)) : Prop :=
  ∀ it d d1 b, step it d = .ok (d1, b) →
    ∃ r : IterRecord K nc, d1.trace = d.trace ++ [r] ∧
      d1.calls = d.calls ++ (if it = 0 then [Call.solve_master false] else []) ++
        [Call.set_recourse_approx_evaluator r.installed, Call.solve_master true] ∧
      r.installed.rhess =
        setToConstant (HessianApprox.get_alpha_f sqrt r.step.pre r.inp.grad_r).1 ∧
      a.coupled_point
        (if it = 0 then (p.solve_master d.master_prob_ d.x_ false).2.1 else d.x_) =
        some r.inp.x0

/-- The log of the calls agrees with the trace: the calls are those of
`expected_calls`, every installed curvature vector is constant with the value
`get_alpha_f` returned, and the coupled point of iteration 0 is taken from the
`x` the solve without the recourse model returned on `x_init` in state
`s0`. -/
def CallsOK (sqrt : K → K) (a : hiopAlgPrimalDecomposition K n nc)
    (p : hiopInterfacePriDecProblem K σ n nc) (x_init : Vec K n) (s0 : σ)
    (d : Driver K σ n nc) : Prop :=
  d.calls = expected_calls d.trace ∧
  (∀ r ∈ d.trace, r.installed.rhess =
    setToConstant (HessianApprox.get_alpha_f sqrt r.step.pre r.inp.grad_r).1) ∧
  (∀ r, d.trace[0]? = some r →
    a.coupled_point (p.solve_master s0 x_init false).2.1 = some r.inp.x0)

end callspec

/-! ## Vocabulary of the statements: the status at the return -/

section statusspec

variable {K : Type} [LinearOrderedField K] {σ : Type} {n nc : Nat}

/-- The member `solver_status_`, the content of `x_` and the state of the
object behind `master_prob_` are the three results of one call
`solve_master(x, true, ...)`, and a call of this kind is the last entry of the
call log: `solver_status_` is the status of the last call of
`solve_master`. -/
def LastSolve (p : hiopInterfacePriDecProblem K σ n nc) (d : Driver K σ n nc) : Prop :=
  ∃ (s : σ) (x : Vec K n),
    d.solver_status_ = (p.solve_master s x true).1 ∧ d.x_ = (p.solve_master s x true).2.1 ∧
    d.master_prob_ = (p.solve_master s x true).2.2 ∧
    d.calls.getLast? = some (Call.solve_master true)

end statusspec

/-! ## `hiopOptions`: the options object (`src/Utils/hiopOptions.cpp`)

The numeric options are of type `double`.  The methods of the options compare
and copy these values and do no arithmetic on them, and they are embedded for
any type `K` of values with a comparison `<`.  Two types are used: an ordered
field, whose elements are numbers, and `double K` below, which has NaN
besides.
-/

/-- A value of type `double` as the options see it: a number, or NaN, on which
each of `<`, `>`, `<=` and `>=` is false. -/
inductive double (K : Type)
  | num (x : K)
  | nan

namespace double

variable {K : Type}

/-- The comparison `<` of two `double`: false when one of them is NaN. -/
def lt [LT K] : double K → double K → Prop
  | num x, num y => x < y
  | _, _ => False

/-- The comparison `<=` of two `double`: false when one of them is NaN. -/
def le [LE K] : double K → double K → Prop
  | num x, num y => x ≤ y
  | _, _ => False

instance instLT [LT K] : LT (double K) := ⟨lt⟩

instance instLE [LE K] : LE (double K) := ⟨le⟩

instance instDecidableLT [LT K] [DecidableRel (fun a b : K => a < b)] :
    DecidableRel (fun a b : double K => a < b)
  | num x, num y => inferInstanceAs (Decidable (x < y))
  | num _, nan => isFalse (fun h => h)
  | nan, _ => isFalse (fun h => h)

/-- A literal `n`. -/
instance instOfNat {n : Nat} [OfNat K n] : OfNat (double K) n := ⟨num (OfNat.ofNat n)⟩

/-- The quotient of two numbers, which is needed to write the decimal
constants `1e-5`, ... only; not a number when the divisor is zero. -/
instance instDiv [Div K] [Zero K] [DecidableEq K] : Div (double K) :=
  ⟨fun a b =>
    match a, b with
    | num x, num y => if y = 0 then nan else num (x / y)
    | _, _ => nan⟩

/-- The power of a number, which is needed to write the decimal constants
only. -/
instance instPow [Pow K Nat] : Pow (double K) Nat :=
  ⟨fun a n =>
    match a with
    | num x => num (x ^ n)
    | nan => nan⟩

end double

/-- What the structs `OptionNum`, `OptionInt` and `OptionStr` add to their
base `Option`: the value and the bounds, or the value and the range (an empty
range means that the option takes any value). -/
inductive OptionData (K : Type)
  | OptionNum (val lb ub : K)
  | OptionInt (val lb ub : Int)
  | OptionStr (val : String) (range : List String)

/-- An entry of `mOptions_`: the members `specifiedInFile` and
`specifiedAtRuntime` of the struct `Option` with the data of the derived
struct.  The description `descr` is left out: only `print` reads it. -/
structure OptionEntry (K : Type) where
  specifiedInFile : Bool
  specifiedAtRuntime : Bool
  data : OptionData K

/-- The class `hiopOptions`: the map `mOptions_` from names to entries, `none`
where `find` gives `end()`.  The logger `log_` is left out, and with it the
warnings the methods print. -/
structure hiopOptions (K : Type) where
  mOptions_ : String → Option (OptionEntry K)

/-- The statement `transform(s.begin(), s.end(), s.begin(), ::tolower)`. -/
def tolower (s : String) : String :=
  String.mk (s.data.map Char.toLower)

namespace hiopOptions

variable {K : Type} [LT K] [DecidableRel (fun a b : K => a < b)]

/-- The constructor `hiopOptions()`: an empty map. -/
def empty : hiopOptions K :=
  { mOptions_ := fun _ => none }

/-- The method `GetNumeric(name)`; `none` when one of its assertions fails. -/
def GetNumeric (o : hiopOptions K) (name : String) : Option K :=
  match o.mOptions_ name with
  | some e =>
    match e.data with
    | .OptionNum val _ _ => some val
    | _ => none
  | none => none

/-- The method `GetInteger(name)`; `none` when one of its assertions fails. -/
def GetInteger (o : hiopOptions K) (name : String) : Option Int :=
  match o.mOptions_ name with
  | some e =>
    match e.data with
    | .OptionInt val _ _ => some val
    | _ => none
  | none => none

/-- The method `GetString(name)`; `none` when one of its assertions fails. -/
def GetString (o : hiopOptions K) (name : String) : Option String :=
  match o.mOptions_ name with
  | some e =>
    match e.data with
    | .OptionStr val _ => some val
    | _ => none
  | none => none

/-- The method `register_num_option`:
`mOptions_[name] = new OptionNum(defaultValue, low, upp, description)`. -/
def register_num_option (o : hiopOptions K) (name : String) (defaultValue low upp : K) :
    hiopOptions K :=
  let e : OptionEntry K :=
    { specifiedInFile := false, specifiedAtRuntime := false, data := .OptionNum defaultValue low upp }
  { o with mOptions_ := Function.update o.mOptions_ name (some e) }

/-- The method `register_int_option`. -/
def register_int_option (o : hiopOptions K) (name : String) (defaultValue low upp : Int) :
    hiopOptions K :=
  let e : OptionEntry K :=
    { specifiedInFile := false, specifiedAtRuntime := false, data := .OptionInt defaultValue low upp }
  { o with mOptions_ := Function.update o.mOptions_ name (some e) }

/-- The overload of `register_str_option` with a predetermined range. -/
def register_str_option (o : hiopOptions K) (name : String) (defaultValue : String)
    (range : List String) : hiopOptions K :=
  let e : OptionEntry K :=
    { specifiedInFile := false, specifiedAtRuntime := false, data := .OptionStr defaultValue range }
  { o with mOptions_ := Function.update o.mOptions_ name (some e) }

/-- The overload of `register_str_option` for an option that can take any
value: the range is empty. -/
def register_str_option_any (o : hiopOptions K) (name : String) (defaultValue : String) :
    hiopOptions K :=
  let empty_range : List String := []
  let e : OptionEntry K :=
    { specifiedInFile := false, specifiedAtRuntime := false, data := .OptionStr defaultValue empty_range }
  { o with mOptions_ := Function.update o.mOptions_ name (some e) }

/-- The method `is_user_defined(option_name)`. -/
def is_user_defined (o : hiopOptions K) (option_name : String) : Bool :=
  match o.mOptions_ option_name with
  | none => false
  | some e => e.specifiedInFile || e.specifiedAtRuntime

/-- The overload `set_val(name, const double& value)`, the internal setter
that keeps `specifiedInFile` and `specifiedAtRuntime`; `none` when one of its
assertions fails. -/
def set_val (o : hiopOptions K) (name : String) (value : K) : Option (Bool × hiopOptions K) :=
  match o.mOptions_ name with
  | some e =>
    match e.data with
    | .OptionNum _ lb ub =>
      if value < lb ∨ value > ub then none
      else
        let e := { e with data := .OptionNum value lb ub }
        some (true, { o with mOptions_ := Function.update o.mOptions_ name (some e) })
    | _ => none
  | none => none

/-- The method `SetNumericValue(name, value, setFromFile)`.  The argument
`ensure_consistence` is the virtual method of that name, which the method
calls before it returns, except where it returns early: for an option
specified in the file and a value set at runtime.  The result is `none` when
an assertion of `ensure_consistence` fails. -/
def SetNumericValue (ensure_consistence : hiopOptions K → Option (hiopOptions K))
    (o : hiopOptions K) (name : String) (value : K) (setFromFile : Bool) :
    Option (Bool × hiopOptions K) :=
  match o.mOptions_ name with
  | some e =>
    match e.data with
    | .OptionNum val lb ub =>
      if e.specifiedInFile = true ∧ setFromFile = false then some (true, o)
      else
        let e := if setFromFile then { e with specifiedInFile := true }
                 else { e with specifiedAtRuntime := true }
        let e := if value < lb ∨ value > ub then e else { e with data := .OptionNum value lb ub }
        (ensure_consistence { o with mOptions_ := Function.update o.mOptions_ name (some e) }).map
          (fun o => (true, o))
    | _ => (ensure_consistence o).map (fun o => (true, o))
  | none => (ensure_consistence o).map (fun o => (true, o))

/-- The method `SetIntegerValue(name, value, setFromFile)`. -/
def SetIntegerValue (ensure_consistence : hiopOptions K → Option (hiopOptions K))
    (o : hiopOptions K) (name : String) (value : Int) (setFromFile : Bool) :
    Option (Bool × hiopOptions K) :=
  match o.mOptions_ name with
  | some e =>
    match e.data with
    | .OptionInt val lb ub =>
      if e.specifiedInFile = true ∧ setFromFile = false then some (true, o)
      else
        let e := if setFromFile then { e with specifiedInFile := true } else e
        let e := if value < lb ∨ value > ub then e else { e with data := .OptionInt value lb ub }
        (ensure_consistence { o with mOptions_ := Function.update o.mOptions_ name (some e) }).map
          (fun o => (true, o))
    | _ => (ensure_consistence o).map (fun o => (true, o))
  | none => (ensure_consistence o).map (fun o => (true, o))

/-- The method `SetStringValue(name, value, setFromFile)`: the value is put
in lower case, then looked up in the range. -/
def SetStringValue (ensure_consistence : hiopOptions K → Option (hiopOptions K))
    (o : hiopOptions K) (name : String) (value : String) (setFromFile : Bool) :
    Option (Bool × hiopOptions K) :=
  match o.mOptions_ name with
  | some e =>
    match e.data with
    | .OptionStr val range =>
      if e.specifiedInFile = true ∧ setFromFile = false then some (true, o)
      else
        let e := if setFromFile then { e with specifiedInFile := true } else e
        let strValue := tolower value
        let inrange := decide (strValue ∈ range)
        let e := if ¬ inrange ∧ ¬ range = [] then e
                 else { e with data := .OptionStr strValue range }
        (ensure_consistence { o with mOptions_ := Function.update o.mOptions_ name (some e) }).map
          (fun o => (true, o))
    | _ => (ensure_consistence o).map (fun o => (true, o))
  | none => (ensure_consistence o).map (fun o => (true, o))

/-- The method `load_from_file(filename)`.  The argument `file` lists the
pairs `name`, `value` of the lines that `iss >> name >> value` reads, in their
order; it is empty when the file cannot be opened.  `parse_double` and
`parse_int` are the extractions `ss >> val` of the standard library, `none`
where they fail. -/
def load_from_file (ensure_consistence : hiopOptions K → Option (hiopOptions K))
    (parse_double : String → Option K) (parse_int : String → Option Int) :
    hiopOptions K → List (String × String) → Option (hiopOptions K)
  | o, [] => some o
  | o, (name, value) :: rest =>
    match o.mOptions_ name with
    | some e =>
      match e.data with
      | .OptionNum _ _ _ =>
        match parse_double value with
        | some val =>
          match SetNumericValue ensure_consistence o name val true with
          | some r => load_from_file ensure_consistence parse_double parse_int r.2 rest
          | none => none
        | none => load_from_file ensure_consistence parse_double parse_int o rest
      | .OptionStr _ _ =>
        match SetStringValue ensure_consistence o name value true with
        | some r => load_from_file ensure_consistence parse_double parse_int r.2 rest
        | none => none
      | .OptionInt _ _ _ =>
        match parse_int value with
        | some val =>
          match SetIntegerValue ensure_consistence o name val true with
          | some r => load_from_file ensure_consistence parse_double parse_int r.2 rest
          | none => none
        | none => load_from_file ensure_consistence parse_double parse_int o rest
    | none => load_from_file ensure_consistence parse_double parse_int o rest

end hiopOptions

/-! ## `hiopOptionsPriDec`: the options of the PriDec solver -/

namespace hiopOptionsPriDec

variable {K : Type} [LT K] [DecidableRel (fun a b : K => a < b)]

/-- The static member `hiopOptions::default_filename_pridec_masterNLP`. -/
def default_filename_pridec_masterNLP : String := "hiop_pridec_master.options"

/-- The method `hiopOptionsPriDec::register_options()`.  The argument says
whether the macro `HIOP_USE_RAJA` is defined. -/
def register_options [OfNat K 1] [OfNat K 10] [Div K] [Pow K ℕ] (HIOP_USE_RAJA : Bool)
    (o : hiopOptions K) : hiopOptions K :=
  let o := o.register_str_option_any "options_file_master_prob" default_filename_pridec_masterNLP
  let range : List String :=
    if HIOP_USE_RAJA then ["default", "host", "device", "um"] else ["default"]
  let o := o.register_str_option "mem_space" "default" range
  let o := o.register_str_option "accum_local" "false" ["yes", "no"]
  let o := o.register_num_option "alpha_max" (10 ^ 6) 1 (10 ^ 14)
  let o := o.register_num_option "alpha_min" (1 / 10 ^ 5) (1 / 10 ^ 8) (10 ^ 3)
  let o := o.register_num_option "tolerance" (1 / 10 ^ 5) (1 / 10 ^ 14) (1 / 10)
  let o := o.register_num_option "acceptable_tolerance" (1 / 10 ^ 3) (1 / 10 ^ 14) (1 / 10)
  let o := o.register_int_option "acceptable_iterations" 25 1 (10 ^ 6)
  let o := o.register_int_option "max_iter" 30000 1 (10 ^ 9)
  let o := o.register_int_option "verbosity_level" 2 0 12
  o.register_str_option "print_options" "no" ["yes", "no"]

/-- The method `hiopOptionsPriDec::ensure_consistence()`; `none` when an
assertion of `GetNumeric` or `set_val` fails. -/
def ensure_consistence (o : hiopOptions K) : Option (hiopOptions K) :=
  match o.GetNumeric "acceptable_tolerance" with
  | none => none
  | some eps_tol_accep =>
    match o.GetNumeric "tolerance" with
    | none => none
    | some eps_tol =>
      if eps_tol_accep < eps_tol then
        if o.is_user_defined "acceptable_tolerance" then
          match o.set_val "acceptable_tolerance" eps_tol with
          | some r => some r.2
          | none => none
        else some o
      else some o

/-- The constructor `hiopOptionsPriDec(opt_filename)`: `register_options()`,
`load_from_file(...)`, `ensure_consistence()`.  `file` is the content of the
options file as `load_from_file` reads it. -/
def create [OfNat K 1] [OfNat K 10] [Div K] [Pow K ℕ] (HIOP_USE_RAJA : Bool)
    (parse_double : String → Option K) (parse_int : String → Option Int)
    (file : List (String × String)) : Option (hiopOptions K) :=
  let o := register_options HIOP_USE_RAJA hiopOptions.empty
  match hiopOptions.load_from_file ensure_consistence parse_double parse_int o file with
  | some o => ensure_consistence o
  | none => none

end hiopOptionsPriDec

/-! ## Vocabulary of the statements on the options -/

/-- A call of one of the three public setters. -/
inductive SetCall (K : Type)
  | SetNumericValue (name : String) (value : K) (setFromFile : Bool)
  | SetIntegerValue (name : String) (value : Int) (setFromFile : Bool)
  | SetStringValue (name : String) (value : String) (setFromFile : Bool)

namespace hiopOptionsPriDec

variable {K : Type} [LT K] [DecidableRel (fun a b : K => a < b)]

/-- The call `c` on a `hiopOptionsPriDec` object. -/
def call (o : hiopOptions K) : SetCall K → Option (Bool × hiopOptions K)
  | .SetNumericValue name value b => o.SetNumericValue ensure_consistence name value b
  | .SetIntegerValue name value b => o.SetIntegerValue ensure_consistence name value b
  | .SetStringValue name value b => o.SetStringValue ensure_consistence name value b

/-- The calls `cs` in turn on a `hiopOptionsPriDec` object. -/
def calls : hiopOptions K → List (SetCall K) → Option (hiopOptions K)
  | o, [] => some o
  | o, c :: cs =>
    match call o c with
    | some r => calls r.2 cs
    | none => none

end hiopOptionsPriDec

/-! ## Invariants of a `hiopOptionsPriDec` object -/

/-- The object `o` with the entry of `name` replaced by `e`. -/
def hiopOptions.replace {K : Type} (o : hiopOptions K) (name : String) (e : OptionEntry K) :
    hiopOptions K :=
  { o with mOptions_ := Function.update o.mOptions_ name (some e) }

/-- The data of an entry with its numeric values, if any, taken through `f`. -/
def OptionData.map {K D : Type} (f : K → D) : OptionData K → OptionData D
  | .OptionNum val lb ub => .OptionNum (f val) (f lb) (f ub)
  | .OptionInt val lb ub => .OptionInt val lb ub
  | .OptionStr val range => .OptionStr val range

/-- An entry with its numeric values taken through `f`. -/
def OptionEntry.map {K D : Type} (f : K → D) (e : OptionEntry K) : OptionEntry D :=
  { specifiedInFile := e.specifiedInFile, specifiedAtRuntime := e.specifiedAtRuntime,
    data := e.data.map f }

/-- An options object with all its numeric values taken through `f`: with
`double.num`, the object whose numeric values are numbers, as an object that
can hold NaN. -/
def hiopOptions.map {K D : Type} (f : K → D) (o : hiopOptions K) : hiopOptions D :=
  { mOptions_ := fun nm => (o.mOptions_ nm).map (OptionEntry.map f) }

/-- A call of a setter with its numeric value, if any, taken through `f`. -/
def SetCall.map {K D : Type} (f : K → D) : SetCall K → SetCall D
  | .SetNumericValue name value b => .SetNumericValue name (f value) b
  | .SetIntegerValue name value b => .SetIntegerValue name value b
  | .SetStringValue name value b => .SetStringValue name value b

section options_inv

variable {K : Type} [LinearOrderedField K]

/-- Two entries are of the same struct, with the same bounds or range. -/
def OptionData.SameBounds : OptionData K → OptionData K → Prop
  | .OptionNum _ lb ub, .OptionNum _ lb1 ub1 => lb = lb1 ∧ ub = ub1
  | .OptionInt _ lb ub, .OptionInt _ lb1 ub1 => lb = lb1 ∧ ub = ub1
  | .OptionStr _ range, .OptionStr _ range1 => range = range1
  | _, _ => False

/-- The value of a numeric or integer entry is within its bounds. -/
def OptionData.InBounds : OptionData K → Prop
  | .OptionNum val lb ub => lb ≤ val ∧ val ≤ ub
  | .OptionInt val lb ub => lb ≤ val ∧ val ≤ ub
  | .OptionStr _ _ => True

namespace hiopOptionsPriDec

/-- The options as `register_options()` leaves them. -/
def registered (HIOP_USE_RAJA : Bool) : hiopOptions K :=
  register_options HIOP_USE_RAJA hiopOptions.empty

/-- What holds of a `hiopOptionsPriDec` object at every point past
`register_options()`: it has the registered names, each with an entry of the
registered struct, bounds and range; numeric and integer values are within
their bounds; and `acceptable_tolerance`, unless the user has set it, has its
default value. -/
structure Shaped (HIOP_USE_RAJA : Bool) (o : hiopOptions K) : Prop where
  shape : ∀ nm e, o.mOptions_ nm = some e →
    ∃ e1, (registered HIOP_USE_RAJA : hiopOptions K).mOptions_ nm = some e1 ∧
      e.data.SameBounds e1.data
  names : ∀ nm, o.mOptions_ nm = none →
    (registered HIOP_USE_RAJA : hiopOptions K).mOptions_ nm = none
  bounds : ∀ nm e, o.mOptions_ nm = some e → e.data.InBounds
  default_accep : ∀ e, o.mOptions_ "acceptable_tolerance" = some e →
    (e.specifiedInFile || e.specifiedAtRuntime) = false →
    e.data = .OptionNum (1 / 10 ^ 3) (1 / 10 ^ 14) (1 / 10)

/-- What holds of a `hiopOptionsPriDec` object whenever a constructor or a
public setter has returned: `Shaped`, and an `acceptable_tolerance` set by the
user is not below `tolerance`. -/
structure Consistent (HIOP_USE_RAJA : Bool) (o : hiopOptions K) : Prop where
  shaped : Shaped HIOP_USE_RAJA o
  accep_ge : ∀ a t, o.GetNumeric "acceptable_tolerance" = some a →
    o.GetNumeric "tolerance" = some t → o.is_user_defined "acceptable_tolerance" = true → t ≤ a

end hiopOptionsPriDec

end options_inv

/-! ## The constructor of `hiopAlgPrimalDecomposition` without coupled indices -/

/-- Modelled from the spec: the method `hiopVectorInt::linspace(i0, di)` of
the vector of `int`, whose implementation is not part of the sources at hand.
It sets element `i` to `i0 + i * di`; the test `vector_linspace` expects
`2 * i` at index `i` after `linspace(0, 2)`. -/
def linspace (n : Nat) (i0 di : Int) : Fin n → Int :=
  fun i => i0 + (i : Int) * di

namespace hiopAlgPrimalDecomposition

variable {K : Type} [LinearOrderedField K] {n : Nat}

/-- The constructor `hiopAlgPrimalDecomposition(prob_in, comm_world)`:
`nc_ = n_`, the options object `hiopOptionsPriDec("hiop_pridec.options")`,
the setters fed from it, the two assertions, `x_` created, and `xc_idx_`
created with `nc_` elements and filled by `linspace(0, 1)`.  `S` is
`get_num_rterms()`, `my_rank` and `comm_size` come from the communicator,
`file` is the content of the options file, `fresh` the content of the new
`x_`, and `decl` holds the members as the class declaration initialises
them.  The result is `none` when an assertion fails. -/
def create (decl : hiopAlgPrimalDecomposition K n n) (S my_rank comm_size : Nat)
    (HIOP_USE_RAJA : Bool) (parse_double : String → Option K) (parse_int : String → Option Int)
    (file : List (String × String)) (fresh : Vec K n) :
    Option (hiopAlgPrimalDecomposition K n n) := do
  let options_ ← hiopOptionsPriDec.create HIOP_USE_RAJA parse_double parse_int file
  let tol ← options_.GetNumeric "tolerance"
  let accp_tol ← options_.GetNumeric "acceptable_tolerance"
  let accp_count ← options_.GetInteger "acceptable_iterations"
  let max_iter ← options_.GetInteger "max_iter"
  let alpha_max ← options_.GetNumeric "alpha_max"
  let alpha_min ← options_.GetNumeric "alpha_min"
  let local_accum ← options_.GetString "accum_local"
  if alpha_max > alpha_min then
    let ver ← options_.GetInteger "verbosity_level"
    if ver ≤ 12 ∧ ver ≥ 0 then
      pure { decl with
        S_ := S, my_rank_ := my_rank, comm_size_ := comm_size, tol_ := tol,
        accp_tol_ := accp_tol, accp_count_ := accp_count, max_iter_ := max_iter,
        alpha_max_ := alpha_max, alpha_min_ := alpha_min,
        local_accum_ := decide (local_accum = "yes"), ver_ := ver, x_ := fresh,
        xc_idx_ := fun i => ⟨(linspace n 0 1 i).toNat, by simp [linspace]⟩ }
    else none
  else none

end hiopAlgPrimalDecomposition

/-! ## Sparse matrices in compressed-row storage

Shallow embedding of `src/LinAlg/hiopMatrixSparseCSR.cpp`.

* An array is a map from positions to cells.  What was allocated is known
  from the sizes `nrows_`, `ncols_`, `nnz_` (`irowptr_` has `nrows_ + 1` cells,
  `jcolind_` and `values_` have `nnz_`).  The pointers `buf_col_` and
  `row_starts_`, which the code compares with `nullptr`, are optional.
* The structure `hiopMatrixSparseCSR` holds an object whose arrays `irowptr_`,
  `jcolind_` and `values_` are allocated.  The constructor leaves an object
  without arrays when a dimension is zero; `Constructed` has both kinds, and a
  method that writes through the arrays of an object without arrays is `none`.
* `index_type` and `int` are natural numbers: no index is negative.  The
  counter `nnzM` of `add_matrix_alloc` and `times_mat_alloc`, of which the
  source asserts `nnzM>=0` against overflow, has to stay within `INT_MAX`: an
  `int` incremented beyond `INT_MAX` is undefined, wraps to a negative value
  in practice, and the method is `none` then.  The other counters are bounded
  by the sizes of the arrays they index.
* Every `assert` is executed; a method is `none` when one of them fails.
* A loop `for(p = a; p < b; ++p)` whose bounds the body leaves alone visits the
  positions `for_range a b` in turn.
-/

/-- The largest value of an `int` of 32 bits, the type of the loop variables
of the source and of `index_type` and `size_type`. -/
def INT_MAX : Nat := 2147483647

/-- The positions a loop `for(p = a; p < b; ++p)` visits. -/
def for_range (a b : Nat) : List Nat := List.range' a (b - a)

/-- The data members of `hiopMatrixSparseCSR` (with those of its base class
`hiopMatrixSparse`: `nrows_`, `ncols_`, `nnz_`), for an object whose arrays
`irowptr_`, `jcolind_` and `values_` are allocated. -/
structure hiopMatrixSparseCSR (K : Type) where
  nrows_ : Nat
  ncols_ : Nat
  nnz_ : Nat
  irowptr_ : Nat → Nat
  jcolind_ : Nat → Nat
  values_ : Nat → K
  buf_col_ : Option (Nat → K)
  row_starts_ : Option (Nat → Nat)

/-- What the three arrays that `alloc()` obtains from `new` hold before they
are written. -/
structure FreshArrays (K : Type) where
  irowptr : Nat → Nat
  jcolind : Nat → Nat
  values : Nat → K

/-- An object as the constructor `hiopMatrixSparseCSR(rows, cols, nnz)` leaves
it.  With non-zero dimensions `alloc()` has allocated `irowptr_`, `jcolind_`
and `values_`.  With a zero dimension the five pointers are `nullptr` and
`nnz_` is `0`: all there is to such an object are its dimensions. -/
inductive Constructed (K : Type) where
  | allocated (M : hiopMatrixSparseCSR K) : Constructed K
  | unallocated (rows cols : Nat) : Constructed K

namespace hiopMatrixSparseCSR

variable {K : Type} [LinearOrderedField K]

/-- The method `alloc()`: the three arrays are new; `none` when one of the
assertions `buf_col_ == nullptr`, `row_starts_ == nullptr` fails. -/
def alloc (M : hiopMatrixSparseCSR K) (fresh : FreshArrays K) : Option (hiopMatrixSparseCSR K) :=
  if M.buf_col_.isNone ∧ M.row_starts_.isNone then
    some { M with irowptr_ := fresh.irowptr, jcolind_ := fresh.jcolind, values_ := fresh.values }
  else none

/-- The method `dealloc()`: all five pointers are `nullptr` afterwards. -/
def dealloc (M : hiopMatrixSparseCSR K) : hiopMatrixSparseCSR K :=
  { M with buf_col_ := none, row_starts_ := none }

/-- The constructor `hiopMatrixSparseCSR(rows, cols, nnz)`: with a zero
dimension the assertion `nnz_==0` and no array; otherwise `alloc()`. -/
def create (rows cols nnz : Nat) (fresh : FreshArrays K) : Option (Constructed K) :=
  if rows = 0 ∨ cols = 0 then
    if nnz = 0 then some (.unallocated rows cols) else none
  else
    (alloc { nrows_ := rows, ncols_ := cols, nnz_ := nnz, irowptr_ := fresh.irowptr,
             jcolind_ := fresh.jcolind, values_ := fresh.values, buf_col_ := none,
             row_starts_ := none } fresh).map .allocated

/-- In `add_matrix_alloc`, what follows the `while` loop of row `i`: the
assertion `ptX==irowptrX[i+1] || ptY==irowptrY[i+1]` and the two `for` loops
over what is left of the rows of `X` and of `Y`. -/
def add_matrix_alloc_rest (X Y : hiopMatrixSparseCSR K) (i ptX ptY nnzM : Nat) : Option Nat :=
  if ptX = X.irowptr_ (i + 1) ∨ ptY = Y.irowptr_ (i + 1) then
    let nnzM := (for_range ptX (X.irowptr_ (i + 1))).foldl (fun nnzM _ => nnzM + 1) nnzM
    let nnzM := (for_range ptY (Y.irowptr_ (i + 1))).foldl (fun nnzM _ => nnzM + 1) nnzM
    some nnzM
  else none

/-- In `add_matrix_alloc`, the `while` loop of row `i` and what follows it.
Every pass advances `ptX` or `ptY`; the first argument bounds the number of
passes. -/
def add_matrix_alloc_row (X Y : hiopMatrixSparseCSR K) (i : Nat) :
    Nat → Nat → Nat → Nat → Option Nat
  | 0, ptX, ptY, nnzM => add_matrix_alloc_rest X Y i ptX ptY nnzM
  | k + 1, ptX, ptY, nnzM =>
    if ptX < X.irowptr_ (i + 1) ∧ ptY < Y.irowptr_ (i + 1) then
      let jX := X.jcolind_ ptX
      let jY := Y.jcolind_ ptY
      if jX < X.ncols_ ∧ jY < X.ncols_ then
        let nnzM := nnzM + 1
        if jX < jY then add_matrix_alloc_row X Y i k (ptX + 1) ptY nnzM
        else if jX = jY then add_matrix_alloc_row X Y i k (ptX + 1) (ptY + 1) nnzM
        else add_matrix_alloc_row X Y i k ptX (ptY + 1) nnzM
      else none
    else add_matrix_alloc_rest X Y i ptX ptY nnzM

/-- The number of passes the `while` loop of row `i` can make. -/
def merge_bound (X Y : hiopMatrixSparseCSR K) (i : Nat) : Nat :=
  (X.irowptr_ (i + 1) - X.irowptr_ i) + (Y.irowptr_ (i + 1) - Y.irowptr_ i)

/-- The local `nnzM` of `add_matrix_alloc` at the call of the constructor. -/
def add_matrix_alloc_nnz (X Y : hiopMatrixSparseCSR K) : Option Nat :=
  if X.nrows_ = Y.nrows_ ∧ X.ncols_ = Y.ncols_ then
    (List.range X.nrows_).foldlM
      (fun nnzM i =>
        add_matrix_alloc_row X Y i (merge_bound X Y i) (X.irowptr_ i) (Y.irowptr_ i) nnzM) 0
  else none

/-- The method `add_matrix_alloc(Y)` on `X`: the count, the assertion
`nnzM>=0 //overflow?!?`, which is `none` for a count beyond `INT_MAX`, and
`new hiopMatrixSparseCSR(nrows_, ncols_, nnzM)`. -/
def add_matrix_alloc (X Y : hiopMatrixSparseCSR K) (fresh : FreshArrays K) :
    Option (Constructed K) :=
  (add_matrix_alloc_nnz X Y).bind (fun nnzM =>
    if nnzM ≤ INT_MAX then create X.nrows_ X.ncols_ nnzM fresh else none)

/-- In `add_matrix_symbolic`, the body of the two `for` loops over what is
left of a row: the column index `j` is written to `jcolindM[itnnzM]`. -/
def add_matrix_symbolic_put (X M : hiopMatrixSparseCSR K) (s : Nat × (Nat → Nat)) (j : Nat) :
    Option (Nat × (Nat → Nat)) :=
  if j < X.ncols_ ∧ s.1 < M.nnz_ then some (s.1 + 1, Function.update s.2 s.1 j) else none

/-- In `add_matrix_symbolic`, what follows the `while` loop of row `i`. -/
def add_matrix_symbolic_rest (X M Y : hiopMatrixSparseCSR K) (i ptX ptY : Nat)
    (s : Nat × (Nat → Nat)) : Option (Nat × (Nat → Nat)) :=
  if ptX = X.irowptr_ (i + 1) ∨ ptY = Y.irowptr_ (i + 1) then
    ((for_range ptX (X.irowptr_ (i + 1))).foldlM
      (fun s ptX => add_matrix_symbolic_put X M s (X.jcolind_ ptX)) s).bind (fun s =>
    ((for_range ptY (Y.irowptr_ (i + 1))).foldlM
      (fun s ptY => add_matrix_symbolic_put X M s (Y.jcolind_ ptY)) s).bind (fun s =>
    if s.1 ≤ M.nnz_ then some s else none))
  else none

/-- In `add_matrix_symbolic`, the `while` loop of row `i` and what follows it;
the state is `itnnzM` and the array `jcolindM`. -/
def add_matrix_symbolic_row (X M Y : hiopMatrixSparseCSR K) (i : Nat) :
    Nat → Nat → Nat → Nat × (Nat → Nat) → Option (Nat × (Nat → Nat))
  | 0, ptX, ptY, s => add_matrix_symbolic_rest X M Y i ptX ptY s
  | k + 1, ptX, ptY, s =>
    if ptX < X.irowptr_ (i + 1) ∧ ptY < Y.irowptr_ (i + 1) then
      let jX := X.jcolind_ ptX
      let jY := Y.jcolind_ ptY
      if jX < X.ncols_ ∧ jY < X.ncols_ ∧ s.1 < M.nnz_ then
        if jX < jY then
          add_matrix_symbolic_row X M Y i k (ptX + 1) ptY (s.1 + 1, Function.update s.2 s.1 jX)
        else if jX = jY then
          add_matrix_symbolic_row X M Y i k (ptX + 1) (ptY + 1)
            (s.1 + 1, Function.update s.2 s.1 jX)
        else
          add_matrix_symbolic_row X M Y i k ptX (ptY + 1) (s.1 + 1, Function.update s.2 s.1 jY)
      else none
    else add_matrix_symbolic_rest X M Y i ptX ptY s

/-- The method `add_matrix_symbolic(M, Y)` on `X`: the new content of `M`. -/
def add_matrix_symbolic (X M Y : hiopMatrixSparseCSR K) : Option (hiopMatrixSparseCSR K) :=
  if X.nrows_ = Y.nrows_ ∧ X.ncols_ = Y.ncols_ then
    ((List.range X.nrows_).foldlM
      (fun (s : (Nat → Nat) × Nat × (Nat → Nat)) i =>
        (add_matrix_symbolic_row X M Y i (merge_bound X Y i) (X.irowptr_ i) (Y.irowptr_ i)
          s.2).map (fun r => (Function.update s.1 i s.2.1, r)))
      (M.irowptr_, 0, M.jcolind_)).bind (fun s =>
    if s.2.1 ≤ M.nnz_ then
      some { M with irowptr_ := Function.update s.1 X.nrows_ s.2.1, jcolind_ := s.2.2 }
    else none)
  else none

end hiopMatrixSparseCSR

/-- The method `add_matrix_symbolic(M, Y)` on `X` for an object `M` as a
constructor left it.  Without arrays `M.i_row()` is `nullptr`, and the method
writes through it, `irowptrM[i] = itnnzM` in the first pass of its loop or,
without rows, `irowptrM[nrows_] = itnnzM` after the loop, unless an assertion
has failed before. -/
def Constructed.add_matrix_symbolic {K : Type} [LinearOrderedField K]
    (X : hiopMatrixSparseCSR K) (M : Constructed K) (Y : hiopMatrixSparseCSR K) :
    Option (hiopMatrixSparseCSR K) :=
  match M with
  | .allocated M => X.add_matrix_symbolic M Y
  | .unallocated _ _ => none

/-! ## Vocabulary of the statements on compressed-row storage -/

/-- The array `f` after the cells `it`, `it + 1`, ... were assigned the
elements of a list in turn. -/
def writeList {α : Type} (f : Nat → α) : Nat → List α → Nat → α
  | _, [] => f
  | it, a :: l => writeList (Function.update f it a) (it + 1) l

/-- The array `f` after the elements of a list were added to the cells `it`,
`it + 1`, ... in turn. -/
def addList {α : Type} [Add α] (f : Nat → α) : Nat → List α → Nat → α
  | _, [] => f
  | it, a :: l => addList (Function.update f it (f it + a)) (it + 1) l

/-- The lists `row 0`, ..., `row (n - 1)` one after the other. -/
def concat_rows {α : Type} (row : Nat → List α) : Nat → List α
  | 0 => []
  | n + 1 => concat_rows row n ++ row n

/-- One pass of the sorted merge of a row of `X` and a row of `Y`: the
position consumed in the row of `X`, if any, and the position consumed in the
row of `Y`, if any. -/
abbrev MergeStep : Type := Option Nat × Option Nat

/-- The column index a pass of the sorted merge deals with. -/
def MergeStep.col (jX jY : Nat → Nat) : MergeStep → Nat
  | (some pX, _) => jX pX
  | (none, some pY) => jY pY
  | (none, none) => 0

/-- What is left when the `while` loop of the sorted merge ends: the rest of
the row of `X`, then the rest of the row of `Y`. -/
def merge_rest (eX eY ptX ptY : Nat) : List MergeStep :=
  (for_range ptX eX).map (fun p => (some p, none)) ++
    (for_range ptY eY).map (fun p => (none, some p))

/-- The passes of the sorted merge of the positions `ptX .. eX - 1` with
column indices `jX` and `ptY .. eY - 1` with column indices `jY`, as the three
methods `add_matrix_alloc`, `add_matrix_symbolic`, `add_matrix_numeric` make
them.  The first argument bounds the number of passes of the `while` loop. -/
def merge_path (jX jY : Nat → Nat) (eX eY : Nat) : Nat → Nat → Nat → List MergeStep
  | 0, ptX, ptY => merge_rest eX eY ptX ptY
  | k + 1, ptX, ptY =>
    if ptX < eX ∧ ptY < eY then
      if jX ptX < jY ptY then (some ptX, none) :: merge_path jX jY eX eY k (ptX + 1) ptY
      else if jX ptX = jY ptY then
        (some ptX, some ptY) :: merge_path jX jY eX eY k (ptX + 1) (ptY + 1)
      else (none, some ptY) :: merge_path jX jY eX eY k ptX (ptY + 1)
    else merge_rest eX eY ptX ptY

namespace hiopMatrixSparseCSR

variable {K : Type} [LinearOrderedField K]

/-- The positions of the stored entries of row `i`. -/
def row_positions (X : hiopMatrixSparseCSR K) (i : Nat) : List Nat :=
  for_range (X.irowptr_ i) (X.irowptr_ (i + 1))

/-- The column indices of the stored entries of row `i`, in storage order. -/
def row_cols (X : hiopMatrixSparseCSR K) (i : Nat) : List Nat :=
  (X.row_positions i).map X.jcolind_

/-- The entry `X(i, j)`: the sum of the values stored in row `i` with column
index `j`, which is `0` when there is none. -/
def entry (X : hiopMatrixSparseCSR K) (i j : Nat) : K :=
  (((X.row_positions i).filter (fun p => X.jcolind_ p = j)).map X.values_).sum

/-- Valid row pointers and in-range column indices: the row pointers start at
`0`, do not decrease, end at `nnz_`, and every stored column index is below
`ncols_`. -/
structure WellFormed (X : hiopMatrixSparseCSR K) : Prop where
  first : X.irowptr_ 0 = 0
  mono : ∀ i, i < X.nrows_ → X.irowptr_ i ≤ X.irowptr_ (i + 1)
  last : X.irowptr_ X.nrows_ = X.nnz_
  cols : ∀ p, p < X.nnz_ → X.jcolind_ p < X.ncols_

/-- The column indices of every row are strictly increasing. -/
def SortedRows (X : hiopMatrixSparseCSR K) : Prop :=
  ∀ i, i < X.nrows_ → (X.row_cols i).Pairwise (fun a b => a < b)

/-- The passes of the sorted merge of row `i` of `X` and row `i` of `Y`. -/
def add_path (X Y : hiopMatrixSparseCSR K) (i : Nat) : List MergeStep :=
  merge_path X.jcolind_ Y.jcolind_ (X.irowptr_ (i + 1)) (Y.irowptr_ (i + 1)) (merge_bound X Y i)
    (X.irowptr_ i) (Y.irowptr_ i)

/-- The column indices the sorted merge of row `i` of `X` and row `i` of `Y`
deals with, in turn. -/
def add_cols (X Y : hiopMatrixSparseCSR K) (i : Nat) : List Nat :=
  (add_path X Y i).map (MergeStep.col X.jcolind_ Y.jcolind_)

/-- The number of passes of the sorted merges of the rows before row `i`. -/
def add_offset (X Y : hiopMatrixSparseCSR K) (i : Nat) : Nat :=
  (concat_rows (add_path X Y) i).length

end hiopMatrixSparseCSR

namespace hiopMatrixSparseCSR

variable {K : Type} [LinearOrderedField K]

/-- The matrix `M` carries the pattern of `X + Y` as `add_matrix_symbolic`
produces it in a matrix allocated by `add_matrix_alloc`: the dimensions of
`X`, one cell per pass of the sorted merges, the row pointers at the numbers
of passes of the rows before, and in the cells of each row the column indices
of its passes, in turn. -/
structure CarriesSum (X Y M : hiopMatrixSparseCSR K) : Prop where
  nrows : M.nrows_ = X.nrows_
  ncols : M.ncols_ = X.ncols_
  nnz : M.nnz_ = add_offset X Y X.nrows_
  rowptr : ∀ i, i ≤ X.nrows_ → M.irowptr_ i = add_offset X Y i
  cells : ∀ r t c, r < X.nrows_ → (add_cols X Y r)[t]? = some c →
    M.jcolind_ (add_offset X Y r + t) = c

end hiopMatrixSparseCSR

/-- The BLAS routine `DSCAL(&n, &a, x, &inc)` at `inc = 1`, which the sources
call and do not contain: `x[i] = a * x[i]` for `i < n`. -/
def DSCAL {K : Type} [LinearOrderedField K] (n : Nat) (a : K) (x : Nat → K) : Nat → K :=
  fun i => if i < n then a * x i else x i

namespace hiopMatrixSparseCSR

variable {K : Type} [LinearOrderedField K]

/-- In `add_matrix_numeric`, the body of the two `for` loops over what is left
of a row: with column index `j` at hand, `a` is added to `valuesM[itnnzM]`.
The first argument says whether `HIOP_DEEP_CHECKING` is defined, which adds
the assertion `j == jcolindM[itnnzM]`. -/
def add_matrix_numeric_put (HIOP_DEEP_CHECKING : Bool) (X M : hiopMatrixSparseCSR K)
    (s : Nat × (Nat → K)) (j : Nat) (a : K) : Option (Nat × (Nat → K)) :=
  if j < X.ncols_ ∧ (HIOP_DEEP_CHECKING = true → j = M.jcolind_ s.1) ∧ s.1 < M.nnz_ then
    some (s.1 + 1, Function.update s.2 s.1 (s.2 s.1 + a))
  else none

/-- In `add_matrix_numeric`, what follows the `while` loop of row `i`. -/
def add_matrix_numeric_rest (HIOP_DEEP_CHECKING : Bool) (X M Y : hiopMatrixSparseCSR K)
    (alpha beta : K) (i ptX ptY : Nat) (s : Nat × (Nat → K)) : Option (Nat × (Nat → K)) :=
  if ptX = X.irowptr_ (i + 1) ∨ ptY = Y.irowptr_ (i + 1) then
    ((for_range ptX (X.irowptr_ (i + 1))).foldlM
      (fun s ptX =>
        add_matrix_numeric_put HIOP_DEEP_CHECKING X M s (X.jcolind_ ptX) (alpha * X.values_ ptX))
      s).bind (fun s =>
    (for_range ptY (Y.irowptr_ (i + 1))).foldlM
      (fun s ptY =>
        add_matrix_numeric_put HIOP_DEEP_CHECKING X M s (Y.jcolind_ ptY) (beta * Y.values_ ptY))
      s)
  else none

/-- In `add_matrix_numeric`, the `while` loop of row `i` and what follows it;
the state is `itnnzM` and the array `valuesM`. -/
def add_matrix_numeric_row (HIOP_DEEP_CHECKING : Bool) (X M Y : hiopMatrixSparseCSR K)
    (alpha beta : K) (i : Nat) :
    Nat → Nat → Nat → Nat × (Nat → K) → Option (Nat × (Nat → K))
  | 0, ptX, ptY, s => add_matrix_numeric_rest HIOP_DEEP_CHECKING X M Y alpha beta i ptX ptY s
  | k + 1, ptX, ptY, s =>
    if ptX < X.irowptr_ (i + 1) ∧ ptY < Y.irowptr_ (i + 1) then
      let jX := X.jcolind_ ptX
      let jY := Y.jcolind_ ptY
      if jX < X.ncols_ ∧ jY < X.ncols_ ∧ s.1 < M.nnz_ then
        if jX < jY then
          if HIOP_DEEP_CHECKING = true → jX = M.jcolind_ s.1 then
            add_matrix_numeric_row HIOP_DEEP_CHECKING X M Y alpha beta i k (ptX + 1) ptY
              (s.1 + 1, Function.update s.2 s.1 (s.2 s.1 + alpha * X.values_ ptX))
          else none
        else if jX = jY then
          if HIOP_DEEP_CHECKING = true → jX = M.jcolind_ s.1 then
            add_matrix_numeric_row HIOP_DEEP_CHECKING X M Y alpha beta i k (ptX + 1) (ptY + 1)
              (s.1 + 1,
                Function.update s.2 s.1 (s.2 s.1 + (alpha * X.values_ ptX + beta * Y.values_ ptY)))
          else none
        else
          if HIOP_DEEP_CHECKING = true → jY = M.jcolind_ s.1 then
            add_matrix_numeric_row HIOP_DEEP_CHECKING X M Y alpha beta i k ptX (ptY + 1)
              (s.1 + 1, Function.update s.2 s.1 (s.2 s.1 + beta * Y.values_ ptY))
          else none
      else none
    else add_matrix_numeric_rest HIOP_DEEP_CHECKING X M Y alpha beta i ptX ptY s

/-- In `add_matrix_numeric`, the array `valuesM` before the loop over the
rows: zeroed if `gamma == 0.0`, scaled by `DSCAL` if `gamma` is neither `0.0`
nor `1.0`, and as it was if `gamma == 1.0`. -/
def add_matrix_numeric_scaled (gamma : K) (M : hiopMatrixSparseCSR K) : Nat → K :=
  if gamma = 0 then (for_range 0 M.nnz_).foldl (fun v i => Function.update v i 0) M.values_
  else if gamma ≠ 1 then DSCAL M.nnz_ gamma M.values_
  else M.values_

/-- The method `add_matrix_numeric(gamma, M, alpha, Y, beta)` on `X`: the new
content of `M`.  The first argument says whether `HIOP_DEEP_CHECKING` is
defined. -/
def add_matrix_numeric (HIOP_DEEP_CHECKING : Bool) (X : hiopMatrixSparseCSR K) (gamma : K)
    (M : hiopMatrixSparseCSR K) (alpha : K) (Y : hiopMatrixSparseCSR K) (beta : K) :
    Option (hiopMatrixSparseCSR K) :=
  if X.nrows_ = Y.nrows_ ∧ X.ncols_ = Y.ncols_ then
    ((List.range X.nrows_).foldlM
      (fun (s : Nat × (Nat → K)) i =>
        if HIOP_DEEP_CHECKING = true → M.irowptr_ i = s.1 then
          add_matrix_numeric_row HIOP_DEEP_CHECKING X M Y alpha beta i (merge_bound X Y i)
            (X.irowptr_ i) (Y.irowptr_ i) s
        else none)
      (0, add_matrix_numeric_scaled gamma M)).bind (fun s =>
    if s.1 = M.nnz_ then some { M with values_ := s.2 } else none)
  else none

end hiopMatrixSparseCSR

/-- What a pass of the sorted merge adds to the value of its cell in
`add_matrix_numeric`. -/
def MergeStep.val {K : Type} [LinearOrderedField K] (alpha beta : K) (vX vY : Nat → K) :
    MergeStep → K
  | (some pX, none) => alpha * vX pX
  | (some pX, some pY) => alpha * vX pX + beta * vY pY
  | (none, some pY) => beta * vY pY
  | (none, none) => 0

namespace hiopMatrixSparseCSR

variable {K : Type} [LinearOrderedField K]

/-- What the passes of the sorted merge of row `i` add to the values of their
cells, in turn. -/
def add_vals (X Y : hiopMatrixSparseCSR K) (alpha beta : K) (i : Nat) : List K :=
  (add_path X Y i).map (MergeStep.val alpha beta X.values_ Y.values_)

end hiopMatrixSparseCSR

namespace hiopMatrixSparseCSR

variable {K : Type} [LinearOrderedField K]

/-- In `times_mat_alloc`, the body of the innermost loop at column index `j`
of `Y`: the assertion `j<n`, and the count goes up if `flag[j]` is `0`, which
is set to `1` then.  The state is the array `flag` and `nnzM`. -/
def times_mat_alloc_visit (n : Nat) (s : (Nat → Nat) × Nat) (j : Nat) :
    Option ((Nat → Nat) × Nat) :=
  if j < n then
    if s.1 j = 0 then some (Function.update s.1 j 1, s.2 + 1) else some s
  else none

/-- In `times_mat_alloc`, row `i`: `flag` is zeroed by `memset` (a map that is
`0` everywhere), then the loop over the nonzeros `(i, k)` of `X`, with the
assertion `k<K`, and inside it the loop over the nonzeros `(k, j)` of `Y`. -/
def times_mat_alloc_row (X Y : hiopMatrixSparseCSR K) (i nnzM : Nat) : Option Nat :=
  ((for_range (X.irowptr_ i) (X.irowptr_ (i + 1))).foldlM
    (fun s pt =>
      let k := X.jcolind_ pt
      if k < X.ncols_ then
        (for_range (Y.irowptr_ k) (Y.irowptr_ (k + 1))).foldlM
          (fun s p => times_mat_alloc_visit Y.ncols_ s (Y.jcolind_ p)) s
      else none)
    (fun _ => 0, nnzM)).map Prod.snd

/-- The local `nnzM` of `times_mat_alloc` at the call of the constructor. -/
def times_mat_alloc_nnz (X Y : hiopMatrixSparseCSR K) : Option Nat :=
  if Y.nrows_ = X.ncols_ then
    (List.range X.nrows_).foldlM (fun nnzM i => times_mat_alloc_row X Y i nnzM) 0
  else none

/-- The method `times_mat_alloc(Y)` on `X`: the count, the assertion
`nnzM>=0 //overflow?!?`, which is `none` for a count beyond `INT_MAX`, and
`new hiopMatrixSparseCSR(m, n, nnzM)`. -/
def times_mat_alloc (X Y : hiopMatrixSparseCSR K) (fresh : FreshArrays K) :
    Option (Constructed K) :=
  (times_mat_alloc_nnz X Y).bind (fun nnzM =>
    if nnzM ≤ INT_MAX then create X.nrows_ Y.ncols_ nnzM fresh else none)

/-- In `times_mat_symbolic`, the body of the innermost loop at column index
`j` of `Y`: the assertion `j<n`, and if `flag[j]` is `0`, the assertion
`nnzM<M.numberOfNonzeros()`, the write `jcolindM[nnzM++]=j` and `flag[j]=1`.
The state is the array `flag`, `nnzM` and the array `jcolindM`. -/
def times_mat_symbolic_visit (n nnz : Nat) (s : (Nat → Nat) × Nat × (Nat → Nat)) (j : Nat) :
    Option ((Nat → Nat) × Nat × (Nat → Nat)) :=
  if j < n then
    if s.1 j = 0 then
      if s.2.1 < nnz then
        some (Function.update s.1 j 1, s.2.1 + 1, Function.update s.2.2 s.2.1 j)
      else none
    else some s
  else none

/-- In `times_mat_symbolic`, row `i` after `irowptrM[i]=nnzM`: `flag` zeroed,
and the two nested loops; the state is `nnzM` and the array `jcolindM`. -/
def times_mat_symbolic_row (X M Y : hiopMatrixSparseCSR K) (i : Nat) (s : Nat × (Nat → Nat)) :
    Option (Nat × (Nat → Nat)) :=
  ((for_range (X.irowptr_ i) (X.irowptr_ (i + 1))).foldlM
    (fun s px =>
      let k := X.jcolind_ px
      if k < X.ncols_ then
        (for_range (Y.irowptr_ k) (Y.irowptr_ (k + 1))).foldlM
          (fun s py => times_mat_symbolic_visit Y.ncols_ M.nnz_ s (Y.jcolind_ py)) s
      else none)
    ((fun _ => 0), s)).map Prod.snd

/-- The buffer `M.buf_col_` as both `times_mat_symbolic` and
`times_mat_numeric` set it up: allocated with `n` cells if it was `nullptr`
(`freshW` is what the new cells hold), and its first `n` cells zeroed. -/
def times_mat_buffer (M : hiopMatrixSparseCSR K) (n : Nat) (freshW : Nat → K) : Nat → K :=
  (for_range 0 n).foldl (fun W it => Function.update W it 0) (M.buf_col_.getD freshW)

/-- The method `times_mat_symbolic(M, Y)` on `X`: the new content of `M`. -/
def times_mat_symbolic (X M Y : hiopMatrixSparseCSR K) (freshW : Nat → K) :
    Option (hiopMatrixSparseCSR K) :=
  if M.nrows_ = X.nrows_ ∧ M.ncols_ = Y.ncols_ ∧ Y.nrows_ = X.ncols_ then
    ((List.range X.nrows_).foldlM
      (fun (s : (Nat → Nat) × Nat × (Nat → Nat)) i =>
        (times_mat_symbolic_row X M Y i s.2).map (fun r => (Function.update s.1 i s.2.1, r)))
      (M.irowptr_, 0, M.jcolind_)).map (fun s =>
    { M with irowptr_ := Function.update s.1 X.nrows_ s.2.1, jcolind_ := s.2.2,
             buf_col_ := some (times_mat_buffer M Y.ncols_ freshW) })
  else none

/-- In `times_mat_numeric`, the array `valuesM` before the loop over the
rows: as it was if `beta == 1.0`, zeroed if `beta == 0.0`, and scaled by
`DSCAL` otherwise. -/
def times_mat_numeric_scaled (beta : K) (M : hiopMatrixSparseCSR K) : Nat → K :=
  if beta ≠ 1 then
    if beta = 0 then (for_range 0 M.nnz_).foldl (fun v i => Function.update v i 0) M.values_
    else DSCAL M.nnz_ beta M.values_
  else M.values_

/-- In `times_mat_numeric`, the first loop nest of row `i`: the row `k` of `Y`
is scattered into `W` for every nonzero `(i, k)` of `X`, with the assertions
`k<K` and `jcolindY[py]<n`. -/
def times_mat_numeric_scatter (X Y : hiopMatrixSparseCSR K) (i : Nat) (W : Nat → K) :
    Option (Nat → K) :=
  (for_range (X.irowptr_ i) (X.irowptr_ (i + 1))).foldlM
    (fun W px =>
      let k := X.jcolind_ px
      if k < X.ncols_ then
        let val := X.values_ px
        (for_range (Y.irowptr_ k) (Y.irowptr_ (k + 1))).foldlM
          (fun W py =>
            if Y.jcolind_ py < Y.ncols_ then
              some (Function.update W (Y.jcolind_ py) (W (Y.jcolind_ py) + Y.values_ py * val))
            else none) W
      else none) W

/-- In `times_mat_numeric`, the second loop of row `i`: the values of `W` are
gathered into the row of `M`, and their cells in `W` zeroed.  The state is `W`
and the array `valuesM`. -/
def times_mat_numeric_gather (M : hiopMatrixSparseCSR K) (alpha : K) (i : Nat)
    (s : (Nat → K) × (Nat → K)) : (Nat → K) × (Nat → K) :=
  (for_range (M.irowptr_ i) (M.irowptr_ (i + 1))).foldl
    (fun s p =>
      let j := M.jcolind_ p
      (Function.update s.1 j 0, Function.update s.2 p (s.2 p + alpha * s.1 j))) s

/-- In `times_mat_numeric`, the first `n` passes of the loop over the rows;
the state is `W` and the array `valuesM`. -/
def times_mat_numeric_rows (X M Y : hiopMatrixSparseCSR K) (alpha : K) (n : Nat)
    (s : (Nat → K) × (Nat → K)) : Option ((Nat → K) × (Nat → K)) :=
  (List.range n).foldlM
    (fun s i => (times_mat_numeric_scatter X Y i s.1).map
      (fun W => times_mat_numeric_gather M alpha i (W, s.2))) s

/-- The method `times_mat_numeric(beta, M, alpha, Y)` on `X`: the new content
of `M`. -/
def times_mat_numeric (X : hiopMatrixSparseCSR K) (beta : K) (M : hiopMatrixSparseCSR K)
    (alpha : K) (Y : hiopMatrixSparseCSR K) (freshW : Nat → K) :
    Option (hiopMatrixSparseCSR K) :=
  if M.nrows_ = X.nrows_ ∧ M.ncols_ = Y.ncols_ ∧ Y.nrows_ = X.ncols_ then
    (times_mat_numeric_rows X M Y alpha X.nrows_
      (times_mat_buffer M Y.ncols_ freshW, times_mat_numeric_scaled beta M)).map (fun s =>
    { M with values_ := s.2, buf_col_ := some s.1 })
  else none

end hiopMatrixSparseCSR

/-- The method `times_mat_symbolic(M, Y)` on `X` for an object `M` as a
constructor left it.  Without arrays `M.i_row()` is `nullptr`, and the method
writes through it, `irowptrM[i]=nnzM` in the first pass of its loop or,
without rows, `irowptrM[m] = nnzM` after the loop, unless an assertion has
failed before. -/
def Constructed.times_mat_symbolic {K : Type} [LinearOrderedField K]
    (X : hiopMatrixSparseCSR K) (M : Constructed K) (Y : hiopMatrixSparseCSR K)
    (freshW : Nat → K) : Option (hiopMatrixSparseCSR K) :=
  match M with
  | .allocated M => X.times_mat_symbolic M Y freshW
  | .unallocated _ _ => none

/-! ## Vocabulary of the statements on the product of two matrices -/

/-- The column indices of a list that are met with their flag at `0`, in the
order in which they are met; the flag of a column index is `1` once it has
been met. -/
def new_cols (flag : Nat → Nat) : List Nat → List Nat
  | [] => []
  | j :: l =>
    if flag j = 0 then j :: new_cols (Function.update flag j 1) l else new_cols flag l

/-- The array `W` after the terms of a list were added to their cells. -/
def scatterList {K : Type} [LinearOrderedField K] (W : Nat → K) : List (Nat × K) → Nat → K
  | [] => W
  | (j, a) :: l => scatterList (Function.update W j (W j + a)) l

namespace hiopMatrixSparseCSR

variable {K : Type} [LinearOrderedField K]

/-- The column indices of `Y` the loops of row `i` of `times_mat_alloc` and
`times_mat_symbolic` meet, in turn: for every position of row `i` of `X`, with
`k` its column index, the column indices of row `k` of `Y`. -/
def times_visits (X Y : hiopMatrixSparseCSR K) (i : Nat) : List Nat :=
  (X.row_positions i).flatMap (fun px => Y.row_cols (X.jcolind_ px))

/-- The column indices of row `i` of the product, in the order in which the
loops meet them first. -/
def times_cols (X Y : hiopMatrixSparseCSR K) (i : Nat) : List Nat :=
  new_cols (fun _ => 0) (times_visits X Y i)

/-- The terms the first loop nest of row `i` of `times_mat_numeric` adds to
the cells of `W`, in turn: for the positions `px` of row `i` of `X` and `py`
of row `jcolindX[px]` of `Y`, the term `valuesY[py] * valuesX[px]` for the
cell `jcolindY[py]`. -/
def times_terms (X Y : hiopMatrixSparseCSR K) (i : Nat) : List (Nat × K) :=
  (X.row_positions i).flatMap (fun px =>
    (Y.row_positions (X.jcolind_ px)).map (fun py => (Y.jcolind_ py, Y.values_ py * X.values_ px)))

/-- The matrix `M` has `N` rows with the column indices `row 0`, ...,
`row (N - 1)` stored one row after the other from cell `0` on, and its number
of nonzeros is the number of these cells. -/
structure CarriesPattern (row : Nat → List Nat) (N : Nat) (M : hiopMatrixSparseCSR K) : Prop where
  nrows : M.nrows_ = N
  nnz : M.nnz_ = (concat_rows row N).length
  rowptr : ∀ i, i ≤ N → M.irowptr_ i = (concat_rows row i).length
  cells : ∀ r t c, r < N → (row r)[t]? = some c →
    M.jcolind_ ((concat_rows row r).length + t) = c

end hiopMatrixSparseCSR

/-! ## Compressed-row storage: the transpose of a triplet matrix -/

/-- The triplet matrix as `form_transpose_from_symbolic` and
`form_transpose_from_numeric` read it, through the accessors `m()`, `n()`,
`numberOfNonzeros()`, `i_row()`, `j_col()` and `M()` of
`hiopMatrixSparseTriplet`. -/
structure hiopMatrixSparseTriplet (K : Type) where
  m : Nat
  n : Nat
  numberOfNonzeros : Nat
  i_row : Nat → Nat
  j_col : Nat → Nat
  M : Nat → K

namespace hiopMatrixSparseCSR

variable {K : Type} [LinearOrderedField K]

/-- In `form_transpose_from_symbolic`, the first block: if the sizes are not
those of the transpose, `dealloc()`, the sizes are set and `alloc()`. -/
def form_transpose_resize (A : hiopMatrixSparseCSR K) (T : hiopMatrixSparseTriplet K)
    (fresh : FreshArrays K) : Option (hiopMatrixSparseCSR K) :=
  if T.m ≠ A.ncols_ ∨ T.n ≠ A.nrows_ ∨ T.numberOfNonzeros ≠ A.nnz_ then
    alloc { A.dealloc with nrows_ := T.n, ncols_ := T.m, nnz_ := T.numberOfNonzeros } fresh
  else some A

/-- In `form_transpose_from_symbolic`, the loop that counts the nonzeros of
each row in `w`, with the assertion `Mjcol[it]<nrows_`. -/
def form_transpose_count (nrows nnz : Nat) (T : hiopMatrixSparseTriplet K) (w : Nat → Nat) :
    Option (Nat → Nat) :=
  (for_range 0 nnz).foldlM
    (fun w it =>
      if T.j_col it < nrows then some (Function.update w (T.j_col it) (w (T.j_col it) + 1))
      else none) w

/-- In `form_transpose_from_symbolic`, `irowptr_[0] = 0` and the loop
`for(int i=1; i<=nrows_; ++i)` of the cumulative sums, which also sets `w` to
the row starts.  The state is the arrays `irowptr_` and `w`. -/
def form_transpose_cumsum (nrows : Nat) (s : (Nat → Nat) × (Nat → Nat)) :
    (Nat → Nat) × (Nat → Nat) :=
  (for_range 1 (nrows + 1)).foldl
    (fun s i =>
      let irowptr := Function.update s.1 i (s.1 (i - 1) + s.2 (i - 1))
      (irowptr, Function.update s.2 (i - 1) (irowptr (i - 1))))
    (Function.update s.1 0 0, s.2)

/-- The body of the loop that populates `jcolind_` from `Mirow` in
`form_transpose_from_symbolic` and `values_` from `Mvalues` in
`form_transpose_from_numeric`; the two loops differ in these arrays only,
`dst` and `src` here.  The state is `dst` and `row_starts_`; the three
assertions are `nz_idx<nnz_`, `Mirow[it] < ncols_` and
`row_starts_[row_idx] <= irowptr_[row_idx+1]`. -/
def form_transpose_put {α : Type} (nnz ncols : Nat) (irowptr : Nat → Nat)
    (T : hiopMatrixSparseTriplet K) (src : Nat → α) (s : (Nat → α) × (Nat → Nat)) (it : Nat) :
    Option ((Nat → α) × (Nat → Nat)) :=
  let row_idx := T.j_col it
  let nz_idx := s.2 row_idx
  if nz_idx < nnz then
    let dst := Function.update s.1 nz_idx (src it)
    if T.i_row it < ncols then
      let row_starts := Function.update s.2 row_idx (s.2 row_idx + 1)
      if row_starts row_idx ≤ irowptr (row_idx + 1) then some (dst, row_starts) else none
    else none
  else none

/-- The rollback of `row_starts_`: the loop `for(int i=nrows_-1; i>=1; --i)`
and `row_starts_[0]=0`. -/
def form_transpose_rollback (nrows : Nat) (row_starts : Nat → Nat) : Nat → Nat :=
  Function.update
    ((for_range 1 nrows).reverse.foldl (fun rs i => Function.update rs i (rs (i - 1)))
      row_starts) 0 0

/-- The assertions of the block under `#ifndef NDEBUG`:
`jcolind_[itnz] > jcolind_[itnz-1]` for `itnz` from `irowptr_[i]+1` up to
`irowptr_[i+1]`, in every row `i`. -/
def cols_sorted_check (nrows : Nat) (irowptr jcolind : Nat → Nat) : Bool :=
  (for_range 0 nrows).all (fun i =>
    (for_range (irowptr i + 1) (irowptr (i + 1))).all (fun itnz =>
      decide (jcolind (itnz - 1) < jcolind itnz)))

/-- The method `form_transpose_from_symbolic(M)`: the new content of the
object.  `freshR` is what the new array `row_starts_` holds before it is
written.  The assertion `assert(irowptr_[nrows_] = nnz_)` is an assignment,
and it passes when the value assigned is not `0`. -/
def form_transpose_from_symbolic (A : hiopMatrixSparseCSR K) (T : hiopMatrixSparseTriplet K)
    (fresh : FreshArrays K) (freshR : Nat → Nat) : Option (hiopMatrixSparseCSR K) :=
  (form_transpose_resize A T fresh).bind (fun A =>
    if A.nnz_ ≤ 0 then some A
    else if A.row_starts_.isNone then
      let w := (for_range 0 A.nrows_).foldl (fun w i => Function.update w i 0) freshR
      (form_transpose_count A.nrows_ A.nnz_ T w).bind (fun w =>
        let s := form_transpose_cumsum A.nrows_ (A.irowptr_, w)
        let irowptr := Function.update s.1 A.nrows_ A.nnz_
        if A.nnz_ ≠ 0 then
          ((for_range 0 A.nnz_).foldlM
            (form_transpose_put A.nnz_ A.ncols_ irowptr T T.i_row) (A.jcolind_, s.2)).bind
          (fun r =>
            if cols_sorted_check A.nrows_ irowptr r.1 then
              some { A with irowptr_ := irowptr, jcolind_ := r.1,
                            row_starts_ := some (form_transpose_rollback A.nrows_ r.2) }
            else none)
        else none)
    else none)

/-- The method `form_transpose_from_numeric(M)`: the new content of the
object. -/
def form_transpose_from_numeric (A : hiopMatrixSparseCSR K) (T : hiopMatrixSparseTriplet K) :
    Option (hiopMatrixSparseCSR K) :=
  match A.row_starts_ with
  | none => none
  | some row_starts =>
    if A.nrows_ = T.n ∧ A.ncols_ = T.m ∧ A.nnz_ = T.numberOfNonzeros then
      if cols_sorted_check A.nrows_ A.irowptr_ A.jcolind_ then
        ((for_range 0 A.nnz_).foldlM
          (form_transpose_put A.nnz_ A.ncols_ A.irowptr_ T T.M) (A.values_, row_starts)).map
        (fun r =>
          { A with values_ := r.1,
                   row_starts_ := some (form_transpose_rollback A.nrows_ r.2) })
      else none
    else none

end hiopMatrixSparseCSR

/-! ## Vocabulary of the statements on the transpose -/

namespace hiopMatrixSparseTriplet

variable {K : Type} [LinearOrderedField K]

/-- The number of entries of column `c` among the first `t` entries. -/
def col_count (T : hiopMatrixSparseTriplet K) (t c : Nat) : Nat :=
  ((List.range t).filter (fun it => T.j_col it = c)).length

/-- The number of entries in the columns before column `i`: the cumulative
per-column count. -/
def col_start (T : hiopMatrixSparseTriplet K) (i : Nat) : Nat :=
  ∑ c in Finset.range i, T.col_count T.numberOfNonzeros c

/-- The cell of entry `it` in the transpose: the start of the row of its
column plus the number of entries of this column before it. -/
def transpose_pos (T : hiopMatrixSparseTriplet K) (it : Nat) : Nat :=
  T.col_start (T.j_col it) + T.col_count it (T.j_col it)

/-- The array `dst` after the first `t` entries of `src` were put in the cells
of their entries. -/
def transpose_fill {α : Type} (T : hiopMatrixSparseTriplet K) (src dst : Nat → α) :
    Nat → Nat → α
  | 0 => dst
  | t + 1 => Function.update (transpose_fill T src dst t) (T.transpose_pos t) (src t)

/-- The row and column indices of the entries are below `m` and `n`. -/
structure InRange (T : hiopMatrixSparseTriplet K) : Prop where
  row : ∀ it, it < T.numberOfNonzeros → T.i_row it < T.m
  col : ∀ it, it < T.numberOfNonzeros → T.j_col it < T.n

/-- The entries are sorted by (row, column) and no position occurs twice:
every entry has a greater row index than the one before, or the same row
index and a greater column index. -/
def SortedNoDup (T : hiopMatrixSparseTriplet K) : Prop :=
  ∀ it, it + 1 < T.numberOfNonzeros →
    T.i_row it < T.i_row (it + 1) ∨
      (T.i_row it = T.i_row (it + 1) ∧ T.j_col it < T.j_col (it + 1))

/-- Two triplet matrices with the same sizes and the same row and column
indices, whatever their values. -/
structure SamePattern (T T1 : hiopMatrixSparseTriplet K) : Prop where
  m : T1.m = T.m
  n : T1.n = T.n
  nnz : T1.numberOfNonzeros = T.numberOfNonzeros
  row : ∀ it, it < T.numberOfNonzeros → T1.i_row it = T.i_row it
  col : ∀ it, it < T.numberOfNonzeros → T1.j_col it = T.j_col it

end hiopMatrixSparseTriplet

namespace hiopMatrixSparseCSR

variable {K : Type} [LinearOrderedField K]

/-- The object holds the pattern of the transpose of `T`, with `row_starts_`
at the row starts: the sizes are those of the transpose, the row pointers are
the cumulative per-column counts of `T`, the cell of every entry of `T` holds
its row index, and `row_starts_[i] = irowptr_[i]` for every row `i`. -/
structure TransposePattern (T : hiopMatrixSparseTriplet K) (A : hiopMatrixSparseCSR K) :
    Prop where
  nrows : A.nrows_ = T.n
  ncols : A.ncols_ = T.m
  nnz : A.nnz_ = T.numberOfNonzeros
  rowptr : ∀ i, i ≤ T.n → A.irowptr_ i = T.col_start i
  cells : ∀ it, it < T.numberOfNonzeros → A.jcolind_ (T.transpose_pos it) = T.i_row it
  starts : ∃ rs, A.row_starts_ = some rs ∧ ∀ i, i < T.n → rs i = A.irowptr_ i

end hiopMatrixSparseCSR

/-! ## Concrete data used by the examples -/

/-- A square root on `ℚ` that is exact at the squares the examples need. -/
def ex_sqrt (q : ℚ) : ℚ :=
  if q = 9 then 3 else 0

/-- Members of `HessianApprox` as a class declaration could initialise them:
`ratio_min = 1/2`, `ratio_max = 5`, `alpha_min = 1e-5`, `alpha_max = 1e10`. -/
def ex_decl : HessianApprox ℚ 1 :=
  { fk := 0, fkm1 := 0, fkm1_lin := 0,
    xkm1 := fun _ => 0, skm1 := fun _ => 0, ykm1 := fun _ => 0, gkm1 := fun _ => 0,
    alpha_ := 10 ^ 6, ratio_ := 1, tr_ratio_ := 1,
    ratio_min := 1 / 2, ratio_max := 5, alpha_min := 1 / 10 ^ 5, alpha_max := 10 ^ 10 }

/-- A driver object with `S_ = 4`, four ranks, one coupled variable. -/
def ex_alg : hiopAlgPrimalDecomposition ℚ 1 1 :=
  { S_ := 4, comm_size_ := 4, my_rank_ := 0, tol_ := 1 / 10 ^ 8, accp_tol_ := 1 / 10 ^ 6,
    accp_count_ := 10, max_iter_ := 200, alpha_max_ := 10 ^ 10, alpha_min_ := 1 / 10 ^ 5,
    alpha_ratio_ := 1, local_accum_ := false, ver_ := 0, it_ := 0, solver_status_ := 0,
    x_ := fun _ => 0, xc_idx_ := fun i => i }

/-- Driver locals at the start of a run: `base_val = base_valm1 = 0`,
`convg = convg_g = convg_f = 1e20`, `hess_appx` zero. -/
def ex_vars : DriverVars ℚ 1 :=
  { base_val := 0, base_valm1 := 0, convg := 10 ^ 20, convg_g := 10 ^ 20, convg_f := 10 ^ 20,
    hess_appx := fun _ => 0 }

/-- The aggregate of `S = 4`, `f_i(x) = (x - i)^2` at `x0 = 0`: `rval = 7/2`,
`grad_r = -3`. -/
def ex_inp : IterInput ℚ 1 :=
  { rval := 7 / 2, x0 := fun _ => 0, grad_r := fun _ => -3, objective := 0 }

/-- The recourse terms `f_i(x) = (x - i)^2` with gradient `2 (x - i)`, one
coupled variable. -/
def ex_prob : RecourseProblem ℚ 1 :=
  { eval_f_rterm := fun i x _ => (true, (x 0 - (i : ℚ)) ^ 2),
    eval_grad_rterm := fun i x _ => (true, fun _ => 2 * (x 0 - (i : ℚ))) }

/-- A schedule in which the evaluators answer at different paces: in pass `t`
rank `r` has answered when `r` divides `t + 1`. -/
def ex_ready (t r : Nat) : Bool :=
  (t + 1) % r = 0

/-- The master of the example on entry to its block. -/
def ex_master : Master ℚ 1 :=
  master_init 5 (fun _ => 5) (fun _ => (0, fun _ => 0))

/-- A driver object with fewer sub-problems than evaluators: `S_ = 2`, four
ranks. -/
def ex_alg_small : hiopAlgPrimalDecomposition ℚ 1 1 :=
  { ex_alg with S_ := 2 }

/-- The driver object of the example with the option `accum_local` set to
`"yes"`. -/
def ex_alg_local : hiopAlgPrimalDecomposition ℚ 1 1 :=
  { ex_alg with local_accum_ := true }

/-! ## Concrete data used by the examples: a second outer iteration -/

/-- A square root on `ℚ` that is exact at the squares the examples of the
convergence measures need: `9`, `(15/7)^2` and `(3/7)^2`. -/
def ex_sqrt2 (q : ℚ) : ℚ :=
  if q = 9 then 3 else if q = 225 / 49 then 15 / 7 else if q = 9 / 49 then 3 / 7 else 0

/-- The trust-region state of the scenario `S = 4`, `f_i(x) = (x - i)^2` at
the start of outer iteration 1: `initialize(7/2, 0, -3)` and `get_alpha_f(-3)`
at `x0 = 0` (which leaves `alpha_ = 9/7`), then
`update_hess_coeff(3, 3, 7/2)` for the new point `x0 = 3`, where the aggregate
is `rval = 7/2`, `grad_r = 3`.  So `skm1 = 3`, `ykm1 = 6`,
`fkm1_lin = -9`. -/
def ex_hess : HessianApprox ℚ 1 :=
  (((ex_decl.initialise (7 / 2) (fun _ => 0) (fun _ => -3)).get_alpha_f ex_sqrt2
    (fun _ => -3)).2).update_hess_coeff (fun _ => 3) (fun _ => 3) (7 / 2)

/-! ## Concrete data used by the examples: a collaborator and a schedule -/

/-- A master problem for the scenario `S = 4`, `f_i(x) = (x - i)^2`: its state
is the objective of the last solve; the basecase solve gives `x = 0` with
objective `0` and status `0`, every solve of the full problem gives `x = 3`
with objective `1` and status `1`; installing the evaluator reports
`false`. -/
def ex_master_prob : hiopInterfacePriDecProblem ℚ ℚ 1 1 :=
  { rterms := ex_prob,
    solve_master := fun _ _ include_r =>
      if include_r then (1, fun _ => 3, 1) else (0, fun _ => 0, 0),
    get_objective := fun s => s,
    set_recourse_approx_evaluator := fun s _ => (false, s) }

/-- Content of the vectors the driver does not fill. -/
def ex_uninit : Uninit ℚ 1 :=
  { hess_vectors := fun _ => 0, hess_appx := fun _ => 0, x0 := fun _ => 0 }

/-- The schedule `ex_ready` in every outer iteration, with 20 passes allowed,
zeroed receive buffers, and `7` in the variables of the evaluators. -/
def ex_sched : Schedule ℚ 1 :=
  { ready := fun _ => ex_ready, fuel := fun _ => 20, buf0 := fun _ _ => (0, fun _ => 0),
    prev := fun _ _ => ((7, fun _ => 7), (7, fun _ => 7)) }

/-- The driver object of the example on a single rank. -/
def ex_alg_single : hiopAlgPrimalDecomposition ℚ 1 1 :=
  { ex_alg with comm_size_ := 1 }

/-- A second master problem for the same scenario, with another kind of
state (the objective of the last solve and the number of solves so far), which
reports success everywhere: status `0` from every solve and `true` from
installing the evaluator. -/
def ex_master_prob2 : hiopInterfacePriDecProblem ℚ (ℚ × Nat) 1 1 :=
  { rterms := { eval_f_rterm := fun i x _ => (false, (x 0 - (i : ℚ)) ^ 2),
                eval_grad_rterm := fun i x _ => (false, fun _ => 2 * (x 0 - (i : ℚ))) },
    solve_master := fun s _ include_r =>
      if include_r then (0, fun _ => 3, (1, s.2 + 1)) else (0, fun _ => 0, (0, s.2 + 1)),
    get_objective := fun s => s.1,
    set_recourse_approx_evaluator := fun s _ => (true, s) }

/-! ## Concrete data used by the examples: trust-region states with other values -/

/-- The state `ex_hess` with the current value `fk = -2` instead of `7/2`: the
value fell by `11/2` where the model predicted `45/14`, `rho_k = 77/45`. -/
def ex_hess_far : HessianApprox ℚ 1 :=
  { ex_hess with fk := -2 }

/-- The state `ex_hess` with the current value `fk = 3` instead of `7/2`: the
value fell by `1/2` where the model predicted `45/14`, `rho_k = 7/45`. -/
def ex_hess_near : HessianApprox ℚ 1 :=
  { ex_hess with fk := 3 }

/-! ## Concrete data used by the examples: options -/

/-- An extraction of `double` that reads the text `1e-10`. -/
def ex_parse_double (s : String) : Option ℚ :=
  if s = "1e-10" then some (1 / 10 ^ 10) else none

/-- An extraction of `int` that reads the text `100`. -/
def ex_parse_int (s : String) : Option Int :=
  if s = "100" then some 100 else none

/-- Members of a driver object with two master variables as a class
declaration could initialise them; the constructor overwrites all but
`alpha_ratio_`, `it_` and `solver_status_`. -/
def ex_alg_decl : hiopAlgPrimalDecomposition ℚ 2 2 :=
  { S_ := 0, comm_size_ := 0, my_rank_ := 0, tol_ := 0, accp_tol_ := 0, accp_count_ := 0,
    max_iter_ := 0, alpha_max_ := 0, alpha_min_ := 0, alpha_ratio_ := 1, local_accum_ := false,
    ver_ := 0, it_ := 0, solver_status_ := 0, x_ := fun _ => 0, xc_idx_ := fun i => i }

/-! ## Concrete data used by the examples: sparse matrices -/

/-- The content `7` in every cell of newly allocated arrays. -/
def ex_fresh : FreshArrays ℚ :=
  { irowptr := fun _ => 7, jcolind := fun _ => 7, values := fun _ => 7 }

/-- The 2 x 3 matrix with the rows `(1, 0, 2)` and `(0, 3, 0)`. -/
def ex_csr_X : hiopMatrixSparseCSR ℚ :=
  { nrows_ := 2, ncols_ := 3, nnz_ := 3,
    irowptr_ := fun i => [0, 2, 3].getD i 0,
    jcolind_ := fun p => [0, 2, 1].getD p 0,
    values_ := fun p => [1, 2, 3].getD p 0,
    buf_col_ := none, row_starts_ := none }

/-- The 2 x 3 matrix with the rows `(0, 10, 20)` and `(0, 0, 0)`. -/
def ex_csr_Y : hiopMatrixSparseCSR ℚ :=
  { nrows_ := 2, ncols_ := 3, nnz_ := 2,
    irowptr_ := fun i => [0, 2, 2].getD i 0,
    jcolind_ := fun p => [1, 2].getD p 0,
    values_ := fun p => [10, 20].getD p 0,
    buf_col_ := none, row_starts_ := none }

/-- The 3 x 2 matrix with the rows `(5, 0)`, `(0, 6)` and `(7, 8)`. -/
def ex_csr_Z : hiopMatrixSparseCSR ℚ :=
  { nrows_ := 3, ncols_ := 2, nnz_ := 4,
    irowptr_ := fun i => [0, 1, 2, 4].getD i 0,
    jcolind_ := fun p => [0, 1, 0, 1].getD p 0,
    values_ := fun p => [5, 6, 7, 8].getD p 0,
    buf_col_ := none, row_starts_ := none }

/-- The 1 x 1 triplet matrix without entries. -/
def ex_triplet_empty : hiopMatrixSparseTriplet ℚ :=
  { m := 1, n := 1, numberOfNonzeros := 0, i_row := fun _ => 0, j_col := fun _ => 0,
    M := fun _ => 0 }

/-- The 2 x 3 triplet matrix with the rows `(1, 0, 2)` and `(0, 3, 4)`. -/
def ex_triplet : hiopMatrixSparseTriplet ℚ :=
  { m := 2, n := 3, numberOfNonzeros := 4,
    i_row := fun it => [0, 0, 1, 1].getD it 0,
    j_col := fun it => [0, 2, 1, 2].getD it 0,
    M := fun it => [1, 2, 3, 4].getD it 0 }

/-- The triplet matrix `ex_triplet` with the values `10, 20, 30, 40`. -/
def ex_triplet_new : hiopMatrixSparseTriplet ℚ :=
  { ex_triplet with M := fun it => [10, 20, 30, 40].getD it 0 }

/-- The 0 x 3 matrix: no row, and the one row pointer `0`. -/
def ex_csr_norows : hiopMatrixSparseCSR ℚ :=
  { nrows_ := 0, ncols_ := 3, nnz_ := 0, irowptr_ := fun _ => 0, jcolind_ := fun _ => 0,
    values_ := fun _ => 0, buf_col_ := none, row_starts_ := none }

/-- The 2 x 2^30 matrix whose row 0 is full, with the column index `p` and the
value `1` in cell `p`, and whose row 1 is empty. -/
def ex_csr_top : hiopMatrixSparseCSR ℚ :=
  { nrows_ := 2, ncols_ := 1073741824, nnz_ := 1073741824,
    irowptr_ := fun i => if i = 0 then 0 else 1073741824, jcolind_ := fun p => p,
    values_ := fun _ => 1, buf_col_ := none, row_starts_ := none }

/-- The 2 x 2^30 matrix whose row 0 is empty and whose row 1 is full, with the
column index `p` and the value `1` in cell `p`. -/
def ex_csr_bottom : hiopMatrixSparseCSR ℚ :=
  { nrows_ := 2, ncols_ := 1073741824, nnz_ := 1073741824,
    irowptr_ := fun i => if i ≤ 1 then 0 else 1073741824, jcolind_ := fun p => p,
    values_ := fun _ => 1, buf_col_ := none, row_starts_ := none }

/-- The 2 x 2 matrix with the rows `(1, 0)` and `(1, 0)`. -/
def ex_csr_firstcol : hiopMatrixSparseCSR ℚ :=
  { nrows_ := 2, ncols_ := 2, nnz_ := 2, irowptr_ := fun i => [0, 1, 2].getD i 0,
    jcolind_ := fun _ => 0, values_ := fun _ => 1, buf_col_ := none, row_starts_ := none }

/-! ## Facts about `std_max`, `std_min` -/

theorem std_max_eq_max {K : Type} [LinearOrderedField K] (a b : K) : std_max a b = max a b := by
  unfold std_max
  split_ifs with h
  · exact (max_eq_right h.le).symm
  · exact (max_eq_left (not_lt.mp h)).symm

theorem std_min_eq_min {K : Type} [LinearOrderedField K] (a b : K) : std_min a b = min a b := by
  unfold std_min
  split_ifs with h
  · exact (min_eq_right h.le).symm
  · exact (min_eq_left (not_lt.mp h)).symm

/-- Clamping `std_min hi (std_max lo a)` lands in `[lo, hi]` when `lo ≤ hi`. -/
theorem clamp_mem {K : Type} [LinearOrderedField K] (lo hi a : K) (h : lo ≤ hi) :
    lo ≤ std_min hi (std_max lo a) ∧ std_min hi (std_max lo a) ≤ hi := by
  rw [std_min_eq_min, std_max_eq_max]
  exact ⟨le_min h (le_max_left _ _), min_le_left _ _⟩

/-! ## The trust-region model -/

section hess

variable {K : Type} [LinearOrderedField K] {nc : Nat}

theorem model_pre_bounds_fields (sqrt : K → K) (it : Nat) (h : HessianApprox K nc)
    (v : DriverVars K nc) (inp : IterInput K nc) :
    (model_pre sqrt it h v inp).1.alpha_min = h.alpha_min ∧
    (model_pre sqrt it h v inp).1.alpha_max = h.alpha_max ∧
    (model_pre sqrt it h v inp).1.ratio_min = h.ratio_min ∧
    (model_pre sqrt it h v inp).1.ratio_max = h.ratio_max := by
  unfold model_pre
  split_ifs <;> exact ⟨rfl, rfl, rfl, rfl⟩

theorem model_update_state (sqrt : K → K) (it : Nat) (h : HessianApprox K nc)
    (v : DriverVars K nc) (inp : IterInput K nc) :
    (model_update sqrt it h v inp).1 =
      ((model_pre sqrt it h v inp).1.get_alpha_f sqrt inp.grad_r).2 := by
  unfold model_update
  split_ifs <;> rfl

theorem model_update_hess_appx (sqrt : K → K) (it : Nat) (h : HessianApprox K nc)
    (v : DriverVars K nc) (inp : IterInput K nc) :
    (model_update sqrt it h v inp).2.hess_appx =
      setToConstant ((model_pre sqrt it h v inp).1.get_alpha_f sqrt inp.grad_r).1 := by
  unfold model_update
  split_ifs <;> rfl

theorem model_update_bounds_fields (sqrt : K → K) (it : Nat) (h : HessianApprox K nc)
    (v : DriverVars K nc) (inp : IterInput K nc) :
    (model_update sqrt it h v inp).1.alpha_min = h.alpha_min ∧
    (model_update sqrt it h v inp).1.alpha_max = h.alpha_max ∧
    (model_update sqrt it h v inp).1.ratio_min = h.ratio_min ∧
    (model_update sqrt it h v inp).1.ratio_max = h.ratio_max := by
  rw [model_update_state]
  exact model_pre_bounds_fields sqrt it h v inp

theorem get_alpha_f_mem (sqrt : K → K) (h : HessianApprox K nc) (gk : Vec K nc)
    (hle : h.alpha_min ≤ h.alpha_max) :
    h.alpha_min ≤ (h.get_alpha_f sqrt gk).1 ∧ (h.get_alpha_f sqrt gk).1 ≤ h.alpha_max :=
  clamp_mem _ _ _ hle

/-- Every curvature vector installed by a run of model updates has all its
entries in `[alpha_min, alpha_max]`. -/
theorem model_run_hess_appx_mem (sqrt : K → K) (inps : List (IterInput K nc)) :
    ∀ (it : Nat) (h : HessianApprox K nc) (v : DriverVars K nc),
      h.alpha_min ≤ h.alpha_max →
      ∀ s ∈ model_run sqrt it inps h v, ∀ i : Fin nc,
        h.alpha_min ≤ s.vars.hess_appx i ∧ s.vars.hess_appx i ≤ h.alpha_max ∧
        s.vars.hess_appx i = s.post.alpha_ := by
  induction inps with
  | nil => intro it h v _ s hs; simp [model_run] at hs
  | cons inp rest ih =>
    intro it h v hle s hs i
    simp only [model_run, List.mem_cons] at hs
    obtain ⟨h1, h2, _, _⟩ := model_pre_bounds_fields sqrt it h v inp
    obtain ⟨u1, u2, _, _⟩ := model_update_bounds_fields sqrt it h v inp
    rcases hs with rfl | hs
    · have hb := get_alpha_f_mem sqrt (model_pre sqrt it h v inp).1 inp.grad_r
        (by rw [h1, h2]; exact hle)
      rw [h1, h2] at hb
      simp only [model_update_hess_appx, model_update_state, setToConstant]
      exact ⟨hb.1, hb.2, rfl⟩
    · have := ih (it + 1) (model_update sqrt it h v inp).1 (model_update sqrt it h v inp).2
        (by rw [u1, u2]; exact hle) s hs i
      rw [u1, u2] at this
      exact this

/-- C8. Alpha bounds: with `alpha_min ≤ alpha_max`, the values returned by
`get_alpha_f`, `get_alpha_BB` and `get_alpha_tr` lie in `[alpha_min, alpha_max]`
and are the values stored as `alpha_`; and in every run of model updates
started from the state, at every outer iteration, each entry of the curvature
vector installed in the master problem lies in `[alpha_min, alpha_max]`. -/
theorem alpha_within_bounds (sqrt : K → K) (h : HessianApprox K nc) (gk : Vec K nc)
    (hle : h.alpha_min ≤ h.alpha_max) :
    (h.alpha_min ≤ (h.get_alpha_f sqrt gk).1 ∧ (h.get_alpha_f sqrt gk).1 ≤ h.alpha_max ∧
      (h.get_alpha_f sqrt gk).2.alpha_ = (h.get_alpha_f sqrt gk).1) ∧
    (h.alpha_min ≤ h.get_alpha_BB.1 ∧ h.get_alpha_BB.1 ≤ h.alpha_max ∧
      h.get_alpha_BB.2.alpha_ = h.get_alpha_BB.1) ∧
    (h.alpha_min ≤ h.get_alpha_tr.1 ∧ h.get_alpha_tr.1 ≤ h.alpha_max ∧
      h.get_alpha_tr.2.alpha_ = h.get_alpha_tr.1) ∧
    ∀ (it : Nat) (inps : List (IterInput K nc)) (v : DriverVars K nc),
      ∀ s ∈ model_run sqrt it inps h v, ∀ i : Fin nc,
        h.alpha_min ≤ s.vars.hess_appx i ∧ s.vars.hess_appx i ≤ h.alpha_max := by
  refine ⟨⟨(clamp_mem _ _ _ hle).1, (clamp_mem _ _ _ hle).2, rfl⟩,
    ⟨(clamp_mem _ _ _ hle).1, (clamp_mem _ _ _ hle).2, rfl⟩,
    ⟨(clamp_mem _ _ _ hle).1, (clamp_mem _ _ _ hle).2, rfl⟩, ?_⟩
  intro it inps v s hs i
  have := model_run_hess_appx_mem sqrt inps it h v hle s hs i
  exact ⟨this.1, this.2.1⟩

end hess

section hess_claims

variable {K : Type} [LinearOrderedField K] {nc : Nat}

/-- Instance of `alpha_within_bounds` at `alpha_min = 1e-5`, `alpha_max = 1e10`
and the gradient `-3`. -/
theorem alpha_within_bounds_witness :
    ex_decl.alpha_min ≤ ex_decl.alpha_max ∧
    (ex_decl.alpha_min ≤ (ex_decl.get_alpha_f ex_sqrt (fun _ => -3)).1 ∧
      (ex_decl.get_alpha_f ex_sqrt (fun _ => -3)).1 ≤ ex_decl.alpha_max) ∧
    ∀ s ∈ model_run ex_sqrt 0 [ex_inp, ex_inp] ex_decl ex_vars, ∀ i : Fin 1,
      ex_decl.alpha_min ≤ s.vars.hess_appx i ∧ s.vars.hess_appx i ≤ ex_decl.alpha_max :=
  have hle : ex_decl.alpha_min ≤ ex_decl.alpha_max := by norm_num [ex_decl]
  have h := alpha_within_bounds ex_sqrt ex_decl (fun _ => -3) hle
  ⟨hle, ⟨h.1.1, h.1.2.1⟩, h.2.2.2 0 [ex_inp, ex_inp] ex_vars⟩

theorem get_alpha_f_eq (sqrt : K → K) (h : HessianApprox K nc) (gk : Vec K nc)
    (hs : sqrt (dotProductWith gk gk) * sqrt (dotProductWith gk gk) = dotProductWith gk gk) :
    (h.get_alpha_f sqrt gk).1 =
      min h.alpha_max (max h.alpha_min (h.ratio_ * dotProductWith gk gk / (2 * h.fk))) := by
  simp only [HessianApprox.get_alpha_f, twonorm, std_min_eq_min, std_max_eq_max, hs]
  congr 2
  rw [div_div, mul_comm, mul_div_assoc]

/-- C10. Gradient-norm curvature: when the stored function value `f` is not
zero (and the square root is exact at `||gk||^2`), `get_alpha_f(gk)` returns
`min(alpha_max, max(alpha_min, ratio * ||gk||^2 / (2 f)))`, where `f` is the
value last passed to `initialize` or to `update_hess_coeff` (also with the
`update_ratio` call the driver makes in between, which changes the ratio
only). -/
theorem get_alpha_f_value (sqrt : K → K) (h : HessianApprox K nc) (f : K) (x g gk : Vec K nc)
    (b b1 : K)
    (hs : sqrt (dotProductWith gk gk) * sqrt (dotProductWith gk gk) = dotProductWith gk gk)
    (hf : f ≠ 0) :
    (h.fk = f → (h.get_alpha_f sqrt gk).1 =
      min h.alpha_max (max h.alpha_min (h.ratio_ * dotProductWith gk gk / (2 * f)))) ∧
    ((h.initialise f x g).get_alpha_f sqrt gk).1 =
      min h.alpha_max (max h.alpha_min (h.ratio_ * dotProductWith gk gk / (2 * f))) ∧
    ((h.update_hess_coeff x g f).get_alpha_f sqrt gk).1 =
      min h.alpha_max (max h.alpha_min (h.ratio_ * dotProductWith gk gk / (2 * f))) ∧
    (((h.update_hess_coeff x g f).update_ratio sqrt b b1).get_alpha_f sqrt gk).1 =
      min h.alpha_max (max h.alpha_min
        (((h.update_hess_coeff x g f).update_ratio sqrt b b1).ratio_ *
          dotProductWith gk gk / (2 * f))) := by
  refine ⟨?_, ?_, ?_, ?_⟩
  · intro hfk
    rw [get_alpha_f_eq sqrt h gk hs, hfk]
  · rw [get_alpha_f_eq sqrt _ gk hs]; rfl
  · rw [get_alpha_f_eq sqrt _ gk hs]; rfl
  · rw [get_alpha_f_eq sqrt _ gk hs]; rfl

/-- The scenario `S = 4`, `f_i(x) = (x - i)^2`, `x0 = 0`: after
`initialize(7/2, 0, -3)` the unclamped value is `ratio * 9 / 7`, here `9/7`. -/
theorem get_alpha_f_value_witness :
    ex_sqrt (dotProductWith (fun _ : Fin 1 => (-3 : ℚ)) (fun _ => -3)) *
        ex_sqrt (dotProductWith (fun _ : Fin 1 => (-3 : ℚ)) (fun _ => -3)) =
      dotProductWith (fun _ : Fin 1 => (-3 : ℚ)) (fun _ => -3) ∧
    (7 / 2 : ℚ) ≠ 0 ∧
    ((ex_decl.initialise (7 / 2) (fun _ => 0) (fun _ => -3)).get_alpha_f ex_sqrt
      (fun _ => -3)).1 = ex_decl.ratio_ * 9 / 7 ∧
    ex_decl.ratio_ * 9 / 7 = 9 / 7 := by
  have hs : ex_sqrt (dotProductWith (fun _ : Fin 1 => (-3 : ℚ)) (fun _ => -3)) *
        ex_sqrt (dotProductWith (fun _ : Fin 1 => (-3 : ℚ)) (fun _ => -3)) =
      dotProductWith (fun _ : Fin 1 => (-3 : ℚ)) (fun _ => -3) := by
    norm_num [ex_sqrt, dotProductWith]
  have hf : (7 / 2 : ℚ) ≠ 0 := by norm_num
  refine ⟨hs, hf, ?_, by norm_num [ex_decl]⟩
  rw [(get_alpha_f_value ex_sqrt ex_decl (7 / 2) (fun _ => 0) (fun _ => -3) (fun _ => -3) 0 0
    hs hf).2.1]
  norm_num [ex_decl, dotProductWith]

/-- At iteration 0 the ratio `get_alpha_f` uses is the one the state had on
entry; `initialize` does not touch it. -/
theorem model_pre_zero_ratio (sqrt : K → K) (h : HessianApprox K nc) (v : DriverVars K nc)
    (inp : IterInput K nc) : (model_pre sqrt 0 h v inp).1.ratio_ = h.ratio_ := by
  simp [model_pre, HessianApprox.initialise]

/-- From iteration 1 on the ratio `get_alpha_f` uses has just been clamped by
`update_ratio_tr`. -/
theorem model_pre_succ_ratio (sqrt : K → K) (it : Nat) (h : HessianApprox K nc)
    (v : DriverVars K nc) (inp : IterInput K nc) (hle : h.ratio_min ≤ h.ratio_max) :
    h.ratio_min ≤ (model_pre sqrt (it + 1) h v inp).1.ratio_ ∧
    (model_pre sqrt (it + 1) h v inp).1.ratio_ ≤ h.ratio_max := by
  simp only [model_pre, Nat.succ_ne_zero, if_false, HessianApprox.update_ratio,
    HessianApprox.update_ratio_tr, HessianApprox.update_hess_coeff]
  exact clamp_mem _ _ _ hle

theorem model_run_succ_ratio (sqrt : K → K) (inps : List (IterInput K nc)) :
    ∀ (it : Nat) (h : HessianApprox K nc) (v : DriverVars K nc),
      h.ratio_min ≤ h.ratio_max →
      ∀ s ∈ model_run sqrt (it + 1) inps h v,
        h.ratio_min ≤ s.pre.ratio_ ∧ s.pre.ratio_ ≤ h.ratio_max := by
  induction inps with
  | nil => intro it h v _ s hs; simp [model_run] at hs
  | cons inp rest ih =>
    intro it h v hle s hs
    simp only [model_run, List.mem_cons] at hs
    obtain ⟨_, _, u3, u4⟩ := model_update_bounds_fields sqrt (it + 1) h v inp
    rcases hs with rfl | hs
    · exact model_pre_succ_ratio sqrt it h v inp hle
    · have := ih (it + 1) (model_update sqrt (it + 1) h v inp).1
        (model_update sqrt (it + 1) h v inp).2 (by rw [u3, u4]; exact hle) s hs
      rw [u3, u4] at this
      exact this

/-- C9, refuted as stated: the initial ratio `0` passes the assertion of
`set_initial_alpha_ratio`, `ratio_min = 1/2 ≤ ratio_max = 5`, and at outer
iteration 0 `get_alpha_f` is called with `ratio_ = 0`, outside
`[ratio_min, ratio_max]`. -/
theorem alpha_ratio_iteration0_unclamped :
    ex_decl.ratio_min ≤ ex_decl.ratio_max ∧
    (match ex_alg.set_initial_alpha_ratio 0 with
      | some a =>
        ¬ ∀ s ∈ model_run ex_sqrt 0 [ex_inp] (a.new_hess_appx_2 ex_decl (fun _ => 0)) ex_vars,
            ex_decl.ratio_min ≤ s.pre.ratio_ ∧ s.pre.ratio_ ≤ ex_decl.ratio_max
      | none => False) := by
  refine ⟨by norm_num [ex_decl], ?_⟩
  simp [hiopAlgPrimalDecomposition.set_initial_alpha_ratio, model_run, model_pre,
    hiopAlgPrimalDecomposition.new_hess_appx_2, HessianApprox.mk_ratio,
    HessianApprox.set_alpha_min, HessianApprox.set_alpha_max, HessianApprox.initialise, ex_decl]

/-- C9, amended. With `ratio_min ≤ ratio_max`, in a run of the driver whose
`HessianApprox` was created with an initial ratio `r` accepted by
`set_initial_alpha_ratio`: at outer iteration 0 `get_alpha_f` uses `r` itself,
for which only `0 ≤ r < 10` is known, and at every later outer iteration it
uses a ratio in `[ratio_min, ratio_max]`. -/
theorem alpha_ratio_bounds (sqrt : K → K) {n : Nat} (a a1 : hiopAlgPrimalDecomposition K n nc)
    (r : K) (decl : HessianApprox K nc) (fresh : Vec K nc) (v : DriverVars K nc)
    (inps : List (IterInput K nc)) (k : Nat) (s : ModelStep K nc)
    (hle : decl.ratio_min ≤ decl.ratio_max)
    (hset : a.set_initial_alpha_ratio r = some a1)
    (hs : (model_run sqrt 0 inps (a1.new_hess_appx_2 decl fresh) v)[k]? = some s) :
    (k = 0 → s.pre.ratio_ = r ∧ 0 ≤ r ∧ r < 10) ∧
    (1 ≤ k → decl.ratio_min ≤ s.pre.ratio_ ∧ s.pre.ratio_ ≤ decl.ratio_max) := by
  have hr : (0 ≤ r ∧ r < 10) ∧ a1.alpha_ratio_ = r := by
    unfold hiopAlgPrimalDecomposition.set_initial_alpha_ratio at hset
    split_ifs at hset with hc
    · cases hset; exact ⟨hc, rfl⟩
  cases inps with
  | nil => simp [model_run] at hs
  | cons inp rest =>
    cases k with
    | zero =>
      simp only [model_run, List.getElem?_cons_zero, Option.some.injEq] at hs
      subst hs
      refine ⟨fun _ => ⟨?_, hr.1⟩, fun h => absurd h (by decide)⟩
      rw [model_pre_zero_ratio]
      exact hr.2
    | succ k =>
      simp only [model_run, List.getElem?_cons_succ] at hs
      refine ⟨fun h => absurd h (Nat.succ_ne_zero k), fun _ => ?_⟩
      obtain ⟨_, _, u3, u4⟩ := model_update_bounds_fields sqrt 0
        (a1.new_hess_appx_2 decl fresh) v inp
      have hmem := List.getElem?_mem hs
      have := model_run_succ_ratio sqrt rest 0 _ _ (by rw [u3, u4]; exact hle) s hmem
      rw [u3, u4] at this
      exact this

/-- Instance of `alpha_ratio_bounds`: initial ratio `0`, two outer iterations,
looking at the second one. -/
theorem alpha_ratio_bounds_witness :
    ex_decl.ratio_min ≤ ex_decl.ratio_max ∧
    ex_alg.set_initial_alpha_ratio 0 = some { ex_alg with alpha_ratio_ := 0 } ∧
    ∃ s, (model_run ex_sqrt 0 [ex_inp, ex_inp]
        (({ ex_alg with alpha_ratio_ := 0 } : hiopAlgPrimalDecomposition ℚ 1 1).new_hess_appx_2
          ex_decl (fun _ => 0)) ex_vars)[1]? = some s ∧
      ex_decl.ratio_min ≤ s.pre.ratio_ ∧ s.pre.ratio_ ≤ ex_decl.ratio_max := by
  have hle : ex_decl.ratio_min ≤ ex_decl.ratio_max := by norm_num [ex_decl]
  have hset : ex_alg.set_initial_alpha_ratio 0 = some { ex_alg with alpha_ratio_ := 0 } := by
    simp [hiopAlgPrimalDecomposition.set_initial_alpha_ratio]
  refine ⟨hle, hset, _, rfl, ?_⟩
  exact (alpha_ratio_bounds ex_sqrt ex_alg _ 0 ex_decl (fun _ => 0) ex_vars [ex_inp, ex_inp] 1 _
    hle hset rfl).2 (le_refl 1)

end hess_claims

section hess_claims2

variable {K : Type} [LinearOrderedField K] {nc : Nat}

/-- C11. Secant update: `update_hess_coeff(x_k, g_k, f_k)` leaves
`s = x_k - x_prev`, `y = g_k - g_prev`, `linear_term = g_prev . s` with the
previous gradient as it was before the call, `f_prev` the old `f_cur`,
`f_cur = f_k`, `x_prev = x_k` and `g_prev = g_k`; `alpha`, the ratio and the
bounds are left as they were. -/
theorem secant_update (h : HessianApprox K nc) (xk gk : Vec K nc) (f_val : K) :
    (h.update_hess_coeff xk gk f_val).skm1 = xk - h.xkm1 ∧
    (h.update_hess_coeff xk gk f_val).ykm1 = gk - h.gkm1 ∧
    (h.update_hess_coeff xk gk f_val).fkm1_lin = dotProductWith h.gkm1 (xk - h.xkm1) ∧
    (h.update_hess_coeff xk gk f_val).fkm1_lin = ∑ i, h.gkm1 i * (xk i - h.xkm1 i) ∧
    (h.update_hess_coeff xk gk f_val).fkm1 = h.fk ∧
    (h.update_hess_coeff xk gk f_val).fk = f_val ∧
    (h.update_hess_coeff xk gk f_val).xkm1 = xk ∧
    (h.update_hess_coeff xk gk f_val).gkm1 = gk ∧
    (h.update_hess_coeff xk gk f_val).alpha_ = h.alpha_ ∧
    (h.update_hess_coeff xk gk f_val).ratio_ = h.ratio_ ∧
    (h.update_hess_coeff xk gk f_val).tr_ratio_ = h.tr_ratio_ ∧
    (h.update_hess_coeff xk gk f_val).ratio_min = h.ratio_min ∧
    (h.update_hess_coeff xk gk f_val).ratio_max = h.ratio_max ∧
    (h.update_hess_coeff xk gk f_val).alpha_min = h.alpha_min ∧
    (h.update_hess_coeff xk gk f_val).alpha_max = h.alpha_max := by
  have hs : axpy xk (-1) h.xkm1 = xk - h.xkm1 := by
    funext i
    simp [axpy, sub_eq_add_neg]
  have hy : axpy gk (-1) h.gkm1 = gk - h.gkm1 := by
    funext i
    simp [axpy, sub_eq_add_neg]
  refine ⟨hs, hy, ?_, ?_, rfl, rfl, rfl, rfl, rfl, rfl, rfl, rfl, rfl, rfl, rfl⟩
  · show dotProductWith h.gkm1 (axpy xk (-1) h.xkm1) = _
    rw [hs]
  · show dotProductWith h.gkm1 (axpy xk (-1) h.xkm1) = _
    rw [hs]
    rfl

/-- The clamp of `update_ratio_tr` written with `max` outermost. -/
theorem clamp_comm (lo hi a : K) (h : lo ≤ hi) :
    std_min hi (std_max lo a) = max lo (min hi a) := by
  rw [std_min_eq_min, std_max_eq_max]
  rcases le_total a lo with h1 | h1
  · rw [max_eq_left h1, min_eq_right h, min_eq_right (h1.trans h), max_eq_left h1]
  · rw [max_eq_right h1]
    rcases le_total a hi with h2 | h2
    · rw [min_eq_right h2, max_eq_right h1]
    · rw [min_eq_left h2, max_eq_right h]

/-- C12. Ratio-adaptation rule: with `ratio_min ≤ ratio_max`,
`update_ratio_tr(rho, r)` leaves in `r` the clamp to `[ratio_min, ratio_max]`
of `r / 0.75` if `rho < 1/4`, of `0.75 r` if `rho > 3/4`, and of `r` itself if
`1/4 ≤ rho ≤ 3/4`; the clamp of `v` is `min(ratio_max, max(ratio_min, v))`,
which is also `max(ratio_min, min(ratio_max, v))`, and lies in
`[ratio_min, ratio_max]`. -/
theorem ratio_adaptation_rule (h : HessianApprox K nc) (rho r : K)
    (hle : h.ratio_min ≤ h.ratio_max) :
    (rho < 1 / 4 →
      h.update_ratio_tr rho r = min h.ratio_max (max h.ratio_min (r / (3 / 4))) ∧
      h.update_ratio_tr rho r = max h.ratio_min (min h.ratio_max (r / (3 / 4)))) ∧
    (3 / 4 < rho →
      h.update_ratio_tr rho r = min h.ratio_max (max h.ratio_min (3 / 4 * r)) ∧
      h.update_ratio_tr rho r = max h.ratio_min (min h.ratio_max (3 / 4 * r))) ∧
    (1 / 4 ≤ rho → rho ≤ 3 / 4 →
      h.update_ratio_tr rho r = min h.ratio_max (max h.ratio_min r) ∧
      h.update_ratio_tr rho r = max h.ratio_min (min h.ratio_max r)) ∧
    h.ratio_min ≤ h.update_ratio_tr rho r ∧ h.update_ratio_tr rho r ≤ h.ratio_max := by
  refine ⟨?_, ?_, ?_, clamp_mem _ _ _ hle⟩
  · intro h1
    have e : h.update_ratio_tr rho r = std_min h.ratio_max (std_max h.ratio_min (r / (3 / 4))) := by
      simp only [HessianApprox.update_ratio_tr, if_pos h1]
    exact ⟨by rw [e, std_min_eq_min, std_max_eq_max], by rw [e, clamp_comm _ _ _ hle]⟩
  · intro h1
    have h2 : ¬ rho < 1 / 4 := by
      intro h3
      have : (1 / 4 : K) < 3 / 4 := by norm_num
      exact absurd (h1.trans h3) (not_lt.mpr this.le)
    have e : h.update_ratio_tr rho r = std_min h.ratio_max (std_max h.ratio_min (3 / 4 * r)) := by
      simp only [HessianApprox.update_ratio_tr, if_neg h2, gt_iff_lt, if_pos h1, mul_comm r]
    exact ⟨by rw [e, std_min_eq_min, std_max_eq_max], by rw [e, clamp_comm _ _ _ hle]⟩
  · intro h1 h2
    have e : h.update_ratio_tr rho r = std_min h.ratio_max (std_max h.ratio_min r) := by
      simp only [HessianApprox.update_ratio_tr, if_neg (not_lt.mpr h1), gt_iff_lt,
        if_neg (not_lt.mpr h2)]
    exact ⟨by rw [e, std_min_eq_min, std_max_eq_max], by rw [e, clamp_comm _ _ _ hle]⟩

/-- Instances of `ratio_adaptation_rule` with `ratio_min = 1/2`,
`ratio_max = 5`: from `r = 1`, `rho = 0` gives `4/3`, `rho = 1` gives `3/4`,
`rho = 1/2` gives `1`; from `r = 4`, `rho = 0` gives the upper bound `5`. -/
theorem ratio_adaptation_rule_witness :
    ex_decl.ratio_min ≤ ex_decl.ratio_max ∧
    ex_decl.update_ratio_tr 0 1 = 4 / 3 ∧
    ex_decl.update_ratio_tr 1 1 = 3 / 4 ∧
    ex_decl.update_ratio_tr (1 / 2) 1 = 1 ∧
    ex_decl.update_ratio_tr 0 4 = 5 := by
  have hle : ex_decl.ratio_min ≤ ex_decl.ratio_max := by norm_num [ex_decl]
  refine ⟨hle, ?_, ?_, ?_, ?_⟩
  · rw [((ratio_adaptation_rule ex_decl 0 1 hle).1 (by norm_num)).1]
    norm_num [ex_decl]
  · rw [((ratio_adaptation_rule ex_decl 1 1 hle).2.1 (by norm_num)).1]
    norm_num [ex_decl]
  · rw [((ratio_adaptation_rule ex_decl (1 / 2) 1 hle).2.2.1 (by norm_num) (by norm_num)).1]
    norm_num [ex_decl]
  · rw [((ratio_adaptation_rule ex_decl 0 4 hle).1 (by norm_num)).1]
    norm_num [ex_decl]

/-- An exact square root gives `||v||^2 = v . v`. -/
theorem twonorm_sq (sqrt : K → K) (v : Vec K nc)
    (hs : sqrt (dotProductWith v v) * sqrt (dotProductWith v v) = dotProductWith v v) :
    twonorm sqrt v ^ 2 = ∑ i, v i ^ 2 := by
  unfold twonorm
  rw [pow_two, hs]
  unfold dotProductWith
  exact Finset.sum_congr rfl (fun i _ => (pow_two (v i)).symm)

/-- C13. Trust-region ratio: `update_ratio(base_v, base_vm1)` computes
`rk = f_prev + linear_term + 0.5 alpha ||s||^2` with the `alpha` the state holds
on entry, and, the denominator being non-zero, replaces the ratio by the
outcome of the ratio-adaptation rule `update_ratio_tr` at
`rho_k = (base_vm1 + f_prev - f_cur - base_v) / (f_prev + base_vm1 - rk - base_v)`,
which is the decrease of recourse plus basecase value from the previous point
to the current one over the decrease the model predicted; no other member
changes, `alpha` included.  With an exact square root `||s||^2` is the sum of
the squares of the entries of `s`. -/
theorem trust_region_ratio (sqrt : K → K) (h : HessianApprox K nc) (base_v base_vm1 : K)
    (hden : h.fkm1 + base_vm1 - predicted_value sqrt h - base_v ≠ 0) :
    (h.update_ratio sqrt base_v base_vm1).ratio_ =
      h.update_ratio_tr ((base_vm1 + h.fkm1 - h.fk - base_v) /
        (h.fkm1 + base_vm1 - predicted_value sqrt h - base_v)) h.ratio_ ∧
    (base_vm1 + h.fkm1 - h.fk - base_v) / (h.fkm1 + base_vm1 - predicted_value sqrt h - base_v) =
      trust_ratio sqrt h base_v base_vm1 ∧
    predicted_value sqrt h = h.fkm1 + h.fkm1_lin + 1 / 2 * h.alpha_ * twonorm sqrt h.skm1 ^ 2 ∧
    (sqrt (dotProductWith h.skm1 h.skm1) * sqrt (dotProductWith h.skm1 h.skm1) =
        dotProductWith h.skm1 h.skm1 →
      predicted_value sqrt h = h.fkm1 + h.fkm1_lin + 1 / 2 * h.alpha_ * ∑ i, h.skm1 i ^ 2) ∧
    h.update_ratio sqrt base_v base_vm1 =
      { h with ratio_ := h.update_ratio_tr (trust_ratio sqrt h base_v base_vm1) h.ratio_ } := by
  have hrk : h.fkm1 + h.fkm1_lin + 1 / 2 * h.alpha_ * twonorm sqrt h.skm1 * twonorm sqrt h.skm1 =
      predicted_value sqrt h := by
    unfold predicted_value
    ring
  have hrho : (base_vm1 + h.fkm1 - h.fk - base_v) /
      (h.fkm1 + base_vm1 - predicted_value sqrt h - base_v) =
      trust_ratio sqrt h base_v base_vm1 := by
    unfold trust_ratio
    congr 1 <;> ring
  have hupd : h.update_ratio sqrt base_v base_vm1 =
      { h with ratio_ := h.update_ratio_tr ((base_vm1 + h.fkm1 - h.fk - base_v) /
        (h.fkm1 + base_vm1 - predicted_value sqrt h - base_v)) h.ratio_ } := by
    unfold HessianApprox.update_ratio
    simp only [hrk]
  refine ⟨?_, hrho, rfl, ?_, ?_⟩
  · rw [hupd]
  · intro hs
    unfold predicted_value
    rw [twonorm_sq sqrt h.skm1 hs]
  · rw [hupd, hrho]

/-- Instance of `trust_region_ratio` in the scenario `S = 4`,
`f_i(x) = (x - i)^2`, second outer iteration, with `base_v = 0`,
`base_vm1 = 1`: `rk = 2/7`, `rho_k = 14/59 < 1/4`, and the ratio goes from `1`
to `4/3`. -/
theorem trust_region_ratio_witness :
    ex_hess.fkm1 + 1 - predicted_value ex_sqrt2 ex_hess - 0 ≠ 0 ∧
    predicted_value ex_sqrt2 ex_hess = 2 / 7 ∧
    trust_ratio ex_sqrt2 ex_hess 0 1 = 14 / 59 ∧
    ex_hess.ratio_ = 1 ∧
    (ex_hess.update_ratio ex_sqrt2 0 1).ratio_ = 4 / 3 := by
  have hrk : predicted_value ex_sqrt2 ex_hess = 2 / 7 := by
    norm_num [predicted_value, ex_hess, ex_decl, ex_sqrt2, twonorm, dotProductWith,
      HessianApprox.update_hess_coeff, HessianApprox.get_alpha_f, HessianApprox.initialise,
      axpy, std_max, std_min]
  have hf : ex_hess.fkm1 = 7 / 2 ∧ ex_hess.fk = 7 / 2 ∧ ex_hess.ratio_ = 1 := by
    norm_num [ex_hess, ex_decl, HessianApprox.update_hess_coeff, HessianApprox.get_alpha_f,
      HessianApprox.initialise]
  have hden : ex_hess.fkm1 + 1 - predicted_value ex_sqrt2 ex_hess - 0 ≠ 0 := by
    rw [hrk, hf.1]
    norm_num
  have hrho : trust_ratio ex_sqrt2 ex_hess 0 1 = 14 / 59 := by
    unfold trust_ratio
    rw [hrk, hf.1, hf.2.1]
    norm_num
  refine ⟨hden, hrk, hrho, hf.2.2, ?_⟩
  have h := trust_region_ratio ex_sqrt2 ex_hess 0 1 hden
  rw [h.1, h.2.1, hrho, hf.2.2]
  norm_num [HessianApprox.update_ratio_tr, ex_hess, ex_decl, HessianApprox.update_hess_coeff,
    HessianApprox.get_alpha_f, HessianApprox.initialise, std_max, std_min]

/-- C14. Function-based convergence measure:
`check_convergence_fcn(base_v, base_vm1)` returns
`| linear_term + 0.5 alpha ||s||^2 + (base_v - base_vm1) |` with the `alpha` the
state holds (with an exact square root, `||s||^2` is the sum of the squares of
the entries of `s`); the value is non-negative; it is read off `linear_term`,
`alpha` and `s` alone; and the method assigns no member: in the model update
of an outer iteration `it + 1`, the state after the two convergence checks is
the state `get_alpha_f` left, and the stored `convg_f` is the measure taken on
that state. -/
theorem convergence_fcn_value (sqrt : K → K) (h : HessianApprox K nc) (base_v base_vm1 : K)
    (it : Nat) (v : DriverVars K nc) (inp : IterInput K nc) :
    h.check_convergence_fcn sqrt base_v base_vm1 =
      |h.fkm1_lin + 1 / 2 * h.alpha_ * twonorm sqrt h.skm1 ^ 2 + (base_v - base_vm1)| ∧
    0 ≤ h.check_convergence_fcn sqrt base_v base_vm1 ∧
    (sqrt (dotProductWith h.skm1 h.skm1) * sqrt (dotProductWith h.skm1 h.skm1) =
        dotProductWith h.skm1 h.skm1 →
      h.check_convergence_fcn sqrt base_v base_vm1 =
        |h.fkm1_lin + 1 / 2 * h.alpha_ * (∑ i, h.skm1 i ^ 2) + (base_v - base_vm1)|) ∧
    (∀ h1 : HessianApprox K nc, h1.fkm1_lin = h.fkm1_lin → h1.alpha_ = h.alpha_ →
      h1.skm1 = h.skm1 →
      h1.check_convergence_fcn sqrt base_v base_vm1 = h.check_convergence_fcn sqrt base_v base_vm1) ∧
    (model_update sqrt (it + 1) h v inp).1 =
      ((model_pre sqrt (it + 1) h v inp).1.get_alpha_f sqrt inp.grad_r).2 ∧
    (model_update sqrt (it + 1) h v inp).2.convg_f =
      (model_update sqrt (it + 1) h v inp).1.check_convergence_fcn sqrt
        (model_update sqrt (it + 1) h v inp).2.base_val
        (model_update sqrt (it + 1) h v inp).2.base_valm1 := by
  have e : h.check_convergence_fcn sqrt base_v base_vm1 =
      |h.fkm1_lin + 1 / 2 * h.alpha_ * twonorm sqrt h.skm1 ^ 2 + (base_v - base_vm1)| := by
    unfold HessianApprox.check_convergence_fcn
    rw [pow_two, ← mul_assoc]
  refine ⟨e, ?_, ?_, ?_, model_update_state sqrt (it + 1) h v inp, ?_⟩
  · rw [e]
    exact abs_nonneg _
  · intro hs
    rw [e, twonorm_sq sqrt h.skm1 hs]
  · intro h1 e1 e2 e3
    unfold HessianApprox.check_convergence_fcn
    rw [e1, e2, e3]
  · simp only [model_update, Nat.succ_ne_zero, if_false]

/-- Instance of `convergence_fcn_value` in the scenario `S = 4`,
`f_i(x) = (x - i)^2`, second outer iteration, `base_v = 0`, `base_vm1 = 1`:
the measure is `| -9 + 81/14 - 1 | = 59/14`. -/
theorem convergence_fcn_value_witness :
    ex_sqrt2 (dotProductWith ex_hess.skm1 ex_hess.skm1) *
        ex_sqrt2 (dotProductWith ex_hess.skm1 ex_hess.skm1) =
      dotProductWith ex_hess.skm1 ex_hess.skm1 ∧
    ex_hess.check_convergence_fcn ex_sqrt2 0 1 = 59 / 14 := by
  have hs : ex_sqrt2 (dotProductWith ex_hess.skm1 ex_hess.skm1) *
        ex_sqrt2 (dotProductWith ex_hess.skm1 ex_hess.skm1) =
      dotProductWith ex_hess.skm1 ex_hess.skm1 := by
    norm_num [ex_hess, ex_decl, ex_sqrt2, dotProductWith, HessianApprox.update_hess_coeff,
      HessianApprox.get_alpha_f, HessianApprox.initialise, axpy]
  refine ⟨hs, ?_⟩
  rw [(convergence_fcn_value ex_sqrt2 ex_hess 0 1 0 ex_vars ex_inp).2.2.1 hs]
  norm_num [ex_hess, ex_decl, ex_sqrt2, twonorm, dotProductWith,
    HessianApprox.update_hess_coeff, HessianApprox.get_alpha_f, HessianApprox.initialise,
    axpy, std_max, std_min, abs_of_neg]

/-- C15. Gradient-based convergence measure: for a gradient `g` with
`||g|| ≠ 0`, `check_convergence_grad(g)` returns `|| y - alpha s || / || g ||`
with the `alpha`, `s`, `y` the state holds; the scaled vector is a temporary,
whose entries are `-alpha s_i + y_i`; the value is read off `alpha`, `s` and
`y` alone, and the method assigns no member: in the model update of an outer
iteration `it + 1`, the state after the convergence checks is the state
`get_alpha_f` left, and the stored `convg_g` is the measure taken on that state
at `grad_r`. -/
theorem convergence_grad_value (sqrt : K → K) (h : HessianApprox K nc) (g : Vec K nc)
    (it : Nat) (v : DriverVars K nc) (inp : IterInput K nc) (hg : twonorm sqrt g ≠ 0) :
    h.check_convergence_grad sqrt g =
      twonorm sqrt (h.ykm1 - h.alpha_ • h.skm1) / twonorm sqrt g ∧
    h.check_convergence_grad sqrt g =
      sqrt (∑ i, (h.ykm1 i - h.alpha_ * h.skm1 i) * (h.ykm1 i - h.alpha_ * h.skm1 i)) /
        sqrt (∑ i, g i * g i) ∧
    axpy (scale h.skm1 (-h.alpha_)) 1 h.ykm1 = h.ykm1 - h.alpha_ • h.skm1 ∧
    (∀ h1 : HessianApprox K nc, h1.alpha_ = h.alpha_ → h1.skm1 = h.skm1 → h1.ykm1 = h.ykm1 →
      h1.check_convergence_grad sqrt g = h.check_convergence_grad sqrt g) ∧
    (model_update sqrt (it + 1) h v inp).1 =
      ((model_pre sqrt (it + 1) h v inp).1.get_alpha_f sqrt inp.grad_r).2 ∧
    (model_update sqrt (it + 1) h v inp).2.convg_g =
      (model_update sqrt (it + 1) h v inp).1.check_convergence_grad sqrt inp.grad_r := by
  have ht : axpy (scale h.skm1 (-h.alpha_)) 1 h.ykm1 = h.ykm1 - h.alpha_ • h.skm1 := by
    funext i
    simp only [axpy, scale, Pi.sub_apply, Pi.smul_apply, smul_eq_mul]
    ring
  have e : h.check_convergence_grad sqrt g =
      twonorm sqrt (h.ykm1 - h.alpha_ • h.skm1) / twonorm sqrt g := by
    unfold HessianApprox.check_convergence_grad
    simp only [ht]
  refine ⟨e, ?_, ht, ?_, model_update_state sqrt (it + 1) h v inp, ?_⟩
  · rw [e]
    rfl
  · intro h1 e1 e2 e3
    unfold HessianApprox.check_convergence_grad
    rw [e1, e2, e3]
  · simp only [model_update, Nat.succ_ne_zero, if_false]

/-- Instance of `convergence_grad_value` in the scenario `S = 4`,
`f_i(x) = (x - i)^2`, second outer iteration: `y - alpha s = 6 - 27/7 = 15/7`,
`g = 3`, and the measure is `5/7`. -/
theorem convergence_grad_value_witness :
    twonorm ex_sqrt2 (fun _ : Fin 1 => (3 : ℚ)) ≠ 0 ∧
    ex_hess.check_convergence_grad ex_sqrt2 (fun _ => 3) = 5 / 7 := by
  have hg : twonorm ex_sqrt2 (fun _ : Fin 1 => (3 : ℚ)) ≠ 0 := by
    norm_num [twonorm, dotProductWith, ex_sqrt2]
  refine ⟨hg, ?_⟩
  rw [(convergence_grad_value ex_sqrt2 ex_hess (fun _ => 3) 0 ex_vars ex_inp hg).2.1]
  norm_num [ex_hess, ex_decl, ex_sqrt2, twonorm, dotProductWith,
    HessianApprox.update_hess_coeff, HessianApprox.get_alpha_f, HessianApprox.initialise,
    axpy, std_max, std_min]

end hess_claims2

section ratio_claims

variable {K : Type} [LinearOrderedField K] {nc : Nat}

/-- C23. Ratio frame and no rollback.  `update_ratio(base_v, base_vm1)` writes
`ratio_` and nothing else, whatever `rho_k` is (also below `1/8`, where the
step "needs to be rejected"): `xkm1`, `gkm1`, `skm1`, `ykm1`, `fk`, `fkm1`,
`fkm1_lin` and `alpha_` are as before, so after the model update of an outer
iteration `it ≥ 1` the trust-region state holds the new point, gradient and
value.  `initialize`, `update_hess_coeff`, `get_alpha_f`, `get_alpha_BB`
and `get_alpha_tr` leave `ratio_` as it was.  (`check_convergence_grad`,
`check_convergence_fcn` and `compute_base` assign no member at all: they are
functions of the state.) -/
theorem ratio_frame_no_rollback (sqrt : K → K) (h : HessianApprox K nc) (base_v base_vm1 : K)
    (f_val : K) (xk gk : Vec K nc) (it : Nat) (v : DriverVars K nc) (inp : IterInput K nc) :
    h.update_ratio sqrt base_v base_vm1 =
      { h with ratio_ := (h.update_ratio sqrt base_v base_vm1).ratio_ } ∧
    ((h.update_ratio sqrt base_v base_vm1).xkm1 = h.xkm1 ∧
      (h.update_ratio sqrt base_v base_vm1).gkm1 = h.gkm1 ∧
      (h.update_ratio sqrt base_v base_vm1).skm1 = h.skm1 ∧
      (h.update_ratio sqrt base_v base_vm1).ykm1 = h.ykm1 ∧
      (h.update_ratio sqrt base_v base_vm1).fk = h.fk ∧
      (h.update_ratio sqrt base_v base_vm1).fkm1 = h.fkm1 ∧
      (h.update_ratio sqrt base_v base_vm1).fkm1_lin = h.fkm1_lin ∧
      (h.update_ratio sqrt base_v base_vm1).alpha_ = h.alpha_) ∧
    ((model_pre sqrt (it + 1) h v inp).1.xkm1 = inp.x0 ∧
      (model_pre sqrt (it + 1) h v inp).1.gkm1 = inp.grad_r ∧
      (model_pre sqrt (it + 1) h v inp).1.fk = inp.rval ∧
      (model_pre sqrt (it + 1) h v inp).1.fkm1 = h.fk) ∧
    (h.initialise f_val xk gk).ratio_ = h.ratio_ ∧
    (h.update_hess_coeff xk gk f_val).ratio_ = h.ratio_ ∧
    (h.get_alpha_f sqrt gk).2.ratio_ = h.ratio_ ∧
    h.get_alpha_BB.2.ratio_ = h.ratio_ ∧
    h.get_alpha_tr.2.ratio_ = h.ratio_ :=
  ⟨rfl, ⟨rfl, rfl, rfl, rfl, rfl, rfl, rfl, rfl⟩, ⟨rfl, rfl, rfl, rfl⟩, rfl, rfl, rfl, rfl, rfl⟩

/-- The quotient `rho_k` of `update_ratio(b, b)` is the one of
`update_ratio()`. -/
theorem update_ratio_same_base (sqrt : K → K) (h : HessianApprox K nc) (b : K) :
    (h.update_ratio sqrt b b).ratio_ =
      h.update_ratio_tr ((h.fkm1 - h.fk) / (h.fkm1 - predicted_value sqrt h)) h.ratio_ := by
  have e1 : b + h.fkm1 - h.fk - b = h.fkm1 - h.fk := by ring
  have e2 : h.fkm1 + b - (h.fkm1 + h.fkm1_lin +
      1 / 2 * h.alpha_ * twonorm sqrt h.skm1 * twonorm sqrt h.skm1) - b =
      h.fkm1 - predicted_value sqrt h := by
    unfold predicted_value
    ring
  simp only [HessianApprox.update_ratio, e1, e2]

/-- The quotient and the measure `alpha_g_ratio` that `update_ratio()` hands to
the five-argument `update_ratio_tr`. -/
theorem update_ratio0_eq (sqrt : K → K) (h : HessianApprox K nc) :
    (h.update_ratio0 sqrt).ratio_ =
      h.update_ratio_tr5 ((h.fkm1 - h.fk) / (h.fkm1 - predicted_value sqrt h))
        h.fkm1 h.fk (alpha_g_ratio h) h.ratio_ := by
  have e2 : h.fkm1 + h.fkm1_lin +
      1 / 2 * h.alpha_ * twonorm sqrt h.skm1 * twonorm sqrt h.skm1 = predicted_value sqrt h := by
    unfold predicted_value
    ring
  simp only [HessianApprox.update_ratio0, e2, zero_add, alpha_g_ratio]

/-- The two rules agree where the value has decreased and `rho_k` is in
`(0, 3/4]`, or in `(3/4, 1.333)` with `alpha_g_ratio > 0.1`; and where the
value has increased and `rho_k < 0`. -/
theorem update_ratio_tr5_agrees (h : HessianApprox K nc) (rho rkm1 rk agr r : K)
    (hc : (rk < rkm1 ∧ ((0 < rho ∧ rho ≤ 3 / 4) ∨
            (3 / 4 < rho ∧ rho < 1333 / 1000 ∧ 1 / 10 < agr))) ∨
          (rkm1 < rk ∧ rho < 0)) :
    h.update_ratio_tr5 rho rkm1 rk agr r = h.update_ratio_tr rho r := by
  have q1 : (1 / 4 : K) < 3 / 4 := by norm_num
  have q2 : (0 : K) < 1 / 4 := by norm_num
  have q3 : (3 / 4 : K) < 1333 / 1000 := by norm_num
  unfold HessianApprox.update_ratio_tr5 HessianApprox.update_ratio_tr
  rcases hc with ⟨hd, h1 | h1⟩ | ⟨hd, h1⟩
  · have hd1 : rkm1 - rk > 0 := sub_pos.mpr hd
    have hd2 : ¬ rkm1 - rk < 0 := not_lt.mpr hd1.le
    by_cases c : rho < 1 / 4
    · simp only [gt_iff_lt, h1.1, c, hd1, and_self, if_true]
    · have c1 : ¬ rho > 3 / 4 := not_lt.mpr h1.2
      have c2 : ¬ rho < 0 := not_lt.mpr h1.1.le
      simp only [gt_iff_lt] at c1
      simp only [gt_iff_lt, c, c1, c2, hd2, and_false, false_and, if_false]
  · have hd1 : rkm1 - rk > 0 := sub_pos.mpr hd
    have c : ¬ rho < 1 / 4 := not_lt.mpr (q1.trans h1.1).le
    have c2 : ¬ rho < 0 := not_lt.mpr ((q2.trans q1).trans h1.1).le
    simp only [gt_iff_lt] at hd1
    simp only [gt_iff_lt, c, c2, h1.1, h1.2.1, h1.2.2, hd1, and_self, and_false, false_and,
      if_false, if_true]
  · have hd1 : rkm1 - rk < 0 := sub_neg.mpr hd
    have c0 : ¬ (0 : K) < rho := not_lt.mpr h1.le
    have c : rho < 1 / 4 := h1.trans q2
    simp only [gt_iff_lt, c0, false_and, if_false, h1, hd1, and_self, if_true, c]

/-- The five-argument rule in one case distinction. -/
theorem update_ratio_tr5_rule (h : HessianApprox K nc) (rho rkm1 rk agr r : K) :
    h.update_ratio_tr5 rho rkm1 rk agr r = std_min h.ratio_max (std_max h.ratio_min
      (if (0 < rho ∧ rho < 1 / 4 ∧ rk < rkm1) ∨ (rho < 0 ∧ rkm1 < rk) ∨
          (1333 / 1000 < rho ∧ rkm1 < rk) then r / (3 / 4)
       else if 3 / 4 < rho ∧ rho < 1333 / 1000 ∧ rk < rkm1 ∧ 1 / 10 < agr then r * (3 / 4)
       else r)) := by
  have q3 : (3 / 4 : K) < 1333 / 1000 := by norm_num
  unfold HessianApprox.update_ratio_tr5
  simp only [gt_iff_lt, sub_pos, sub_neg]
  congr 2
  by_cases c1 : 0 < rho ∧ rho < 1 / 4 ∧ rk < rkm1
  · rw [if_pos c1, if_pos (Or.inl c1)]
  · by_cases c2 : rho < 0 ∧ rkm1 < rk
    · rw [if_neg c1, if_pos c2, if_pos (Or.inr (Or.inl c2))]
    · by_cases c3 : 3 / 4 < rho ∧ rho < 1333 / 1000 ∧ rk < rkm1 ∧ 1 / 10 < agr
      · have c4 : ¬ (1333 / 1000 < rho ∧ rkm1 < rk) := fun hh => absurd hh.1 (not_lt.mpr c3.2.1.le)
        rw [if_neg c1, if_neg c2, if_pos c3, if_neg (not_or.mpr ⟨c1, not_or.mpr ⟨c2, c4⟩⟩),
          if_pos c3]
      · by_cases c4 : 1333 / 1000 < rho ∧ rkm1 < rk
        · rw [if_neg c1, if_neg c2, if_neg c3, if_pos c4, if_pos (Or.inr (Or.inr c4))]
        · rw [if_neg c1, if_neg c2, if_neg c3, if_neg c4,
            if_neg (not_or.mpr ⟨c1, not_or.mpr ⟨c2, c4⟩⟩), if_neg c3]

end ratio_claims

section ratio_overloads

variable {K : Type} [LinearOrderedField K] {nc : Nat}

/-- The values the examples on the two updates of the ratio start from. -/
theorem ex_hess_fields :
    ex_hess.fkm1 = 7 / 2 ∧ ex_hess.fk = 7 / 2 ∧ ex_hess.ratio_ = 1 ∧ ex_hess.fkm1_lin = -9 ∧
    ex_hess.alpha_ = 9 / 7 ∧ ex_hess.ratio_min = 1 / 2 ∧ ex_hess.ratio_max = 5 ∧
    dotProductWith ex_hess.skm1 ex_hess.skm1 = 9 ∧ predicted_value ex_sqrt2 ex_hess = 2 / 7 := by
  refine ⟨?_, ?_, ?_, ?_, ?_, ?_, ?_, ?_, ?_⟩ <;>
    norm_num [predicted_value, ex_hess, ex_decl, ex_sqrt2, twonorm, dotProductWith,
      HessianApprox.update_hess_coeff, HessianApprox.get_alpha_f, HessianApprox.initialise,
      axpy, std_max, std_min]

/-- C30, as stated, fails.  State: `f_prev = 7/2`, `f_cur = -2`,
`linear_term = -9`, `alpha = 9/7`, `s = 3`, ratio `1` with bounds `1/2` and
`5`; the predicted value is `2/7` and `rho_k = (11/2)/(45/14) = 77/45 > 1.333`.
`update_ratio(0, 0)` multiplies the ratio by `0.75`; `update_ratio()` leaves
it at `1`, the value having decreased. -/
theorem ratio_updates_differ :
    (ex_hess_far.fkm1 - ex_hess_far.fk) / (ex_hess_far.fkm1 - predicted_value ex_sqrt2 ex_hess_far)
      = 77 / 45 ∧
    (ex_hess_far.update_ratio ex_sqrt2 0 0).ratio_ = 3 / 4 ∧
    (ex_hess_far.update_ratio0 ex_sqrt2).ratio_ = 1 ∧
    (ex_hess_far.update_ratio0 ex_sqrt2).ratio_ ≠ (ex_hess_far.update_ratio ex_sqrt2 0 0).ratio_ := by
  obtain ⟨f1, f2, f3, f4, f5, f6, f7, f8, f9⟩ := ex_hess_fields
  have g1 : ex_hess_far.fkm1 = 7 / 2 := f1
  have g2 : ex_hess_far.fk = -2 := rfl
  have g3 : ex_hess_far.ratio_ = 1 := f3
  have g4 : ex_hess_far.fkm1_lin = -9 := f4
  have g5 : ex_hess_far.alpha_ = 9 / 7 := f5
  have g6 : ex_hess_far.ratio_min = 1 / 2 := f6
  have g7 : ex_hess_far.ratio_max = 5 := f7
  have g8 : dotProductWith ex_hess_far.skm1 ex_hess_far.skm1 = 9 := f8
  have g9 : predicted_value ex_sqrt2 ex_hess_far = 2 / 7 := f9
  have e1 : (ex_hess_far.update_ratio ex_sqrt2 0 0).ratio_ = 3 / 4 := by
    rw [update_ratio_same_base, g1, g2, g3, g9]
    norm_num [HessianApprox.update_ratio_tr, g6, g7, std_max, std_min]
  have e2 : (ex_hess_far.update_ratio0 ex_sqrt2).ratio_ = 1 := by
    rw [update_ratio0_eq, update_ratio_tr5_rule, alpha_g_ratio, g1, g2, g3, g4, g5, g6, g7, g8, g9]
    norm_num [std_max, std_min]
  refine ⟨?_, e1, e2, ?_⟩
  · rw [g1, g2, g9]
    norm_num
  · rw [e1, e2]
    norm_num

/-- C30, amended.  `update_ratio()` and `update_ratio(b, b)` use the same
`rho_k = (f_prev - f_cur) / (f_prev - rk)`, write `ratio_` only, and clamp the
result to `[ratio_min, ratio_max]`, but they adapt by different rules.
`update_ratio(b, b)` divides by `0.75` when `rho_k < 1/4` and multiplies by
`0.75` when `rho_k > 3/4`.  `update_ratio()` divides by `0.75` when
`0 < rho_k < 1/4` and the value has decreased, or when the value has increased
and `rho_k < 0` or `rho_k > 1.333`; it multiplies by `0.75` when
`3/4 < rho_k < 1.333`, the value has decreased and
`alpha_g_ratio = alpha (s . s) / |linear_term|` exceeds `0.1`; otherwise it
leaves the ratio.  The two leave the same ratio when the value has decreased
and `0 < rho_k ≤ 3/4`, or `3/4 < rho_k < 1.333` with `alpha_g_ratio > 0.1`, and
when the value has increased and `rho_k < 0`. -/
theorem ratio_updates_compared (sqrt : K → K) (h : HessianApprox K nc) (b : K) :
    (h.update_ratio sqrt b b).ratio_ =
      h.update_ratio_tr ((h.fkm1 - h.fk) / (h.fkm1 - predicted_value sqrt h)) h.ratio_ ∧
    (h.update_ratio0 sqrt).ratio_ =
      h.update_ratio_tr5 ((h.fkm1 - h.fk) / (h.fkm1 - predicted_value sqrt h))
        h.fkm1 h.fk (alpha_g_ratio h) h.ratio_ ∧
    h.update_ratio0 sqrt = { h with ratio_ := (h.update_ratio0 sqrt).ratio_ } ∧
    (∀ rho rkm1 rk agr r : K,
      h.update_ratio_tr5 rho rkm1 rk agr r = std_min h.ratio_max (std_max h.ratio_min
        (if (0 < rho ∧ rho < 1 / 4 ∧ rk < rkm1) ∨ (rho < 0 ∧ rkm1 < rk) ∨
            (1333 / 1000 < rho ∧ rkm1 < rk) then r / (3 / 4)
         else if 3 / 4 < rho ∧ rho < 1333 / 1000 ∧ rk < rkm1 ∧ 1 / 10 < agr then r * (3 / 4)
         else r))) ∧
    (∀ rho r : K,
      h.update_ratio_tr rho r = std_min h.ratio_max (std_max h.ratio_min
        (if rho < 1 / 4 then r / (3 / 4) else if 3 / 4 < rho then r * (3 / 4) else r))) ∧
    ((h.fk < h.fkm1 ∧
        ((0 < (h.fkm1 - h.fk) / (h.fkm1 - predicted_value sqrt h) ∧
          (h.fkm1 - h.fk) / (h.fkm1 - predicted_value sqrt h) ≤ 3 / 4) ∨
         (3 / 4 < (h.fkm1 - h.fk) / (h.fkm1 - predicted_value sqrt h) ∧
          (h.fkm1 - h.fk) / (h.fkm1 - predicted_value sqrt h) < 1333 / 1000 ∧
          1 / 10 < alpha_g_ratio h))) ∨
      (h.fkm1 < h.fk ∧ (h.fkm1 - h.fk) / (h.fkm1 - predicted_value sqrt h) < 0) →
      (h.update_ratio0 sqrt).ratio_ = (h.update_ratio sqrt b b).ratio_) ∧
    (h.ratio_min ≤ h.ratio_max →
      h.ratio_min ≤ (h.update_ratio0 sqrt).ratio_ ∧ (h.update_ratio0 sqrt).ratio_ ≤ h.ratio_max ∧
      h.ratio_min ≤ (h.update_ratio sqrt b b).ratio_ ∧
      (h.update_ratio sqrt b b).ratio_ ≤ h.ratio_max) := by
  refine ⟨update_ratio_same_base sqrt h b, update_ratio0_eq sqrt h, rfl,
    fun rho rkm1 rk agr r => update_ratio_tr5_rule h rho rkm1 rk agr r, ?_, ?_, ?_⟩
  · intro rho r
    rfl
  · intro hc
    rw [update_ratio_same_base, update_ratio0_eq]
    exact update_ratio_tr5_agrees h _ _ _ _ _ hc
  · intro hle
    have h1 := clamp_mem h.ratio_min h.ratio_max
    rw [update_ratio0_eq, update_ratio_tr5_rule]
    exact ⟨(clamp_mem _ _ _ hle).1, (clamp_mem _ _ _ hle).2,
      (clamp_mem _ _ _ hle).1, (clamp_mem _ _ _ hle).2⟩

/-- Instance of `ratio_updates_compared`: `f_prev = 7/2`, `f_cur = 3`,
predicted value `2/7`, so `rho_k = (1/2)/(45/14) = 7/45` lies in `(0, 1/4)`
and the value has decreased: both updates take the ratio from `1` to `4/3`,
inside the bounds `1/2` and `5`. -/
theorem ratio_updates_compared_witness :
    ex_hess_near.fk < ex_hess_near.fkm1 ∧
    (ex_hess_near.fkm1 - ex_hess_near.fk) /
      (ex_hess_near.fkm1 - predicted_value ex_sqrt2 ex_hess_near) = 7 / 45 ∧
    (ex_hess_near.update_ratio0 ex_sqrt2).ratio_ = (ex_hess_near.update_ratio ex_sqrt2 0 0).ratio_ ∧
    (ex_hess_near.update_ratio ex_sqrt2 0 0).ratio_ = 4 / 3 ∧
    ex_hess_near.ratio_min ≤ (ex_hess_near.update_ratio0 ex_sqrt2).ratio_ ∧
    (ex_hess_near.update_ratio0 ex_sqrt2).ratio_ ≤ ex_hess_near.ratio_max := by
  obtain ⟨f1, f2, f3, f4, f5, f6, f7, f8, f9⟩ := ex_hess_fields
  have g1 : ex_hess_near.fkm1 = 7 / 2 := f1
  have g2 : ex_hess_near.fk = 3 := rfl
  have g3 : ex_hess_near.ratio_ = 1 := f3
  have g6 : ex_hess_near.ratio_min = 1 / 2 := f6
  have g7 : ex_hess_near.ratio_max = 5 := f7
  have g9 : predicted_value ex_sqrt2 ex_hess_near = 2 / 7 := f9
  have hrho : (ex_hess_near.fkm1 - ex_hess_near.fk) /
      (ex_hess_near.fkm1 - predicted_value ex_sqrt2 ex_hess_near) = 7 / 45 := by
    rw [g1, g2, g9]
    norm_num
  have hlt : ex_hess_near.fk < ex_hess_near.fkm1 := by
    rw [g1, g2]
    norm_num
  have hle : ex_hess_near.ratio_min ≤ ex_hess_near.ratio_max := by
    rw [g6, g7]
    norm_num
  obtain ⟨c1, _, _, _, _, c6, c7⟩ := ratio_updates_compared ex_sqrt2 ex_hess_near 0
  have hagree := c6 (Or.inl ⟨hlt, Or.inl (by rw [hrho]; norm_num)⟩)
  refine ⟨hlt, hrho, hagree, ?_, (c7 hle).1, (c7 hle).2.1⟩
  rw [c1, hrho, g3]
  norm_num [HessianApprox.update_ratio_tr, g6, g7, std_max, std_min]

end ratio_overloads

section rho_claims

variable {K : Type} [LinearOrderedField K] {nc : Nat}

/-- The overload `update_ratio(base_v, base_vm1)` hands its local `rho_k` and
the member `ratio_` to `update_ratio_tr`. -/
theorem update_ratio_rho (sqrt : K → K) (h : HessianApprox K nc) (base_v base_vm1 : K) :
    h.update_ratio sqrt base_v base_vm1 =
      { h with ratio_ := h.update_ratio_tr (h.rho_k sqrt base_v base_vm1) h.ratio_ } := rfl

/-- The value `compute_base(val)` is `val` minus the `rk` that
`update_ratio` computes on the same state. -/
theorem compute_base_rk (sqrt : K → K) (h : HessianApprox K nc) (val : K) :
    h.compute_base sqrt val = val - h.update_ratio_rk sqrt := rfl

end rho_claims

/-! ## The evaluator ranks -/

section worker_thms

variable {K : Type} [LinearOrderedField K] {n nc : Nat}

theorem axpy_one {m : Nat} (v w : Vec K m) : axpy v 1 w = v + w := by
  funext i; simp [axpy]

theorem setToZero_eq {m : Nat} : (setToZero : Vec K m) = 0 := rfl

/-- What `worker_eval` does when the receive handle is idle, field by field. -/
theorem worker_eval_ok (a : hiopAlgPrimalDecomposition K n nc) (prob : RecourseProblem K nc)
    (x0 : Vec K nc) (w : Worker K nc) (hq : w.req_cont_idx = .MPI_REQUEST_NULL) :
    ∃ w1, worker_eval a prob x0 w = .ok w1 ∧ w1.phase = w.phase ∧ w1.cont_idx0 = w.cont_idx0 ∧
      w1.inbox = w.inbox ∧ w1.outbox = w.outbox ++ [worker_reply a prob x0 w.cont_idx0] ∧
      w1.evaluated = w.evaluated ++ [w.cont_idx0] ∧ w1.rec_prob = .pending ∧
      w1.req_cont_idx = .pending ∧
      w1.rval = (if a.local_accum_ then w.rval + f_rterm prob x0 w.cont_idx0 else w.rval) ∧
      w1.grad_r = (if a.local_accum_ then w.grad_r + grad_rterm prob x0 w.cont_idx0
        else w.grad_r) := by
  cases hl : a.local_accum_ <;>
    simp [worker_eval, hl, hq, MPI_Request.post, MPI_Request.wait, worker_reply, f_rterm,
      grad_rterm, axpy_one, setToZero_eq, bind, Except.bind, pure, Except.pure]

/-- The first step of an evaluator that has been sent an index: it evaluates
it, whatever it is. -/
theorem worker_step_first (a : hiopAlgPrimalDecomposition K n nc) (prob : RecourseProblem K nc)
    (x0 : Vec K nc) (rec_val0 : K) (grad_acc0 : Vec K nc) (rval0 : K) (grad_r0 : Vec K nc)
    (ready : Bool) (i : Int) (rest : List Int) :
    ∃ w1, worker_step a prob x0 ready (worker_init a rec_val0 grad_acc0 rval0 grad_r0 (i :: rest))
        = .ok w1 ∧
      w1.phase = .in_loop ∧ w1.inbox = rest ∧ w1.outbox = [worker_reply a prob x0 i] ∧
      w1.evaluated = [i] ∧ w1.rec_prob = .pending ∧ w1.req_cont_idx = .pending ∧
      w1.cont_idx0 = i ∧
      w1.rval = (if a.local_accum_ then f_rterm prob x0 i else rval0) ∧
      w1.grad_r = (if a.local_accum_ then grad_rterm prob x0 i else grad_r0) := by
  obtain ⟨w1, h1, h2, h3, h4, h5, h6, h7, h8, h9, h10⟩ := worker_eval_ok a prob x0
    { worker_init a rec_val0 grad_acc0 rval0 grad_r0 (i :: rest) with
      cont_idx0 := i, inbox := rest, phase := .in_loop } rfl
  refine ⟨w1, ?_, h2, h4, ?_, ?_, h7, h8, h3, ?_, ?_⟩
  · simpa [worker_step, worker_init] using h1
  · simpa [worker_init] using h5
  · simpa [worker_init] using h6
  · rw [h9]; cases hl : a.local_accum_ <;> simp [worker_init, hl]
  · rw [h10]; cases hl : a.local_accum_ <;> simp [worker_init, setToZero_eq, hl]

theorem worker_step_first_loop (a : hiopAlgPrimalDecomposition K n nc)
    (prob : RecourseProblem K nc) (x0 : Vec K nc) (rec_val0 : K) (grad_acc0 : Vec K nc)
    (rval0 : K) (grad_r0 : Vec K nc) (ready : Bool) (i : Int) (rest : List Int) (hi : i ≠ -1) :
    ∃ w1, worker_step a prob x0 ready (worker_init a rec_val0 grad_acc0 rval0 grad_r0 (i :: rest))
        = .ok w1 ∧ WLoop a prob x0 rval0 grad_r0 [i] rest w1 := by
  obtain ⟨w1, h1, h2, h3, h4, h5, h6, h7, h8, h9, h10⟩ :=
    worker_step_first a prob x0 rec_val0 grad_acc0 rval0 grad_r0 ready i rest
  refine ⟨w1, h1, h2, h3, by simpa using h4, h5, h6, h7, by rw [h8]; exact hi, by simpa using hi,
    ?_, ?_⟩
  · rw [h9]; simp
  · rw [h10]; simp

/-- In the loop, a test that does not complete changes nothing. -/
theorem worker_step_wait (a : hiopAlgPrimalDecomposition K n nc) (prob : RecourseProblem K nc)
    (x0 : Vec K nc) (rval0 : K) (grad_r0 : Vec K nc) (done rest : List Int) (w : Worker K nc)
    (ready : Bool) (hw : WLoop a prob x0 rval0 grad_r0 done rest w)
    (h : ready = false ∨ rest = []) : worker_step a prob x0 ready w = .ok w := by
  obtain ⟨h1, h2, h3, h4, h5, h6, h7, h8, h9, h10⟩ := hw
  unfold worker_step
  rw [h1]
  simp only [h7, ne_eq, not_false_eq_true, if_true, h6, h2]
  rcases h with h | h
  · subst h
    cases rest <;> simp [pure, Except.pure]
  · subst h; rfl

/-- In the loop, a completed test that reads an index other than `-1`: the
index is evaluated and answered, and the next receive is posted. -/
theorem worker_step_index (a : hiopAlgPrimalDecomposition K n nc) (prob : RecourseProblem K nc)
    (x0 : Vec K nc) (rval0 : K) (grad_r0 : Vec K nc) (done rest : List Int) (i : Int)
    (w : Worker K nc) (hw : WLoop a prob x0 rval0 grad_r0 done (i :: rest) w) (hi : i ≠ -1) :
    ∃ w1, worker_step a prob x0 true w = .ok w1 ∧
      WLoop a prob x0 rval0 grad_r0 (done ++ [i]) rest w1 := by
  obtain ⟨h1, h2, h3, h4, h5, h6, h7, h8, h9, h10⟩ := hw
  obtain ⟨w1, e1, e2, e3, e4, e5, e6, e7, e8, e9, e10⟩ := worker_eval_ok a prob x0
    { w with req_cont_idx := .MPI_REQUEST_NULL, req_cont_idx_value := i, inbox := rest,
             cont_idx0 := i } rfl
  refine ⟨w1, ?_, ?_⟩
  · unfold worker_step
    rw [h1]
    simp only [h7, ne_eq, not_false_eq_true, if_true, h6, h2, hi, if_false]
    rw [h1] at e1
    exact e1
  · refine ⟨by rw [e2]; exact h1, e4, ?_, ?_, e7, e8, by rw [e3]; exact hi, ?_, ?_, ?_⟩
    · rw [e5]; simp [h3]
    · rw [e6]; simp [h4]
    · intro j hj
      rcases List.mem_append.mp hj with hj | hj
      · exact h8 j hj
      · rw [List.mem_singleton.mp hj]; exact hi
    · rw [e9]; cases hl : a.local_accum_ <;> simp [h9, hl]
    · rw [e10]; cases hl : a.local_accum_ <;> simp [h10, hl]

/-- In the loop, a completed test that reads `-1`: the rank leaves the loop;
nothing is evaluated, nothing is sent, no receive is posted. -/
theorem worker_step_sentinel (a : hiopAlgPrimalDecomposition K n nc)
    (prob : RecourseProblem K nc) (x0 : Vec K nc) (rval0 : K) (grad_r0 : Vec K nc)
    (done rest : List Int) (w : Worker K nc)
    (hw : WLoop a prob x0 rval0 grad_r0 done (-1 :: rest) w) :
    ∃ w1, worker_step a prob x0 true w = .ok w1 ∧ WExited a prob x0 rval0 grad_r0 done rest w1 ∧
      w1.outbox = w.outbox ∧ w1.evaluated = w.evaluated ∧ w1.rec_prob = w.rec_prob ∧
      w1.rec_val = w.rec_val ∧ w1.grad_acc = w.grad_acc := by
  obtain ⟨h1, h2, h3, h4, h5, h6, h7, h8, h9, h10⟩ := hw
  refine ⟨{ w with req_cont_idx := .MPI_REQUEST_NULL, req_cont_idx_value := -1, inbox := rest,
                   cont_idx0 := -1, phase := .exited }, ?_, ?_, rfl, rfl, rfl, rfl, rfl⟩
  · unfold worker_step
    rw [h1]
    simp only [h7, ne_eq, not_false_eq_true, if_true, h6, h2]
    rfl
  · exact ⟨rfl, rfl, h3, h4, rfl, h9, h10⟩

/-- Past the loop nothing happens any more. -/
theorem worker_step_exited (a : hiopAlgPrimalDecomposition K n nc) (prob : RecourseProblem K nc)
    (x0 : Vec K nc) (ready : Bool) (w : Worker K nc) (hw : w.phase = .exited) :
    worker_step a prob x0 ready w = .ok w := by
  unfold worker_step
  rw [hw]
  rfl

theorem worker_run_succ (a : hiopAlgPrimalDecomposition K n nc) (prob : RecourseProblem K nc)
    (x0 : Vec K nc) (ready : Nat → Bool) (fuel t : Nat) (w : Worker K nc) :
    worker_run a prob x0 ready (fuel + 1) t w =
      (worker_step a prob x0 (ready t) w).bind (worker_run a prob x0 ready fuel (t + 1)) := rfl

theorem worker_run_exited (a : hiopAlgPrimalDecomposition K n nc) (prob : RecourseProblem K nc)
    (x0 : Vec K nc) (ready : Nat → Bool) (fuel : Nat) :
    ∀ (t : Nat) (w : Worker K nc), w.phase = .exited →
      worker_run a prob x0 ready fuel t w = .ok w := by
  induction fuel with
  | zero => intro t w _; rfl
  | succ fuel ih =>
    intro t w hw
    rw [worker_run_succ, worker_step_exited a prob x0 _ w hw]
    exact ih (t + 1) w hw

theorem worker_run_idle (a : hiopAlgPrimalDecomposition K n nc) (prob : RecourseProblem K nc)
    (x0 : Vec K nc) (rval0 : K) (grad_r0 : Vec K nc) (ready : Nat → Bool) (done : List Int)
    (w : Worker K nc) (hw : WLoop a prob x0 rval0 grad_r0 done [] w) (fuel : Nat) :
    ∀ t, worker_run a prob x0 ready fuel t w = .ok w := by
  induction fuel with
  | zero => intro t; rfl
  | succ fuel ih =>
    intro t
    rw [worker_run_succ, worker_step_wait a prob x0 rval0 grad_r0 done [] w _ hw (Or.inr rfl)]
    exact ih (t + 1)

/-- Whatever the schedule and however long the run: an evaluator in its loop
that is sent `is` (free of `-1`), then `-1`, then `rest`, never fails; it is
either still in the loop, having evaluated and answered a prefix of `is`, or
past it, having evaluated and answered exactly `is`. -/
theorem worker_run_safe (a : hiopAlgPrimalDecomposition K n nc) (prob : RecourseProblem K nc)
    (x0 : Vec K nc) (rval0 : K) (grad_r0 : Vec K nc) (ready : Nat → Bool) (rest : List Int)
    (fuel : Nat) :
    ∀ (t : Nat) (done is : List Int) (w : Worker K nc), (∀ i ∈ is, i ≠ -1) →
      WLoop a prob x0 rval0 grad_r0 done (is ++ -1 :: rest) w →
      ∃ w1, worker_run a prob x0 ready fuel t w = .ok w1 ∧
        ((∃ k, k ≤ is.length ∧
            WLoop a prob x0 rval0 grad_r0 (done ++ is.take k) (is.drop k ++ -1 :: rest) w1) ∨
          WExited a prob x0 rval0 grad_r0 (done ++ is) rest w1) := by
  induction fuel with
  | zero =>
    intro t done is w _ hw
    exact ⟨w, rfl, Or.inl ⟨0, Nat.zero_le _, by simpa using hw⟩⟩
  | succ fuel ih =>
    intro t done is w his hw
    rw [worker_run_succ]
    cases hr : ready t with
    | false =>
      rw [worker_step_wait a prob x0 rval0 grad_r0 done _ w false hw (Or.inl rfl)]
      exact ih (t + 1) done is w his hw
    | true =>
      cases is with
      | nil =>
        obtain ⟨w1, e1, e2, _⟩ := worker_step_sentinel a prob x0 rval0 grad_r0 done rest w hw
        rw [e1]
        refine ⟨w1, worker_run_exited a prob x0 ready fuel (t + 1) w1 e2.1, Or.inr ?_⟩
        simpa using e2
      | cons i tl =>
        have hi : i ≠ -1 := his i (List.mem_cons_self _ _)
        obtain ⟨w1, e1, e2⟩ := worker_step_index a prob x0 rval0 grad_r0 done
          (tl ++ -1 :: rest) i w hw hi
        rw [e1]
        obtain ⟨w2, f1, f2⟩ := ih (t + 1) (done ++ [i]) tl w1
          (fun j hj => his j (List.mem_cons_of_mem _ hj)) e2
        refine ⟨w2, f1, ?_⟩
        rcases f2 with ⟨k, hk, hl⟩ | hx
        · exact Or.inl ⟨k + 1, by simpa using hk, by simpa using hl⟩
        · exact Or.inr (by simpa using hx)

theorem worker_run_add (a : hiopAlgPrimalDecomposition K n nc) (prob : RecourseProblem K nc)
    (x0 : Vec K nc) (ready : Nat → Bool) (f1 f2 : Nat) :
    ∀ (t : Nat) (w : Worker K nc),
      worker_run a prob x0 ready (f1 + f2) t w =
        (worker_run a prob x0 ready f1 t w).bind (worker_run a prob x0 ready f2 (t + f1)) := by
  induction f1 with
  | zero => intro t w; simp [worker_run, Except.bind, pure, Except.pure]
  | succ f1 ih =>
    intro t w
    rw [Nat.succ_add, worker_run_succ, worker_run_succ]
    cases h : worker_step a prob x0 (ready t) w with
    | error e => rfl
    | ok w1 =>
      simp only [Except.bind]
      rw [ih (t + 1) w1, Nat.add_assoc, Nat.add_comm 1 f1]
      rfl

/-- Under a fair schedule an evaluator in its loop gets to the test that
completes. -/
theorem worker_run_progress (a : hiopAlgPrimalDecomposition K n nc) (prob : RecourseProblem K nc)
    (x0 : Vec K nc) (rval0 : K) (grad_r0 : Vec K nc) (ready : Nat → Bool) (done rest : List Int)
    (w : Worker K nc) (hw : WLoop a prob x0 rval0 grad_r0 done rest w) (d : Nat) :
    ∀ t, ready (t + d) = true →
      ∃ f, worker_run a prob x0 ready (f + 1) t w = worker_step a prob x0 true w := by
  induction d with
  | zero =>
    intro t ht
    refine ⟨0, ?_⟩
    rw [worker_run_succ]
    simp only [Nat.add_zero] at ht
    rw [ht]
    cases worker_step a prob x0 true w <;> rfl
  | succ d ih =>
    intro t ht
    cases hr : ready t with
    | true =>
      refine ⟨0, ?_⟩
      rw [worker_run_succ, hr]
      cases worker_step a prob x0 true w <;> rfl
    | false =>
      obtain ⟨f, hf⟩ := ih (t + 1) (by rw [Nat.add_assoc, Nat.add_comm 1 d]; exact ht)
      refine ⟨f + 1, ?_⟩
      rw [worker_run_succ, hr,
        worker_step_wait a prob x0 rval0 grad_r0 done rest w false hw (Or.inl rfl)]
      exact hf

/-- Under a fair schedule an evaluator in its loop that is sent `is` (free of
`-1`) and then `-1` leaves the loop, having evaluated and answered `is`. -/
theorem worker_run_fair (a : hiopAlgPrimalDecomposition K n nc) (prob : RecourseProblem K nc)
    (x0 : Vec K nc) (rval0 : K) (grad_r0 : Vec K nc) (ready : Nat → Bool) (hfair : FairPoll ready)
    (rest : List Int) (is : List Int) :
    ∀ (t : Nat) (done : List Int) (w : Worker K nc), (∀ i ∈ is, i ≠ -1) →
      WLoop a prob x0 rval0 grad_r0 done (is ++ -1 :: rest) w →
      ∃ fuel w1, worker_run a prob x0 ready fuel t w = .ok w1 ∧
        WExited a prob x0 rval0 grad_r0 (done ++ is) rest w1 := by
  induction is with
  | nil =>
    intro t done w _ hw
    obtain ⟨t1, ht1, hr⟩ := hfair t
    obtain ⟨d, rfl⟩ := Nat.exists_eq_add_of_le ht1
    obtain ⟨f, hf⟩ := worker_run_progress a prob x0 rval0 grad_r0 ready done _ w hw d t hr
    obtain ⟨w1, e1, e2, _⟩ := worker_step_sentinel a prob x0 rval0 grad_r0 done rest w hw
    exact ⟨f + 1, w1, by rw [hf, e1], by simpa using e2⟩
  | cons i tl ih =>
    intro t done w his hw
    obtain ⟨t1, ht1, hr⟩ := hfair t
    obtain ⟨d, rfl⟩ := Nat.exists_eq_add_of_le ht1
    obtain ⟨f, hf⟩ := worker_run_progress a prob x0 rval0 grad_r0 ready done _ w hw d t hr
    have hi : i ≠ -1 := his i (List.mem_cons_self _ _)
    obtain ⟨w1, e1, e2⟩ := worker_step_index a prob x0 rval0 grad_r0 done
      (tl ++ -1 :: rest) i w hw hi
    obtain ⟨fuel, w2, g1, g2⟩ := ih (t + (f + 1)) (done ++ [i]) w1
      (fun j hj => his j (List.mem_cons_of_mem _ hj)) e2
    refine ⟨f + 1 + fuel, w2, ?_, by simpa using g2⟩
    rw [worker_run_add, hf, e1]
    exact g1

/-- With every test completing at once, an evaluator in its loop has taken
all of `is` (free of `-1`) after `is.length` steps, and stays there. -/
theorem worker_run_eager (a : hiopAlgPrimalDecomposition K n nc) (prob : RecourseProblem K nc)
    (x0 : Vec K nc) (rval0 : K) (grad_r0 : Vec K nc) (is : List Int) :
    ∀ (fuel t : Nat) (done : List Int) (w : Worker K nc), (∀ i ∈ is, i ≠ -1) →
      is.length ≤ fuel → WLoop a prob x0 rval0 grad_r0 done is w →
      ∃ w1, worker_run a prob x0 (fun _ => true) fuel t w = .ok w1 ∧
        WLoop a prob x0 rval0 grad_r0 (done ++ is) [] w1 := by
  induction is with
  | nil =>
    intro fuel t done w _ _ hw
    exact ⟨w, worker_run_idle a prob x0 rval0 grad_r0 _ done w hw fuel t, by simpa using hw⟩
  | cons i tl ih =>
    intro fuel t done w his hf hw
    obtain ⟨fuel, rfl⟩ : ∃ f, fuel = f + 1 := ⟨fuel - 1, by simp at hf; omega⟩
    have hi : i ≠ -1 := his i (List.mem_cons_self _ _)
    obtain ⟨w1, e1, e2⟩ := worker_step_index a prob x0 rval0 grad_r0 done tl i w hw hi
    obtain ⟨w2, g1, g2⟩ := ih fuel (t + 1) (done ++ [i]) w1
      (fun j hj => his j (List.mem_cons_of_mem _ hj)) (by simp at hf; omega) e2
    refine ⟨w2, ?_, by simpa using g2⟩
    rw [worker_run_succ, e1]
    exact g1

/-- With every test completing at once, an evaluator in its loop that is sent
`is` (free of `-1`) and then `-1` is past the loop after `is.length + 1`
steps. -/
theorem worker_run_eager_exit (a : hiopAlgPrimalDecomposition K n nc)
    (prob : RecourseProblem K nc) (x0 : Vec K nc) (rval0 : K) (grad_r0 : Vec K nc)
    (rest : List Int) (is : List Int) :
    ∀ (fuel t : Nat) (done : List Int) (w : Worker K nc), (∀ i ∈ is, i ≠ -1) →
      is.length + 1 ≤ fuel → WLoop a prob x0 rval0 grad_r0 done (is ++ -1 :: rest) w →
      ∃ w1, worker_run a prob x0 (fun _ => true) fuel t w = .ok w1 ∧
        WExited a prob x0 rval0 grad_r0 (done ++ is) rest w1 := by
  induction is with
  | nil =>
    intro fuel t done w _ hf hw
    obtain ⟨fuel, rfl⟩ : ∃ f, fuel = f + 1 := ⟨fuel - 1, by simp at hf; omega⟩
    obtain ⟨w1, e1, e2, _⟩ := worker_step_sentinel a prob x0 rval0 grad_r0 done rest w hw
    refine ⟨w1, ?_, by simpa using e2⟩
    rw [worker_run_succ, e1]
    exact worker_run_exited a prob x0 _ fuel (t + 1) w1 e2.1
  | cons i tl ih =>
    intro fuel t done w his hf hw
    obtain ⟨fuel, rfl⟩ : ∃ f, fuel = f + 1 := ⟨fuel - 1, by simp at hf; omega⟩
    have hi : i ≠ -1 := his i (List.mem_cons_self _ _)
    obtain ⟨w1, e1, e2⟩ := worker_step_index a prob x0 rval0 grad_r0 done
      (tl ++ -1 :: rest) i w hw hi
    obtain ⟨w2, g1, g2⟩ := ih fuel (t + 1) (done ++ [i]) w1
      (fun j hj => his j (List.mem_cons_of_mem _ hj)) (by simp at hf; omega) e2
    refine ⟨w2, ?_, by simpa using g2⟩
    rw [worker_run_succ, e1]
    exact g1

/-- The messages an evaluator sends in answer to indices other than `-1`: one
per index, in the order of the indices. -/
theorem worker_posts_eq (a : hiopAlgPrimalDecomposition K n nc) (prob : RecourseProblem K nc)
    (x0 : Vec K nc) (is : List Int) (his : ∀ i ∈ is, i ≠ -1) :
    worker_posts a prob x0 is = is.map (worker_reply a prob x0) := by
  unfold worker_posts worker_exec
  cases is with
  | nil => simp [worker_run, worker_step, worker_init, pure, Except.pure, bind, Except.bind]
  | cons i tl =>
    have hi : i ≠ -1 := his i (List.mem_cons_self _ _)
    obtain ⟨w1, e1, e2⟩ := worker_step_first_loop a prob x0 (0 : K) setToZero 0 setToZero true i tl hi
    obtain ⟨w2, g1, g2⟩ := worker_run_eager a prob x0 0 setToZero tl (tl.length + 1) 1 [i] w1
      (fun j hj => his j (List.mem_cons_of_mem _ hj)) (Nat.le_succ _) e2
    rw [List.length_cons, worker_run_succ, e1]
    simp only [Except.bind]
    rw [g1]
    exact g2.2.2.1

/-- The evaluator that has been sent `is` (at least one index, none `-1`) and
then `-1` is past its loop and has evaluated exactly `is`. -/
theorem worker_exec_exit (a : hiopAlgPrimalDecomposition K n nc) (prob : RecourseProblem K nc)
    (x0 : Vec K nc) (rec_val0 : K) (grad_acc0 : Vec K nc) (rval0 : K) (grad_r0 : Vec K nc)
    (i : Int) (tl : List Int) (his : ∀ j ∈ i :: tl, j ≠ -1) :
    ∃ w, worker_exec a prob x0 rec_val0 grad_acc0 rval0 grad_r0 ((i :: tl) ++ [-1]) = .ok w ∧
      WExited a prob x0 rval0 grad_r0 (i :: tl) [] w := by
  unfold worker_exec
  have hi : i ≠ -1 := his i (List.mem_cons_self _ _)
  obtain ⟨w1, e1, e2⟩ := worker_step_first_loop a prob x0 rec_val0 grad_acc0 rval0 grad_r0 true i
    (tl ++ [-1]) hi
  obtain ⟨w2, g1, g2⟩ := worker_run_eager_exit a prob x0 rval0 grad_r0 [] tl
    (tl.length + 1 + 1) 1 [i] w1 (fun j hj => his j (List.mem_cons_of_mem _ hj)) (Nat.le_succ _) e2
  refine ⟨w2, ?_, by simpa using g2⟩
  have hlen : ((i :: tl) ++ [-1]).length + 1 = (tl.length + 1 + 1) + 1 := by simp
  rw [hlen, worker_run_succ]
  simp only [List.cons_append]
  rw [e1]
  exact g1

end worker_thms

section worker_claims

variable {K : Type} [LinearOrderedField K] {n nc : Nat}

/-- Reading `-1` from the receive handle, stated on the fields: the rank
leaves the loop, and everything but the handle, the index read and the phase
stays as it was. -/
theorem worker_step_reads_sentinel (a : hiopAlgPrimalDecomposition K n nc)
    (prob : RecourseProblem K nc) (x0 : Vec K nc) (w : Worker K nc) (rest : List Int)
    (h1 : w.phase = .in_loop) (h2 : w.cont_idx0 ≠ -1) (h3 : w.req_cont_idx = .pending)
    (h4 : w.inbox = -1 :: rest) :
    ∃ w1, worker_step a prob x0 true w = .ok w1 ∧ w1.phase = .exited ∧
      w1.evaluated = w.evaluated ∧ w1.outbox = w.outbox ∧ w1.rec_prob = w.rec_prob ∧
      w1.req_cont_idx = .MPI_REQUEST_NULL ∧ w1.inbox = rest ∧
      w1.rval = w.rval ∧ w1.grad_r = w.grad_r ∧
      ∀ b, worker_step a prob x0 b w1 = .ok w1 := by
  refine ⟨{ w with req_cont_idx := .MPI_REQUEST_NULL, req_cont_idx_value := -1, inbox := rest,
                   cont_idx0 := -1, phase := .exited }, ?_, rfl, rfl, rfl, rfl, rfl, rfl, rfl, rfl,
    fun b => worker_step_exited a prob x0 b _ rfl⟩
  unfold worker_step
  rw [h1]
  simp only [h2, ne_eq, not_false_eq_true, if_true, h3, h4]
  rfl

/-- The first value an evaluator receives is taken by the blocking `MPI_Recv`
and evaluated before the loop condition is looked at: were it `-1`, the rank
would evaluate sub-problem `-1`, send the result and only then leave. -/
theorem worker_first_index_unchecked (a : hiopAlgPrimalDecomposition K n nc)
    (prob : RecourseProblem K nc) (x0 : Vec K nc) (rec_val0 : K) (grad_acc0 : Vec K nc)
    (rval0 : K) (grad_r0 : Vec K nc) :
    ∃ w, worker_exec a prob x0 rec_val0 grad_acc0 rval0 grad_r0 [-1] = .ok w ∧
      w.phase = .exited ∧ w.evaluated = [-1] ∧ w.outbox = [worker_reply a prob x0 (-1)] := by
  obtain ⟨w1, h1, h2, h3, h4, h5, h6, h7, h8, _⟩ :=
    worker_step_first a prob x0 rec_val0 grad_acc0 rval0 grad_r0 true (-1) []
  refine ⟨{ w1 with phase := .exited }, ?_, rfl, h5, h4⟩
  unfold worker_exec
  rw [show ([-1] : List Int).length + 1 = 1 + 1 from rfl, worker_run_succ, h1]
  simp only [Except.bind]
  rw [worker_run_succ]
  have : worker_step a prob x0 true w1 = .ok { w1 with phase := .exited } := by
    unfold worker_step
    rw [h2]
    simp [h8, pure, Except.pure]
  rw [this]
  rfl

/-- C5, as stated, fails.  (1) In `run_local()` the evaluator that is sent the
indices `0, 3`, then `-1`, posts two sends, and each is the end signal of
`post_send_end_signal`, which carries neither value nor gradient; the values
`f_0(0) = 0` and `f_3(0) = 9` of `f_i(x) = (x - i)^2` have been added to
`rval`.  (2) In `run()` the evaluator that is sent no index before `-1` takes
`-1` by its blocking `MPI_Recv`, evaluates sub-problem `-1` and posts one
send, not none. -/
theorem worker_reply_without_value :
    (∃ w, worker_exec ex_alg_local ex_prob (fun _ => 0) 0 (fun _ => 0) 0 (fun _ => 0) [0, 3, -1] =
        .ok w ∧
      w.phase = .exited ∧ w.evaluated = [0, 3] ∧ w.outbox = [.end_signal, .end_signal] ∧
      (Msg.end_signal : Msg ℚ 1) ≠
        .result (f_rterm ex_prob (fun _ => 0) 0) (grad_rterm ex_prob (fun _ => 0) 0) ∧
      w.rval = 9) ∧
    (∃ w, worker_exec ex_alg ex_prob (fun _ => 0) 0 (fun _ => 0) 0 (fun _ => 0) [-1] = .ok w ∧
      w.phase = .exited ∧ w.evaluated = [-1] ∧ w.outbox.length = 1) := by
  constructor
  · obtain ⟨w, h, h1, _, h3, h4, _, h6, _⟩ := worker_exec_exit ex_alg_local ex_prob (fun _ => 0)
      0 (fun _ => 0) 0 (fun _ => 0) 0 [3] (by decide)
    refine ⟨w, h, h1, h4, ?_, (fun e => by cases e), ?_⟩
    · rw [h3]
      rfl
    · rw [h6]
      simp [ex_alg_local, f_rterm, ex_prob]
      norm_num
  · obtain ⟨w, h1, h2, h3, h4⟩ := worker_first_index_unchecked ex_alg ex_prob (fun _ => 0) 0
      (fun _ => 0) 0 (fun _ => 0)
    exact ⟨w, h1, h2, h3, by rw [h4]; rfl⟩

/-- C5, amended.  Worker sentinel termination.  (1) An evaluator in its loop
whose test reads `-1` from the receive handle leaves the loop: it evaluates
nothing, sends nothing, posts no receive, and no later step changes it.
(2) An evaluator that is sent the indices `i :: tl` (at least one, none of
them `-1`), then `-1` (then anything), under any schedule of its tests and for
any length of the run, never fails an assertion and has at any time sent a
prefix of the answers to `i :: tl`; once past the loop it has evaluated
exactly these indices and has posted exactly one send per index: in `run()`
the `j`-th carries value and gradient of the `j`-th index; in `run_local()`
every one is the end signal, and the values and gradients of the indices have
been summed in `rval`, `grad_r`.  (3) Under a fair schedule it does get past
the loop. -/
theorem worker_sentinel_termination (a : hiopAlgPrimalDecomposition K n nc)
    (prob : RecourseProblem K nc) (x0 : Vec K nc) (rec_val0 : K) (grad_acc0 : Vec K nc)
    (rval0 : K) (grad_r0 : Vec K nc) (i : Int) (tl rest : List Int) (ready : Nat → Bool)
    (his : ∀ j ∈ i :: tl, j ≠ -1) :
    (∀ (w : Worker K nc) (rest1 : List Int), w.phase = .in_loop → w.cont_idx0 ≠ -1 →
      w.req_cont_idx = .pending → w.inbox = -1 :: rest1 →
      ∃ w1, worker_step a prob x0 true w = .ok w1 ∧ w1.phase = .exited ∧
        w1.evaluated = w.evaluated ∧ w1.outbox = w.outbox ∧ w1.rec_prob = w.rec_prob ∧
        w1.req_cont_idx = .MPI_REQUEST_NULL ∧ ∀ b, worker_step a prob x0 b w1 = .ok w1) ∧
    (∀ fuel, ∃ w,
      worker_run a prob x0 ready fuel 0
        (worker_init a rec_val0 grad_acc0 rval0 grad_r0 ((i :: tl) ++ -1 :: rest)) = .ok w ∧
      w.outbox <+: (i :: tl).map (worker_reply a prob x0) ∧
      (w.phase = .exited →
        w.outbox = (i :: tl).map (worker_reply a prob x0) ∧ w.evaluated = i :: tl ∧
        w.inbox = rest ∧ w.req_cont_idx = .MPI_REQUEST_NULL ∧
        (a.local_accum_ = false →
          w.outbox =
            (i :: tl).map (fun j => Msg.result (f_rterm prob x0 j) (grad_rterm prob x0 j))) ∧
        (a.local_accum_ = true →
          w.outbox = (i :: tl).map (fun _ => Msg.end_signal) ∧
          w.rval = ((i :: tl).map (f_rterm prob x0)).sum ∧
          w.grad_r = ((i :: tl).map (grad_rterm prob x0)).sum))) ∧
    (FairPoll ready → ∃ fuel w,
      worker_run a prob x0 ready fuel 0
        (worker_init a rec_val0 grad_acc0 rval0 grad_r0 ((i :: tl) ++ -1 :: rest)) = .ok w ∧
      w.phase = .exited ∧ w.outbox = (i :: tl).map (worker_reply a prob x0) ∧
      w.evaluated = i :: tl) := by
  have hi : i ≠ -1 := his i (List.mem_cons_self _ _)
  have htl : ∀ j ∈ tl, j ≠ -1 := fun j hj => his j (List.mem_cons_of_mem _ hj)
  refine ⟨?_, ?_, ?_⟩
  · intro w rest1 h1 h2 h3 h4
    obtain ⟨w1, e1, e2, e3, e4, e5, e6, _, _, _, e7⟩ :=
      worker_step_reads_sentinel a prob x0 w rest1 h1 h2 h3 h4
    exact ⟨w1, e1, e2, e3, e4, e5, e6, e7⟩
  · intro fuel
    cases fuel with
    | zero =>
      refine ⟨_, rfl, ?_, ?_⟩
      · simp [worker_init]
      · intro h; simp [worker_init] at h
    | succ fuel =>
      obtain ⟨w1, e1, e2⟩ := worker_step_first_loop a prob x0 rec_val0 grad_acc0 rval0 grad_r0
        (ready 0) i (tl ++ -1 :: rest) hi
      obtain ⟨w2, g1, g2⟩ := worker_run_safe a prob x0 rval0 grad_r0 ready rest fuel 1 [i] tl w1
        htl e2
      refine ⟨w2, ?_, ?_, ?_⟩
      · rw [worker_run_succ]
        simp only [List.cons_append]
        rw [e1]
        exact g1
      · rcases g2 with ⟨k, _, hl⟩ | hx
        · rw [hl.2.2.1]
          exact List.IsPrefix.map _ (by simpa using List.take_prefix k tl)
        · rw [hx.2.2.1]; simp
      · intro hph
        rcases g2 with ⟨k, _, hl⟩ | hx
        · rw [hl.1] at hph; cases hph
        · have hout : w2.outbox = (i :: tl).map (worker_reply a prob x0) := by
            simpa using hx.2.2.1
          refine ⟨hout, by simpa using hx.2.2.2.1, hx.2.1, hx.2.2.2.2.1, ?_, ?_⟩
          · intro hloc
            rw [hout]
            apply List.map_congr_left
            intro j _
            unfold worker_reply
            rw [hloc]
            rfl
          · intro hloc
            have h6 := hx.2.2.2.2.2.1
            have h7 := hx.2.2.2.2.2.2
            rw [hloc] at h6 h7
            refine ⟨?_, by simpa using h6, by simpa using h7⟩
            rw [hout]
            apply List.map_congr_left
            intro j _
            unfold worker_reply
            rw [hloc]
            rfl
  · intro hfair
    obtain ⟨w1, e1, e2⟩ := worker_step_first_loop a prob x0 rec_val0 grad_acc0 rval0 grad_r0
      (ready 0) i (tl ++ -1 :: rest) hi
    obtain ⟨fuel, w2, g1, g2⟩ := worker_run_fair a prob x0 rval0 grad_r0 ready hfair rest tl 1 [i]
      w1 htl e2
    refine ⟨fuel + 1, w2, ?_, g2.1, by simpa using g2.2.2.1, by simpa using g2.2.2.2.1⟩
    rw [worker_run_succ]
    simp only [List.cons_append]
    rw [e1]
    exact g1

/-- Instance of `worker_sentinel_termination`: the indices `0, 3`, then `-1`,
tests that succeed every other time, six steps. -/
theorem worker_sentinel_termination_witness :
    (∀ j ∈ [(0 : Int), 3], j ≠ -1) ∧
    ∃ w, worker_run ex_alg ex_prob (fun _ => 0) (fun t => t % 2 = 0) 6 0
        (worker_init ex_alg 0 (fun _ => 0) 0 (fun _ => 0) ([0, 3] ++ -1 :: [])) = .ok w ∧
      w.outbox <+: [(0 : Int), 3].map (worker_reply ex_alg ex_prob (fun _ => 0)) ∧
      (w.phase = .exited →
        w.outbox = [(0 : Int), 3].map (worker_reply ex_alg ex_prob (fun _ => 0)) ∧
        w.evaluated = [0, 3] ∧ w.inbox = [] ∧ w.req_cont_idx = .MPI_REQUEST_NULL ∧
        (ex_alg.local_accum_ = false →
          w.outbox = [(0 : Int), 3].map (fun j =>
            Msg.result (f_rterm ex_prob (fun _ => 0) j) (grad_rterm ex_prob (fun _ => 0) j))) ∧
        (ex_alg.local_accum_ = true →
          w.outbox = [(0 : Int), 3].map (fun _ => Msg.end_signal) ∧
          w.rval = ([(0 : Int), 3].map (f_rterm ex_prob (fun _ => 0))).sum ∧
          w.grad_r = ([(0 : Int), 3].map (grad_rterm ex_prob (fun _ => 0))).sum)) :=
  have his : ∀ j ∈ [(0 : Int), 3], j ≠ -1 := by decide
  ⟨his, (worker_sentinel_termination ex_alg ex_prob (fun _ => 0) 0 (fun _ => 0) 0 (fun _ => 0)
    0 [3] [] (fun t => t % 2 = 0) his).2.1 6⟩

end worker_claims

/-! ## The master rank -/

section master_thms

variable {K : Type} [LinearOrderedField K] {n nc : Nat}

theorem mem_ranks (a : hiopAlgPrimalDecomposition K n nc) (r : Nat) :
    r ∈ ranks a ↔ 1 ≤ r ∧ r < a.comm_size_ := by
  unfold ranks
  rw [List.mem_range'_1]
  omega

theorem ranks_nodup (a : hiopAlgPrimalDecomposition K n nc) : (ranks a).Nodup :=
  List.nodup_range' _ _

theorem cont_idx_lt (a : hiopAlgPrimalDecomposition K n nc) (i : Nat) (h : i < a.S_) :
    (cont_idx a)[i]? = some (Int.ofNat i) := by
  simp [cont_idx, List.getElem?_range h]

/-- Changing one summand of a sum over a list without repetition. -/
theorem sum_map_change {M : Type} [AddCommMonoid M] (l : List Nat) (hnd : l.Nodup) (r : Nat)
    (hr : r ∈ l) (g g1 : Nat → M) (h : ∀ r1 ∈ l, r1 ≠ r → g1 r1 = g r1) :
    (l.map g1).sum + g r = (l.map g).sum + g1 r := by
  induction l with
  | nil => cases hr
  | cons x xs ih =>
    rw [List.nodup_cons] at hnd
    simp only [List.map_cons, List.sum_cons]
    by_cases hx : x = r
    · subst hx
      have : xs.map g1 = xs.map g :=
        List.map_congr_left (fun r1 h1 => h r1 (List.mem_cons_of_mem _ h1)
          (fun e => hnd.1 (e ▸ h1)))
      rw [this]
      abel
    · have hr1 : r ∈ xs := by
        rcases List.mem_cons.mp hr with e | e
        · exact absurd e.symm hx
        · exact e
      have := ih hnd.2 hr1 (fun r1 h1 => h r1 (List.mem_cons_of_mem _ h1))
      rw [h x (List.mem_cons_self _ _) hx, add_assoc, this, add_assoc]

theorem mainLog_append (rs : List Nat) : ∀ (j r : Nat),
    mainLog j (rs ++ [r]) =
      mainLog j rs ++ [Event.consume r (j + rs.length), Event.send r (Int.ofNat (j + rs.length))] := by
  induction rs with
  | nil => intro j r; simp [mainLog]
  | cons x xs ih =>
    intro j r
    show Event.consume x j :: Event.send x (Int.ofNat j) :: mainLog (j + 1) (xs ++ [r]) = _
    rw [ih (j + 1) r, show j + 1 + xs.length = j + (xs.length + 1) by omega]
    rfl

theorem drainLog_append (ds : List Nat) : ∀ (j r : Nat),
    drainLog j (ds ++ [r]) = drainLog j ds ++ [Event.consume r (j + ds.length)] := by
  induction ds with
  | nil => intro j r; simp [drainLog]
  | cons x xs ih =>
    intro j r
    show Event.consume x j :: drainLog (j + 1) (xs ++ [r]) = _
    rw [ih (j + 1) r, show j + 1 + xs.length = j + (xs.length + 1) by omega]
    rfl

/-- A visit of a rank that is finished, or whose answer has not arrived,
changes nothing. -/
theorem master_visit_skip (a : hiopAlgPrimalDecomposition K n nc) (prob : RecourseProblem K nc)
    (x0 : Vec K nc) (ready : Bool) (m : Master K nc) (r : Nat)
    (h : (m.finish_flag r ≠ 0 ∧ m.rec_prob r = .MPI_REQUEST_NULL) ∨
         (m.rec_prob r = .pending ∧ ready = false)) :
    master_visit a prob x0 ready m r = .ok m := by
  unfold master_visit master_test
  rcases h with ⟨h1, h2⟩ | ⟨h1, h2⟩
  · simp [h2, h1, pure, Except.pure]
  · simp only [h1, h2]
    cases (worker_posts a prob x0 (m.inbox r))[m.nrecv r]? <;> simp [pure, Except.pure]

/-- A visit that consumes a result, field by field. -/
theorem master_visit_consume (a : hiopAlgPrimalDecomposition K n nc) (prob : RecourseProblem K nc)
    (x0 : Vec K nc) (m : Master K nc) (r : Nat) (i : Int)
    (hq : m.rec_prob r = .pending)
    (hmsg : (worker_posts a prob x0 (m.inbox r))[m.nrecv r]? = some (worker_reply a prob x0 i))
    (hff : m.finish_flag r = 0) (hll : m.idx < a.S_ → m.last_loop = 0) :
    ∃ m1, master_visit a prob x0 true m r = .ok m1 ∧
      m1.idx = m.idx + 1 ∧
      m1.finish_flag = (if m.idx < a.S_ then m.finish_flag else Function.update m.finish_flag r 1) ∧
      m1.last_loop = (if m.idx < a.S_ then m.last_loop else 1) ∧
      m1.rec_prob = Function.update m.rec_prob r
        (if m.idx < a.S_ then .pending else .MPI_REQUEST_NULL) ∧
      (∀ r1, r1 ≠ r → m1.req_cont_idx r1 = m.req_cont_idx r1) ∧
      m1.inbox = (if m.idx < a.S_ then
        Function.update m.inbox r (m.inbox r ++ [Int.ofNat m.idx]) else m.inbox) ∧
      m1.nrecv = Function.update m.nrecv r (m.nrecv r + 1) ∧
      m1.log = m.log ++ (if m.idx < a.S_ then
        [Event.consume r m.idx, Event.send r (Int.ofNat m.idx)] else [Event.consume r m.idx]) ∧
      (m1.rval, m1.grad_r) = (if a.local_accum_ then (m.rval, m.grad_r)
        else (m.rval, m.grad_r) + rterm prob x0 i) := by
  by_cases hlt : m.idx < a.S_
  · have hl0 := hll hlt
    have hci := cont_idx_lt a m.idx hlt
    cases hl : a.local_accum_ <;>
      simp [master_visit, master_test, hq, hmsg, hff, hl0, hlt, hci, hl, worker_reply, master_post,
        MPI_Request.post, MPI_Request.wait, bind, Except.bind, pure, Except.pure, rterm,
        Prod.ext_iff, funext_iff] <;>
      exact fun r1 hr1 => Function.update_noteq hr1 _ _
  · cases hl : a.local_accum_ <;>
      by_cases hl1 : m.last_loop = 0 <;>
      simp [master_visit, master_test, hq, hmsg, hff, hlt, hl, hl1, worker_reply, master_post,
        MPI_Request.post, MPI_Request.wait, bind, Except.bind, pure, Except.pure, rterm,
        Prod.ext_iff, funext_iff]

theorem rtermSum_append (prob : RecourseProblem K nc) (x0 : Vec K nc) (l : List Int) (i : Int) :
    rtermSum prob x0 (l ++ [i]) = rtermSum prob x0 l + rterm prob x0 i := by
  simp [rtermSum]

theorem rtermSum_take_succ (prob : RecourseProblem K nc) (x0 : Vec K nc) (l : List Int) (k : Nat)
    (i : Int) (h : l[k]? = some i) :
    rtermSum prob x0 (l.take (k + 1)) = rtermSum prob x0 (l.take k) + rterm prob x0 i := by
  rw [List.take_succ, h]
  exact rtermSum_append prob x0 _ i

theorem rtermSum_range_succ (prob : RecourseProblem K nc) (x0 : Vec K nc) (k : Nat) :
    rtermSum prob x0 ((List.range (k + 1)).map Int.ofNat) =
      rtermSum prob x0 ((List.range k).map Int.ofNat) + rterm prob x0 (Int.ofNat k) := by
  rw [List.range_succ, List.map_append]
  exact rtermSum_append prob x0 _ _

/-- Adding `c` to one summand of a sum over a list without repetition. -/
theorem sum_map_add_at {M : Type} [AddCommGroup M] (l : List Nat) (hnd : l.Nodup) (r : Nat)
    (hr : r ∈ l) (g g1 : Nat → M) (c : M) (h : ∀ r1 ∈ l, r1 ≠ r → g1 r1 = g r1)
    (hc : g1 r = g r + c) : (l.map g1).sum = (l.map g).sum + c := by
  have := sum_map_change l hnd r hr g g1 h
  rw [hc] at this
  have h2 : (l.map g1).sum + g r = ((l.map g).sum + c) + g r := by rw [this]; abel
  exact add_right_cancel h2

end master_thms

section visit

variable {K : Type} [LinearOrderedField K] {n nc : Nat}

/-- A visit of an unfinished rank whose answer has arrived: the result is
consumed, `idx` goes up by one, the flags of the other ranks are untouched, and
the invariant still holds. -/
theorem master_visit_ready (a : hiopAlgPrimalDecomposition K n nc) (prob : RecourseProblem K nc)
    (x0 : Vec K nc) (m : Master K nc) (r : Nat) (hr : r ∈ ranks a) (hinv : PInv a prob x0 m)
    (hff : m.finish_flag r = 0) :
    ∃ m1, master_visit a prob x0 true m r = .ok m1 ∧ PInv a prob x0 m1 ∧ m1.idx = m.idx + 1 ∧
      ∀ r1, r1 ≠ r → m1.finish_flag r1 = m.finish_flag r1 := by
  obtain ⟨⟨I1, I2, I3, I4, ⟨rs, ds, L1, L2, L3, L4, L5, L6⟩, I6, I7, I8⟩, IL⟩ := hinv
  obtain ⟨hq, hlen⟩ := I1 r hr hff
  have hlt : m.nrecv r < (m.inbox r).length := by omega
  have hget : (m.inbox r)[m.nrecv r]? = some ((m.inbox r)[m.nrecv r]) := List.getElem?_eq_getElem hlt
  have hmsg : (worker_posts a prob x0 (m.inbox r))[m.nrecv r]? =
      some (worker_reply a prob x0 ((m.inbox r)[m.nrecv r])) := by
    rw [worker_posts_eq a prob x0 _ (I3 r hr), List.getElem?_map, hget]
    rfl
  have hll : m.idx < a.S_ → m.last_loop = 0 := by
    intro h
    by_contra hne
    exact absurd (IL.mpr hne) (by omega)
  obtain ⟨m1, e0, eidx, eff, ell, erp, erq, einb, enr, elog, eacc⟩ :=
    master_visit_consume a prob x0 m r _ hq hmsg hff hll
  have hnd := ranks_nodup a
  -- the sum over the answered indices grows by the one consumed
  have hacc : (m1.rval, m1.grad_r) =
      if a.local_accum_ then 0
      else ((ranks a).map (fun r1 => rtermSum prob x0 ((m1.inbox r1).take (m1.nrecv r1)))).sum := by
    rw [eacc]
    cases hl : a.local_accum_
    · simp only [hl, if_false, Bool.false_eq_true] at I7 ⊢
      rw [I7]
      symm
      apply sum_map_add_at (ranks a) hnd r hr
      · intro r1 _ hne
        simp only [enr, einb]
        split_ifs <;> simp [Function.update_noteq hne]
      · simp only [enr, einb]
        have htake : ((if m.idx < a.S_ then
              Function.update m.inbox r (m.inbox r ++ [Int.ofNat m.idx]) else m.inbox) r).take
              (m.nrecv r + 1) = (m.inbox r).take (m.nrecv r + 1) := by
          split_ifs
          · rw [Function.update_same, List.take_append_of_le_length (by omega)]
          · rfl
        rw [Function.update_same, htake]
        exact rtermSum_take_succ prob x0 _ _ _ hget
    · simp only [hl, if_true] at I7 ⊢
      exact I7
  refine ⟨m1, e0, ⟨⟨?_, ?_, ?_, ?_, ?_, ?_, hacc, ?_⟩, ?_⟩, eidx, ?_⟩
  · -- unfinished ranks
    intro r1 hr1 h1
    rw [eff] at h1
    rw [erp, einb, enr]
    by_cases hlt1 : m.idx < a.S_
    · simp only [hlt1, if_true] at h1 ⊢
      by_cases hne : r1 = r
      · subst hne
        simp only [Function.update_same, List.length_append, List.length_singleton]
        exact ⟨trivial, by omega⟩
      · simp only [Function.update_noteq hne]
        exact I1 r1 hr1 h1
    · simp only [hlt1, if_false] at h1 ⊢
      have hne : r1 ≠ r := by
        intro e; subst e; simp at h1
      rw [Function.update_noteq hne] at h1
      simp only [Function.update_noteq hne]
      exact I1 r1 hr1 h1
  · -- finished ranks
    intro r1 hr1 h1
    rw [eff] at h1
    rw [erp, einb, enr]
    by_cases hlt1 : m.idx < a.S_
    · simp only [hlt1, if_true] at h1 ⊢
      have hne : r1 ≠ r := by
        intro e; subst e; exact h1 hff
      simp only [Function.update_noteq hne]
      exact I2 r1 hr1 h1
    · simp only [hlt1, if_false] at h1 ⊢
      by_cases hne : r1 = r
      · subst hne
        simp only [Function.update_same]
        exact ⟨trivial, hlen⟩
      · rw [Function.update_noteq hne] at h1
        simp only [Function.update_noteq hne]
        exact I2 r1 hr1 h1
  · -- no end signal among the indices sent
    intro r1 hr1 j hj
    rw [einb] at hj
    by_cases hlt1 : m.idx < a.S_
    · simp only [hlt1, if_true] at hj
      by_cases hne : r1 = r
      · subst hne
        rw [Function.update_same] at hj
        rcases List.mem_append.mp hj with hj | hj
        · exact I3 r1 hr1 j hj
        · rw [List.mem_singleton.mp hj]
          intro hneg
          have : (0 : Int) ≤ Int.ofNat m.idx := Int.ofNat_nonneg _
          omega
      · rw [Function.update_noteq hne] at hj
        exact I3 r1 hr1 j hj
    · simp only [hlt1, if_false] at hj
      exact I3 r1 hr1 j hj
  · -- handles outside the ranks
    intro r1 hr1
    have hne : r1 ≠ r := fun e => hr1 (e ▸ hr)
    rw [erp, Function.update_noteq hne, erq r1 hne]
    exact I4 r1 hr1
  · -- shape of the log
    by_cases hlt1 : m.idx < a.S_
    · have hds : ds = [] := by
        apply List.eq_nil_of_length_eq_zero
        have : max m.idx a.S_ = a.S_ := max_eq_right (by omega)
        omega
      have hrs : a.comm_size_ - 1 + rs.length = m.idx := by
        have : min m.idx a.S_ = m.idx := min_eq_left (by omega)
        omega
      refine ⟨rs ++ [r], ds, ?_, ?_, ?_, ?_, L5, ?_⟩
      · rw [elog, L1, hds, mainLog_append, hrs]
        simp [hlt1, drainLog]
      · intro r1 h1
        rcases List.mem_append.mp h1 with h1 | h1
        · exact L2 r1 h1
        · rw [List.mem_singleton.mp h1]; exact hr
      · rw [eidx, List.length_append, List.length_singleton,
          min_eq_left (show m.idx + 1 ≤ a.S_ by omega)]
        omega
      · rw [eidx, hds, max_eq_right (show m.idx + 1 ≤ a.S_ by omega)]
        simp
      · intro r1
        rw [eff]
        simp only [hlt1, if_true]
        exact L6 r1
    · have hds : a.S_ + ds.length = m.idx := by
        have : max m.idx a.S_ = m.idx := max_eq_left (by omega)
        omega
      have hrs : rs.length + (a.comm_size_ - 1) = a.S_ := by
        have : min m.idx a.S_ = a.S_ := min_eq_right (by omega)
        omega
      have hnot : r ∉ ds := fun h => ((L6 r).mp h).2 hff
      refine ⟨rs, ds ++ [r], ?_, L2, ?_, ?_, ?_, ?_⟩
      · rw [elog, L1, drainLog_append, hds]
        simp [hlt1]
      · rw [eidx, min_eq_right (show a.S_ ≤ m.idx + 1 by omega)]
        exact hrs
      · rw [eidx, List.length_append, List.length_singleton,
          max_eq_left (show a.S_ ≤ m.idx + 1 by omega)]
        omega
      · exact List.Nodup.append L5 (List.nodup_singleton r)
          (by
            intro x hx hx1
            rw [List.mem_singleton.mp hx1] at hx
            exact hnot hx)
      · intro r1
        rw [eff]
        simp only [hlt1, if_false, List.mem_append, List.mem_singleton]
        by_cases hne : r1 = r
        · subst hne
          simp [hr]
        · rw [Function.update_noteq hne]
          constructor
          · rintro (h | h)
            · exact (L6 r1).mp h
            · exact absurd h hne
          · intro h
            exact Or.inl ((L6 r1).mpr h)
  · -- the indices sent so far
    rw [eidx]
    by_cases hlt1 : m.idx < a.S_
    · rw [min_eq_left (show m.idx + 1 ≤ a.S_ by omega), rtermSum_range_succ]
      rw [min_eq_left (show m.idx ≤ a.S_ by omega)] at I6
      rw [← I6]
      apply sum_map_add_at (ranks a) hnd r hr
      · intro r1 _ hne
        simp only [einb, hlt1, if_true, Function.update_noteq hne]
      · simp only [einb, hlt1, if_true, Function.update_same]
        exact rtermSum_append prob x0 _ _
    · rw [min_eq_right (show a.S_ ≤ m.idx + 1 by omega)]
      rw [min_eq_right (show a.S_ ≤ m.idx by omega)] at I6
      rw [← I6, einb]
      simp only [hlt1, if_false]
  · -- every evaluator has been sent an index
    intro r1 hr1
    rw [einb]
    split_ifs
    · by_cases hne : r1 = r
      · subst hne
        rw [Function.update_same]
        simp
      · rw [Function.update_noteq hne]
        exact I8 r1 hr1
    · exact I8 r1 hr1
  · -- `last_loop`
    rw [eidx, ell]
    by_cases hlt1 : m.idx < a.S_
    · simp only [hlt1, if_true]
      constructor
      · intro h; omega
      · intro h; exact absurd (hll hlt1) h
    · simp only [hlt1, if_false]
      constructor
      · intro _; decide
      · intro _; omega
  · intro r1 hne
    rw [eff]
    split_ifs
    · rfl
    · exact Function.update_noteq hne _ _

end visit

section pass

variable {K : Type} [LinearOrderedField K] {n nc : Nat}

/-- A visit that consumes nothing: the rank is finished, or its answer has not
arrived. -/
theorem master_visit_idle (a : hiopAlgPrimalDecomposition K n nc) (prob : RecourseProblem K nc)
    (x0 : Vec K nc) (ready : Bool) (m : Master K nc) (r : Nat) (hr : r ∈ ranks a)
    (hinv : PInv a prob x0 m) (h : m.finish_flag r ≠ 0 ∨ ready = false) :
    master_visit a prob x0 ready m r = .ok m := by
  by_cases hff : m.finish_flag r = 0
  · rcases h with h | h
    · exact absurd hff h
    · exact master_visit_skip a prob x0 ready m r (Or.inr ⟨(hinv.1.1 r hr hff).1, h⟩)
  · exact master_visit_skip a prob x0 ready m r (Or.inl ⟨hff, (hinv.1.2.1 r hr hff).1⟩)

/-- The `for` loop of a pass over the ranks `l`: it never fails, keeps the
invariant, never lowers `idx`, raises it if some unfinished rank of `l` has
answered, and changes nothing otherwise. -/
theorem master_visits (a : hiopAlgPrimalDecomposition K n nc) (prob : RecourseProblem K nc)
    (x0 : Vec K nc) (ready : Nat → Bool) (l : List Nat) :
    (∀ r ∈ l, r ∈ ranks a) → ∀ m : Master K nc, PInv a prob x0 m →
    ∃ m1, l.foldlM (fun m r => master_visit a prob x0 (ready r) m r) m = .ok m1 ∧
      PInv a prob x0 m1 ∧ m.idx ≤ m1.idx ∧
      ((∃ r ∈ l, m.finish_flag r = 0 ∧ ready r = true) → m.idx < m1.idx) ∧
      ((∀ r ∈ l, m.finish_flag r ≠ 0 ∨ ready r = false) → m1 = m) := by
  induction l with
  | nil =>
    intro _ m hinv
    exact ⟨m, rfl, hinv, le_refl _, fun ⟨r, hr, _⟩ => absurd hr (List.not_mem_nil r),
      fun _ => rfl⟩
  | cons x xs ih =>
    intro hl m hinv
    have hx : x ∈ ranks a := hl x (List.mem_cons_self _ _)
    have hxs : ∀ r ∈ xs, r ∈ ranks a := fun r h => hl r (List.mem_cons_of_mem _ h)
    rw [List.foldlM_cons]
    by_cases hc : m.finish_flag x = 0 ∧ ready x = true
    · obtain ⟨m1, e1, e2, e3, _⟩ := master_visit_ready a prob x0 m x hx hinv hc.1
      obtain ⟨m2, f1, f2, f3, _, _⟩ := ih hxs m1 e2
      refine ⟨m2, ?_, f2, by omega, fun _ => by omega, ?_⟩
      · rw [hc.2, e1]; exact f1
      · intro hall
        rcases hall x (List.mem_cons_self _ _) with h | h
        · exact absurd hc.1 h
        · rw [hc.2] at h; cases h
    · have hidle : m.finish_flag x ≠ 0 ∨ ready x = false := by
        by_cases h0 : m.finish_flag x = 0
        · right
          cases hrx : ready x
          · rfl
          · exact absurd ⟨h0, hrx⟩ hc
        · exact Or.inl h0
      obtain ⟨m2, f1, f2, f3, f4, f5⟩ := ih hxs m hinv
      refine ⟨m2, ?_, f2, f3, ?_, ?_⟩
      · rw [master_visit_idle a prob x0 (ready x) m x hx hinv hidle]; exact f1
      · rintro ⟨r, hr, hr1⟩
        rcases List.mem_cons.mp hr with e | e
        · subst e; exact absurd hr1 hc
        · exact f4 ⟨r, e, hr1⟩
      · intro hall
        exact f5 (fun r hr => hall r (List.mem_cons_of_mem _ hr))

/-- The condition of the `while` loop. -/
theorem head_to_pass (a : hiopAlgPrimalDecomposition K n nc) (prob : RecourseProblem K nc)
    (x0 : Vec K nc) (m : Master K nc) (h : HeadInv a prob x0 m)
    (hc : m.idx ≤ a.S_ ∨ m.last_loop ≠ 0) : PInv a prob x0 m := by
  refine ⟨h.1, ?_, ?_⟩
  · intro hlt
    rcases hc with hc | hc
    · omega
    · exact hc
  · intro hne
    by_contra hle
    exact hne (h.2.1 (by omega))

/-- One pass of the `while` loop, entered with its condition true: it never
fails, re-establishes the invariant of the loop head, raises `idx` if some
unfinished rank has answered, and otherwise leaves `idx` and the flags as they
were. -/
theorem master_pass_spec (a : hiopAlgPrimalDecomposition K n nc) (prob : RecourseProblem K nc)
    (x0 : Vec K nc) (ready : Nat → Bool) (m : Master K nc) (h : HeadInv a prob x0 m)
    (hc : m.idx ≤ a.S_ ∨ m.last_loop ≠ 0) :
    ∃ m1, master_pass a prob x0 ready m = .ok m1 ∧ HeadInv a prob x0 m1 ∧ m.idx ≤ m1.idx ∧
      ((∃ r ∈ ranks a, m.finish_flag r = 0 ∧ ready r = true) → m.idx < m1.idx) ∧
      ((∀ r ∈ ranks a, m.finish_flag r ≠ 0 ∨ ready r = false) →
        m1.idx = m.idx ∧ m1.finish_flag = m.finish_flag) := by
  obtain ⟨m1, e1, e2, e3, e4, e5⟩ := master_visits a prob x0 ready (ranks a) (fun _ hr => hr) m
    (head_to_pass a prob x0 m h hc)
  unfold master_pass
  simp only [bind, Except.bind, e1]
  by_cases hl : m1.last_loop = 0
  · refine ⟨m1, by simp [hl, pure, Except.pure], ⟨e2.1, fun _ => hl, ?_⟩, e3, e4, ?_⟩
    · intro hlt
      exact absurd (e2.2.mp hlt) (by simpa using hl)
    · intro hall
      rw [e5 hall]
      exact ⟨rfl, rfl⟩
  · refine ⟨{ m1 with last_loop := if (ranks a).any (fun r => m1.finish_flag r = 0) then 1 else 0 },
      by simp [hl, pure, Except.pure], ⟨e2.1, ?_, ?_⟩, e3, e4, ?_⟩
    · intro hle
      have hle1 : m1.idx ≤ a.S_ := hle
      have : a.S_ < m1.idx := e2.2.mpr hl
      omega
    · intro _
      show (if (ranks a).any (fun r => m1.finish_flag r = 0) then (1 : Int) else 0) ≠ 0 ↔ _
      by_cases hany : (ranks a).any (fun r => decide (m1.finish_flag r = 0)) = true
      · simp only [hany, if_true]
        have := List.any_eq_true.mp hany
        simp only [decide_eq_true_eq] at this
        exact ⟨fun _ => this, fun _ => by decide⟩
      · simp only [hany, if_false]
        constructor
        · intro hh; exact absurd rfl hh
        · rintro ⟨r, hr, hr0⟩
          exact absurd (List.any_eq_true.mpr ⟨r, hr, by simpa using hr0⟩) hany
    · intro hall
      rw [e5 hall]
      exact ⟨rfl, rfl⟩

end pass

section loop

variable {K : Type} [LinearOrderedField K] {n nc : Nat}

/-- What holds when the `while` loop is left: every evaluator is finished,
`idx = S_ + comm_size_ - 1`, the log is made of the initial sends, a dispatch
phase of `S_ - (comm_size_ - 1)` results and a drain phase in which every
evaluator occurs once; every index sent has been answered; `rval`, `grad_r`
are the sums over all sub-problems (zero in `run_local()`), and so is the sum
over the indices sent to the evaluators. -/
theorem master_exit (a : hiopAlgPrimalDecomposition K n nc) (prob : RecourseProblem K nc)
    (x0 : Vec K nc) (m : Master K nc) (h : HeadInv a prob x0 m)
    (hc : ¬ (m.idx ≤ a.S_ ∨ m.last_loop ≠ 0)) :
    (∀ r ∈ ranks a, m.finish_flag r ≠ 0 ∧ m.rec_prob r = .MPI_REQUEST_NULL ∧
      (m.inbox r).length = m.nrecv r ∧ m.inbox r ≠ [] ∧ ∀ i ∈ m.inbox r, i ≠ -1) ∧
    m.idx = a.S_ + (a.comm_size_ - 1) ∧
    (∃ rs ds, m.log = initLog a ++ mainLog (a.comm_size_ - 1) rs ++ drainLog a.S_ ds ∧
      (∀ r ∈ rs, r ∈ ranks a) ∧ rs.length + (a.comm_size_ - 1) = a.S_ ∧ ds.Perm (ranks a)) ∧
    ((m.rval, m.grad_r) =
      if a.local_accum_ then 0 else rtermSum prob x0 ((List.range a.S_).map Int.ofNat)) ∧
    ((ranks a).map (fun r => rtermSum prob x0 (m.inbox r))).sum =
      rtermSum prob x0 ((List.range a.S_).map Int.ofNat) ∧
    (∀ r, r ∉ ranks a → m.rec_prob r = .MPI_REQUEST_NULL ∧
      m.req_cont_idx r = .MPI_REQUEST_NULL) := by
  obtain ⟨⟨I1, I2, I3, I4, ⟨rs, ds, L1, L2, L3, L4, L5, L6⟩, I6, I7, I8⟩, H1, H2⟩ := h
  have hlt : a.S_ < m.idx := by
    by_contra hh
    exact hc (Or.inl (by omega))
  have hl0 : m.last_loop = 0 := by
    by_contra hh
    exact hc (Or.inr hh)
  have hfin : ∀ r ∈ ranks a, m.finish_flag r ≠ 0 := by
    intro r hr h0
    exact ((H2 hlt).mpr ⟨r, hr, h0⟩) hl0
  have hperm : ds.Perm (ranks a) := by
    rw [List.perm_ext_iff_of_nodup L5 (ranks_nodup a)]
    intro r
    rw [L6 r]
    exact ⟨fun h => h.1, fun h => ⟨h, hfin r h⟩⟩
  have hdl : ds.length = a.comm_size_ - 1 := by
    rw [hperm.length_eq]; simp [ranks]
  rw [min_eq_right (show a.S_ ≤ m.idx by omega)] at L3 I6
  rw [max_eq_left (show a.S_ ≤ m.idx by omega)] at L4
  refine ⟨?_, by omega, ⟨rs, ds, L1, L2, L3, hperm⟩, ?_, I6, I4⟩
  · intro r hr
    exact ⟨hfin r hr, (I2 r hr (hfin r hr)).1, (I2 r hr (hfin r hr)).2, I8 r hr, I3 r hr⟩
  · rw [I7]
    cases hl : a.local_accum_
    · simp only [Bool.false_eq_true, if_false]
      rw [← I6]
      congr 1
      apply List.map_congr_left
      intro r hr
      rw [← (I2 r hr (hfin r hr)).2, List.take_length]
    · rfl

/-- The `while` loop, whatever the schedule and the number of passes allowed:
no assertion fails and no access is out of range; either the loop is left, in
a state that satisfies the invariant, or the passes allowed are used up. -/
theorem master_loop_safe (a : hiopAlgPrimalDecomposition K n nc) (prob : RecourseProblem K nc)
    (x0 : Vec K nc) (ready : Nat → Nat → Bool) (fuel : Nat) :
    ∀ (t : Nat) (m : Master K nc), HeadInv a prob x0 m →
      (∃ m1, master_loop a prob x0 ready fuel t m = .ok m1 ∧ HeadInv a prob x0 m1 ∧
        ¬ (m1.idx ≤ a.S_ ∨ m1.last_loop ≠ 0)) ∨
      (∃ m1, master_loop a prob x0 ready fuel t m = .error (Fault.still_polling, m1.log) ∧
        HeadInv a prob x0 m1) := by
  induction fuel with
  | zero =>
    intro t m h
    unfold master_loop
    by_cases hc : m.idx ≤ a.S_ ∨ m.last_loop ≠ 0
    · exact Or.inr ⟨m, by rw [if_pos hc], h⟩
    · exact Or.inl ⟨m, by rw [if_neg hc], h, hc⟩
  | succ fuel ih =>
    intro t m h
    unfold master_loop
    by_cases hc : m.idx ≤ a.S_ ∨ m.last_loop ≠ 0
    · rw [if_pos hc]
      obtain ⟨m1, e1, e2, _⟩ := master_pass_spec a prob x0 (ready t) m h hc
      simp only [bind, Except.bind, e1]
      exact ih (t + 1) m1 e2
    · exact Or.inl ⟨m, by rw [if_neg hc], h, hc⟩

/-- While the loop runs, some evaluator is not finished. -/
theorem master_unfinished (a : hiopAlgPrimalDecomposition K n nc) (prob : RecourseProblem K nc)
    (x0 : Vec K nc) (m : Master K nc) (h : HeadInv a prob x0 m) (hP : 2 ≤ a.comm_size_)
    (hc : m.idx ≤ a.S_ ∨ m.last_loop ≠ 0) : ∃ r ∈ ranks a, m.finish_flag r = 0 := by
  obtain ⟨⟨I1, I2, I3, I4, ⟨rs, ds, L1, L2, L3, L4, L5, L6⟩, I6, I7, I8⟩, H1, H2⟩ := h
  by_cases hlt : a.S_ < m.idx
  · rcases hc with hc | hc
    · omega
    · exact (H2 hlt).mp hc
  · have hds : ds = [] := by
      apply List.eq_nil_of_length_eq_zero
      have : max m.idx a.S_ = a.S_ := max_eq_right (by omega)
      omega
    have h1 : 1 ∈ ranks a := (mem_ranks a 1).mpr ⟨le_refl 1, by omega⟩
    refine ⟨1, h1, ?_⟩
    by_contra hne
    have := (L6 1).mpr ⟨h1, hne⟩
    rw [hds] at this
    exact absurd this (List.not_mem_nil 1)

/-- The number of results still to be consumed. -/
theorem master_idx_le (a : hiopAlgPrimalDecomposition K n nc) (prob : RecourseProblem K nc)
    (x0 : Vec K nc) (m : Master K nc) (h : HeadInv a prob x0 m) :
    m.idx ≤ a.S_ + (a.comm_size_ - 1) := by
  obtain ⟨⟨I1, I2, I3, I4, ⟨rs, ds, L1, L2, L3, L4, L5, L6⟩, I6, I7, I8⟩, H1, H2⟩ := h
  have hsub : ds.Subperm (ranks a) :=
    List.subperm_of_subset L5 (fun r hr => ((L6 r).mp hr).1)
  have hlen : ds.length ≤ a.comm_size_ - 1 := by
    have := hsub.length_le
    simpa [ranks] using this
  have : m.idx ≤ max m.idx a.S_ := le_max_left _ _
  omega

theorem master_loop_succ (a : hiopAlgPrimalDecomposition K n nc) (prob : RecourseProblem K nc)
    (x0 : Vec K nc) (ready : Nat → Nat → Bool) (fuel t : Nat) (m m1 : Master K nc)
    (hc : m.idx ≤ a.S_ ∨ m.last_loop ≠ 0) (hp : master_pass a prob x0 (ready t) m = .ok m1) :
    master_loop a prob x0 ready (fuel + 1) t m = master_loop a prob x0 ready fuel (t + 1) m1 := by
  conv_lhs => unfold master_loop
  rw [if_pos hc]
  simp only [bind, Except.bind, hp]

/-- If an unfinished evaluator answers at some later pass, the loop gets to a
pass that consumes a result. -/
theorem master_loop_progress (a : hiopAlgPrimalDecomposition K n nc) (prob : RecourseProblem K nc)
    (x0 : Vec K nc) (ready : Nat → Nat → Bool) (r0 : Nat) (hr0 : r0 ∈ ranks a) (d : Nat) :
    ∀ (t : Nat) (m : Master K nc), HeadInv a prob x0 m → (m.idx ≤ a.S_ ∨ m.last_loop ≠ 0) →
      m.finish_flag r0 = 0 → ready (t + d) r0 = true →
      ∃ f m1, HeadInv a prob x0 m1 ∧ m.idx < m1.idx ∧
        ∀ f2, master_loop a prob x0 ready (f + 1 + f2) t m =
          master_loop a prob x0 ready f2 (t + f + 1) m1 := by
  induction d with
  | zero =>
    intro t m h hc hff hr
    obtain ⟨m1, e1, e2, _, e4, _⟩ := master_pass_spec a prob x0 (ready t) m h hc
    refine ⟨0, m1, e2, e4 ⟨r0, hr0, hff, by simpa using hr⟩, fun f2 => ?_⟩
    rw [show 0 + 1 + f2 = f2 + 1 by omega]
    exact master_loop_succ a prob x0 ready f2 t m m1 hc e1
  | succ d ih =>
    intro t m h hc hff hr
    obtain ⟨m1, e1, e2, _, e4, e5⟩ := master_pass_spec a prob x0 (ready t) m h hc
    by_cases hex : ∃ r ∈ ranks a, m.finish_flag r = 0 ∧ ready t r = true
    · refine ⟨0, m1, e2, e4 hex, fun f2 => ?_⟩
      rw [show 0 + 1 + f2 = f2 + 1 by omega]
      exact master_loop_succ a prob x0 ready f2 t m m1 hc e1
    · have hall : ∀ r ∈ ranks a, m.finish_flag r ≠ 0 ∨ ready t r = false := by
        intro r hr1
        by_cases h0 : m.finish_flag r = 0
        · right
          cases hrr : ready t r
          · rfl
          · exact absurd ⟨r, hr1, h0, hrr⟩ hex
        · exact Or.inl h0
      obtain ⟨hidx, hflags⟩ := e5 hall
      have hff1 : m1.finish_flag r0 = 0 := by rw [hflags]; exact hff
      have hc1 : m1.idx ≤ a.S_ ∨ m1.last_loop ≠ 0 := by
        by_cases hlt : a.S_ < m1.idx
        · exact Or.inr ((e2.2.2 hlt).mpr ⟨r0, hr0, hff1⟩)
        · exact Or.inl (by omega)
      obtain ⟨f, m2, g1, g2, g3⟩ := ih (t + 1) m1 e2 hc1 hff1
        (by rw [Nat.add_assoc, Nat.add_comm 1 d]; exact hr)
      refine ⟨f + 1, m2, g1, by omega, fun f2 => ?_⟩
      rw [show f + 1 + 1 + f2 = (f + 1 + f2) + 1 by omega,
        master_loop_succ a prob x0 ready (f + 1 + f2) t m m1 hc e1, g3 f2,
        show t + 1 + f + 1 = t + (f + 1) + 1 by omega]

/-- Under a fair schedule, with at least one evaluator, the `while` loop is
left after finitely many passes. -/
theorem master_loop_fair (a : hiopAlgPrimalDecomposition K n nc) (prob : RecourseProblem K nc)
    (x0 : Vec K nc) (ready : Nat → Nat → Bool) (hfair : Fair a ready) (hP : 2 ≤ a.comm_size_)
    (mu : Nat) :
    ∀ (t : Nat) (m : Master K nc), HeadInv a prob x0 m →
      a.S_ + (a.comm_size_ - 1) - m.idx ≤ mu →
      ∃ fuel m1, master_loop a prob x0 ready fuel t m = .ok m1 ∧ HeadInv a prob x0 m1 ∧
        ¬ (m1.idx ≤ a.S_ ∨ m1.last_loop ≠ 0) := by
  induction mu with
  | zero =>
    intro t m h hmu
    by_cases hc : m.idx ≤ a.S_ ∨ m.last_loop ≠ 0
    · obtain ⟨r0, hr0, hff⟩ := master_unfinished a prob x0 m h hP hc
      obtain ⟨t1, ht1, hr⟩ := hfair r0 hr0 t
      obtain ⟨d, rfl⟩ := Nat.exists_eq_add_of_le ht1
      obtain ⟨f, m1, g1, g2, _⟩ := master_loop_progress a prob x0 ready r0 hr0 d t m h hc hff hr
      have := master_idx_le a prob x0 m1 g1
      omega
    · exact ⟨0, m, by unfold master_loop; rw [if_neg hc], h, hc⟩
  | succ mu ih =>
    intro t m h hmu
    by_cases hc : m.idx ≤ a.S_ ∨ m.last_loop ≠ 0
    · obtain ⟨r0, hr0, hff⟩ := master_unfinished a prob x0 m h hP hc
      obtain ⟨t1, ht1, hr⟩ := hfair r0 hr0 t
      obtain ⟨d, rfl⟩ := Nat.exists_eq_add_of_le ht1
      obtain ⟨f, m1, g1, g2, g3⟩ := master_loop_progress a prob x0 ready r0 hr0 d t m h hc hff hr
      obtain ⟨fuel, m2, k1, k2, k3⟩ := ih (t + f + 1) m1 g1 (by omega)
      exact ⟨f + 1 + fuel, m2, by rw [g3 fuel]; exact k1, k2, k3⟩
    · exact ⟨0, m, by unfold master_loop; rw [if_neg hc], h, hc⟩

end loop

section begin_end

variable {K : Type} [LinearOrderedField K] {n nc : Nat}

/-- The initial blocking sends to the ranks `s, s+1, ..., s+k-1`, when enough
indices are left: rank `r` gets index `idx + (r - s)`. -/
theorem master_initial_sends (a : hiopAlgPrimalDecomposition K n nc) (k : Nat) :
    ∀ (s : Nat) (m : Master K nc), m.idx + k ≤ a.S_ →
      (List.range' s k).foldlM (master_initial_send a) m = .ok
        { m with
          idx := m.idx + k,
          log := m.log ++ (List.range' s k).map (fun r => Event.send r (Int.ofNat (m.idx + (r - s)))),
          inbox := fun r => if s ≤ r ∧ r < s + k then m.inbox r ++ [Int.ofNat (m.idx + (r - s))]
            else m.inbox r } := by
  induction k with
  | zero =>
    intro s m _
    have hin : (fun r => if s ≤ r ∧ r < s then m.inbox r ++ [Int.ofNat (m.idx + (r - s))]
        else m.inbox r) = m.inbox := by
      funext r
      rw [if_neg (by omega)]
    simp only [List.range'_zero, List.foldlM_nil, List.map_nil, List.append_nil, Nat.add_zero,
      pure, Except.pure]
    rw [hin]
  | succ k ih =>
    intro s m hk
    rw [List.range'_succ, List.foldlM_cons]
    have hci := cont_idx_lt a m.idx (by omega)
    simp only [master_initial_send, hci, bind, Except.bind]
    rw [ih (s + 1) _ (by simp only; omega)]
    congr 1
    simp only [List.map_cons, Nat.sub_self, Nat.add_zero, List.append_assoc, List.singleton_append]
    congr 1
    case e_idx => omega
    case e_log =>
      congr 2
      apply List.map_congr_left
      intro r hr
      have := (List.mem_range'_1.mp hr).1
      rw [show m.idx + 1 + (r - (s + 1)) = m.idx + (r - s) by omega]
    case e_inbox =>
      funext r
      by_cases h1 : r = s
      · subst h1
        simp
      · simp only [Function.update_noteq h1]
        by_cases h2 : s + 1 ≤ r ∧ r < s + 1 + k
        · rw [if_pos h2, if_pos (by omega),
            show m.idx + 1 + (r - (s + 1)) = m.idx + (r - s) by omega]
        · rw [if_neg h2, if_neg (by omega)]

/-- The initial receives posted for the ranks `l`, all of whose handles are
idle. -/
theorem master_initial_recvs (l : List Nat) :
    l.Nodup → ∀ (m : Master K nc), (∀ r ∈ l, m.rec_prob r = .MPI_REQUEST_NULL) →
      l.foldlM master_initial_recv m = .ok
        { m with rec_prob := fun r => if r ∈ l then .pending else m.rec_prob r } := by
  induction l with
  | nil => intro _ m _; simp [pure, Except.pure]
  | cons x xs ih =>
    intro hnd m h
    rw [List.nodup_cons] at hnd
    rw [List.foldlM_cons]
    have hx := h x (List.mem_cons_self _ _)
    simp only [master_initial_recv, master_post, MPI_Request.post, hx, if_true, bind, Except.bind,
      pure, Except.pure]
    rw [ih hnd.2]
    · dsimp only
      congr 2
      funext r
      by_cases h1 : r = x
      · subst h1; simp
      · simp [Function.update_noteq h1, h1]
    · intro r hr
      have h1 : r ≠ x := fun e => hnd.1 (e ▸ hr)
      simp only [Function.update_noteq h1]
      exact h r (List.mem_cons_of_mem _ hr)

theorem rtermSum_singleton (prob : RecourseProblem K nc) (x0 : Vec K nc) (i : Int) :
    rtermSum prob x0 [i] = rterm prob x0 i := by
  simp [rtermSum]

/-- With `S_ ≥ comm_size_ - 1` the start of the master block goes through. -/
theorem master_begin_eq (a : hiopAlgPrimalDecomposition K n nc) (rval0 : K) (grad_r0 : Vec K nc)
    (buf0 : Nat → K × Vec K nc) (hS : a.comm_size_ ≤ a.S_ + 1) :
    master_begin a (master_init rval0 grad_r0 buf0) = .ok (master_at_loop a buf0) := by
  have hc : (a.S_ : Int) ≥ (a.comm_size_ : Int) - 1 := by omega
  have e1 := master_initial_sends a (a.comm_size_ - 1) 1
    { master_init rval0 grad_r0 buf0 with rval := 0, grad_r := setToZero, idx := 0 }
    (by simp only; omega)
  unfold master_begin
  simp only [hc, not_true, if_false, bind, Except.bind, pure, Except.pure]
  rw [show ranks a = List.range' 1 (a.comm_size_ - 1) from rfl, e1]
  simp only
  rw [master_initial_recvs _ (List.nodup_range' _ _) _ (by intro r _; rfl)]
  simp only [master_init, master_at_loop, initLog, ranks]
  congr 2
  · omega
  · funext r
    simp only [List.mem_range'_1]
    by_cases h : 1 ≤ r ∧ r < 1 + (a.comm_size_ - 1)
    · simp [h]
    · simp [h]
  · simp

/-- The invariant holds when the `while` loop is reached. -/
theorem master_at_loop_inv (a : hiopAlgPrimalDecomposition K n nc) (prob : RecourseProblem K nc)
    (x0 : Vec K nc) (buf0 : Nat → K × Vec K nc) (hS : a.comm_size_ ≤ a.S_ + 1) :
    HeadInv a prob x0 (master_at_loop a buf0) := by
  refine ⟨⟨?_, ?_, ?_, ?_, ⟨[], [], ?_, ?_, ?_, ?_, List.nodup_nil, ?_⟩, ?_, ?_, ?_⟩, ?_, ?_⟩
  · intro r hr _
    simp [master_at_loop, hr]
  · intro r _ h
    exact absurd rfl h
  · intro r hr i hi
    simp only [master_at_loop, hr, if_true, List.mem_singleton] at hi
    rw [hi]
    intro hneg
    have : (0 : Int) ≤ Int.ofNat (r - 1) := Int.ofNat_nonneg _
    omega
  · intro r hr
    simp [master_at_loop, hr]
  · simp [master_at_loop, mainLog, drainLog]
  · intro r hr; cases hr
  · simp only [master_at_loop, List.length_nil]
    rw [min_eq_left (by omega)]
    omega
  · simp only [master_at_loop, List.length_nil]
    rw [max_eq_right (by omega)]
    omega
  · intro r
    simp [master_at_loop]
  · simp only [master_at_loop]
    rw [min_eq_left (by omega)]
    have h1 : (ranks a).map (fun r => rtermSum prob x0 (if r ∈ ranks a then [Int.ofNat (r - 1)]
        else [])) = (ranks a).map (fun r => rterm prob x0 (Int.ofNat (r - 1))) := by
      apply List.map_congr_left
      intro r hr
      rw [if_pos hr, rtermSum_singleton]
    rw [h1, rtermSum, ranks, List.range'_eq_map_range, List.map_map, List.map_map]
    congr 1
    apply List.map_congr_left
    intro i _
    simp
  · simp only [master_at_loop, List.take_zero]
    split_ifs
    · rfl
    · simp [rtermSum]
      rfl
  · intro r hr
    simp [master_at_loop, hr]
  · intro _; rfl
  · intro h
    simp only [master_at_loop] at h
    omega

end begin_end

section master_end_thms

variable {K : Type} [LinearOrderedField K] {n nc : Nat}

/-- The end signals to the ranks `l`: they all go out. -/
theorem master_sentinels (l : List Nat) :
    l.Nodup → ∀ (m : Master K nc),
      l.foldlM master_sentinel m = .ok
        { m with
          req_cont_idx := fun r => if r ∈ l then .pending else m.req_cont_idx r,
          req_cont_idx_value := fun r => if r ∈ l then -1 else m.req_cont_idx_value r,
          inbox := fun r => if r ∈ l then m.inbox r ++ [-1] else m.inbox r,
          log := m.log ++ l.map (fun r => Event.send r (-1)) } := by
  induction l with
  | nil => intro _ m; simp [pure, Except.pure]
  | cons x xs ih =>
    intro hnd m
    rw [List.nodup_cons] at hnd
    rw [List.foldlM_cons]
    simp only [master_sentinel, master_post, MPI_Request.post, MPI_Request.wait, if_true, bind,
      Except.bind, pure, Except.pure]
    rw [ih hnd.2]
    dsimp only
    congr 2
    · funext r
      by_cases h1 : r = x
      · subst h1; simp
      · simp [Function.update_noteq h1, h1]
    · funext r
      by_cases h1 : r = x
      · subst h1; simp [hnd.1]
      · simp [Function.update_noteq h1, h1]
    · funext r
      by_cases h1 : r = x
      · subst h1; simp [hnd.1]
      · simp [Function.update_noteq h1, h1]
    · simp

/-- The final waits on the handles of the ranks `l`. -/
theorem master_final_waits (l : List Nat) :
    ∀ (m : Master K nc),
      l.foldl (fun m r =>
          { m with rec_prob := Function.update m.rec_prob r (m.rec_prob r).wait,
                   req_cont_idx := Function.update m.req_cont_idx r (m.req_cont_idx r).wait }) m =
        { m with
          rec_prob := fun r => if r ∈ l then .MPI_REQUEST_NULL else m.rec_prob r,
          req_cont_idx := fun r => if r ∈ l then .MPI_REQUEST_NULL else m.req_cont_idx r } := by
  induction l with
  | nil => intro m; simp
  | cons x xs ih =>
    intro m
    rw [List.foldl_cons, ih]
    dsimp only
    congr 1
    · funext r
      by_cases h1 : r = x
      · subst h1; simp [MPI_Request.wait]
      · simp [Function.update_noteq h1, h1]
    · funext r
      by_cases h1 : r = x
      · subst h1; simp [MPI_Request.wait]
      · simp [Function.update_noteq h1, h1]

/-- The end of the master block goes through when the accumulators are zero in
`run_local()` and the handles of the ranks that are no evaluators are idle; it
changes nothing but the handles. -/
theorem master_finish_ok (a : hiopAlgPrimalDecomposition K n nc) (m : Master K nc)
    (hz : a.local_accum_ = true → m.rval = 0 ∧ ∀ i, m.grad_r i = 0)
    (hn : ∀ r, r ∉ ranks a → m.rec_prob r = .MPI_REQUEST_NULL ∧
      m.req_cont_idx r = .MPI_REQUEST_NULL) :
    ∃ m1, master_finish a m = .ok m1 ∧ m1.rval = m.rval ∧ m1.grad_r = m.grad_r ∧
      m1.log = m.log ∧ m1.inbox = m.inbox ∧ m1.idx = m.idx ∧
      ∀ r, m1.rec_prob r = .MPI_REQUEST_NULL ∧ m1.req_cont_idx r = .MPI_REQUEST_NULL := by
  have h1 : ¬ (a.local_accum_ = true ∧ ¬ (m.rval = 0 ∧ ∀ i, m.grad_r i = 0)) := by
    rintro ⟨h, h2⟩
    exact h2 (hz h)
  have hall : ∀ r, (if r ∈ ranks a then MPI_Request.MPI_REQUEST_NULL else m.rec_prob r) =
      .MPI_REQUEST_NULL ∧
      (if r ∈ ranks a then MPI_Request.MPI_REQUEST_NULL else m.req_cont_idx r) =
      .MPI_REQUEST_NULL := by
    intro r
    by_cases hr : r ∈ ranks a
    · simp [hr]
    · simp only [hr, if_false]
      exact hn r hr
  unfold master_finish
  simp only [h1, if_false, bind, Except.bind, pure, Except.pure, master_final_waits]
  rw [if_pos]
  · exact ⟨_, rfl, rfl, rfl, rfl, rfl, rfl, hall⟩
  · rw [List.all_eq_true]
    intro r _
    simp only [decide_eq_true_eq]
    exact hall r

end master_end_thms

section block

variable {K : Type} [LinearOrderedField K] {n nc : Nat}

/-- With fewer sub-problems than evaluators the master stops at its assertion,
before anything is sent. -/
theorem master_begin_fail (a : hiopAlgPrimalDecomposition K n nc) (m : Master K nc)
    (hS : a.S_ + 1 < a.comm_size_) :
    master_begin a m = .error (Fault.S_lt_workers, m.log) := by
  have hc : ¬ ((a.S_ : Int) ≥ (a.comm_size_ : Int) - 1) := by omega
  unfold master_begin
  simp only [hc, not_false_eq_true, if_true, bind, Except.bind]

/-- Distribution and collection by the master, whatever the schedule and the
number of passes allowed: either the loop is left, with the invariant, or the
passes are used up; nothing else can happen. -/
theorem master_dispatch_safe (a : hiopAlgPrimalDecomposition K n nc) (prob : RecourseProblem K nc)
    (x0 : Vec K nc) (ready : Nat → Nat → Bool) (fuel : Nat) (rval0 : K) (grad_r0 : Vec K nc)
    (buf0 : Nat → K × Vec K nc) (hS : a.comm_size_ ≤ a.S_ + 1) :
    (∃ m, master_dispatch a prob x0 ready fuel (master_init rval0 grad_r0 buf0) = .ok m ∧
      HeadInv a prob x0 m ∧ ¬ (m.idx ≤ a.S_ ∨ m.last_loop ≠ 0)) ∨
    (∃ m, master_dispatch a prob x0 ready fuel (master_init rval0 grad_r0 buf0) =
      .error (Fault.still_polling, m.log) ∧ HeadInv a prob x0 m) := by
  unfold master_dispatch
  rw [master_begin_eq a rval0 grad_r0 buf0 hS]
  exact master_loop_safe a prob x0 ready fuel 0 _ (master_at_loop_inv a prob x0 buf0 hS)

/-- Under a fair schedule, with at least one evaluator, distribution and
collection come to their end. -/
theorem master_dispatch_fair (a : hiopAlgPrimalDecomposition K n nc) (prob : RecourseProblem K nc)
    (x0 : Vec K nc) (ready : Nat → Nat → Bool) (rval0 : K) (grad_r0 : Vec K nc)
    (buf0 : Nat → K × Vec K nc) (hS : a.comm_size_ ≤ a.S_ + 1) (hP : 2 ≤ a.comm_size_)
    (hfair : Fair a ready) :
    ∃ fuel m, master_dispatch a prob x0 ready fuel (master_init rval0 grad_r0 buf0) = .ok m ∧
      HeadInv a prob x0 m ∧ ¬ (m.idx ≤ a.S_ ∨ m.last_loop ≠ 0) := by
  obtain ⟨fuel, m, h1, h2, h3⟩ := master_loop_fair a prob x0 ready hfair hP _ 0 _
    (master_at_loop_inv a prob x0 buf0 hS) (le_refl _)
  refine ⟨fuel, m, ?_, h2, h3⟩
  unfold master_dispatch
  rw [master_begin_eq a rval0 grad_r0 buf0 hS]
  exact h1

/-- The division by `S_` and the end signals, field by field. -/
theorem master_end_ok (a : hiopAlgPrimalDecomposition K n nc) (m : Master K nc) :
    ∃ m2, master_end a m = .ok m2 ∧
      m2.rval = (if a.local_accum_ then m.rval else m.rval / (a.S_ : K)) ∧
      m2.grad_r = (if a.local_accum_ then m.grad_r else scale m.grad_r (1 / (a.S_ : K))) ∧
      m2.log = m.log ++ sentinelLog a ∧
      (∀ r, m2.inbox r = if r ∈ ranks a then m.inbox r ++ [-1] else m.inbox r) ∧
      m2.rec_prob = m.rec_prob ∧ m2.idx = m.idx ∧
      ∀ r, r ∉ ranks a → m2.req_cont_idx r = m.req_cont_idx r := by
  unfold master_end
  simp only [bind, Except.bind, pure, Except.pure]
  rw [master_sentinels (ranks a) (ranks_nodup a)]
  refine ⟨_, rfl, ?_, ?_, ?_, ?_, ?_, ?_, ?_⟩
  · cases a.local_accum_ <;> rfl
  · cases a.local_accum_ <;> rfl
  · cases a.local_accum_ <;> rfl
  · intro r; cases a.local_accum_ <;> rfl
  · cases a.local_accum_ <;> rfl
  · cases a.local_accum_ <;> rfl
  · intro r hr
    cases a.local_accum_ <;> simp [hr]

theorem sentIndices_append (l1 l2 : List Event) :
    sentIndices (l1 ++ l2) = sentIndices l1 ++ sentIndices l2 := by
  induction l1 with
  | nil => rfl
  | cons e l ih => cases e <;> simp [sentIndices, ih]

theorem consumed_append (l1 l2 : List Event) : consumed (l1 ++ l2) = consumed l1 ++ consumed l2 := by
  induction l1 with
  | nil => rfl
  | cons e l ih => cases e <;> simp [consumed, ih]

theorem sentIndices_map_send (l : List Nat) (g : Nat → Int) :
    sentIndices (l.map (fun r => Event.send r (g r))) = l.map g := by
  induction l with
  | nil => rfl
  | cons x xs ih => simp [sentIndices, ih]

theorem consumed_map_send (l : List Nat) (g : Nat → Int) :
    consumed (l.map (fun r => Event.send r (g r))) = [] := by
  induction l with
  | nil => rfl
  | cons x xs ih => simp [consumed, ih]

theorem sentIndices_initLog (a : hiopAlgPrimalDecomposition K n nc) :
    sentIndices (initLog a) = (List.range (a.comm_size_ - 1)).map Int.ofNat := by
  unfold initLog
  rw [sentIndices_map_send, ranks, List.range'_eq_map_range, List.map_map]
  apply List.map_congr_left
  intro i _
  simp

theorem sentIndices_mainLog (rs : List Nat) :
    ∀ j, sentIndices (mainLog j rs) = (List.range' j rs.length).map Int.ofNat := by
  induction rs with
  | nil => intro j; rfl
  | cons x xs ih => intro j; simp [mainLog, sentIndices, ih, List.range'_succ]

theorem sentIndices_drainLog (ds : List Nat) : ∀ j, sentIndices (drainLog j ds) = [] := by
  induction ds with
  | nil => intro j; rfl
  | cons x xs ih => intro j; simp [drainLog, sentIndices, ih]

theorem consumed_mainLog (rs : List Nat) :
    ∀ j, consumed (mainLog j rs) = rs.zip (List.range' j rs.length) := by
  induction rs with
  | nil => intro j; rfl
  | cons x xs ih => intro j; simp [mainLog, consumed, ih, List.range'_succ]

theorem consumed_drainLog (ds : List Nat) :
    ∀ j, consumed (drainLog j ds) = ds.zip (List.range' j ds.length) := by
  induction ds with
  | nil => intro j; rfl
  | cons x xs ih => intro j; simp [drainLog, consumed, ih, List.range'_succ]

/-- What the shape of the log at the exit of the loop says about the indices
sent and the results consumed. -/
theorem exit_log_facts (a : hiopAlgPrimalDecomposition K n nc) (rs ds : List Nat)
    (hrs : rs.length + (a.comm_size_ - 1) = a.S_) (hds : ds.Perm (ranks a)) :
    sentIndices (initLog a ++ mainLog (a.comm_size_ - 1) rs ++ drainLog a.S_ ds) =
      (List.range a.S_).map Int.ofNat ∧
    (consumed (initLog a ++ mainLog (a.comm_size_ - 1) rs ++ drainLog a.S_ ds)).length = a.S_ ∧
    (consumed (initLog a ++ mainLog (a.comm_size_ - 1) rs ++ drainLog a.S_ ds)).map Prod.snd =
      List.range' (a.comm_size_ - 1) a.S_ ∧
    (consumed (initLog a ++ mainLog (a.comm_size_ - 1) rs ++ drainLog a.S_ ds)).map Prod.fst =
      rs ++ ds := by
  have hdl : ds.length = a.comm_size_ - 1 := by
    rw [hds.length_eq]; simp [ranks]
  have hc : consumed (initLog a ++ mainLog (a.comm_size_ - 1) rs ++ drainLog a.S_ ds) =
      rs.zip (List.range' (a.comm_size_ - 1) rs.length) ++ ds.zip (List.range' a.S_ ds.length) := by
    rw [consumed_append, consumed_append, consumed_mainLog, consumed_drainLog]
    unfold initLog
    rw [consumed_map_send]
    rfl
  refine ⟨?_, ?_, ?_, ?_⟩
  · rw [sentIndices_append, sentIndices_append, sentIndices_initLog, sentIndices_mainLog,
      sentIndices_drainLog, List.append_nil, ← List.map_append, List.range_eq_range',
      List.range_eq_range']
    congr 1
    have := List.range'_append_1 0 (a.comm_size_ - 1) rs.length
    rw [Nat.zero_add] at this
    rw [this, hrs]
  · rw [hc, List.length_append, List.length_zip, List.length_zip, List.length_range',
      List.length_range', Nat.min_self, Nat.min_self]
    omega
  · rw [hc, List.map_append, List.map_snd_zip _ _ (by simp), List.map_snd_zip _ _ (by simp)]
    have := List.range'_append_1 (a.comm_size_ - 1) rs.length ds.length
    rw [show a.comm_size_ - 1 + rs.length = a.S_ by omega] at this
    rw [this, hdl]
    congr 1
    omega
  · rw [hc, List.map_append, List.map_fst_zip _ _ (by simp), List.map_fst_zip _ _ (by simp)]

end block

section block2

variable {K : Type} [LinearOrderedField K] {n nc : Nat}

/-- Once distribution and collection have left the loop, the rest of the
master block goes through: the end signals are appended to the log and every
handle ends idle. -/
theorem master_block_of_dispatch (a : hiopAlgPrimalDecomposition K n nc)
    (prob : RecourseProblem K nc) (x0 : Vec K nc) (ready : Nat → Nat → Bool) (fuel : Nat)
    (m0 m : Master K nc) (e1 : master_dispatch a prob x0 ready fuel m0 = .ok m)
    (e2 : HeadInv a prob x0 m) (e3 : ¬ (m.idx ≤ a.S_ ∨ m.last_loop ≠ 0)) :
    ∃ mF, master_block a prob x0 ready fuel m0 = .ok mF ∧
      mF.log = m.log ++ sentinelLog a ∧
      (∀ r, mF.rec_prob r = .MPI_REQUEST_NULL ∧ mF.req_cont_idx r = .MPI_REQUEST_NULL) ∧
      (a.local_accum_ = true → mF.rval = 0 ∧ ∀ i, mF.grad_r i = 0) := by
  obtain ⟨_, _, _, hacc, _, hn⟩ := master_exit a prob x0 m e2 e3
  obtain ⟨m2, g1, g2, g3, g4, g5, g6, g7, g8⟩ := master_end_ok a m
  have hz : a.local_accum_ = true → m2.rval = 0 ∧ ∀ i, m2.grad_r i = 0 := by
    intro hl
    rw [hl] at hacc g2 g3
    simp only [if_true] at hacc g2 g3
    have h1 : m.rval = 0 := congrArg Prod.fst hacc
    have h2 : m.grad_r = 0 := congrArg Prod.snd hacc
    rw [g2, g3, h1, h2]
    exact ⟨rfl, fun _ => rfl⟩
  have hn2 : ∀ r, r ∉ ranks a → m2.rec_prob r = .MPI_REQUEST_NULL ∧
      m2.req_cont_idx r = .MPI_REQUEST_NULL := by
    intro r hr
    rw [g6, g8 r hr]
    exact hn r hr
  obtain ⟨m3, k1, k2, k3, k4, _, _, k7⟩ := master_finish_ok a m2 hz hn2
  refine ⟨m3, ?_, by rw [k4, g4], k7, fun hl => by rw [k2, k3]; exact hz hl⟩
  unfold master_block
  simp only [bind, Except.bind, e1, g1]
  exact k1

/-- The whole master block, whatever the schedule and the number of passes
allowed: either it completes, after a distribution and collection that left
the loop, with the end signals appended to the log and every handle idle; or
the passes are used up inside the loop.  No assertion fails and no access is
out of range. -/
theorem master_block_safe (a : hiopAlgPrimalDecomposition K n nc) (prob : RecourseProblem K nc)
    (x0 : Vec K nc) (ready : Nat → Nat → Bool) (fuel : Nat) (rval0 : K) (grad_r0 : Vec K nc)
    (buf0 : Nat → K × Vec K nc) (hS : a.comm_size_ ≤ a.S_ + 1) :
    (∃ m mF, master_dispatch a prob x0 ready fuel (master_init rval0 grad_r0 buf0) = .ok m ∧
      HeadInv a prob x0 m ∧ ¬ (m.idx ≤ a.S_ ∨ m.last_loop ≠ 0) ∧
      master_block a prob x0 ready fuel (master_init rval0 grad_r0 buf0) = .ok mF ∧
      mF.log = m.log ++ sentinelLog a ∧
      (∀ r, mF.rec_prob r = .MPI_REQUEST_NULL ∧ mF.req_cont_idx r = .MPI_REQUEST_NULL)) ∨
    (∃ m, master_block a prob x0 ready fuel (master_init rval0 grad_r0 buf0) =
      .error (Fault.still_polling, m.log) ∧ HeadInv a prob x0 m) := by
  rcases master_dispatch_safe a prob x0 ready fuel rval0 grad_r0 buf0 hS with
    ⟨m, e1, e2, e3⟩ | ⟨m, e1, e2⟩
  · left
    obtain ⟨mF, k1, k2, k3, _⟩ := master_block_of_dispatch a prob x0 ready fuel _ m e1 e2 e3
    exact ⟨m, mF, e1, e2, e3, k1, k2, k3⟩
  · right
    refine ⟨m, ?_, e2⟩
    unfold master_block
    simp only [bind, Except.bind, e1]

end block2

section aggregate

variable {K : Type} [LinearOrderedField K] {n nc : Nat}

theorem rtermSum_eq (prob : RecourseProblem K nc) (x0 : Vec K nc) (l : List Int) :
    rtermSum prob x0 l = ((l.map (f_rterm prob x0)).sum, (l.map (grad_rterm prob x0)).sum) := by
  induction l with
  | nil => rfl
  | cons i tl ih =>
    have : rtermSum prob x0 (i :: tl) = rterm prob x0 i + rtermSum prob x0 tl := by
      simp [rtermSum]
    rw [this, ih]
    simp [rterm]

/-- The loop of `run_single()` adds up value and gradient of every
sub-problem. -/
theorem run_single_fold (prob : RecourseProblem K nc) (x0 : Vec K nc) (l : List Int) :
    ∀ acc : K × Vec K nc,
      l.foldl (fun (acc : K × Vec K nc) idx_temp =>
          (acc.1 + (prob.eval_f_rterm idx_temp x0 0).2,
            axpy acc.2 1 (prob.eval_grad_rterm idx_temp x0 setToZero).2)) acc =
        acc + rtermSum prob x0 l := by
  induction l with
  | nil => intro acc; simp [rtermSum]
  | cons i tl ih =>
    intro acc
    rw [List.foldl_cons, ih]
    have : rtermSum prob x0 (i :: tl) = rterm prob x0 i + rtermSum prob x0 tl := by
      simp [rtermSum]
    rw [this, ← add_assoc]
    congr 1
    simp only [axpy_one, rterm, f_rterm, grad_rterm]
    rfl

/-- The aggregate of `run_single()`: the sums over all sub-problems, divided
by `S_`. -/
theorem run_single_aggregate_eq (a : hiopAlgPrimalDecomposition K n nc)
    (prob : RecourseProblem K nc) (x0 : Vec K nc) :
    run_single_aggregate a prob x0 =
      ((rtermSum prob x0 ((List.range a.S_).map Int.ofNat)).1 / (a.S_ : K),
        scale (rtermSum prob x0 ((List.range a.S_).map Int.ofNat)).2 (1 / (a.S_ : K))) := by
  unfold run_single_aggregate
  simp only [run_single_fold]
  have h0 : ((0 : K), (setToZero : Vec K nc)) = 0 := rfl
  rw [h0, zero_add]
  rfl

/-- An evaluator that was sent at least one index and then the end signal is
found past its loop at the end of the iteration. -/
theorem worker_final_ok (a : hiopAlgPrimalDecomposition K n nc) (prob : RecourseProblem K nc)
    (x0 : Vec K nc) (prev : Nat → (K × Vec K nc) × (K × Vec K nc)) (m m2 : Master K nc) (r : Nat)
    (hin : m2.inbox r = m.inbox r ++ [-1]) (hne : m.inbox r ≠ [])
    (hno : ∀ i ∈ m.inbox r, i ≠ -1) :
    ∃ w, worker_final a prob x0 prev m2 r = .ok w ∧
      WExited a prob x0 (prev r).2.1 (prev r).2.2 (m.inbox r) [] w := by
  obtain ⟨i, tl, heq⟩ := List.exists_cons_of_ne_nil hne
  rw [heq] at hno
  obtain ⟨w, e1, e2⟩ := worker_exec_exit a prob x0 (prev r).1.1 (prev r).1.2 (prev r).2.1
    (prev r).2.2 i tl hno
  refine ⟨w, ?_, by rw [heq]; exact e2⟩
  unfold worker_final
  rw [hin, heq, e1]
  simp [e2.1]

/-- All evaluators are found past their loops at the end of the iteration,
each having evaluated exactly the indices it was sent. -/
theorem worker_finals_ok (a : hiopAlgPrimalDecomposition K n nc) (prob : RecourseProblem K nc)
    (x0 : Vec K nc) (prev : Nat → (K × Vec K nc) × (K × Vec K nc)) (m m2 : Master K nc)
    (l : List Nat)
    (h : ∀ r ∈ l, m2.inbox r = m.inbox r ++ [-1] ∧ m.inbox r ≠ [] ∧ ∀ i ∈ m.inbox r, i ≠ -1) :
    ∃ ws, l.mapM (worker_final a prob x0 prev m2) = .ok ws ∧
      List.Forall₂ (fun r w => WExited a prob x0 (prev r).2.1 (prev r).2.2 (m.inbox r) [] w)
        l ws := by
  induction l with
  | nil => exact ⟨[], rfl, List.Forall₂.nil⟩
  | cons x xs ih =>
    obtain ⟨h1, h2, h3⟩ := h x (List.mem_cons_self _ _)
    obtain ⟨w, e1, e2⟩ := worker_final_ok a prob x0 prev m m2 x h1 h2 h3
    obtain ⟨ws, f1, f2⟩ := ih (fun r hr => h r (List.mem_cons_of_mem _ hr))
    refine ⟨w :: ws, ?_, List.Forall₂.cons e2 f2⟩
    rw [List.mapM_cons]
    simp only [bind, Except.bind, e1, f1]
    rfl

/-- In `run_local()` the accumulators of the evaluators add up to the sums
over the indices they were sent. -/
theorem worker_finals_sum (a : hiopAlgPrimalDecomposition K n nc) (prob : RecourseProblem K nc)
    (x0 : Vec K nc) (prev : Nat → (K × Vec K nc) × (K × Vec K nc)) (m : Master K nc)
    (hl : a.local_accum_ = true) (l : List Nat) (ws : List (Worker K nc))
    (h : List.Forall₂ (fun r w => WExited a prob x0 (prev r).2.1 (prev r).2.2 (m.inbox r) [] w)
      l ws) :
    (ws.map (fun w => w.rval)).sum = ((l.map (fun r => rtermSum prob x0 (m.inbox r))).sum).1 ∧
    ∀ i, (ws.map (fun w => w.grad_r i)).sum =
      ((l.map (fun r => rtermSum prob x0 (m.inbox r))).sum).2 i := by
  induction h with
  | nil => exact ⟨rfl, fun _ => rfl⟩
  | cons hw _ ih =>
    obtain ⟨_, _, _, _, _, e6, e7⟩ := hw
    rw [hl] at e6 e7
    simp only [if_true] at e6 e7
    constructor
    · simp only [List.map_cons, List.sum_cons, Prod.fst_add, ih.1, e6, rtermSum_eq]
    · intro i
      simp only [List.map_cons, List.sum_cons, Prod.snd_add, Pi.add_apply, ih.2 i, e7,
        rtermSum_eq]

/-- Once distribution and collection have left the loop, the aggregate rank 0
ends up with is the one `run_single()` computes, in `run()` and in
`run_local()`. -/
theorem dispatch_aggregate_of_dispatch (a : hiopAlgPrimalDecomposition K n nc)
    (prob : RecourseProblem K nc) (x0 : Vec K nc) (ready : Nat → Nat → Bool) (fuel : Nat)
    (prev : Nat → (K × Vec K nc) × (K × Vec K nc)) (m0 m : Master K nc)
    (e1 : master_dispatch a prob x0 ready fuel m0 = .ok m) (e2 : HeadInv a prob x0 m)
    (e3 : ¬ (m.idx ≤ a.S_ ∨ m.last_loop ≠ 0)) :
    dispatch_aggregate a prob x0 ready fuel m0 prev = .ok (run_single_aggregate a prob x0) := by
  obtain ⟨hall, _, _, hacc, hsum, hn⟩ := master_exit a prob x0 m e2 e3
  obtain ⟨m2, g1, g2, g3, g4, g5, g6, g7, g8⟩ := master_end_ok a m
  have hz : a.local_accum_ = true → m2.rval = 0 ∧ ∀ i, m2.grad_r i = 0 := by
    intro hl
    rw [hl] at hacc g2 g3
    simp only [if_true] at hacc g2 g3
    have h1 : m.rval = 0 := congrArg Prod.fst hacc
    have h2 : m.grad_r = 0 := congrArg Prod.snd hacc
    rw [g2, g3, h1, h2]
    exact ⟨rfl, fun _ => rfl⟩
  have hn2 : ∀ r, r ∉ ranks a → m2.rec_prob r = .MPI_REQUEST_NULL ∧
      m2.req_cont_idx r = .MPI_REQUEST_NULL := by
    intro r hr
    rw [g6, g8 r hr]
    exact hn r hr
  obtain ⟨m3, k1, k2, k3, _⟩ := master_finish_ok a m2 hz hn2
  obtain ⟨ws, f1, f2⟩ := worker_finals_ok a prob x0 prev m m2 (ranks a)
    (fun r hr => ⟨by rw [g5 r, if_pos hr], (hall r hr).2.2.2.1, (hall r hr).2.2.2.2⟩)
  unfold dispatch_aggregate
  simp only [bind, Except.bind, e1, g1, f1, k1, pure, Except.pure]
  rw [run_single_aggregate_eq]
  cases hl : a.local_accum_
  · simp only [Bool.false_eq_true, if_false]
    rw [hl] at hacc g2 g3
    simp only [Bool.false_eq_true, if_false] at hacc g2 g3
    rw [k2, k3, g2, g3, ← hacc]
  · simp only [if_true]
    obtain ⟨s1, s2⟩ := worker_finals_sum a prob x0 prev m hl (ranks a) ws f2
    obtain ⟨z1, z2⟩ := hz hl
    rw [hsum] at s1 s2
    rw [k2, z1, s1, zero_add]
    congr 2
    funext i
    simp only [scale, k3, z2, s2, zero_add]

/-- The aggregate of the distributed variants, whatever the schedule and the
number of passes allowed: if there is one, it is the aggregate of
`run_single()`; under a fair schedule there is one. -/
theorem dispatch_aggregate_spec (a : hiopAlgPrimalDecomposition K n nc)
    (prob : RecourseProblem K nc) (x0 : Vec K nc) (ready : Nat → Nat → Bool) (rval0 : K)
    (grad_r0 : Vec K nc) (buf0 : Nat → K × Vec K nc)
    (prev : Nat → (K × Vec K nc) × (K × Vec K nc)) (hP : 2 ≤ a.comm_size_)
    (hS : a.comm_size_ ≤ a.S_ + 1) :
    (∀ fuel res, dispatch_aggregate a prob x0 ready fuel (master_init rval0 grad_r0 buf0) prev =
        .ok res → res = run_single_aggregate a prob x0) ∧
    (Fair a ready → ∃ fuel,
      dispatch_aggregate a prob x0 ready fuel (master_init rval0 grad_r0 buf0) prev =
        .ok (run_single_aggregate a prob x0)) := by
  constructor
  · intro fuel res h
    rcases master_dispatch_safe a prob x0 ready fuel rval0 grad_r0 buf0 hS with
      ⟨m, e1, e2, e3⟩ | ⟨m, e1, _⟩
    · rw [dispatch_aggregate_of_dispatch a prob x0 ready fuel prev _ m e1 e2 e3] at h
      cases h
      rfl
    · unfold dispatch_aggregate at h
      simp only [bind, Except.bind, e1] at h
      cases h
  · intro hfair
    obtain ⟨fuel, m, e1, e2, e3⟩ :=
      master_dispatch_fair a prob x0 ready rval0 grad_r0 buf0 hS hP hfair
    exact ⟨fuel, dispatch_aggregate_of_dispatch a prob x0 ready fuel prev _ m e1 e2 e3⟩

end aggregate

section dispatch_claims

variable {K : Type} [LinearOrderedField K] {n nc : Nat}

/-- A completed distribution and collection ends in a state that satisfies the
invariant, with the loop condition false. -/
theorem master_dispatch_ok_exit (a : hiopAlgPrimalDecomposition K n nc)
    (prob : RecourseProblem K nc) (x0 : Vec K nc) (ready : Nat → Nat → Bool) (fuel : Nat)
    (rval0 : K) (grad_r0 : Vec K nc) (buf0 : Nat → K × Vec K nc) (hS : a.comm_size_ ≤ a.S_ + 1)
    (m : Master K nc)
    (h : master_dispatch a prob x0 ready fuel (master_init rval0 grad_r0 buf0) = .ok m) :
    HeadInv a prob x0 m ∧ ¬ (m.idx ≤ a.S_ ∨ m.last_loop ≠ 0) := by
  rcases master_dispatch_safe a prob x0 ready fuel rval0 grad_r0 buf0 hS with
    ⟨m1, e1, e2, e3⟩ | ⟨m1, e1, _⟩
  · rw [h] at e1
    cases e1
    exact ⟨e2, e3⟩
  · rw [h] at e1
    cases e1

/-- C2. Dispatch exactness, for the master loop of `run()` and of
`run_local()`, with `comm_size_ ≥ 2` and `S_ ≥ comm_size_ - 1`, under every
schedule of the tests.  The initial blocking sends give index `r - 1` to rank
`r`, that is the indices `0 .. comm_size_ - 2` in increasing order.  Whenever
the `while` loop is left: `idx = S_ + comm_size_ - 1`; the indices sent are
exactly `0, 1, ..., S_ - 1`, each once, in increasing order, and nothing else;
exactly `S_` results have been consumed, at the values
`comm_size_ - 1, ..., S_ + comm_size_ - 2` of `idx`; the log consists of the
initial sends, a dispatch phase in which each consumed result is followed by
the sending of the next index to the same rank, and a drain phase in which
each evaluator's last result is consumed once and nothing is sent.  Under a
fair schedule the loop is left. -/
theorem dispatch_exactness (a : hiopAlgPrimalDecomposition K n nc) (prob : RecourseProblem K nc)
    (x0 : Vec K nc) (ready : Nat → Nat → Bool) (rval0 : K) (grad_r0 : Vec K nc)
    (buf0 : Nat → K × Vec K nc) (hP : 2 ≤ a.comm_size_) (hS : a.comm_size_ ≤ a.S_ + 1) :
    (master_begin a (master_init rval0 grad_r0 buf0) = .ok (master_at_loop a buf0) ∧
      (master_at_loop a buf0).log = (ranks a).map (fun r => Event.send r (Int.ofNat (r - 1))) ∧
      sentIndices (master_at_loop a buf0).log = (List.range (a.comm_size_ - 1)).map Int.ofNat) ∧
    (∀ fuel m, master_dispatch a prob x0 ready fuel (master_init rval0 grad_r0 buf0) = .ok m →
      m.idx = a.S_ + (a.comm_size_ - 1) ∧
      sentIndices m.log = (List.range a.S_).map Int.ofNat ∧
      (consumed m.log).length = a.S_ ∧
      (consumed m.log).map Prod.snd = List.range' (a.comm_size_ - 1) a.S_ ∧
      ∃ rs ds, m.log = (master_at_loop a buf0).log ++ mainLog (a.comm_size_ - 1) rs ++
          drainLog a.S_ ds ∧
        rs.length + (a.comm_size_ - 1) = a.S_ ∧ (∀ r ∈ rs, r ∈ ranks a) ∧ ds.Perm (ranks a)) ∧
    (Fair a ready →
      ∃ fuel m, master_dispatch a prob x0 ready fuel (master_init rval0 grad_r0 buf0) = .ok m) := by
  refine ⟨⟨master_begin_eq a rval0 grad_r0 buf0 hS, rfl, sentIndices_initLog a⟩, ?_, ?_⟩
  · intro fuel m hm
    obtain ⟨hinv, hc⟩ := master_dispatch_ok_exit a prob x0 ready fuel rval0 grad_r0 buf0 hS m hm
    obtain ⟨_, hidx, ⟨rs, ds, L1, L2, L3, L4⟩, _, _, _⟩ := master_exit a prob x0 m hinv hc
    obtain ⟨f1, f2, f3, _⟩ := exit_log_facts a rs ds L3 L4
    rw [← L1] at f1 f2 f3
    exact ⟨hidx, f1, f2, f3, rs, ds, L1, L3, L2, L4⟩
  · intro hfair
    obtain ⟨fuel, m, h, _⟩ := master_dispatch_fair a prob x0 ready rval0 grad_r0 buf0 hS hP hfair
    exact ⟨fuel, m, h⟩

/-- Instance of `dispatch_exactness`: `S_ = 4`, four ranks, the evaluators
answering at different paces; with 20 passes allowed the loop is left. -/
theorem dispatch_exactness_witness :
    2 ≤ ex_alg.comm_size_ ∧ ex_alg.comm_size_ ≤ ex_alg.S_ + 1 ∧
    (∀ fuel m, master_dispatch ex_alg ex_prob (fun _ => 0) ex_ready fuel
        (master_init 5 (fun _ => 5) (fun _ => (0, fun _ => 0))) = .ok m →
      m.idx = ex_alg.S_ + (ex_alg.comm_size_ - 1) ∧
      sentIndices m.log = (List.range ex_alg.S_).map Int.ofNat ∧
      (consumed m.log).length = ex_alg.S_ ∧
      (consumed m.log).map Prod.snd = List.range' (ex_alg.comm_size_ - 1) ex_alg.S_ ∧
      ∃ rs ds, m.log = (master_at_loop ex_alg (fun _ => (0, fun _ => 0))).log ++
          mainLog (ex_alg.comm_size_ - 1) rs ++ drainLog ex_alg.S_ ds ∧
        rs.length + (ex_alg.comm_size_ - 1) = ex_alg.S_ ∧ (∀ r ∈ rs, r ∈ ranks ex_alg) ∧
        ds.Perm (ranks ex_alg)) ∧
    (master_dispatch ex_alg ex_prob (fun _ => 0) ex_ready 20
      (master_init 5 (fun _ => 5) (fun _ => (0, fun _ => 0)))).toBool = true :=
  have hP : 2 ≤ ex_alg.comm_size_ := by decide
  have hS : ex_alg.comm_size_ ≤ ex_alg.S_ + 1 := by decide
  ⟨hP, hS, (dispatch_exactness ex_alg ex_prob (fun _ => 0) ex_ready 5 (fun _ => 5)
    (fun _ => (0, fun _ => 0)) hP hS).2.1, rfl⟩

end dispatch_claims

section handle_claims

variable {K : Type} [LinearOrderedField K] {n nc : Nat}

/-- A step of an evaluator never fails an assertion, whatever it is sent. -/
theorem worker_step_never_fails (a : hiopAlgPrimalDecomposition K n nc)
    (prob : RecourseProblem K nc) (x0 : Vec K nc) (ready : Bool) (w : Worker K nc)
    (hw : WSafe w) : ∃ w1, worker_step a prob x0 ready w = .ok w1 ∧ WSafe w1 := by
  obtain ⟨h1, h2⟩ := hw
  unfold worker_step
  cases hp : w.phase with
  | at_recv =>
    simp only
    cases hi : w.inbox with
    | nil => exact ⟨w, rfl, ⟨h1, h2⟩⟩
    | cons i rest =>
      simp only
      obtain ⟨w1, e1, e2, _, _, _, _, _, e8, _⟩ := worker_eval_ok a prob x0
        { w with cont_idx0 := i, inbox := rest, phase := .in_loop } (h1 hp)
      exact ⟨w1, e1, ⟨fun h => (by rw [e2] at h; cases h), fun _ => e8⟩⟩
  | in_loop =>
    simp only
    by_cases hc : w.cont_idx0 = -1
    · refine ⟨{ w with phase := .exited }, by simp [hc, pure, Except.pure], ⟨?_, ?_⟩⟩ <;>
        (intro h; cases h)
    · simp only [ne_eq, hc, not_false_eq_true, if_true, h2 hp]
      cases hi : w.inbox with
      | nil => exact ⟨w, rfl, ⟨h1, h2⟩⟩
      | cons i rest =>
        simp only
        cases ready with
        | false => exact ⟨w, rfl, ⟨h1, h2⟩⟩
        | true =>
          simp only [if_true]
          by_cases hs : i = -1
          · refine ⟨_, by simp only [hs, if_true]; rfl, ⟨?_, ?_⟩⟩ <;> (intro h; cases h)
          · simp only [hs, if_false]
            obtain ⟨w1, e1, e2, _, _, _, _, _, e8, _⟩ := worker_eval_ok a prob x0
              { w with req_cont_idx := .MPI_REQUEST_NULL, req_cont_idx_value := i, inbox := rest,
                       cont_idx0 := i } rfl
            rw [hp] at e1
            exact ⟨w1, e1, ⟨fun h => (by rw [e2, hp] at h; cases h), fun _ => e8⟩⟩
  | exited =>
    exact ⟨w, rfl, ⟨fun h => (by rw [hp] at h; cases h), fun h => (by rw [hp] at h; cases h)⟩⟩

/-- An evaluator never fails an assertion, whatever it is sent, under every
schedule and for every length of the run. -/
theorem worker_run_never_fails (a : hiopAlgPrimalDecomposition K n nc)
    (prob : RecourseProblem K nc) (x0 : Vec K nc) (ready : Nat → Bool) (fuel : Nat) :
    ∀ (t : Nat) (w : Worker K nc), WSafe w →
      ∃ w1, worker_run a prob x0 ready fuel t w = .ok w1 ∧ WSafe w1 := by
  induction fuel with
  | zero => intro t w hw; exact ⟨w, rfl, hw⟩
  | succ fuel ih =>
    intro t w hw
    obtain ⟨w1, e1, e2⟩ := worker_step_never_fails a prob x0 (ready t) w hw
    rw [worker_run_succ, e1]
    exact ih (t + 1) w1 e2

/-- As long as the invariant holds every index sent lies in `[0, S_)`. -/
theorem sent_in_range (a : hiopAlgPrimalDecomposition K n nc) (prob : RecourseProblem K nc)
    (x0 : Vec K nc) (m : Master K nc) (h : HeadInv a prob x0 m) :
    ∀ i ∈ sentIndices m.log, 0 ≤ i ∧ i < (a.S_ : Int) := by
  obtain ⟨⟨_, _, _, _, ⟨rs, ds, L1, _, L3, _, _, _⟩, _, _, _⟩, _, _⟩ := h
  have hle : rs.length + (a.comm_size_ - 1) ≤ a.S_ := by
    rw [L3]; exact min_le_right _ _
  intro i hi
  rw [L1, sentIndices_append, sentIndices_append, sentIndices_initLog, sentIndices_mainLog,
    sentIndices_drainLog, List.append_nil, List.mem_append] at hi
  rcases hi with hi | hi
  · obtain ⟨k, hk, rfl⟩ := List.mem_map.mp hi
    have := List.mem_range.mp hk
    constructor
    · exact Int.ofNat_nonneg k
    · show (k : Int) < a.S_
      omega
  · obtain ⟨k, hk, rfl⟩ := List.mem_map.mp hi
    have := (List.mem_range'_1.mp hk).2
    constructor
    · exact Int.ofNat_nonneg k
    · show (k : Int) < a.S_
      omega

/-- C4. Sentinel only after drain, for the master block of `run()` and of
`run_local()` with `comm_size_ ≥ 2` and `S_ ≥ comm_size_ - 1`, under every
schedule.  When the block completes, its log is a first part, in which all
`S_` results are consumed and exactly the indices `0 .. S_ - 1` are sent,
followed by the end signals: `-1` to each evaluator, once, in the order of the
ranks; so the values ever sent are `0 .. S_ - 1` and then `comm_size_ - 1`
times `-1`.  As long as the block has not completed, every index sent so far
lies in `[0, S_)`.  Under a fair schedule the block completes. -/
theorem sentinel_after_drain (a : hiopAlgPrimalDecomposition K n nc) (prob : RecourseProblem K nc)
    (x0 : Vec K nc) (ready : Nat → Nat → Bool) (rval0 : K) (grad_r0 : Vec K nc)
    (buf0 : Nat → K × Vec K nc) (hP : 2 ≤ a.comm_size_) (hS : a.comm_size_ ≤ a.S_ + 1) :
    (∀ fuel mF, master_block a prob x0 ready fuel (master_init rval0 grad_r0 buf0) = .ok mF →
      ∃ pre, mF.log = pre ++ (ranks a).map (fun r => Event.send r (-1)) ∧
        (consumed pre).length = a.S_ ∧
        sentIndices pre = (List.range a.S_).map Int.ofNat ∧
        (∀ i ∈ sentIndices pre, 0 ≤ i ∧ i < (a.S_ : Int)) ∧
        sentIndices mF.log =
          (List.range a.S_).map Int.ofNat ++ List.replicate (a.comm_size_ - 1) (-1)) ∧
    (∀ fuel f l, master_block a prob x0 ready fuel (master_init rval0 grad_r0 buf0) = .error (f, l) →
      ∀ i ∈ sentIndices l, 0 ≤ i ∧ i < (a.S_ : Int)) ∧
    (Fair a ready →
      ∃ fuel mF, master_block a prob x0 ready fuel (master_init rval0 grad_r0 buf0) = .ok mF) := by
  refine ⟨?_, ?_, ?_⟩
  · intro fuel mF hm
    rcases master_block_safe a prob x0 ready fuel rval0 grad_r0 buf0 hS with
      ⟨m, mF1, e1, e2, e3, e4, e5, _⟩ | ⟨m, e1, _⟩
    · rw [hm] at e4
      cases e4
      obtain ⟨_, _, ⟨rs, ds, L1, _, L3, L4⟩, _, _, _⟩ := master_exit a prob x0 m e2 e3
      obtain ⟨f1, f2, _, _⟩ := exit_log_facts a rs ds L3 L4
      rw [← L1] at f1 f2
      refine ⟨m.log, e5, f2, f1, sent_in_range a prob x0 m e2, ?_⟩
      rw [e5, sentIndices_append, f1]
      unfold sentinelLog
      rw [sentIndices_map_send, List.map_const']
      simp [ranks]
    · rw [hm] at e1
      cases e1
  · intro fuel f l hm
    rcases master_block_safe a prob x0 ready fuel rval0 grad_r0 buf0 hS with
      ⟨m, mF1, _, _, _, e4, _, _⟩ | ⟨m, e1, e2⟩
    · rw [hm] at e4
      cases e4
    · rw [hm] at e1
      cases e1
      exact sent_in_range a prob x0 m e2
  · intro hfair
    obtain ⟨fuel, m, h1, h2, h3⟩ :=
      master_dispatch_fair a prob x0 ready rval0 grad_r0 buf0 hS hP hfair
    obtain ⟨mF, k1, _⟩ := master_block_of_dispatch a prob x0 ready fuel _ m h1 h2 h3
    exact ⟨fuel, mF, k1⟩

/-- Instance of `sentinel_after_drain`: `S_ = 4`, four ranks; with 20 passes
allowed the block completes. -/
theorem sentinel_after_drain_witness :
    2 ≤ ex_alg.comm_size_ ∧ ex_alg.comm_size_ ≤ ex_alg.S_ + 1 ∧
    (∀ fuel mF, master_block ex_alg ex_prob (fun _ => 0) ex_ready fuel
        (master_init 5 (fun _ => 5) (fun _ => (0, fun _ => 0))) = .ok mF →
      ∃ pre, mF.log = pre ++ (ranks ex_alg).map (fun r => Event.send r (-1)) ∧
        (consumed pre).length = ex_alg.S_ ∧
        sentIndices pre = (List.range ex_alg.S_).map Int.ofNat ∧
        (∀ i ∈ sentIndices pre, 0 ≤ i ∧ i < (ex_alg.S_ : Int)) ∧
        sentIndices mF.log =
          (List.range ex_alg.S_).map Int.ofNat ++ List.replicate (ex_alg.comm_size_ - 1) (-1)) ∧
    (master_block ex_alg ex_prob (fun _ => 0) ex_ready 20
      (master_init 5 (fun _ => 5) (fun _ => (0, fun _ => 0)))).toBool = true :=
  have hP : 2 ≤ ex_alg.comm_size_ := by decide
  have hS : ex_alg.comm_size_ ≤ ex_alg.S_ + 1 := by decide
  ⟨hP, hS, (sentinel_after_drain ex_alg ex_prob (fun _ => 0) ex_ready 5 (fun _ => 5)
    (fun _ => (0, fun _ => 0)) hP hS).1, rfl⟩

/-- The master block never ends in a fault other than the assertion on `S_`
or the end of the unfolding. -/
theorem master_block_faults (a : hiopAlgPrimalDecomposition K n nc) (prob : RecourseProblem K nc)
    (x0 : Vec K nc) (ready : Nat → Nat → Bool) (fuel : Nat) (rval0 : K) (grad_r0 : Vec K nc)
    (buf0 : Nat → K × Vec K nc) (f : Fault) (l : List Event)
    (h : master_block a prob x0 ready fuel (master_init rval0 grad_r0 buf0) = .error (f, l)) :
    (f = Fault.S_lt_workers ∧ l = [] ∧ a.S_ + 1 < a.comm_size_) ∨
    (f = Fault.still_polling ∧ a.comm_size_ ≤ a.S_ + 1) := by
  by_cases hS : a.comm_size_ ≤ a.S_ + 1
  · rcases master_block_safe a prob x0 ready fuel rval0 grad_r0 buf0 hS with
      ⟨_, _, _, _, _, e4, _, _⟩ | ⟨m, e1, _⟩
    · rw [h] at e4; cases e4
    · rw [h] at e1; cases e1
      exact Or.inr ⟨rfl, hS⟩
  · have hb := master_begin_fail a (master_init rval0 grad_r0 buf0) (by omega)
    unfold master_block master_dispatch at h
    simp only [bind, Except.bind, hb] at h
    cases h
    exact Or.inl ⟨rfl, rfl, by omega⟩

/-- C6. Handle reuse safety.  A handle is idle (`request_ == MPI_REQUEST_NULL`)
or pending.  The `post_*` methods succeed exactly on an idle handle and leave
it pending; a handle becomes idle only through `wait()` or a `test()` that
reports completion (a `test()` that reports none leaves it as it is).  In the
master block of `run()` and `run_local()`, under every schedule and for every
length of the run, no `post_*` finds its handle pending (the assertion
`request_ == MPI_REQUEST_NULL` never fails), the final assertions on the
handles hold, and a completed block leaves all handles idle.  An evaluator,
whatever indices it is sent and under every schedule of its tests, never posts
on a pending handle either.  Each rank holds one send handle and one receive
handle per (master, evaluator) pair, each with a single `request_`, so at most
one send and one receive per pair and side are pending at any time. -/
theorem handle_reuse_safety (a : hiopAlgPrimalDecomposition K n nc) (prob : RecourseProblem K nc)
    (x0 : Vec K nc) (ready : Nat → Nat → Bool) (fuel : Nat) (rval0 : K) (grad_r0 : Vec K nc)
    (buf0 : Nat → K × Vec K nc) (readyw : Nat → Bool) (fuelw : Nat) (rec_val0 : K)
    (grad_acc0 : Vec K nc) (inbox : List Int) :
    (∀ q : MPI_Request, (q = .MPI_REQUEST_NULL → q.post = .ok .pending) ∧
      (q = .pending → q.post = .error Fault.request_not_null) ∧ q.wait = .MPI_REQUEST_NULL) ∧
    (∀ (q : MPI_Request) (c : Bool), ((q.test c).1 = true → (q.test c).2 = .MPI_REQUEST_NULL) ∧
      ((q.test c).1 = false → (q.test c).2 = q ∧ q = .pending)) ∧
    (∀ l, master_block a prob x0 ready fuel (master_init rval0 grad_r0 buf0) ≠
      .error (Fault.request_not_null, l)) ∧
    (∀ l, master_block a prob x0 ready fuel (master_init rval0 grad_r0 buf0) ≠
      .error (Fault.request_not_completed, l)) ∧
    (∀ mF, master_block a prob x0 ready fuel (master_init rval0 grad_r0 buf0) = .ok mF →
      ∀ r, mF.rec_prob r = .MPI_REQUEST_NULL ∧ mF.req_cont_idx r = .MPI_REQUEST_NULL) ∧
    (∃ w, worker_run a prob x0 readyw fuelw 0
      (worker_init a rec_val0 grad_acc0 rval0 grad_r0 inbox) = .ok w) := by
  refine ⟨?_, ?_, ?_, ?_, ?_, ?_⟩
  · intro q
    cases q <;> simp [MPI_Request.post, MPI_Request.wait]
  · intro q c
    cases q <;> cases c <;> simp [MPI_Request.test]
  · intro l h
    rcases master_block_faults a prob x0 ready fuel rval0 grad_r0 buf0 _ l h with h1 | h1
    · cases h1.1
    · cases h1.1
  · intro l h
    rcases master_block_faults a prob x0 ready fuel rval0 grad_r0 buf0 _ l h with h1 | h1
    · cases h1.1
    · cases h1.1
  · intro mF h
    by_cases hS : a.comm_size_ ≤ a.S_ + 1
    · rcases master_block_safe a prob x0 ready fuel rval0 grad_r0 buf0 hS with
        ⟨_, mF1, _, _, _, e4, _, e6⟩ | ⟨m, e1, _⟩
      · rw [h] at e4; cases e4; exact e6
      · rw [h] at e1; cases e1
    · have hb := master_begin_fail a (master_init rval0 grad_r0 buf0) (by omega)
      unfold master_block master_dispatch at h
      simp only [bind, Except.bind, hb] at h
      cases h
  · obtain ⟨w, hw, _⟩ := worker_run_never_fails a prob x0 readyw fuelw 0
      (worker_init a rec_val0 grad_acc0 rval0 grad_r0 inbox)
      ⟨fun _ => rfl, fun h => by simp [worker_init] at h⟩
    exact ⟨w, hw⟩

/-- C7. Configuration check.  If `S_ < comm_size_ - 1` the master fails the
assertion `S_ >= comm_size_ - 1` with nothing sent: its log is empty.  If
`S_ ≥ comm_size_ - 1`, then under every schedule and for every length of the
run no read `cont_idx[idx]`, by the initial sends or by the dispatch loop, is
out of range. -/
theorem configuration_check (a : hiopAlgPrimalDecomposition K n nc) (prob : RecourseProblem K nc)
    (x0 : Vec K nc) (ready : Nat → Nat → Bool) (fuel : Nat) (rval0 : K) (grad_r0 : Vec K nc)
    (buf0 : Nat → K × Vec K nc) (hP : 2 ≤ a.comm_size_) :
    (a.S_ + 1 < a.comm_size_ →
      master_begin a (master_init rval0 grad_r0 buf0) = .error (Fault.S_lt_workers, []) ∧
      master_block a prob x0 ready fuel (master_init rval0 grad_r0 buf0) =
        .error (Fault.S_lt_workers, [])) ∧
    (a.comm_size_ ≤ a.S_ + 1 →
      ∀ l, master_block a prob x0 ready fuel (master_init rval0 grad_r0 buf0) ≠
        .error (Fault.cont_idx_out_of_range, l)) := by
  refine ⟨?_, ?_⟩
  · intro hS
    have hb := master_begin_fail a (master_init rval0 grad_r0 buf0) hS
    refine ⟨hb, ?_⟩
    unfold master_block master_dispatch
    simp only [bind, Except.bind, hb]
    rfl
  · intro hS l h
    rcases master_block_faults a prob x0 ready fuel rval0 grad_r0 buf0 _ l h with h1 | h1
    · cases h1.1
    · cases h1.1

/-- Instances of `configuration_check`: `S_ = 2` with four ranks fails the
assertion, `S_ = 4` with four ranks has no read out of range. -/
theorem configuration_check_witness :
    (2 ≤ ex_alg_small.comm_size_ ∧ ex_alg_small.S_ + 1 < ex_alg_small.comm_size_ ∧
      master_block ex_alg_small ex_prob (fun _ => 0) ex_ready 20
        (master_init 5 (fun _ => 5) (fun _ => (0, fun _ => 0))) =
        .error (Fault.S_lt_workers, [])) ∧
    (2 ≤ ex_alg.comm_size_ ∧ ex_alg.comm_size_ ≤ ex_alg.S_ + 1 ∧
      ∀ l, master_block ex_alg ex_prob (fun _ => 0) ex_ready 20
        (master_init 5 (fun _ => 5) (fun _ => (0, fun _ => 0))) ≠
        .error (Fault.cont_idx_out_of_range, l)) :=
  have hP1 : 2 ≤ ex_alg_small.comm_size_ := by decide
  have hS1 : ex_alg_small.S_ + 1 < ex_alg_small.comm_size_ := by decide
  have hP2 : 2 ≤ ex_alg.comm_size_ := by decide
  have hS2 : ex_alg.comm_size_ ≤ ex_alg.S_ + 1 := by decide
  ⟨⟨hP1, hS1, ((configuration_check ex_alg_small ex_prob (fun _ => 0) ex_ready 20 5 (fun _ => 5)
      (fun _ => (0, fun _ => 0)) hP1).1 hS1).2⟩,
   ⟨hP2, hS2, (configuration_check ex_alg ex_prob (fun _ => 0) ex_ready 20 5 (fun _ => 5)
      (fun _ => (0, fun _ => 0)) hP2).2 hS2⟩⟩

end handle_claims

section aggregate_claims

variable {K : Type} [LinearOrderedField K] {n nc : Nat}

/-- The aggregate of `run_single()` written out: the means of `f_i(x0)` and of
`grad f_i(x0)` over `i < S_`. -/
theorem run_single_aggregate_means (a : hiopAlgPrimalDecomposition K n nc)
    (prob : RecourseProblem K nc) (x0 : Vec K nc) :
    run_single_aggregate a prob x0 =
      (((List.range a.S_).map (fun i : Nat => f_rterm prob x0 (Int.ofNat i))).sum / (a.S_ : K),
        scale ((List.range a.S_).map (fun i : Nat => grad_rterm prob x0 (Int.ofNat i))).sum
          (1 / (a.S_ : K))) := by
  rw [run_single_aggregate_eq, rtermSum_eq, List.map_map, List.map_map]
  rfl

/-- C1. Aggregation invariance of the full-asynchronous variant `run()`
(`accum_local` not `"yes"`), for every coupled point `x0`, `comm_size_ ≥ 2`,
`S_ ≥ comm_size_ - 1` and every schedule of the completions.  Whenever the
master leaves its dispatch loop, the sums `rval`, `grad_r` of the results it
has consumed, divided by `S_`, are the aggregate `run_single()` computes for
the same `x0`; that aggregate is `(1/S) sum_{i<S} f_i(x0)` and
`(1/S) sum_{i<S} grad f_i(x0)`; whenever the iteration delivers an aggregate
it is this one; and under a fair schedule it does deliver one. -/
theorem aggregation_invariance (a : hiopAlgPrimalDecomposition K n nc)
    (prob : RecourseProblem K nc) (x0 : Vec K nc) (ready : Nat → Nat → Bool) (rval0 : K)
    (grad_r0 : Vec K nc) (buf0 : Nat → K × Vec K nc)
    (prev : Nat → (K × Vec K nc) × (K × Vec K nc)) (hl : a.local_accum_ = false)
    (hP : 2 ≤ a.comm_size_) (hS : a.comm_size_ ≤ a.S_ + 1) :
    (∀ fuel m, master_dispatch a prob x0 ready fuel (master_init rval0 grad_r0 buf0) = .ok m →
      (m.rval / (a.S_ : K), scale m.grad_r (1 / (a.S_ : K))) = run_single_aggregate a prob x0) ∧
    run_single_aggregate a prob x0 =
      (((List.range a.S_).map (fun i : Nat => f_rterm prob x0 (Int.ofNat i))).sum / (a.S_ : K),
        scale ((List.range a.S_).map (fun i : Nat => grad_rterm prob x0 (Int.ofNat i))).sum
          (1 / (a.S_ : K))) ∧
    (∀ fuel res, dispatch_aggregate a prob x0 ready fuel (master_init rval0 grad_r0 buf0) prev =
        .ok res → res = run_single_aggregate a prob x0) ∧
    (Fair a ready → ∃ fuel,
      dispatch_aggregate a prob x0 ready fuel (master_init rval0 grad_r0 buf0) prev =
        .ok (run_single_aggregate a prob x0)) := by
  obtain ⟨h1, h2⟩ := dispatch_aggregate_spec a prob x0 ready rval0 grad_r0 buf0 prev hP hS
  refine ⟨?_, run_single_aggregate_means a prob x0, h1, h2⟩
  intro fuel m hm
  obtain ⟨hinv, hc⟩ := master_dispatch_ok_exit a prob x0 ready fuel rval0 grad_r0 buf0 hS m hm
  obtain ⟨_, _, _, hacc, _, _⟩ := master_exit a prob x0 m hinv hc
  rw [hl] at hacc
  simp only [Bool.false_eq_true, if_false] at hacc
  rw [run_single_aggregate_eq, ← hacc]

/-- The scenario `S = 4`, `f_i(x) = (x - i)^2`, one coupled variable, three
evaluators, `x0 = 0`: whatever the schedule delivers is the aggregate of
`run_single()`, which is `rval = 7/2`, `grad_r = -3`; with 20 passes allowed
an aggregate is delivered. -/
theorem aggregation_invariance_witness :
    ex_alg.local_accum_ = false ∧ 2 ≤ ex_alg.comm_size_ ∧ ex_alg.comm_size_ ≤ ex_alg.S_ + 1 ∧
    (∀ fuel res, dispatch_aggregate ex_alg ex_prob (fun _ => 0) ex_ready fuel
        (master_init 5 (fun _ => 5) (fun _ => (0, fun _ => 0)))
        (fun _ => ((7, fun _ => 7), (7, fun _ => 7))) = .ok res →
      res = run_single_aggregate ex_alg ex_prob (fun _ => 0)) ∧
    (dispatch_aggregate ex_alg ex_prob (fun _ => 0) ex_ready 20
        (master_init 5 (fun _ => 5) (fun _ => (0, fun _ => 0)))
        (fun _ => ((7, fun _ => 7), (7, fun _ => 7)))).toBool = true ∧
    (run_single_aggregate ex_alg ex_prob (fun _ => 0)).1 = 7 / 2 ∧
    (run_single_aggregate ex_alg ex_prob (fun _ => 0)).2 0 = -3 := by
  have hl : ex_alg.local_accum_ = false := rfl
  have hP : 2 ≤ ex_alg.comm_size_ := by decide
  have hS : ex_alg.comm_size_ ≤ ex_alg.S_ + 1 := by decide
  refine ⟨hl, hP, hS, (aggregation_invariance ex_alg ex_prob (fun _ => 0) ex_ready 5 (fun _ => 5)
    (fun _ => (0, fun _ => 0)) (fun _ => ((7, fun _ => 7), (7, fun _ => 7))) hl hP hS).2.2.1,
    rfl, ?_, ?_⟩
  · norm_num [run_single_aggregate, cont_idx, ex_alg, ex_prob, List.range, List.range.loop]
  · norm_num [run_single_aggregate, cont_idx, ex_alg, ex_prob, List.range, List.range.loop, scale,
      axpy, setToZero]

/-- C3. Local-accumulation variant `run_local()` (`accum_local` is `"yes"`),
with `comm_size_ ≥ 2`, `S_ ≥ comm_size_ - 1`, in any outer iteration (the
accumulators holding anything on entry) and under every schedule.  Every
rank's `rval`, `grad_r` are zero at the start of the iteration.  The master's
are still zero at the reduction: the assertions `rval == 0`,
`grad_r_vec[i] == 0.` never fail.  Every evaluator has left its loop by then,
having evaluated exactly the indices it was sent, and its `rval`, `grad_r` are
the sums of `f_i(x0)` and `grad f_i(x0)` over them.  The reduced sums divided
by `S_` are the aggregate of `run_single()` for the same `x0`, and under a fair
schedule the iteration delivers it. -/
theorem local_accumulation (a : hiopAlgPrimalDecomposition K n nc) (prob : RecourseProblem K nc)
    (x0 : Vec K nc) (ready : Nat → Nat → Bool) (rval0 : K) (grad_r0 : Vec K nc)
    (buf0 : Nat → K × Vec K nc) (prev : Nat → (K × Vec K nc) × (K × Vec K nc))
    (hl : a.local_accum_ = true) (hP : 2 ≤ a.comm_size_) (hS : a.comm_size_ ≤ a.S_ + 1) :
    ((master_at_loop a buf0).rval = 0 ∧ (master_at_loop a buf0).grad_r = 0 ∧
      master_begin a (master_init rval0 grad_r0 buf0) = .ok (master_at_loop a buf0) ∧
      ∀ r inbox, (worker_init a (prev r).1.1 (prev r).1.2 (prev r).2.1 (prev r).2.2 inbox).rval = 0 ∧
        (worker_init a (prev r).1.1 (prev r).1.2 (prev r).2.1 (prev r).2.2 inbox).grad_r = 0) ∧
    (∀ fuel, (∀ l, master_block a prob x0 ready fuel (master_init rval0 grad_r0 buf0) ≠
        .error (Fault.accumulator_not_zero, l)) ∧
      ∀ mF, master_block a prob x0 ready fuel (master_init rval0 grad_r0 buf0) = .ok mF →
        mF.rval = 0 ∧ ∀ i, mF.grad_r i = 0) ∧
    (∀ fuel m m2, master_dispatch a prob x0 ready fuel (master_init rval0 grad_r0 buf0) = .ok m →
      master_end a m = .ok m2 → ∀ r ∈ ranks a,
        ∃ w, worker_final a prob x0 prev m2 r = .ok w ∧ w.phase = .exited ∧
          m2.inbox r = w.evaluated ++ [-1] ∧
          w.rval = (w.evaluated.map (f_rterm prob x0)).sum ∧
          w.grad_r = (w.evaluated.map (grad_rterm prob x0)).sum) ∧
    (∀ fuel res, dispatch_aggregate a prob x0 ready fuel (master_init rval0 grad_r0 buf0) prev =
        .ok res → res = run_single_aggregate a prob x0) ∧
    (Fair a ready → ∃ fuel,
      dispatch_aggregate a prob x0 ready fuel (master_init rval0 grad_r0 buf0) prev =
        .ok (run_single_aggregate a prob x0)) := by
  obtain ⟨h1, h2⟩ := dispatch_aggregate_spec a prob x0 ready rval0 grad_r0 buf0 prev hP hS
  refine ⟨⟨rfl, rfl, master_begin_eq a rval0 grad_r0 buf0 hS, ?_⟩, ?_, ?_, h1, h2⟩
  · intro r inbox
    simp [worker_init, hl, setToZero_eq]
  · intro fuel
    constructor
    · intro l h
      rcases master_block_faults a prob x0 ready fuel rval0 grad_r0 buf0 _ l h with h1 | h1
      · cases h1.1
      · cases h1.1
    · intro mF h
      rcases master_dispatch_safe a prob x0 ready fuel rval0 grad_r0 buf0 hS with
        ⟨m, e1, e2, e3⟩ | ⟨m, e1, _⟩
      · obtain ⟨mF1, k1, _, _, k4⟩ := master_block_of_dispatch a prob x0 ready fuel _ m e1 e2 e3
        rw [h] at k1
        cases k1
        exact k4 hl
      · unfold master_block at h
        simp only [bind, Except.bind, e1] at h
        cases h
  · intro fuel m m2 hm hend r hr
    obtain ⟨hinv, hc⟩ := master_dispatch_ok_exit a prob x0 ready fuel rval0 grad_r0 buf0 hS m hm
    obtain ⟨hall, _, _, _, _, _⟩ := master_exit a prob x0 m hinv hc
    obtain ⟨m2a, g1, _, _, _, g5, _⟩ := master_end_ok a m
    rw [hend] at g1
    cases g1
    have hin : m2.inbox r = m.inbox r ++ [-1] := by rw [g5 r, if_pos hr]
    obtain ⟨w, e1, e2, e3, e4, e5, e6, e7, e8⟩ := worker_final_ok a prob x0 prev m m2 r hin
      (hall r hr).2.2.2.1 (hall r hr).2.2.2.2
    rw [hl] at e7 e8
    simp only [if_true] at e7 e8
    exact ⟨w, e1, e2, by rw [hin, e5], by rw [e5]; exact e7, by rw [e5]; exact e8⟩

/-- Instance of `local_accumulation`: `S_ = 4`, four ranks, local
accumulation; with 20 passes allowed an aggregate is delivered. -/
theorem local_accumulation_witness :
    ex_alg_local.local_accum_ = true ∧ 2 ≤ ex_alg_local.comm_size_ ∧
    ex_alg_local.comm_size_ ≤ ex_alg_local.S_ + 1 ∧
    (∀ fuel res, dispatch_aggregate ex_alg_local ex_prob (fun _ => 0)
        ex_ready fuel (master_init 5 (fun _ => 5) (fun _ => (0, fun _ => 0)))
        (fun _ => ((7, fun _ => 7), (7, fun _ => 7))) = .ok res →
      res = run_single_aggregate ex_alg_local ex_prob (fun _ => 0)) ∧
    (dispatch_aggregate ex_alg_local ex_prob (fun _ => 0) ex_ready 20
        (master_init 5 (fun _ => 5) (fun _ => (0, fun _ => 0)))
        (fun _ => ((7, fun _ => 7), (7, fun _ => 7)))).toBool = true :=
  have hl : ex_alg_local.local_accum_ = true := rfl
  have hP : 2 ≤ ex_alg_local.comm_size_ := by decide
  have hS : ex_alg_local.comm_size_ ≤ ex_alg_local.S_ + 1 := by decide
  ⟨hl, hP, hS, (local_accumulation ex_alg_local ex_prob (fun _ => 0)
    ex_ready 5 (fun _ => 5) (fun _ => (0, fun _ => 0))
    (fun _ => ((7, fun _ => 7), (7, fun _ => 7))) hl hP hS).2.2.2.1, rfl⟩

end aggregate_claims

/-! ## The outer loop -/

section outer_lemmas

variable {K : Type} [LinearOrderedField K] {σ : Type} {n nc : Nat}

/-- The `bool` of `stopping_criteria` is the disjunction of its three tests. -/
theorem stopping_criteria_true (a : hiopAlgPrimalDecomposition K n nc) (it : Int) (convg : K)
    (accp_count : Int) :
    (a.stopping_criteria it convg accp_count).1 = true ↔
      convg < a.tol_ ∨ it = a.max_iter_ - 1 ∨ accp_count = a.accp_count_ := by
  unfold hiopAlgPrimalDecomposition.stopping_criteria
  split_ifs with h1 h2 h3 <;> simp [*]

/-- One more metric at the end of the list: the streak grows by one if the
metric is within the tolerance and falls to zero otherwise. -/
theorem streak_append (tol : K) (cs : List K) (c : K) :
    streak tol (cs ++ [c]) = if c ≤ tol then streak tol cs + 1 else 0 := by
  unfold streak
  rw [List.reverse_append, List.reverse_singleton, List.singleton_append]
  by_cases h : c ≤ tol
  · rw [List.takeWhile_cons_of_pos (by simpa using h), if_pos h, List.length_cons]
  · rw [List.takeWhile_cons_of_neg (by simpa using h), if_neg h, List.length_nil]

theorem streak_nil (tol : K) : streak tol [] = 0 := rfl

/-- The streak is at most the number of metrics. -/
theorem streak_le_length (tol : K) (cs : List K) : streak tol cs ≤ cs.length := by
  unfold streak
  exact (List.takeWhile_sublist _).length_le.trans (by rw [List.length_reverse])

/-- A loop whose body keeps `I` while it goes on and establishes `Q` when it
breaks ends in `Q` at some iteration, or has made all `k` iterations and is in
`I`. -/
theorem outer_loop_inv {D : Type} (step : Nat → D → Except RunFault (D × Bool))
    (I Q : Nat → D → Prop)
    (hstep : ∀ it d d1 b, I it d → step it d = .ok (d1, b) →
      (b = false → I (it + 1) d1) ∧ (b = true → Q it d1)) :
    ∀ (k it : Nat) (d dF : D), I it d → outer_loop step k it d = .ok dF →
      (∃ j, it ≤ j ∧ j < it + k ∧ Q j dF) ∨ I (it + k) dF := by
  intro k
  induction k with
  | zero =>
    intro it d dF hI h
    simp only [outer_loop] at h
    cases h
    exact Or.inr hI
  | succ k ih =>
    intro it d dF hI h
    unfold outer_loop at h
    cases hs : step it d with
    | error e => rw [hs] at h; cases h
    | ok v =>
      obtain ⟨d1, b⟩ := v
      rw [hs] at h
      cases b with
      | true =>
        simp only at h
        cases h
        exact Or.inl ⟨it, le_refl _, by omega, (hstep it d _ true hI hs).2 rfl⟩
      | false =>
        simp only at h
        rcases ih (it + 1) d1 dF ((hstep it d d1 false hI hs).1 rfl) h with ⟨j, h1, h2, h3⟩ | h4
        · exact Or.inl ⟨j, by omega, by omega, h3⟩
        · exact Or.inr (by rw [show it + (k + 1) = it + 1 + k by omega]; exact h4)

/-- Two bodies that agree from iteration `it` on give the same loop. -/
theorem outer_loop_congr {D : Type} (step step1 : Nat → D → Except RunFault (D × Bool)) :
    ∀ (k it : Nat) (d : D), (∀ j d, it ≤ j → step j d = step1 j d) →
      outer_loop step k it d = outer_loop step1 k it d := by
  intro k
  induction k with
  | zero => intro it d _; rfl
  | succ k ih =>
    intro it d h
    unfold outer_loop
    rw [h it d (le_refl _)]
    cases hs : step1 it d with
    | error e => rfl
    | ok v =>
      obtain ⟨d1, b⟩ := v
      cases b with
      | true => rfl
      | false =>
        exact ih (it + 1) d1 (fun j d hj => h j d (by omega))

/-- What the tail of an outer iteration leaves: one more record, sound and
numbered `it`, the count updated from the metric, and `end_signal`, the
broadcasts and `it_` untouched. -/
theorem model_and_solve_spec (sqrt : K → K) (a : hiopAlgPrimalDecomposition K n nc)
    (p : hiopInterfacePriDecProblem K σ n nc) (c0 : K) (it : Nat) (d : Driver K σ n nc) :
    ∃ r : IterRecord K nc, (model_and_solve sqrt a p c0 it d).1.trace = d.trace ++ [r] ∧
      r.it = it ∧ r.Sound sqrt a ∧
      r.sc_accp_count = (if r.sc_convg ≤ a.accp_tol_ then d.accp_count + 1 else 0) ∧
      (model_and_solve sqrt a p c0 it d).1.accp_count = r.sc_accp_count ∧
      (model_and_solve sqrt a p c0 it d).2 = r.stop ∧
      (model_and_solve sqrt a p c0 it d).1.end_signal = d.end_signal ∧
      (model_and_solve sqrt a p c0 it d).1.bcasts = d.bcasts ∧
      (model_and_solve sqrt a p c0 it d).1.it_ = d.it_ ∧
      r.inp.rval = d.rval ∧ r.inp.grad_r = d.grad_r ∧ r.inp.x0 = d.x0 ∧
      (it = 0 → r.sc_convg = d.vars.convg) :=
  ⟨_, rfl, rfl, ⟨rfl, ⟨d.hess_appx_2, _, rfl, rfl, rfl⟩, rfl, rfl, rfl⟩, rfl, rfl, rfl, rfl, rfl,
    rfl, rfl, rfl, rfl, fun h => by subst h; rfl⟩

/-- The head of an outer iteration touches neither the trace, the count,
`end_signal` nor the broadcasts, and leaves `it_ = it`. -/
theorem initial_solve_frame (p : hiopInterfacePriDecProblem K σ n nc) (it : Nat)
    (d : Driver K σ n nc) :
    (initial_solve p it d).trace = d.trace ∧ (initial_solve p it d).accp_count = d.accp_count ∧
    (initial_solve p it d).end_signal = d.end_signal ∧
    (initial_solve p it d).bcasts = d.bcasts ∧ (initial_solve p it d).it_ = (it : Int) ∧
    (initial_solve p it d).hess_appx_2 = d.hess_appx_2 ∧
    (initial_solve p it d).vars.convg = d.vars.convg := by
  unfold initial_solve
  split_ifs <;> exact ⟨rfl, rfl, rfl, rfl, rfl, rfl, rfl⟩

/-- The body of the outer loop of `run_single()` meets `StepSpec`. -/
theorem run_single_iteration_spec (sqrt : K → K) (a : hiopAlgPrimalDecomposition K n nc)
    (p : hiopInterfacePriDecProblem K σ n nc) :
    StepSpec sqrt a (run_single_iteration sqrt a p) := by
  intro it d d1 b he h
  unfold run_single_iteration at h
  obtain ⟨f1, f2, f3, f4, f5, _, f7⟩ := initial_solve_frame p it d
  cases hc : a.coupled_point (initial_solve p it d).x_ with
  | none => simp only [hc] at h; cases h
  | some x0 =>
    simp only [hc] at h
    injection h with h
    obtain ⟨r, g1, g2, g3, g4, g5, g6, g7, g8, g9, _, _, _, g13⟩ :=
      model_and_solve_spec sqrt a p (10 ^ 6) it
      { initial_solve p it d with
        rval := (run_single_aggregate a p.rterms x0).1,
        grad_r := (run_single_aggregate a p.rterms x0).2, x0 := x0,
        recourse_val := (run_single_aggregate a p.rterms x0).1 }
    rw [h] at g1 g5 g6 g7 g9
    simp only at g1 g5 g6 g7 g9
    refine ⟨r, ?_, g2, g3, ?_, g5, g6, ?_, ?_, ?_⟩
    · rw [g1, f1]
    · rw [g4]; simp only [f2]
    · rw [g9]; exact f5
    · intro _; rw [g7, f3, he]
    · intro h0; exact (g13 h0).trans f7

/-- The body of the outer loop of rank 0 in `run()` and `run_local()`, entered
with `end_signal = 0`: the record it adds, and the pair it broadcasts, `x_`
as the head of the iteration left it and `end_signal`, which is `1` if
`stopping_criteria` returned `true` and `0` otherwise. -/
theorem run_master_iteration_core (sqrt : K → K) (a : hiopAlgPrimalDecomposition K n nc)
    (p : hiopInterfacePriDecProblem K σ n nc) (sched : Schedule K nc) (it : Nat)
    (d d1 : Driver K σ n nc) (b : Bool) (he : d.end_signal = 0)
    (h : run_master_iteration sqrt a p sched it d = .ok (d1, b)) :
    ∃ r : IterRecord K nc, d1.trace = d.trace ++ [r] ∧ r.it = it ∧ r.Sound sqrt a ∧
      r.sc_accp_count = (if r.sc_convg ≤ a.accp_tol_ then d.accp_count + 1 else 0) ∧
      d1.accp_count = r.sc_accp_count ∧ b = r.stop ∧ d1.it_ = (it : Int) ∧
      (b = false → d1.end_signal = 0) ∧
      (it = 0 → r.sc_convg = d.vars.convg) ∧
      d1.end_signal = (if r.stop = true then 1 else 0) ∧
      d1.bcasts = d.bcasts ++ [((initial_solve p it d).x_, if r.stop = true then 1 else 0)] := by
  unfold run_master_iteration at h
  obtain ⟨f1, f2, f3, f4, f5, _, f7⟩ := initial_solve_frame p it d
  cases hc : a.coupled_point (initial_solve p it d).x_ with
  | none => simp only [hc] at h; cases h
  | some x0 =>
    simp only [hc] at h
    cases hd : dispatch_aggregate a p.rterms x0 (sched.ready it) (sched.fuel it)
        (master_init (initial_solve p it d).rval (initial_solve p it d).grad_r (sched.buf0 it))
        (sched.prev it) with
    | error e => rw [hd] at h; cases h
    | ok agg =>
      rw [hd] at h
      simp only at h
      injection h with h
      let d0 : Driver K σ n nc :=
        { initial_solve p it d with
          rval := agg.1, grad_r := agg.2, x0 := x0,
          recourse_val := if a.local_accum_ then (initial_solve p it d).recourse_val else agg.1 }
      obtain ⟨r, g1, g2, g3, g4, g5, g6, g7, g8, g9, _, _, _, g13⟩ :=
        model_and_solve_spec sqrt a p 1 it d0
      have g7a := g7.trans (f3.trans he)
      have g4a : r.sc_accp_count =
          if r.sc_convg ≤ a.accp_tol_ then (initial_solve p it d).accp_count + 1 else 0 := g4
      rw [f2] at g4a
      injection h with h1 h2
      subst h1
      have hbs : b = r.stop := by
        rw [← h2, g6, g7a]
        cases r.stop <;> simp
      have hes : (if (model_and_solve sqrt a p 1 it d0).2 = true then (1 : Int)
          else (model_and_solve sqrt a p 1 it d0).1.end_signal) =
          (if r.stop = true then 1 else 0) := by
        rw [g6, g7a]
      refine ⟨r, ?_, g2, g3, g4a, g5, hbs, g9.trans f5, ?_, fun h0 => (g13 h0).trans f7, hes, ?_⟩
      · rw [← f1]
        exact g1
      · intro hf
        have hr : r.stop = false := by rw [← hbs, hf]
        show (if (model_and_solve sqrt a p 1 it d0).2 = true then (1 : Int)
          else (model_and_solve sqrt a p 1 it d0).1.end_signal) = 0
        rw [hes, hr]
        simp
      · show (model_and_solve sqrt a p 1 it d0).1.bcasts ++
          [((initial_solve p it d).x_,
            if (model_and_solve sqrt a p 1 it d0).2 = true then (1 : Int)
            else (model_and_solve sqrt a p 1 it d0).1.end_signal)] = _
        rw [g8, hes]
        show (initial_solve p it d).bcasts ++ _ = _
        rw [f4]

/-- The body of the outer loop of rank 0 in `run()` and `run_local()` meets
`StepSpec`. -/
theorem run_master_iteration_spec (sqrt : K → K) (a : hiopAlgPrimalDecomposition K n nc)
    (p : hiopInterfacePriDecProblem K σ n nc) (sched : Schedule K nc) :
    StepSpec sqrt a (run_master_iteration sqrt a p sched) := by
  intro it d d1 b he h
  obtain ⟨r, g1, g2, g3, g4, g5, g6, g7, g8, g9, _, _⟩ :=
    run_master_iteration_core sqrt a p sched it d d1 b he h
  exact ⟨r, g1, g2, g3, g4, g5, g6, g7, g8, g9⟩

end outer_lemmas

section trace_lemmas

variable {K : Type} [LinearOrderedField K] {σ : Type} {n nc : Nat}

/-- A well-formed trace stays well-formed when the record of the next
iteration is added. -/
theorem traceOK_append (sqrt : K → K) (a : hiopAlgPrimalDecomposition K n nc)
    (tr : List (IterRecord K nc)) (r : IterRecord K nc) (h : TraceOK sqrt a tr)
    (h1 : r.it = tr.length) (h2 : r.Sound sqrt a)
    (h3 : r.sc_accp_count =
      ((streak a.accp_tol_ ((tr ++ [r]).map (fun r => r.sc_convg)) : Nat) : Int)) :
    TraceOK sqrt a (tr ++ [r]) := by
  intro k r1 hk
  rcases Nat.lt_trichotomy k tr.length with hlt | heq | hgt
  · rw [List.getElem?_append_left hlt] at hk
    obtain ⟨e1, e2, e3⟩ := h k r1 hk
    refine ⟨e1, e2, ?_⟩
    rw [e3, List.take_append_of_le_length (by omega)]
  · subst heq
    rw [List.getElem?_append_right (le_refl _), Nat.sub_self, List.getElem?_cons_zero] at hk
    cases hk
    refine ⟨h1, h2, ?_⟩
    rw [h3, List.take_of_length_le (by rw [List.length_append, List.length_singleton])]
  · rw [List.getElem?_eq_none (by rw [List.length_append, List.length_singleton]; omega)] at hk
    cases hk

/-- A body that meets `StepSpec` keeps the loop invariant while the loop goes
on and establishes the end condition when it breaks. -/
theorem step_keeps_inv (sqrt : K → K) (a : hiopAlgPrimalDecomposition K n nc)
    (step : Nat → Driver K σ n nc → Except RunFault (Driver K σ n nc × Bool))
    (hs : StepSpec sqrt a step) (it : Nat) (d d1 : Driver K σ n nc) (b : Bool)
    (hI : LoopInv sqrt a it d) (h : step it d = .ok (d1, b)) :
    (b = false → LoopInv sqrt a (it + 1) d1) ∧ (b = true → LoopEnd sqrt a it d1) := by
  obtain ⟨i1, i2, i3, i4, i5⟩ := hI
  obtain ⟨r, g1, g2, g3, g4, g5, g6, g7, g8, _⟩ := hs it d d1 b i5 h
  have hcount : r.sc_accp_count =
      ((streak a.accp_tol_ ((d.trace ++ [r]).map (fun r => r.sc_convg)) : Nat) : Int) := by
    rw [g4, List.map_append, List.map_singleton, streak_append, i4]
    split_ifs <;> simp
  have hok : TraceOK sqrt a d1.trace := by
    rw [g1]
    exact traceOK_append sqrt a d.trace r i1 (by rw [g2, i2]) g3 hcount
  constructor
  · intro hb
    refine ⟨hok, by rw [g1, List.length_append, List.length_singleton, i2], ?_, ?_, g8 hb⟩
    · intro r1 hr1
      rw [g1, List.mem_append, List.mem_singleton] at hr1
      rcases hr1 with hr1 | hr1
      · exact i3 r1 hr1
      · rw [hr1, ← g6, hb]
    · rw [g5, hcount, g1]
  · intro hb
    refine ⟨hok, by rw [g1, List.length_append, List.length_singleton, i2], g7, ?_⟩
    intro k r1 hk
    rw [g1] at hk
    rcases Nat.lt_trichotomy k d.trace.length with hlt | heq | hgt
    · rw [List.getElem?_append_left hlt] at hk
      have := i3 r1 (List.getElem?_mem hk)
      rw [this]
      constructor
      · intro hf; cases hf
      · intro hf; omega
    · rw [heq, List.getElem?_append_right (le_refl _), Nat.sub_self,
        List.getElem?_cons_zero] at hk
      cases hk
      rw [← g6, hb, heq, i2]
      simp
    · rw [List.getElem?_eq_none (by rw [List.length_append, List.length_singleton]; omega)] at hk
      cases hk

/-- The outer loop, started with an empty trace, a zero count and a zero
`end_signal`: the trace is well-formed; with `max_iter_ ≤ 0` no iteration is
made, and otherwise the loop is left in an iteration `j < max_iter_`, the first
and only one whose call of `stopping_criteria` returns `true`. -/
theorem outer_loop_trace (sqrt : K → K) (a : hiopAlgPrimalDecomposition K n nc)
    (step : Nat → Driver K σ n nc → Except RunFault (Driver K σ n nc × Bool))
    (hs : StepSpec sqrt a step) (d0 dF : Driver K σ n nc)
    (h0 : d0.trace = [] ∧ d0.accp_count = 0 ∧ d0.end_signal = 0)
    (h : outer_loop step a.max_iter_.toNat 0 d0 = .ok dF) :
    TraceOK sqrt a dF.trace ∧
    ((a.max_iter_ ≤ 0 ∧ dF = d0) ∨
      (∃ j : Nat, (j : Int) < a.max_iter_ ∧ LoopEnd sqrt a j dF)) := by
  have hI0 : LoopInv sqrt a 0 d0 := by
    refine ⟨?_, by rw [h0.1]; rfl, ?_, ?_, h0.2.2⟩
    · intro k r hk
      rw [h0.1] at hk
      cases hk
    · intro r hr
      rw [h0.1] at hr
      cases hr
    · rw [h0.2.1, h0.1]
      rfl
  rcases outer_loop_inv step (LoopInv sqrt a) (LoopEnd sqrt a)
      (fun it d d1 b hI hst => step_keeps_inv sqrt a step hs it d d1 b hI hst)
      a.max_iter_.toNat 0 d0 dF hI0 h with ⟨j, _, h2, h3⟩ | h4
  · exact ⟨h3.1, Or.inr ⟨j, by omega, h3⟩⟩
  · rw [Nat.zero_add] at h4
    obtain ⟨i1, i2, i3, _, _⟩ := h4
    refine ⟨i1, Or.inl ?_⟩
    by_cases hM : a.max_iter_ ≤ 0
    · refine ⟨hM, ?_⟩
      have : a.max_iter_.toNat = 0 := by omega
      rw [this] at h
      simp only [outer_loop] at h
      cases h
      rfl
    · exfalso
      have hlen : a.max_iter_.toNat - 1 < dF.trace.length := by omega
      obtain ⟨e1, ⟨e2, _, _, e5, _⟩, _⟩ := i1 (a.max_iter_.toNat - 1) _ (List.getElem?_eq_getElem hlen)
      have hst := i3 _ (List.getElem_mem hlen)
      rw [e5] at hst
      have : (a.stopping_criteria (dF.trace[a.max_iter_.toNat - 1]).sc_it
          (dF.trace[a.max_iter_.toNat - 1]).sc_convg
          (dF.trace[a.max_iter_.toNat - 1]).sc_accp_count).1 = true := by
        rw [stopping_criteria_true]
        refine Or.inr (Or.inl ?_)
        rw [e2, e1]
        omega
      rw [this] at hst
      cases hst

end trace_lemmas

section run_lemmas

variable {K : Type} [LinearOrderedField K] {σ : Type} {n nc : Nat}

/-- `stopping_criteria` reads `tol_`, `max_iter_` and `accp_count_` only. -/
theorem stopping_criteria_congr (a a1 : hiopAlgPrimalDecomposition K n nc)
    (h1 : a1.tol_ = a.tol_) (h2 : a1.max_iter_ = a.max_iter_)
    (h3 : a1.accp_count_ = a.accp_count_) (it : Int) (convg : K) (accp_count : Int) :
    a1.stopping_criteria it convg accp_count = a.stopping_criteria it convg accp_count := by
  unfold hiopAlgPrimalDecomposition.stopping_criteria
  rw [h1, h2, h3]

/-- A trace that is well-formed for one driver object is well-formed for
every other with the same tolerances and counts. -/
theorem traceOK_congr (sqrt : K → K) (a a1 : hiopAlgPrimalDecomposition K n nc)
    (h1 : a1.tol_ = a.tol_) (h2 : a1.max_iter_ = a.max_iter_)
    (h3 : a1.accp_count_ = a.accp_count_) (h4 : a1.accp_tol_ = a.accp_tol_)
    (tr : List (IterRecord K nc)) (h : TraceOK sqrt a1 tr) : TraceOK sqrt a tr := by
  intro k r hk
  obtain ⟨e1, ⟨s1, s2, s3, s4, s5⟩, e3⟩ := h k r hk
  rw [stopping_criteria_congr a a1 h1 h2 h3] at s4 s5
  rw [h4] at e3
  exact ⟨e1, ⟨s1, s2, s3, s4, s5⟩, e3⟩

/-- The trace of `run_single()`. -/
theorem run_single_trace (sqrt : K → K) (a : hiopAlgPrimalDecomposition K n nc)
    (p : hiopInterfacePriDecProblem K σ n nc) (decl : HessianApprox K nc) (u : Uninit K nc)
    (s0 : σ) (st : hiopSolveStatus) (d : Driver K σ n nc)
    (h : run_single sqrt a p decl u s0 = .ok (st, d)) :
    st = Solve_Success ∧ TraceOK sqrt a d.trace ∧
    ((a.max_iter_ ≤ 0 ∧ d = run_single_init a decl u s0) ∨
      (∃ j : Nat, (j : Int) < a.max_iter_ ∧ LoopEnd sqrt a j d)) := by
  unfold run_single at h
  cases hl : outer_loop (run_single_iteration sqrt a p) a.max_iter_.toNat 0
      (run_single_init a decl u s0) with
  | error e => rw [hl] at h; cases h
  | ok dF =>
    rw [hl] at h
    cases h
    exact ⟨rfl, outer_loop_trace sqrt a _ (run_single_iteration_spec sqrt a p) _ _
      ⟨rfl, rfl, rfl⟩ hl⟩

/-- The trace of rank 0 in the part of `run()`, `run_local()` for more than
one rank. -/
theorem run_master_trace (sqrt : K → K) (a : hiopAlgPrimalDecomposition K n nc)
    (p : hiopInterfacePriDecProblem K σ n nc) (decl : HessianApprox K nc) (u : Uninit K nc)
    (s0 : σ) (sched : Schedule K nc) (st : hiopSolveStatus) (d : Driver K σ n nc)
    (h : run_master sqrt a p decl u s0 sched = .ok (st, d)) :
    st = d.solver_status_ ∧ TraceOK sqrt a d.trace ∧
    ((a.max_iter_ ≤ 0 ∧ d = run_master_init a decl u s0) ∨
      (∃ j : Nat, (j : Int) < a.max_iter_ ∧ LoopEnd sqrt a j d)) := by
  unfold run_master at h
  cases hl : outer_loop (run_master_iteration sqrt a p sched) a.max_iter_.toNat 0
      (run_master_init a decl u s0) with
  | error e => rw [hl] at h; cases h
  | ok dF =>
    rw [hl] at h
    cases h
    exact ⟨rfl, outer_loop_trace sqrt a _ (run_master_iteration_spec sqrt a p sched) _ _
      ⟨rfl, rfl, rfl⟩ hl⟩

/-- The four ways through `run()`. -/
theorem run_cases (sqrt : K → K) (a : hiopAlgPrimalDecomposition K n nc)
    (p : hiopInterfacePriDecProblem K σ n nc) (decl : HessianApprox K nc) (u : Uninit K nc)
    (s0 : σ) (sched : Schedule K nc) (bc : List (Vec K n × Int)) :
    (a.local_accum_ = true →
      run sqrt a p decl u s0 sched bc = run_local sqrt a p decl u s0 sched bc) ∧
    (a.local_accum_ = false → a.comm_size_ = 1 →
      run sqrt a p decl u s0 sched bc = .solver (run_single sqrt a p decl u s0)) ∧
    (a.local_accum_ = false → a.comm_size_ ≠ 1 → a.my_rank_ = 0 →
      run sqrt a p decl u s0 sched bc = .solver (run_master sqrt a p decl u s0 sched)) ∧
    (a.local_accum_ = false → a.comm_size_ ≠ 1 → a.my_rank_ ≠ 0 →
      run sqrt a p decl u s0 sched bc = .evaluator (run_evaluator a bc)) := by
  refine ⟨?_, ?_, ?_, ?_⟩
  · intro c0
    unfold run
    rw [if_pos c0]
  · intro c0 c1
    unfold run
    rw [if_neg (by rw [c0]; decide), if_pos c1]
  · intro c0 c1 c2
    unfold run
    rw [if_neg (by rw [c0]; decide), if_neg c1, if_pos c2]
  · intro c0 c1 c2
    unfold run
    rw [if_neg (by rw [c0]; decide), if_neg c1, if_neg c2]

/-- The three ways through `run_local()`. -/
theorem run_local_cases (sqrt : K → K) (a : hiopAlgPrimalDecomposition K n nc)
    (p : hiopInterfacePriDecProblem K σ n nc) (decl : HessianApprox K nc) (u : Uninit K nc)
    (s0 : σ) (sched : Schedule K nc) (bc : List (Vec K n × Int)) :
    (a.comm_size_ = 1 →
      run_local sqrt a p decl u s0 sched bc = .solver (run_single sqrt a p decl u s0)) ∧
    (a.comm_size_ ≠ 1 → a.my_rank_ = 0 →
      run_local sqrt a p decl u s0 sched bc =
        .solver (run_master sqrt { a with local_accum_ := true } p decl u s0 sched)) ∧
    (a.comm_size_ ≠ 1 → a.my_rank_ ≠ 0 →
      run_local sqrt a p decl u s0 sched bc = .evaluator (run_evaluator a bc)) := by
  refine ⟨?_, ?_, ?_⟩
  · intro c1
    unfold run_local
    rw [if_pos c1]
  · intro c1 c2
    unfold run_local
    rw [if_neg c1, if_pos c2]
  · intro c1 c2
    unfold run_local
    rw [if_neg c1, if_neg c2]

/-- Whatever entry point the solving rank came through, `run()`,
`run_local()` or `run_single()`, its trace is well-formed, and either no
iteration was made (`max_iter_ ≤ 0`) or the loop was left in the first
iteration whose call of `stopping_criteria` returned `true`. -/
theorem solver_trace (sqrt : K → K) (a : hiopAlgPrimalDecomposition K n nc)
    (p : hiopInterfacePriDecProblem K σ n nc) (decl : HessianApprox K nc) (u : Uninit K nc)
    (s0 : σ) (sched : Schedule K nc) (bc : List (Vec K n × Int)) (st : hiopSolveStatus)
    (d : Driver K σ n nc)
    (h : run sqrt a p decl u s0 sched bc = .solver (.ok (st, d)) ∨
         run_local sqrt a p decl u s0 sched bc = .solver (.ok (st, d)) ∨
         run_single sqrt a p decl u s0 = .ok (st, d)) :
    TraceOK sqrt a d.trace ∧
    ((a.max_iter_ ≤ 0 ∧ d.trace = []) ∨
      (∃ j : Nat, (j : Int) < a.max_iter_ ∧ LoopEnd sqrt a j d)) := by
  have hsingle : ∀ st d, run_single sqrt a p decl u s0 = .ok (st, d) →
      TraceOK sqrt a d.trace ∧ ((a.max_iter_ ≤ 0 ∧ d.trace = []) ∨
        (∃ j : Nat, (j : Int) < a.max_iter_ ∧ LoopEnd sqrt a j d)) := by
    intro st d h
    obtain ⟨_, h2, h3⟩ := run_single_trace sqrt a p decl u s0 st d h
    refine ⟨h2, ?_⟩
    rcases h3 with ⟨h4, h5⟩ | h6
    · exact Or.inl ⟨h4, by rw [h5]; rfl⟩
    · exact Or.inr h6
  have hmaster : ∀ (a1 : hiopAlgPrimalDecomposition K n nc) st d, a1.tol_ = a.tol_ →
      a1.max_iter_ = a.max_iter_ → a1.accp_count_ = a.accp_count_ → a1.accp_tol_ = a.accp_tol_ →
      run_master sqrt a1 p decl u s0 sched = .ok (st, d) →
      TraceOK sqrt a d.trace ∧ ((a.max_iter_ ≤ 0 ∧ d.trace = []) ∨
        (∃ j : Nat, (j : Int) < a.max_iter_ ∧ LoopEnd sqrt a j d)) := by
    intro a1 st d e1 e2 e3 e4 h
    obtain ⟨_, h2, h3⟩ := run_master_trace sqrt a1 p decl u s0 sched st d h
    refine ⟨traceOK_congr sqrt a a1 e1 e2 e3 e4 _ h2, ?_⟩
    rcases h3 with ⟨h4, h5⟩ | ⟨j, h6, h7, h8⟩
    · exact Or.inl ⟨by rw [← e2]; exact h4, by rw [h5]; rfl⟩
    · exact Or.inr ⟨j, by rw [← e2]; exact h6, traceOK_congr sqrt a a1 e1 e2 e3 e4 _ h7, h8⟩
  have hlocal : ∀ st d, run_local sqrt a p decl u s0 sched bc = .solver (.ok (st, d)) →
      TraceOK sqrt a d.trace ∧ ((a.max_iter_ ≤ 0 ∧ d.trace = []) ∨
        (∃ j : Nat, (j : Int) < a.max_iter_ ∧ LoopEnd sqrt a j d)) := by
    intro st d h
    obtain ⟨l1, l2, l3⟩ := run_local_cases sqrt a p decl u s0 sched bc
    by_cases c1 : a.comm_size_ = 1
    · rw [l1 c1] at h
      injection h with h
      exact hsingle st d h
    · by_cases c2 : a.my_rank_ = 0
      · rw [l2 c1 c2] at h
        injection h with h
        exact hmaster { a with local_accum_ := true } st d rfl rfl rfl rfl h
      · rw [l3 c1 c2] at h
        cases h
  rcases h with h | h | h
  · obtain ⟨l0, l1, l2, l3⟩ := run_cases sqrt a p decl u s0 sched bc
    cases c0 : a.local_accum_ with
    | true =>
      rw [l0 c0] at h
      exact hlocal st d h
    | false =>
      by_cases c1 : a.comm_size_ = 1
      · rw [l1 c0 c1] at h
        injection h with h
        exact hsingle st d h
      · by_cases c2 : a.my_rank_ = 0
        · rw [l2 c0 c1 c2] at h
          injection h with h
          exact hmaster a st d rfl rfl rfl rfl h
        · rw [l3 c0 c1 c2] at h
          cases h
  · exact hlocal st d h
  · exact hsingle st d h

end run_lemmas

section returns

variable {K : Type} [LinearOrderedField K] {σ : Type} {n nc : Nat}

/-- With no more coupled variables than variables the coupled point
exists. -/
theorem coupled_point_some (a : hiopAlgPrimalDecomposition K n nc) (x : Vec K n) (hn : nc ≤ n) :
    ∃ x0, a.coupled_point x = some x0 := by
  unfold hiopAlgPrimalDecomposition.coupled_point
  by_cases h1 : nc < n
  · exact ⟨_, if_pos h1⟩
  · have h2 : nc = n := by omega
    rw [if_neg h1, dif_pos h2]
    exact ⟨_, rfl⟩

/-- With more coupled variables than variables the assertion `nc_ == n_`
fails. -/
theorem coupled_point_none (a : hiopAlgPrimalDecomposition K n nc) (x : Vec K n) (hn : n < nc) :
    a.coupled_point x = none := by
  unfold hiopAlgPrimalDecomposition.coupled_point
  rw [if_neg (by omega), dif_neg (by omega)]

/-- A loop whose body never faults returns. -/
theorem outer_loop_total {D : Type} (step : Nat → D → Except RunFault (D × Bool))
    (h : ∀ it d, ∃ v, step it d = .ok v) :
    ∀ (k it : Nat) (d : D), ∃ dF, outer_loop step k it d = .ok dF := by
  intro k
  induction k with
  | zero => intro it d; exact ⟨d, rfl⟩
  | succ k ih =>
    intro it d
    obtain ⟨⟨d1, b⟩, hv⟩ := h it d
    unfold outer_loop
    rw [hv]
    cases b with
    | true => exact ⟨d1, rfl⟩
    | false => exact ih (it + 1) d1

/-- The method `run_single()` returns, with `Solve_Success`, whenever
`nc_ ≤ n_`. -/
theorem run_single_returns (sqrt : K → K) (a : hiopAlgPrimalDecomposition K n nc)
    (p : hiopInterfacePriDecProblem K σ n nc) (decl : HessianApprox K nc) (u : Uninit K nc)
    (s0 : σ) (hn : nc ≤ n) :
    ∃ d, run_single sqrt a p decl u s0 = .ok (Solve_Success, d) := by
  have hstep : ∀ it d, ∃ v, run_single_iteration sqrt a p it d = .ok v := by
    intro it d
    unfold run_single_iteration
    obtain ⟨x0, hx⟩ := coupled_point_some a (initial_solve p it d).x_ hn
    simp only [hx]
    exact ⟨_, rfl⟩
  obtain ⟨dF, hF⟩ := outer_loop_total _ hstep a.max_iter_.toNat 0 (run_single_init a decl u s0)
  refine ⟨dF, ?_⟩
  unfold run_single
  rw [hF]

/-- The body of the outer loop on rank 0 reads the bound of the unfolding of
its own iteration only. -/
theorem run_master_iteration_fuel (sqrt : K → K) (a : hiopAlgPrimalDecomposition K n nc)
    (p : hiopInterfacePriDecProblem K σ n nc) (sched : Schedule K nc) (fuel fuel1 : Nat → Nat)
    (it : Nat) (d : Driver K σ n nc) (h : fuel it = fuel1 it) :
    run_master_iteration sqrt a p { sched with fuel := fuel } it d =
      run_master_iteration sqrt a p { sched with fuel := fuel1 } it d := by
  unfold run_master_iteration
  simp only [h]

/-- Under a fair schedule a bound of the unfolding exists with which the body
of the outer loop on rank 0 completes. -/
theorem run_master_iteration_fair (sqrt : K → K) (a : hiopAlgPrimalDecomposition K n nc)
    (p : hiopInterfacePriDecProblem K σ n nc) (sched : Schedule K nc) (it : Nat)
    (d : Driver K σ n nc) (hn : nc ≤ n) (hP : 2 ≤ a.comm_size_) (hS : a.comm_size_ ≤ a.S_ + 1)
    (hfair : Fair a (sched.ready it)) :
    ∃ f0 v, ∀ fuel : Nat → Nat, fuel it = f0 →
      run_master_iteration sqrt a p { sched with fuel := fuel } it d = .ok v := by
  obtain ⟨x0, hx⟩ := coupled_point_some a (initial_solve p it d).x_ hn
  obtain ⟨f0, hf⟩ := (dispatch_aggregate_spec a p.rterms x0 (sched.ready it)
    (initial_solve p it d).rval (initial_solve p it d).grad_r (sched.buf0 it) (sched.prev it)
    hP hS).2 hfair
  have hv : ∃ v, run_master_iteration sqrt a p { sched with fuel := fun _ => f0 } it d = .ok v := by
    unfold run_master_iteration
    simp only [hx, hf]
    exact ⟨_, rfl⟩
  obtain ⟨v, hv⟩ := hv
  refine ⟨f0, v, fun fuel hfuel => ?_⟩
  rw [← hv]
  exact run_master_iteration_fuel sqrt a p sched fuel (fun _ => f0) it d hfuel

/-- Under schedules that are fair in every outer iteration, bounds of the
unfoldings exist with which the outer loop on rank 0 returns. -/
theorem run_master_loop_fair (sqrt : K → K) (a : hiopAlgPrimalDecomposition K n nc)
    (p : hiopInterfacePriDecProblem K σ n nc) (sched : Schedule K nc) (hn : nc ≤ n)
    (hP : 2 ≤ a.comm_size_) (hS : a.comm_size_ ≤ a.S_ + 1)
    (hfair : ∀ it, Fair a (sched.ready it)) :
    ∀ (k it : Nat) (d : Driver K σ n nc), ∃ (fuel : Nat → Nat) (dF : Driver K σ n nc),
      outer_loop (run_master_iteration sqrt a p { sched with fuel := fuel }) k it d = .ok dF := by
  intro k
  induction k with
  | zero => intro it d; exact ⟨fun _ => 0, d, rfl⟩
  | succ k ih =>
    intro it d
    obtain ⟨f0, ⟨d1, b⟩, hv⟩ := run_master_iteration_fair sqrt a p sched it d hn hP hS (hfair it)
    cases b with
    | true =>
      refine ⟨fun _ => f0, d1, ?_⟩
      unfold outer_loop
      rw [hv _ rfl]
    | false =>
      obtain ⟨fuel1, dF, hF⟩ := ih (it + 1) d1
      refine ⟨fun j => if j = it then f0 else fuel1 j, dF, ?_⟩
      unfold outer_loop
      rw [hv (fun j => if j = it then f0 else fuel1 j) (if_pos rfl)]
      simp only
      rw [← hF]
      apply outer_loop_congr
      intro j d2 hj
      apply run_master_iteration_fuel
      exact if_neg (by omega)

/-- Rank 0 of `run()`, `run_local()` returns under schedules that are fair in
every outer iteration, for suitable bounds of the unfoldings. -/
theorem run_master_returns (sqrt : K → K) (a : hiopAlgPrimalDecomposition K n nc)
    (p : hiopInterfacePriDecProblem K σ n nc) (decl : HessianApprox K nc) (u : Uninit K nc)
    (s0 : σ) (sched : Schedule K nc) (hn : nc ≤ n) (hP : 2 ≤ a.comm_size_)
    (hS : a.comm_size_ ≤ a.S_ + 1) (hfair : ∀ it, Fair a (sched.ready it)) :
    ∃ (fuel : Nat → Nat) (d : Driver K σ n nc),
      run_master sqrt a p decl u s0 { sched with fuel := fuel } = .ok (d.solver_status_, d) := by
  obtain ⟨fuel, dF, hF⟩ := run_master_loop_fair sqrt a p sched hn hP hS hfair a.max_iter_.toNat 0
    (run_master_init a decl u s0)
  refine ⟨fuel, dF, ?_⟩
  unfold run_master
  rw [hF]

end returns

section streak_lemmas

variable {K : Type} [LinearOrderedField K] {σ : Type} {n nc : Nat}

/-- The streak over the first `k + 1` metrics, from the streak over the first
`k`. -/
theorem streak_take_succ (tol : K) (cs : List K) (k : Nat) (hk : k < cs.length) :
    streak tol (cs.take (k + 1)) =
      if cs[k] ≤ tol then streak tol (cs.take k) + 1 else 0 := by
  rw [List.take_succ, List.getElem?_eq_getElem hk]
  exact streak_append tol (cs.take k) cs[k]

/-- The streak is zero exactly when the list is empty or its last metric is
above the tolerance. -/
theorem streak_take_succ_zero (tol : K) (cs : List K) (k : Nat) (hk : k < cs.length)
    (h : tol < cs[k]) : streak tol (cs.take (k + 1)) = 0 := by
  rw [streak_take_succ tol cs k hk, if_neg (not_le.mpr h)]

/-- In a well-formed trace in which no iteration before the last says stop,
and with `acceptable_iterations ≥ 1`, the count handed to `stopping_criteria`
never exceeds `acceptable_iterations`. -/
theorem count_le_acceptable (sqrt : K → K) (a : hiopAlgPrimalDecomposition K n nc)
    (tr : List (IterRecord K nc)) (hok : TraceOK sqrt a tr)
    (hstop : ∀ k r, tr[k]? = some r → k + 1 < tr.length → r.stop = false)
    (hacc : 1 ≤ a.accp_count_) :
    ∀ (k : Nat) (r : IterRecord K nc), tr[k]? = some r → r.sc_accp_count ≤ a.accp_count_ := by
  intro k
  induction k with
  | zero =>
    intro r hr
    obtain ⟨_, _, e3⟩ := hok 0 r hr
    rw [e3]
    have := streak_le_length a.accp_tol_ ((tr.take (0 + 1)).map (fun r => r.sc_convg))
    rw [List.length_map, List.length_take] at this
    have h1 : min (0 + 1) tr.length ≤ 1 := min_le_left _ _
    omega
  | succ k ih =>
    intro r hr
    have hlen : k + 1 < tr.length := by
      by_contra hc
      rw [List.getElem?_eq_none (by omega)] at hr
      cases hr
    have hk : k < tr.length := by omega
    obtain ⟨_, _, e3⟩ := hok (k + 1) r hr
    have hprev := List.getElem?_eq_getElem hk
    obtain ⟨_, ⟨_, _, _, s4, _⟩, p3⟩ := hok k _ hprev
    have hle := ih _ hprev
    have hne : (tr[k]).sc_accp_count ≠ a.accp_count_ := by
      intro hc
      have hs := hstop k _ hprev hlen
      rw [s4] at hs
      have ht := (stopping_criteria_true a (tr[k]).sc_it (tr[k]).sc_convg
        (tr[k]).sc_accp_count).mpr (Or.inr (Or.inr hc))
      rw [ht] at hs
      cases hs
    rw [e3, List.map_take]
    rw [p3, List.map_take] at hle hne
    have hk1 : k + 1 < (tr.map (fun r => r.sc_convg)).length := by
      rw [List.length_map]; exact hlen
    rw [streak_take_succ a.accp_tol_ _ (k + 1) hk1]
    split_ifs
    · push_cast
      omega
    · push_cast
      omega

end streak_lemmas

section first_lemmas

variable {K : Type} [LinearOrderedField K] {σ : Type} {n nc : Nat}

/-- The solving rank came through `run_single()` or through the part of
`run()`, `run_local()` for more than one rank. -/
theorem solver_cases (sqrt : K → K) (a : hiopAlgPrimalDecomposition K n nc)
    (p : hiopInterfacePriDecProblem K σ n nc) (decl : HessianApprox K nc) (u : Uninit K nc)
    (s0 : σ) (sched : Schedule K nc) (bc : List (Vec K n × Int)) (st : hiopSolveStatus)
    (d : Driver K σ n nc)
    (h : run sqrt a p decl u s0 sched bc = .solver (.ok (st, d)) ∨
         run_local sqrt a p decl u s0 sched bc = .solver (.ok (st, d)) ∨
         run_single sqrt a p decl u s0 = .ok (st, d)) :
    run_single sqrt a p decl u s0 = .ok (st, d) ∨
    (a.comm_size_ ≠ 1 ∧ a.my_rank_ = 0 ∧
      (run_master sqrt a p decl u s0 sched = .ok (st, d) ∨
       run_master sqrt { a with local_accum_ := true } p decl u s0 sched = .ok (st, d))) := by
  have hlocal : run_local sqrt a p decl u s0 sched bc = .solver (.ok (st, d)) →
      run_single sqrt a p decl u s0 = .ok (st, d) ∨
      (a.comm_size_ ≠ 1 ∧ a.my_rank_ = 0 ∧
        (run_master sqrt a p decl u s0 sched = .ok (st, d) ∨
         run_master sqrt { a with local_accum_ := true } p decl u s0 sched = .ok (st, d))) := by
    intro h
    obtain ⟨l1, l2, l3⟩ := run_local_cases sqrt a p decl u s0 sched bc
    by_cases c1 : a.comm_size_ = 1
    · rw [l1 c1] at h
      injection h with h
      exact Or.inl h
    · by_cases c2 : a.my_rank_ = 0
      · rw [l2 c1 c2] at h
        injection h with h
        exact Or.inr ⟨c1, c2, Or.inr h⟩
      · rw [l3 c1 c2] at h
        cases h
  rcases h with h | h | h
  · obtain ⟨l0, l1, l2, l3⟩ := run_cases sqrt a p decl u s0 sched bc
    cases c0 : a.local_accum_ with
    | true =>
      rw [l0 c0] at h
      exact hlocal h
    | false =>
      by_cases c1 : a.comm_size_ = 1
      · rw [l1 c0 c1] at h
        injection h with h
        exact Or.inl h
      · by_cases c2 : a.my_rank_ = 0
        · rw [l2 c0 c1 c2] at h
          injection h with h
          exact Or.inr ⟨c1, c2, Or.inl h⟩
        · rw [l3 c0 c1 c2] at h
          cases h
  · exact hlocal h
  · exact Or.inl h

/-- The metric handed to `stopping_criteria` in iteration 0 is the value
`convg` had on entry to the loop. -/
theorem outer_loop_first (sqrt : K → K) (a : hiopAlgPrimalDecomposition K n nc)
    (step : Nat → Driver K σ n nc → Except RunFault (Driver K σ n nc × Bool))
    (hs : StepSpec sqrt a step) (d0 dF : Driver K σ n nc) (k : Nat)
    (h0 : d0.trace = [] ∧ d0.end_signal = 0)
    (h : outer_loop step k 0 d0 = .ok dF) :
    ∀ r, dF.trace[0]? = some r → r.sc_convg = d0.vars.convg := by
  have hI0 : (fun (it : Nat) (d : Driver K σ n nc) => d.end_signal = 0 ∧ d.trace.length = it ∧
      (it = 0 → d.vars.convg = d0.vars.convg) ∧
      (∀ r, d.trace[0]? = some r → r.sc_convg = d0.vars.convg)) 0 d0 := by
    refine ⟨h0.2, by rw [h0.1]; rfl, fun _ => rfl, ?_⟩
    intro r hr
    rw [h0.1] at hr
    cases hr
  have hstep : ∀ (it : Nat) (d d1 : Driver K σ n nc) (b : Bool),
      (d.end_signal = 0 ∧ d.trace.length = it ∧ (it = 0 → d.vars.convg = d0.vars.convg) ∧
        (∀ r, d.trace[0]? = some r → r.sc_convg = d0.vars.convg)) →
      step it d = .ok (d1, b) →
      (b = false → (d1.end_signal = 0 ∧ d1.trace.length = it + 1 ∧
        (it + 1 = 0 → d1.vars.convg = d0.vars.convg) ∧
        (∀ r, d1.trace[0]? = some r → r.sc_convg = d0.vars.convg))) ∧
      (b = true → ∀ r, d1.trace[0]? = some r → r.sc_convg = d0.vars.convg) := by
    intro it d d1 b ⟨i1, i2, i3, i4⟩ hst
    obtain ⟨r, g1, _, _, _, _, _, _, g8, g9⟩ := hs it d d1 b i1 hst
    have hfirst : ∀ r1, d1.trace[0]? = some r1 → r1.sc_convg = d0.vars.convg := by
      intro r1 hr1
      rw [g1] at hr1
      cases it with
      | zero =>
        rw [List.length_eq_zero.mp i2] at hr1
        simp only [List.nil_append, List.getElem?_cons_zero, Option.some.injEq] at hr1
        rw [← hr1, g9 rfl, i3 rfl]
      | succ it =>
        rw [List.getElem?_append_left (by omega)] at hr1
        exact i4 r1 hr1
    exact ⟨fun hb => ⟨g8 hb, by rw [g1, List.length_append, List.length_singleton, i2],
      fun hc => absurd hc (Nat.succ_ne_zero it), hfirst⟩, fun _ => hfirst⟩
  rcases outer_loop_inv step _ _ hstep k 0 d0 dF hI0 h with ⟨j, _, _, h3⟩ | h4
  · exact h3
  · exact h4.2.2.2

/-- In every run of the solving rank the metric handed to `stopping_criteria`
in iteration 0 is `1e20`. -/
theorem solver_first_metric (sqrt : K → K) (a : hiopAlgPrimalDecomposition K n nc)
    (p : hiopInterfacePriDecProblem K σ n nc) (decl : HessianApprox K nc) (u : Uninit K nc)
    (s0 : σ) (sched : Schedule K nc) (bc : List (Vec K n × Int)) (st : hiopSolveStatus)
    (d : Driver K σ n nc)
    (h : run sqrt a p decl u s0 sched bc = .solver (.ok (st, d)) ∨
         run_local sqrt a p decl u s0 sched bc = .solver (.ok (st, d)) ∨
         run_single sqrt a p decl u s0 = .ok (st, d)) :
    ∀ r, d.trace[0]? = some r → r.sc_convg = 10 ^ 20 := by
  have hmaster : ∀ a1 : hiopAlgPrimalDecomposition K n nc,
      run_master sqrt a1 p decl u s0 sched = .ok (st, d) →
      ∀ r, d.trace[0]? = some r → r.sc_convg = 10 ^ 20 := by
    intro a1 h
    unfold run_master at h
    cases hl : outer_loop (run_master_iteration sqrt a1 p sched) a1.max_iter_.toNat 0
        (run_master_init a1 decl u s0) with
    | error e => rw [hl] at h; cases h
    | ok dF =>
      rw [hl] at h
      cases h
      exact outer_loop_first sqrt a1 _ (run_master_iteration_spec sqrt a1 p sched) _ _ _
        ⟨rfl, rfl⟩ hl
  rcases solver_cases sqrt a p decl u s0 sched bc st d h with h | ⟨_, _, h | h⟩
  · unfold run_single at h
    cases hl : outer_loop (run_single_iteration sqrt a p) a.max_iter_.toNat 0
        (run_single_init a decl u s0) with
    | error e => rw [hl] at h; cases h
    | ok dF =>
      rw [hl] at h
      cases h
      exact outer_loop_first sqrt a _ (run_single_iteration_spec sqrt a p) _ _ _ ⟨rfl, rfl⟩ hl
  · exact hmaster a h
  · exact hmaster _ h

/-- With `max_iter_ ≥ 2`, tolerances below `1e20` and
`acceptable_iterations` not zero, the loop is not left in iteration 0: at least
two outer iterations are made. -/
theorem first_iteration_goes_on (sqrt : K → K) (a : hiopAlgPrimalDecomposition K n nc)
    (p : hiopInterfacePriDecProblem K σ n nc) (decl : HessianApprox K nc) (u : Uninit K nc)
    (s0 : σ) (sched : Schedule K nc) (bc : List (Vec K n × Int)) (st : hiopSolveStatus)
    (d : Driver K σ n nc)
    (h : run sqrt a p decl u s0 sched bc = .solver (.ok (st, d)) ∨
         run_local sqrt a p decl u s0 sched bc = .solver (.ok (st, d)) ∨
         run_single sqrt a p decl u s0 = .ok (st, d))
    (hM : 2 ≤ a.max_iter_) (htol : a.tol_ ≤ 10 ^ 20) (hacc : a.accp_tol_ < 10 ^ 20)
    (hcnt : a.accp_count_ ≠ 0) :
    2 ≤ d.trace.length := by
  obtain ⟨hok, hend⟩ := solver_trace sqrt a p decl u s0 sched bc st d h
  have hfirst := solver_first_metric sqrt a p decl u s0 sched bc st d h
  rcases hend with ⟨h1, _⟩ | ⟨j, _, _, h3, _, h5⟩
  · omega
  · have hlen : 0 < d.trace.length := by omega
    have h0 := List.getElem?_eq_getElem hlen
    obtain ⟨e1, ⟨e2, _, _, e5, _⟩, e3⟩ := hok 0 _ h0
    have hc := hfirst _ h0
    have hcount : (d.trace[0]).sc_accp_count = 0 := by
      rw [e3, List.map_take]
      have hl : 0 < (d.trace.map (fun r => r.sc_convg)).length := by
        rw [List.length_map]; exact hlen
      rw [streak_take_succ_zero a.accp_tol_ _ 0 hl (by rw [List.getElem_map, hc]; exact hacc)]
      rfl
    have hstop : (d.trace[0]).stop = false := by
      rw [e5, e2, e1, hc, hcount]
      cases hsc : (a.stopping_criteria ((0 : Nat) : Int) (10 ^ 20) 0).1 with
      | false => rfl
      | true =>
        rcases (stopping_criteria_true a _ _ _).mp hsc with c1 | c2 | c3
        · exact absurd c1 (not_lt.mpr htol)
        · simp only [Nat.cast_zero] at c2
          omega
        · exact absurd c3.symm hcnt
    have hj : j ≠ 0 := by
      intro hj
      have := (h5 0 _ h0).mpr hj.symm
      rw [hstop] at this
      cases this
    omega

end first_lemmas

section bcast_lemmas

variable {K : Type} [LinearOrderedField K] {σ : Type} {n nc : Nat}

/-- What rank 0 broadcasts as `end_signal`, iteration by iteration, is `1`
where its call of `stopping_criteria` returned `true` and `0` elsewhere; and
after a last iteration its own `end_signal` is `1`. -/
theorem run_master_bcasts (sqrt : K → K) (a : hiopAlgPrimalDecomposition K n nc)
    (p : hiopInterfacePriDecProblem K σ n nc) (decl : HessianApprox K nc) (u : Uninit K nc)
    (s0 : σ) (sched : Schedule K nc) (st : hiopSolveStatus) (d : Driver K σ n nc)
    (h : run_master sqrt a p decl u s0 sched = .ok (st, d)) :
    d.bcasts.map Prod.snd = d.trace.map (fun r => if r.stop = true then (1 : Int) else 0) ∧
    (d.trace ≠ [] → d.end_signal = 1) := by
  have htr := run_master_trace sqrt a p decl u s0 sched st d h
  unfold run_master at h
  cases hl : outer_loop (run_master_iteration sqrt a p sched) a.max_iter_.toNat 0
      (run_master_init a decl u s0) with
  | error e => rw [hl] at h; cases h
  | ok dF =>
    rw [hl] at h
    cases h
    have hstep : ∀ (it : Nat) (d d1 : Driver K σ n nc) (b : Bool),
        (d.end_signal = 0 ∧ (∀ r ∈ d.trace, r.stop = false) ∧
          d.bcasts.map Prod.snd = d.trace.map (fun r => if r.stop = true then (1 : Int) else 0)) →
        run_master_iteration sqrt a p sched it d = .ok (d1, b) →
        (b = false → (d1.end_signal = 0 ∧ (∀ r ∈ d1.trace, r.stop = false) ∧
          d1.bcasts.map Prod.snd =
            d1.trace.map (fun r => if r.stop = true then (1 : Int) else 0))) ∧
        (b = true → (d1.end_signal = 1 ∧
          d1.bcasts.map Prod.snd =
            d1.trace.map (fun r => if r.stop = true then (1 : Int) else 0))) := by
      intro it d d1 b ⟨i1, i2, i3⟩ hst
      obtain ⟨r, g1, _, _, _, _, g6, _, g8, _, g10, g11⟩ :=
        run_master_iteration_core sqrt a p sched it d d1 b i1 hst
      have hb : d1.bcasts.map Prod.snd =
          d1.trace.map (fun r => if r.stop = true then (1 : Int) else 0) := by
        rw [g11, g1, List.map_append, List.map_append, i3]
        rfl
      constructor
      · intro hf
        refine ⟨g8 hf, ?_, hb⟩
        intro r1 hr1
        rw [g1, List.mem_append, List.mem_singleton] at hr1
        rcases hr1 with hr1 | hr1
        · exact i2 r1 hr1
        · rw [hr1, ← g6, hf]
      · intro ht
        refine ⟨?_, hb⟩
        rw [g10, ← g6, ht]
        rfl
    rcases outer_loop_inv _
        (fun (_ : Nat) (d : Driver K σ n nc) => d.end_signal = 0 ∧ (∀ r ∈ d.trace, r.stop = false) ∧
          d.bcasts.map Prod.snd = d.trace.map (fun r => if r.stop = true then (1 : Int) else 0))
        (fun (_ : Nat) (d : Driver K σ n nc) => d.end_signal = 1 ∧
          d.bcasts.map Prod.snd = d.trace.map (fun r => if r.stop = true then (1 : Int) else 0))
        hstep a.max_iter_.toNat 0 (run_master_init a decl u s0) d
        ⟨rfl, ⟨fun r hr => absurd hr (List.not_mem_nil r), rfl⟩⟩ hl with
      ⟨j, _, _, h3, h4⟩ | ⟨h5, h6, h7⟩
    · exact ⟨h4, fun _ => h3⟩
    · refine ⟨h7, fun hne => ?_⟩
      exfalso
      rcases htr.2.2 with ⟨_, h9⟩ | ⟨j, _, _, h11, _, h13⟩
      · rw [h9] at hne
        exact hne rfl
      · have hj : j < d.trace.length := by omega
        have := (h13 j _ (List.getElem?_eq_getElem hj)).mpr rfl
        rw [h6 _ (List.getElem_mem hj)] at this
        cases this

/-- An evaluator rank that is fed broadcasts whose `end_signal` is non-zero in
the last one only, no more of them than `max_iter_` allows, takes part in every
one, holds the broadcast `end_signal` after each, and returns from the last. -/
theorem evaluator_loop_follows (aw : hiopAlgPrimalDecomposition K n nc) :
    ∀ (bc : List (Vec K n × Int)) (k it : Nat) (w : EvaluatorLoop K n),
      bc ≠ [] → bc.length ≤ k →
      (∀ (i : Nat) (hi : i < bc.length), (bc[i].2 ≠ 0 ↔ i + 1 = bc.length)) →
      ∃ w1, evaluator_loop aw k it bc w = .returned Solve_Success w1 [] ∧
        w1.signals.map Prod.snd = w.signals.map Prod.snd ++ bc.map Prod.snd ∧
        w1.signals.length = w.signals.length + bc.length ∧
        w1.it_ = ((it + bc.length - 1 : Nat) : Int) ∧
        (∀ e, bc.getLast? = some e → w1.end_signal = e.2) := by
  intro bc
  induction bc with
  | nil => intro k it w hne; exact absurd rfl hne
  | cons b rest ih =>
    intro k it w _ hlen hsig
    cases k with
    | zero => simp at hlen
    | succ k =>
      have hiter : evaluator_iteration aw it b w =
          ((evaluator_iteration aw it b w).1, decide (b.2 ≠ 0)) := rfl
      cases rest with
      | nil =>
        have hb : b.2 ≠ 0 := (hsig 0 (by simp)).mpr rfl
        refine ⟨(evaluator_iteration aw it b w).1, ?_, ?_, ?_, ?_, ?_⟩
        · simp only [evaluator_loop]
          rw [hiter, decide_eq_true hb]
        · simp [evaluator_iteration]
        · simp [evaluator_iteration]
        · simp [evaluator_iteration]
        · intro e he
          simp only [List.getLast?_singleton, Option.some.injEq] at he
          rw [← he]
          rfl
      | cons b1 rest1 =>
        have hb : ¬ b.2 ≠ 0 := by
          intro hc
          have := (hsig 0 (by simp)).mp hc
          simp at this
        obtain ⟨w1, e1, e2, e3, e4, e5⟩ := ih k (it + 1) (evaluator_iteration aw it b w).1
          (by simp) (by simpa using hlen)
          (by
            intro i hi
            have := hsig (i + 1) (by simpa using hi)
            simpa using this)
        refine ⟨w1, ?_, ?_, ?_, ?_, ?_⟩
        rotate_left 4
        · intro e he
          rw [List.getLast?_cons_cons] at he
          exact e5 e he
        · simp only [evaluator_loop]
          rw [hiter, decide_eq_false hb]
          exact e1
        · rw [e2]
          simp [evaluator_iteration]
        · rw [e3]
          simp [evaluator_iteration]
          omega
        · rw [e4]
          congr 1
          simp only [List.length_cons]
          omega

/-- The `end_signal` of the `i`-th broadcast of rank 0. -/
theorem bcast_signal (d : Driver K σ n nc)
    (hb : d.bcasts.map Prod.snd = d.trace.map (fun r => if r.stop = true then (1 : Int) else 0))
    (i : Nat) (hi : i < d.bcasts.length) :
    ∃ ht : i < d.trace.length,
      (d.bcasts[i]).2 = (if (d.trace[i]).stop = true then (1 : Int) else 0) := by
  have hlen : d.bcasts.length = d.trace.length := by
    have := congrArg List.length hb
    rwa [List.length_map, List.length_map] at this
  refine ⟨by omega, ?_⟩
  have h1 : (d.bcasts.map Prod.snd)[i]? = some (d.bcasts[i]).2 := by
    rw [List.getElem?_map, List.getElem?_eq_getElem hi]
    rfl
  rw [hb, List.getElem?_map, List.getElem?_eq_getElem (by omega)] at h1
  exact (Option.some.inj h1).symm

/-- An evaluator rank with the same `max_iter_` as rank 0, whatever its other
members, follows rank 0: it takes part in all its broadcasts, makes as many
outer iterations, and returns from the same iteration with the same
`end_signal`. -/
theorem evaluator_follows_master (sqrt : K → K) (a aw : hiopAlgPrimalDecomposition K n nc)
    (p : hiopInterfacePriDecProblem K σ n nc) (decl : HessianApprox K nc) (u : Uninit K nc)
    (s0 : σ) (sched : Schedule K nc) (st : hiopSolveStatus) (d : Driver K σ n nc)
    (hM : aw.max_iter_ = a.max_iter_)
    (h : run_master sqrt a p decl u s0 sched = .ok (st, d)) :
    ∃ w, run_evaluator aw d.bcasts = .returned Solve_Success w [] ∧
      w.signals.map Prod.snd = d.bcasts.map Prod.snd ∧
      w.signals.length = d.trace.length ∧
      (d.trace ≠ [] → w.it_ = d.it_ ∧ w.end_signal = d.end_signal ∧ d.end_signal = 1) := by
  obtain ⟨_, _, hend⟩ := run_master_trace sqrt a p decl u s0 sched st d h
  obtain ⟨hb, hes⟩ := run_master_bcasts sqrt a p decl u s0 sched st d h
  have hlen : d.bcasts.length = d.trace.length := by
    have := congrArg List.length hb
    rwa [List.length_map, List.length_map] at this
  rcases hend with ⟨h1, h2⟩ | ⟨j, h3, _, h5, h6, h7⟩
  · have hk : aw.max_iter_.toNat = 0 := by omega
    refine ⟨evaluator_init aw, ?_, ?_, ?_, ?_⟩
    · unfold run_evaluator
      rw [hk, h2]
      rfl
    · rw [h2]; rfl
    · rw [h2]; rfl
    · intro hne
      rw [h2] at hne
      exact absurd rfl hne
  · have hne : d.bcasts ≠ [] := by
      intro hc
      rw [hc] at hlen
      simp at hlen
      omega
    have hsig : ∀ (i : Nat) (hi : i < d.bcasts.length),
        ((d.bcasts[i]).2 ≠ 0 ↔ i + 1 = d.bcasts.length) := by
      intro i hi
      obtain ⟨ht, e⟩ := bcast_signal d hb i hi
      rw [e, hlen, h5]
      have := h7 i _ (List.getElem?_eq_getElem ht)
      cases hs : (d.trace[i]).stop with
      | true =>
        rw [hs] at this
        have := this.mp rfl
        simp
        omega
      | false =>
        rw [hs] at this
        simp
        intro hc
        have := this.mpr (by omega)
        cases this
    obtain ⟨w1, e1, e2, e3, e4, e5⟩ := evaluator_loop_follows aw d.bcasts aw.max_iter_.toNat 0
      (evaluator_init aw) hne (by omega) hsig
    refine ⟨w1, e1, ?_, ?_, ?_⟩
    · rw [e2]
      rfl
    · rw [e3, hlen]
      show 0 + d.trace.length = d.trace.length
      omega
    · intro _
      have hj : j < d.bcasts.length := by omega
      have hlast : d.bcasts.getLast? = some (d.bcasts[j]) := by
        rw [List.getLast?_eq_getElem?, ← List.getElem?_eq_getElem hj]
        congr 1
        omega
      obtain ⟨ht, e⟩ := bcast_signal d hb j hj
      have hstop := (h7 j _ (List.getElem?_eq_getElem ht)).mpr rfl
      have hd1 : d.end_signal = 1 := hes (by intro hc; rw [hc] at h5; cases h5)
      refine ⟨?_, ?_, hd1⟩
      · rw [e4, h6]
        congr 1
        omega
      · rw [e5 _ hlast, e, hstop, hd1]
        rfl

end bcast_lemmas

section rel_lemmas

variable {K : Type} [LinearOrderedField K] {σ σ1 : Type} {n nc : Nat}

/-- The model update of an outer iteration on two trust-region states that
agree on what it reads gives states that agree on what the next one reads, and
the same `base_val`, `convg`, curvature vector and `alpha_`. -/
theorem model_update_rel (sqrt : K → K) (it : Nat) (h h1 : HessianApprox K nc)
    (v v1 : DriverVars K nc) (inp : IterInput K nc) (hr : HessRel it h h1)
    (hb : v.base_val = v1.base_val) (hc : v.convg = v1.convg) :
    HessRel (it + 1) (model_update sqrt it h v inp).1 (model_update sqrt it h1 v1 inp).1 ∧
    (model_update sqrt it h v inp).2.base_val = (model_update sqrt it h1 v1 inp).2.base_val ∧
    (model_update sqrt it h v inp).2.convg = (model_update sqrt it h1 v1 inp).2.convg ∧
    (model_update sqrt it h v inp).2.hess_appx = (model_update sqrt it h1 v1 inp).2.hess_appx ∧
    (model_update sqrt it h v inp).1.alpha_ = (model_update sqrt it h1 v1 inp).1.alpha_ := by
  obtain ⟨r1, r2, r3, r4, r5, r6⟩ := hr
  by_cases h0 : it = 0
  · subst h0
    simp only [model_update, model_pre, if_true, HessianApprox.initialise,
      HessianApprox.get_alpha_f, HessRel, r1, r2, r3, r4, r5, hb, hc]
    simp
  · obtain ⟨r7, r8, r9, r10⟩ := r6 (by omega)
    simp only [model_update, model_pre, if_neg h0, HessianApprox.update_hess_coeff,
      HessianApprox.compute_base, HessianApprox.update_ratio, HessianApprox.update_ratio_tr,
      HessianApprox.get_alpha_f, HessianApprox.check_convergence_grad,
      HessianApprox.check_convergence_fcn, HessRel, r1, r2, r3, r4, r5, r7, r8, r9, r10, hb, hc]
    simp

/-- The aggregation of `run_single()` reads `S_` and the values and gradients
the evaluations give back, not their `bool`s. -/
theorem run_single_aggregate_congr (a a1 : hiopAlgPrimalDecomposition K n nc)
    (prob prob1 : RecourseProblem K nc) (x0 : Vec K nc) (hS : a.S_ = a1.S_)
    (hf : ∀ i x v, (prob.eval_f_rterm i x v).2 = (prob1.eval_f_rterm i x v).2)
    (hg : ∀ i x g, (prob.eval_grad_rterm i x g).2 = (prob1.eval_grad_rterm i x g).2) :
    run_single_aggregate a prob x0 = run_single_aggregate a1 prob1 x0 := by
  unfold run_single_aggregate cont_idx
  rw [hS]
  have hfun : (fun (acc : K × Vec K nc) (idx_temp : Int) =>
      (acc.1 + (prob.eval_f_rterm idx_temp x0 0).2,
        axpy acc.2 1 (prob.eval_grad_rterm idx_temp x0 setToZero).2)) =
      (fun (acc : K × Vec K nc) (idx_temp : Int) =>
      (acc.1 + (prob1.eval_f_rterm idx_temp x0 0).2,
        axpy acc.2 1 (prob1.eval_grad_rterm idx_temp x0 setToZero).2)) := by
    funext acc idx_temp
    rw [hf, hg]
  simp only [hfun]

/-- The coupled point is read off `x_` through `xc_idx_`. -/
theorem coupled_point_congr (a a1 : hiopAlgPrimalDecomposition K n nc) (x : Vec K n)
    (h : a.xc_idx_ = a1.xc_idx_) : a.coupled_point x = a1.coupled_point x := by
  unfold hiopAlgPrimalDecomposition.coupled_point
  rw [h]

/-- The head of an outer iteration keeps two solving ranks related. -/
theorem initial_solve_rel (p : hiopInterfacePriDecProblem K σ n nc)
    (p1 : hiopInterfacePriDecProblem K σ1 n nc) (R : σ → σ1 → Prop)
    (hp : SameResponses p p1 R) (it : Nat) (d : Driver K σ n nc) (d1 : Driver K σ1 n nc)
    (hd : DriverRel R it d d1) :
    DriverRel R it (initial_solve p it d) (initial_solve p1 it d1) := by
  obtain ⟨e1, e2, e3, e4, e5, e6, e7⟩ := hd
  unfold initial_solve
  by_cases h0 : it = 0
  · simp only [if_pos h0]
    refine ⟨?_, ?_, e3, ?_, e5, e6, e7⟩
    · show (p.solve_master d.master_prob_ d.x_ false).2.1 =
        (p1.solve_master d1.master_prob_ d1.x_ false).2.1
      rw [e1]
      exact hp.solve_x _ _ _ _ e2
    · show R (p.solve_master d.master_prob_ d.x_ false).2.2
        (p1.solve_master d1.master_prob_ d1.x_ false).2.2
      rw [e1]
      exact hp.solve_state _ _ _ _ e2
    · show p.get_objective (p.solve_master d.master_prob_ d.x_ false).2.2 =
        p1.get_objective (p1.solve_master d1.master_prob_ d1.x_ false).2.2
      rw [e1]
      exact hp.objective _ _ (hp.solve_state _ _ _ _ e2)
  · simp only [if_neg h0]
    exact ⟨e1, e2, e3, e4, e5, e6, e7⟩

/-- The tail of an outer iteration, on two solving ranks that are related and
hold the same aggregate and coupled point, leaves them related, shows the same
and gives the same answer to whether the loop stops.  The constants the
curvature vector is set to beforehand may differ. -/
theorem model_and_solve_rel (sqrt : K → K) (a a1 : hiopAlgPrimalDecomposition K n nc)
    (p : hiopInterfacePriDecProblem K σ n nc) (p1 : hiopInterfacePriDecProblem K σ1 n nc)
    (R : σ → σ1 → Prop) (hp : SameResponses p p1 R) (ha : SameConfig a a1) (c0 c1 : K)
    (it : Nat) (d : Driver K σ n nc) (d1 : Driver K σ1 n nc) (hd : DriverRel R it d d1)
    (hrval : d.rval = d1.rval) (hgrad : d.grad_r = d1.grad_r) (hx0 : d.x0 = d1.x0) :
    DriverRel R (it + 1) (model_and_solve sqrt a p c0 it d).1
      (model_and_solve sqrt a1 p1 c1 it d1).1 ∧
    (model_and_solve sqrt a p c0 it d).2 = (model_and_solve sqrt a1 p1 c1 it d1).2 := by
  obtain ⟨e1, e2, e3, e4, e5, e6, e7⟩ := hd
  obtain ⟨_, a2, a3, a4, a5, _, _, _, _⟩ := ha
  have hobj := hp.objective _ _ e2
  have hinp : ({ rval := d.rval, x0 := d.x0, grad_r := d.grad_r, objective := p.get_objective d.master_prob_ } : IterInput K nc) =
      ({ rval := d1.rval, x0 := d1.x0, grad_r := d1.grad_r, objective := p1.get_objective d1.master_prob_ } : IterInput K nc) := by
    rw [hrval, hgrad, hx0, hobj]
  obtain ⟨m1, m2, m3, m4, m5⟩ := model_update_rel sqrt it d.hess_appx_2 d1.hess_appx_2
    { d.vars with hess_appx := setToConstant c0 } { d1.vars with hess_appx := setToConstant c1 }
    ({ rval := d.rval, x0 := d.x0, grad_r := d.grad_r, objective := p.get_objective d.master_prob_ } : IterInput K nc) e3 e4 e5
  rw [hinp] at m1 m2 m3 m4 m5
  rw [← hinp] at m1 m2 m3 m4 m5
  have n1 : HessRel (it + 1) (model_update sqrt it d.hess_appx_2 { d.vars with hess_appx := setToConstant c0 }
      ({ rval := d.rval, x0 := d.x0, grad_r := d.grad_r, objective := p.get_objective d.master_prob_ } : IterInput K nc)).1
      (model_update sqrt it d1.hess_appx_2 { d1.vars with hess_appx := setToConstant c1 }
      ({ rval := d1.rval, x0 := d1.x0, grad_r := d1.grad_r, objective := p1.get_objective d1.master_prob_ } : IterInput K nc)).1 := by
    rw [← hinp]; exact m1
  have n2 : (model_update sqrt it d.hess_appx_2 { d.vars with hess_appx := setToConstant c0 }
      ({ rval := d.rval, x0 := d.x0, grad_r := d.grad_r, objective := p.get_objective d.master_prob_ } : IterInput K nc)).2.base_val =
      (model_update sqrt it d1.hess_appx_2 { d1.vars with hess_appx := setToConstant c1 }
      ({ rval := d1.rval, x0 := d1.x0, grad_r := d1.grad_r, objective := p1.get_objective d1.master_prob_ } : IterInput K nc)).2.base_val := by
    rw [← hinp]; exact m2
  have n3 : (model_update sqrt it d.hess_appx_2 { d.vars with hess_appx := setToConstant c0 }
      ({ rval := d.rval, x0 := d.x0, grad_r := d.grad_r, objective := p.get_objective d.master_prob_ } : IterInput K nc)).2.convg =
      (model_update sqrt it d1.hess_appx_2 { d1.vars with hess_appx := setToConstant c1 }
      ({ rval := d1.rval, x0 := d1.x0, grad_r := d1.grad_r, objective := p1.get_objective d1.master_prob_ } : IterInput K nc)).2.convg := by
    rw [← hinp]; exact m3
  have n4 : (model_update sqrt it d.hess_appx_2 { d.vars with hess_appx := setToConstant c0 }
      ({ rval := d.rval, x0 := d.x0, grad_r := d.grad_r, objective := p.get_objective d.master_prob_ } : IterInput K nc)).2.hess_appx =
      (model_update sqrt it d1.hess_appx_2 { d1.vars with hess_appx := setToConstant c1 }
      ({ rval := d1.rval, x0 := d1.x0, grad_r := d1.grad_r, objective := p1.get_objective d1.master_prob_ } : IterInput K nc)).2.hess_appx := by
    rw [← hinp]; exact m4
  have n5 : (model_update sqrt it d.hess_appx_2 { d.vars with hess_appx := setToConstant c0 }
      ({ rval := d.rval, x0 := d.x0, grad_r := d.grad_r, objective := p.get_objective d.master_prob_ } : IterInput K nc)).1.alpha_ =
      (model_update sqrt it d1.hess_appx_2 { d1.vars with hess_appx := setToConstant c1 }
      ({ rval := d1.rval, x0 := d1.x0, grad_r := d1.grad_r, objective := p1.get_objective d1.master_prob_ } : IterInput K nc)).1.alpha_ := by
    rw [← hinp]; exact m5
  have hcount : (if (model_update sqrt it d.hess_appx_2 { d.vars with hess_appx := setToConstant c0 }
      ({ rval := d.rval, x0 := d.x0, grad_r := d.grad_r, objective := p.get_objective d.master_prob_ } : IterInput K nc)).2.convg ≤ a.accp_tol_
      then d.accp_count + 1 else 0) =
      (if (model_update sqrt it d1.hess_appx_2 { d1.vars with hess_appx := setToConstant c1 }
      ({ rval := d1.rval, x0 := d1.x0, grad_r := d1.grad_r, objective := p1.get_objective d1.master_prob_ } : IterInput K nc)).2.convg ≤ a1.accp_tol_
      then d1.accp_count + 1 else 0) := by
    rw [n3, a3, e6]
  have hstop : a.stopping_criteria (it : Int) (model_update sqrt it d.hess_appx_2 { d.vars with hess_appx := setToConstant c0 }
      ({ rval := d.rval, x0 := d.x0, grad_r := d.grad_r, objective := p.get_objective d.master_prob_ } : IterInput K nc)).2.convg
      (if (model_update sqrt it d.hess_appx_2 { d.vars with hess_appx := setToConstant c0 }
      ({ rval := d.rval, x0 := d.x0, grad_r := d.grad_r, objective := p.get_objective d.master_prob_ } : IterInput K nc)).2.convg ≤ a.accp_tol_
      then d.accp_count + 1 else 0) =
      a1.stopping_criteria (it : Int) (model_update sqrt it d1.hess_appx_2 { d1.vars with hess_appx := setToConstant c1 }
      ({ rval := d1.rval, x0 := d1.x0, grad_r := d1.grad_r, objective := p1.get_objective d1.master_prob_ } : IterInput K nc)).2.convg
      (if (model_update sqrt it d1.hess_appx_2 { d1.vars with hess_appx := setToConstant c1 }
      ({ rval := d1.rval, x0 := d1.x0, grad_r := d1.grad_r, objective := p1.get_objective d1.master_prob_ } : IterInput K nc)).2.convg ≤ a1.accp_tol_
      then d1.accp_count + 1 else 0) := by
    rw [hcount, n3]
    exact stopping_criteria_congr a1 a a2 a5 a4 _ _ _
  have hev : ({ rval := d.rval, rgrad := d.grad_r, rhess := (model_update sqrt it d.hess_appx_2 { d.vars with hess_appx := setToConstant c0 }
      ({ rval := d.rval, x0 := d.x0, grad_r := d.grad_r, objective := p.get_objective d.master_prob_ } : IterInput K nc)).2.hess_appx, x0 := d.x0 } : RecourseApproxEvaluator K nc) =
      ({ rval := d1.rval, rgrad := d1.grad_r, rhess := (model_update sqrt it d1.hess_appx_2 { d1.vars with hess_appx := setToConstant c1 }
      ({ rval := d1.rval, x0 := d1.x0, grad_r := d1.grad_r, objective := p1.get_objective d1.master_prob_ } : IterInput K nc)).2.hess_appx, x0 := d1.x0 } : RecourseApproxEvaluator K nc) := by
    rw [n4, hrval, hgrad, hx0]
  have hset := hp.set_state d.master_prob_ d1.master_prob_
    ({ rval := d.rval, rgrad := d.grad_r, rhess := (model_update sqrt it d.hess_appx_2 { d.vars with hess_appx := setToConstant c0 }
      ({ rval := d.rval, x0 := d.x0, grad_r := d.grad_r, objective := p.get_objective d.master_prob_ } : IterInput K nc)).2.hess_appx, x0 := d.x0 } : RecourseApproxEvaluator K nc) e2
  refine ⟨⟨?_, ?_, n1, n2, n3, hcount, ?_⟩, congrArg Prod.fst hstop⟩
  · show (p.solve_master (p.set_recourse_approx_evaluator d.master_prob_ _).2 d.x_ true).2.1 =
      (p1.solve_master (p1.set_recourse_approx_evaluator d1.master_prob_
        ({ rval := d1.rval, rgrad := d1.grad_r, rhess := (model_update sqrt it d1.hess_appx_2 { d1.vars with hess_appx := setToConstant c1 }
      ({ rval := d1.rval, x0 := d1.x0, grad_r := d1.grad_r, objective := p1.get_objective d1.master_prob_ } : IterInput K nc)).2.hess_appx, x0 := d1.x0 } : RecourseApproxEvaluator K nc)).2 d1.x_ true).2.1
    rw [e1, ← hev]
    exact hp.solve_x _ _ d1.x_ true hset
  · show R (p.solve_master (p.set_recourse_approx_evaluator d.master_prob_ _).2 d.x_ true).2.2
      (p1.solve_master (p1.set_recourse_approx_evaluator d1.master_prob_
        ({ rval := d1.rval, rgrad := d1.grad_r, rhess := (model_update sqrt it d1.hess_appx_2 { d1.vars with hess_appx := setToConstant c1 }
      ({ rval := d1.rval, x0 := d1.x0, grad_r := d1.grad_r, objective := p1.get_objective d1.master_prob_ } : IterInput K nc)).2.hess_appx, x0 := d1.x0 } : RecourseApproxEvaluator K nc)).2 d1.x_ true).2.2
    rw [e1, ← hev]
    exact hp.solve_state _ _ d1.x_ true hset
  · show (d.trace ++ [_]).map IterRecord.observed = (d1.trace ++ [_]).map IterRecord.observed
    rw [List.map_append, List.map_append, e7]
    congr 1
    simp only [List.map_singleton, IterRecord.observed, List.cons.injEq, and_true]
    rw [Observed.mk.injEq]
    exact ⟨rfl, hx0, hrval, hgrad, n4, n5, n3, hcount, congrArg Prod.fst hstop⟩

/-- The body of the outer loop of `run_single()`, on two related solving
ranks: both fail the assertion `nc_ == n_`, or both go on, related again and
with the same answer to whether the loop is left. -/
theorem run_single_iteration_rel (sqrt : K → K) (a a1 : hiopAlgPrimalDecomposition K n nc)
    (p : hiopInterfacePriDecProblem K σ n nc) (p1 : hiopInterfacePriDecProblem K σ1 n nc)
    (R : σ → σ1 → Prop) (hp : SameResponses p p1 R) (ha : SameConfig a a1) (it : Nat)
    (d : Driver K σ n nc) (d1 : Driver K σ1 n nc) (hd : DriverRel R it d d1) :
    ExceptRel (fun v w => DriverRel R (it + 1) v.1 w.1 ∧ v.2 = w.2)
      (run_single_iteration sqrt a p it d) (run_single_iteration sqrt a1 p1 it d1) := by
  have hi := initial_solve_rel p p1 R hp it d d1 hd
  obtain ⟨e1, e2, e3, e4, e5, e6, e7⟩ := hi
  have hcp : a.coupled_point (initial_solve p it d).x_ =
      a1.coupled_point (initial_solve p1 it d1).x_ := by
    rw [e1]
    exact coupled_point_congr a a1 _ ha.2.2.2.2.2.2.2.2
  unfold run_single_iteration
  simp only [hcp]
  cases hc : a1.coupled_point (initial_solve p1 it d1).x_ with
  | none => simp only [ExceptRel]
  | some x0 =>
    simp only [ExceptRel]
    have hagg := run_single_aggregate_congr a a1 p.rterms p1.rterms x0 ha.1 hp.eval_f hp.eval_grad
    rw [hagg]
    exact model_and_solve_rel sqrt a a1 p p1 R hp ha (10 ^ 6) (10 ^ 6) it _ _
      ⟨e1, e2, e3, e4, e5, e6, e7⟩ rfl rfl rfl

/-- Two loops whose bodies keep a relation between their states, and agree
on when to break, end in related states or in a fault both. -/
theorem outer_loop_rel {D D1 : Type} (step : Nat → D → Except RunFault (D × Bool))
    (step1 : Nat → D1 → Except RunFault (D1 × Bool)) (P : Nat → D → D1 → Prop)
    (hstep : ∀ it d d1, P it d d1 →
      ExceptRel (fun v w => P (it + 1) v.1 w.1 ∧ v.2 = w.2) (step it d) (step1 it d1)) :
    ∀ (k it : Nat) (d : D) (d1 : D1), P it d d1 →
      ExceptRel (fun v w => ∃ j, P j v w) (outer_loop step k it d) (outer_loop step1 k it d1) := by
  intro k
  induction k with
  | zero =>
    intro it d d1 h
    exact ⟨it, h⟩
  | succ k ih =>
    intro it d d1 h
    have hs := hstep it d d1 h
    unfold outer_loop
    cases hv : step it d with
    | error e =>
      cases hw : step1 it d1 with
      | error e1 => simp only [ExceptRel]
      | ok w => rw [hv, hw] at hs; exact hs.elim
    | ok v =>
      cases hw : step1 it d1 with
      | error e1 => rw [hv, hw] at hs; exact hs.elim
      | ok w =>
        rw [hv, hw] at hs
        obtain ⟨v1, vb⟩ := v
        obtain ⟨w1, wb⟩ := w
        obtain ⟨h1, h2⟩ := hs
        simp only at h1 h2
        subst h2
        cases vb with
        | true => exact ⟨it + 1, h1⟩
        | false => exact ih (it + 1) v1 w1 h1

/-- Two runs of `run_single()` with the same configuration, the same bounds of
the ratio in the class declaration, and master problems that give the same
numeric responses: both fail the assertion `nc_ == n_`, or both return, with
the same status, having shown the same in every outer iteration and holding
the same `x_`. -/
theorem run_single_rel (sqrt : K → K) (a a1 : hiopAlgPrimalDecomposition K n nc)
    (p : hiopInterfacePriDecProblem K σ n nc) (p1 : hiopInterfacePriDecProblem K σ1 n nc)
    (R : σ → σ1 → Prop) (hp : SameResponses p p1 R) (ha : SameConfig a a1)
    (decl decl1 : HessianApprox K nc) (u u1 : Uninit K nc) (s0 : σ) (s1 : σ1) (hs : R s0 s1)
    (hmin : decl.ratio_min = decl1.ratio_min) (hmax : decl.ratio_max = decl1.ratio_max) :
    ExceptRel (fun v w => v.1 = w.1 ∧ v.2.x_ = w.2.x_ ∧
        v.2.trace.map IterRecord.observed = w.2.trace.map IterRecord.observed)
      (run_single sqrt a p decl u s0) (run_single sqrt a1 p1 decl1 u1 s1) := by
  obtain ⟨_, _, _, _, a5, a6, a7, a8, _⟩ := ha
  have h0 : DriverRel R 0 (run_single_init a decl u s0) (run_single_init a1 decl1 u1 s1) := by
    refine ⟨rfl, hs, ⟨a8, hmin, hmax, a6, a7, fun hc => absurd hc (by decide)⟩, rfl, rfl, rfl, rfl⟩
  have hl := outer_loop_rel (run_single_iteration sqrt a p) (run_single_iteration sqrt a1 p1)
    (DriverRel R) (fun it d d1 hd => run_single_iteration_rel sqrt a a1 p p1 R hp
      ⟨by assumption, by assumption, by assumption, by assumption, a5, a6, a7, a8,
        by assumption⟩ it d d1 hd)
    a.max_iter_.toNat 0 _ _ h0
  unfold run_single
  rw [← a5]
  cases hv : outer_loop (run_single_iteration sqrt a p) a.max_iter_.toNat 0
      (run_single_init a decl u s0) with
  | error e =>
    cases hw : outer_loop (run_single_iteration sqrt a1 p1) a.max_iter_.toNat 0
        (run_single_init a1 decl1 u1 s1) with
    | error e1 => simp only [ExceptRel]
    | ok w => rw [hv, hw] at hl; exact hl.elim
  | ok v =>
    cases hw : outer_loop (run_single_iteration sqrt a1 p1) a.max_iter_.toNat 0
        (run_single_init a1 decl1 u1 s1) with
    | error e1 => rw [hv, hw] at hl; exact hl.elim
    | ok w =>
      rw [hv, hw] at hl
      obtain ⟨j, h1, _, _, _, _, _, h7⟩ := hl
      exact ⟨rfl, h1, h7⟩

end rel_lemmas

section single_lemmas

variable {K : Type} [LinearOrderedField K] {σ : Type} {n nc : Nat}

/-- `run_single()` makes no `MPI_Bcast` and never assigns `end_signal`. -/
theorem run_single_no_bcast (sqrt : K → K) (a : hiopAlgPrimalDecomposition K n nc)
    (p : hiopInterfacePriDecProblem K σ n nc) (decl : HessianApprox K nc) (u : Uninit K nc)
    (s0 : σ) (st : hiopSolveStatus) (d : Driver K σ n nc)
    (h : run_single sqrt a p decl u s0 = .ok (st, d)) :
    d.bcasts = [] ∧ d.end_signal = 0 := by
  unfold run_single at h
  cases hl : outer_loop (run_single_iteration sqrt a p) a.max_iter_.toNat 0
      (run_single_init a decl u s0) with
  | error e => rw [hl] at h; cases h
  | ok dF =>
    rw [hl] at h
    cases h
    have hstep : ∀ (it : Nat) (d d1 : Driver K σ n nc) (b : Bool),
        (d.bcasts = [] ∧ d.end_signal = 0) → run_single_iteration sqrt a p it d = .ok (d1, b) →
        (b = false → (d1.bcasts = [] ∧ d1.end_signal = 0)) ∧
        (b = true → (d1.bcasts = [] ∧ d1.end_signal = 0)) := by
      intro it d d1 b ⟨i1, i2⟩ hst
      unfold run_single_iteration at hst
      obtain ⟨_, _, f3, f4, _, _, _⟩ := initial_solve_frame p it d
      cases hc : a.coupled_point (initial_solve p it d).x_ with
      | none => simp only [hc] at hst; cases hst
      | some x0 =>
        simp only [hc] at hst
        injection hst with hst
        obtain ⟨r, _, _, _, _, _, _, g7, g8, _⟩ := model_and_solve_spec sqrt a p (10 ^ 6) it
          { initial_solve p it d with
            rval := (run_single_aggregate a p.rterms x0).1,
            grad_r := (run_single_aggregate a p.rterms x0).2, x0 := x0,
            recourse_val := (run_single_aggregate a p.rterms x0).1 }
        rw [hst] at g7 g8
        simp only at g7 g8
        have : d1.bcasts = [] ∧ d1.end_signal = 0 := ⟨by rw [g8, f4, i1], by rw [g7, f3, i2]⟩
        exact ⟨fun _ => this, fun _ => this⟩
    rcases outer_loop_inv _
        (fun (_ : Nat) (d : Driver K σ n nc) => d.bcasts = [] ∧ d.end_signal = 0)
        (fun (_ : Nat) (d : Driver K σ n nc) => d.bcasts = [] ∧ d.end_signal = 0)
        hstep a.max_iter_.toNat 0 (run_single_init a decl u s0) d ⟨rfl, rfl⟩ hl with
      ⟨_, _, _, h3⟩ | h4
    · exact h3
    · exact h4

/-- With a single rank there is no evaluator: the polling loop of the
multi-rank part keeps `idx = 0` and is never left. -/
theorem master_loop_alone (a : hiopAlgPrimalDecomposition K n nc) (prob : RecourseProblem K nc)
    (x0 : Vec K nc) (ready : Nat → Nat → Bool) (h1 : a.comm_size_ = 1) :
    ∀ (fuel t : Nat) (m : Master K nc), m.idx ≤ a.S_ → m.last_loop = 0 →
      master_loop a prob x0 ready fuel t m = .error (Fault.still_polling, m.log) := by
  have hr : ranks a = [] := by
    unfold ranks
    rw [h1]
    rfl
  have hpass : ∀ (rd : Nat → Bool) (m : Master K nc), m.last_loop = 0 →
      master_pass a prob x0 rd m = .ok m := by
    intro rd m hl
    unfold master_pass
    rw [hr]
    simp [hl, pure, Except.pure, bind, Except.bind]
  intro fuel
  induction fuel with
  | zero =>
    intro t m hi _
    unfold master_loop
    rw [if_pos (Or.inl hi)]
  | succ fuel ih =>
    intro t m hi hl
    rw [master_loop_succ a prob x0 ready fuel t m m (Or.inl hi) (hpass _ m hl)]
    exact ih (t + 1) m hi hl

/-- With a single rank the distribution of the multi-rank part does not
return, whatever the number of passes allowed. -/
theorem master_dispatch_alone (a : hiopAlgPrimalDecomposition K n nc)
    (prob : RecourseProblem K nc) (x0 : Vec K nc) (ready : Nat → Nat → Bool) (fuel : Nat)
    (rval0 : K) (grad_r0 : Vec K nc) (buf0 : Nat → K × Vec K nc) (h1 : a.comm_size_ = 1) :
    master_dispatch a prob x0 ready fuel (master_init rval0 grad_r0 buf0) =
      .error (Fault.still_polling, []) := by
  have hb := master_begin_eq a rval0 grad_r0 buf0 (by omega)
  unfold master_dispatch
  simp only [bind, Except.bind, hb]
  have hlog : (master_at_loop a buf0).log = [] := by
    unfold master_at_loop initLog
    simp [ranks, h1]
  rw [← hlog]
  apply master_loop_alone a prob x0 ready h1
  · show (master_at_loop a buf0).idx ≤ a.S_
    unfold master_at_loop
    simp [h1]
  · rfl

end single_lemmas

section dispatch_congr

variable {K : Type} [LinearOrderedField K] {n nc : Nat}

/-- An evaluation reads the value and the gradient the two calls give back,
not their `bool`s. -/
theorem worker_eval_congr (a : hiopAlgPrimalDecomposition K n nc)
    (prob prob1 : RecourseProblem K nc)
    (hf : ∀ i x v, (prob.eval_f_rterm i x v).2 = (prob1.eval_f_rterm i x v).2)
    (hg : ∀ i x g, (prob.eval_grad_rterm i x g).2 = (prob1.eval_grad_rterm i x g).2)
    (x0 : Vec K nc) (w : Worker K nc) :
    worker_eval a prob x0 w = worker_eval a prob1 x0 w := by
  simp only [worker_eval, hf, hg]

/-- A step of an evaluator rank does not read the `bool`s. -/
theorem worker_step_congr (a : hiopAlgPrimalDecomposition K n nc)
    (prob prob1 : RecourseProblem K nc)
    (hf : ∀ i x v, (prob.eval_f_rterm i x v).2 = (prob1.eval_f_rterm i x v).2)
    (hg : ∀ i x g, (prob.eval_grad_rterm i x g).2 = (prob1.eval_grad_rterm i x g).2)
    (x0 : Vec K nc) (ready : Bool) (w : Worker K nc) :
    worker_step a prob x0 ready w = worker_step a prob1 x0 ready w := by
  simp only [worker_step, worker_eval_congr a prob prob1 hf hg]

/-- The block of an evaluator rank does not read the `bool`s. -/
theorem worker_run_congr (a : hiopAlgPrimalDecomposition K n nc)
    (prob prob1 : RecourseProblem K nc)
    (hf : ∀ i x v, (prob.eval_f_rterm i x v).2 = (prob1.eval_f_rterm i x v).2)
    (hg : ∀ i x g, (prob.eval_grad_rterm i x g).2 = (prob1.eval_grad_rterm i x g).2)
    (x0 : Vec K nc) (ready : Nat → Bool) :
    ∀ (fuel t : Nat) (w : Worker K nc),
      worker_run a prob x0 ready fuel t w = worker_run a prob1 x0 ready fuel t w := by
  intro fuel
  induction fuel with
  | zero => intro t w; rfl
  | succ fuel ih =>
    intro t w
    simp only [worker_run, worker_step_congr a prob prob1 hf hg, ih]

/-- What an evaluator rank sends, and how the end of the iteration finds it,
do not depend on the `bool`s. -/
theorem worker_posts_congr (a : hiopAlgPrimalDecomposition K n nc)
    (prob prob1 : RecourseProblem K nc)
    (hf : ∀ i x v, (prob.eval_f_rterm i x v).2 = (prob1.eval_f_rterm i x v).2)
    (hg : ∀ i x g, (prob.eval_grad_rterm i x g).2 = (prob1.eval_grad_rterm i x g).2)
    (x0 : Vec K nc) :
    (∀ inbox, worker_posts a prob x0 inbox = worker_posts a prob1 x0 inbox) ∧
    (∀ prev m r, worker_final a prob x0 prev m r = worker_final a prob1 x0 prev m r) := by
  refine ⟨?_, ?_⟩
  · intro inbox
    simp only [worker_posts, worker_exec, worker_run_congr a prob prob1 hf hg]
  · intro prev m r
    simp only [worker_final, worker_exec, worker_run_congr a prob prob1 hf hg]

/-- A pass of the polling loop of rank 0 does not depend on the `bool`s. -/
theorem master_pass_congr (a : hiopAlgPrimalDecomposition K n nc)
    (prob prob1 : RecourseProblem K nc)
    (hf : ∀ i x v, (prob.eval_f_rterm i x v).2 = (prob1.eval_f_rterm i x v).2)
    (hg : ∀ i x g, (prob.eval_grad_rterm i x g).2 = (prob1.eval_grad_rterm i x g).2)
    (x0 : Vec K nc) (ready : Nat → Bool) (m : Master K nc) :
    master_pass a prob x0 ready m = master_pass a prob1 x0 ready m := by
  simp only [master_pass, master_visit, master_test,
    (worker_posts_congr a prob prob1 hf hg x0).1]

/-- The polling loop of rank 0 does not depend on the `bool`s. -/
theorem master_loop_congr (a : hiopAlgPrimalDecomposition K n nc)
    (prob prob1 : RecourseProblem K nc)
    (hf : ∀ i x v, (prob.eval_f_rterm i x v).2 = (prob1.eval_f_rterm i x v).2)
    (hg : ∀ i x g, (prob.eval_grad_rterm i x g).2 = (prob1.eval_grad_rterm i x g).2)
    (x0 : Vec K nc) (ready : Nat → Nat → Bool) :
    ∀ (fuel t : Nat) (m : Master K nc),
      master_loop a prob x0 ready fuel t m = master_loop a prob1 x0 ready fuel t m := by
  intro fuel
  induction fuel with
  | zero => intro t m; rfl
  | succ fuel ih =>
    intro t m
    simp only [master_loop, master_pass_congr a prob prob1 hf hg, ih]

/-- The aggregate rank 0 holds after the distribution and collection of an
outer iteration does not depend on the `bool`s the evaluations return. -/
theorem dispatch_aggregate_congr (a : hiopAlgPrimalDecomposition K n nc)
    (prob prob1 : RecourseProblem K nc)
    (hf : ∀ i x v, (prob.eval_f_rterm i x v).2 = (prob1.eval_f_rterm i x v).2)
    (hg : ∀ i x g, (prob.eval_grad_rterm i x g).2 = (prob1.eval_grad_rterm i x g).2)
    (x0 : Vec K nc) (ready : Nat → Nat → Bool) (fuel : Nat) (m : Master K nc)
    (prev : Nat → (K × Vec K nc) × (K × Vec K nc)) :
    dispatch_aggregate a prob x0 ready fuel m prev =
      dispatch_aggregate a prob1 x0 ready fuel m prev := by
  have hw : ∀ m, worker_final a prob x0 prev m = worker_final a prob1 x0 prev m :=
    fun m => funext (fun r => (worker_posts_congr a prob prob1 hf hg x0).2 prev m r)
  simp only [dispatch_aggregate, master_dispatch, master_loop_congr a prob prob1 hf hg, hw]

end dispatch_congr

section outer_claims

variable {K : Type} [LinearOrderedField K] {σ : Type} {n nc : Nat}

/-- The schedule of the examples is fair: rank `r` answers in the passes
`r - 1, 2 r - 1, ...`. -/
theorem ex_ready_fair : Fair ex_alg ex_ready := by
  intro r hr t
  have hr1 : 1 ≤ r := ((mem_ranks ex_alg r).mp hr).1
  refine ⟨r * (t + 1) - 1, ?_, ?_⟩
  · have : t + 1 ≤ r * (t + 1) := Nat.le_mul_of_pos_left _ hr1
    omega
  · unfold ex_ready
    have h1 : 1 ≤ r * (t + 1) := Nat.mul_pos hr1 (Nat.succ_pos t)
    rw [Nat.sub_add_cancel h1, Nat.mul_mod_right]
    rfl

/-- C17. Stopping criteria: `stopping_criteria(it, convg, accp_count)` returns
`true` if and only if `convg < tol_`, or `it == max_iter_ - 1`, or
`accp_count == accp_count_`.  The three tests are made in this order: the
message logged is the one of the first test that holds, and nothing is logged
when none does.  The method reads `tol_`, `max_iter_` and `accp_count_` and
assigns no member: it is a function of these three and of its arguments. -/
theorem stopping_criteria_spec (a : hiopAlgPrimalDecomposition K n nc) (it : Int) (convg : K)
    (accp_count : Int) :
    ((a.stopping_criteria it convg accp_count).1 = true ↔
      convg < a.tol_ ∨ it = a.max_iter_ - 1 ∨ accp_count = a.accp_count_) ∧
    (convg < a.tol_ →
      a.stopping_criteria it convg accp_count = (true, [.reaching_error_tolerance])) ∧
    (¬ convg < a.tol_ → it = a.max_iter_ - 1 →
      a.stopping_criteria it convg accp_count = (true, [.reached_maximum_iterations])) ∧
    (¬ convg < a.tol_ → it ≠ a.max_iter_ - 1 → accp_count = a.accp_count_ →
      a.stopping_criteria it convg accp_count = (true, [.reached_acceptable_tolerance])) ∧
    (¬ convg < a.tol_ → it ≠ a.max_iter_ - 1 → accp_count ≠ a.accp_count_ →
      a.stopping_criteria it convg accp_count = (false, [])) ∧
    (∀ a1 : hiopAlgPrimalDecomposition K n nc, a1.tol_ = a.tol_ → a1.max_iter_ = a.max_iter_ →
      a1.accp_count_ = a.accp_count_ →
      a1.stopping_criteria it convg accp_count = a.stopping_criteria it convg accp_count) := by
  refine ⟨stopping_criteria_true a it convg accp_count, ?_, ?_, ?_, ?_, ?_⟩
  · intro h1
    unfold hiopAlgPrimalDecomposition.stopping_criteria
    rw [if_pos h1]
  · intro h1 h2
    unfold hiopAlgPrimalDecomposition.stopping_criteria
    rw [if_neg h1, if_pos h2]
  · intro h1 h2 h3
    unfold hiopAlgPrimalDecomposition.stopping_criteria
    rw [if_neg h1, if_neg h2, if_pos h3]
  · intro h1 h2 h3
    unfold hiopAlgPrimalDecomposition.stopping_criteria
    rw [if_neg h1, if_neg h2, if_neg h3]
  · intro a1 e1 e2 e3
    exact stopping_criteria_congr a a1 e1 e2 e3 it convg accp_count

/-- Instances of `stopping_criteria_spec` at `tol_ = 1e-8`, `max_iter_ = 200`,
`accp_count_ = 10`: each test alone, all three together (the first one is
logged), and none. -/
theorem stopping_criteria_spec_witness :
    ex_alg.stopping_criteria 5 (1 / 10 ^ 9) 0 = (true, [.reaching_error_tolerance]) ∧
    ex_alg.stopping_criteria 199 1 0 = (true, [.reached_maximum_iterations]) ∧
    ex_alg.stopping_criteria 5 1 10 = (true, [.reached_acceptable_tolerance]) ∧
    ex_alg.stopping_criteria 199 (1 / 10 ^ 9) 10 = (true, [.reaching_error_tolerance]) ∧
    ex_alg.stopping_criteria 5 1 3 = (false, []) := by
  refine ⟨?_, ?_, ?_, ?_, ?_⟩
  · exact (stopping_criteria_spec ex_alg 5 (1 / 10 ^ 9) 0).2.1 (by norm_num [ex_alg])
  · exact (stopping_criteria_spec ex_alg 199 1 0).2.2.1 (by norm_num [ex_alg])
      (by norm_num [ex_alg])
  · exact (stopping_criteria_spec ex_alg 5 1 10).2.2.2.1 (by norm_num [ex_alg])
      (by norm_num [ex_alg]) (by norm_num [ex_alg])
  · exact (stopping_criteria_spec ex_alg 199 (1 / 10 ^ 9) 10).2.1 (by norm_num [ex_alg])
  · exact (stopping_criteria_spec ex_alg 5 1 3).2.2.2.2.1 (by norm_num [ex_alg])
      (by norm_num [ex_alg]) (by norm_num [ex_alg])

/-- In a sound record of an iteration `it ≥ 1` the metric handed to
`stopping_criteria` is the smaller of the two convergence measures, both
taken on the trust-region state that `get_alpha_f` left, itself called on the
outcome of `update_ratio`. -/
theorem sound_metric (sqrt : K → K) (a : hiopAlgPrimalDecomposition K n nc)
    (r : IterRecord K nc) (hs : r.Sound sqrt a) (hit : 1 ≤ r.it) :
    r.sc_convg = min r.step.vars.convg_f r.step.vars.convg_g ∧
    r.step.vars.convg_f =
      r.step.post.check_convergence_fcn sqrt r.step.vars.base_val r.step.vars.base_valm1 ∧
    r.step.vars.convg_g = r.step.post.check_convergence_grad sqrt r.inp.grad_r ∧
    r.step.post = (r.step.pre.get_alpha_f sqrt r.inp.grad_r).2 ∧
    r.step.vars.hess_appx = setToConstant (r.step.pre.get_alpha_f sqrt r.inp.grad_r).1 ∧
    (∃ h1 : HessianApprox K nc,
      r.step.pre = h1.update_ratio sqrt r.step.vars.base_val r.step.vars.base_valm1) := by
  obtain ⟨_, ⟨h0, v0, e1, e2, e3⟩, e4, _, _⟩ := hs
  have hne : ¬ r.it = 0 := by omega
  have hpre : (model_pre sqrt r.it h0 v0 r.inp).1 =
      (h0.update_hess_coeff r.inp.x0 r.inp.grad_r r.inp.rval).update_ratio sqrt
        ((h0.update_hess_coeff r.inp.x0 r.inp.grad_r r.inp.rval).compute_base sqrt
          r.inp.objective) v0.base_val := by
    simp only [model_pre, if_neg hne]
  have hvars : (model_update sqrt r.it h0 v0 r.inp).2 =
      { (model_pre sqrt r.it h0 v0 r.inp).2 with
        convg_g := (model_update sqrt r.it h0 v0 r.inp).1.check_convergence_grad sqrt r.inp.grad_r,
        convg_f := (model_update sqrt r.it h0 v0 r.inp).1.check_convergence_fcn sqrt
          (model_pre sqrt r.it h0 v0 r.inp).2.base_val
          (model_pre sqrt r.it h0 v0 r.inp).2.base_valm1,
        convg := std_min
          ((model_update sqrt r.it h0 v0 r.inp).1.check_convergence_fcn sqrt
            (model_pre sqrt r.it h0 v0 r.inp).2.base_val
            (model_pre sqrt r.it h0 v0 r.inp).2.base_valm1)
          ((model_update sqrt r.it h0 v0 r.inp).1.check_convergence_grad sqrt r.inp.grad_r),
        hess_appx := setToConstant
          ((model_pre sqrt r.it h0 v0 r.inp).1.get_alpha_f sqrt r.inp.grad_r).1 } := by
    simp only [model_update, if_neg hne]
  have hbase : (model_pre sqrt r.it h0 v0 r.inp).2.base_val =
      (h0.update_hess_coeff r.inp.x0 r.inp.grad_r r.inp.rval).compute_base sqrt r.inp.objective ∧
      (model_pre sqrt r.it h0 v0 r.inp).2.base_valm1 = v0.base_val := by
    simp only [model_pre, if_neg hne, and_self]
  rw [← e2, ← e3] at hvars
  have hpost : r.step.post = (r.step.pre.get_alpha_f sqrt r.inp.grad_r).2 := by
    rw [e2, e1]
    exact model_update_state sqrt r.it h0 v0 r.inp
  refine ⟨?_, ?_, ?_, hpost, ?_,
    ⟨h0.update_hess_coeff r.inp.x0 r.inp.grad_r r.inp.rval, ?_⟩⟩
  · rw [e4, hvars, ← std_min_eq_min]
  · rw [hvars]
  · rw [hvars]
  · rw [hvars, e1]
  · rw [e1, hpre, hvars]
    simp only [hbase.1, hbase.2]

/-- An evaluator rank never assigns `convg`: it is `1e20` at the return. -/
theorem evaluator_loop_convg (a : hiopAlgPrimalDecomposition K n nc) :
    ∀ (k it : Nat) (bc : List (Vec K n × Int)) (w : EvaluatorLoop K n) (st : hiopSolveStatus)
      (w1 : EvaluatorLoop K n) (um : List (Vec K n × Int)),
      evaluator_loop a k it bc w = .returned st w1 um → w1.convg = w.convg ∧ st = Solve_Success := by
  intro k
  induction k with
  | zero =>
    intro it bc w st w1 um h
    simp only [evaluator_loop] at h
    injection h with h1 h2 h3
    exact ⟨by rw [← h2], h1.symm⟩
  | succ k ih =>
    intro it bc w st w1 um h
    cases bc with
    | nil => simp only [evaluator_loop] at h; cases h
    | cons b bc =>
      simp only [evaluator_loop] at h
      cases hb : (evaluator_iteration a it b w).2 with
      | true =>
        have he : evaluator_iteration a it b w = ((evaluator_iteration a it b w).1, true) := by
          rw [← hb]
        rw [he] at h
        simp only at h
        injection h with h1 h2 h3
        exact ⟨by rw [← h2]; rfl, h1.symm⟩
      | false =>
        have he : evaluator_iteration a it b w = ((evaluator_iteration a it b w).1, false) := by
          rw [← hb]
        rw [he] at h
        simp only at h
        have hi := ih (it + 1) bc (evaluator_iteration a it b w).1 st w1 um h
        exact ⟨hi.1.trans rfl, hi.2⟩

/-- C16. Active convergence metric.  On the rank that solves the master
problem, whichever of `run()`, `run_local()`, `run_single()` it came through,
at every outer iteration `it ≥ 1` the value `convg` handed to
`stopping_criteria` is `min(convg_f, convg_g)`, where
`convg_f = check_convergence_fcn(base_val, base_valm1)` and
`convg_g = check_convergence_grad(grad_r)` are taken on the trust-region state
that `get_alpha_f(grad_r)` left, itself called on the outcome of
`update_ratio(base_val, base_valm1)`; the curvature vector installed has the
value `get_alpha_f` returned in every entry.  Every iteration made has its
record.  (On an evaluator rank `convg` is never assigned: it is `1e20` at the
return.)  Such runs exist: `run_single()` returns whenever `nc_ ≤ n_`, and so
does rank 0 of the other two under schedules that are fair in every outer
iteration. -/
theorem active_convergence_metric (sqrt : K → K) (a : hiopAlgPrimalDecomposition K n nc)
    (p : hiopInterfacePriDecProblem K σ n nc) (decl : HessianApprox K nc) (u : Uninit K nc)
    (s0 : σ) (sched : Schedule K nc) (bc : List (Vec K n × Int)) (st : hiopSolveStatus)
    (d : Driver K σ n nc)
    (h : run sqrt a p decl u s0 sched bc = .solver (.ok (st, d)) ∨
         run_local sqrt a p decl u s0 sched bc = .solver (.ok (st, d)) ∨
         run_single sqrt a p decl u s0 = .ok (st, d)) :
    (∀ r ∈ d.trace, 1 ≤ r.it →
      r.stop = (a.stopping_criteria (r.it : Int) r.sc_convg r.sc_accp_count).1 ∧
      r.sc_convg = min r.step.vars.convg_f r.step.vars.convg_g ∧
      r.step.vars.convg_f =
        r.step.post.check_convergence_fcn sqrt r.step.vars.base_val r.step.vars.base_valm1 ∧
      r.step.vars.convg_g = r.step.post.check_convergence_grad sqrt r.inp.grad_r ∧
      r.step.post = (r.step.pre.get_alpha_f sqrt r.inp.grad_r).2 ∧
      r.step.vars.hess_appx = setToConstant (r.step.pre.get_alpha_f sqrt r.inp.grad_r).1 ∧
      (∃ h1 : HessianApprox K nc,
        r.step.pre = h1.update_ratio sqrt r.step.vars.base_val r.step.vars.base_valm1)) ∧
    (∀ k, k < d.trace.length → ∃ r, d.trace[k]? = some r ∧ r.it = k) ∧
    (∀ (bc1 : List (Vec K n × Int)) (st1 : hiopSolveStatus) (w : EvaluatorLoop K n)
      (um : List (Vec K n × Int)), run_evaluator a bc1 = .returned st1 w um →
        w.convg = 10 ^ 20) ∧
    (nc ≤ n → ∃ d1, run_single sqrt a p decl u s0 = .ok (Solve_Success, d1)) ∧
    (nc ≤ n → 2 ≤ a.comm_size_ → a.comm_size_ ≤ a.S_ + 1 → (∀ it, Fair a (sched.ready it)) →
      ∃ (fuel : Nat → Nat) (d1 : Driver K σ n nc),
        run_master sqrt a p decl u s0 { sched with fuel := fuel } = .ok (d1.solver_status_, d1)) := by
  obtain ⟨hok, _⟩ := solver_trace sqrt a p decl u s0 sched bc st d h
  refine ⟨?_, ?_, ?_, fun hn => run_single_returns sqrt a p decl u s0 hn,
    fun hn hP hS hfair => run_master_returns sqrt a p decl u s0 sched hn hP hS hfair⟩
  · intro r hr hit
    obtain ⟨k, hk1, hk2⟩ := List.getElem_of_mem hr
    obtain ⟨_, hs, _⟩ := hok k r (by rw [List.getElem?_eq_getElem hk1, hk2])
    obtain ⟨m1, m2, m3, m4, m5, m6⟩ := sound_metric sqrt a r hs hit
    obtain ⟨s1, _, _, s4, _⟩ := hs
    exact ⟨by rw [s4, s1], m1, m2, m3, m4, m5, m6⟩
  · intro k hk
    exact ⟨d.trace[k], List.getElem?_eq_getElem hk, (hok k _ (List.getElem?_eq_getElem hk)).1⟩
  · intro bc1 st1 w um hw
    exact (evaluator_loop_convg a _ _ _ _ _ _ _ hw).1

/-- Instance of `active_convergence_metric`: `run_single()` in the scenario
`S = 4`, `f_i(x) = (x - i)^2` returns, makes at least two outer iterations, and
from iteration 1 on hands `min(convg_f, convg_g)` to `stopping_criteria`. -/
theorem active_convergence_metric_witness :
    ∃ d, run_single ex_sqrt2 ex_alg ex_master_prob ex_decl ex_uninit 0 = .ok (Solve_Success, d) ∧
      2 ≤ d.trace.length ∧
      ∀ r ∈ d.trace, 1 ≤ r.it → r.sc_convg = min r.step.vars.convg_f r.step.vars.convg_g := by
  obtain ⟨d, hd⟩ := run_single_returns ex_sqrt2 ex_alg ex_master_prob ex_decl ex_uninit 0
    (le_refl 1)
  refine ⟨d, hd, ?_, ?_⟩
  · exact first_iteration_goes_on ex_sqrt2 ex_alg ex_master_prob ex_decl ex_uninit 0 ex_sched []
      _ d (Or.inr (Or.inr hd)) (by norm_num [ex_alg]) (by norm_num [ex_alg])
      (by norm_num [ex_alg]) (by norm_num [ex_alg])
  · intro r hr hit
    exact ((active_convergence_metric ex_sqrt2 ex_alg ex_master_prob ex_decl ex_uninit 0 ex_sched
      [] _ d (Or.inr (Or.inr hd))).1 r hr hit).2.1

/-- On the solving rank every record holds what its call of
`stopping_criteria` returned, and the loop is left at the first record that
holds `true`. -/
theorem stops_at_first_true (sqrt : K → K) (a : hiopAlgPrimalDecomposition K n nc)
    (p : hiopInterfacePriDecProblem K σ n nc) (decl : HessianApprox K nc) (u : Uninit K nc)
    (s0 : σ) (sched : Schedule K nc) (bc : List (Vec K n × Int)) (st : hiopSolveStatus)
    (d : Driver K σ n nc)
    (h : run sqrt a p decl u s0 sched bc = .solver (.ok (st, d)) ∨
         run_local sqrt a p decl u s0 sched bc = .solver (.ok (st, d)) ∨
         run_single sqrt a p decl u s0 = .ok (st, d)) :
    ∀ (k : Nat) (r : IterRecord K nc), d.trace[k]? = some r →
      r.stop = (a.stopping_criteria (k : Int) r.sc_convg r.sc_accp_count).1 ∧
      (r.stop = true ↔ k + 1 = d.trace.length) := by
  obtain ⟨hok, hend⟩ := solver_trace sqrt a p decl u s0 sched bc st d h
  intro k r hk
  obtain ⟨e1, ⟨s1, _, _, s4, _⟩, _⟩ := hok k r hk
  refine ⟨by rw [s4, s1, e1], ?_⟩
  rcases hend with ⟨_, h2⟩ | ⟨j, _, _, h4, _, h6⟩
  · rw [h2] at hk
    cases hk
  · rw [h6 k r hk, h4]
    omega

/-- C18. Acceptable streak.  On the rank that solves the master problem,
whichever of `run()`, `run_local()`, `run_single()` it came through, with
`convg_0, convg_1, ...` the metrics handed to `stopping_criteria`: the count
handed to it at iteration `k` is the length of the longest run of consecutive
iterations ending at `k` with `convg_j ≤ accp_tol_`, which is `0` when
`convg_k > accp_tol_`; with `acceptable_iterations ≥ 1` the count never exceeds
`acceptable_iterations`; the call returns `true` exactly when `convg_k < tol_`,
or `k = max_iter_ - 1`, or that run length equals `acceptable_iterations`; and
the loop is left at the first iteration at which the call returns `true`, so
that, unless one of the first two criteria holds earlier, it is left at the
first iteration at which the run length equals `acceptable_iterations`.  At
most `max_iter_` iterations are made, and at least one if `max_iter_ ≥ 1`.
Such runs exist: `run_single()` returns whenever `nc_ ≤ n_`, and so does rank 0
of the other two under schedules that are fair in every outer iteration. -/
theorem acceptable_streak (sqrt : K → K) (a : hiopAlgPrimalDecomposition K n nc)
    (p : hiopInterfacePriDecProblem K σ n nc) (decl : HessianApprox K nc) (u : Uninit K nc)
    (s0 : σ) (sched : Schedule K nc) (bc : List (Vec K n × Int)) (st : hiopSolveStatus)
    (d : Driver K σ n nc)
    (h : run sqrt a p decl u s0 sched bc = .solver (.ok (st, d)) ∨
         run_local sqrt a p decl u s0 sched bc = .solver (.ok (st, d)) ∨
         run_single sqrt a p decl u s0 = .ok (st, d)) :
    (∀ (k : Nat) (r : IterRecord K nc), d.trace[k]? = some r →
      r.it = k ∧ r.sc_it = (k : Int) ∧
      r.sc_accp_count =
        ((streak a.accp_tol_ ((d.trace.take (k + 1)).map (fun r => r.sc_convg)) : Nat) : Int) ∧
      (a.accp_tol_ < r.sc_convg → r.sc_accp_count = 0) ∧
      (1 ≤ a.accp_count_ → r.sc_accp_count ≤ a.accp_count_) ∧
      (r.stop = true ↔ r.sc_convg < a.tol_ ∨ (k : Int) = a.max_iter_ - 1 ∨
        ((streak a.accp_tol_ ((d.trace.take (k + 1)).map (fun r => r.sc_convg)) : Nat) : Int) =
          a.accp_count_) ∧
      (r.stop = true ↔ k + 1 = d.trace.length)) ∧
    (d.trace.length : Int) ≤ max a.max_iter_ 0 ∧
    (1 ≤ a.max_iter_ → d.trace ≠ []) ∧
    (nc ≤ n → ∃ d1, run_single sqrt a p decl u s0 = .ok (Solve_Success, d1)) ∧
    (nc ≤ n → 2 ≤ a.comm_size_ → a.comm_size_ ≤ a.S_ + 1 → (∀ it, Fair a (sched.ready it)) →
      ∃ (fuel : Nat → Nat) (d1 : Driver K σ n nc),
        run_master sqrt a p decl u s0 { sched with fuel := fuel } = .ok (d1.solver_status_, d1)) := by
  obtain ⟨hok, hend⟩ := solver_trace sqrt a p decl u s0 sched bc st d h
  have hstop : ∀ (k : Nat) (r : IterRecord K nc), d.trace[k]? = some r →
      (r.stop = true ↔ k + 1 = d.trace.length) := by
    intro k r hk
    rcases hend with ⟨_, h2⟩ | ⟨j, _, _, h4, _, h6⟩
    · rw [h2] at hk
      cases hk
    · rw [h6 k r hk, h4]
      omega
  refine ⟨?_, ?_, ?_, fun hn => run_single_returns sqrt a p decl u s0 hn,
    fun hn hP hS hfair => run_master_returns sqrt a p decl u s0 sched hn hP hS hfair⟩
  · intro k r hk
    obtain ⟨e1, ⟨s1, _, _, s4, _⟩, e3⟩ := hok k r hk
    have hklen : k < d.trace.length := by
      by_contra hc
      rw [List.getElem?_eq_none (by omega)] at hk
      cases hk
    have hr : d.trace[k] = r := by
      rw [List.getElem?_eq_getElem hklen] at hk
      exact Option.some.inj hk
    refine ⟨e1, by rw [s1, e1], e3, ?_, ?_, ?_, hstop k r hk⟩
    · intro hgt
      rw [e3, List.map_take]
      have hl : k < (d.trace.map (fun r => r.sc_convg)).length := by
        rw [List.length_map]; exact hklen
      rw [streak_take_succ_zero a.accp_tol_ _ k hl (by rw [List.getElem_map, hr]; exact hgt)]
      rfl
    · intro hacc
      refine count_le_acceptable sqrt a d.trace hok ?_ hacc k r hk
      intro k1 r1 hk1 hlt
      cases hs1 : r1.stop with
      | false => rfl
      | true =>
        have := (hstop k1 r1 hk1).mp hs1
        omega
    · rw [s4, stopping_criteria_true, s1, e1, e3]
  · rcases hend with ⟨h1, h2⟩ | ⟨j, h3, _, h4, _, _⟩
    · rw [h2]
      exact le_max_right _ _
    · rw [h4]
      have : (j : Int) + 1 ≤ a.max_iter_ := by omega
      exact le_trans (by push_cast; exact this) (le_max_left _ _)
  · intro hM
    rcases hend with ⟨h1, _⟩ | ⟨j, _, _, h4, _, _⟩
    · omega
    · intro hnil
      rw [hnil] at h4
      cases h4

/-- Instance of `acceptable_streak`: `run_single()` in the scenario `S = 4`,
`f_i(x) = (x - i)^2` returns; iteration 0 has the count `0` and does not
stop, and every count is the streak of the metrics so far and at most
`acceptable_iterations = 10`. -/
theorem acceptable_streak_witness :
    ∃ d, run_single ex_sqrt2 ex_alg ex_master_prob ex_decl ex_uninit 0 = .ok (Solve_Success, d) ∧
      2 ≤ d.trace.length ∧
      ∀ (k : Nat) (r : IterRecord ℚ 1), d.trace[k]? = some r →
        r.sc_accp_count =
          ((streak ex_alg.accp_tol_ ((d.trace.take (k + 1)).map (fun r => r.sc_convg)) : Nat) :
            Int) ∧
        r.sc_accp_count ≤ 10 ∧ (r.stop = true ↔ k + 1 = d.trace.length) := by
  obtain ⟨d, hd⟩ := run_single_returns ex_sqrt2 ex_alg ex_master_prob ex_decl ex_uninit 0
    (le_refl 1)
  refine ⟨d, hd, ?_, ?_⟩
  · exact first_iteration_goes_on ex_sqrt2 ex_alg ex_master_prob ex_decl ex_uninit 0 ex_sched []
      _ d (Or.inr (Or.inr hd)) (by norm_num [ex_alg]) (by norm_num [ex_alg])
      (by norm_num [ex_alg]) (by norm_num [ex_alg])
  · intro k r hk
    obtain ⟨_, _, h3, _, h5, _, h7⟩ := (acceptable_streak ex_sqrt2 ex_alg ex_master_prob ex_decl
      ex_uninit 0 ex_sched [] _ d (Or.inr (Or.inr hd))).1 k r hk
    exact ⟨h3, h5 (by norm_num [ex_alg]), h7⟩

/-- C19. Uniform termination across ranks, in `run()` and `run_local()` with
more than one rank.  Rank 0 leaves the outer loop exactly at the first
iteration at which its call of `stopping_criteria` returns `true`, and what it
broadcasts as `end_signal` is `1` in that iteration and `0` before.  An
evaluator rank with the same `max_iter_`, whatever its other members and
so whatever its own call of `stopping_criteria` (on `convg = 1e20` and its own
count) returns, holds after every broadcast the `end_signal` of rank 0, takes
part in every broadcast and in no other, makes as many outer iterations as
rank 0, and returns from the iteration rank 0 returns from, with
`Solve_Success`.  Rank 0 does return under schedules that are fair in every
outer iteration (with `nc_ ≤ n_` and `S_ ≥ comm_size_ - 1`). -/
theorem uniform_termination (sqrt : K → K) (a : hiopAlgPrimalDecomposition K n nc)
    (p : hiopInterfacePriDecProblem K σ n nc) (decl : HessianApprox K nc) (u : Uninit K nc)
    (s0 : σ) (sched : Schedule K nc) (bc : List (Vec K n × Int)) (st : hiopSolveStatus)
    (d : Driver K σ n nc) (hc : a.comm_size_ ≠ 1)
    (h : run sqrt a p decl u s0 sched bc = .solver (.ok (st, d)) ∨
         run_local sqrt a p decl u s0 sched bc = .solver (.ok (st, d))) :
    a.my_rank_ = 0 ∧
    (∀ (k : Nat) (r : IterRecord K nc), d.trace[k]? = some r →
      r.stop = (a.stopping_criteria (k : Int) r.sc_convg r.sc_accp_count).1 ∧
      (r.stop = true ↔ k + 1 = d.trace.length)) ∧
    d.bcasts.map Prod.snd = d.trace.map (fun r => if r.stop = true then (1 : Int) else 0) ∧
    (∀ aw : hiopAlgPrimalDecomposition K n nc, aw.max_iter_ = a.max_iter_ →
      ∃ w, run_evaluator aw d.bcasts = .returned Solve_Success w [] ∧
        w.signals.map Prod.snd = d.bcasts.map Prod.snd ∧
        w.signals.length = d.trace.length ∧
        (d.trace ≠ [] → w.it_ = d.it_ ∧ w.end_signal = d.end_signal ∧ d.end_signal = 1)) ∧
    (∀ (rk : Nat) (sched1 : Schedule K nc), rk ≠ 0 →
      run sqrt { a with my_rank_ := rk } p decl u s0 sched1 d.bcasts =
        .evaluator (run_evaluator { a with my_rank_ := rk } d.bcasts) ∧
      run_local sqrt { a with my_rank_ := rk } p decl u s0 sched1 d.bcasts =
        .evaluator (run_evaluator { a with my_rank_ := rk } d.bcasts)) ∧
    (nc ≤ n → 2 ≤ a.comm_size_ → a.comm_size_ ≤ a.S_ + 1 → (∀ it, Fair a (sched.ready it)) →
      ∃ (fuel : Nat → Nat) (d1 : Driver K σ n nc),
        run_master sqrt a p decl u s0 { sched with fuel := fuel } = .ok (d1.solver_status_, d1)) := by
  have hcases : a.my_rank_ = 0 ∧ ∃ a1 : hiopAlgPrimalDecomposition K n nc,
      a1.max_iter_ = a.max_iter_ ∧ run_master sqrt a1 p decl u s0 sched = .ok (st, d) := by
    have hlocal : run_local sqrt a p decl u s0 sched bc = .solver (.ok (st, d)) →
        a.my_rank_ = 0 ∧ ∃ a1 : hiopAlgPrimalDecomposition K n nc,
          a1.max_iter_ = a.max_iter_ ∧ run_master sqrt a1 p decl u s0 sched = .ok (st, d) := by
      intro h
      obtain ⟨_, l2, l3⟩ := run_local_cases sqrt a p decl u s0 sched bc
      by_cases c2 : a.my_rank_ = 0
      · rw [l2 hc c2] at h
        injection h with h
        exact ⟨c2, { a with local_accum_ := true }, rfl, h⟩
      · rw [l3 hc c2] at h
        cases h
    rcases h with h | h
    · obtain ⟨l0, _, l2, l3⟩ := run_cases sqrt a p decl u s0 sched bc
      cases c0 : a.local_accum_ with
      | true =>
        rw [l0 c0] at h
        exact hlocal h
      | false =>
        by_cases c2 : a.my_rank_ = 0
        · rw [l2 c0 hc c2] at h
          injection h with h
          exact ⟨c2, a, rfl, h⟩
        · rw [l3 c0 hc c2] at h
          cases h
    · exact hlocal h
  obtain ⟨hrank, a1, hM, hm⟩ := hcases
  have hs := stops_at_first_true sqrt a p decl u s0 sched bc st d
    (h.elim Or.inl (fun h => Or.inr (Or.inl h)))
  refine ⟨hrank, hs, (run_master_bcasts sqrt a1 p decl u s0 sched st d hm).1, ?_, ?_,
    fun hn hP hS hfair => run_master_returns sqrt a p decl u s0 sched hn hP hS hfair⟩
  · intro aw haw
    exact evaluator_follows_master sqrt a1 aw p decl u s0 sched st d (haw.trans hM.symm) hm
  · intro rk sched1 hrk
    constructor
    · by_cases c0 : a.local_accum_ = true
      · rw [(run_cases sqrt { a with my_rank_ := rk } p decl u s0 sched1 d.bcasts).1 c0]
        exact (run_local_cases sqrt { a with my_rank_ := rk } p decl u s0 sched1 d.bcasts).2.2
          hc hrk
      · exact (run_cases sqrt { a with my_rank_ := rk } p decl u s0 sched1 d.bcasts).2.2.2
          (Bool.eq_false_iff.mpr c0) hc hrk
    · exact (run_local_cases sqrt { a with my_rank_ := rk } p decl u s0 sched1 d.bcasts).2.2
        hc hrk

/-- Instance of `uniform_termination`: `run()` on four ranks in the scenario
`S = 4`, `f_i(x) = (x - i)^2`, under the fair schedule of the examples.  Rank 0
returns after at least two outer iterations; rank 2, here with a tolerance of
`1e30`, so that its own call of `stopping_criteria` returns `true` in every
iteration, makes as many iterations and returns from the same one. -/
theorem uniform_termination_witness :
    ∃ (fuel : Nat → Nat) (d : Driver ℚ ℚ 1 1),
      ex_alg.comm_size_ ≠ 1 ∧
      run ex_sqrt2 ex_alg ex_master_prob ex_decl ex_uninit 0 { ex_sched with fuel := fuel } [] =
        .solver (.ok (d.solver_status_, d)) ∧
      2 ≤ d.trace.length ∧
      ∃ w, run_evaluator ({ ex_alg with my_rank_ := 2, tol_ := 10 ^ 30 } :
            hiopAlgPrimalDecomposition ℚ 1 1) d.bcasts = .returned Solve_Success w [] ∧
        w.signals.length = d.trace.length ∧ w.it_ = d.it_ ∧ w.end_signal = d.end_signal := by
  obtain ⟨fuel, d, hd⟩ := run_master_returns ex_sqrt2 ex_alg ex_master_prob ex_decl ex_uninit 0
    ex_sched (le_refl 1) (by decide) (by decide) (fun _ => ex_ready_fair)
  have hc : ex_alg.comm_size_ ≠ 1 := by decide
  have hrun : run ex_sqrt2 ex_alg ex_master_prob ex_decl ex_uninit 0
      { ex_sched with fuel := fuel } [] = .solver (.ok (d.solver_status_, d)) := by
    rw [(run_cases ex_sqrt2 ex_alg ex_master_prob ex_decl ex_uninit 0
      { ex_sched with fuel := fuel } []).2.2.1 rfl hc rfl, hd]
  have hlen : 2 ≤ d.trace.length :=
    first_iteration_goes_on ex_sqrt2 ex_alg ex_master_prob ex_decl ex_uninit 0
      { ex_sched with fuel := fuel } [] _ d (Or.inl hrun) (by norm_num [ex_alg])
      (by norm_num [ex_alg]) (by norm_num [ex_alg]) (by norm_num [ex_alg])
  obtain ⟨w, h1, _, h3, h4⟩ := (uniform_termination ex_sqrt2 ex_alg ex_master_prob ex_decl
    ex_uninit 0 { ex_sched with fuel := fuel } [] _ d hc (Or.inl hrun)).2.2.2.1
    { ex_alg with my_rank_ := 2, tol_ := 10 ^ 30 } rfl
  have hne : d.trace ≠ [] := by
    intro he
    rw [he] at hlen
    simp at hlen
  exact ⟨fuel, d, hc, hrun, hlen, w, h1, h3, (h4 hne).1, (h4 hne).2.1⟩

end outer_claims

section single_claims

variable {K : Type} [LinearOrderedField K] {σ : Type} {n nc : Nat}

/-- C20. Single-process path.  With `comm_size_ == 1`, `run()` is
`run_single()` for either value of the option `accum_local` (through
`run_local()` when it is `"yes"`), and so is `run_local()`; `run_single()`
makes no broadcast and never touches `end_signal`, and it returns whenever
`nc_ ≤ n_`; the distribution of the multi-rank part, had it been entered with a
single rank, would never return.  And `run_single()` is deterministic: two runs
with the same configuration and the same bounds of the ratio, on master
problems that give the same numeric responses (whatever their `bool`s and
statuses, and whatever the content of the memory the driver does not
initialise), return the same status and show the same in every outer
iteration (coupled point, `rval`, `grad_r`, curvature, `alpha`, `convg`,
count, and whether the loop stops), so they stop at the same iteration, and end
with the same `x_`; or both fail the assertion `nc_ == n_`. -/
theorem single_process_path (sqrt : K → K) (a : hiopAlgPrimalDecomposition K n nc)
    (p : hiopInterfacePriDecProblem K σ n nc) (decl : HessianApprox K nc) (u : Uninit K nc)
    (s0 : σ) (sched : Schedule K nc) (bc : List (Vec K n × Int)) (h1 : a.comm_size_ = 1) :
    run sqrt a p decl u s0 sched bc = .solver (run_single sqrt a p decl u s0) ∧
    run_local sqrt a p decl u s0 sched bc = .solver (run_single sqrt a p decl u s0) ∧
    (∀ (st : hiopSolveStatus) (d : Driver K σ n nc),
      run_single sqrt a p decl u s0 = .ok (st, d) →
        st = Solve_Success ∧ d.bcasts = [] ∧ d.end_signal = 0) ∧
    (nc ≤ n → ∃ d, run_single sqrt a p decl u s0 = .ok (Solve_Success, d)) ∧
    (∀ (prob : RecourseProblem K nc) (x0 : Vec K nc) (ready : Nat → Nat → Bool) (fuel : Nat)
      (rval0 : K) (grad_r0 : Vec K nc) (buf0 : Nat → K × Vec K nc),
      master_dispatch a prob x0 ready fuel (master_init rval0 grad_r0 buf0) =
        .error (Fault.still_polling, [])) ∧
    (∀ (σ1 : Type) (a1 : hiopAlgPrimalDecomposition K n nc)
      (p1 : hiopInterfacePriDecProblem K σ1 n nc) (R : σ → σ1 → Prop)
      (decl1 : HessianApprox K nc) (u1 : Uninit K nc) (s1 : σ1),
      SameResponses p p1 R → SameConfig a a1 → R s0 s1 →
      decl.ratio_min = decl1.ratio_min → decl.ratio_max = decl1.ratio_max →
      (∀ (st : hiopSolveStatus) (d : Driver K σ n nc),
        run_single sqrt a p decl u s0 = .ok (st, d) →
        ∃ d1, run_single sqrt a1 p1 decl1 u1 s1 = .ok (st, d1) ∧ d1.x_ = d.x_ ∧
          d1.trace.map IterRecord.observed = d.trace.map IterRecord.observed) ∧
      (∀ e, run_single sqrt a p decl u s0 = .error e →
        ∃ e1, run_single sqrt a1 p1 decl1 u1 s1 = .error e1)) := by
  have hl : run_local sqrt a p decl u s0 sched bc = .solver (run_single sqrt a p decl u s0) :=
    (run_local_cases sqrt a p decl u s0 sched bc).1 h1
  refine ⟨?_, hl, ?_, ?_, ?_, ?_⟩
  · by_cases c0 : a.local_accum_ = true
    · rw [(run_cases sqrt a p decl u s0 sched bc).1 c0, hl]
    · exact (run_cases sqrt a p decl u s0 sched bc).2.1 (Bool.eq_false_iff.mpr c0) h1
  · intro st d h
    exact ⟨(run_single_trace sqrt a p decl u s0 st d h).1,
      run_single_no_bcast sqrt a p decl u s0 st d h⟩
  · intro hn
    exact run_single_returns sqrt a p decl u s0 hn
  · intro prob x0 ready fuel rval0 grad_r0 buf0
    exact master_dispatch_alone a prob x0 ready fuel rval0 grad_r0 buf0 h1
  · intro σ1 a1 p1 R decl1 u1 s1 hp ha hs hmin hmax
    have hrel := run_single_rel sqrt a a1 p p1 R hp ha decl decl1 u u1 s0 s1 hs hmin hmax
    constructor
    · intro st d h
      rw [h] at hrel
      cases hw : run_single sqrt a1 p1 decl1 u1 s1 with
      | error e1 => rw [hw] at hrel; exact hrel.elim
      | ok w =>
        rw [hw] at hrel
        obtain ⟨r1, r2, r3⟩ := hrel
        obtain ⟨st1, d1⟩ := w
        simp only at r1 r2 r3
        subst r1
        exact ⟨d1, rfl, r2.symm, r3.symm⟩
    · intro e h
      rw [h] at hrel
      cases hw : run_single sqrt a1 p1 decl1 u1 s1 with
      | error e1 => exact ⟨e1, rfl⟩
      | ok w => rw [hw] at hrel; exact hrel.elim

/-- The two master problems of the examples give the same numeric responses,
their states being related when they hold the same objective. -/
theorem ex_same_responses :
    SameResponses ex_master_prob ex_master_prob2 (fun s s1 => s1.1 = s) := by
  refine ⟨fun _ _ _ => rfl, fun _ _ _ => rfl, ?_, ?_, ?_, ?_⟩
  · intro s s1 h
    exact h.symm
  · intro s s1 x b _
    cases b <;> rfl
  · intro s s1 x b _
    cases b <;> rfl
  · intro s s1 ev h
    exact h

/-- Instance of `single_process_path`: on one rank, in the scenario `S = 4`,
`f_i(x) = (x - i)^2`, `run()` is `run_single()` with the option `accum_local`
off and on; it returns without a broadcast; and a second run, on a master
problem with another state, other `bool`s and statuses, and another content of
the uninitialised vectors, shows the same in every outer iteration. -/
theorem single_process_path_witness :
    ex_alg_single.comm_size_ = 1 ∧
    run ex_sqrt2 ex_alg_single ex_master_prob ex_decl ex_uninit 0 ex_sched [] =
      .solver (run_single ex_sqrt2 ex_alg_single ex_master_prob ex_decl ex_uninit 0) ∧
    run ex_sqrt2 { ex_alg_single with local_accum_ := true } ex_master_prob ex_decl ex_uninit 0
        ex_sched [] =
      .solver (run_single ex_sqrt2 { ex_alg_single with local_accum_ := true } ex_master_prob
        ex_decl ex_uninit 0) ∧
    ∃ d, run_single ex_sqrt2 ex_alg_single ex_master_prob ex_decl ex_uninit 0 =
        .ok (Solve_Success, d) ∧ d.bcasts = [] ∧
      ∃ d1, run_single ex_sqrt2 ex_alg_single ex_master_prob2 ex_decl
          { hess_vectors := fun _ => 5, hess_appx := fun _ => 6, x0 := fun _ => 7 } (0, 0) =
          .ok (Solve_Success, d1) ∧
        d1.trace.map IterRecord.observed = d.trace.map IterRecord.observed := by
  have h1 : ex_alg_single.comm_size_ = 1 := rfl
  have hA := single_process_path ex_sqrt2 ex_alg_single ex_master_prob ex_decl ex_uninit 0
    ex_sched [] h1
  have hB := single_process_path ex_sqrt2 { ex_alg_single with local_accum_ := true }
    ex_master_prob ex_decl ex_uninit 0 ex_sched [] rfl
  obtain ⟨d, hd⟩ := hA.2.2.2.1 (le_refl 1)
  obtain ⟨d1, hd1, _, hobs⟩ := (hA.2.2.2.2.2 (ℚ × Nat) ex_alg_single ex_master_prob2
    (fun s s1 => s1.1 = s) ex_decl
    { hess_vectors := fun _ => 5, hess_appx := fun _ => 6, x0 := fun _ => 7 } (0, 0)
    ex_same_responses ⟨rfl, rfl, rfl, rfl, rfl, rfl, rfl, rfl, rfl⟩ rfl rfl rfl).1 _ d hd
  exact ⟨h1, hA.1, hB.1, d, hd, (hA.2.2.1 _ d hd).2.1, d1, hd1, hobs⟩

end single_claims

section first_record_lemmas

variable {K : Type} [LinearOrderedField K] {σ : Type} {n nc : Nat}

/-- The record of iteration 0 on the solving rank: `stopping_criteria` was
called with `it = 0`, the metric `1e20` and, the acceptable tolerance being
below `1e20`, the count `0`. -/
theorem solver_first_record (sqrt : K → K) (a : hiopAlgPrimalDecomposition K n nc)
    (p : hiopInterfacePriDecProblem K σ n nc) (decl : HessianApprox K nc) (u : Uninit K nc)
    (s0 : σ) (sched : Schedule K nc) (bc : List (Vec K n × Int)) (st : hiopSolveStatus)
    (d : Driver K σ n nc)
    (h : run sqrt a p decl u s0 sched bc = .solver (.ok (st, d)) ∨
         run_local sqrt a p decl u s0 sched bc = .solver (.ok (st, d)) ∨
         run_single sqrt a p decl u s0 = .ok (st, d))
    (hacc : a.accp_tol_ < 10 ^ 20) :
    ∀ r, d.trace[0]? = some r →
      r.it = 0 ∧ r.sc_it = 0 ∧ r.sc_convg = 10 ^ 20 ∧ r.sc_accp_count = 0 ∧
      r.stop = (a.stopping_criteria 0 (10 ^ 20) 0).1 := by
  obtain ⟨hok, _⟩ := solver_trace sqrt a p decl u s0 sched bc st d h
  have hfirst := solver_first_metric sqrt a p decl u s0 sched bc st d h
  intro r hr
  obtain ⟨e1, ⟨e2, _, _, e5, _⟩, e3⟩ := hok 0 r hr
  have hc := hfirst r hr
  have hlen : 0 < d.trace.length := by
    by_contra hc0
    rw [List.getElem?_eq_none (by omega)] at hr
    cases hr
  have hr0 : d.trace[0] = r := by
    rw [List.getElem?_eq_getElem hlen] at hr
    exact Option.some.inj hr
  have hcount : r.sc_accp_count = 0 := by
    rw [e3, List.map_take]
    have hl : 0 < (d.trace.map (fun r => r.sc_convg)).length := by
      rw [List.length_map]; exact hlen
    rw [streak_take_succ_zero a.accp_tol_ _ 0 hl (by rw [List.getElem_map, hr0, hc]; exact hacc)]
    rfl
  have hit : r.sc_it = 0 := by rw [e2, e1]; rfl
  refine ⟨e1, hit, hc, hcount, ?_⟩
  rw [e5, hit, hc, hcount]

/-- On the metric `1e20` and the count `0`, with a tolerance of at most `1e20`
and `acceptable_iterations` not zero, `stopping_criteria` returns `true` at
iteration 0 exactly when `max_iter_` is `1`. -/
theorem stopping_criteria_first (a : hiopAlgPrimalDecomposition K n nc)
    (htol : a.tol_ ≤ 10 ^ 20) (hcnt : a.accp_count_ ≠ 0) :
    (a.stopping_criteria 0 (10 ^ 20) 0).1 = true ↔ a.max_iter_ = 1 := by
  rw [stopping_criteria_true]
  constructor
  · rintro (c1 | c2 | c3)
    · exact absurd c1 (not_lt.mpr htol)
    · omega
    · exact absurd c3.symm hcnt
  · intro hM
    exact Or.inr (Or.inl (by omega))

end first_record_lemmas

section last_solve_lemmas

variable {K : Type} [LinearOrderedField K] {σ : Type} {n nc : Nat}

/-- The tail of an outer iteration ends with the solve of the full
problem. -/
theorem model_and_solve_last (sqrt : K → K) (a : hiopAlgPrimalDecomposition K n nc)
    (p : hiopInterfacePriDecProblem K σ n nc) (c0 : K) (it : Nat) (d : Driver K σ n nc) :
    LastSolve p (model_and_solve sqrt a p c0 it d).1 := by
  refine ⟨_, d.x_, rfl, rfl, rfl, ?_⟩
  simp only [model_and_solve]
  rw [List.getLast?_append]
  rfl

/-- Every outer iteration of `run_single()` ends with the solve of the full
problem. -/
theorem run_single_iteration_last (sqrt : K → K) (a : hiopAlgPrimalDecomposition K n nc)
    (p : hiopInterfacePriDecProblem K σ n nc) (it : Nat) (d d1 : Driver K σ n nc) (b : Bool)
    (h : run_single_iteration sqrt a p it d = .ok (d1, b)) : LastSolve p d1 := by
  unfold run_single_iteration at h
  cases hc : a.coupled_point (initial_solve p it d).x_ with
  | none => simp only [hc] at h; cases h
  | some x0 =>
    simp only [hc] at h
    injection h with h
    have h1 := congrArg Prod.fst h
    simp only at h1
    rw [← h1]
    exact model_and_solve_last sqrt a p _ it _

/-- Every outer iteration of rank 0 of `run()`, `run_local()` ends with the
solve of the full problem, as far as the master problem goes. -/
theorem run_master_iteration_last (sqrt : K → K) (a : hiopAlgPrimalDecomposition K n nc)
    (p : hiopInterfacePriDecProblem K σ n nc) (sched : Schedule K nc) (it : Nat)
    (d d1 : Driver K σ n nc) (b : Bool)
    (h : run_master_iteration sqrt a p sched it d = .ok (d1, b)) : LastSolve p d1 := by
  unfold run_master_iteration at h
  cases hc : a.coupled_point (initial_solve p it d).x_ with
  | none => simp only [hc] at h; cases h
  | some x0 =>
    simp only [hc] at h
    cases hd : dispatch_aggregate a p.rterms x0 (sched.ready it) (sched.fuel it)
        (master_init (initial_solve p it d).rval (initial_solve p it d).grad_r (sched.buf0 it))
        (sched.prev it) with
    | error e =>
      rw [hd] at h
      obtain ⟨f, l⟩ := e
      simp only at h
      cases h
    | ok agg =>
      rw [hd] at h
      simp only at h
      injection h with h
      have h1 := congrArg Prod.fst h
      simp only at h1
      obtain ⟨s, x, e1, e2, e3, e4⟩ := model_and_solve_last sqrt a p 1 it
        { initial_solve p it d with
          x0 := x0, rval := agg.1, grad_r := agg.2,
          recourse_val := if a.local_accum_ then (initial_solve p it d).recourse_val else agg.1 }
      rw [← h1]
      exact ⟨s, x, e1, e2, e3, e4⟩

/-- A loop of at least one iteration whose body always ends with the solve of
the full problem ends with it. -/
theorem outer_loop_last (p : hiopInterfacePriDecProblem K σ n nc)
    (step : Nat → Driver K σ n nc → Except RunFault (Driver K σ n nc × Bool))
    (hs : ∀ it d d1 b, step it d = .ok (d1, b) → LastSolve p d1)
    (k : Nat) (d0 dF : Driver K σ n nc) (hk : 0 < k)
    (h : outer_loop step k 0 d0 = .ok dF) : LastSolve p dF := by
  have hstep : ∀ (it : Nat) (d d1 : Driver K σ n nc) (b : Bool),
      (it ≠ 0 → LastSolve p d) → step it d = .ok (d1, b) →
      (b = false → (it + 1 ≠ 0 → LastSolve p d1)) ∧ (b = true → LastSolve p d1) := by
    intro it d d1 b _ hst
    exact ⟨fun _ _ => hs it d d1 b hst, fun _ => hs it d d1 b hst⟩
  rcases outer_loop_inv step (fun it d => it ≠ 0 → LastSolve p d) (fun _ d => LastSolve p d)
    hstep k 0 d0 dF (fun hc => absurd rfl hc) h with ⟨j, _, _, h3⟩ | h4
  · exact h3
  · exact h4 (by omega)

/-- A loop of no iteration returns its initial state. -/
theorem outer_loop_zero {D : Type} (step : Nat → D → Except RunFault (D × Bool)) (it : Nat)
    (d dF : D) (h : outer_loop step 0 it d = .ok dF) : dF = d := by
  simp only [outer_loop] at h
  cases h
  rfl

/-- At the return of `run_single()` after at least one outer iteration,
`solver_status_` is the status of the last call of `solve_master`. -/
theorem run_single_last (sqrt : K → K) (a : hiopAlgPrimalDecomposition K n nc)
    (p : hiopInterfacePriDecProblem K σ n nc) (decl : HessianApprox K nc) (u : Uninit K nc)
    (s0 : σ) (st : hiopSolveStatus) (d : Driver K σ n nc)
    (h : run_single sqrt a p decl u s0 = .ok (st, d)) (hM : 1 ≤ a.max_iter_) :
    LastSolve p d := by
  unfold run_single at h
  cases hl : outer_loop (run_single_iteration sqrt a p) a.max_iter_.toNat 0
      (run_single_init a decl u s0) with
  | error e => rw [hl] at h; cases h
  | ok dF =>
    rw [hl] at h
    cases h
    exact outer_loop_last p _ (run_single_iteration_last sqrt a p) _ _ _ (by omega) hl

/-- Rank 0 of `run()`, `run_local()` returns `solver_status_`: after at least
one outer iteration the status of the last call of `solve_master`, otherwise
the value the member had on entry. -/
theorem run_master_last (sqrt : K → K) (a : hiopAlgPrimalDecomposition K n nc)
    (p : hiopInterfacePriDecProblem K σ n nc) (decl : HessianApprox K nc) (u : Uninit K nc)
    (s0 : σ) (sched : Schedule K nc) (st : hiopSolveStatus) (d : Driver K σ n nc)
    (h : run_master sqrt a p decl u s0 sched = .ok (st, d)) :
    st = d.solver_status_ ∧ (1 ≤ a.max_iter_ → LastSolve p d) ∧
    (a.max_iter_ ≤ 0 → st = a.solver_status_ ∧ d.calls = []) := by
  unfold run_master at h
  cases hl : outer_loop (run_master_iteration sqrt a p sched) a.max_iter_.toNat 0
      (run_master_init a decl u s0) with
  | error e => rw [hl] at h; cases h
  | ok dF =>
    rw [hl] at h
    cases h
    refine ⟨rfl, fun hM => ?_, fun hM => ?_⟩
    · exact outer_loop_last p _ (run_master_iteration_last sqrt a p sched) _ _ _ (by omega) hl
    · have hk : a.max_iter_.toNat = 0 := by omega
      rw [hk] at hl
      rw [outer_loop_zero _ _ _ _ hl]
      exact ⟨rfl, rfl⟩

/-- An evaluator rank that returns, returns `Solve_Success`. -/
theorem evaluator_loop_status (a : hiopAlgPrimalDecomposition K n nc) :
    ∀ (k it : Nat) (bc : List (Vec K n × Int)) (w : EvaluatorLoop K n) (st : hiopSolveStatus)
      (w1 : EvaluatorLoop K n) (un : List (Vec K n × Int)),
      evaluator_loop a k it bc w = .returned st w1 un → st = Solve_Success := by
  intro k
  induction k with
  | zero =>
    intro it bc w st w1 un h
    simp only [evaluator_loop] at h
    injection h with h1 _ _
    exact h1.symm
  | succ k ih =>
    intro it bc w st w1 un h
    cases bc with
    | nil => simp only [evaluator_loop] at h; cases h
    | cons b bc =>
      simp only [evaluator_loop] at h
      cases hb : (evaluator_iteration a it b w).2 with
      | true =>
        have he : evaluator_iteration a it b w = ((evaluator_iteration a it b w).1, true) := by
          rw [← hb]
        rw [he] at h
        simp only at h
        injection h with h1 _ _
        exact h1.symm
      | false =>
        have he : evaluator_iteration a it b w = ((evaluator_iteration a it b w).1, false) := by
          rw [← hb]
        rw [he] at h
        simp only at h
        exact ih _ _ _ _ _ _ h

end last_solve_lemmas

section master_rel

variable {K : Type} [LinearOrderedField K] {σ σ1 : Type} {n nc : Nat}

/-- The head of an outer iteration leaves `rval`, `grad_r` as they were. -/
theorem initial_solve_aggregate (p : hiopInterfacePriDecProblem K σ n nc) (it : Nat)
    (d : Driver K σ n nc) :
    (initial_solve p it d).rval = d.rval ∧ (initial_solve p it d).grad_r = d.grad_r := by
  unfold initial_solve
  split_ifs <;> exact ⟨rfl, rfl⟩

/-- The tail of an outer iteration leaves `end_signal`, the broadcasts, `rval`
and `grad_r` as they were. -/
theorem model_and_solve_frame (sqrt : K → K) (a : hiopAlgPrimalDecomposition K n nc)
    (p : hiopInterfacePriDecProblem K σ n nc) (c0 : K) (it : Nat) (d : Driver K σ n nc) :
    (model_and_solve sqrt a p c0 it d).1.end_signal = d.end_signal ∧
    (model_and_solve sqrt a p c0 it d).1.bcasts = d.bcasts ∧
    (model_and_solve sqrt a p c0 it d).1.rval = d.rval ∧
    (model_and_solve sqrt a p c0 it d).1.grad_r = d.grad_r :=
  ⟨rfl, rfl, rfl, rfl⟩

/-- The body of the outer loop of rank 0 in `run()` and `run_local()`, on two
related ranks 0 that meet the same schedule: both stop on the same assertion
or fault of the dispatch, or both go on, related again and with the same
answer to whether the loop is left. -/
theorem run_master_iteration_rel (sqrt : K → K) (a : hiopAlgPrimalDecomposition K n nc)
    (p : hiopInterfacePriDecProblem K σ n nc) (p1 : hiopInterfacePriDecProblem K σ1 n nc)
    (R : σ → σ1 → Prop) (hp : SameResponses p p1 R) (sched : Schedule K nc) (it : Nat)
    (d : Driver K σ n nc) (d1 : Driver K σ1 n nc) (hd : MasterRel R it d d1) :
    ExceptRel (fun v w => MasterRel R (it + 1) v.1 w.1 ∧ v.2 = w.2)
      (run_master_iteration sqrt a p sched it d) (run_master_iteration sqrt a p1 sched it d1) := by
  obtain ⟨hdr, hes, hbc, hrv, hgr⟩ := hd
  have hi := initial_solve_rel p p1 R hp it d d1 hdr
  obtain ⟨e1, e2, e3, e4, e5, e6, e7⟩ := hi
  obtain ⟨_, _, f3, f4, _, _, _⟩ := initial_solve_frame p it d
  obtain ⟨_, _, g3, g4, _, _, _⟩ := initial_solve_frame p1 it d1
  obtain ⟨i1, i2⟩ := initial_solve_aggregate p it d
  obtain ⟨j1, j2⟩ := initial_solve_aggregate p1 it d1
  have ha : SameConfig a a := ⟨rfl, rfl, rfl, rfl, rfl, rfl, rfl, rfl, rfl⟩
  have hcp : a.coupled_point (initial_solve p it d).x_ =
      a.coupled_point (initial_solve p1 it d1).x_ := by
    rw [e1]
  unfold run_master_iteration
  simp only [hcp]
  cases hc : a.coupled_point (initial_solve p1 it d1).x_ with
  | none => simp only [ExceptRel]
  | some x0 =>
    simp only
    rw [dispatch_aggregate_congr a p.rterms p1.rterms hp.eval_f hp.eval_grad, i1, i2, hrv, hgr,
      ← j1, ← j2]
    cases hdis : dispatch_aggregate a p1.rterms x0 (sched.ready it) (sched.fuel it)
        (master_init (initial_solve p1 it d1).rval (initial_solve p1 it d1).grad_r
          (sched.buf0 it)) (sched.prev it) with
    | error e => simp only [ExceptRel]
    | ok agg =>
      simp only [ExceptRel]
      obtain ⟨m1, m2⟩ := model_and_solve_rel sqrt a a p p1 R hp ha 1 1 it
        { initial_solve p it d with
          x0 := x0, rval := agg.1, grad_r := agg.2,
          recourse_val := if a.local_accum_ then (initial_solve p it d).recourse_val else agg.1 }
        { initial_solve p1 it d1 with
          x0 := x0, rval := agg.1, grad_r := agg.2,
          recourse_val := if a.local_accum_ then (initial_solve p1 it d1).recourse_val else agg.1 }
        ⟨e1, e2, e3, e4, e5, e6, e7⟩ rfl rfl rfl
      have hes1 : (initial_solve p it d).end_signal = (initial_solve p1 it d1).end_signal := by
        rw [f3, g3, hes]
      have hbc1 : (initial_solve p it d).bcasts = (initial_solve p1 it d1).bcasts := by
        rw [f4, g4, hbc]
      refine ⟨⟨m1, ?_, ?_, rfl, rfl⟩, ?_⟩
      · dsimp only
        rw [m2, (model_and_solve_frame sqrt a p 1 it _).1,
          (model_and_solve_frame sqrt a p1 1 it _).1]
        exact congrArg _ hes1
      · dsimp only
        rw [m2, (model_and_solve_frame sqrt a p 1 it _).1,
          (model_and_solve_frame sqrt a p1 1 it _).1,
          (model_and_solve_frame sqrt a p 1 it _).2.1,
          (model_and_solve_frame sqrt a p1 1 it _).2.1]
        dsimp only
        rw [hes1, hbc1, e1]
      · dsimp only
        rw [m2, (model_and_solve_frame sqrt a p 1 it _).1,
          (model_and_solve_frame sqrt a p1 1 it _).1]
        dsimp only
        rw [hes1]

/-- Two runs of rank 0 of `run()` or of `run_local()` with the same
configuration and schedule, the same bounds of the ratio in the class
declaration, and master problems that give the same numeric responses: both
stop on an assertion or a fault of the dispatch, or both return, having shown
the same in every outer iteration and sent the same broadcasts, and holding
the same `x_`. -/
theorem run_master_rel (sqrt : K → K) (a : hiopAlgPrimalDecomposition K n nc)
    (p : hiopInterfacePriDecProblem K σ n nc) (p1 : hiopInterfacePriDecProblem K σ1 n nc)
    (R : σ → σ1 → Prop) (hp : SameResponses p p1 R) (decl decl1 : HessianApprox K nc)
    (u u1 : Uninit K nc) (s0 : σ) (s1 : σ1) (hs : R s0 s1) (sched : Schedule K nc)
    (hmin : decl.ratio_min = decl1.ratio_min) (hmax : decl.ratio_max = decl1.ratio_max) :
    ExceptRel (fun v w => v.2.x_ = w.2.x_ ∧ v.2.bcasts = w.2.bcasts ∧
        v.2.trace.map IterRecord.observed = w.2.trace.map IterRecord.observed)
      (run_master sqrt a p decl u s0 sched) (run_master sqrt a p1 decl1 u1 s1 sched) := by
  have h0 : MasterRel R 0 (run_master_init a decl u s0) (run_master_init a decl1 u1 s1) := by
    refine ⟨⟨rfl, hs, ⟨rfl, hmin, hmax, rfl, rfl, fun hc => absurd hc (by decide)⟩, rfl, rfl,
      rfl, rfl⟩, rfl, rfl, rfl, rfl⟩
  have hl := outer_loop_rel (run_master_iteration sqrt a p sched)
    (run_master_iteration sqrt a p1 sched) (MasterRel R)
    (fun it d d1 hd => run_master_iteration_rel sqrt a p p1 R hp sched it d d1 hd)
    a.max_iter_.toNat 0 _ _ h0
  unfold run_master
  cases hv : outer_loop (run_master_iteration sqrt a p sched) a.max_iter_.toNat 0
      (run_master_init a decl u s0) with
  | error e =>
    cases hw : outer_loop (run_master_iteration sqrt a p1 sched) a.max_iter_.toNat 0
        (run_master_init a decl1 u1 s1) with
    | error e1 => simp only [ExceptRel]
    | ok w => rw [hv, hw] at hl; exact hl.elim
  | ok v =>
    cases hw : outer_loop (run_master_iteration sqrt a p1 sched) a.max_iter_.toNat 0
        (run_master_init a decl1 u1 s1) with
    | error e1 => rw [hv, hw] at hl; exact hl.elim
    | ok w =>
      rw [hv, hw] at hl
      obtain ⟨j, ⟨h1, _, _, _, _, _, h7⟩, _, h9, _, _⟩ := hl
      exact ⟨h1, h9, h7⟩

end master_rel

section swallow_claims

variable {K : Type} [LinearOrderedField K] {σ σ1 : Type} {n nc : Nat}

/-- Lists with the same image have the same length. -/
theorem length_eq_of_map_eq {α β γ : Type} (f : α → γ) (g : β → γ) (l : List α) (l1 : List β)
    (h : l.map f = l1.map g) : l.length = l1.length := by
  have := congrArg List.length h
  simpa only [List.length_map] using this

/-- C22. Failures are swallowed.  Take two runs of the driver (`run_single()`,
or rank 0 of `run()` and of `run_local()`, where `a.local_accum_` says which)
with the same configuration, the same schedule of the message passing and the
same bounds of the ratio, on two collaborators that give the same numeric
outputs (`x`, objective, values and gradients of the recourse terms), whatever
the `bool`s of `eval_f_rterm`, `eval_grad_rterm` and
`set_recourse_approx_evaluator` and the statuses of `solve_master` are.  If
one returns, so does the other, after the same number of outer iterations, and
both show the same in every iteration: coupled point, aggregate `rval`,
`grad_r`, the curvature installed, `alpha`, the metric `convg`, the count, and
whether the loop stops; they end with the same `x_` and rank 0 has broadcast
the same.  If one stops on the assertion `nc_ == n_` or on a fault of the
message passing, so does the other: no `bool` and no status is read. -/
theorem failures_swallowed (sqrt : K → K) (a : hiopAlgPrimalDecomposition K n nc)
    (p : hiopInterfacePriDecProblem K σ n nc) (p1 : hiopInterfacePriDecProblem K σ1 n nc)
    (R : σ → σ1 → Prop) (decl decl1 : HessianApprox K nc) (u u1 : Uninit K nc) (s0 : σ) (s1 : σ1)
    (sched : Schedule K nc) (hp : SameResponses p p1 R) (hs : R s0 s1)
    (hmin : decl.ratio_min = decl1.ratio_min) (hmax : decl.ratio_max = decl1.ratio_max) :
    (∀ (st : hiopSolveStatus) (d : Driver K σ n nc),
      run_single sqrt a p decl u s0 = .ok (st, d) →
      ∃ d1, run_single sqrt a p1 decl1 u1 s1 = .ok (st, d1) ∧
        d1.trace.map IterRecord.observed = d.trace.map IterRecord.observed ∧
        d1.trace.length = d.trace.length ∧ d1.x_ = d.x_) ∧
    (∀ e, run_single sqrt a p decl u s0 = .error e →
      ∃ e1, run_single sqrt a p1 decl1 u1 s1 = .error e1) ∧
    (∀ (st : hiopSolveStatus) (d : Driver K σ n nc),
      run_master sqrt a p decl u s0 sched = .ok (st, d) →
      ∃ st1 d1, run_master sqrt a p1 decl1 u1 s1 sched = .ok (st1, d1) ∧
        d1.trace.map IterRecord.observed = d.trace.map IterRecord.observed ∧
        d1.trace.length = d.trace.length ∧ d1.x_ = d.x_ ∧ d1.bcasts = d.bcasts) ∧
    (∀ e, run_master sqrt a p decl u s0 sched = .error e →
      ∃ e1, run_master sqrt a p1 decl1 u1 s1 sched = .error e1) := by
  have ha : SameConfig a a := ⟨rfl, rfl, rfl, rfl, rfl, rfl, rfl, rfl, rfl⟩
  have hrel := run_single_rel sqrt a a p p1 R hp ha decl decl1 u u1 s0 s1 hs hmin hmax
  have hrelm := run_master_rel sqrt a p p1 R hp decl decl1 u u1 s0 s1 hs sched hmin hmax
  refine ⟨?_, ?_, ?_, ?_⟩
  · intro st d h
    rw [h] at hrel
    cases hw : run_single sqrt a p1 decl1 u1 s1 with
    | error e1 => rw [hw] at hrel; exact hrel.elim
    | ok w =>
      rw [hw] at hrel
      obtain ⟨r1, r2, r3⟩ := hrel
      obtain ⟨st1, d1⟩ := w
      simp only at r1 r2 r3
      subst r1
      exact ⟨d1, rfl, r3.symm, (length_eq_of_map_eq _ _ _ _ r3).symm, r2.symm⟩
  · intro e h
    rw [h] at hrel
    cases hw : run_single sqrt a p1 decl1 u1 s1 with
    | error e1 => exact ⟨e1, rfl⟩
    | ok w => rw [hw] at hrel; exact hrel.elim
  · intro st d h
    rw [h] at hrelm
    cases hw : run_master sqrt a p1 decl1 u1 s1 sched with
    | error e1 => rw [hw] at hrelm; exact hrelm.elim
    | ok w =>
      rw [hw] at hrelm
      obtain ⟨r1, r2, r3⟩ := hrelm
      obtain ⟨st1, d1⟩ := w
      simp only at r1 r2 r3
      exact ⟨st1, d1, rfl, r3.symm, (length_eq_of_map_eq _ _ _ _ r3).symm, r1.symm, r2.symm⟩
  · intro e h
    rw [h] at hrelm
    cases hw : run_master sqrt a p1 decl1 u1 s1 sched with
    | error e1 => exact ⟨e1, rfl⟩
    | ok w => rw [hw] at hrelm; exact hrelm.elim

/-- Instance of `failures_swallowed` in the scenario `S = 4`,
`f_i(x) = (x - i)^2`.  The first collaborator returns `true` from the
evaluations, `false` from `set_recourse_approx_evaluator` and status `1` from
the solves with recourse model; the second `false`, `true` and status `0`.
On one rank (`run_single()`) and on four ranks (rank 0 of `run()`), the two
runs return and show the same in every outer iteration. -/
theorem failures_swallowed_witness :
    (ex_master_prob.rterms.eval_f_rterm 0 (fun _ => 0) 0).1 = true ∧
    (ex_master_prob2.rterms.eval_f_rterm 0 (fun _ => 0) 0).1 = false ∧
    (ex_master_prob.set_recourse_approx_evaluator 0 ⟨0, fun _ => 0, fun _ => 0, fun _ => 0⟩).1 =
      false ∧
    (ex_master_prob2.set_recourse_approx_evaluator (0, 0)
      ⟨0, fun _ => 0, fun _ => 0, fun _ => 0⟩).1 = true ∧
    (ex_master_prob.solve_master 0 (fun _ => 0) true).1 = 1 ∧
    (ex_master_prob2.solve_master (0, 0) (fun _ => 0) true).1 = 0 ∧
    (∃ d d1, run_single ex_sqrt2 ex_alg_single ex_master_prob ex_decl ex_uninit 0 =
        .ok (Solve_Success, d) ∧
      run_single ex_sqrt2 ex_alg_single ex_master_prob2 ex_decl ex_uninit (0, 0) =
        .ok (Solve_Success, d1) ∧
      d1.trace.map IterRecord.observed = d.trace.map IterRecord.observed ∧
      d1.trace.length = d.trace.length) ∧
    (∃ fuel st d st1 d1,
      run_master ex_sqrt2 ex_alg ex_master_prob ex_decl ex_uninit 0
        { ex_sched with fuel := fuel } = .ok (st, d) ∧
      run_master ex_sqrt2 ex_alg ex_master_prob2 ex_decl ex_uninit (0, 0)
        { ex_sched with fuel := fuel } = .ok (st1, d1) ∧
      d1.trace.map IterRecord.observed = d.trace.map IterRecord.observed ∧
      d1.trace.length = d.trace.length ∧ d1.bcasts = d.bcasts) := by
  obtain ⟨d, hd⟩ := run_single_returns ex_sqrt2 ex_alg_single ex_master_prob ex_decl ex_uninit 0
    (le_refl 1)
  obtain ⟨fuel, dm, hdm⟩ := run_master_returns ex_sqrt2 ex_alg ex_master_prob ex_decl ex_uninit 0
    ex_sched (le_refl 1) (by decide) (by decide) (fun _ => ex_ready_fair)
  obtain ⟨c1, _, _, _⟩ := failures_swallowed ex_sqrt2 ex_alg_single ex_master_prob
    ex_master_prob2 (fun s s1 => s1.1 = s) ex_decl ex_decl ex_uninit ex_uninit 0 (0, 0) ex_sched
    ex_same_responses rfl rfl rfl
  obtain ⟨_, _, c3, _⟩ := failures_swallowed ex_sqrt2 ex_alg ex_master_prob
    ex_master_prob2 (fun s s1 => s1.1 = s) ex_decl ex_decl ex_uninit ex_uninit 0 (0, 0)
    { ex_sched with fuel := fuel } ex_same_responses rfl rfl rfl
  obtain ⟨d1, g1, g2, g3, _⟩ := c1 _ d hd
  obtain ⟨st1, dm1, k1, k2, k3, _, k5⟩ := c3 _ dm hdm
  exact ⟨rfl, rfl, rfl, rfl, rfl, rfl, ⟨d, d1, hd, g1, g2, g3⟩,
    ⟨fuel, _, dm, st1, dm1, hdm, k1, k2, k3, k5⟩⟩

end swallow_claims

section calls_lemmas

variable {K : Type} [LinearOrderedField K] {σ : Type} {n nc : Nat}

/-- The calls of the tails, one record more. -/
theorem iteration_calls_append (tr : List (IterRecord K nc)) (r : IterRecord K nc) :
    iteration_calls (tr ++ [r]) = iteration_calls tr ++
      [Call.set_recourse_approx_evaluator r.installed, Call.solve_master true] := by
  induction tr with
  | nil => rfl
  | cons r0 rest ih =>
    show Call.set_recourse_approx_evaluator r0.installed :: Call.solve_master true ::
      iteration_calls (rest ++ [r]) = _
    rw [ih]
    rfl

/-- The expected calls, one record more. -/
theorem expected_calls_append (tr : List (IterRecord K nc)) (r : IterRecord K nc) :
    expected_calls (tr ++ [r]) =
      expected_calls tr ++ (if tr.length = 0 then [Call.solve_master false] else []) ++
        [Call.set_recourse_approx_evaluator r.installed, Call.solve_master true] := by
  cases tr with
  | nil => rfl
  | cons r0 rest =>
    have hne : ¬ ((r0 :: rest).length = 0) := by simp
    rw [if_neg hne, List.append_nil]
    show Call.solve_master false :: iteration_calls ((r0 :: rest) ++ [r]) = _
    rw [iteration_calls_append]
    rfl

/-- The solves among the calls of the tails. -/
theorem iteration_calls_solves (tr : List (IterRecord K nc)) :
    (iteration_calls tr).filterMap Call.solve_flag = List.replicate tr.length true := by
  induction tr with
  | nil => rfl
  | cons r0 rest ih =>
    simp only [iteration_calls, List.filterMap_cons, Call.solve_flag, ih, List.length_cons,
      List.replicate_succ]

/-- The solves among the expected calls. -/
theorem expected_calls_solves (tr : List (IterRecord K nc)) :
    (expected_calls tr).filterMap Call.solve_flag = expected_solves tr.length := by
  cases tr with
  | nil => rfl
  | cons r0 rest =>
    simp only [expected_calls, List.filterMap_cons, Call.solve_flag, iteration_calls_solves,
      List.length_cons, expected_solves]

/-- The curvature vector the model update leaves has the value `get_alpha_f`
returned in all its entries. -/
theorem model_update_hess_appx_const (sqrt : K → K) (it : Nat) (h : HessianApprox K nc)
    (v : DriverVars K nc) (inp : IterInput K nc) :
    (model_update sqrt it h v inp).2.hess_appx =
      setToConstant (HessianApprox.get_alpha_f sqrt (model_pre sqrt it h v inp).1 inp.grad_r).1 := by
  unfold model_update
  by_cases h0 : it = 0
  · simp only [if_pos h0]
  · simp only [if_neg h0]

/-- The calls of the tail of an outer iteration. -/
theorem model_and_solve_calls (sqrt : K → K) (a : hiopAlgPrimalDecomposition K n nc)
    (p : hiopInterfacePriDecProblem K σ n nc) (c0 : K) (it : Nat) (d : Driver K σ n nc) :
    ∃ r : IterRecord K nc, (model_and_solve sqrt a p c0 it d).1.trace = d.trace ++ [r] ∧
      (model_and_solve sqrt a p c0 it d).1.calls = d.calls ++
        [Call.set_recourse_approx_evaluator r.installed, Call.solve_master true] ∧
      r.installed.rhess =
        setToConstant (HessianApprox.get_alpha_f sqrt r.step.pre r.inp.grad_r).1 ∧
      r.inp.x0 = d.x0 :=
  ⟨_, rfl, rfl, model_update_hess_appx_const sqrt it d.hess_appx_2 _ _, rfl⟩

/-- The calls of the head of an outer iteration. -/
theorem initial_solve_calls (p : hiopInterfacePriDecProblem K σ n nc) (it : Nat)
    (d : Driver K σ n nc) :
    (initial_solve p it d).calls =
      d.calls ++ (if it = 0 then [Call.solve_master false] else []) ∧
    (initial_solve p it d).x_ =
      (if it = 0 then (p.solve_master d.master_prob_ d.x_ false).2.1 else d.x_) ∧
    (initial_solve p it d).trace = d.trace := by
  unfold initial_solve
  by_cases h0 : it = 0
  · rw [if_pos h0, if_pos h0, if_pos h0]
    exact ⟨rfl, rfl, rfl⟩
  · rw [if_neg h0, if_neg h0, if_neg h0, List.append_nil]
    exact ⟨rfl, rfl, rfl⟩

/-- The body of the outer loop of `run_single()` meets `CallSpec`. -/
theorem run_single_iteration_calls (sqrt : K → K) (a : hiopAlgPrimalDecomposition K n nc)
    (p : hiopInterfacePriDecProblem K σ n nc) :
    CallSpec sqrt a p (run_single_iteration sqrt a p) := by
  intro it d d1 b h
  unfold run_single_iteration at h
  obtain ⟨f1, f2, f3⟩ := initial_solve_calls p it d
  cases hc : a.coupled_point (initial_solve p it d).x_ with
  | none => simp only [hc] at h; cases h
  | some x0 =>
    simp only [hc] at h
    injection h with h
    obtain ⟨r, g1, g2, g3, g4⟩ := model_and_solve_calls sqrt a p (10 ^ 6) it
      { initial_solve p it d with
        rval := (run_single_aggregate a p.rterms x0).1,
        grad_r := (run_single_aggregate a p.rterms x0).2, x0 := x0,
        recourse_val := (run_single_aggregate a p.rterms x0).1 }
    rw [h] at g1 g2
    simp only at g1 g2 g4
    refine ⟨r, ?_, ?_, g3, ?_⟩
    · rw [g1, f3]
    · rw [g2, f1]
    · rw [← f2, hc, g4]

/-- The body of the outer loop of rank 0 in `run()` and `run_local()` meets
`CallSpec`. -/
theorem run_master_iteration_calls (sqrt : K → K) (a : hiopAlgPrimalDecomposition K n nc)
    (p : hiopInterfacePriDecProblem K σ n nc) (sched : Schedule K nc) :
    CallSpec sqrt a p (run_master_iteration sqrt a p sched) := by
  intro it d d1 b h
  unfold run_master_iteration at h
  obtain ⟨f1, f2, f3⟩ := initial_solve_calls p it d
  cases hc : a.coupled_point (initial_solve p it d).x_ with
  | none => simp only [hc] at h; cases h
  | some x0 =>
    simp only [hc] at h
    cases hd : dispatch_aggregate a p.rterms x0 (sched.ready it) (sched.fuel it)
        (master_init (initial_solve p it d).rval (initial_solve p it d).grad_r (sched.buf0 it))
        (sched.prev it) with
    | error e => rw [hd] at h; cases h
    | ok agg =>
      rw [hd] at h
      simp only at h
      injection h with h
      obtain ⟨r, g1, g2, g3, g4⟩ := model_and_solve_calls sqrt a p 1 it
        { initial_solve p it d with
          rval := agg.1, grad_r := agg.2, x0 := x0,
          recourse_val := if a.local_accum_ then (initial_solve p it d).recourse_val else agg.1 }
      injection h with h1 h2
      subst h1
      simp only at g4
      refine ⟨r, ?_, ?_, g3, ?_⟩
      · show (model_and_solve sqrt a p 1 it _).1.trace = _
        rw [g1, f3]
      · show (model_and_solve sqrt a p 1 it _).1.calls = _
        rw [g2, f1]
      · rw [← f2, hc, g4]

end calls_lemmas

section calls_runs

variable {K : Type} [LinearOrderedField K] {σ : Type} {n nc : Nat}

/-- A loop whose body meets `CallSpec`, entered with an empty trace and an
empty log of calls, ends with a log that agrees with the trace. -/
theorem outer_loop_calls (sqrt : K → K) (a : hiopAlgPrimalDecomposition K n nc)
    (p : hiopInterfacePriDecProblem K σ n nc)
    (step : Nat → Driver K σ n nc → Except RunFault (Driver K σ n nc × Bool))
    (hs : CallSpec sqrt a p step) (d0 dF : Driver K σ n nc) (k : Nat)
    (h0 : d0.trace = [] ∧ d0.calls = []) (h : outer_loop step k 0 d0 = .ok dF) :
    CallsOK sqrt a p d0.x_ d0.master_prob_ dF := by
  have hstep : ∀ (it : Nat) (d d1 : Driver K σ n nc) (b : Bool),
      (d.trace.length = it ∧ CallsOK sqrt a p d0.x_ d0.master_prob_ d ∧
        (it = 0 → d.x_ = d0.x_ ∧ d.master_prob_ = d0.master_prob_)) →
      step it d = .ok (d1, b) →
      d1.trace.length = it + 1 ∧ CallsOK sqrt a p d0.x_ d0.master_prob_ d1 := by
    intro it d d1 b ⟨hl, ⟨c1, c2, c3⟩, hinit⟩ hst
    obtain ⟨r, g1, g2, g3, g4⟩ := hs it d d1 b hst
    refine ⟨by rw [g1, List.length_append, hl]; rfl, ?_, ?_, ?_⟩
    · rw [g2, g1, expected_calls_append, c1, hl]
    · intro r1 hr1
      rw [g1, List.mem_append] at hr1
      rcases hr1 with hr1 | hr1
      · exact c2 r1 hr1
      · rw [List.mem_singleton] at hr1
        rw [hr1]
        exact g3
    · intro r1 hr1
      rw [g1] at hr1
      by_cases hz : it = 0
      · have hnil : d.trace = [] := List.length_eq_zero.mp (hl.trans hz)
        rw [hnil] at hr1
        simp only [List.nil_append, List.getElem?_cons_zero, Option.some.injEq] at hr1
        rw [if_pos hz, (hinit hz).1, (hinit hz).2] at g4
        rw [← hr1]
        exact g4
      · have hpos : 0 < d.trace.length := by omega
        rw [List.getElem?_append_left hpos] at hr1
        exact c3 r1 hr1
  have hinv := outer_loop_inv step
    (fun it d => d.trace.length = it ∧ CallsOK sqrt a p d0.x_ d0.master_prob_ d ∧
      (it = 0 → d.x_ = d0.x_ ∧ d.master_prob_ = d0.master_prob_))
    (fun _ d => CallsOK sqrt a p d0.x_ d0.master_prob_ d)
    (fun it d d1 b hI hst =>
      ⟨fun _ => ⟨(hstep it d d1 b hI hst).1, (hstep it d d1 b hI hst).2,
        fun hz => absurd hz (Nat.succ_ne_zero it)⟩,
       fun _ => (hstep it d d1 b hI hst).2⟩)
    k 0 d0 dF
    ⟨by rw [h0.1]; rfl,
      ⟨by rw [h0.1, h0.2]; rfl, by rw [h0.1]; exact fun r hr => absurd hr (List.not_mem_nil r),
        by rw [h0.1]; intro r hr; cases hr⟩,
      fun _ => ⟨rfl, rfl⟩⟩ h
  rcases hinv with ⟨j, _, _, hq⟩ | ⟨_, hi, _⟩
  · exact hq
  · exact hi

/-- The log of the calls of `run_single()` agrees with its trace. -/
theorem run_single_calls (sqrt : K → K) (a : hiopAlgPrimalDecomposition K n nc)
    (p : hiopInterfacePriDecProblem K σ n nc) (decl : HessianApprox K nc) (u : Uninit K nc)
    (s0 : σ) (st : hiopSolveStatus) (d : Driver K σ n nc)
    (h : run_single sqrt a p decl u s0 = .ok (st, d)) :
    CallsOK sqrt a p (fun _ => 0) s0 d := by
  unfold run_single at h
  cases hl : outer_loop (run_single_iteration sqrt a p) a.max_iter_.toNat 0
      (run_single_init a decl u s0) with
  | error e => rw [hl] at h; cases h
  | ok dF =>
    rw [hl] at h
    cases h
    exact outer_loop_calls sqrt a p _ (run_single_iteration_calls sqrt a p) _ _ _ ⟨rfl, rfl⟩ hl

/-- The log of the calls of rank 0 of `run()`, `run_local()` agrees with its
trace. -/
theorem run_master_calls (sqrt : K → K) (a : hiopAlgPrimalDecomposition K n nc)
    (p : hiopInterfacePriDecProblem K σ n nc) (decl : HessianApprox K nc) (u : Uninit K nc)
    (s0 : σ) (sched : Schedule K nc) (st : hiopSolveStatus) (d : Driver K σ n nc)
    (h : run_master sqrt a p decl u s0 sched = .ok (st, d)) :
    CallsOK sqrt a p (fun _ => 0) s0 d := by
  unfold run_master at h
  cases hl : outer_loop (run_master_iteration sqrt a p sched) a.max_iter_.toNat 0
      (run_master_init a decl u s0) with
  | error e => rw [hl] at h; cases h
  | ok dF =>
    rw [hl] at h
    cases h
    exact outer_loop_calls sqrt a p _ (run_master_iteration_calls sqrt a p sched) _ _ _
      ⟨rfl, rfl⟩ hl

end calls_runs

section calls_claims

variable {K : Type} [LinearOrderedField K] {σ : Type} {n nc : Nat}

/-- The solves of a run of at least one outer iteration: one more than the
iterations, the first of them, and no other, without the recourse model. -/
theorem expected_solves_succ (k : Nat) :
    (expected_solves (k + 1)).length = k + 1 + 1 ∧
    (expected_solves (k + 1)).head? = some false ∧
    (expected_solves (k + 1)).count false = 1 ∧
    (expected_solves (k + 1)).count true = k + 1 := by
  refine ⟨?_, rfl, ?_, ?_⟩
  · simp [expected_solves]
  · simp [expected_solves, List.count_cons, List.count_replicate]
  · simp [expected_solves, List.count_cons, List.count_replicate]

/-- C21. Master-solve sequencing.  On the rank that solves the master
problem, in `run()`, `run_local()` and `run_single()`, the calls into the
master problem are, for a run of `K ≥ 1` outer iterations:
`solve_master` without the recourse model, then for each iteration in turn
`set_recourse_approx_evaluator` with the model of that iteration followed by
`solve_master` with the recourse model.  So there are `K + 1` solves, the
first, and only the first, without the recourse model, and the model is
installed before each of the others.  The model installed holds the aggregate
`rval`, `grad_r`, the coupled point `x0`, and a curvature vector with the
value `get_alpha_f` returned in all `nc` entries.  The solve without the
recourse model comes before the first distribution: the coupled point of
iteration 0 is taken from the `x` it returned on the zero vector.  At least one
iteration is made if `max_iter_ ≥ 1` (no call at all is made otherwise), and
such runs exist: `run_single()` returns whenever `nc_ ≤ n_`, and so does rank 0
of the other two under schedules that are fair in every outer iteration. -/
theorem master_solve_sequencing (sqrt : K → K) (a : hiopAlgPrimalDecomposition K n nc)
    (p : hiopInterfacePriDecProblem K σ n nc) (decl : HessianApprox K nc) (u : Uninit K nc)
    (s0 : σ) (sched : Schedule K nc) (bc : List (Vec K n × Int)) (st : hiopSolveStatus)
    (d : Driver K σ n nc)
    (h : run sqrt a p decl u s0 sched bc = .solver (.ok (st, d)) ∨
         run_local sqrt a p decl u s0 sched bc = .solver (.ok (st, d)) ∨
         run_single sqrt a p decl u s0 = .ok (st, d)) :
    d.calls = expected_calls d.trace ∧
    d.calls.filterMap Call.solve_flag = expected_solves d.trace.length ∧
    (d.trace ≠ [] →
      (d.calls.filterMap Call.solve_flag).length = d.trace.length + 1 ∧
      d.calls.head? = some (Call.solve_master false) ∧
      (d.calls.filterMap Call.solve_flag).count false = 1 ∧
      (d.calls.filterMap Call.solve_flag).count true = d.trace.length) ∧
    (∀ r ∈ d.trace, r.installed.rval = r.inp.rval ∧ r.installed.rgrad = r.inp.grad_r ∧
      r.installed.x0 = r.inp.x0 ∧
      r.installed.rhess =
        setToConstant (HessianApprox.get_alpha_f sqrt r.step.pre r.inp.grad_r).1) ∧
    (∀ r, d.trace[0]? = some r →
      a.coupled_point (p.solve_master s0 (fun _ => 0) false).2.1 = some r.inp.x0) ∧
    (1 ≤ a.max_iter_ → d.trace ≠ []) ∧
    (nc ≤ n → ∃ d1, run_single sqrt a p decl u s0 = .ok (Solve_Success, d1)) ∧
    (nc ≤ n → 2 ≤ a.comm_size_ → a.comm_size_ ≤ a.S_ + 1 → (∀ it, Fair a (sched.ready it)) →
      ∃ (fuel : Nat → Nat) (d1 : Driver K σ n nc),
        run_master sqrt a p decl u s0 { sched with fuel := fuel } = .ok (d1.solver_status_, d1)) := by
  have hok : CallsOK sqrt a p (fun _ => 0) s0 d := by
    rcases solver_cases sqrt a p decl u s0 sched bc st d h with h1 | ⟨_, _, h2 | h3⟩
    · exact run_single_calls sqrt a p decl u s0 st d h1
    · exact run_master_calls sqrt a p decl u s0 sched st d h2
    · exact run_master_calls sqrt { a with local_accum_ := true } p decl u s0 sched st d h3
  obtain ⟨c1, c2, c3⟩ := hok
  have hsolves : d.calls.filterMap Call.solve_flag = expected_solves d.trace.length := by
    rw [c1, expected_calls_solves]
  obtain ⟨_, hend⟩ := solver_trace sqrt a p decl u s0 sched bc st d h
  refine ⟨c1, hsolves, ?_, ?_, c3, ?_, fun hn => run_single_returns sqrt a p decl u s0 hn,
    fun hn hP hS hfair => run_master_returns sqrt a p decl u s0 sched hn hP hS hfair⟩
  · intro hne
    cases htr : d.trace with
    | nil => exact absurd htr hne
    | cons r0 rest =>
      rw [hsolves, c1, htr]
      obtain ⟨e1, _, e3, e4⟩ := expected_solves_succ rest.length
      exact ⟨e1, rfl, e3, e4⟩
  · intro r hr
    exact ⟨rfl, rfl, rfl, c2 r hr⟩
  · intro hmax hnil
    rcases hend with ⟨h1, _⟩ | ⟨j, _, _, h4, _⟩
    · omega
    · rw [hnil] at h4
      simp at h4

/-- Instance of `master_solve_sequencing`: on four ranks, in the scenario
`S = 4`, `f_i(x) = (x - i)^2`, rank 0 of `run()` returns after at least two
outer iterations; its calls begin with the solve without the recourse model,
and it has made one solve more than iterations, so at least three; the coupled
point of iteration 0 is `x = 0`, which that solve returned. -/
theorem master_solve_sequencing_witness :
    ∃ (fuel : Nat → Nat) (d : Driver ℚ ℚ 1 1),
      run ex_sqrt2 ex_alg ex_master_prob ex_decl ex_uninit 0 { ex_sched with fuel := fuel } [] =
        .solver (.ok (d.solver_status_, d)) ∧
      2 ≤ d.trace.length ∧ d.calls = expected_calls d.trace ∧
      d.calls.head? = some (Call.solve_master false) ∧
      (d.calls.filterMap Call.solve_flag).length = d.trace.length + 1 ∧
      (d.calls.filterMap Call.solve_flag).count false = 1 ∧
      (∀ r, d.trace[0]? = some r → r.inp.x0 = fun _ => 0) := by
  obtain ⟨fuel, d, hd⟩ := run_master_returns ex_sqrt2 ex_alg ex_master_prob ex_decl ex_uninit 0
    ex_sched (le_refl 1) (by decide) (by decide) (fun _ => ex_ready_fair)
  have hc : ex_alg.comm_size_ ≠ 1 := by decide
  have hrun : run ex_sqrt2 ex_alg ex_master_prob ex_decl ex_uninit 0
      { ex_sched with fuel := fuel } [] = .solver (.ok (d.solver_status_, d)) := by
    rw [(run_cases ex_sqrt2 ex_alg ex_master_prob ex_decl ex_uninit 0
      { ex_sched with fuel := fuel } []).2.2.1 rfl hc rfl, hd]
  have hlen : 2 ≤ d.trace.length :=
    first_iteration_goes_on ex_sqrt2 ex_alg ex_master_prob ex_decl ex_uninit 0
      { ex_sched with fuel := fuel } [] _ d (Or.inl hrun) (by norm_num [ex_alg])
      (by norm_num [ex_alg]) (by norm_num [ex_alg]) (by norm_num [ex_alg])
  have hne : d.trace ≠ [] := by
    intro he
    rw [he] at hlen
    simp at hlen
  obtain ⟨c1, _, c3, _, c5, _⟩ := master_solve_sequencing ex_sqrt2 ex_alg ex_master_prob ex_decl
    ex_uninit 0 { ex_sched with fuel := fuel } [] _ d (Or.inl hrun)
  obtain ⟨e1, e2, e3, _⟩ := c3 hne
  refine ⟨fuel, d, hrun, hlen, c1, e2, e1, e3, ?_⟩
  intro r hr
  have := c5 r hr
  have hx : ex_alg.coupled_point (ex_master_prob.solve_master 0 (fun _ => 0) false).2.1 =
      some (fun _ => 0) := by
    unfold hiopAlgPrimalDecomposition.coupled_point
    simp [ex_master_prob]
  rw [hx] at this
  injection this with this
  exact this.symm

end calls_claims

/-! ## The options: facts that hold for every type of values -/

section options_generic

variable {K : Type} [LT K] [DecidableRel (fun a b : K => a < b)]

open hiopOptionsPriDec

/-- Lookup after the replacement of an entry. -/
theorem replace_apply (o : hiopOptions K) (name nm : String) (e : OptionEntry K) :
    (o.replace name e).mOptions_ nm = if nm = name then some e else o.mOptions_ nm := by
  simp only [hiopOptions.replace, Function.update_apply]

/-- The replaced entry. -/
theorem replace_same (o : hiopOptions K) (name : String) (e : OptionEntry K) :
    (o.replace name e).mOptions_ name = some e := by
  rw [replace_apply, if_pos rfl]

/-- The other entries. -/
theorem replace_other (o : hiopOptions K) (name nm : String) (e : OptionEntry K)
    (h : nm ≠ name) : (o.replace name e).mOptions_ nm = o.mOptions_ nm := by
  rw [replace_apply, if_neg h]

/-- `GetNumeric` on a numeric entry. -/
theorem GetNumeric_of_entry (o : hiopOptions K) (nm : String) (e : OptionEntry K) (v lb ub : K)
    (h : o.mOptions_ nm = some e) (hd : e.data = .OptionNum v lb ub) :
    o.GetNumeric nm = some v := by
  simp only [hiopOptions.GetNumeric, h, hd]

/-- `is_user_defined` on a registered name. -/
theorem is_user_defined_of_entry (o : hiopOptions K) (nm : String) (e : OptionEntry K)
    (h : o.mOptions_ nm = some e) :
    o.is_user_defined nm = (e.specifiedInFile || e.specifiedAtRuntime) := by
  simp only [hiopOptions.is_user_defined, h]

/-- `SetNumericValue` on a numeric option that is not specified in the file,
or with `setFromFile`: the flag, the value if it is within the bounds, and
`ensure_consistence()`. -/
theorem SetNumericValue_assign (ec : hiopOptions K → Option (hiopOptions K)) (o : hiopOptions K)
    (name : String) (value : K) (b : Bool) (e : OptionEntry K) (val lb ub : K)
    (h : o.mOptions_ name = some e) (hd : e.data = .OptionNum val lb ub)
    (hn : ¬ (e.specifiedInFile = true ∧ b = false)) :
    o.SetNumericValue ec name value b =
      (ec (o.replace name ⟨e.specifiedInFile || b, e.specifiedAtRuntime || !b,
        .OptionNum (if value < lb ∨ value > ub then val else value) lb ub⟩)).map
        (fun o => (true, o)) := by
  obtain ⟨f, r, d⟩ := e
  simp only at hd hn
  subst hd
  unfold hiopOptions.SetNumericValue
  simp only [h, if_neg hn, hiopOptions.replace]
  cases b <;> by_cases c : value < lb ∨ value > ub <;> simp [c]

end options_generic

section options_lemmas

variable {K : Type} [LinearOrderedField K]

open hiopOptionsPriDec

/-- An entry has the bounds it has. -/
theorem OptionData.sameBounds_refl (d : OptionData K) : d.SameBounds d := by
  cases d <;> simp [OptionData.SameBounds]

/-- Having the same bounds is transitive. -/
theorem OptionData.sameBounds_trans (d d1 d2 : OptionData K) (h : d.SameBounds d1)
    (h1 : d1.SameBounds d2) : d.SameBounds d2 := by
  cases d <;> cases d1 <;> cases d2 <;> simp_all [OptionData.SameBounds]

/-- Values within bounds stay so when an entry is replaced by one within
bounds. -/
theorem replace_bounds (o : hiopOptions K) (name : String) (e : OptionEntry K)
    (h : ∀ nm e, o.mOptions_ nm = some e → e.data.InBounds) (he : e.data.InBounds) :
    ∀ nm e1, (o.replace name e).mOptions_ nm = some e1 → e1.data.InBounds := by
  intro nm e1 h1
  rw [replace_apply] at h1
  by_cases c : nm = name
  · rw [if_pos c] at h1
    injection h1 with h1
    rw [← h1]
    exact he
  · rw [if_neg c] at h1
    exact h nm e1 h1

/-- The default values are within the registered bounds. -/
theorem registered_bounds (raja : Bool) (nm : String) (e : OptionEntry K)
    (h : (registered raja : hiopOptions K).mOptions_ nm = some e) : e.data.InBounds := by
  revert nm e
  unfold registered register_options
  have h0 : ∀ nm e, (hiopOptions.empty : hiopOptions K).mOptions_ nm = some e →
      e.data.InBounds := by
    intro nm e h
    cases h
  refine replace_bounds _ _ _ (replace_bounds _ _ _ (replace_bounds _ _ _ (replace_bounds _ _ _
    (replace_bounds _ _ _ (replace_bounds _ _ _ (replace_bounds _ _ _ (replace_bounds _ _ _
    (replace_bounds _ _ _ (replace_bounds _ _ _ (replace_bounds _ _ _ h0 ?_) ?_) ?_) ?_) ?_) ?_)
    ?_) ?_) ?_) ?_) ?_
  all_goals (simp only [OptionData.InBounds]; try norm_num)

/-- Five of the entries `register_options()` creates. -/
theorem registered_entries (raja : Bool) :
    (registered raja : hiopOptions K).mOptions_ "tolerance" =
      some ⟨false, false, .OptionNum (1 / 10 ^ 5) (1 / 10 ^ 14) (1 / 10)⟩ ∧
    (registered raja : hiopOptions K).mOptions_ "acceptable_tolerance" =
      some ⟨false, false, .OptionNum (1 / 10 ^ 3) (1 / 10 ^ 14) (1 / 10)⟩ ∧
    (registered raja : hiopOptions K).mOptions_ "accum_local" =
      some ⟨false, false, .OptionStr "false" ["yes", "no"]⟩ ∧
    (registered raja : hiopOptions K).mOptions_ "options_file_master_prob" =
      some ⟨false, false, .OptionStr "hiop_pridec_master.options" []⟩ ∧
    (registered raja : hiopOptions K).mOptions_ "max_iter" =
      some ⟨false, false, .OptionInt 30000 1 (10 ^ 9)⟩ := by
  refine ⟨?_, ?_, ?_, ?_, ?_⟩ <;>
  simp [registered, register_options, hiopOptions.register_num_option,
    hiopOptions.register_int_option, hiopOptions.register_str_option,
    hiopOptions.register_str_option_any, Function.update, default_filename_pridec_masterNLP]

/-- The options are `Shaped` right after `register_options()`. -/
theorem registered_shaped (raja : Bool) : Shaped raja (registered raja : hiopOptions K) where
  shape := fun nm e h => ⟨e, h, OptionData.sameBounds_refl _⟩
  names := fun nm h => h
  bounds := registered_bounds raja
  default_accep := by
    intro e h _
    rw [(registered_entries raja).2.1] at h
    injection h with h
    rw [← h]

/-- In a `Shaped` object `acceptable_tolerance` and `tolerance` are numeric
options with the bounds `1e-14` and `1e-1`, and values within them. -/
theorem shaped_tolerances {raja : Bool} {o : hiopOptions K} (hs : Shaped raja o) :
    ∃ ea a et t, o.mOptions_ "acceptable_tolerance" = some ea ∧
      ea.data = .OptionNum a (1 / 10 ^ 14) (1 / 10) ∧ 1 / 10 ^ 14 ≤ a ∧ a ≤ 1 / 10 ∧
      o.mOptions_ "tolerance" = some et ∧
      et.data = .OptionNum t (1 / 10 ^ 14) (1 / 10) ∧ 1 / 10 ^ 14 ≤ t ∧ t ≤ 1 / 10 := by
  obtain ⟨r1, r2, _⟩ := registered_entries (K := K) raja
  have key : ∀ nm d, (registered raja : hiopOptions K).mOptions_ nm =
      some ⟨false, false, .OptionNum d (1 / 10 ^ 14) (1 / 10)⟩ →
      ∃ e v, o.mOptions_ nm = some e ∧ e.data = .OptionNum v (1 / 10 ^ 14) (1 / 10) ∧
        1 / 10 ^ 14 ≤ v ∧ v ≤ 1 / 10 := by
    intro nm d hr
    cases hm : o.mOptions_ nm with
    | none =>
      have := hs.names nm hm
      rw [hr] at this
      cases this
    | some e =>
      obtain ⟨e1, h1, h2⟩ := hs.shape nm e hm
      rw [hr] at h1
      injection h1 with h1
      have hb := hs.bounds nm e hm
      rw [← h1] at h2
      cases hd : e.data with
      | OptionNum v lb ub =>
        rw [hd] at h2 hb
        simp only [OptionData.SameBounds] at h2
        simp only [OptionData.InBounds] at hb
        obtain ⟨h3, h4⟩ := h2
        subst h3 h4
        exact ⟨e, v, rfl, hd, hb.1, hb.2⟩
      | OptionInt v lb ub => rw [hd] at h2; simp only [OptionData.SameBounds] at h2
      | OptionStr v r => rw [hd] at h2; simp only [OptionData.SameBounds] at h2
  obtain ⟨ea, a, h1, h2, h3, h4⟩ := key _ _ r2
  obtain ⟨et, t, h5, h6, h7, h8⟩ := key _ _ r1
  exact ⟨ea, a, et, t, h1, h2, h3, h4, h5, h6, h7, h8⟩

/-- A `Shaped` object stays so when an entry is replaced by one of the same
struct and bounds, with a value within the bounds, and marked as set by the
user if it is `acceptable_tolerance`. -/
theorem shaped_replace {raja : Bool} {o : hiopOptions K} (hs : Shaped raja o) (name : String)
    (e e1 : OptionEntry K) (h : o.mOptions_ name = some e) (hb : e1.data.SameBounds e.data)
    (hi : e1.data.InBounds)
    (hacc : name = "acceptable_tolerance" →
      (e1.specifiedInFile || e1.specifiedAtRuntime) = true) :
    Shaped raja (o.replace name e1) where
  shape := by
    intro nm e2 h2
    rw [replace_apply] at h2
    by_cases c : nm = name
    · rw [if_pos c] at h2
      injection h2 with h2
      obtain ⟨e3, h3, h4⟩ := hs.shape name e h
      rw [c, ← h2]
      exact ⟨e3, h3, OptionData.sameBounds_trans _ _ _ hb h4⟩
    · rw [if_neg c] at h2
      exact hs.shape nm e2 h2
  names := by
    intro nm h2
    rw [replace_apply] at h2
    by_cases c : nm = name
    · rw [if_pos c] at h2
      cases h2
    · rw [if_neg c] at h2
      exact hs.names nm h2
  bounds := replace_bounds o name e1 hs.bounds hi
  default_accep := by
    intro e2 h2 h3
    rw [replace_apply] at h2
    by_cases c : "acceptable_tolerance" = name
    · rw [if_pos c] at h2
      injection h2 with h2
      rw [← h2, hacc c.symm] at h3
      cases h3
    · rw [if_neg c] at h2
      exact hs.default_accep e2 h2 h3

end options_lemmas

section options_set

variable {K : Type} [LinearOrderedField K]

open hiopOptionsPriDec

/-- `ensure_consistence()` on a `Shaped` object returns, having replaced the
value of `acceptable_tolerance` by the one of `tolerance` if it is smaller and
set by the user, and having changed nothing otherwise; the object is
`Consistent` then. -/
theorem ensure_consistence_shaped {raja : Bool} {o : hiopOptions K} (hs : Shaped raja o) :
    ∃ ea a et t, o.mOptions_ "acceptable_tolerance" = some ea ∧
      ea.data = .OptionNum a (1 / 10 ^ 14) (1 / 10) ∧
      o.mOptions_ "tolerance" = some et ∧ et.data = .OptionNum t (1 / 10 ^ 14) (1 / 10) ∧
      ensure_consistence o = some
        (if a < t ∧ (ea.specifiedInFile || ea.specifiedAtRuntime) = true then
          o.replace "acceptable_tolerance" { ea with data := .OptionNum t (1 / 10 ^ 14) (1 / 10) }
         else o) ∧
      Consistent raja
        (if a < t ∧ (ea.specifiedInFile || ea.specifiedAtRuntime) = true then
          o.replace "acceptable_tolerance" { ea with data := .OptionNum t (1 / 10 ^ 14) (1 / 10) }
         else o) := by
  obtain ⟨ea, a, et, t, h1, h2, h3, h4, h5, h6, h7, h8⟩ := shaped_tolerances hs
  have ga := GetNumeric_of_entry o _ ea a _ _ h1 h2
  have gt := GetNumeric_of_entry o _ et t _ _ h5 h6
  have gu := is_user_defined_of_entry o _ ea h1
  have hne : "tolerance" ≠ "acceptable_tolerance" := by decide
  refine ⟨ea, a, et, t, h1, h2, h5, h6, ?_, ?_⟩
  · unfold ensure_consistence
    simp only [ga, gt, gu]
    by_cases c1 : a < t
    · by_cases c2 : (ea.specifiedInFile || ea.specifiedAtRuntime) = true
      · have c3 : ¬ (t < 1 / 10 ^ 14 ∨ t > 1 / 10) := by
          intro hh
          rcases hh with hh | hh
          · exact absurd hh (not_lt.mpr h7)
          · exact absurd hh (not_lt.mpr h8)
        simp only [c1, c2, and_self, if_true, hiopOptions.set_val, h1, h2, c3, if_false,
          hiopOptions.replace]
      · simp only [c1, c2, and_false, if_false, if_true]
        simp
    · simp only [c1, false_and, if_false]
  · by_cases c : a < t ∧ (ea.specifiedInFile || ea.specifiedAtRuntime) = true
    · rw [if_pos c]
      have hsh : Shaped raja (o.replace "acceptable_tolerance"
          { ea with data := .OptionNum t (1 / 10 ^ 14) (1 / 10) }) := by
        refine shaped_replace hs _ ea _ h1 ?_ ⟨h7, h8⟩ (fun _ => c.2)
        rw [h2]
        exact ⟨rfl, rfl⟩
      refine ⟨hsh, ?_⟩
      intro a1 t1 g1 g2 _
      have e1 : (o.replace "acceptable_tolerance"
          { ea with data := .OptionNum t (1 / 10 ^ 14) (1 / 10) }).GetNumeric
          "acceptable_tolerance" = some t :=
        GetNumeric_of_entry _ _ _ t _ _ (replace_same _ _ _) rfl
      have e2 : (o.replace "acceptable_tolerance"
          { ea with data := .OptionNum t (1 / 10 ^ 14) (1 / 10) }).GetNumeric "tolerance" =
          some t :=
        GetNumeric_of_entry _ _ et t _ _ ((replace_other _ _ _ _ hne).trans h5) h6
      rw [e1] at g1
      rw [e2] at g2
      injection g1 with g1
      injection g2 with g2
      rw [← g1, ← g2]
    · rw [if_neg c]
      refine ⟨hs, ?_⟩
      intro a1 t1 g1 g2 g3
      rw [ga] at g1
      rw [gt] at g2
      rw [gu] at g3
      injection g1 with g1
      injection g2 with g2
      rw [← g1, ← g2]
      by_contra hlt
      exact c ⟨not_le.mp hlt, g3⟩

/-- The two last statements of a public setter on a `Shaped` object:
`ensure_consistence()` returns and the setter returns `true`. -/
theorem setter_tail {raja : Bool} {o : hiopOptions K} (hs : Shaped raja o) :
    ∃ o1, (ensure_consistence o).map (fun o => (true, o)) = some (true, o1) ∧
      Consistent raja o1 := by
  obtain ⟨ea, a, et, t, _, _, _, _, h5, h6⟩ := ensure_consistence_shaped hs
  rw [h5]
  exact ⟨_, rfl, h6⟩

/-- `SetIntegerValue` on an integer option that is not specified in the file,
or with `setFromFile`. -/
theorem SetIntegerValue_assign (ec : hiopOptions K → Option (hiopOptions K)) (o : hiopOptions K)
    (name : String) (value : Int) (b : Bool) (e : OptionEntry K) (val lb ub : Int)
    (h : o.mOptions_ name = some e) (hd : e.data = .OptionInt val lb ub)
    (hn : ¬ (e.specifiedInFile = true ∧ b = false)) :
    o.SetIntegerValue ec name value b =
      (ec (o.replace name ⟨e.specifiedInFile || b, e.specifiedAtRuntime,
        .OptionInt (if value < lb ∨ value > ub then val else value) lb ub⟩)).map
        (fun o => (true, o)) := by
  obtain ⟨f, r, d⟩ := e
  simp only at hd hn
  subst hd
  unfold hiopOptions.SetIntegerValue
  simp only [h, if_neg hn, hiopOptions.replace]
  cases b <;> by_cases c : value < lb ∨ value > ub <;> simp [c]

/-- `SetStringValue` on a string option that is not specified in the file, or
with `setFromFile`. -/
theorem SetStringValue_assign (ec : hiopOptions K → Option (hiopOptions K)) (o : hiopOptions K)
    (name value : String) (b : Bool) (e : OptionEntry K) (val : String) (range : List String)
    (h : o.mOptions_ name = some e) (hd : e.data = .OptionStr val range)
    (hn : ¬ (e.specifiedInFile = true ∧ b = false)) :
    o.SetStringValue ec name value b =
      (ec (o.replace name ⟨e.specifiedInFile || b, e.specifiedAtRuntime,
        .OptionStr (if tolower value ∉ range ∧ range ≠ [] then val else tolower value)
          range⟩)).map (fun o => (true, o)) := by
  obtain ⟨f, r, d⟩ := e
  simp only at hd hn
  subst hd
  unfold hiopOptions.SetStringValue
  simp only [h, if_neg hn, hiopOptions.replace]
  cases b <;> by_cases c : tolower value ∉ range ∧ range ≠ [] <;> simp [c]

end options_set

section options_calls

variable {K : Type} [LinearOrderedField K]

open hiopOptionsPriDec

/-- A public setter called at runtime on an option specified in the file
returns `true` at once; nothing changes, `ensure_consistence()` is not
called. -/
theorem setters_ignored (ec : hiopOptions K → Option (hiopOptions K)) (o : hiopOptions K)
    (name : String) (e : OptionEntry K) (h : o.mOptions_ name = some e)
    (hf : e.specifiedInFile = true) :
    (∀ val lb ub v, e.data = .OptionNum val lb ub →
      o.SetNumericValue ec name v false = some (true, o)) ∧
    (∀ val lb ub v, e.data = .OptionInt val lb ub →
      o.SetIntegerValue ec name v false = some (true, o)) ∧
    (∀ val range v, e.data = .OptionStr val range →
      o.SetStringValue ec name v false = some (true, o)) := by
  refine ⟨?_, ?_, ?_⟩
  · intro val lb ub v hd
    simp only [hiopOptions.SetNumericValue, h, hd, hf, and_self, if_true]
  · intro val lb ub v hd
    simp only [hiopOptions.SetIntegerValue, h, hd, hf, and_self, if_true]
  · intro val range v hd
    simp only [hiopOptions.SetStringValue, h, hd, hf, and_self, if_true]

/-- `SetNumericValue` on a `Consistent` object returns `true` and leaves a
`Consistent` object. -/
theorem SetNumericValue_consistent {raja : Bool} {o : hiopOptions K} (hc : Consistent raja o)
    (name : String) (value : K) (b : Bool) :
    ∃ o1, o.SetNumericValue ensure_consistence name value b = some (true, o1) ∧
      Consistent raja o1 := by
  cases hm : o.mOptions_ name with
  | none =>
    simp only [hiopOptions.SetNumericValue, hm]
    exact setter_tail hc.shaped
  | some e =>
    cases hd : e.data with
    | OptionNum val lb ub =>
      by_cases hn : e.specifiedInFile = true ∧ b = false
      · obtain ⟨h1, h2⟩ := hn
        subst h2
        exact ⟨o, (setters_ignored _ o name e hm h1).1 val lb ub value hd, hc⟩
      · rw [SetNumericValue_assign _ o name value b e val lb ub hm hd hn]
        apply setter_tail
        refine shaped_replace hc.shaped name e _ hm ?_ ?_ ?_
        · rw [hd]
          exact ⟨rfl, rfl⟩
        · have hb := hc.shaped.bounds name e hm
          rw [hd] at hb
          by_cases c : value < lb ∨ value > ub
          · simp only [if_pos c]
            exact hb
          · simp only [if_neg c]
            exact ⟨not_lt.mp (fun hh => c (Or.inl hh)), not_lt.mp (fun hh => c (Or.inr hh))⟩
        · intro _
          cases b <;> simp
    | OptionInt val lb ub =>
      simp only [hiopOptions.SetNumericValue, hm, hd]
      exact setter_tail hc.shaped
    | OptionStr val range =>
      simp only [hiopOptions.SetNumericValue, hm, hd]
      exact setter_tail hc.shaped

/-- The entry of `acceptable_tolerance` in a `Shaped` object is an
`OptionNum`. -/
theorem shaped_accep_num {raja : Bool} {o : hiopOptions K} (hs : Shaped raja o)
    (e : OptionEntry K) (h : o.mOptions_ "acceptable_tolerance" = some e) :
    ∃ a, e.data = .OptionNum a (1 / 10 ^ 14) (1 / 10) := by
  obtain ⟨ea, a, _, _, h1, h2, _⟩ := shaped_tolerances hs
  rw [h] at h1
  injection h1 with h1
  rw [h1]
  exact ⟨a, h2⟩

/-- `SetIntegerValue` on a `Consistent` object returns `true` and leaves a
`Consistent` object. -/
theorem SetIntegerValue_consistent {raja : Bool} {o : hiopOptions K} (hc : Consistent raja o)
    (name : String) (value : Int) (b : Bool) :
    ∃ o1, o.SetIntegerValue ensure_consistence name value b = some (true, o1) ∧
      Consistent raja o1 := by
  cases hm : o.mOptions_ name with
  | none =>
    simp only [hiopOptions.SetIntegerValue, hm]
    exact setter_tail hc.shaped
  | some e =>
    cases hd : e.data with
    | OptionInt val lb ub =>
      by_cases hn : e.specifiedInFile = true ∧ b = false
      · obtain ⟨h1, h2⟩ := hn
        subst h2
        exact ⟨o, (setters_ignored _ o name e hm h1).2.1 val lb ub value hd, hc⟩
      · rw [SetIntegerValue_assign _ o name value b e val lb ub hm hd hn]
        apply setter_tail
        refine shaped_replace hc.shaped name e _ hm ?_ ?_ ?_
        · rw [hd]
          exact ⟨rfl, rfl⟩
        · have hb := hc.shaped.bounds name e hm
          rw [hd] at hb
          by_cases c : value < lb ∨ value > ub
          · simp only [if_pos c]
            exact hb
          · simp only [if_neg c]
            exact ⟨not_lt.mp (fun hh => c (Or.inl hh)), not_lt.mp (fun hh => c (Or.inr hh))⟩
        · intro hname
          subst hname
          obtain ⟨a, ha⟩ := shaped_accep_num hc.shaped e hm
          rw [hd] at ha
          cases ha
    | OptionNum val lb ub =>
      simp only [hiopOptions.SetIntegerValue, hm, hd]
      exact setter_tail hc.shaped
    | OptionStr val range =>
      simp only [hiopOptions.SetIntegerValue, hm, hd]
      exact setter_tail hc.shaped

/-- `SetStringValue` on a `Consistent` object returns `true` and leaves a
`Consistent` object. -/
theorem SetStringValue_consistent {raja : Bool} {o : hiopOptions K} (hc : Consistent raja o)
    (name value : String) (b : Bool) :
    ∃ o1, o.SetStringValue ensure_consistence name value b = some (true, o1) ∧
      Consistent raja o1 := by
  cases hm : o.mOptions_ name with
  | none =>
    simp only [hiopOptions.SetStringValue, hm]
    exact setter_tail hc.shaped
  | some e =>
    cases hd : e.data with
    | OptionStr val range =>
      by_cases hn : e.specifiedInFile = true ∧ b = false
      · obtain ⟨h1, h2⟩ := hn
        subst h2
        exact ⟨o, (setters_ignored _ o name e hm h1).2.2 val range value hd, hc⟩
      · rw [SetStringValue_assign _ o name value b e val range hm hd hn]
        apply setter_tail
        refine shaped_replace hc.shaped name e _ hm ?_ trivial ?_
        · rw [hd]
          exact rfl
        · intro hname
          subst hname
          obtain ⟨a, ha⟩ := shaped_accep_num hc.shaped e hm
          rw [hd] at ha
          cases ha
    | OptionNum val lb ub =>
      simp only [hiopOptions.SetStringValue, hm, hd]
      exact setter_tail hc.shaped
    | OptionInt val lb ub =>
      simp only [hiopOptions.SetStringValue, hm, hd]
      exact setter_tail hc.shaped

/-- Every call of a public setter on a `Consistent` object returns `true` and
leaves a `Consistent` object. -/
theorem call_consistent {raja : Bool} {o : hiopOptions K} (hc : Consistent raja o)
    (c : SetCall K) : ∃ o1, call o c = some (true, o1) ∧ Consistent raja o1 := by
  cases c with
  | SetNumericValue name value b => exact SetNumericValue_consistent hc name value b
  | SetIntegerValue name value b => exact SetIntegerValue_consistent hc name value b
  | SetStringValue name value b => exact SetStringValue_consistent hc name value b

/-- Every sequence of calls of the public setters on a `Consistent` object
returns and leaves a `Consistent` object. -/
theorem calls_consistent {raja : Bool} (cs : List (SetCall K)) :
    ∀ {o : hiopOptions K}, Consistent raja o →
      ∃ o1, calls o cs = some o1 ∧ Consistent raja o1 := by
  induction cs with
  | nil =>
    intro o hc
    exact ⟨o, rfl, hc⟩
  | cons c cs ih =>
    intro o hc
    obtain ⟨o1, h1, h2⟩ := call_consistent hc c
    obtain ⟨o2, h3, h4⟩ := ih h2
    refine ⟨o2, ?_, h4⟩
    simp only [calls, h1, h3]

/-- `load_from_file` on a `Consistent` object returns and leaves a
`Consistent` object. -/
theorem load_from_file_consistent {raja : Bool} (parse_double : String → Option K)
    (parse_int : String → Option Int) (file : List (String × String)) :
    ∀ {o : hiopOptions K}, Consistent raja o →
      ∃ o1, hiopOptions.load_from_file ensure_consistence parse_double parse_int o file =
        some o1 ∧ Consistent raja o1 := by
  induction file with
  | nil =>
    intro o hc
    exact ⟨o, rfl, hc⟩
  | cons l rest ih =>
    intro o hc
    obtain ⟨name, value⟩ := l
    cases hm : o.mOptions_ name with
    | none =>
      simp only [hiopOptions.load_from_file, hm]
      exact ih hc
    | some e =>
      cases hd : e.data with
      | OptionNum val lb ub =>
        cases hp : parse_double value with
        | none =>
          simp only [hiopOptions.load_from_file, hm, hd, hp]
          exact ih hc
        | some v =>
          obtain ⟨o1, h1, h2⟩ := SetNumericValue_consistent hc name v true
          simp only [hiopOptions.load_from_file, hm, hd, hp, h1]
          exact ih h2
      | OptionInt val lb ub =>
        cases hp : parse_int value with
        | none =>
          simp only [hiopOptions.load_from_file, hm, hd, hp]
          exact ih hc
        | some v =>
          obtain ⟨o1, h1, h2⟩ := SetIntegerValue_consistent hc name v true
          simp only [hiopOptions.load_from_file, hm, hd, hp, h1]
          exact ih h2
      | OptionStr val range =>
        obtain ⟨o1, h1, h2⟩ := SetStringValue_consistent hc name value true
        simp only [hiopOptions.load_from_file, hm, hd, h1]
        exact ih h2

/-- The options are `Consistent` right after `register_options()`. -/
theorem registered_consistent (raja : Bool) :
    Consistent raja (registered raja : hiopOptions K) where
  shaped := registered_shaped raja
  accep_ge := by
    intro a t _ _ hu
    rw [is_user_defined_of_entry _ _ _ (registered_entries raja).2.1] at hu
    cases hu

/-- The constructor `hiopOptionsPriDec(opt_filename)` returns, whatever the
file holds, with a `Consistent` object. -/
theorem create_consistent (raja : Bool) (parse_double : String → Option K)
    (parse_int : String → Option Int) (file : List (String × String)) :
    ∃ o, create raja parse_double parse_int file = some o ∧ Consistent raja o := by
  obtain ⟨o1, h1, h2⟩ := load_from_file_consistent parse_double parse_int file
    (registered_consistent (K := K) raja)
  obtain ⟨ea, a, et, t, _, _, _, _, h5, h6⟩ := ensure_consistence_shaped h2.shaped
  refine ⟨_, ?_, h6⟩
  unfold create
  have h1a : hiopOptions.load_from_file ensure_consistence parse_double parse_int
      (register_options raja hiopOptions.empty) file = some o1 := h1
  simp only [h1a, h5]

end options_calls

section options_eval

variable {K : Type} [LinearOrderedField K]

open hiopOptionsPriDec

/-- `ensure_consistence()` changes nothing when `acceptable_tolerance` is not
below `tolerance`, and when the user has not set it. -/
theorem ensure_consistence_keep (o : hiopOptions K) (ea et : OptionEntry K) (a lb ub t lb1 ub1 : K)
    (h1 : o.mOptions_ "acceptable_tolerance" = some ea) (h2 : ea.data = .OptionNum a lb ub)
    (h3 : o.mOptions_ "tolerance" = some et) (h4 : et.data = .OptionNum t lb1 ub1)
    (hk : t ≤ a ∨ (ea.specifiedInFile || ea.specifiedAtRuntime) = false) :
    ensure_consistence o = some o := by
  simp only [ensure_consistence, GetNumeric_of_entry o _ ea a lb ub h1 h2,
    GetNumeric_of_entry o _ et t lb1 ub1 h3 h4, is_user_defined_of_entry o _ ea h1]
  rcases hk with hk | hk
  · rw [if_neg (not_lt.mpr hk)]
  · rw [hk]
    simp

/-- With no options file, or an empty one, the constructor leaves the options
as `register_options()` created them. -/
theorem create_no_file (raja : Bool) (parse_double : String → Option K)
    (parse_int : String → Option Int) :
    create raja parse_double parse_int [] = some (registered raja) := by
  obtain ⟨h1, h2, _⟩ := registered_entries (K := K) raja
  unfold create
  simp only [hiopOptions.load_from_file]
  exact ensure_consistence_keep _ _ _ _ _ _ _ _ _ h2 rfl h1 rfl (Or.inr rfl)

/-- `GetInteger` on an integer entry. -/
theorem GetInteger_of_entry (o : hiopOptions K) (nm : String) (e : OptionEntry K) (v lb ub : Int)
    (h : o.mOptions_ nm = some e) (hd : e.data = .OptionInt v lb ub) :
    o.GetInteger nm = some v := by
  simp only [hiopOptions.GetInteger, h, hd]

/-- `GetString` on a string entry. -/
theorem GetString_of_entry (o : hiopOptions K) (nm : String) (e : OptionEntry K) (v : String)
    (range : List String) (h : o.mOptions_ nm = some e) (hd : e.data = .OptionStr v range) :
    o.GetString nm = some v := by
  simp only [hiopOptions.GetString, h, hd]

end options_eval

section options_stored

variable {K : Type} [LinearOrderedField K]

open hiopOptionsPriDec

/-- `ensure_consistence()` on a `Shaped` object touches no entry but the one of
`acceptable_tolerance`. -/
theorem ensure_consistence_other {raja : Bool} {o : hiopOptions K} (hs : Shaped raja o) :
    ∃ o1, ensure_consistence o = some o1 ∧ Consistent raja o1 ∧
      ∀ nm, nm ≠ "acceptable_tolerance" → o1.mOptions_ nm = o.mOptions_ nm := by
  obtain ⟨ea, a, et, t, _, _, _, _, h5, h6⟩ := ensure_consistence_shaped hs
  refine ⟨_, h5, h6, ?_⟩
  intro nm hnm
  by_cases c : a < t ∧ (ea.specifiedInFile || ea.specifiedAtRuntime) = true
  · rw [if_pos c, replace_other _ _ _ _ hnm]
  · rw [if_neg c]

/-- `SetIntegerValue` with a value within the bounds, on an option that is
not specified in the file or with `setFromFile`: the value is stored, and
`specifiedInFile` is set under `setFromFile`; `specifiedAtRuntime` is left as
it was. -/
theorem SetIntegerValue_stored {raja : Bool} {o : hiopOptions K} (hc : Consistent raja o)
    (name : String) (v : Int) (b : Bool) (e : OptionEntry K) (val lb ub : Int)
    (h : o.mOptions_ name = some e) (hd : e.data = .OptionInt val lb ub)
    (hn : ¬ (e.specifiedInFile = true ∧ b = false)) (h1 : lb ≤ v) (h2 : v ≤ ub) :
    ∃ o1, o.SetIntegerValue ensure_consistence name v b = some (true, o1) ∧
      Consistent raja o1 ∧
      o1.mOptions_ name = some ⟨e.specifiedInFile || b, e.specifiedAtRuntime,
        .OptionInt v lb ub⟩ := by
  have hr : ¬ (v < lb ∨ v > ub) := by
    intro hh
    rcases hh with hh | hh
    · exact absurd hh (not_lt.mpr h1)
    · exact absurd hh (not_lt.mpr h2)
  have hname : name ≠ "acceptable_tolerance" := by
    intro hname
    subst hname
    obtain ⟨a, ha⟩ := shaped_accep_num hc.shaped e h
    rw [hd] at ha
    cases ha
  rw [SetIntegerValue_assign _ o name v b e val lb ub h hd hn, if_neg hr]
  have hsh : Shaped raja (o.replace name ⟨e.specifiedInFile || b, e.specifiedAtRuntime,
      .OptionInt v lb ub⟩) := by
    refine shaped_replace hc.shaped name e _ h ?_ ⟨h1, h2⟩ (fun hh => absurd hh hname)
    rw [hd]
    exact ⟨rfl, rfl⟩
  obtain ⟨o1, g1, g2, g3⟩ := ensure_consistence_other hsh
  refine ⟨o1, ?_, g2, ?_⟩
  · rw [g1]
    rfl
  · rw [g3 name hname, replace_same]

/-- `SetStringValue` with a value that is, in lower case, in the range, or on
an option without range; the option not specified in the file, or with
`setFromFile`: the value is stored in lower case, and `specifiedInFile` is set
under `setFromFile`; `specifiedAtRuntime` is left as it was. -/
theorem SetStringValue_stored {raja : Bool} {o : hiopOptions K} (hc : Consistent raja o)
    (name v : String) (b : Bool) (e : OptionEntry K) (val : String) (range : List String)
    (h : o.mOptions_ name = some e) (hd : e.data = .OptionStr val range)
    (hn : ¬ (e.specifiedInFile = true ∧ b = false)) (h1 : tolower v ∈ range ∨ range = []) :
    ∃ o1, o.SetStringValue ensure_consistence name v b = some (true, o1) ∧
      Consistent raja o1 ∧
      o1.mOptions_ name = some ⟨e.specifiedInFile || b, e.specifiedAtRuntime,
        .OptionStr (tolower v) range⟩ := by
  have hr : ¬ (tolower v ∉ range ∧ range ≠ []) := by
    intro hh
    rcases h1 with h1 | h1
    · exact hh.1 h1
    · exact hh.2 h1
  have hname : name ≠ "acceptable_tolerance" := by
    intro hname
    subst hname
    obtain ⟨a, ha⟩ := shaped_accep_num hc.shaped e h
    rw [hd] at ha
    cases ha
  rw [SetStringValue_assign _ o name v b e val range h hd hn, if_neg hr]
  have hsh : Shaped raja (o.replace name ⟨e.specifiedInFile || b, e.specifiedAtRuntime,
      .OptionStr (tolower v) range⟩) := by
    refine shaped_replace hc.shaped name e _ h ?_ trivial (fun hh => absurd hh hname)
    rw [hd]
    exact rfl
  obtain ⟨o1, g1, g2, g3⟩ := ensure_consistence_other hsh
  refine ⟨o1, ?_, g2, ?_⟩
  · rw [g1]
    rfl
  · rw [g3 name hname, replace_same]

/-- `SetNumericValue` with a value within the bounds, on an option that is not
specified in the file or with `setFromFile`: the flag of the origin is set, and
the value is stored; `ensure_consistence()` then replaces it by the value of
`tolerance` if the option is `acceptable_tolerance` and the value is below
it. -/
theorem SetNumericValue_stored {raja : Bool} {o : hiopOptions K} (hc : Consistent raja o)
    (name : String) (v : K) (b : Bool) (e : OptionEntry K) (val lb ub t : K)
    (h : o.mOptions_ name = some e) (hd : e.data = .OptionNum val lb ub)
    (hn : ¬ (e.specifiedInFile = true ∧ b = false)) (h1 : lb ≤ v) (h2 : v ≤ ub)
    (ht : o.GetNumeric "tolerance" = some t) :
    ∃ o1, o.SetNumericValue ensure_consistence name v b = some (true, o1) ∧
      Consistent raja o1 ∧
      o1.mOptions_ name = some ⟨e.specifiedInFile || b, e.specifiedAtRuntime || !b,
        .OptionNum (if name = "acceptable_tolerance" ∧ v < t then t else v) lb ub⟩ ∧
      (name = "acceptable_tolerance" → o1.GetNumeric "tolerance" = some t) := by
  have hr : ¬ (v < lb ∨ v > ub) := by
    intro hh
    rcases hh with hh | hh
    · exact absurd hh (not_lt.mpr h1)
    · exact absurd hh (not_lt.mpr h2)
  have hne : "tolerance" ≠ "acceptable_tolerance" := by decide
  have hflag : ((e.specifiedInFile || b) || (e.specifiedAtRuntime || !b)) = true := by
    cases b <;> simp
  rw [SetNumericValue_assign _ o name v b e val lb ub h hd hn, if_neg hr]
  have hsh : Shaped raja (o.replace name ⟨e.specifiedInFile || b, e.specifiedAtRuntime || !b,
      .OptionNum v lb ub⟩) := by
    refine shaped_replace hc.shaped name e _ h ?_ ⟨h1, h2⟩ (fun _ => hflag)
    rw [hd]
    exact ⟨rfl, rfl⟩
  obtain ⟨ea, a, et, t1, g1, g2, g3, g4, g5, g6⟩ := ensure_consistence_shaped hsh
  by_cases c : name = "acceptable_tolerance"
  · subst c
    rw [replace_same] at g1
    injection g1 with g1
    subst g1
    injection g2 with g2a g2b g2c
    subst g2a g2b g2c
    have g3a : o.mOptions_ "tolerance" = some et := by
      rw [← g3, replace_other _ _ _ _ hne]
    have ht1 : t1 = t := by
      have := GetNumeric_of_entry _ _ et t1 _ _ g3a g4
      rw [ht] at this
      injection this with this
      exact this.symm
    subst ht1
    dsimp only at g5 g6
    simp only [hflag, and_true] at g5 g6
    simp only [true_and]
    by_cases c1 : v < t1
    · rw [if_pos c1] at g5 g6
      rw [g5, if_pos c1]
      refine ⟨_, rfl, g6, by rw [replace_same], fun _ => ?_⟩
      exact GetNumeric_of_entry _ _ et t1 _ _
        ((replace_other _ _ _ _ hne).trans g3) g4
    · rw [if_neg c1] at g5 g6
      rw [g5, if_neg c1]
      refine ⟨_, rfl, g6, by rw [replace_same], fun _ => ?_⟩
      exact GetNumeric_of_entry _ _ et t1 _ _ g3 g4
  · rw [g5]
    simp only [c, false_and, if_false]
    refine ⟨_, rfl, g6, ?_, fun hh => hh.elim⟩
    by_cases c1 : a < t1 ∧ (ea.specifiedInFile || ea.specifiedAtRuntime) = true
    · rw [if_pos c1, replace_other _ _ _ _ c, replace_same]
    · rw [if_neg c1, replace_same]

/-- The three setters under `setFromFile`, with a value within the bounds or
the range, whatever `ensure_consistence()` is: the option is marked as
specified in the file, the value is stored, a string in lower case, and
`ensure_consistence()` is called on the result. -/
theorem setters_from_file (ec : hiopOptions K → Option (hiopOptions K)) (o : hiopOptions K)
    (name : String) (e : OptionEntry K) (h : o.mOptions_ name = some e) :
    (∀ val lb ub v, e.data = .OptionNum val lb ub → lb ≤ v → v ≤ ub →
      o.SetNumericValue ec name v true =
        (ec (o.replace name ⟨true, e.specifiedAtRuntime, .OptionNum v lb ub⟩)).map
          (fun o => (true, o))) ∧
    (∀ val lb ub v, e.data = .OptionInt val lb ub → lb ≤ v → v ≤ ub →
      o.SetIntegerValue ec name v true =
        (ec (o.replace name ⟨true, e.specifiedAtRuntime, .OptionInt v lb ub⟩)).map
          (fun o => (true, o))) ∧
    (∀ val range v, e.data = .OptionStr val range → (tolower v ∈ range ∨ range = []) →
      o.SetStringValue ec name v true =
        (ec (o.replace name ⟨true, e.specifiedAtRuntime, .OptionStr (tolower v) range⟩)).map
          (fun o => (true, o))) := by
  refine ⟨?_, ?_, ?_⟩
  · intro val lb ub v hd h1 h2
    have hr : ¬ (v < lb ∨ v > ub) := by
      intro hh
      rcases hh with hh | hh
      · exact absurd hh (not_lt.mpr h1)
      · exact absurd hh (not_lt.mpr h2)
    rw [SetNumericValue_assign ec o name v true e val lb ub h hd (by simp), if_neg hr]
    simp only [Bool.or_true, Bool.not_true, Bool.or_false]
  · intro val lb ub v hd h1 h2
    have hr : ¬ (v < lb ∨ v > ub) := by
      intro hh
      rcases hh with hh | hh
      · exact absurd hh (not_lt.mpr h1)
      · exact absurd hh (not_lt.mpr h2)
    rw [SetIntegerValue_assign ec o name v true e val lb ub h hd (by simp), if_neg hr]
    simp only [Bool.or_true]
  · intro val range v hd h1
    have hr : ¬ (tolower v ∉ range ∧ range ≠ []) := by
      intro hh
      rcases h1 with h1 | h1
      · exact hh.1 h1
      · exact hh.2 h1
    rw [SetStringValue_assign ec o name v true e val range h hd (by simp), if_neg hr]
    simp only [Bool.or_true]

end options_stored

section options_claims

variable {K : Type} [LinearOrderedField K]

open hiopOptionsPriDec

/-- What the constructor and a sequence of calls of the public setters
leave is `Consistent`. -/
theorem reachable_consistent (raja : Bool) (parse_double : String → Option K)
    (parse_int : String → Option Int) (file : List (String × String)) (cs : List (SetCall K))
    (o0 o : hiopOptions K) (h0 : create raja parse_double parse_int file = some o0)
    (h : calls o0 cs = some o) : Consistent raja o := by
  obtain ⟨o1, h1, h2⟩ := create_consistent raja parse_double parse_int file
  rw [h0] at h1
  injection h1 with h1
  subst h1
  obtain ⟨o2, h3, h4⟩ := calls_consistent cs h2
  rw [h] at h3
  injection h3 with h3
  subst h3
  exact h4

/-- C24 (the code at the failing input).  A `hiopOptionsPriDec` object
constructed without options file holds `"false"` for `accum_local`, the
default that `register_options()` passes, which is not in the range
`{"yes", "no"}` it registers on the same call; a later `SetStringValue` with a
value outside the range (`"true"`) is refused and leaves `"false"`. -/
theorem accum_local_default (raja : Bool) (parse_double : String → Option K)
    (parse_int : String → Option Int) :
    ∃ o o1 : hiopOptions K, create raja parse_double parse_int [] = some o ∧
      o.mOptions_ "accum_local" = some ⟨false, false, .OptionStr "false" ["yes", "no"]⟩ ∧
      o.GetString "accum_local" = some "false" ∧ "false" ∉ ["yes", "no"] ∧
      o.SetStringValue ensure_consistence "accum_local" "true" false = some (true, o1) ∧
      o1.GetString "accum_local" = some "false" := by
  obtain ⟨r1, r2, r3, _⟩ := registered_entries (K := K) raja
  have hc := registered_consistent (K := K) raja
  have hset := SetStringValue_assign ensure_consistence (registered raja : hiopOptions K)
    "accum_local" "true" false _ _ _ r3 rfl (by simp)
  have hsh : Shaped raja ((registered raja : hiopOptions K).replace "accum_local"
      ⟨false || false, false, .OptionStr
        (if tolower "true" ∉ ["yes", "no"] ∧ ["yes", "no"] ≠ [] then "false" else tolower "true")
        ["yes", "no"]⟩) := by
    refine shaped_replace hc.shaped _ _ _ r3 rfl trivial ?_
    intro hh
    exact absurd hh (by decide)
  obtain ⟨o1, g1, g2, g3⟩ := ensure_consistence_other hsh
  refine ⟨registered raja, o1, create_no_file raja parse_double parse_int, r3,
    GetString_of_entry _ _ _ "false" ["yes", "no"] r3 rfl, by decide, ?_, ?_⟩
  · rw [hset, g1]
    rfl
  · refine GetString_of_entry _ _ _ "false" ["yes", "no"]
      ((g3 _ (by decide)).trans (replace_same _ _ _)) ?_
    have : tolower "true" ∉ ["yes", "no"] ∧ ["yes", "no"] ≠ [] := by decide
    simp only [if_pos this]

/-- C25 (the code at the failing input).  On a `hiopOptionsPriDec` object
constructed without options file, `SetIntegerValue("max_iter", 100)` and
`SetStringValue("accum_local", "yes")` at runtime store the value and leave
`is_user_defined` at `false`: the two methods set `specifiedInFile` under
`setFromFile` and never `specifiedAtRuntime`.  `SetNumericValue` at runtime
and the three setters under `setFromFile` make `is_user_defined` return
`true`; it returns `false` for a name that is not registered. -/
theorem is_user_defined_after_set (raja : Bool) (parse_double : String → Option K)
    (parse_int : String → Option Int) :
    ∃ o o1 o2 o3 o4 o5 : hiopOptions K, create raja parse_double parse_int [] = some o ∧
      o.SetIntegerValue ensure_consistence "max_iter" 100 false = some (true, o1) ∧
      o1.GetInteger "max_iter" = some 100 ∧ o1.is_user_defined "max_iter" = false ∧
      o.SetStringValue ensure_consistence "accum_local" "yes" false = some (true, o2) ∧
      o2.GetString "accum_local" = some "yes" ∧ o2.is_user_defined "accum_local" = false ∧
      o.SetNumericValue ensure_consistence "tolerance" (1 / 10 ^ 6) false = some (true, o3) ∧
      o3.GetNumeric "tolerance" = some (1 / 10 ^ 6) ∧ o3.is_user_defined "tolerance" = true ∧
      o.SetIntegerValue ensure_consistence "max_iter" 100 true = some (true, o4) ∧
      o4.is_user_defined "max_iter" = true ∧
      o.SetStringValue ensure_consistence "accum_local" "yes" true = some (true, o5) ∧
      o5.is_user_defined "accum_local" = true ∧
      o.is_user_defined "no_such_option" = false := by
  obtain ⟨r1, r2, r3, r4, r5⟩ := registered_entries (K := K) raja
  have hc := registered_consistent (K := K) raja
  obtain ⟨o1, a1, _, a3⟩ := SetIntegerValue_stored hc "max_iter" 100 false _ _ _ _ r5 rfl
    (by simp) (by norm_num) (by norm_num)
  obtain ⟨o2, b1, _, b3⟩ := SetStringValue_stored hc "accum_local" "yes" false _ _ _ r3 rfl
    (by simp) (Or.inl (by decide))
  obtain ⟨o3, c1, _, c3, _⟩ := SetNumericValue_stored hc "tolerance" (1 / 10 ^ 6) false _ _ _ _
    (1 / 10 ^ 5) r1 rfl (by simp)
    (by norm_num) (by norm_num)
    (GetNumeric_of_entry _ _ _ (1 / 10 ^ 5) (1 / 10 ^ 14) (1 / 10) r1 rfl)
  obtain ⟨o4, d1, _, d3⟩ := SetIntegerValue_stored hc "max_iter" 100 true _ _ _ _ r5 rfl
    (by simp) (by norm_num) (by norm_num)
  obtain ⟨o5, e1, _, e3⟩ := SetStringValue_stored hc "accum_local" "yes" true _ _ _ r3 rfl
    (by simp) (Or.inl (by decide))
  have hne : ¬ ("tolerance" = "acceptable_tolerance") := by decide
  refine ⟨registered raja, o1, o2, o3, o4, o5, create_no_file raja parse_double parse_int,
    a1, GetInteger_of_entry _ _ _ 100 1 (10 ^ 9) a3 rfl, ?_, b1, ?_, ?_, c1, ?_, ?_, d1, ?_,
    e1, ?_, ?_⟩
  · rw [is_user_defined_of_entry _ _ _ a3]
    rfl
  · exact GetString_of_entry _ _ _ (tolower "yes") ["yes", "no"] b3 rfl
  · rw [is_user_defined_of_entry _ _ _ b3]
    rfl
  · refine GetNumeric_of_entry _ _ _ (1 / 10 ^ 6) (1 / 10 ^ 14) (1 / 10) c3 ?_
    simp only [hne, false_and, if_false]
  · rw [is_user_defined_of_entry _ _ _ c3]
    rfl
  · rw [is_user_defined_of_entry _ _ _ d3]
    rfl
  · rw [is_user_defined_of_entry _ _ _ e3]
    rfl
  · have hn := (registered_shaped (K := K) raja).names
    simp [hiopOptions.is_user_defined, registered, register_options,
      hiopOptions.register_num_option, hiopOptions.register_int_option,
      hiopOptions.register_str_option, hiopOptions.register_str_option_any, Function.update,
      hiopOptions.empty]

end options_claims

section options_claims2

variable {K : Type} [LinearOrderedField K]

open hiopOptionsPriDec

/-- C26, as stated, fails.  On a `hiopOptionsPriDec` object constructed without
options file (`tolerance = 1e-5`),
`SetNumericValue("acceptable_tolerance", 1e-10, true)`, a value within the
bounds `[1e-14, 1e-1]`, leaves the value `1e-5`: `ensure_consistence()` has
raised it to `tolerance`.  A later
`SetNumericValue("acceptable_tolerance", 1e-2, false)` returns `true` and
changes nothing, so the value is `1e-5` and not `1e-10`. -/
theorem file_value_adjusted :
    ∃ o o1 : hiopOptions ℚ, create false (fun _ => none) (fun _ => none) [] = some o ∧
      (1 / 10 ^ 14 : ℚ) ≤ 1 / 10 ^ 10 ∧ (1 / 10 ^ 10 : ℚ) ≤ 1 / 10 ∧
      o.SetNumericValue ensure_consistence "acceptable_tolerance" (1 / 10 ^ 10) true =
        some (true, o1) ∧
      o1.SetNumericValue ensure_consistence "acceptable_tolerance" (1 / 10 ^ 2) false =
        some (true, o1) ∧
      o1.GetNumeric "acceptable_tolerance" = some (1 / 10 ^ 5) ∧
      (1 / 10 ^ 5 : ℚ) ≠ 1 / 10 ^ 10 := by
  obtain ⟨r1, r2, _⟩ := registered_entries (K := ℚ) false
  have hc := registered_consistent (K := ℚ) false
  obtain ⟨o1, c1, _, c3, _⟩ := SetNumericValue_stored hc "acceptable_tolerance" (1 / 10 ^ 10)
    true _ (1 / 10 ^ 3) (1 / 10 ^ 14) (1 / 10) (1 / 10 ^ 5) r2 rfl (by simp) (by norm_num)
    (by norm_num) (GetNumeric_of_entry _ _ _ (1 / 10 ^ 5) (1 / 10 ^ 14) (1 / 10) r1 rfl)
  have hlt : (1 / 10 ^ 10 : ℚ) < 1 / 10 ^ 5 := by norm_num
  simp only [hlt, and_self, if_true] at c3
  refine ⟨registered false, o1, create_no_file false _ _, by norm_num, by norm_num, c1, ?_, ?_,
    by norm_num⟩
  · exact (setters_ignored ensure_consistence o1 _ _ c3 rfl).1 (1 / 10 ^ 5) (1 / 10 ^ 14)
      (1 / 10) (1 / 10 ^ 2) rfl
  · exact GetNumeric_of_entry _ _ _ (1 / 10 ^ 5) (1 / 10 ^ 14) (1 / 10) c3 rfl

/-- C26, amended.  On a `hiopOptionsPriDec` object as the constructor and any
calls of the public setters have left it, for a registered option and values
within its bounds (for a string option: in lower case in its range, or the
range empty): the setter under `setFromFile` returns `true`, marks the option
as specified in the file and stores the value, a string in lower case, and
after `ensure_consistence()` the option holds that value, except that
`acceptable_tolerance` holds the value of `tolerance` if it was set below it;
a later call of the setter at runtime returns `true` and changes nothing; a
later call under `setFromFile` stores its value in the same way.  Whatever
the class and its `ensure_consistence()` are: a setter at runtime on an option
specified in the file returns `true` at once and changes nothing, and a setter
under `setFromFile` marks the option, stores the value and hands the result to
`ensure_consistence()`. -/
theorem file_options_precedence (raja : Bool) (parse_double : String → Option K)
    (parse_int : String → Option Int) (file : List (String × String)) (cs : List (SetCall K))
    (o0 o : hiopOptions K) (h0 : create raja parse_double parse_int file = some o0)
    (h : calls o0 cs = some o) (name : String) (e : OptionEntry K)
    (he : o.mOptions_ name = some e) :
    (∀ val lb ub v1 v2 t, e.data = .OptionNum val lb ub → lb ≤ v1 → v1 ≤ ub → lb ≤ v2 →
      v2 ≤ ub → o.GetNumeric "tolerance" = some t →
      ∃ o1 o2, o.SetNumericValue ensure_consistence name v1 true = some (true, o1) ∧
        o1.GetNumeric name = some (if name = "acceptable_tolerance" ∧ v1 < t then t else v1) ∧
        o1.is_user_defined name = true ∧
        o1.SetNumericValue ensure_consistence name v2 false = some (true, o1) ∧
        o1.SetNumericValue ensure_consistence name v2 true = some (true, o2) ∧
        o2.GetNumeric name = some (if name = "acceptable_tolerance" ∧ v2 < t then t else v2)) ∧
    (∀ val lb ub v1 v2, e.data = .OptionInt val lb ub → lb ≤ v1 → v1 ≤ ub → lb ≤ v2 →
      v2 ≤ ub →
      ∃ o1 o2, o.SetIntegerValue ensure_consistence name v1 true = some (true, o1) ∧
        o1.GetInteger name = some v1 ∧ o1.is_user_defined name = true ∧
        o1.SetIntegerValue ensure_consistence name v2 false = some (true, o1) ∧
        o1.SetIntegerValue ensure_consistence name v2 true = some (true, o2) ∧
        o2.GetInteger name = some v2) ∧
    (∀ val range v1 v2, e.data = .OptionStr val range → (tolower v1 ∈ range ∨ range = []) →
      (tolower v2 ∈ range ∨ range = []) →
      ∃ o1 o2, o.SetStringValue ensure_consistence name v1 true = some (true, o1) ∧
        o1.GetString name = some (tolower v1) ∧ o1.is_user_defined name = true ∧
        o1.SetStringValue ensure_consistence name v2 false = some (true, o1) ∧
        o1.SetStringValue ensure_consistence name v2 true = some (true, o2) ∧
        o2.GetString name = some (tolower v2)) ∧
    (∀ (ec : hiopOptions K → Option (hiopOptions K)) (o1 : hiopOptions K) (nm : String)
      (e1 : OptionEntry K), o1.mOptions_ nm = some e1 →
      (e1.specifiedInFile = true →
        (∀ val lb ub v, e1.data = .OptionNum val lb ub →
          o1.SetNumericValue ec nm v false = some (true, o1)) ∧
        (∀ val lb ub v, e1.data = .OptionInt val lb ub →
          o1.SetIntegerValue ec nm v false = some (true, o1)) ∧
        (∀ val range v, e1.data = .OptionStr val range →
          o1.SetStringValue ec nm v false = some (true, o1))) ∧
      (∀ val lb ub v, e1.data = .OptionNum val lb ub → lb ≤ v → v ≤ ub →
        o1.SetNumericValue ec nm v true =
          (ec (o1.replace nm ⟨true, e1.specifiedAtRuntime, .OptionNum v lb ub⟩)).map
            (fun o => (true, o))) ∧
      (∀ val lb ub v, e1.data = .OptionInt val lb ub → lb ≤ v → v ≤ ub →
        o1.SetIntegerValue ec nm v true =
          (ec (o1.replace nm ⟨true, e1.specifiedAtRuntime, .OptionInt v lb ub⟩)).map
            (fun o => (true, o))) ∧
      (∀ val range v, e1.data = .OptionStr val range → (tolower v ∈ range ∨ range = []) →
        o1.SetStringValue ec nm v true =
          (ec (o1.replace nm ⟨true, e1.specifiedAtRuntime, .OptionStr (tolower v) range⟩)).map
            (fun o => (true, o)))) := by
  have hc := reachable_consistent raja parse_double parse_int file cs o0 o h0 h
  refine ⟨?_, ?_, ?_, fun ec o1 nm e1 h1 =>
    ⟨fun hf => setters_ignored ec o1 nm e1 h1 hf, setters_from_file ec o1 nm e1 h1⟩⟩
  · intro val lb ub v1 v2 t hd a1 a2 a3 a4 ht
    obtain ⟨o1, c1, c2, c3, c4⟩ := SetNumericValue_stored hc name v1 true e val lb ub t he hd
      (by simp) a1 a2 ht
    obtain ⟨_, _, et, t1, _, _, _, _, g5, g6, _, _⟩ := shaped_tolerances c2.shaped
    have gt1 := GetNumeric_of_entry o1 _ et t1 _ _ g5 g6
    obtain ⟨o2, d1, d2, d3, _⟩ := SetNumericValue_stored c2 name v2 true _ _ lb ub t1 c3 rfl
      (by simp) a3 a4 gt1
    refine ⟨o1, o2, c1, GetNumeric_of_entry _ _ _ _ lb ub c3 rfl, ?_, ?_, d1, ?_⟩
    · rw [is_user_defined_of_entry _ _ _ c3]
      simp
    · exact (setters_ignored ensure_consistence o1 _ _ c3 (by simp)).1 _ lb ub v2 rfl
    · refine GetNumeric_of_entry _ _ _ _ lb ub d3 ?_
      by_cases c : name = "acceptable_tolerance"
      · have := c4 c
        rw [gt1] at this
        injection this with this
        rw [this]
      · simp only [c, false_and, if_false]
  · intro val lb ub v1 v2 hd a1 a2 a3 a4
    obtain ⟨o1, c1, c2, c3⟩ := SetIntegerValue_stored hc name v1 true e val lb ub he hd
      (by simp) a1 a2
    obtain ⟨o2, d1, d2, d3⟩ := SetIntegerValue_stored c2 name v2 true _ v1 lb ub c3 rfl
      (by simp) a3 a4
    refine ⟨o1, o2, c1, GetInteger_of_entry _ _ _ v1 lb ub c3 rfl, ?_, ?_, d1,
      GetInteger_of_entry _ _ _ v2 lb ub d3 rfl⟩
    · rw [is_user_defined_of_entry _ _ _ c3]
      simp
    · exact (setters_ignored ensure_consistence o1 _ _ c3 (by simp)).2.1 v1 lb ub v2 rfl
  · intro val range v1 v2 hd a1 a2
    obtain ⟨o1, c1, c2, c3⟩ := SetStringValue_stored hc name v1 true e val range he hd
      (by simp) a1
    obtain ⟨o2, d1, d2, d3⟩ := SetStringValue_stored c2 name v2 true _ (tolower v1) range c3 rfl
      (by simp) a2
    refine ⟨o1, o2, c1, GetString_of_entry _ _ _ (tolower v1) range c3 rfl, ?_, ?_, d1,
      GetString_of_entry _ _ _ (tolower v2) range d3 rfl⟩
    · rw [is_user_defined_of_entry _ _ _ c3]
      simp
    · exact (setters_ignored ensure_consistence o1 _ _ c3 (by simp)).2.2 (tolower v1) range v2 rfl

/-- Instance of `file_options_precedence`: on the object constructed without
options file, `max_iter` set to `100` from the file keeps `100` against a
runtime `200` and takes `200` from the file. -/
theorem file_options_precedence_witness :
    ∃ o o1 o2 : hiopOptions ℚ, create false ex_parse_double ex_parse_int [] = some o ∧
      calls o [] = some o ∧
      o.SetIntegerValue ensure_consistence "max_iter" 100 true = some (true, o1) ∧
      o1.GetInteger "max_iter" = some 100 ∧
      o1.SetIntegerValue ensure_consistence "max_iter" 200 false = some (true, o1) ∧
      o1.SetIntegerValue ensure_consistence "max_iter" 200 true = some (true, o2) ∧
      o2.GetInteger "max_iter" = some 200 := by
  have h0 := create_no_file (K := ℚ) false ex_parse_double ex_parse_int
  have he := (registered_entries (K := ℚ) false).2.2.2.2
  obtain ⟨o1, o2, c1, c2, _, c4, c5, c6⟩ :=
    (file_options_precedence false ex_parse_double ex_parse_int [] [] _ _ h0 rfl "max_iter" _
      he).2.1 30000 1 (10 ^ 9) 100 200 rfl (by norm_num) (by norm_num) (by norm_num)
      (by norm_num)
  exact ⟨_, o1, o2, h0, rfl, c1, c2, c4, c5, c6⟩

end options_claims2

/-! ## The options with values of type `double`: what carries over from numbers -/

section options_double

variable {K : Type} [LinearOrderedField K]

open hiopOptionsPriDec

theorem double.num_le_num (x y : K) : (double.num x ≤ double.num y) ↔ x ≤ y := Iff.rfl

theorem double.not_le_nan (a : double K) : ¬ a ≤ double.nan := by
  cases a <;> exact fun h => h

theorem double.num_pow (x : K) (n : Nat) : double.num x ^ n = double.num (x ^ n) := rfl

theorem double.num_ofNat (n : Nat) [OfNat K n] :
    (OfNat.ofNat n : double K) = double.num (OfNat.ofNat n) := rfl

end options_double

section options_claims3

variable {K : Type} [LinearOrderedField K]

open hiopOptionsPriDec

/-- C27, as stated, fails.  On a `hiopOptionsPriDec` object constructed without
options file, after `SetStringValue("options_file_master_prob", "Master.opt")`
the call `GetString("options_file_master_prob")` returns `"master.opt"`. -/
theorem unrestricted_string_changed :
    ∃ o o1 : hiopOptions ℚ, create false (fun _ => none) (fun _ => none) [] = some o ∧
      o.SetStringValue ensure_consistence "options_file_master_prob" "Master.opt" false =
        some (true, o1) ∧
      o1.GetString "options_file_master_prob" = some "master.opt" ∧
      o1.GetString "options_file_master_prob" ≠ some "Master.opt" := by
  obtain ⟨_, _, _, r4, _⟩ := registered_entries (K := ℚ) false
  have hc := registered_consistent (K := ℚ) false
  obtain ⟨o1, c1, _, c3⟩ := SetStringValue_stored hc "options_file_master_prob" "Master.opt"
    false _ "hiop_pridec_master.options" [] r4 rfl (by simp) (Or.inr rfl)
  have hg : o1.GetString "options_file_master_prob" = some "master.opt" :=
    GetString_of_entry _ _ _ (tolower "Master.opt") [] c3 rfl
  refine ⟨registered false, o1, create_no_file false _ _, c1, hg, ?_⟩
  rw [hg]
  decide

/-- C27, amended.  On a `hiopOptionsPriDec` object as the constructor and any
calls of the public setters have left it, `options_file_master_prob` is a
string option with an empty range; and for a string option with an empty range
that is not specified in the file, and every string `v`, `SetStringValue(name,
v)` returns `true`, after which `GetString(name)` returns `v` in lower case:
`v` itself if it has no upper-case letter.  Whatever the class and its
`ensure_consistence()` are, the setter stores `v` in lower case and hands the
result to `ensure_consistence()`. -/
theorem unrestricted_string_lowercase (raja : Bool) (parse_double : String → Option K)
    (parse_int : String → Option Int) (file : List (String × String)) (cs : List (SetCall K))
    (o0 o : hiopOptions K) (h0 : create raja parse_double parse_int file = some o0)
    (h : calls o0 cs = some o) :
    (∃ e val, o.mOptions_ "options_file_master_prob" = some e ∧ e.data = .OptionStr val []) ∧
    (∀ name e val v, o.mOptions_ name = some e → e.data = .OptionStr val [] →
      e.specifiedInFile = false →
      ∃ o1, o.SetStringValue ensure_consistence name v false = some (true, o1) ∧
        o1.GetString name = some (tolower v) ∧
        (tolower v = v → o1.GetString name = some v)) ∧
    (∀ (ec : hiopOptions K → Option (hiopOptions K)) (o1 : hiopOptions K) (name : String)
      (e : OptionEntry K) (val v : String), o1.mOptions_ name = some e →
      e.data = .OptionStr val [] → e.specifiedInFile = false →
      o1.SetStringValue ec name v false =
        (ec (o1.replace name ⟨false, e.specifiedAtRuntime, .OptionStr (tolower v) []⟩)).map
          (fun o => (true, o))) := by
  have hc := reachable_consistent raja parse_double parse_int file cs o0 o h0 h
  refine ⟨?_, ?_, ?_⟩
  rotate_left 2
  · intro ec o1 name e val v he hd hf
    have hr : ¬ (tolower v ∉ ([] : List String) ∧ ([] : List String) ≠ []) := fun hh => hh.2 rfl
    rw [SetStringValue_assign ec o1 name v false e val [] he hd (by simp [hf]), if_neg hr, hf]
    rfl
  · obtain ⟨_, _, _, r4, _⟩ := registered_entries (K := K) raja
    cases hm : o.mOptions_ "options_file_master_prob" with
    | none =>
      have := hc.shaped.names _ hm
      rw [r4] at this
      cases this
    | some e =>
      obtain ⟨e1, h1, h2⟩ := hc.shaped.shape _ e hm
      rw [r4] at h1
      injection h1 with h1
      rw [← h1] at h2
      cases hd : e.data with
      | OptionStr val range =>
        rw [hd] at h2
        simp only [OptionData.SameBounds] at h2
        subst h2
        exact ⟨e, val, rfl, hd⟩
      | OptionNum v lb ub => rw [hd] at h2; simp only [OptionData.SameBounds] at h2
      | OptionInt v lb ub => rw [hd] at h2; simp only [OptionData.SameBounds] at h2
  · intro name e val v he hd hf
    obtain ⟨o1, c1, _, c3⟩ := SetStringValue_stored hc name v false e val [] he hd
      (by simp [hf]) (Or.inr rfl)
    have hg := GetString_of_entry _ _ _ (tolower v) [] c3 rfl
    exact ⟨o1, c1, hg, fun hv => by rw [hg, hv]⟩

/-- Instance of `unrestricted_string_lowercase`: on the object constructed
without options file, `options_file_master_prob` set to `"master_a.opt"` at
runtime holds `"master_a.opt"`. -/
theorem unrestricted_string_lowercase_witness :
    ∃ o o1 : hiopOptions ℚ, create false ex_parse_double ex_parse_int [] = some o ∧
      calls o [] = some o ∧
      o.SetStringValue ensure_consistence "options_file_master_prob" "master_a.opt" false =
        some (true, o1) ∧
      o1.GetString "options_file_master_prob" = some "master_a.opt" := by
  have h0 := create_no_file (K := ℚ) false ex_parse_double ex_parse_int
  have he := (registered_entries (K := ℚ) false).2.2.2.1
  obtain ⟨o1, c1, _, c3⟩ :=
    (unrestricted_string_lowercase false ex_parse_double ex_parse_int [] [] _ _ h0 rfl).2.1
      "options_file_master_prob" _ "hiop_pridec_master.options" "master_a.opt" he rfl rfl
  exact ⟨_, o1, h0, rfl, c1, c3 (by decide)⟩

end options_claims3

section ctor_claims

variable {K : Type} [LinearOrderedField K] {n : Nat}

open hiopOptionsPriDec

/-- Five more of the entries `register_options()` creates. -/
theorem registered_entries2 (raja : Bool) :
    (registered raja : hiopOptions K).mOptions_ "alpha_max" =
      some ⟨false, false, .OptionNum (10 ^ 6) 1 (10 ^ 14)⟩ ∧
    (registered raja : hiopOptions K).mOptions_ "alpha_min" =
      some ⟨false, false, .OptionNum (1 / 10 ^ 5) (1 / 10 ^ 8) (10 ^ 3)⟩ ∧
    (registered raja : hiopOptions K).mOptions_ "acceptable_iterations" =
      some ⟨false, false, .OptionInt 25 1 (10 ^ 6)⟩ ∧
    (registered raja : hiopOptions K).mOptions_ "verbosity_level" =
      some ⟨false, false, .OptionInt 2 0 12⟩ ∧
    (registered raja : hiopOptions K).mOptions_ "print_options" =
      some ⟨false, false, .OptionStr "no" ["yes", "no"]⟩ := by
  refine ⟨?_, ?_, ?_, ?_, ?_⟩ <;>
  simp [registered, register_options, hiopOptions.register_num_option,
    hiopOptions.register_int_option, hiopOptions.register_str_option,
    hiopOptions.register_str_option_any, Function.update]

/-- The coupled indices the constructor without coupled indices leaves. -/
theorem create_xc_idx (decl a : hiopAlgPrimalDecomposition K n n) (S my_rank comm_size : Nat)
    (raja : Bool) (parse_double : String → Option K) (parse_int : String → Option Int)
    (file : List (String × String)) (fresh : Vec K n)
    (h : hiopAlgPrimalDecomposition.create decl S my_rank comm_size raja parse_double parse_int
      file fresh = some a) :
    ∀ i, a.xc_idx_ i = i := by
  simp only [hiopAlgPrimalDecomposition.create, Option.bind_eq_bind, Option.bind_eq_some] at h
  obtain ⟨o, _, tol, _, atol, _, acnt, _, mit, _, amax, _, amin, _, acc, _, h⟩ := h
  intro i
  split_ifs at h with c1
  simp only [Option.bind_eq_some] at h
  obtain ⟨ver, _, h⟩ := h
  split_ifs at h with c2
  simp only [Option.pure_def, Option.some.injEq] at h
  rw [← h]
  apply Fin.ext
  simp [linspace]

/-- With no options file the constructor without coupled indices returns. -/
theorem create_default (decl : hiopAlgPrimalDecomposition K n n) (S my_rank comm_size : Nat)
    (raja : Bool) (parse_double : String → Option K) (parse_int : String → Option Int)
    (fresh : Vec K n) :
    ∃ a, hiopAlgPrimalDecomposition.create decl S my_rank comm_size raja parse_double parse_int
        [] fresh = some a ∧
      a.S_ = S ∧ a.my_rank_ = my_rank ∧ a.comm_size_ = comm_size ∧ a.tol_ = 1 / 10 ^ 5 ∧
      a.accp_tol_ = 1 / 10 ^ 3 ∧ a.accp_count_ = 25 ∧ a.max_iter_ = 30000 ∧
      a.alpha_max_ = 10 ^ 6 ∧ a.alpha_min_ = 1 / 10 ^ 5 ∧ a.local_accum_ = false ∧
      a.x_ = fresh := by
  obtain ⟨r1, r2, r3, _, r5⟩ := registered_entries (K := K) raja
  obtain ⟨q1, q2, q3, q4, _⟩ := registered_entries2 (K := K) raja
  have g1 := GetNumeric_of_entry _ _ _ (1 / 10 ^ 5 : K) (1 / 10 ^ 14) (1 / 10) r1 rfl
  have g2 := GetNumeric_of_entry _ _ _ (1 / 10 ^ 3 : K) (1 / 10 ^ 14) (1 / 10) r2 rfl
  have g3 := GetString_of_entry _ _ _ "false" ["yes", "no"] r3 rfl
  have g4 := GetInteger_of_entry _ _ _ 30000 1 (10 ^ 9) r5 rfl
  have g5 := GetNumeric_of_entry _ _ _ (10 ^ 6 : K) 1 (10 ^ 14) q1 rfl
  have g6 := GetNumeric_of_entry _ _ _ (1 / 10 ^ 5 : K) (1 / 10 ^ 8) (10 ^ 3) q2 rfl
  have g7 := GetInteger_of_entry _ _ _ 25 1 (10 ^ 6) q3 rfl
  have g8 := GetInteger_of_entry _ _ _ 2 0 12 q4 rfl
  have c1 : (10 ^ 6 : K) > 1 / 10 ^ 5 := by norm_num
  have c2 : (2 : Int) ≤ 12 ∧ (2 : Int) ≥ 0 := by decide
  refine ⟨{ decl with
      S_ := S, my_rank_ := my_rank, comm_size_ := comm_size, tol_ := 1 / 10 ^ 5,
      accp_tol_ := 1 / 10 ^ 3, accp_count_ := 25, max_iter_ := 30000,
      alpha_max_ := 10 ^ 6, alpha_min_ := 1 / 10 ^ 5,
      local_accum_ := decide ("false" = "yes"), ver_ := 2, x_ := fresh,
      xc_idx_ := fun i => ⟨(linspace n 0 1 i).toNat, by simp [linspace]⟩ },
    ?_, rfl, rfl, rfl, rfl, rfl, rfl, rfl, rfl, rfl, ?_, rfl⟩
  rotate_left
  · show decide ("false" = "yes") = false
    decide
  simp only [hiopAlgPrimalDecomposition.create, create_no_file, Option.bind_eq_bind,
    Option.some_bind, g1, g2, g3, g4, g5, g6, g7, g8, if_pos c1, if_pos c2, Option.pure_def]

/-- Modelled `linspace` at the arguments of the test and of the
constructor. -/
theorem linspace_values (m : Nat) (i : Fin m) :
    linspace m 0 2 i = 2 * (i : Int) ∧ linspace m 0 1 i = (i : Int) := by
  simp [linspace, mul_comm]

/-- C29. Default coupling set.  `linspace(i0, di)` sets element `i` to
`i0 + i * di` (so `linspace(0, 2)` gives `2 * i`, as the test checks, and
`linspace(0, 1)` gives `i`).  The constructor without coupled indices builds
an object with `nc_ = n_` (the two dimensions in its type are the same)
whose `xc_idx_` is `linspace(0, 1)`, the indices `0, 1, ..., n - 1`: every
master variable is coupled, each exactly once, the coupled point taken from
`x` is `x` itself, through `copyFromStarting` as well as through
`copy_from_indexes`, and `step_size_inf` is the norm of `x - x0`.  With no
options file the constructor returns. -/
theorem default_coupling_set (sqrt : K → K) (decl a : hiopAlgPrimalDecomposition K n n)
    (S my_rank comm_size : Nat) (raja : Bool) (parse_double : String → Option K)
    (parse_int : String → Option Int) (file : List (String × String)) (fresh : Vec K n)
    (h : hiopAlgPrimalDecomposition.create decl S my_rank comm_size raja parse_double parse_int
      file fresh = some a) :
    (∀ (m : Nat) (i0 di : Int) (i : Fin m), linspace m i0 di i = i0 + (i : Int) * di) ∧
    (∀ (m : Nat) (i : Fin m), linspace m 0 2 i = 2 * (i : Int)) ∧
    (∀ i, (((a.xc_idx_ i : Fin n) : Nat) : Int) = linspace n 0 1 i) ∧
    (∀ i, a.xc_idx_ i = i) ∧
    Function.Bijective a.xc_idx_ ∧
    (∀ x : Vec K n, a.coupled_point x = some x) ∧
    (∀ x : Vec K n, (fun i => x (a.xc_idx_ i)) = x) ∧
    (∀ x x0 : Vec K n, a.step_size_inf sqrt x x0 = twonorm sqrt (axpy x (-1) x0)) ∧
    (∃ a0, hiopAlgPrimalDecomposition.create decl S my_rank comm_size raja parse_double
      parse_int [] fresh = some a0) := by
  have hx := create_xc_idx decl a S my_rank comm_size raja parse_double parse_int file fresh h
  have hf : a.xc_idx_ = id := funext hx
  refine ⟨fun m i0 di i => rfl, fun m i => (linspace_values m i).1, ?_, hx, ?_, ?_, ?_, ?_, ?_⟩
  · intro i
    rw [hx, (linspace_values n i).2]
  · rw [hf]
    exact Function.bijective_id
  · intro x
    unfold hiopAlgPrimalDecomposition.coupled_point
    simp
  · intro x
    rw [hf]
    rfl
  · intro x x0
    unfold hiopAlgPrimalDecomposition.step_size_inf
    rw [hf]
    rfl
  · obtain ⟨a0, h0, _⟩ := create_default decl S my_rank comm_size raja parse_double parse_int
      fresh
    exact ⟨a0, h0⟩

/-- Instance of `default_coupling_set`: two master variables, four recourse
terms, one rank, no options file.  The constructor returns an object with the
default options and the coupled indices `0, 1`; the coupled point of
`x = (5, 7)` is `(5, 7)`. -/
theorem default_coupling_set_witness :
    ∃ a, hiopAlgPrimalDecomposition.create ex_alg_decl 4 0 1 false ex_parse_double ex_parse_int
        [] (fun _ => 0) = some a ∧
      a.max_iter_ = 30000 ∧ a.tol_ = 1 / 10 ^ 5 ∧ a.local_accum_ = false ∧
      a.xc_idx_ 0 = 0 ∧ a.xc_idx_ 1 = 1 ∧
      a.coupled_point (fun i => if i = 0 then 5 else 7) =
        some (fun i => if i = 0 then 5 else 7) := by
  obtain ⟨a, h, _, _, _, h4, _, _, h7, _, _, h10, _⟩ :=
    create_default ex_alg_decl 4 0 1 false ex_parse_double ex_parse_int (fun _ => 0)
  obtain ⟨_, _, _, c4, _, c6, _⟩ :=
    default_coupling_set ex_sqrt ex_alg_decl a 4 0 1 false ex_parse_double ex_parse_int []
      (fun _ => 0) h
  exact ⟨a, h, h7, h4, h10, c4 0, c4 1, c6 _⟩

end ctor_claims

section claims_rho

variable {K : Type} [LinearOrderedField K] {nc : Nat}

/-- C36. Predicted decrease is independent of `alpha`: in the model update of
an outer iteration `it ≥ 1` the driver calls `update_hess_coeff`, sets
`base_val = compute_base(obj)` with `obj = get_objective()`, and calls
`update_ratio(base_val, base_valm1)` on the same state `h` (`compute_base`
assigns no member, so `alpha_` is the same in both calls).  The divisor of
`rho_k` is then `f_prev + base_valm1 - obj`, the dividend is the divisor plus
`rk - f_cur`, and, the divisor being non-zero,
`rho_k = 1 + (rk - f_cur) / (f_prev + base_valm1 - obj)`; the divisor is the
same for every other `alpha_`, `skm1` and `fkm1_lin`.  Here `f_prev = fkm1` is
the value of the iteration before, `f_cur = fk` the aggregate `rval`, and
`rk` the predicted value. -/
theorem predicted_decrease_alpha_free (sqrt : K → K) (it : Nat) (h0 : HessianApprox K nc)
    (v : DriverVars K nc) (inp : IterInput K nc) (hit : it ≠ 0) :
    ∃ (h : HessianApprox K nc) (base_val : K),
      h = h0.update_hess_coeff inp.x0 inp.grad_r inp.rval ∧
      base_val = h.compute_base sqrt inp.objective ∧
      h.fkm1 = h0.fk ∧ h.fk = inp.rval ∧
      (model_pre sqrt it h0 v inp).2.base_val = base_val ∧
      (model_pre sqrt it h0 v inp).2.base_valm1 = v.base_val ∧
      (model_pre sqrt it h0 v inp).1 = h.update_ratio sqrt base_val v.base_val ∧
      h.update_ratio sqrt base_val v.base_val =
        { h with ratio_ := h.update_ratio_tr (h.rho_k sqrt base_val v.base_val) h.ratio_ } ∧
      h.update_ratio_rk sqrt = predicted_value sqrt h ∧
      h.rho_k_den sqrt base_val v.base_val = h.fkm1 + v.base_val - inp.objective ∧
      h.rho_k_num base_val v.base_val =
        h.rho_k_den sqrt base_val v.base_val + (h.update_ratio_rk sqrt - h.fk) ∧
      (h.fkm1 + v.base_val - inp.objective ≠ 0 →
        h.rho_k sqrt base_val v.base_val =
          1 + (h.update_ratio_rk sqrt - h.fk) / (h.fkm1 + v.base_val - inp.objective)) ∧
      (∀ (alpha lin : K) (s : Vec K nc),
        HessianApprox.rho_k_den sqrt { h with alpha_ := alpha, skm1 := s, fkm1_lin := lin }
          (HessianApprox.compute_base sqrt { h with alpha_ := alpha, skm1 := s, fkm1_lin := lin }
            inp.objective) v.base_val =
        h.rho_k_den sqrt base_val v.base_val) := by
  have hden : ∀ (g : HessianApprox K nc) (obj b : K),
      g.rho_k_den sqrt (g.compute_base sqrt obj) b = g.fkm1 + b - obj := by
    intro g obj b
    rw [compute_base_rk]
    unfold HessianApprox.rho_k_den
    ring
  refine ⟨h0.update_hess_coeff inp.x0 inp.grad_r inp.rval, _, rfl, rfl, rfl, rfl, ?_, ?_, ?_,
    rfl, ?_, hden _ _ _, ?_, ?_, ?_⟩
  · unfold model_pre
    rw [if_neg hit]
  · unfold model_pre
    rw [if_neg hit]
  · unfold model_pre
    rw [if_neg hit]
  · unfold HessianApprox.update_ratio_rk predicted_value
    ring
  · rw [hden]
    rw [compute_base_rk]
    unfold HessianApprox.rho_k_num
    ring
  · intro hne
    unfold HessianApprox.rho_k
    rw [hden, compute_base_rk]
    unfold HessianApprox.rho_k_num
    field_simp
    ring
  · intro alpha lin s
    rw [hden, hden]

/-- Instance of `predicted_decrease_alpha_free` in the scenario `S = 4`,
`f_i(x) = (x - i)^2`, outer iteration 1 from `x0 = 0` to `x0 = 3`, with
`base_valm1 = 1` and `get_objective() = 1`: `f_prev = f_cur = 7/2`,
`rk = 2/7`, the divisor is `7/2` and `rho_k = 4/49`. -/
theorem predicted_decrease_alpha_free_witness :
    (1 : Nat) ≠ 0 ∧
    ex_hess.rho_k_den ex_sqrt2 (ex_hess.compute_base ex_sqrt2 1) 1 = 7 / 2 ∧
    ex_hess.rho_k_num (ex_hess.compute_base ex_sqrt2 1) 1 =
      7 / 2 + (ex_hess.update_ratio_rk ex_sqrt2 - 7 / 2) ∧
    ex_hess.update_ratio_rk ex_sqrt2 = 2 / 7 ∧
    ex_hess.rho_k ex_sqrt2 (ex_hess.compute_base ex_sqrt2 1) 1 = 4 / 49 := by
  obtain ⟨h, b, e1, e2, e3, e4, _, _, _, _, e9, e10, e11, e12, _⟩ :=
    predicted_decrease_alpha_free ex_sqrt2 1
      ((ex_decl.initialise (7 / 2) (fun _ => 0) (fun _ => -3)).get_alpha_f ex_sqrt2
        (fun _ => -3)).2
      { base_val := 1, base_valm1 := 1, convg := 10 ^ 20, convg_g := 10 ^ 20,
        convg_f := 10 ^ 20, hess_appx := fun _ => 1 }
      { rval := 7 / 2, x0 := fun _ => 3, grad_r := fun _ => 3, objective := 1 } (by decide)
  have hh : h = ex_hess := e1
  subst e2
  subst hh
  have hf : ex_hess.fkm1 = 7 / 2 ∧ ex_hess.fk = 7 / 2 := by
    norm_num [ex_hess, ex_decl, HessianApprox.update_hess_coeff, HessianApprox.get_alpha_f,
      HessianApprox.initialise]
  have hrk : ex_hess.update_ratio_rk ex_sqrt2 = 2 / 7 := by
    rw [e9]
    norm_num [predicted_value, ex_hess, ex_decl, ex_sqrt2, twonorm, dotProductWith,
      HessianApprox.update_hess_coeff, HessianApprox.get_alpha_f, HessianApprox.initialise,
      axpy, std_max, std_min]
  simp only [hf.1, hf.2] at e10 e11 e12
  refine ⟨by decide, ?_, ?_, hrk, ?_⟩
  · rw [e10]; norm_num
  · rw [e11, e10]; norm_num
  · rw [e12 (by norm_num), hrk]; norm_num

end claims_rho

section claims_first

variable {K : Type} [LinearOrderedField K] {σ : Type} {n nc : Nat}

/-- C37. No stop at iteration 0.  On the rank that solves the master problem,
whichever of `run()`, `run_local()`, `run_single()` it came through, with
`tolerance ≤ 0.1`, `acceptable_tolerance ≤ 0.1` and
`acceptable_iterations ≥ 1`: the call of `stopping_criteria` in iteration 0 is
made on the metric `1e20`, the value `convg` has on entry to the loop, and on
the count `0`; it returns `true` if and only if `max_iter_ = 1`; with
`max_iter_ ≥ 1` there is an iteration 0, and with `max_iter_ ≥ 2` at least two
outer iterations are made.  Such runs exist: `run_single()` returns whenever
`nc_ ≤ n_`. -/
theorem no_stop_at_iteration_zero (sqrt : K → K) (a : hiopAlgPrimalDecomposition K n nc)
    (p : hiopInterfacePriDecProblem K σ n nc) (decl : HessianApprox K nc) (u : Uninit K nc)
    (s0 : σ) (sched : Schedule K nc) (bc : List (Vec K n × Int)) (st : hiopSolveStatus)
    (d : Driver K σ n nc)
    (h : run sqrt a p decl u s0 sched bc = .solver (.ok (st, d)) ∨
         run_local sqrt a p decl u s0 sched bc = .solver (.ok (st, d)) ∨
         run_single sqrt a p decl u s0 = .ok (st, d))
    (htol : a.tol_ ≤ 1 / 10) (hacc : a.accp_tol_ ≤ 1 / 10) (hcnt : 1 ≤ a.accp_count_) :
    (run_single_init a decl u s0).vars.convg = 10 ^ 20 ∧
    (run_master_init a decl u s0).vars.convg = 10 ^ 20 ∧
    (∀ r, d.trace[0]? = some r →
      r.it = 0 ∧ r.sc_it = 0 ∧ r.sc_convg = 10 ^ 20 ∧ r.sc_accp_count = 0 ∧
      r.stop = (a.stopping_criteria 0 (10 ^ 20) 0).1 ∧
      (r.stop = true ↔ a.max_iter_ = 1)) ∧
    ((a.stopping_criteria 0 (10 ^ 20) 0).1 = true ↔ a.max_iter_ = 1) ∧
    (1 ≤ a.max_iter_ → ∃ r, d.trace[0]? = some r) ∧
    (2 ≤ a.max_iter_ → 2 ≤ d.trace.length) ∧
    (nc ≤ n → ∃ d1, run_single sqrt a p decl u s0 = .ok (Solve_Success, d1)) := by
  have h1 : (1 : K) / 10 < 10 ^ 20 := by norm_num
  have htol1 : a.tol_ ≤ 10 ^ 20 := le_trans htol (le_of_lt h1)
  have hacc1 : a.accp_tol_ < 10 ^ 20 := lt_of_le_of_lt hacc h1
  have hcnt1 : a.accp_count_ ≠ 0 := by omega
  have hsc := stopping_criteria_first a htol1 hcnt1
  refine ⟨rfl, rfl, ?_, hsc, ?_, ?_, fun hn => run_single_returns sqrt a p decl u s0 hn⟩
  · intro r hr
    obtain ⟨e1, e2, e3, e4, e5⟩ :=
      solver_first_record sqrt a p decl u s0 sched bc st d h hacc1 r hr
    exact ⟨e1, e2, e3, e4, e5, by rw [e5]; exact hsc⟩
  · intro hM
    obtain ⟨_, hend⟩ := solver_trace sqrt a p decl u s0 sched bc st d h
    rcases hend with ⟨h1, _⟩ | ⟨j, _, _, h4, _, _⟩
    · omega
    · exact ⟨d.trace[0], List.getElem?_eq_getElem (by omega)⟩
  · intro hM
    exact first_iteration_goes_on sqrt a p decl u s0 sched bc st d h hM htol1 hacc1 hcnt1

/-- Instance of `no_stop_at_iteration_zero`: `run_single()` in the scenario
`S = 4`, `f_i(x) = (x - i)^2` with `tolerance = 1e-8`,
`acceptable_tolerance = 1e-6`, `acceptable_iterations = 10`, `max_iter = 200`
returns; its iteration 0 does not stop, and at least two iterations are
made. -/
theorem no_stop_at_iteration_zero_witness :
    ex_alg.tol_ ≤ 1 / 10 ∧ ex_alg.accp_tol_ ≤ 1 / 10 ∧ 1 ≤ ex_alg.accp_count_ ∧
    ∃ d, run_single ex_sqrt2 ex_alg ex_master_prob ex_decl ex_uninit 0 = .ok (Solve_Success, d) ∧
      (∃ r, d.trace[0]? = some r ∧ r.sc_convg = 10 ^ 20 ∧ r.sc_accp_count = 0 ∧
        r.stop = false) ∧
      2 ≤ d.trace.length := by
  have c1 : ex_alg.tol_ ≤ 1 / 10 := by norm_num [ex_alg]
  have c2 : ex_alg.accp_tol_ ≤ 1 / 10 := by norm_num [ex_alg]
  have c3 : 1 ≤ ex_alg.accp_count_ := by norm_num [ex_alg]
  obtain ⟨d, hd⟩ := run_single_returns ex_sqrt2 ex_alg ex_master_prob ex_decl ex_uninit 0
    (le_refl 1)
  obtain ⟨_, _, g3, _, g5, g6, _⟩ := no_stop_at_iteration_zero ex_sqrt2 ex_alg ex_master_prob
    ex_decl ex_uninit 0 ex_sched [] _ d (Or.inr (Or.inr hd)) c1 c2 c3
  refine ⟨c1, c2, c3, d, hd, ?_, g6 (by norm_num [ex_alg])⟩
  obtain ⟨r, hr⟩ := g5 (by norm_num [ex_alg])
  obtain ⟨_, _, e3, e4, _, e6⟩ := g3 r hr
  refine ⟨r, hr, e3, e4, ?_⟩
  cases hs : r.stop with
  | false => rfl
  | true =>
    have := e6.mp hs
    norm_num [ex_alg] at this

end claims_first

section claims_status

variable {K : Type} [LinearOrderedField K] {σ : Type} {n nc : Nat}

/-- C38, the claim as stated fails: `run()` on a single rank, which is rank 0,
in the scenario `S = 4`, `f_i(x) = (x - i)^2` with a master problem whose
solves of the full problem return the status `1`.  The call returns
`Solve_Success`, while the status of its last call of `solve_master`, held by
`solver_status_`, is `1`. -/
theorem single_rank_status_dropped :
    ex_alg_single.my_rank_ = 0 ∧
    ∃ d, run ex_sqrt2 ex_alg_single ex_master_prob ex_decl ex_uninit 0 ex_sched [] =
        .solver (.ok (Solve_Success, d)) ∧
      LastSolve ex_master_prob d ∧ d.solver_status_ = 1 ∧ Solve_Success ≠ d.solver_status_ := by
  refine ⟨rfl, ?_⟩
  obtain ⟨d, hd⟩ := run_single_returns ex_sqrt2 ex_alg_single ex_master_prob ex_decl ex_uninit 0
    (le_refl 1)
  have hlast := run_single_last ex_sqrt2 ex_alg_single ex_master_prob ex_decl ex_uninit 0 _ d hd
    (by norm_num [ex_alg_single, ex_alg])
  have hst : d.solver_status_ = 1 := by
    obtain ⟨s, x, e1, _⟩ := hlast
    rw [e1]
    rfl
  refine ⟨d, ?_, hlast, hst, ?_⟩
  · rw [(run_cases ex_sqrt2 ex_alg_single ex_master_prob ex_decl ex_uninit 0 ex_sched []).2.1
      rfl rfl, hd]
  · rw [hst]
    decide

/-- C38. Return status.  `run_single()` returns `Solve_Success` whenever it
returns, whatever `solve_master` returned and whichever criterion ended the
loop, and it does return whenever `nc_ ≤ n_`.  On more than one rank, rank 0
of `run()` and `run_local()` returns `solver_status_`, which after at least
one outer iteration (`max_iter_ ≥ 1`) is the status of its last call of
`solve_master`, and without any iteration the value the member had on entry;
every other rank that returns, returns `Solve_Success`.  On a single rank
`run()` and `run_local()` are `run_single()` and return `Solve_Success`. -/
theorem return_status (sqrt : K → K) (a : hiopAlgPrimalDecomposition K n nc)
    (p : hiopInterfacePriDecProblem K σ n nc) (decl : HessianApprox K nc) (u : Uninit K nc)
    (s0 : σ) (sched : Schedule K nc) (bc : List (Vec K n × Int)) :
    (∀ st d, run_single sqrt a p decl u s0 = .ok (st, d) → st = Solve_Success) ∧
    (nc ≤ n → ∃ d, run_single sqrt a p decl u s0 = .ok (Solve_Success, d)) ∧
    (a.comm_size_ ≠ 1 → ∀ st d,
      (run sqrt a p decl u s0 sched bc = .solver (.ok (st, d)) ∨
       run_local sqrt a p decl u s0 sched bc = .solver (.ok (st, d))) →
      a.my_rank_ = 0 ∧ st = d.solver_status_ ∧ (1 ≤ a.max_iter_ → LastSolve p d) ∧
      (a.max_iter_ ≤ 0 → st = a.solver_status_ ∧ d.calls = [])) ∧
    (a.comm_size_ ≠ 1 → ∀ st w un,
      (run sqrt a p decl u s0 sched bc = .evaluator (.returned st w un) ∨
       run_local sqrt a p decl u s0 sched bc = .evaluator (.returned st w un)) →
      a.my_rank_ ≠ 0 ∧ st = Solve_Success) ∧
    (a.comm_size_ = 1 →
      run sqrt a p decl u s0 sched bc = .solver (run_single sqrt a p decl u s0) ∧
      run_local sqrt a p decl u s0 sched bc = .solver (run_single sqrt a p decl u s0) ∧
      ∀ st d, (run sqrt a p decl u s0 sched bc = .solver (.ok (st, d)) ∨
        run_local sqrt a p decl u s0 sched bc = .solver (.ok (st, d))) → st = Solve_Success) ∧
    (nc ≤ n → 2 ≤ a.comm_size_ → a.comm_size_ ≤ a.S_ + 1 → (∀ it, Fair a (sched.ready it)) →
      ∃ (fuel : Nat → Nat) (d1 : Driver K σ n nc),
        run_master sqrt a p decl u s0 { sched with fuel := fuel } =
          .ok (d1.solver_status_, d1)) := by
  obtain ⟨l1, l2, l3⟩ := run_local_cases sqrt a p decl u s0 sched bc
  obtain ⟨r0, r1, r2, r3⟩ := run_cases sqrt a p decl u s0 sched bc
  have hsingle : ∀ st d, run_single sqrt a p decl u s0 = .ok (st, d) → st = Solve_Success :=
    fun st d h => (run_single_trace sqrt a p decl u s0 st d h).1
  have hrun1 : a.comm_size_ = 1 →
      run sqrt a p decl u s0 sched bc = .solver (run_single sqrt a p decl u s0) := by
    intro c1
    cases c0 : a.local_accum_ with
    | true => rw [r0 c0, l1 c1]
    | false => exact r1 c0 c1
  have hmaster : ∀ (a1 : hiopAlgPrimalDecomposition K n nc) st d,
      a1.max_iter_ = a.max_iter_ → a1.solver_status_ = a.solver_status_ →
      run_master sqrt a1 p decl u s0 sched = .ok (st, d) →
      st = d.solver_status_ ∧ (1 ≤ a.max_iter_ → LastSolve p d) ∧
      (a.max_iter_ ≤ 0 → st = a.solver_status_ ∧ d.calls = []) := by
    intro a1 st d e1 e2 h
    obtain ⟨g1, g2, g3⟩ := run_master_last sqrt a1 p decl u s0 sched st d h
    rw [e1, e2] at g3
    rw [e1] at g2
    exact ⟨g1, g2, g3⟩
  have hlocal_solver : a.comm_size_ ≠ 1 → ∀ st d,
      run_local sqrt a p decl u s0 sched bc = .solver (.ok (st, d)) →
      a.my_rank_ = 0 ∧ st = d.solver_status_ ∧ (1 ≤ a.max_iter_ → LastSolve p d) ∧
      (a.max_iter_ ≤ 0 → st = a.solver_status_ ∧ d.calls = []) := by
    intro c1 st d h
    by_cases c2 : a.my_rank_ = 0
    · rw [l2 c1 c2] at h
      injection h with h
      exact ⟨c2, hmaster { a with local_accum_ := true } st d rfl rfl h⟩
    · rw [l3 c1 c2] at h
      cases h
  have hlocal_eval : a.comm_size_ ≠ 1 → ∀ st w un,
      run_local sqrt a p decl u s0 sched bc = .evaluator (.returned st w un) →
      a.my_rank_ ≠ 0 ∧ st = Solve_Success := by
    intro c1 st w un h
    by_cases c2 : a.my_rank_ = 0
    · rw [l2 c1 c2] at h
      cases h
    · rw [l3 c1 c2] at h
      injection h with h
      exact ⟨c2, evaluator_loop_status a _ _ _ _ _ _ _ h⟩
  refine ⟨hsingle, fun hn => run_single_returns sqrt a p decl u s0 hn, ?_, ?_, ?_,
    fun hn hP hS hfair => run_master_returns sqrt a p decl u s0 sched hn hP hS hfair⟩
  · intro c1 st d h
    rcases h with h | h
    · cases c0 : a.local_accum_ with
      | true =>
        rw [r0 c0] at h
        exact hlocal_solver c1 st d h
      | false =>
        by_cases c2 : a.my_rank_ = 0
        · rw [r2 c0 c1 c2] at h
          injection h with h
          exact ⟨c2, hmaster a st d rfl rfl h⟩
        · rw [r3 c0 c1 c2] at h
          cases h
    · exact hlocal_solver c1 st d h
  · intro c1 st w un h
    rcases h with h | h
    · cases c0 : a.local_accum_ with
      | true =>
        rw [r0 c0] at h
        exact hlocal_eval c1 st w un h
      | false =>
        by_cases c2 : a.my_rank_ = 0
        · rw [r2 c0 c1 c2] at h
          cases h
        · rw [r3 c0 c1 c2] at h
          injection h with h
          exact ⟨c2, evaluator_loop_status a _ _ _ _ _ _ _ h⟩
    · exact hlocal_eval c1 st w un h
  · intro c1
    refine ⟨hrun1 c1, l1 c1, ?_⟩
    intro st d h
    rcases h with h | h
    · rw [hrun1 c1] at h
      injection h with h
      exact hsingle st d h
    · rw [l1 c1] at h
      injection h with h
      exact hsingle st d h

/-- Instance of `return_status`: `run()` on four ranks in the scenario
`S = 4`, `f_i(x) = (x - i)^2`, with a master problem whose solves of the full
problem return the status `1`, under the fair schedule of the examples.
Rank 0 returns the status `1` of its last call of `solve_master`; rank 2
returns `Solve_Success`. -/
theorem return_status_witness :
    ex_alg.comm_size_ ≠ 1 ∧
    ∃ (fuel : Nat → Nat) (d : Driver ℚ ℚ 1 1),
      run ex_sqrt2 ex_alg ex_master_prob ex_decl ex_uninit 0 { ex_sched with fuel := fuel } [] =
        .solver (.ok (1, d)) ∧
      LastSolve ex_master_prob d ∧
      ∃ w, run ex_sqrt2 ({ ex_alg with my_rank_ := 2 } : hiopAlgPrimalDecomposition ℚ 1 1)
        ex_master_prob ex_decl ex_uninit 0 ex_sched d.bcasts =
          .evaluator (.returned Solve_Success w []) := by
  have hc : ex_alg.comm_size_ ≠ 1 := by decide
  obtain ⟨fuel, d, hd⟩ := run_master_returns ex_sqrt2 ex_alg ex_master_prob ex_decl ex_uninit 0
    ex_sched (le_refl 1) (by decide) (by decide) (fun _ => ex_ready_fair)
  have hrun : run ex_sqrt2 ex_alg ex_master_prob ex_decl ex_uninit 0
      { ex_sched with fuel := fuel } [] = .solver (.ok (d.solver_status_, d)) := by
    rw [(run_cases ex_sqrt2 ex_alg ex_master_prob ex_decl ex_uninit 0
      { ex_sched with fuel := fuel } []).2.2.1 rfl hc rfl, hd]
  obtain ⟨_, _, g3, _⟩ := (return_status ex_sqrt2 ex_alg ex_master_prob ex_decl ex_uninit 0
    { ex_sched with fuel := fuel } []).2.2.1 hc _ d (Or.inl hrun)
  have hlast := g3 (by norm_num [ex_alg])
  have hst : d.solver_status_ = 1 := by
    obtain ⟨s, x, e1, _⟩ := hlast
    rw [e1]
    rfl
  rw [hst] at hrun
  refine ⟨hc, fuel, d, hrun, hlast, ?_⟩
  obtain ⟨w, hw, _⟩ := evaluator_follows_master ex_sqrt2 ex_alg
    ({ ex_alg with my_rank_ := 2 } : hiopAlgPrimalDecomposition ℚ 1 1) ex_master_prob ex_decl
    ex_uninit 0 { ex_sched with fuel := fuel } _ d rfl hd
  refine ⟨w, ?_⟩
  rw [(run_cases ex_sqrt2 ({ ex_alg with my_rank_ := 2 } : hiopAlgPrimalDecomposition ℚ 1 1)
    ex_master_prob ex_decl ex_uninit 0 ex_sched d.bcasts).2.2.2 rfl (by decide) (by decide), hw]

end claims_status

/-! ## Compressed-row storage: loops over positions and writes to arrays -/

section csr_basic

theorem for_range_nil (a b : Nat) (h : b ≤ a) : for_range a b = [] := by
  unfold for_range
  rw [Nat.sub_eq_zero_of_le h]
  rfl

theorem for_range_cons (a b : Nat) (h : a < b) : for_range a b = a :: for_range (a + 1) b := by
  unfold for_range
  rw [show b - a = (b - (a + 1)) + 1 by omega, List.range'_succ]

theorem for_range_concat (a b : Nat) (h : a ≤ b) : for_range a (b + 1) = for_range a b ++ [b] := by
  unfold for_range
  rw [show b + 1 - a = (b - a) + 1 by omega, List.range'_1_concat, show a + (b - a) = b by omega]

theorem mem_for_range (a b p : Nat) : p ∈ for_range a b ↔ a ≤ p ∧ p < b := by
  unfold for_range
  rw [List.mem_range'_1]
  omega

theorem length_for_range (a b : Nat) : (for_range a b).length = b - a := by
  unfold for_range
  exact List.length_range' _ _ _

theorem nodup_for_range (a b : Nat) : (for_range a b).Nodup := by
  unfold for_range
  exact List.nodup_range' _ _

theorem getElem?_for_range (a b t : Nat) (h : t < b - a) : (for_range a b)[t]? = some (a + t) := by
  unfold for_range
  rw [List.getElem?_range' _ _ h]
  simp

/-- Cells outside the written stretch keep their content. -/
theorem writeList_outside {α : Type} (l : List α) :
    ∀ (f : Nat → α) (it p : Nat), p < it ∨ it + l.length ≤ p → writeList f it l p = f p := by
  induction l with
  | nil => intro f it p _; rfl
  | cons a l ih =>
    intro f it p h
    simp only [List.length_cons] at h
    simp only [writeList]
    rw [ih _ _ _ (by omega), Function.update_noteq (by omega)]

/-- The cell `it + t` holds the `t`-th element written. -/
theorem writeList_getElem {α : Type} (l : List α) :
    ∀ (f : Nat → α) (it t : Nat) (a : α), l[t]? = some a → writeList f it l (it + t) = a := by
  induction l with
  | nil => intro f it t a h; cases h
  | cons a0 l ih =>
    intro f it t a h
    simp only [writeList]
    cases t with
    | zero =>
      simp only [List.getElem?_cons_zero, Option.some.injEq] at h
      show writeList (Function.update f it a0) (it + 1) l it = a
      rw [writeList_outside l _ _ _ (Or.inl (by omega)), Function.update_same]
      exact h
    | succ t =>
      simp only [List.getElem?_cons_succ] at h
      rw [show it + (t + 1) = it + 1 + t by omega]
      exact ih _ _ _ _ h

theorem writeList_append {α : Type} (l1 l2 : List α) :
    ∀ (f : Nat → α) (it : Nat),
      writeList f it (l1 ++ l2) = writeList (writeList f it l1) (it + l1.length) l2 := by
  induction l1 with
  | nil => intro f it; rfl
  | cons a l1 ih =>
    intro f it
    show writeList (Function.update f it a) (it + 1) (l1 ++ l2) =
      writeList (writeList (Function.update f it a) (it + 1) l1) (it + (l1.length + 1)) l2
    rw [ih, show it + 1 + l1.length = it + (l1.length + 1) by omega]

/-- Cells outside the stretch added to keep their content. -/
theorem addList_outside {α : Type} [Add α] (l : List α) :
    ∀ (f : Nat → α) (it p : Nat), p < it ∨ it + l.length ≤ p → addList f it l p = f p := by
  induction l with
  | nil => intro f it p _; rfl
  | cons a l ih =>
    intro f it p h
    simp only [List.length_cons] at h
    simp only [addList]
    rw [ih _ _ _ (by omega), Function.update_noteq (by omega)]

/-- The cell `it + t` has grown by the `t`-th element of the list. -/
theorem addList_getElem {α : Type} [Add α] (l : List α) :
    ∀ (f : Nat → α) (it t : Nat) (a : α), l[t]? = some a →
      addList f it l (it + t) = f (it + t) + a := by
  induction l with
  | nil => intro f it t a h; cases h
  | cons a0 l ih =>
    intro f it t a h
    simp only [addList]
    cases t with
    | zero =>
      simp only [List.getElem?_cons_zero, Option.some.injEq] at h
      show addList (Function.update f it (f it + a0)) (it + 1) l it = f it + a
      rw [addList_outside l _ _ _ (Or.inl (by omega)), Function.update_same, h]
    | succ t =>
      simp only [List.getElem?_cons_succ] at h
      rw [show it + (t + 1) = it + 1 + t by omega, ih _ _ _ _ h,
        Function.update_noteq (by omega)]

theorem addList_append {α : Type} [Add α] (l1 l2 : List α) :
    ∀ (f : Nat → α) (it : Nat),
      addList f it (l1 ++ l2) = addList (addList f it l1) (it + l1.length) l2 := by
  induction l1 with
  | nil => intro f it; rfl
  | cons a l1 ih =>
    intro f it
    show addList (Function.update f it (f it + a)) (it + 1) (l1 ++ l2) =
      addList (addList (Function.update f it (f it + a)) (it + 1) l1) (it + (l1.length + 1)) l2
    rw [ih, show it + 1 + l1.length = it + (l1.length + 1) by omega]

theorem concat_rows_succ {α : Type} (row : Nat → List α) (n : Nat) :
    concat_rows row (n + 1) = concat_rows row n ++ row n := rfl

theorem length_concat_rows_succ {α : Type} (row : Nat → List α) (n : Nat) :
    (concat_rows row (n + 1)).length = (concat_rows row n).length + (row n).length := by
  rw [concat_rows_succ, List.length_append]

theorem length_concat_rows_mono {α : Type} (row : Nat → List α) :
    ∀ (j i : Nat), i ≤ j → (concat_rows row i).length ≤ (concat_rows row j).length := by
  intro j
  induction j with
  | zero =>
    intro i hi
    rw [Nat.le_zero.mp hi]
  | succ j ih =>
    intro i hi
    rcases Nat.eq_or_lt_of_le hi with e | e
    · rw [e]
    · exact le_trans (ih i (by omega)) (by rw [length_concat_rows_succ]; omega)

theorem concat_rows_map {α β : Type} (f : α → β) (row : Nat → List α) :
    ∀ n, concat_rows (fun i => (row i).map f) n = (concat_rows row n).map f := by
  intro n
  induction n with
  | zero => rfl
  | succ n ih => rw [concat_rows_succ, concat_rows_succ, List.map_append, ih]

/-- The stretch of row `r` in the rows put one after the other. -/
theorem getElem?_concat_rows {α : Type} (row : Nat → List α) :
    ∀ (n r t : Nat), r < n → t < (row r).length →
      (concat_rows row n)[(concat_rows row r).length + t]? = (row r)[t]? := by
  intro n
  induction n with
  | zero => intro r t hr _; omega
  | succ n ih =>
    intro r t hr ht
    rw [concat_rows_succ]
    rcases Nat.eq_or_lt_of_le (Nat.le_of_lt_succ hr) with e | e
    · subst e
      rw [List.getElem?_append_right (by omega)]
      congr 1
      omega
    · have h1 := length_concat_rows_mono row n (r + 1) (by omega)
      rw [length_concat_rows_succ] at h1
      rw [List.getElem?_append_left (by omega)]
      exact ih r t e ht

end csr_basic

/-! ## Compressed-row storage: the sorted merge of two rows -/

section csr_merge

/-- Column indices that increase strictly along the positions `a .. b - 1`
are pairwise increasing in storage order, and conversely. -/
theorem pairwise_map_for_range (j : Nat → Nat) (a b : Nat) :
    ((for_range a b).map j).Pairwise (fun x y => x < y) ↔
      ∀ p q, a ≤ p → p < q → q < b → j p < j q := by
  rw [List.pairwise_map]
  constructor
  · intro h p q hp hpq hq
    rw [List.pairwise_iff_getElem] at h
    have h1 := h (p - a) (q - a) (by rw [length_for_range]; omega)
      (by rw [length_for_range]; omega) (by omega)
    have e1 : (for_range a b)[p - a]? = some p := by
      rw [getElem?_for_range a b (p - a) (by omega)]
      congr 1
      omega
    have e2 : (for_range a b)[q - a]? = some q := by
      rw [getElem?_for_range a b (q - a) (by omega)]
      congr 1
      omega
    rw [List.getElem?_eq_getElem (by rw [length_for_range]; omega)] at e1 e2
    rw [Option.some.inj e1, Option.some.inj e2] at h1
    exact h1
  · intro h
    have hl : (for_range a b).Pairwise (fun x y => x < y) := by
      unfold for_range
      exact List.pairwise_lt_range' _ _
    refine hl.imp_of_mem ?_
    intro p q hp hq hpq
    rw [mem_for_range] at hp hq
    exact h p q hp.1 hpq hq.2

theorem merge_rest_fst (eX eY ptX ptY : Nat) :
    (merge_rest eX eY ptX ptY).filterMap Prod.fst = for_range ptX eX := by
  unfold merge_rest
  rw [List.filterMap_append, List.filterMap_map, List.filterMap_map]
  have h1 : (for_range ptX eX).filterMap (Prod.fst ∘ fun p => ((some p, none) : MergeStep)) =
      for_range ptX eX := by
    have : (Prod.fst ∘ fun p => ((some p, none) : MergeStep)) = some := rfl
    rw [this, List.filterMap_some]
  have h2 : (for_range ptY eY).filterMap (Prod.fst ∘ fun p => ((none, some p) : MergeStep)) =
      [] := by
    rw [List.filterMap_eq_nil_iff]
    intro a _
    rfl
  rw [h1, h2, List.append_nil]

theorem merge_rest_snd (eX eY ptX ptY : Nat) :
    (merge_rest eX eY ptX ptY).filterMap Prod.snd = for_range ptY eY := by
  unfold merge_rest
  rw [List.filterMap_append, List.filterMap_map, List.filterMap_map]
  have h1 : (for_range ptX eX).filterMap (Prod.snd ∘ fun p => ((some p, none) : MergeStep)) =
      [] := by
    rw [List.filterMap_eq_nil_iff]
    intro a _
    rfl
  have h2 : (for_range ptY eY).filterMap (Prod.snd ∘ fun p => ((none, some p) : MergeStep)) =
      for_range ptY eY := by
    have : (Prod.snd ∘ fun p => ((none, some p) : MergeStep)) = some := rfl
    rw [this, List.filterMap_some]
  rw [h1, h2, List.nil_append]

/-- The positions of the row of `X` are consumed one by one, in order. -/
theorem merge_path_fst (jX jY : Nat → Nat) (eX eY : Nat) :
    ∀ (k ptX ptY : Nat),
      (merge_path jX jY eX eY k ptX ptY).filterMap Prod.fst = for_range ptX eX := by
  intro k
  induction k with
  | zero => intro ptX ptY; exact merge_rest_fst eX eY ptX ptY
  | succ k ih =>
    intro ptX ptY
    unfold merge_path
    by_cases hc : ptX < eX ∧ ptY < eY
    · rw [if_pos hc]
      by_cases h1 : jX ptX < jY ptY
      · rw [if_pos h1, for_range_cons _ _ hc.1, ← ih (ptX + 1) ptY]
        rfl
      · rw [if_neg h1]
        by_cases h2 : jX ptX = jY ptY
        · rw [if_pos h2, for_range_cons _ _ hc.1, ← ih (ptX + 1) (ptY + 1)]
          rfl
        · rw [if_neg h2, ← ih ptX (ptY + 1)]
          rfl
    · rw [if_neg hc]
      exact merge_rest_fst eX eY ptX ptY

/-- The positions of the row of `Y` are consumed one by one, in order. -/
theorem merge_path_snd (jX jY : Nat → Nat) (eX eY : Nat) :
    ∀ (k ptX ptY : Nat),
      (merge_path jX jY eX eY k ptX ptY).filterMap Prod.snd = for_range ptY eY := by
  intro k
  induction k with
  | zero => intro ptX ptY; exact merge_rest_snd eX eY ptX ptY
  | succ k ih =>
    intro ptX ptY
    unfold merge_path
    by_cases hc : ptX < eX ∧ ptY < eY
    · rw [if_pos hc]
      by_cases h1 : jX ptX < jY ptY
      · rw [if_pos h1, ← ih (ptX + 1) ptY]
        rfl
      · rw [if_neg h1]
        by_cases h2 : jX ptX = jY ptY
        · rw [if_pos h2, for_range_cons _ _ hc.2, ← ih (ptX + 1) (ptY + 1)]
          rfl
        · rw [if_neg h2, for_range_cons _ _ hc.2, ← ih ptX (ptY + 1)]
          rfl
    · rw [if_neg hc]
      exact merge_rest_snd eX eY ptX ptY

/-- Every pass consumes a position, and a pass that consumes one in each row
found the same column index in both. -/
theorem merge_path_step (jX jY : Nat → Nat) (eX eY : Nat) :
    ∀ (k ptX ptY : Nat) (s : MergeStep), s ∈ merge_path jX jY eX eY k ptX ptY →
      s ≠ (none, none) ∧ ∀ pX pY, s = (some pX, some pY) → jX pX = jY pY := by
  have hrest : ∀ (ptX ptY : Nat) (s : MergeStep), s ∈ merge_rest eX eY ptX ptY →
      s ≠ (none, none) ∧ ∀ pX pY, s = (some pX, some pY) → jX pX = jY pY := by
    intro ptX ptY s hs
    unfold merge_rest at hs
    rw [List.mem_append, List.mem_map, List.mem_map] at hs
    rcases hs with ⟨p, _, rfl⟩ | ⟨p, _, rfl⟩
    · exact ⟨by simp, fun pX pY h => by cases h⟩
    · exact ⟨by simp, fun pX pY h => by cases h⟩
  intro k
  induction k with
  | zero => intro ptX ptY s hs; exact hrest ptX ptY s hs
  | succ k ih =>
    intro ptX ptY s hs
    unfold merge_path at hs
    by_cases hc : ptX < eX ∧ ptY < eY
    · rw [if_pos hc] at hs
      by_cases h1 : jX ptX < jY ptY
      · rw [if_pos h1, List.mem_cons] at hs
        rcases hs with rfl | hs
        · exact ⟨by simp, fun pX pY h => by cases h⟩
        · exact ih _ _ s hs
      · rw [if_neg h1] at hs
        by_cases h2 : jX ptX = jY ptY
        · rw [if_pos h2, List.mem_cons] at hs
          rcases hs with rfl | hs
          · refine ⟨by simp, fun pX pY h => ?_⟩
            cases h
            exact h2
          · exact ih _ _ s hs
        · rw [if_neg h2, List.mem_cons] at hs
          rcases hs with rfl | hs
          · exact ⟨by simp, fun pX pY h => by cases h⟩
          · exact ih _ _ s hs
    · rw [if_neg hc] at hs
      exact hrest ptX ptY s hs

/-- The column index of a pass is the column index at the position it
consumes in the row of `Y`. -/
theorem merge_path_col_snd (jX jY : Nat → Nat) (eX eY k ptX ptY : Nat) (s : MergeStep)
    (hs : s ∈ merge_path jX jY eX eY k ptX ptY) (pY : Nat) (h : s.2 = some pY) :
    s.col jX jY = jY pY := by
  obtain ⟨o1, o2⟩ := s
  simp only at h
  subst h
  cases o1 with
  | none => rfl
  | some pX => exact (merge_path_step jX jY eX eY k ptX ptY _ hs).2 pX pY rfl

/-- With strictly increasing column indices in both rows, the passes of the
sorted merge deal with strictly increasing column indices, each of which comes
from one of the rows. -/
theorem merge_path_sorted (jX jY : Nat → Nat) (eX eY : Nat) :
    ∀ (k ptX ptY : Nat), (eX - ptX) + (eY - ptY) ≤ k →
      (∀ p q, ptX ≤ p → p < q → q < eX → jX p < jX q) →
      (∀ p q, ptY ≤ p → p < q → q < eY → jY p < jY q) →
      ((merge_path jX jY eX eY k ptX ptY).map (MergeStep.col jX jY)).Pairwise
          (fun a b => a < b) ∧
      ∀ c ∈ (merge_path jX jY eX eY k ptX ptY).map (MergeStep.col jX jY),
        (∃ p, ptX ≤ p ∧ p < eX ∧ c = jX p) ∨ (∃ p, ptY ≤ p ∧ p < eY ∧ c = jY p) := by
  have hrest : ∀ (ptX ptY : Nat), (eX ≤ ptX ∨ eY ≤ ptY) →
      (∀ p q, ptX ≤ p → p < q → q < eX → jX p < jX q) →
      (∀ p q, ptY ≤ p → p < q → q < eY → jY p < jY q) →
      ((merge_rest eX eY ptX ptY).map (MergeStep.col jX jY)).Pairwise (fun a b => a < b) ∧
      ∀ c ∈ (merge_rest eX eY ptX ptY).map (MergeStep.col jX jY),
        (∃ p, ptX ≤ p ∧ p < eX ∧ c = jX p) ∨ (∃ p, ptY ≤ p ∧ p < eY ∧ c = jY p) := by
    intro ptX ptY hend hX hY
    have hmap : (merge_rest eX eY ptX ptY).map (MergeStep.col jX jY) =
        (for_range ptX eX).map jX ++ (for_range ptY eY).map jY := by
      unfold merge_rest
      rw [List.map_append, List.map_map, List.map_map]
      rfl
    rw [hmap]
    constructor
    · rcases hend with h | h
      · rw [for_range_nil _ _ h, List.map_nil, List.nil_append]
        exact (pairwise_map_for_range jY ptY eY).mpr hY
      · rw [for_range_nil _ _ h, List.map_nil, List.append_nil]
        exact (pairwise_map_for_range jX ptX eX).mpr hX
    · intro c hc
      rw [List.mem_append, List.mem_map, List.mem_map] at hc
      rcases hc with ⟨p, hp, rfl⟩ | ⟨p, hp, rfl⟩
      · rw [mem_for_range] at hp
        exact Or.inl ⟨p, hp.1, hp.2, rfl⟩
      · rw [mem_for_range] at hp
        exact Or.inr ⟨p, hp.1, hp.2, rfl⟩
  intro k
  induction k with
  | zero =>
    intro ptX ptY hk hX hY
    exact hrest ptX ptY (Or.inl (by omega)) hX hY
  | succ k ih =>
    intro ptX ptY hk hX hY
    unfold merge_path
    by_cases hc : ptX < eX ∧ ptY < eY
    · rw [if_pos hc]
      have hXle : ∀ p, ptX ≤ p → p < eX → jX ptX ≤ jX p := by
        intro p hp hpe
        rcases Nat.eq_or_lt_of_le hp with h | h
        · rw [h]
        · exact Nat.le_of_lt (hX ptX p (le_refl _) h hpe)
      have hYle : ∀ p, ptY ≤ p → p < eY → jY ptY ≤ jY p := by
        intro p hp hpe
        rcases Nat.eq_or_lt_of_le hp with h | h
        · rw [h]
        · exact Nat.le_of_lt (hY ptY p (le_refl _) h hpe)
      by_cases h1 : jX ptX < jY ptY
      · rw [if_pos h1]
        obtain ⟨i1, i2⟩ := ih (ptX + 1) ptY (by omega) (fun p q hp => hX p q (by omega)) hY
        rw [List.map_cons]
        refine ⟨List.pairwise_cons.mpr ⟨?_, i1⟩, ?_⟩
        · intro c hc1
          rcases i2 c hc1 with ⟨p, hp1, hp2, rfl⟩ | ⟨p, hp1, hp2, rfl⟩
          · exact hX ptX p (le_refl _) (by omega) hp2
          · exact lt_of_lt_of_le h1 (hYle p hp1 hp2)
        · intro c hc1
          rw [List.mem_cons] at hc1
          rcases hc1 with rfl | hc1
          · exact Or.inl ⟨ptX, le_refl _, hc.1, rfl⟩
          · rcases i2 c hc1 with ⟨p, hp1, hp2, e⟩ | ⟨p, hp1, hp2, e⟩
            · exact Or.inl ⟨p, by omega, hp2, e⟩
            · exact Or.inr ⟨p, hp1, hp2, e⟩
      · rw [if_neg h1]
        by_cases h2 : jX ptX = jY ptY
        · rw [if_pos h2]
          obtain ⟨i1, i2⟩ := ih (ptX + 1) (ptY + 1) (by omega)
            (fun p q hp => hX p q (by omega)) (fun p q hp => hY p q (by omega))
          rw [List.map_cons]
          refine ⟨List.pairwise_cons.mpr ⟨?_, i1⟩, ?_⟩
          · intro c hc1
            rcases i2 c hc1 with ⟨p, hp1, hp2, rfl⟩ | ⟨p, hp1, hp2, rfl⟩
            · exact hX ptX p (le_refl _) (by omega) hp2
            · show jX ptX < jY p
              rw [h2]
              exact hY ptY p (le_refl _) (by omega) hp2
          · intro c hc1
            rw [List.mem_cons] at hc1
            rcases hc1 with rfl | hc1
            · exact Or.inl ⟨ptX, le_refl _, hc.1, rfl⟩
            · rcases i2 c hc1 with ⟨p, hp1, hp2, e⟩ | ⟨p, hp1, hp2, e⟩
              · exact Or.inl ⟨p, by omega, hp2, e⟩
              · exact Or.inr ⟨p, by omega, hp2, e⟩
        · rw [if_neg h2]
          have h3 : jY ptY < jX ptX := by omega
          obtain ⟨i1, i2⟩ := ih ptX (ptY + 1) (by omega) hX (fun p q hp => hY p q (by omega))
          rw [List.map_cons]
          refine ⟨List.pairwise_cons.mpr ⟨?_, i1⟩, ?_⟩
          · intro c hc1
            rcases i2 c hc1 with ⟨p, hp1, hp2, rfl⟩ | ⟨p, hp1, hp2, rfl⟩
            · exact lt_of_lt_of_le h3 (hXle p hp1 hp2)
            · exact hY ptY p (le_refl _) (by omega) hp2
          · intro c hc1
            rw [List.mem_cons] at hc1
            rcases hc1 with rfl | hc1
            · exact Or.inr ⟨ptY, le_refl _, hc.2, rfl⟩
            · rcases i2 c hc1 with ⟨p, hp1, hp2, e⟩ | ⟨p, hp1, hp2, e⟩
              · exact Or.inl ⟨p, hp1, hp2, e⟩
              · exact Or.inr ⟨p, by omega, hp2, e⟩
    · rw [if_neg hc]
      exact hrest ptX ptY (by omega) hX hY

end csr_merge

/-! ## Compressed-row storage: `add_matrix_alloc` and `add_matrix_symbolic` row by row -/

section csr_add

variable {K : Type} [LinearOrderedField K]

namespace hiopMatrixSparseCSR

/-- Valid row pointers do not decrease over any stretch of rows. -/
theorem WellFormed.rowptr_le {X : hiopMatrixSparseCSR K} (h : X.WellFormed) :
    ∀ (j i : Nat), i ≤ j → j ≤ X.nrows_ → X.irowptr_ i ≤ X.irowptr_ j := by
  intro j
  induction j with
  | zero =>
    intro i hi _
    rw [Nat.le_zero.mp hi]
  | succ j ih =>
    intro i hi hj
    rcases Nat.eq_or_lt_of_le hi with e | e
    · rw [e]
    · exact le_trans (ih i (by omega) (by omega)) (h.mono j (by omega))

/-- In a matrix with valid row pointers the positions of row `i` are below
`nnz_` and hold column indices below `ncols_`. -/
theorem WellFormed.row {X : hiopMatrixSparseCSR K} (h : X.WellFormed) (i : Nat)
    (hi : i < X.nrows_) :
    X.irowptr_ i ≤ X.irowptr_ (i + 1) ∧ X.irowptr_ (i + 1) ≤ X.nnz_ ∧
    ∀ p, p < X.irowptr_ (i + 1) → X.jcolind_ p < X.ncols_ := by
  have h1 : X.irowptr_ (i + 1) ≤ X.nnz_ := by
    rw [← h.last]
    exact h.rowptr_le X.nrows_ (i + 1) (by omega) (le_refl _)
  exact ⟨h.mono i hi, h1, fun p hp => h.cols p (by omega)⟩

end hiopMatrixSparseCSR

theorem foldl_count {α : Type} (l : List α) :
    ∀ n : Nat, l.foldl (fun nnzM _ => nnzM + 1) n = n + l.length := by
  induction l with
  | nil => intro n; rfl
  | cons a l ih =>
    intro n
    rw [List.foldl_cons, ih, List.length_cons]
    omega

theorem length_merge_rest (eX eY ptX ptY : Nat) :
    (merge_rest eX eY ptX ptY).length = (for_range ptX eX).length + (for_range ptY eY).length := by
  unfold merge_rest
  rw [List.length_append, List.length_map, List.length_map]

open hiopMatrixSparseCSR

theorem add_matrix_alloc_rest_eq (X Y : hiopMatrixSparseCSR K) (i ptX ptY nnzM : Nat)
    (h : ptX = X.irowptr_ (i + 1) ∨ ptY = Y.irowptr_ (i + 1)) :
    add_matrix_alloc_rest X Y i ptX ptY nnzM =
      some (nnzM + (merge_rest (X.irowptr_ (i + 1)) (Y.irowptr_ (i + 1)) ptX ptY).length) := by
  unfold add_matrix_alloc_rest
  rw [if_pos h]
  simp only [foldl_count, length_merge_rest]
  congr 1
  omega

/-- On a row with in-range column indices `add_matrix_alloc` counts one entry
per pass of the sorted merge. -/
theorem add_matrix_alloc_row_eq (X Y : hiopMatrixSparseCSR K) (i : Nat) :
    ∀ (k ptX ptY nnzM : Nat), ptX ≤ X.irowptr_ (i + 1) → ptY ≤ Y.irowptr_ (i + 1) →
      (X.irowptr_ (i + 1) - ptX) + (Y.irowptr_ (i + 1) - ptY) ≤ k →
      (∀ p, p < X.irowptr_ (i + 1) → X.jcolind_ p < X.ncols_) →
      (∀ p, p < Y.irowptr_ (i + 1) → Y.jcolind_ p < X.ncols_) →
      add_matrix_alloc_row X Y i k ptX ptY nnzM =
        some (nnzM + (merge_path X.jcolind_ Y.jcolind_ (X.irowptr_ (i + 1))
          (Y.irowptr_ (i + 1)) k ptX ptY).length) := by
  intro k
  induction k with
  | zero =>
    intro ptX ptY nnzM hX hY hk cX cY
    unfold add_matrix_alloc_row merge_path
    exact add_matrix_alloc_rest_eq X Y i ptX ptY nnzM (Or.inl (by omega))
  | succ k ih =>
    intro ptX ptY nnzM hX hY hk cX cY
    unfold add_matrix_alloc_row merge_path
    by_cases hc : ptX < X.irowptr_ (i + 1) ∧ ptY < Y.irowptr_ (i + 1)
    · rw [if_pos hc, if_pos hc]
      simp only
      rw [if_pos ⟨cX ptX hc.1, cY ptY hc.2⟩]
      by_cases h1 : X.jcolind_ ptX < Y.jcolind_ ptY
      · rw [if_pos h1, if_pos h1, ih _ _ _ (by omega) hY (by omega) cX cY, List.length_cons]
        congr 1
        omega
      · rw [if_neg h1, if_neg h1]
        by_cases h2 : X.jcolind_ ptX = Y.jcolind_ ptY
        · rw [if_pos h2, if_pos h2, ih _ _ _ (by omega) (by omega) (by omega) cX cY,
            List.length_cons]
          congr 1
          omega
        · rw [if_neg h2, if_neg h2, ih _ _ _ hX (by omega) (by omega) cX cY, List.length_cons]
          congr 1
          omega
    · rw [if_neg hc, if_neg hc]
      exact add_matrix_alloc_rest_eq X Y i ptX ptY nnzM (by omega)

/-- The `for` loops of `add_matrix_symbolic` over what is left of a row write
the column indices met to consecutive cells of `jcolindM`. -/
theorem add_matrix_symbolic_put_fold (X M : hiopMatrixSparseCSR K) (j : Nat → Nat) (l : List Nat) :
    ∀ (it : Nat) (jM : Nat → Nat), (∀ p ∈ l, j p < X.ncols_) → it + l.length ≤ M.nnz_ →
      l.foldlM (fun s p => add_matrix_symbolic_put X M s (j p)) (it, jM) =
        some (it + l.length, writeList jM it (l.map j)) := by
  induction l with
  | nil => intro it jM _ _; rfl
  | cons a l ih =>
    intro it jM hc hn
    rw [List.length_cons] at hn
    rw [List.foldlM_cons]
    have h1 : add_matrix_symbolic_put X M (it, jM) (j a) =
        some (it + 1, Function.update jM it (j a)) := by
      unfold add_matrix_symbolic_put
      rw [if_pos ⟨hc a (List.mem_cons_self _ _), by show it < M.nnz_; omega⟩]
    rw [h1]
    show l.foldlM (fun s p => add_matrix_symbolic_put X M s (j p))
      (it + 1, Function.update jM it (j a)) = _
    rw [ih _ _ (fun p hp => hc p (List.mem_cons_of_mem _ hp)) (by omega), List.length_cons]
    simp only [List.map_cons, writeList]
    congr 2
    omega

theorem map_col_merge_rest (jX jY : Nat → Nat) (eX eY ptX ptY : Nat) :
    (merge_rest eX eY ptX ptY).map (MergeStep.col jX jY) =
      (for_range ptX eX).map jX ++ (for_range ptY eY).map jY := by
  unfold merge_rest
  rw [List.map_append, List.map_map, List.map_map]
  rfl

theorem add_matrix_symbolic_rest_eq (X M Y : hiopMatrixSparseCSR K) (i ptX ptY it : Nat)
    (jM : Nat → Nat)
    (h : ptX = X.irowptr_ (i + 1) ∨ ptY = Y.irowptr_ (i + 1))
    (cX : ∀ p, p < X.irowptr_ (i + 1) → X.jcolind_ p < X.ncols_)
    (cY : ∀ p, p < Y.irowptr_ (i + 1) → Y.jcolind_ p < X.ncols_)
    (hn : it + (merge_rest (X.irowptr_ (i + 1)) (Y.irowptr_ (i + 1)) ptX ptY).length ≤ M.nnz_) :
    add_matrix_symbolic_rest X M Y i ptX ptY (it, jM) =
      some (it + (merge_rest (X.irowptr_ (i + 1)) (Y.irowptr_ (i + 1)) ptX ptY).length,
        writeList jM it ((merge_rest (X.irowptr_ (i + 1)) (Y.irowptr_ (i + 1)) ptX ptY).map
          (MergeStep.col X.jcolind_ Y.jcolind_))) := by
  rw [length_merge_rest] at hn
  unfold add_matrix_symbolic_rest
  rw [if_pos h, add_matrix_symbolic_put_fold X M X.jcolind_ _ it jM
    (fun p hp => cX p ((mem_for_range _ _ _).mp hp).2) (by omega)]
  simp only [Option.bind_eq_bind, Option.some_bind]
  rw [add_matrix_symbolic_put_fold X M Y.jcolind_ _ _ _
    (fun p hp => cY p ((mem_for_range _ _ _).mp hp).2) (by omega)]
  simp only [Option.some_bind]
  rw [if_pos (by omega), map_col_merge_rest, writeList_append, List.length_map,
    length_merge_rest, Nat.add_assoc]

/-- On a row with in-range column indices, and with room for one cell per
pass of the sorted merge, `add_matrix_symbolic` writes the column indices of
the passes to consecutive cells of `jcolindM`. -/
theorem add_matrix_symbolic_row_eq (X M Y : hiopMatrixSparseCSR K) (i : Nat) :
    ∀ (k ptX ptY it : Nat) (jM : Nat → Nat),
      ptX ≤ X.irowptr_ (i + 1) → ptY ≤ Y.irowptr_ (i + 1) →
      (X.irowptr_ (i + 1) - ptX) + (Y.irowptr_ (i + 1) - ptY) ≤ k →
      (∀ p, p < X.irowptr_ (i + 1) → X.jcolind_ p < X.ncols_) →
      (∀ p, p < Y.irowptr_ (i + 1) → Y.jcolind_ p < X.ncols_) →
      it + (merge_path X.jcolind_ Y.jcolind_ (X.irowptr_ (i + 1)) (Y.irowptr_ (i + 1)) k ptX
        ptY).length ≤ M.nnz_ →
      add_matrix_symbolic_row X M Y i k ptX ptY (it, jM) =
        some (it + (merge_path X.jcolind_ Y.jcolind_ (X.irowptr_ (i + 1))
                (Y.irowptr_ (i + 1)) k ptX ptY).length,
              writeList jM it ((merge_path X.jcolind_ Y.jcolind_ (X.irowptr_ (i + 1))
                (Y.irowptr_ (i + 1)) k ptX ptY).map (MergeStep.col X.jcolind_ Y.jcolind_))) := by
  intro k
  induction k with
  | zero =>
    intro ptX ptY it jM hX hY hk cX cY hn
    unfold merge_path at hn ⊢
    unfold add_matrix_symbolic_row
    exact add_matrix_symbolic_rest_eq X M Y i ptX ptY it jM (Or.inl (by omega)) cX cY hn
  | succ k ih =>
    intro ptX ptY it jM hX hY hk cX cY hn
    unfold merge_path at hn ⊢
    unfold add_matrix_symbolic_row
    by_cases hc : ptX < X.irowptr_ (i + 1) ∧ ptY < Y.irowptr_ (i + 1)
    · rw [if_pos hc] at hn ⊢
      rw [if_pos hc]
      simp only
      by_cases h1 : X.jcolind_ ptX < Y.jcolind_ ptY
      · rw [if_pos h1] at hn ⊢
        rw [List.length_cons] at hn
        rw [if_pos ⟨cX ptX hc.1, cY ptY hc.2, by omega⟩, if_pos h1,
          ih _ _ _ _ (by omega) hY (by omega) cX cY (by omega), List.length_cons]
        simp only [List.map_cons, writeList]
        congr 2
        omega
      · rw [if_neg h1] at hn ⊢
        by_cases h2 : X.jcolind_ ptX = Y.jcolind_ ptY
        · rw [if_pos h2] at hn ⊢
          rw [List.length_cons] at hn
          rw [if_pos ⟨cX ptX hc.1, cY ptY hc.2, by omega⟩, if_neg h1, if_pos h2,
            ih _ _ _ _ (by omega) (by omega) (by omega) cX cY (by omega), List.length_cons]
          simp only [List.map_cons, writeList]
          congr 2
          omega
        · rw [if_neg h2] at hn ⊢
          rw [List.length_cons] at hn
          rw [if_pos ⟨cX ptX hc.1, cY ptY hc.2, by omega⟩, if_neg h1, if_neg h2,
            ih _ _ _ _ hX (by omega) (by omega) cX cY (by omega), List.length_cons]
          simp only [List.map_cons, writeList]
          congr 2
          omega
    · rw [if_neg hc] at hn ⊢
      rw [if_neg hc]
      exact add_matrix_symbolic_rest_eq X M Y i ptX ptY it jM (by omega) cX cY hn

end csr_add

/-! ## Compressed-row storage: `add_matrix_alloc` and `add_matrix_symbolic` over all rows -/

section csr_add_rows

variable {K : Type} [LinearOrderedField K]

open hiopMatrixSparseCSR

theorem length_add_cols (X Y : hiopMatrixSparseCSR K) (i : Nat) :
    (add_cols X Y i).length = (add_path X Y i).length := by
  unfold add_cols
  rw [List.length_map]

theorem add_offset_succ (X Y : hiopMatrixSparseCSR K) (n : Nat) :
    add_offset X Y (n + 1) = add_offset X Y n + (add_path X Y n).length :=
  length_concat_rows_succ _ n

theorem add_offset_mono (X Y : hiopMatrixSparseCSR K) (j i : Nat) (h : i ≤ j) :
    add_offset X Y i ≤ add_offset X Y j :=
  length_concat_rows_mono _ j i h

theorem length_concat_add_cols (X Y : hiopMatrixSparseCSR K) (n : Nat) :
    (concat_rows (add_cols X Y) n).length = add_offset X Y n := by
  unfold add_offset
  have : add_cols X Y = fun i => (add_path X Y i).map (MergeStep.col X.jcolind_ Y.jcolind_) := rfl
  rw [this, concat_rows_map, List.length_map]

/-- The loop over the rows in `add_matrix_alloc` counts the passes of the
sorted merges of all rows. -/
theorem add_matrix_alloc_rows (X Y : hiopMatrixSparseCSR K) (hX : X.WellFormed)
    (hY : Y.WellFormed) (hr : X.nrows_ = Y.nrows_) (hc : X.ncols_ = Y.ncols_) :
    ∀ n, n ≤ X.nrows_ →
      (List.range n).foldlM
        (fun nnzM i =>
          add_matrix_alloc_row X Y i (merge_bound X Y i) (X.irowptr_ i) (Y.irowptr_ i) nnzM) 0 =
        some (add_offset X Y n) := by
  intro n
  induction n with
  | zero => intro _; rfl
  | succ n ih =>
    intro hn
    obtain ⟨x1, _, x3⟩ := hX.row n (by omega)
    obtain ⟨y1, _, y3⟩ := hY.row n (by omega)
    rw [List.range_succ, List.foldlM_append, ih (by omega)]
    simp only [Option.bind_eq_bind, Option.some_bind, List.foldlM_cons, List.foldlM_nil]
    rw [add_matrix_alloc_row_eq X Y n (merge_bound X Y n) _ _ _ x1 y1
      (by unfold merge_bound; omega) x3 (fun p hp => by rw [hc]; exact y3 p hp),
      add_offset_succ]
    rfl

/-- The number of nonzeros `add_matrix_alloc` computes. -/
theorem add_matrix_alloc_nnz_eq (X Y : hiopMatrixSparseCSR K) (hX : X.WellFormed)
    (hY : Y.WellFormed) (hr : X.nrows_ = Y.nrows_) (hc : X.ncols_ = Y.ncols_) :
    add_matrix_alloc_nnz X Y = some (add_offset X Y X.nrows_) := by
  unfold add_matrix_alloc_nnz
  rw [if_pos ⟨hr, hc⟩]
  exact add_matrix_alloc_rows X Y hX hY hr hc X.nrows_ (le_refl _)

/-- The loop over the rows in `add_matrix_symbolic`, given room for one cell
per pass of the sorted merges: the row pointers are the numbers of passes of
the rows before, and the column indices of the passes are written row after
row from cell `0` on. -/
theorem add_matrix_symbolic_rows (X M Y : hiopMatrixSparseCSR K) (hX : X.WellFormed)
    (hY : Y.WellFormed) (hr : X.nrows_ = Y.nrows_) (hc : X.ncols_ = Y.ncols_)
    (hM : add_offset X Y X.nrows_ ≤ M.nnz_) (rp jM : Nat → Nat) :
    ∀ n, n ≤ X.nrows_ →
      (List.range n).foldlM
        (fun (s : (Nat → Nat) × Nat × (Nat → Nat)) i =>
          (add_matrix_symbolic_row X M Y i (merge_bound X Y i) (X.irowptr_ i) (Y.irowptr_ i)
            s.2).map (fun r => (Function.update s.1 i s.2.1, r)))
        (rp, 0, jM) =
      some (fun i => if i < n then add_offset X Y i else rp i, add_offset X Y n,
        writeList jM 0 (concat_rows (add_cols X Y) n)) := by
  intro n
  induction n with
  | zero =>
    intro _
    rfl
  | succ n ih =>
    intro hn
    obtain ⟨x1, _, x3⟩ := hX.row n (by omega)
    obtain ⟨y1, _, y3⟩ := hY.row n (by omega)
    have hoff := add_offset_mono X Y X.nrows_ (n + 1) hn
    rw [List.range_succ, List.foldlM_append, ih (by omega)]
    simp only [Option.bind_eq_bind, Option.some_bind, List.foldlM_cons, List.foldlM_nil]
    rw [add_matrix_symbolic_row_eq X M Y n (merge_bound X Y n) _ _ _ _ x1 y1
      (by unfold merge_bound; omega) x3
      (fun p hp => by rw [hc]; exact y3 p hp)
      (by
        have h1 := add_offset_succ X Y n
        unfold add_path at h1
        omega)]
    simp only [Option.map_some', Option.bind_eq_bind, Option.some_bind, Option.pure_def]
    congr 1
    refine Prod.ext ?_ (Prod.ext (add_offset_succ X Y n).symm ?_)
    · funext i
      simp only
      by_cases h1 : i = n
      · subst h1
        rw [Function.update_same, if_pos (by omega)]
      · rw [Function.update_noteq h1]
        by_cases h2 : i < n
        · rw [if_pos h2, if_pos (by omega)]
        · rw [if_neg h2, if_neg (by omega)]
    · rw [concat_rows_succ, writeList_append, length_concat_add_cols, Nat.zero_add]
      rfl

end csr_add_rows

/-! ## Compressed-row storage: the pattern of a sum -/

section csr_add_pattern

variable {K : Type} [LinearOrderedField K]

open hiopMatrixSparseCSR

/-- Strictly increasing column indices in the rows, position by position. -/
theorem sortedRows_lt {X : hiopMatrixSparseCSR K} (h : X.SortedRows) (i : Nat)
    (hi : i < X.nrows_) :
    ∀ p q, X.irowptr_ i ≤ p → p < q → q < X.irowptr_ (i + 1) → X.jcolind_ p < X.jcolind_ q :=
  (pairwise_map_for_range X.jcolind_ _ _).mp (h i hi)

theorem mem_row_cols (X : hiopMatrixSparseCSR K) (i c : Nat) :
    c ∈ X.row_cols i ↔ ∃ p, X.irowptr_ i ≤ p ∧ p < X.irowptr_ (i + 1) ∧ c = X.jcolind_ p := by
  unfold row_cols row_positions
  rw [List.mem_map]
  constructor
  · rintro ⟨p, hp, rfl⟩
    rw [mem_for_range] at hp
    exact ⟨p, hp.1, hp.2, rfl⟩
  · rintro ⟨p, h1, h2, rfl⟩
    exact ⟨p, (mem_for_range _ _ _).mpr ⟨h1, h2⟩, rfl⟩

/-- The passes of the sorted merge of two rows with strictly increasing
column indices deal with strictly increasing column indices. -/
theorem add_cols_sorted (X Y : hiopMatrixSparseCSR K) (sX : X.SortedRows) (sY : Y.SortedRows)
    (hr : X.nrows_ = Y.nrows_) (i : Nat) (hi : i < X.nrows_) :
    (add_cols X Y i).Pairwise (fun a b => a < b) :=
  (merge_path_sorted X.jcolind_ Y.jcolind_ _ _ (merge_bound X Y i) _ _
    (by unfold merge_bound; omega) (sortedRows_lt sX i hi)
    (sortedRows_lt sY i (by omega))).1

/-- The column indices the sorted merge of two rows deals with are those of
the two rows. -/
theorem mem_add_cols (X Y : hiopMatrixSparseCSR K) (sX : X.SortedRows) (sY : Y.SortedRows)
    (hr : X.nrows_ = Y.nrows_) (i : Nat) (hi : i < X.nrows_) (c : Nat) :
    c ∈ add_cols X Y i ↔ c ∈ X.row_cols i ∨ c ∈ Y.row_cols i := by
  constructor
  · intro hc
    rw [mem_row_cols, mem_row_cols]
    exact (merge_path_sorted X.jcolind_ Y.jcolind_ _ _ (merge_bound X Y i) _ _
      (by unfold merge_bound; omega) (sortedRows_lt sX i hi)
      (sortedRows_lt sY i (by omega))).2 c hc
  · intro hc
    unfold add_cols
    rw [List.mem_map]
    rcases hc with hc | hc
    · rw [mem_row_cols] at hc
      obtain ⟨p, h1, h2, rfl⟩ := hc
      have hp : p ∈ (add_path X Y i).filterMap Prod.fst := by
        unfold add_path
        rw [merge_path_fst, mem_for_range]
        exact ⟨h1, h2⟩
      rw [List.mem_filterMap] at hp
      obtain ⟨s, hs, e⟩ := hp
      refine ⟨s, hs, ?_⟩
      obtain ⟨o1, o2⟩ := s
      simp only at e
      subst e
      rfl
    · rw [mem_row_cols] at hc
      obtain ⟨p, h1, h2, rfl⟩ := hc
      have hp : p ∈ (add_path X Y i).filterMap Prod.snd := by
        unfold add_path
        rw [merge_path_snd, mem_for_range]
        exact ⟨h1, h2⟩
      rw [List.mem_filterMap] at hp
      obtain ⟨s, hs, e⟩ := hp
      exact ⟨s, hs, merge_path_col_snd _ _ _ _ _ _ _ s hs p e⟩

/-- The sorted merge of two rows with strictly increasing column indices makes
as many passes as the two rows have column indices together. -/
theorem length_add_path (X Y : hiopMatrixSparseCSR K) (sX : X.SortedRows) (sY : Y.SortedRows)
    (hr : X.nrows_ = Y.nrows_) (i : Nat) (hi : i < X.nrows_) :
    (add_path X Y i).length = ((X.row_cols i).toFinset ∪ (Y.row_cols i).toFinset).card := by
  have hnd : (add_cols X Y i).Nodup :=
    (add_cols_sorted X Y sX sY hr i hi).imp (fun h => Nat.ne_of_lt h)
  have hset : (add_cols X Y i).toFinset = (X.row_cols i).toFinset ∪ (Y.row_cols i).toFinset := by
    ext c
    rw [List.mem_toFinset, Finset.mem_union, List.mem_toFinset, List.mem_toFinset]
    exact mem_add_cols X Y sX sY hr i hi c
  rw [← hset, List.toFinset_card_of_nodup hnd]
  unfold add_cols
  rw [List.length_map]

/-- The number of passes of the sorted merges of the rows before row `n`, as a
sum over these rows. -/
theorem add_offset_sum (X Y : hiopMatrixSparseCSR K) (sX : X.SortedRows) (sY : Y.SortedRows)
    (hr : X.nrows_ = Y.nrows_) :
    ∀ n, n ≤ X.nrows_ →
      add_offset X Y n =
        ∑ i in Finset.range n, ((X.row_cols i).toFinset ∪ (Y.row_cols i).toFinset).card := by
  intro n
  induction n with
  | zero => intro _; rfl
  | succ n ih =>
    intro hn
    rw [add_offset_succ, Finset.sum_range_succ, ih (by omega),
      length_add_path X Y sX sY hr n (by omega)]

/-- What `add_matrix_symbolic` leaves in `M`, given room for one cell per pass
of the sorted merges. -/
theorem add_matrix_symbolic_eq (X M Y : hiopMatrixSparseCSR K) (hX : X.WellFormed)
    (hY : Y.WellFormed) (hr : X.nrows_ = Y.nrows_) (hc : X.ncols_ = Y.ncols_)
    (hM : add_offset X Y X.nrows_ ≤ M.nnz_) :
    X.add_matrix_symbolic M Y =
      some { M with
        irowptr_ := Function.update
          (fun i => if i < X.nrows_ then add_offset X Y i else M.irowptr_ i)
          X.nrows_ (add_offset X Y X.nrows_),
        jcolind_ := writeList M.jcolind_ 0 (concat_rows (add_cols X Y) X.nrows_) } := by
  unfold add_matrix_symbolic
  rw [if_pos ⟨hr, hc⟩,
    add_matrix_symbolic_rows X M Y hX hY hr hc hM M.irowptr_ M.jcolind_ X.nrows_ (le_refl _)]
  simp only [Option.bind_eq_bind, Option.some_bind]
  rw [if_pos hM]

/-- The row pointers and the rows that `add_matrix_symbolic` leaves. -/
theorem add_matrix_symbolic_rowptr (X M Y : hiopMatrixSparseCSR K) (i : Nat)
    (hi : i ≤ X.nrows_) :
    Function.update (fun i => if i < X.nrows_ then add_offset X Y i else M.irowptr_ i)
      X.nrows_ (add_offset X Y X.nrows_) i = add_offset X Y i := by
  rcases Nat.eq_or_lt_of_le hi with e | e
  · subst e
    rw [Function.update_same]
  · rw [Function.update_noteq (by omega)]
    exact if_pos e

/-- Reading back a stretch of cells that were written from a list. -/
theorem map_writeList_for_range {α : Type} (f : Nat → α) (l : List α) (a b : Nat) (row : List α)
    (hb : b = a + row.length) (h : ∀ t, t < row.length → l[a + t]? = row[t]?) :
    (for_range a b).map (writeList f 0 l) = row := by
  apply List.ext_getElem?
  intro t
  by_cases ht : t < row.length
  · rw [List.getElem?_map, getElem?_for_range a b t (by omega), Option.map_some']
    have h1 := h t ht
    rw [List.getElem?_eq_getElem ht] at h1 ⊢
    congr 1
    have := writeList_getElem l f 0 (a + t) _ h1
    rw [Nat.zero_add] at this
    exact this
  · rw [List.getElem?_eq_none (by rw [List.length_map, length_for_range]; omega),
      List.getElem?_eq_none (by omega)]

end csr_add_pattern

/-! ## Compressed-row storage: what `add_matrix_symbolic` leaves -/

section csr_add_result

variable {K : Type} [LinearOrderedField K]

open hiopMatrixSparseCSR

/-- A cell of rows put one after the other lies in one of the rows. -/
theorem concat_rows_locate {α : Type} (row : Nat → List α) :
    ∀ (n p : Nat), p < (concat_rows row n).length →
      ∃ r t, r < n ∧ t < (row r).length ∧ p = (concat_rows row r).length + t := by
  intro n
  induction n with
  | zero => intro p hp; simp [concat_rows] at hp
  | succ n ih =>
    intro p hp
    rw [length_concat_rows_succ] at hp
    by_cases h : p < (concat_rows row n).length
    · obtain ⟨r, t, h1, h2, h3⟩ := ih p h
      exact ⟨r, t, by omega, h2, h3⟩
    · exact ⟨n, p - (concat_rows row n).length, by omega, by omega, by omega⟩

/-- The rows of a matrix that carries the pattern of `X + Y` hold the column
indices of the passes of the sorted merges. -/
theorem carriesSum_row_cols {X Y M : hiopMatrixSparseCSR K} (h : CarriesSum X Y M) (i : Nat)
    (hi : i < X.nrows_) : M.row_cols i = add_cols X Y i := by
  unfold row_cols row_positions
  rw [h.rowptr i (by omega), h.rowptr (i + 1) (by omega)]
  apply List.ext_getElem?
  intro t
  by_cases ht : t < (add_cols X Y i).length
  · rw [List.getElem?_map, getElem?_for_range _ _ t
      (by rw [add_offset_succ, ← length_add_cols]; omega), Option.map_some',
      List.getElem?_eq_getElem ht]
    congr 1
    exact h.cells i t _ hi (List.getElem?_eq_getElem ht)
  · rw [List.getElem?_eq_none (by
        rw [List.length_map, length_for_range, add_offset_succ, ← length_add_cols]; omega),
      List.getElem?_eq_none (by omega)]

/-- The result of `add_matrix_symbolic` on a matrix with the dimensions of `X`
and one cell per pass of the sorted merges carries the pattern of `X + Y`. -/
theorem add_matrix_symbolic_carries (X M Y : hiopMatrixSparseCSR K) (hX : X.WellFormed)
    (hY : Y.WellFormed) (hr : X.nrows_ = Y.nrows_) (hc : X.ncols_ = Y.ncols_)
    (h1 : M.nrows_ = X.nrows_) (h2 : M.ncols_ = X.ncols_)
    (h3 : M.nnz_ = add_offset X Y X.nrows_) :
    ∃ Ms, X.add_matrix_symbolic M Y = some Ms ∧ CarriesSum X Y Ms ∧ Ms.values_ = M.values_ ∧
      Ms.buf_col_ = M.buf_col_ ∧ Ms.row_starts_ = M.row_starts_ := by
  refine ⟨_, add_matrix_symbolic_eq X M Y hX hY hr hc (by omega), ?_, rfl, rfl, rfl⟩
  refine ⟨h1, h2, h3, fun i hi => add_matrix_symbolic_rowptr X M Y i hi, ?_⟩
  intro r t c hr1 hcell
  have ht : t < (add_cols X Y r).length := by
    by_contra hn
    rw [List.getElem?_eq_none (by omega)] at hcell
    cases hcell
  have hg := getElem?_concat_rows (add_cols X Y) X.nrows_ r t hr1 ht
  rw [length_concat_add_cols, hcell] at hg
  have := writeList_getElem _ M.jcolind_ 0 _ c hg
  rw [Nat.zero_add] at this
  exact this

/-- A matrix that carries the pattern of `X + Y` has valid row pointers and
in-range column indices. -/
theorem carriesSum_wellFormed {X Y M : hiopMatrixSparseCSR K} (h : CarriesSum X Y M)
    (hX : X.WellFormed) (hY : Y.WellFormed) (sX : X.SortedRows) (sY : Y.SortedRows)
    (hr : X.nrows_ = Y.nrows_) (hc : X.ncols_ = Y.ncols_) : M.WellFormed := by
  refine ⟨?_, ?_, ?_, ?_⟩
  · rw [h.rowptr 0 (Nat.zero_le _)]
    rfl
  · intro i hi
    rw [h.nrows] at hi
    rw [h.rowptr i (by omega), h.rowptr (i + 1) (by omega)]
    exact add_offset_mono X Y _ _ (by omega)
  · rw [h.nrows, h.rowptr _ (le_refl _), h.nnz]
  · intro p hp
    rw [h.nnz, ← length_concat_add_cols] at hp
    obtain ⟨r, t, r1, r2, r3⟩ := concat_rows_locate (add_cols X Y) X.nrows_ p hp
    rw [length_concat_add_cols] at r3
    have hcell := h.cells r t _ r1 (List.getElem?_eq_getElem r2)
    rw [r3, hcell, h.ncols]
    have hmem : (add_cols X Y r)[t] ∈ add_cols X Y r := List.getElem_mem r2
    rcases (mem_add_cols X Y sX sY hr r r1 _).mp hmem with hm | hm
    · rw [mem_row_cols] at hm
      obtain ⟨q, _, q2, e⟩ := hm
      rw [e]
      exact (hX.row r r1).2.2 q q2
    · rw [mem_row_cols] at hm
      obtain ⟨q, _, q2, e⟩ := hm
      rw [e, hc]
      exact (hY.row r (by omega)).2.2 q q2

/-- With non-zero dimensions and a count within `INT_MAX`, `add_matrix_alloc`
returns a matrix with arrays, the dimensions of `X` and one cell per pass of
the sorted merges. -/
theorem add_matrix_alloc_eq (X Y : hiopMatrixSparseCSR K) (fresh : FreshArrays K)
    (hX : X.WellFormed) (hY : Y.WellFormed) (hr : X.nrows_ = Y.nrows_)
    (hc : X.ncols_ = Y.ncols_) (hrows : 0 < X.nrows_) (hcols : 0 < X.ncols_)
    (hcount : add_offset X Y X.nrows_ ≤ INT_MAX) :
    ∃ M0, X.add_matrix_alloc Y fresh = some (.allocated M0) ∧ M0.nrows_ = X.nrows_ ∧
      M0.ncols_ = X.ncols_ ∧ M0.nnz_ = add_offset X Y X.nrows_ ∧
      M0.buf_col_ = none ∧ M0.row_starts_ = none := by
  unfold add_matrix_alloc
  rw [add_matrix_alloc_nnz_eq X Y hX hY hr hc]
  simp only [Option.some_bind]
  rw [if_pos hcount]
  unfold create
  rw [if_neg (by omega)]
  unfold alloc
  simp only [Option.isNone_none, and_self, if_true, Option.map_some']
  exact ⟨_, rfl, rfl, rfl, rfl, rfl, rfl⟩

/-- What `add_matrix_alloc` returns: nothing when the count is beyond
`INT_MAX`, an object without arrays when a dimension is zero, and an object
with arrays otherwise. -/
theorem add_matrix_alloc_cases (X Y : hiopMatrixSparseCSR K) (fresh : FreshArrays K)
    (hX : X.WellFormed) (hY : Y.WellFormed) (hr : X.nrows_ = Y.nrows_)
    (hc : X.ncols_ = Y.ncols_) :
    (INT_MAX < add_offset X Y X.nrows_ → X.add_matrix_alloc Y fresh = none) ∧
    (add_offset X Y X.nrows_ = 0 → X.nrows_ = 0 ∨ X.ncols_ = 0 →
      X.add_matrix_alloc Y fresh = some (.unallocated X.nrows_ X.ncols_)) ∧
    (∀ M0, X.add_matrix_alloc Y fresh = some (.allocated M0) →
      0 < X.nrows_ ∧ 0 < X.ncols_ ∧ add_offset X Y X.nrows_ ≤ INT_MAX) := by
  unfold add_matrix_alloc
  rw [add_matrix_alloc_nnz_eq X Y hX hY hr hc]
  simp only [Option.some_bind]
  refine ⟨?_, ?_, ?_⟩
  · intro h
    rw [if_neg (by omega)]
  · intro h0 hz
    rw [if_pos (by rw [h0]; exact Nat.zero_le _)]
    unfold create
    rw [if_pos hz, if_pos h0]
  · intro M0 h
    by_cases h1 : add_offset X Y X.nrows_ ≤ INT_MAX
    · rw [if_pos h1] at h
      unfold create at h
      by_cases h2 : X.nrows_ = 0 ∨ X.ncols_ = 0
      · rw [if_pos h2] at h
        by_cases h3 : add_offset X Y X.nrows_ = 0
        · rw [if_pos h3] at h
          cases h
        · rw [if_neg h3] at h
          cases h
      · exact ⟨by omega, by omega, h1⟩
    · rw [if_neg h1] at h
      cases h

/-- When `add_matrix_symbolic` returns on what a constructor left, that
object has arrays. -/
theorem constructed_add_symbolic (X Y : hiopMatrixSparseCSR K) (M : Constructed K)
    (Ms : hiopMatrixSparseCSR K) (h : Constructed.add_matrix_symbolic X M Y = some Ms) :
    ∃ M0, M = .allocated M0 ∧ X.add_matrix_symbolic M0 Y = some Ms := by
  cases M with
  | allocated M0 => exact ⟨M0, rfl, h⟩
  | unallocated rows cols => cases h

end csr_add_result

/-! ## Compressed-row storage: the claims on the sum of two matrices -/

section claims_csr_add

variable {K : Type} [LinearOrderedField K]

open hiopMatrixSparseCSR

theorem ex_csr_X_wellFormed : ex_csr_X.WellFormed := by
  refine ⟨rfl, ?_, rfl, ?_⟩
  · intro i hi
    have hi2 : i < 2 := hi
    interval_cases i <;> decide
  · intro p hp
    have hp3 : p < 3 := hp
    interval_cases p <;> decide

theorem ex_csr_Y_wellFormed : ex_csr_Y.WellFormed := by
  refine ⟨rfl, ?_, rfl, ?_⟩
  · intro i hi
    have hi2 : i < 2 := hi
    interval_cases i <;> decide
  · intro p hp
    have hp2 : p < 2 := hp
    interval_cases p <;> decide

theorem ex_csr_X_sorted : ex_csr_X.SortedRows := by
  intro i hi
  have hi2 : i < 2 := hi
  interval_cases i <;> decide

theorem ex_csr_Y_sorted : ex_csr_Y.SortedRows := by
  intro i hi
  have hi2 : i < 2 := hi
  interval_cases i <;> decide

theorem ex_csr_norows_wellFormed : ex_csr_norows.WellFormed :=
  ⟨rfl, fun i hi => absurd hi (Nat.not_lt_zero i), rfl, fun p hp => absurd hp (Nat.not_lt_zero p)⟩

theorem ex_csr_norows_sorted : ex_csr_norows.SortedRows :=
  fun i hi => absurd hi (Nat.not_lt_zero i)

theorem ex_csr_top_wellFormed : ex_csr_top.WellFormed := by
  refine ⟨rfl, ?_, rfl, ?_⟩
  · intro i hi
    have hi2 : i < 2 := hi
    interval_cases i <;> decide
  · intro p hp
    exact hp

theorem ex_csr_bottom_wellFormed : ex_csr_bottom.WellFormed := by
  refine ⟨rfl, ?_, rfl, ?_⟩
  · intro i hi
    have hi2 : i < 2 := hi
    interval_cases i <;> decide
  · intro p hp
    exact hp

theorem ex_csr_top_sorted : ex_csr_top.SortedRows := by
  intro i _
  unfold row_cols row_positions
  rw [pairwise_map_for_range]
  intro p q _ h _
  exact h

theorem ex_csr_bottom_sorted : ex_csr_bottom.SortedRows := by
  intro i _
  unfold row_cols row_positions
  rw [pairwise_map_for_range]
  intro p q _ h _
  exact h

/-- The number of column indices of a row with strictly increasing column
indices. -/
theorem card_row_cols (X : hiopMatrixSparseCSR K) (sX : X.SortedRows) (i : Nat)
    (hi : i < X.nrows_) :
    (X.row_cols i).toFinset.card = X.irowptr_ (i + 1) - X.irowptr_ i := by
  rw [List.toFinset_card_of_nodup ((sX i hi).imp (fun h => Nat.ne_of_lt h))]
  unfold row_cols row_positions
  rw [List.length_map, length_for_range]

/-- The column indices of a row without cells. -/
theorem row_cols_nil (X : hiopMatrixSparseCSR K) (i : Nat)
    (h : X.irowptr_ (i + 1) ≤ X.irowptr_ i) : X.row_cols i = [] := by
  unfold row_cols row_positions
  rw [for_range_nil _ _ h]
  rfl

/-- The nonzero count of the sum of two matrices with two rows. -/
theorem add_offset_two_rows (X Y : hiopMatrixSparseCSR K) (sX : X.SortedRows)
    (sY : Y.SortedRows) (hr : X.nrows_ = Y.nrows_) (hn : X.nrows_ = 2) :
    add_offset X Y X.nrows_ =
      ((X.row_cols 0).toFinset ∪ (Y.row_cols 0).toFinset).card +
      ((X.row_cols 1).toFinset ∪ (Y.row_cols 1).toFinset).card := by
  have h0 : add_offset X Y 0 = 0 := rfl
  have l0 := length_add_path X Y sX sY hr 0 (by omega)
  have l1 := length_add_path X Y sX sY hr 1 (by omega)
  have e1 := add_offset_succ X Y 0
  have e2 := add_offset_succ X Y 1
  rw [hn]
  simp only [Nat.zero_add, Nat.reduceAdd] at e1 e2
  omega

/-- C32, as stated, fails.  (1) For the 0 x 3 matrix `X`, whose row pointers
are valid and whose rows, there being none, have strictly increasing column
indices, `X.add_matrix_alloc(X)` counts no nonzero and calls the constructor
with a zero dimension, which allocates no array; `add_matrix_symbolic` on this
object writes `irowptrM[nrows_]` through `nullptr`.  (2) For the 2 x 2^30
matrices `X` with a full row 0 and `Y` with a full row 1, each with 2^30
nonzeros, the unions of the column indices of rows 0 and of rows 1 have 2^30
elements each, 2^31 together, which is beyond `INT_MAX`, and
`add_matrix_alloc` fails its assertion `nnzM>=0`. -/
theorem add_alloc_without_arrays :
    (ex_csr_norows.WellFormed ∧ ex_csr_norows.SortedRows ∧
      ex_csr_norows.add_matrix_alloc ex_csr_norows ex_fresh = some (.unallocated 0 3) ∧
      Constructed.add_matrix_symbolic ex_csr_norows (.unallocated 0 3) ex_csr_norows = none) ∧
    (ex_csr_top.WellFormed ∧ ex_csr_bottom.WellFormed ∧ ex_csr_top.SortedRows ∧
      ex_csr_bottom.SortedRows ∧ ex_csr_top.nrows_ = ex_csr_bottom.nrows_ ∧
      ex_csr_top.ncols_ = ex_csr_bottom.ncols_ ∧ ex_csr_top.nnz_ ≤ INT_MAX ∧
      ex_csr_bottom.nnz_ ≤ INT_MAX ∧
      ((ex_csr_top.row_cols 0).toFinset ∪ (ex_csr_bottom.row_cols 0).toFinset).card =
        1073741824 ∧
      ((ex_csr_top.row_cols 1).toFinset ∪ (ex_csr_bottom.row_cols 1).toFinset).card =
        1073741824 ∧
      ex_csr_top.add_matrix_alloc ex_csr_bottom ex_fresh = none) := by
  have e0 : ex_csr_bottom.row_cols 0 = [] := row_cols_nil _ 0 (by decide)
  have e1 : ex_csr_top.row_cols 1 = [] := row_cols_nil _ 1 (by decide)
  have c0 := card_row_cols ex_csr_top ex_csr_top_sorted 0 (by decide)
  have c1 := card_row_cols ex_csr_bottom ex_csr_bottom_sorted 1 (by decide)
  have d0 : ex_csr_top.irowptr_ (0 + 1) - ex_csr_top.irowptr_ 0 = 1073741824 := by decide
  have d1 : ex_csr_bottom.irowptr_ (1 + 1) - ex_csr_bottom.irowptr_ 1 = 1073741824 := by decide
  have u0 : ((ex_csr_top.row_cols 0).toFinset ∪ (ex_csr_bottom.row_cols 0).toFinset).card =
      1073741824 := by
    rw [e0, List.toFinset_nil, Finset.union_empty, c0, d0]
  have u1 : ((ex_csr_top.row_cols 1).toFinset ∪ (ex_csr_bottom.row_cols 1).toFinset).card =
      1073741824 := by
    rw [e1, List.toFinset_nil, Finset.empty_union, c1, d1]
  refine ⟨⟨ex_csr_norows_wellFormed, ex_csr_norows_sorted, ?_, rfl⟩,
    ex_csr_top_wellFormed, ex_csr_bottom_wellFormed, ex_csr_top_sorted, ex_csr_bottom_sorted,
    rfl, rfl, by decide, by decide, u0, u1, ?_⟩
  · exact (add_matrix_alloc_cases ex_csr_norows ex_csr_norows ex_fresh ex_csr_norows_wellFormed
      ex_csr_norows_wellFormed rfl rfl).2.1 rfl (Or.inl rfl)
  · apply (add_matrix_alloc_cases ex_csr_top ex_csr_bottom ex_fresh ex_csr_top_wellFormed
      ex_csr_bottom_wellFormed rfl rfl).1
    rw [add_offset_two_rows ex_csr_top ex_csr_bottom ex_csr_top_sorted ex_csr_bottom_sorted
      rfl rfl, u0, u1]
    decide

/-- C32, amended.  CSR addition, symbolic.  For matrices `X` and `Y` of equal,
non-zero dimensions with valid row pointers, in-range column indices and
strictly increasing column indices in every row, such that
`sum_i |cols_X(i) ∪ cols_Y(i)|` is within `INT_MAX`: `add_matrix_alloc` counts
this number of nonzeros and returns a matrix with arrays, with the dimensions
of `X` and this number of nonzeros; `add_matrix_symbolic` on this matrix
passes all its assertions, so that no column index is written at or beyond
`nnz_`, and leaves the dimensions, the number of nonzeros and the values
alone; afterwards row `i` holds the union of the column indices of rows `i` of
`X` and of `Y` in strictly increasing order, and the row pointers start at
`0`, do not decrease and end at the number of nonzeros. -/
theorem add_symbolic_pattern (X Y : hiopMatrixSparseCSR K) (fresh : FreshArrays K)
    (hX : X.WellFormed) (hY : Y.WellFormed) (sX : X.SortedRows) (sY : Y.SortedRows)
    (hr : X.nrows_ = Y.nrows_) (hc : X.ncols_ = Y.ncols_) (hrows : 0 < X.nrows_)
    (hcols : 0 < X.ncols_)
    (hcount : (∑ i in Finset.range X.nrows_,
      ((X.row_cols i).toFinset ∪ (Y.row_cols i).toFinset).card) ≤ INT_MAX) :
    X.add_matrix_alloc_nnz Y =
      some (∑ i in Finset.range X.nrows_,
        ((X.row_cols i).toFinset ∪ (Y.row_cols i).toFinset).card) ∧
    ∃ M0 M, X.add_matrix_alloc Y fresh = some (.allocated M0) ∧
      M0.nrows_ = X.nrows_ ∧ M0.ncols_ = X.ncols_ ∧
      M0.nnz_ = ∑ i in Finset.range X.nrows_,
        ((X.row_cols i).toFinset ∪ (Y.row_cols i).toFinset).card ∧
      Constructed.add_matrix_symbolic X (.allocated M0) Y = some M ∧
      M.nrows_ = X.nrows_ ∧ M.ncols_ = X.ncols_ ∧ M.nnz_ = M0.nnz_ ∧ M.values_ = M0.values_ ∧
      (∀ i, i < X.nrows_ →
        (M.row_cols i).Pairwise (fun a b => a < b) ∧
        (M.row_cols i).toFinset = (X.row_cols i).toFinset ∪ (Y.row_cols i).toFinset) ∧
      M.irowptr_ 0 = 0 ∧ (∀ i, i < M.nrows_ → M.irowptr_ i ≤ M.irowptr_ (i + 1)) ∧
      M.irowptr_ M.nrows_ = M0.nnz_ ∧ (∀ p, p < M.nnz_ → M.jcolind_ p < M.ncols_) := by
  have hsum := add_offset_sum X Y sX sY hr X.nrows_ (le_refl _)
  obtain ⟨M0, a1, a2, a3, a4, _, _⟩ := add_matrix_alloc_eq X Y fresh hX hY hr hc hrows hcols
    (by rw [hsum]; exact hcount)
  obtain ⟨M, b1, b2, b3, _, _⟩ := add_matrix_symbolic_carries X M0 Y hX hY hr hc a2 a3 a4
  have hwf := carriesSum_wellFormed b2 hX hY sX sY hr hc
  refine ⟨by rw [add_matrix_alloc_nnz_eq X Y hX hY hr hc, hsum], M0, M, a1, a2, a3,
    by rw [a4, hsum], b1, b2.nrows, b2.ncols, by rw [b2.nnz, a4], b3, ?_, hwf.first, hwf.mono,
    by rw [hwf.last, b2.nnz, a4], hwf.cols⟩
  intro i hi
  rw [carriesSum_row_cols b2 i hi]
  refine ⟨add_cols_sorted X Y sX sY hr i hi, ?_⟩
  ext c
  rw [List.mem_toFinset, Finset.mem_union, List.mem_toFinset, List.mem_toFinset]
  exact mem_add_cols X Y sX sY hr i hi c

/-- Instance of `add_symbolic_pattern`: the 2 x 3 matrices with the rows
`(1, 0, 2)`, `(0, 3, 0)` and `(0, 10, 20)`, `(0, 0, 0)`.  The sum has four
nonzeros, in the columns `0, 1, 2` of row 0 and in column `1` of row 1. -/
theorem add_symbolic_pattern_witness :
    ex_csr_X.WellFormed ∧ ex_csr_Y.WellFormed ∧ ex_csr_X.SortedRows ∧ ex_csr_Y.SortedRows ∧
    ex_csr_X.add_matrix_alloc_nnz ex_csr_Y = some 4 ∧
    ∃ M0 M, ex_csr_X.add_matrix_alloc ex_csr_Y ex_fresh = some (.allocated M0) ∧ M0.nnz_ = 4 ∧
      Constructed.add_matrix_symbolic ex_csr_X (.allocated M0) ex_csr_Y = some M ∧
      (M.row_cols 0).Pairwise (fun a b => a < b) ∧ (M.row_cols 0).toFinset = {0, 1, 2} ∧
      (M.row_cols 1).toFinset = {1} ∧
      M.irowptr_ 0 = 0 ∧ M.irowptr_ 2 = 4 := by
  have hsum : (∑ i in Finset.range ex_csr_X.nrows_,
      ((ex_csr_X.row_cols i).toFinset ∪ (ex_csr_Y.row_cols i).toFinset).card) = 4 := by decide
  obtain ⟨h1, M0, M, a1, a2, _, a4, a5, a6, _, _, _, a10, a11, _, a13, _⟩ :=
    add_symbolic_pattern ex_csr_X ex_csr_Y ex_fresh ex_csr_X_wellFormed ex_csr_Y_wellFormed
      ex_csr_X_sorted ex_csr_Y_sorted rfl rfl (by decide) (by decide)
      (by rw [hsum]; decide)
  rw [hsum] at h1 a4
  have r0 := a10 0 (by decide)
  have r1 := a10 1 (by decide)
  refine ⟨ex_csr_X_wellFormed, ex_csr_Y_wellFormed, ex_csr_X_sorted, ex_csr_Y_sorted, h1, M0, M,
    a1, a4, a5, r0.1, ?_, ?_, a11, ?_⟩
  · rw [r0.2]
    decide
  · rw [r1.2]
    decide
  · have : M.nrows_ = 2 := a6
    rw [this, a4] at a13
    exact a13

end claims_csr_add

/-! ## Compressed-row storage: `add_matrix_numeric` row by row -/

section csr_add_numeric

variable {K : Type} [LinearOrderedField K]

open hiopMatrixSparseCSR

/-- The `for` loops of `add_matrix_numeric` over what is left of a row add
their terms to consecutive cells of `valuesM`. -/
theorem add_matrix_numeric_put_fold (deep : Bool) (X M : hiopMatrixSparseCSR K) (j : Nat → Nat)
    (a : Nat → K) (l : List Nat) :
    ∀ (it : Nat) (v : Nat → K), (∀ p ∈ l, j p < X.ncols_) → it + l.length ≤ M.nnz_ →
      (∀ t p, l[t]? = some p → j p = M.jcolind_ (it + t)) →
      l.foldlM (fun s p => add_matrix_numeric_put deep X M s (j p) (a p)) (it, v) =
        some (it + l.length, addList v it (l.map a)) := by
  induction l with
  | nil => intro it v _ _ _; rfl
  | cons p0 l ih =>
    intro it v hc hn hj
    rw [List.length_cons] at hn
    rw [List.foldlM_cons]
    have h1 : add_matrix_numeric_put deep X M (it, v) (j p0) (a p0) =
        some (it + 1, Function.update v it (v it + a p0)) := by
      unfold add_matrix_numeric_put
      rw [if_pos ⟨hc p0 (List.mem_cons_self _ _), fun _ => hj 0 p0 (List.getElem?_cons_zero),
        by show it < M.nnz_; omega⟩]
    rw [h1]
    show l.foldlM (fun s p => add_matrix_numeric_put deep X M s (j p) (a p))
      (it + 1, Function.update v it (v it + a p0)) = _
    rw [ih _ _ (fun p hp => hc p (List.mem_cons_of_mem _ hp)) (by omega)
      (fun t p ht => by
        have := hj (t + 1) p (by rw [List.getElem?_cons_succ]; exact ht)
        rw [this]
        congr 1
        omega),
      List.length_cons]
    simp only [List.map_cons, addList]
    congr 2
    omega

theorem map_val_merge_rest (alpha beta : K) (vX vY : Nat → K) (eX eY ptX ptY : Nat) :
    (merge_rest eX eY ptX ptY).map (MergeStep.val alpha beta vX vY) =
      (for_range ptX eX).map (fun p => alpha * vX p) ++
        (for_range ptY eY).map (fun p => beta * vY p) := by
  unfold merge_rest
  rw [List.map_append, List.map_map, List.map_map]
  rfl

theorem add_matrix_numeric_rest_eq (deep : Bool) (X M Y : hiopMatrixSparseCSR K) (alpha beta : K)
    (i ptX ptY it : Nat) (v : Nat → K)
    (h : ptX = X.irowptr_ (i + 1) ∨ ptY = Y.irowptr_ (i + 1))
    (cX : ∀ p, p < X.irowptr_ (i + 1) → X.jcolind_ p < X.ncols_)
    (cY : ∀ p, p < Y.irowptr_ (i + 1) → Y.jcolind_ p < X.ncols_)
    (hn : it + (merge_rest (X.irowptr_ (i + 1)) (Y.irowptr_ (i + 1)) ptX ptY).length ≤ M.nnz_)
    (hj : ∀ t c, ((merge_rest (X.irowptr_ (i + 1)) (Y.irowptr_ (i + 1)) ptX ptY).map
      (MergeStep.col X.jcolind_ Y.jcolind_))[t]? = some c → M.jcolind_ (it + t) = c) :
    add_matrix_numeric_rest deep X M Y alpha beta i ptX ptY (it, v) =
      some (it + (merge_rest (X.irowptr_ (i + 1)) (Y.irowptr_ (i + 1)) ptX ptY).length,
        addList v it ((merge_rest (X.irowptr_ (i + 1)) (Y.irowptr_ (i + 1)) ptX ptY).map
          (MergeStep.val alpha beta X.values_ Y.values_))) := by
  rw [length_merge_rest] at hn
  rw [map_col_merge_rest] at hj
  unfold add_matrix_numeric_rest
  rw [if_pos h, add_matrix_numeric_put_fold deep X M X.jcolind_ _ _ it v
    (fun p hp => cX p ((mem_for_range _ _ _).mp hp).2) (by omega)
    (fun t p ht => by
      have hlt : t < (for_range ptX (X.irowptr_ (i + 1))).length := by
        by_contra hc
        rw [List.getElem?_eq_none (by omega)] at ht
        cases ht
      refine (hj t _ ?_).symm
      rw [List.getElem?_append_left (by rw [List.length_map]; exact hlt), List.getElem?_map, ht]
      rfl)]
  simp only [Option.bind_eq_bind, Option.some_bind]
  rw [add_matrix_numeric_put_fold deep X M Y.jcolind_ _ _ _ _
    (fun p hp => cY p ((mem_for_range _ _ _).mp hp).2) (by omega)
    (fun t p ht => by
      refine (hj ((for_range ptX (X.irowptr_ (i + 1))).length + t) _ ?_).symm.trans ?_
      · rw [List.getElem?_append_right (by rw [List.length_map]; omega), List.length_map,
          Nat.add_sub_cancel_left, List.getElem?_map, ht]
        rfl
      · congr 1
        omega)]
  rw [map_val_merge_rest, addList_append, List.length_map, length_merge_rest, Nat.add_assoc]

/-- On a row with in-range column indices of a matrix `M` whose cells from
`itnnzM` on hold the column indices of the passes of the sorted merge,
`add_matrix_numeric` adds the terms of the passes to consecutive cells of
`valuesM`. -/
theorem add_matrix_numeric_row_eq (deep : Bool) (X M Y : hiopMatrixSparseCSR K) (alpha beta : K)
    (i : Nat) :
    ∀ (k ptX ptY it : Nat) (v : Nat → K),
      ptX ≤ X.irowptr_ (i + 1) → ptY ≤ Y.irowptr_ (i + 1) →
      (X.irowptr_ (i + 1) - ptX) + (Y.irowptr_ (i + 1) - ptY) ≤ k →
      (∀ p, p < X.irowptr_ (i + 1) → X.jcolind_ p < X.ncols_) →
      (∀ p, p < Y.irowptr_ (i + 1) → Y.jcolind_ p < X.ncols_) →
      it + (merge_path X.jcolind_ Y.jcolind_ (X.irowptr_ (i + 1)) (Y.irowptr_ (i + 1)) k ptX
        ptY).length ≤ M.nnz_ →
      (∀ t c, ((merge_path X.jcolind_ Y.jcolind_ (X.irowptr_ (i + 1)) (Y.irowptr_ (i + 1)) k
        ptX ptY).map (MergeStep.col X.jcolind_ Y.jcolind_))[t]? = some c →
          M.jcolind_ (it + t) = c) →
      add_matrix_numeric_row deep X M Y alpha beta i k ptX ptY (it, v) =
        some (it + (merge_path X.jcolind_ Y.jcolind_ (X.irowptr_ (i + 1))
                (Y.irowptr_ (i + 1)) k ptX ptY).length,
              addList v it ((merge_path X.jcolind_ Y.jcolind_ (X.irowptr_ (i + 1))
                (Y.irowptr_ (i + 1)) k ptX ptY).map
                  (MergeStep.val alpha beta X.values_ Y.values_))) := by
  intro k
  induction k with
  | zero =>
    intro ptX ptY it v hX hY hk cX cY hn hj
    unfold merge_path at hn hj ⊢
    unfold add_matrix_numeric_row
    exact add_matrix_numeric_rest_eq deep X M Y alpha beta i ptX ptY it v (Or.inl (by omega))
      cX cY hn hj
  | succ k ih =>
    intro ptX ptY it v hX hY hk cX cY hn hj
    unfold merge_path at hn hj ⊢
    unfold add_matrix_numeric_row
    by_cases hc : ptX < X.irowptr_ (i + 1) ∧ ptY < Y.irowptr_ (i + 1)
    · rw [if_pos hc] at hn hj ⊢
      rw [if_pos hc]
      simp only
      have hshift : ∀ (rest : List MergeStep) (s : MergeStep),
          (∀ t c, ((s :: rest).map (MergeStep.col X.jcolind_ Y.jcolind_))[t]? = some c →
            M.jcolind_ (it + t) = c) →
          ∀ t c, (rest.map (MergeStep.col X.jcolind_ Y.jcolind_))[t]? = some c →
            M.jcolind_ (it + 1 + t) = c := by
        intro rest s h t c ht
        have := h (t + 1) c (by rw [List.map_cons, List.getElem?_cons_succ]; exact ht)
        rw [← this]
        congr 1
        omega
      by_cases h1 : X.jcolind_ ptX < Y.jcolind_ ptY
      · rw [if_pos h1] at hn hj ⊢
        rw [List.length_cons] at hn
        have h0 : M.jcolind_ it = X.jcolind_ ptX :=
          hj 0 _ (by rw [List.map_cons, List.getElem?_cons_zero]; rfl)
        rw [if_pos ⟨cX ptX hc.1, cY ptY hc.2, by show it < M.nnz_; omega⟩, if_pos h1,
          if_pos (fun _ => h0.symm),
          ih _ _ _ _ (by omega) hY (by omega) cX cY (by omega) (hshift _ _ hj), List.length_cons]
        simp only [List.map_cons, addList]
        congr 2
        omega
      · rw [if_neg h1] at hn hj ⊢
        by_cases h2 : X.jcolind_ ptX = Y.jcolind_ ptY
        · rw [if_pos h2] at hn hj ⊢
          rw [List.length_cons] at hn
          have h0 : M.jcolind_ it = X.jcolind_ ptX :=
            hj 0 _ (by rw [List.map_cons, List.getElem?_cons_zero]; rfl)
          rw [if_pos ⟨cX ptX hc.1, cY ptY hc.2, by show it < M.nnz_; omega⟩, if_neg h1,
            if_pos h2, if_pos (fun _ => h0.symm),
            ih _ _ _ _ (by omega) (by omega) (by omega) cX cY (by omega) (hshift _ _ hj),
            List.length_cons]
          simp only [List.map_cons, addList]
          congr 2
          omega
        · rw [if_neg h2] at hn hj ⊢
          rw [List.length_cons] at hn
          have h0 : M.jcolind_ it = Y.jcolind_ ptY :=
            hj 0 _ (by rw [List.map_cons, List.getElem?_cons_zero]; rfl)
          rw [if_pos ⟨cX ptX hc.1, cY ptY hc.2, by show it < M.nnz_; omega⟩, if_neg h1,
            if_neg h2, if_pos (fun _ => h0.symm),
            ih _ _ _ _ hX (by omega) (by omega) cX cY (by omega) (hshift _ _ hj),
            List.length_cons]
          simp only [List.map_cons, addList]
          congr 2
          omega
    · rw [if_neg hc] at hn hj ⊢
      rw [if_neg hc]
      exact add_matrix_numeric_rest_eq deep X M Y alpha beta i ptX ptY it v (by omega) cX cY hn hj

end csr_add_numeric

/-! ## Compressed-row storage: the values of a sum -/

section csr_add_values

variable {K : Type} [LinearOrderedField K]

open hiopMatrixSparseCSR

theorem foldl_update_const {α : Type} (c : α) (l : List Nat) :
    ∀ (v : Nat → α) (p : Nat),
      (l.foldl (fun v i => Function.update v i c) v) p = if p ∈ l then c else v p := by
  induction l with
  | nil => intro v p; simp
  | cons a l ih =>
    intro v p
    rw [List.foldl_cons, ih]
    by_cases h1 : p ∈ l
    · rw [if_pos h1, if_pos (List.mem_cons_of_mem _ h1)]
    · rw [if_neg h1]
      by_cases h2 : p = a
      · subst h2
        rw [Function.update_same, if_pos (List.mem_cons_self _ _)]
      · rw [Function.update_noteq h2, if_neg (by
          rw [List.mem_cons]
          exact fun h => h.elim h2 h1)]

/-- Before the loop over the rows of `add_matrix_numeric` the cells of
`valuesM` hold `gamma` times what they held, whichever of the three ways
`gamma` selects. -/
theorem add_matrix_numeric_scaled_eq (gamma : K) (M : hiopMatrixSparseCSR K) (p : Nat)
    (hp : p < M.nnz_) : add_matrix_numeric_scaled gamma M p = gamma * M.values_ p := by
  unfold add_matrix_numeric_scaled
  by_cases h0 : gamma = 0
  · rw [if_pos h0, foldl_update_const, if_pos ((mem_for_range _ _ _).mpr ⟨Nat.zero_le _, hp⟩),
      h0, zero_mul]
  · rw [if_neg h0]
    by_cases h1 : gamma = 1
    · rw [if_neg (not_not.mpr h1), h1, one_mul]
    · rw [if_pos h1]
      unfold DSCAL
      exact if_pos hp

/-- The passes of the distinct rows are what `add_matrix_numeric` adds, row
after row from cell `0` on. -/
theorem add_matrix_numeric_rows (deep : Bool) (X M Y : hiopMatrixSparseCSR K) (alpha beta : K)
    (hX : X.WellFormed) (hY : Y.WellFormed) (hr : X.nrows_ = Y.nrows_)
    (hc : X.ncols_ = Y.ncols_) (hM : CarriesSum X Y M) (v0 : Nat → K) :
    ∀ n, n ≤ X.nrows_ →
      (List.range n).foldlM
        (fun (s : Nat × (Nat → K)) i =>
          if deep = true → M.irowptr_ i = s.1 then
            add_matrix_numeric_row deep X M Y alpha beta i (merge_bound X Y i) (X.irowptr_ i)
              (Y.irowptr_ i) s
          else none)
        (0, v0) =
      some (add_offset X Y n, addList v0 0 (concat_rows (add_vals X Y alpha beta) n)) := by
  intro n
  induction n with
  | zero => intro _; rfl
  | succ n ih =>
    intro hn
    obtain ⟨x1, _, x3⟩ := hX.row n (by omega)
    obtain ⟨y1, _, y3⟩ := hY.row n (by omega)
    have hoff := add_offset_mono X Y X.nrows_ (n + 1) hn
    have hsucc := add_offset_succ X Y n
    rw [List.range_succ, List.foldlM_append, ih (by omega)]
    simp only [Option.bind_eq_bind, Option.some_bind, List.foldlM_cons, List.foldlM_nil]
    rw [if_pos (fun _ => hM.rowptr n (by omega)),
      add_matrix_numeric_row_eq deep X M Y alpha beta n (merge_bound X Y n) _ _ _ _ x1 y1
        (by unfold merge_bound; omega) x3 (fun p hp => by rw [hc]; exact y3 p hp)
        (by
          rw [hM.nnz]
          unfold add_path at hsucc
          omega)
        (fun t c ht => hM.cells n t c (by omega) ht)]
    simp only [Option.bind_eq_bind, Option.some_bind, Option.pure_def]
    congr 1
    refine Prod.ext hsucc.symm ?_
    have hlen : (concat_rows (add_vals X Y alpha beta) n).length = add_offset X Y n := by
      unfold add_offset
      have : add_vals X Y alpha beta =
        fun i => (add_path X Y i).map (MergeStep.val alpha beta X.values_ Y.values_) := rfl
      rw [this, concat_rows_map, List.length_map]
    rw [concat_rows_succ, addList_append, hlen, Nat.zero_add]
    rfl

/-- The values of a list summed over the one element that passes a test. -/
theorem sum_filter_unique {α : Type} [AddMonoid α] (f : Nat → α) (a : Nat) (P : Nat → Bool) :
    ∀ (l : List Nat), l.Nodup → a ∈ l → (∀ q ∈ l, P q = true ↔ q = a) →
      ((l.filter P).map f).sum = f a := by
  intro l
  induction l with
  | nil => intro _ ha _; cases ha
  | cons x l ih =>
    intro hnd ha hP
    rw [List.nodup_cons] at hnd
    by_cases hx : x = a
    · subst hx
      have h1 : P x = true := (hP x (List.mem_cons_self _ _)).mpr rfl
      have h2 : l.filter P = [] := by
        rw [List.filter_eq_nil_iff]
        intro q hq hPq
        have := (hP q (List.mem_cons_of_mem _ hq)).mp hPq
        rw [this] at hq
        exact hnd.1 hq
      rw [List.filter_cons_of_pos h1, h2, List.map_cons, List.map_nil, List.sum_cons,
        List.sum_nil, add_zero]
    · have h1 : ¬ (P x = true) := fun h => hx ((hP x (List.mem_cons_self _ _)).mp h)
      rw [List.filter_cons_of_neg h1]
      rcases List.mem_cons.mp ha with e | e
      · exact absurd e.symm hx
      · exact ih hnd.2 e (fun q hq => hP q (List.mem_cons_of_mem _ hq))

/-- The entry of a row with strictly increasing column indices at the column
index of one of its positions is the value at this position. -/
theorem entry_of_position (X : hiopMatrixSparseCSR K) (sX : X.SortedRows) (i : Nat)
    (hi : i < X.nrows_) (p : Nat) (h1 : X.irowptr_ i ≤ p) (h2 : p < X.irowptr_ (i + 1)) :
    X.entry i (X.jcolind_ p) = X.values_ p := by
  unfold entry row_positions
  apply sum_filter_unique X.values_ p _ _ (nodup_for_range _ _)
    ((mem_for_range _ _ _).mpr ⟨h1, h2⟩)
  intro q hq
  rw [mem_for_range] at hq
  rw [decide_eq_true_iff]
  constructor
  · intro e
    rcases Nat.lt_trichotomy q p with c | c | c
    · have := sortedRows_lt sX i hi q p hq.1 c h2
      omega
    · exact c
    · have := sortedRows_lt sX i hi p q h1 c hq.2
      omega
  · intro e
    rw [e]

/-- The entry at a column index that no position of the row holds is zero. -/
theorem entry_of_absent (X : hiopMatrixSparseCSR K) (i c : Nat) (h : c ∉ X.row_cols i) :
    X.entry i c = 0 := by
  unfold entry
  have : (X.row_positions i).filter (fun p => decide (X.jcolind_ p = c)) = [] := by
    rw [List.filter_eq_nil_iff]
    intro q hq hc
    rw [decide_eq_true_iff] at hc
    apply h
    unfold row_cols
    rw [List.mem_map]
    exact ⟨q, hq, hc⟩
  rw [this]
  rfl

/-- What a pass of the sorted merge of row `i` adds is `alpha` times the entry
of `X` plus `beta` times the entry of `Y` at its column index. -/
theorem add_val_entry (X Y : hiopMatrixSparseCSR K) (alpha beta : K) (sX : X.SortedRows)
    (sY : Y.SortedRows) (hr : X.nrows_ = Y.nrows_) (i : Nat) (hi : i < X.nrows_)
    (s : MergeStep) (hs : s ∈ add_path X Y i) :
    s.val alpha beta X.values_ Y.values_ =
      alpha * X.entry i (s.col X.jcolind_ Y.jcolind_) +
        beta * Y.entry i (s.col X.jcolind_ Y.jcolind_) := by
  have hnd : ((add_path X Y i).map (MergeStep.col X.jcolind_ Y.jcolind_)).Nodup :=
    (add_cols_sorted X Y sX sY hr i hi).imp (fun h => Nat.ne_of_lt h)
  have hinj := List.inj_on_of_nodup_map hnd
  have hfst : ∀ pX, s.1 = some pX →
      X.entry i (s.col X.jcolind_ Y.jcolind_) = X.values_ pX := by
    intro pX e
    have hmem : pX ∈ (add_path X Y i).filterMap Prod.fst :=
      List.mem_filterMap.mpr ⟨s, hs, e⟩
    unfold add_path at hmem
    rw [merge_path_fst, mem_for_range] at hmem
    have hcol : s.col X.jcolind_ Y.jcolind_ = X.jcolind_ pX := by
      obtain ⟨o1, o2⟩ := s
      simp only at e
      subst e
      rfl
    rw [hcol]
    exact entry_of_position X sX i hi pX hmem.1 hmem.2
  have hsnd : ∀ pY, s.2 = some pY →
      Y.entry i (s.col X.jcolind_ Y.jcolind_) = Y.values_ pY := by
    intro pY e
    have hmem : pY ∈ (add_path X Y i).filterMap Prod.snd :=
      List.mem_filterMap.mpr ⟨s, hs, e⟩
    unfold add_path at hmem hs
    rw [merge_path_snd, mem_for_range] at hmem
    rw [merge_path_col_snd _ _ _ _ _ _ _ s hs pY e]
    exact entry_of_position Y sY i (by omega) pY hmem.1 hmem.2
  have hfst0 : s.1 = none → X.entry i (s.col X.jcolind_ Y.jcolind_) = 0 := by
    intro e
    apply entry_of_absent
    intro hc
    rw [mem_row_cols] at hc
    obtain ⟨q, q1, q2, e2⟩ := hc
    have hq : q ∈ (add_path X Y i).filterMap Prod.fst := by
      unfold add_path
      rw [merge_path_fst, mem_for_range]
      exact ⟨q1, q2⟩
    obtain ⟨s1, hs1, e1⟩ := List.mem_filterMap.mp hq
    have hcol1 : MergeStep.col X.jcolind_ Y.jcolind_ s1 = X.jcolind_ q := by
      obtain ⟨o1, o2⟩ := s1
      simp only at e1
      subst e1
      rfl
    have := hinj hs1 hs (by rw [hcol1, e2])
    rw [this, e] at e1
    cases e1
  have hsnd0 : s.2 = none → Y.entry i (s.col X.jcolind_ Y.jcolind_) = 0 := by
    intro e
    apply entry_of_absent
    intro hc
    rw [mem_row_cols] at hc
    obtain ⟨q, q1, q2, e2⟩ := hc
    have hq : q ∈ (add_path X Y i).filterMap Prod.snd := by
      unfold add_path
      rw [merge_path_snd, mem_for_range]
      exact ⟨q1, q2⟩
    obtain ⟨s1, hs1, e1⟩ := List.mem_filterMap.mp hq
    have hcol1 : MergeStep.col X.jcolind_ Y.jcolind_ s1 = Y.jcolind_ q := by
      unfold add_path at hs1
      exact merge_path_col_snd _ _ _ _ _ _ _ s1 hs1 q e1
    have := hinj hs1 hs (by rw [hcol1, e2])
    rw [this, e] at e1
    cases e1
  have hne : s ≠ (none, none) := by
    unfold add_path at hs
    exact (merge_path_step _ _ _ _ _ _ _ s hs).1
  obtain ⟨o1, o2⟩ := s
  cases o1 with
  | none =>
    cases o2 with
    | none => exact absurd rfl hne
    | some pY =>
      rw [hfst0 rfl, hsnd pY rfl, mul_zero, zero_add]
      rfl
  | some pX =>
    cases o2 with
    | none =>
      rw [hfst pX rfl, hsnd0 rfl, mul_zero, add_zero]
      rfl
    | some pY =>
      rw [hfst pX rfl, hsnd pY rfl]
      rfl

end csr_add_values

/-! ## Compressed-row storage: the claim on the values of a sum -/

section claims_csr_add_numeric

variable {K : Type} [LinearOrderedField K]

open hiopMatrixSparseCSR

/-- A matrix with the row pointers and column indices that
`add_matrix_symbolic` left in what `add_matrix_alloc` returned carries the
pattern of `X + Y`, whatever its values. -/
theorem carriesSum_of_symbolic (X Y : hiopMatrixSparseCSR K) (fresh : FreshArrays K)
    (M0 : Constructed K) (Ms : hiopMatrixSparseCSR K) (v : Nat → K) (hX : X.WellFormed)
    (hY : Y.WellFormed) (hr : X.nrows_ = Y.nrows_) (hc : X.ncols_ = Y.ncols_)
    (ha : X.add_matrix_alloc Y fresh = some M0)
    (hs : Constructed.add_matrix_symbolic X M0 Y = some Ms) :
    CarriesSum X Y { Ms with values_ := v } := by
  obtain ⟨M, rfl, hs1⟩ := constructed_add_symbolic X Y M0 Ms hs
  obtain ⟨p1, p2, p3⟩ := (add_matrix_alloc_cases X Y fresh hX hY hr hc).2.2 M ha
  obtain ⟨M1, a1, a2, a3, a4, _, _⟩ := add_matrix_alloc_eq X Y fresh hX hY hr hc p1 p2 p3
  rw [ha] at a1
  cases a1
  obtain ⟨M2, b1, b2, _⟩ := add_matrix_symbolic_carries X M Y hX hY hr hc a2 a3 a4
  rw [hs1] at b1
  cases b1
  exact ⟨b2.nrows, b2.ncols, b2.nnz, b2.rowptr, b2.cells⟩

/-- What `add_matrix_numeric` leaves in a matrix that carries the pattern of
`X + Y`. -/
theorem add_matrix_numeric_eq (deep : Bool) (X M Y : hiopMatrixSparseCSR K)
    (gamma alpha beta : K) (hX : X.WellFormed) (hY : Y.WellFormed) (hr : X.nrows_ = Y.nrows_)
    (hc : X.ncols_ = Y.ncols_) (hM : CarriesSum X Y M) :
    X.add_matrix_numeric deep gamma M alpha Y beta =
      some { M with
        values_ := addList (add_matrix_numeric_scaled gamma M) 0
          (concat_rows (add_vals X Y alpha beta) X.nrows_) } := by
  unfold add_matrix_numeric
  rw [if_pos ⟨hr, hc⟩,
    add_matrix_numeric_rows deep X M Y alpha beta hX hY hr hc hM _ X.nrows_ (le_refl _)]
  simp only [Option.bind_eq_bind, Option.some_bind]
  rw [if_pos hM.nnz.symm]

/-- C31. CSR addition, numeric.  For matrices `X` and `Y` of equal dimensions
with valid row pointers, in-range column indices and strictly increasing
column indices in every row, and `M` with the row pointers and column indices
that `add_matrix_symbolic(M, Y)` on `X` left in the matrix from
`add_matrix_alloc`, and with any values: `add_matrix_numeric(gamma, M, alpha,
Y, beta)` passes all its assertions, with `HIOP_DEEP_CHECKING` defined or not,
the last of which says that `itnnzM`, the number of cells updated, is
`M.numberOfNonzeros()`; it changes the values only, and every stored entry
`(i, j)` of `M` ends as `gamma * M(i,j) + alpha * X(i,j) + beta * Y(i,j)`,
where `X(i,j)` and `Y(i,j)` are `0` if not stored; this for every `gamma`,
`0` and `1` included.  Every cell below `nnz_` is the cell of a stored entry,
and the cells from `nnz_` on are left alone. -/
theorem add_numeric_values (deep : Bool) (X Y : hiopMatrixSparseCSR K) (fresh : FreshArrays K)
    (M0 : Constructed K) (Ms : hiopMatrixSparseCSR K) (v : Nat → K) (gamma alpha beta : K)
    (hX : X.WellFormed) (hY : Y.WellFormed) (sX : X.SortedRows) (sY : Y.SortedRows)
    (hr : X.nrows_ = Y.nrows_) (hc : X.ncols_ = Y.ncols_)
    (ha : X.add_matrix_alloc Y fresh = some M0)
    (hs : Constructed.add_matrix_symbolic X M0 Y = some Ms) :
    ∃ M1, X.add_matrix_numeric deep gamma { Ms with values_ := v } alpha Y beta = some M1 ∧
      M1.nrows_ = Ms.nrows_ ∧ M1.ncols_ = Ms.ncols_ ∧ M1.nnz_ = Ms.nnz_ ∧
      M1.irowptr_ = Ms.irowptr_ ∧ M1.jcolind_ = Ms.jcolind_ ∧
      (∀ i, i < X.nrows_ → ∀ p ∈ Ms.row_positions i,
        M1.values_ p =
          gamma * v p + alpha * X.entry i (Ms.jcolind_ p) + beta * Y.entry i (Ms.jcolind_ p)) ∧
      (∀ p, Ms.nnz_ ≤ p → M1.values_ p = v p) ∧
      (∀ p, p < Ms.nnz_ → ∃ i, i < X.nrows_ ∧ p ∈ Ms.row_positions i) ∧
      add_offset X Y X.nrows_ = Ms.nnz_ := by
  have hM := carriesSum_of_symbolic X Y fresh M0 Ms v hX hY hr hc ha hs
  have hlen : (concat_rows (add_vals X Y alpha beta) X.nrows_).length = add_offset X Y X.nrows_ := by
    unfold add_offset
    have : add_vals X Y alpha beta =
      fun i => (add_path X Y i).map (MergeStep.val alpha beta X.values_ Y.values_) := rfl
    rw [this, concat_rows_map, List.length_map]
  refine ⟨_, add_matrix_numeric_eq deep X _ Y gamma alpha beta hX hY hr hc hM, rfl, rfl, rfl, rfl,
    rfl, ?_, ?_, ?_, hM.nnz.symm⟩
  · intro i hi p hp
    unfold row_positions at hp
    rw [mem_for_range] at hp
    have e1 : Ms.irowptr_ i = add_offset X Y i := hM.rowptr i (by omega)
    have e2 : Ms.irowptr_ (i + 1) = add_offset X Y (i + 1) := hM.rowptr (i + 1) (by omega)
    rw [e1, e2, add_offset_succ] at hp
    obtain ⟨t, rfl⟩ : ∃ t, p = add_offset X Y i + t := ⟨p - add_offset X Y i, by omega⟩
    have ht : t < (add_path X Y i).length := by omega
    have hval : (concat_rows (add_vals X Y alpha beta) X.nrows_)[add_offset X Y i + t]? =
        some ((add_path X Y i)[t].val alpha beta X.values_ Y.values_) := by
      have h1 := getElem?_concat_rows (add_vals X Y alpha beta) X.nrows_ i t hi
        (by unfold add_vals; rw [List.length_map]; exact ht)
      have h2 : (concat_rows (add_vals X Y alpha beta) i).length = add_offset X Y i := by
        unfold add_offset
        have : add_vals X Y alpha beta =
          fun i => (add_path X Y i).map (MergeStep.val alpha beta X.values_ Y.values_) := rfl
        rw [this, concat_rows_map, List.length_map]
      rw [h2] at h1
      rw [h1]
      unfold add_vals
      rw [List.getElem?_map, List.getElem?_eq_getElem ht]
      rfl
    have hcol : Ms.jcolind_ (add_offset X Y i + t) =
        (add_path X Y i)[t].col X.jcolind_ Y.jcolind_ := by
      apply hM.cells i t _ hi
      unfold add_cols
      rw [List.getElem?_map, List.getElem?_eq_getElem ht]
      rfl
    have hadd := addList_getElem _ (add_matrix_numeric_scaled gamma { Ms with values_ := v }) 0
      (add_offset X Y i + t) _ hval
    rw [Nat.zero_add] at hadd
    show addList (add_matrix_numeric_scaled gamma { Ms with values_ := v }) 0
      (concat_rows (add_vals X Y alpha beta) X.nrows_) (add_offset X Y i + t) = _
    rw [hadd, add_matrix_numeric_scaled_eq gamma _ _ (by
        show add_offset X Y i + t < Ms.nnz_
        have h3 : Ms.nnz_ = add_offset X Y X.nrows_ := hM.nnz
        have h4 := add_offset_mono X Y X.nrows_ (i + 1) (by omega)
        rw [add_offset_succ] at h4
        omega),
      hcol, add_val_entry X Y alpha beta sX sY hr i hi _ (List.getElem_mem ht), add_assoc]
  · intro p hp
    show addList (add_matrix_numeric_scaled gamma { Ms with values_ := v }) 0
      (concat_rows (add_vals X Y alpha beta) X.nrows_) p = _
    have h3 : Ms.nnz_ = add_offset X Y X.nrows_ := hM.nnz
    rw [addList_outside _ _ _ _ (Or.inr (by rw [hlen]; omega))]
    unfold add_matrix_numeric_scaled
    by_cases h0 : gamma = 0
    · rw [if_pos h0, foldl_update_const, if_neg (by
        rw [mem_for_range]
        show ¬ (0 ≤ p ∧ p < Ms.nnz_)
        omega)]
    · rw [if_neg h0]
      by_cases h1 : gamma = 1
      · rw [if_neg (not_not.mpr h1)]
      · rw [if_pos h1]
        unfold DSCAL
        exact if_neg (by show ¬ p < Ms.nnz_; omega)
  · intro p hp
    have h3 : Ms.nnz_ = add_offset X Y X.nrows_ := hM.nnz
    rw [h3] at hp
    obtain ⟨r, t, r1, r2, r3⟩ := concat_rows_locate (add_path X Y) X.nrows_ p hp
    refine ⟨r, r1, ?_⟩
    unfold row_positions
    rw [mem_for_range]
    have e1 : Ms.irowptr_ r = add_offset X Y r := hM.rowptr r (by omega)
    have e2 : Ms.irowptr_ (r + 1) = add_offset X Y (r + 1) := hM.rowptr (r + 1) (by omega)
    rw [e1, e2, add_offset_succ]
    unfold add_offset
    omega

end claims_csr_add_numeric

section claims_csr_add_numeric_witness

open hiopMatrixSparseCSR

/-- Instance of `add_numeric_values`: the 2 x 3 matrices `X` with the rows
`(1, 0, 2)`, `(0, 3, 0)` and `Y` with the rows `(0, 10, 20)`, `(0, 0, 0)`, and
`M` with the pattern of the sum and the value `1` in every cell.  With
`HIOP_DEEP_CHECKING` defined, `add_matrix_numeric(2, M, 3, Y, 1)` leaves
`2 M + 3 X + Y`: `5, 12, 28` in row 0 and `11` in row 1. -/
theorem add_numeric_values_witness :
    ex_csr_X.WellFormed ∧ ex_csr_Y.WellFormed ∧ ex_csr_X.SortedRows ∧ ex_csr_Y.SortedRows ∧
    ∃ M0 Ms M1, ex_csr_X.add_matrix_alloc ex_csr_Y ex_fresh = some M0 ∧
      Constructed.add_matrix_symbolic ex_csr_X M0 ex_csr_Y = some Ms ∧
      ex_csr_X.add_matrix_numeric true 2 { Ms with values_ := fun _ => 1 } 3 ex_csr_Y 1 =
        some M1 ∧
      Ms.row_positions 0 = [0, 1, 2] ∧ Ms.row_positions 1 = [3] ∧
      M1.values_ 0 = 5 ∧ M1.values_ 1 = 12 ∧ M1.values_ 2 = 28 ∧ M1.values_ 3 = 11 := by
  obtain ⟨M0, a1, a2, a3, a4, _, _⟩ := add_matrix_alloc_eq ex_csr_X ex_csr_Y ex_fresh
    ex_csr_X_wellFormed ex_csr_Y_wellFormed rfl rfl (by decide) (by decide)
    (by rw [add_offset_sum ex_csr_X ex_csr_Y ex_csr_X_sorted ex_csr_Y_sorted rfl _ (le_refl _)]
        decide)
  obtain ⟨Ms, b1, b2, _⟩ := add_matrix_symbolic_carries ex_csr_X M0 ex_csr_Y ex_csr_X_wellFormed
    ex_csr_Y_wellFormed rfl rfl a2 a3 a4
  obtain ⟨M1, c1, _, _, _, _, _, c7, _⟩ := add_numeric_values true ex_csr_X ex_csr_Y ex_fresh
    (.allocated M0) Ms (fun _ => 1) 2 3 1 ex_csr_X_wellFormed ex_csr_Y_wellFormed ex_csr_X_sorted ex_csr_Y_sorted
    rfl rfl a1 b1
  have r0 : Ms.row_positions 0 = [0, 1, 2] := by
    unfold row_positions
    rw [b2.rowptr 0 (by decide), b2.rowptr 1 (by decide)]
    decide
  have r1 : Ms.row_positions 1 = [3] := by
    unfold row_positions
    rw [b2.rowptr 1 (by decide), b2.rowptr 2 (by decide)]
    decide
  have j0 : Ms.jcolind_ 0 = 0 := b2.cells 0 0 0 (by decide) (by decide)
  have j1 : Ms.jcolind_ 1 = 1 := b2.cells 0 1 1 (by decide) (by decide)
  have j2 : Ms.jcolind_ 2 = 2 := b2.cells 0 2 2 (by decide) (by decide)
  have j3 : Ms.jcolind_ 3 = 1 := b2.cells 1 0 1 (by decide) (by decide)
  have v0 := c7 0 (by decide) 0 (by rw [r0]; decide)
  have v1 := c7 0 (by decide) 1 (by rw [r0]; decide)
  have v2 := c7 0 (by decide) 2 (by rw [r0]; decide)
  have v3 := c7 1 (by decide) 3 (by rw [r1]; decide)
  rw [j0] at v0
  rw [j1] at v1
  rw [j2] at v2
  rw [j3] at v3
  have e00 : ex_csr_X.entry 0 0 = 1 := by
    simp [entry, row_positions, for_range, ex_csr_X, List.range', List.filter]
  have e01 : ex_csr_X.entry 0 1 = 0 := by
    simp [entry, row_positions, for_range, ex_csr_X, List.range', List.filter]
  have e02 : ex_csr_X.entry 0 2 = 2 := by
    simp [entry, row_positions, for_range, ex_csr_X, List.range', List.filter]
  have e11 : ex_csr_X.entry 1 1 = 3 := by
    simp [entry, row_positions, for_range, ex_csr_X, List.range', List.filter]
  have f00 : ex_csr_Y.entry 0 0 = 0 := by
    simp [entry, row_positions, for_range, ex_csr_Y, List.range', List.filter]
  have f01 : ex_csr_Y.entry 0 1 = 10 := by
    simp [entry, row_positions, for_range, ex_csr_Y, List.range', List.filter]
  have f02 : ex_csr_Y.entry 0 2 = 20 := by
    simp [entry, row_positions, for_range, ex_csr_Y, List.range', List.filter]
  have f11 : ex_csr_Y.entry 1 1 = 0 := by
    simp [entry, row_positions, for_range, ex_csr_Y, List.range', List.filter]
  rw [e00, f00] at v0
  rw [e01, f01] at v1
  rw [e02, f02] at v2
  rw [e11, f11] at v3
  refine ⟨ex_csr_X_wellFormed, ex_csr_Y_wellFormed, ex_csr_X_sorted, ex_csr_Y_sorted,
    .allocated M0, Ms, M1, a1, b1, c1, r0, r1, ?_, ?_, ?_, ?_⟩
  · rw [v0]; norm_num
  · rw [v1]; norm_num
  · rw [v2]; norm_num
  · rw [v3]; norm_num

end claims_csr_add_numeric_witness

/-! ## Compressed-row storage: the loops of the product -/

section csr_times_basic

variable {K : Type} [LinearOrderedField K]

open hiopMatrixSparseCSR

/-- A loop nest that passes its assertion on every outer element is a loop
over the inner elements put one after the other. -/
theorem foldlM_bind_option {α β σ : Type} (f : α → List β) (g : σ → β → Option σ)
    (ok : α → Prop) [DecidablePred ok] :
    ∀ (l : List α) (s : σ), (∀ a ∈ l, ok a) →
      l.foldlM (fun s a => if ok a then (f a).foldlM g s else none) s =
        (l.flatMap f).foldlM g s := by
  intro l
  induction l with
  | nil => intro s _; rfl
  | cons a l ih =>
    intro s h
    rw [List.foldlM_cons, List.flatMap_cons, List.foldlM_append,
      if_pos (h a (List.mem_cons_self _ _))]
    congr 1
    funext s1
    exact ih s1 (fun b hb => h b (List.mem_cons_of_mem _ hb))

theorem foldlM_map_option {β γ σ : Type} (h : β → γ) (g : σ → γ → Option σ) :
    ∀ (l : List β) (s : σ), l.foldlM (fun s b => g s (h b)) s = (l.map h).foldlM g s := by
  intro l
  induction l with
  | nil => intro s; rfl
  | cons b l ih =>
    intro s
    rw [List.foldlM_cons, List.map_cons, List.foldlM_cons]
    congr 1
    funext s1
    exact ih s1

theorem new_cols_cons_pos (flag : Nat → Nat) (a : Nat) (l : List Nat) (h : flag a = 0) :
    new_cols flag (a :: l) = a :: new_cols (Function.update flag a 1) l := by
  show (if flag a = 0 then a :: new_cols (Function.update flag a 1) l else new_cols flag l) = _
  rw [if_pos h]

theorem new_cols_cons_neg (flag : Nat → Nat) (a : Nat) (l : List Nat) (h : ¬ flag a = 0) :
    new_cols flag (a :: l) = new_cols flag l := by
  show (if flag a = 0 then a :: new_cols (Function.update flag a 1) l else new_cols flag l) = _
  rw [if_neg h]

/-- A column index is new exactly if it is met and its flag is `0`. -/
theorem mem_new_cols (l : List Nat) :
    ∀ (flag : Nat → Nat) (j : Nat), j ∈ new_cols flag l ↔ j ∈ l ∧ flag j = 0 := by
  induction l with
  | nil => intro flag j; simp [new_cols]
  | cons a l ih =>
    intro flag j
    unfold new_cols
    by_cases h : flag a = 0
    · rw [if_pos h, List.mem_cons, ih, List.mem_cons]
      constructor
      · rintro (e | ⟨e1, e2⟩)
        · rw [e]; exact ⟨Or.inl rfl, h⟩
        · have hne : j ≠ a := by
            intro e
            rw [e, Function.update_same] at e2
            cases e2
          rw [Function.update_noteq hne] at e2
          exact ⟨Or.inr e1, e2⟩
      · rintro ⟨e1 | e1, e2⟩
        · exact Or.inl e1
        · by_cases hne : j = a
          · exact Or.inl hne
          · exact Or.inr ⟨e1, by rw [Function.update_noteq hne]; exact e2⟩
    · rw [if_neg h, ih, List.mem_cons]
      constructor
      · rintro ⟨e1, e2⟩
        exact ⟨Or.inr e1, e2⟩
      · rintro ⟨e1 | e1, e2⟩
        · rw [e1] at e2
          exact absurd e2 h
        · exact ⟨e1, e2⟩

/-- No column index is new twice. -/
theorem nodup_new_cols (l : List Nat) : ∀ (flag : Nat → Nat), (new_cols flag l).Nodup := by
  induction l with
  | nil => intro flag; exact List.nodup_nil
  | cons a l ih =>
    intro flag
    unfold new_cols
    by_cases h : flag a = 0
    · rw [if_pos h, List.nodup_cons]
      refine ⟨?_, ih _⟩
      rw [mem_new_cols]
      rintro ⟨_, e⟩
      rw [Function.update_same] at e
      cases e
    · rw [if_neg h]
      exact ih flag

/-- The innermost loop of `times_mat_alloc` over a list of in-range column
indices counts the new ones. -/
theorem times_mat_alloc_visit_fold (n : Nat) (l : List Nat) :
    ∀ (flag : Nat → Nat) (nnzM : Nat), (∀ j ∈ l, j < n) →
      ∃ flag1, l.foldlM (times_mat_alloc_visit n) (flag, nnzM) =
        some (flag1, nnzM + (new_cols flag l).length) := by
  induction l with
  | nil => intro flag nnzM _; exact ⟨flag, rfl⟩
  | cons a l ih =>
    intro flag nnzM h
    rw [List.foldlM_cons]
    by_cases h0 : flag a = 0
    · have hstep : times_mat_alloc_visit n (flag, nnzM) a =
          some (Function.update flag a 1, nnzM + 1) := by
        unfold times_mat_alloc_visit
        rw [if_pos (h a (List.mem_cons_self _ _)), if_pos h0]
      obtain ⟨f1, e⟩ := ih (Function.update flag a 1) (nnzM + 1)
        (fun j hj => h j (List.mem_cons_of_mem _ hj))
      refine ⟨f1, ?_⟩
      rw [hstep]
      simp only [Option.bind_eq_bind, Option.some_bind]
      rw [e, new_cols_cons_pos flag a l h0, List.length_cons]
      congr 2
      omega
    · have hstep : times_mat_alloc_visit n (flag, nnzM) a = some (flag, nnzM) := by
        unfold times_mat_alloc_visit
        rw [if_pos (h a (List.mem_cons_self _ _)), if_neg h0]
      obtain ⟨f1, e⟩ := ih flag nnzM (fun j hj => h j (List.mem_cons_of_mem _ hj))
      refine ⟨f1, ?_⟩
      rw [hstep]
      simp only [Option.bind_eq_bind, Option.some_bind]
      rw [e, new_cols_cons_neg flag a l h0]

/-- The innermost loop of `times_mat_symbolic` over a list of in-range column
indices writes the new ones to consecutive cells of `jcolindM`, given room for
them. -/
theorem times_mat_symbolic_visit_fold (n nnz : Nat) (l : List Nat) :
    ∀ (flag : Nat → Nat) (nnzM : Nat) (jM : Nat → Nat), (∀ j ∈ l, j < n) →
      nnzM + (new_cols flag l).length ≤ nnz →
      ∃ flag1, l.foldlM (times_mat_symbolic_visit n nnz) (flag, nnzM, jM) =
        some (flag1, nnzM + (new_cols flag l).length, writeList jM nnzM (new_cols flag l)) := by
  induction l with
  | nil => intro flag nnzM jM _ _; exact ⟨flag, rfl⟩
  | cons a l ih =>
    intro flag nnzM jM h hn
    rw [List.foldlM_cons]
    by_cases h0 : flag a = 0
    · have hnew : new_cols flag (a :: l) = a :: new_cols (Function.update flag a 1) l := by
        show (if flag a = 0 then a :: new_cols (Function.update flag a 1) l
          else new_cols flag l) = _
        rw [if_pos h0]
      rw [hnew, List.length_cons] at hn
      have hstep : times_mat_symbolic_visit n nnz (flag, nnzM, jM) a =
          some (Function.update flag a 1, nnzM + 1, Function.update jM nnzM a) := by
        unfold times_mat_symbolic_visit
        rw [if_pos (h a (List.mem_cons_self _ _)), if_pos h0, if_pos (by show nnzM < nnz; omega)]
      obtain ⟨f1, e⟩ := ih (Function.update flag a 1) (nnzM + 1) (Function.update jM nnzM a)
        (fun j hj => h j (List.mem_cons_of_mem _ hj)) (by omega)
      refine ⟨f1, ?_⟩
      rw [hstep]
      simp only [Option.bind_eq_bind, Option.some_bind]
      rw [e, hnew, List.length_cons]
      simp only [writeList]
      congr 3
      omega
    · have hnew : new_cols flag (a :: l) = new_cols flag l := by
        show (if flag a = 0 then a :: new_cols (Function.update flag a 1) l
          else new_cols flag l) = _
        rw [if_neg h0]
      rw [hnew] at hn
      have hstep : times_mat_symbolic_visit n nnz (flag, nnzM, jM) a = some (flag, nnzM, jM) := by
        unfold times_mat_symbolic_visit
        rw [if_pos (h a (List.mem_cons_self _ _)), if_neg h0]
      obtain ⟨f1, e⟩ := ih flag nnzM jM (fun j hj => h j (List.mem_cons_of_mem _ hj)) hn
      refine ⟨f1, ?_⟩
      rw [hstep]
      simp only [Option.bind_eq_bind, Option.some_bind]
      rw [e, hnew]

end csr_times_basic

/-! ## Compressed-row storage: rows written one after the other -/

section csr_pattern

variable {K : Type} [LinearOrderedField K]

open hiopMatrixSparseCSR

/-- A loop over the rows that sets the row pointer of each row to the count
so far and writes the column indices of the row to the cells that follow,
given room for them: the row pointers are the lengths of the rows before, and
the rows are written one after the other from cell `0` on. -/
theorem pattern_rows_fold (row : Nat → List Nat)
    (rowfn : Nat → Nat × (Nat → Nat) → Option (Nat × (Nat → Nat))) (N cap : Nat)
    (hrow : ∀ i it jM, i < N → it + (row i).length ≤ cap →
      rowfn i (it, jM) = some (it + (row i).length, writeList jM it (row i)))
    (hcap : (concat_rows row N).length ≤ cap) (rp jM : Nat → Nat) :
    ∀ n, n ≤ N →
      (List.range n).foldlM
        (fun (s : (Nat → Nat) × Nat × (Nat → Nat)) i =>
          (rowfn i s.2).map (fun r => (Function.update s.1 i s.2.1, r)))
        (rp, 0, jM) =
      some (fun i => if i < n then (concat_rows row i).length else rp i,
        (concat_rows row n).length, writeList jM 0 (concat_rows row n)) := by
  intro n
  induction n with
  | zero => intro _; rfl
  | succ n ih =>
    intro hn
    have hoff := length_concat_rows_mono row N (n + 1) hn
    rw [length_concat_rows_succ] at hoff
    rw [List.range_succ, List.foldlM_append, ih (by omega)]
    simp only [Option.bind_eq_bind, Option.some_bind, List.foldlM_cons, List.foldlM_nil]
    rw [hrow n _ _ (by omega) (by omega)]
    simp only [Option.map_some', Option.bind_eq_bind, Option.some_bind, Option.pure_def]
    congr 1
    refine Prod.ext ?_ (Prod.ext (length_concat_rows_succ row n).symm ?_)
    · funext i
      simp only
      by_cases h1 : i = n
      · subst h1
        rw [Function.update_same, if_pos (by omega)]
      · rw [Function.update_noteq h1]
        by_cases h2 : i < n
        · rw [if_pos h2, if_pos (by omega)]
        · rw [if_neg h2, if_neg (by omega)]
    · rw [concat_rows_succ, writeList_append, Nat.zero_add]

/-- The matrix such a loop leaves carries the rows. -/
theorem carriesPattern_of_fold (row : Nat → List Nat) (N : Nat) (M : hiopMatrixSparseCSR K)
    (rp jM : Nat → Nat) (h1 : M.nrows_ = N) (h2 : M.nnz_ = (concat_rows row N).length)
    (h3 : M.irowptr_ = Function.update
      (fun i => if i < N then (concat_rows row i).length else rp i) N (concat_rows row N).length)
    (h4 : M.jcolind_ = writeList jM 0 (concat_rows row N)) :
    CarriesPattern row N M := by
  refine ⟨h1, h2, ?_, ?_⟩
  · intro i hi
    rw [h3]
    rcases Nat.eq_or_lt_of_le hi with e | e
    · subst e
      rw [Function.update_same]
    · rw [Function.update_noteq (by omega)]
      exact if_pos e
  · intro r t c hr hcell
    have ht : t < (row r).length := by
      by_contra hn
      rw [List.getElem?_eq_none (by omega)] at hcell
      cases hcell
    have hg := getElem?_concat_rows row N r t hr ht
    rw [hcell] at hg
    have := writeList_getElem _ jM 0 _ c hg
    rw [Nat.zero_add] at this
    rw [h4]
    exact this

/-- The rows of a matrix that carries a pattern. -/
theorem carriesPattern_row_cols {row : Nat → List Nat} {N : Nat} {M : hiopMatrixSparseCSR K}
    (h : CarriesPattern row N M) (i : Nat) (hi : i < N) : M.row_cols i = row i := by
  unfold row_cols row_positions
  rw [h.rowptr i (by omega), h.rowptr (i + 1) (by omega)]
  apply List.ext_getElem?
  intro t
  by_cases ht : t < (row i).length
  · rw [List.getElem?_map, getElem?_for_range _ _ t
      (by rw [length_concat_rows_succ]; omega), Option.map_some',
      List.getElem?_eq_getElem ht]
    congr 1
    exact h.cells i t _ hi (List.getElem?_eq_getElem ht)
  · rw [List.getElem?_eq_none (by
        rw [List.length_map, length_for_range, length_concat_rows_succ]; omega),
      List.getElem?_eq_none (by omega)]

/-- The positions of a row of a matrix that carries a pattern. -/
theorem carriesPattern_row_positions {row : Nat → List Nat} {N : Nat}
    {M : hiopMatrixSparseCSR K} (h : CarriesPattern row N M) (i : Nat) (hi : i < N) :
    M.row_positions i =
      for_range (concat_rows row i).length ((concat_rows row i).length + (row i).length) := by
  unfold row_positions
  rw [h.rowptr i (by omega), h.rowptr (i + 1) (by omega), length_concat_rows_succ]

/-- A matrix that carries a pattern of in-range column indices has valid row
pointers and in-range column indices. -/
theorem carriesPattern_wellFormed {row : Nat → List Nat} {N : Nat} {M : hiopMatrixSparseCSR K}
    (h : CarriesPattern row N M) (hc : ∀ r, r < N → ∀ c ∈ row r, c < M.ncols_) :
    M.WellFormed := by
  refine ⟨?_, ?_, ?_, ?_⟩
  · rw [h.rowptr 0 (Nat.zero_le _)]
    rfl
  · intro i hi
    rw [h.nrows] at hi
    rw [h.rowptr i (by omega), h.rowptr (i + 1) (by omega)]
    exact length_concat_rows_mono row _ _ (by omega)
  · rw [h.nrows, h.rowptr _ (le_refl _), h.nnz]
  · intro p hp
    rw [h.nnz] at hp
    obtain ⟨r, t, r1, r2, r3⟩ := concat_rows_locate row N p hp
    rw [r3, h.cells r t _ r1 (List.getElem?_eq_getElem r2)]
    exact hc r r1 _ (List.getElem_mem r2)

end csr_pattern

/-! ## Product of two matrices: the number of nonzeros and the pattern -/

section csr_times_rows

variable {K : Type} [LinearOrderedField K]

open hiopMatrixSparseCSR

/-- The column indices of a row of `X` are rows of `Y`. -/
theorem times_row_lt (X : hiopMatrixSparseCSR K) (hX : X.WellFormed) (i : Nat)
    (hi : i < X.nrows_) : ∀ px ∈ X.row_positions i, X.jcolind_ px < X.ncols_ := by
  intro px hpx
  unfold row_positions at hpx
  rw [mem_for_range] at hpx
  exact (hX.row i hi).2.2 px hpx.2

/-- The column indices met in row `i` are columns of `Y`. -/
theorem times_visits_lt (X Y : hiopMatrixSparseCSR K) (hX : X.WellFormed) (hY : Y.WellFormed)
    (hK : Y.nrows_ = X.ncols_) (i : Nat) (hi : i < X.nrows_) :
    ∀ j ∈ X.times_visits Y i, j < Y.ncols_ := by
  intro j hj
  unfold times_visits at hj
  rw [List.mem_flatMap] at hj
  obtain ⟨px, hpx, hj⟩ := hj
  have hk := times_row_lt X hX i hi px hpx
  rw [mem_row_cols] at hj
  obtain ⟨p, _, p2, rfl⟩ := hj
  exact (hY.row _ (by omega)).2.2 p p2

/-- The column indices of row `i` of the product are those `j` for which some
`k` has `X(i,k)` and `Y(k,j)` both stored. -/
theorem mem_times_visits (X Y : hiopMatrixSparseCSR K) (i j : Nat) :
    j ∈ X.times_visits Y i ↔ ∃ k, k ∈ X.row_cols i ∧ j ∈ Y.row_cols k := by
  unfold times_visits
  rw [List.mem_flatMap]
  constructor
  · rintro ⟨px, h1, h2⟩
    exact ⟨X.jcolind_ px, List.mem_map_of_mem _ h1, h2⟩
  · rintro ⟨k, h1, h2⟩
    unfold row_cols at h1
    rw [List.mem_map] at h1
    obtain ⟨px, h3, rfl⟩ := h1
    exact ⟨px, h3, h2⟩

theorem mem_times_cols (X Y : hiopMatrixSparseCSR K) (i j : Nat) :
    j ∈ X.times_cols Y i ↔ ∃ k, k ∈ X.row_cols i ∧ j ∈ Y.row_cols k := by
  unfold times_cols
  rw [mem_new_cols, mem_times_visits]
  exact ⟨fun h => h.1, fun h => ⟨h, rfl⟩⟩

theorem nodup_times_cols (X Y : hiopMatrixSparseCSR K) (i : Nat) :
    (X.times_cols Y i).Nodup :=
  nodup_new_cols _ _

/-- Row `i` of `times_mat_alloc` counts the column indices of the row of the
product. -/
theorem times_mat_alloc_row_eq (X Y : hiopMatrixSparseCSR K) (hX : X.WellFormed)
    (hY : Y.WellFormed) (hK : Y.nrows_ = X.ncols_) (i : Nat) (hi : i < X.nrows_) (nnzM : Nat) :
    times_mat_alloc_row X Y i nnzM = some (nnzM + (X.times_cols Y i).length) := by
  obtain ⟨flag1, h⟩ := times_mat_alloc_visit_fold Y.ncols_ (X.times_visits Y i) (fun _ => 0)
    nnzM (times_visits_lt X Y hX hY hK i hi)
  have hb := foldlM_bind_option (fun px => Y.row_cols (X.jcolind_ px))
    (times_mat_alloc_visit Y.ncols_) (fun px => X.jcolind_ px < X.ncols_)
    (X.row_positions i) (fun _ => 0, nnzM) (times_row_lt X hX i hi)
  have hgoal : times_mat_alloc_row X Y i nnzM =
      ((X.row_positions i).foldlM
        (fun s a => if X.jcolind_ a < X.ncols_ then
          (Y.row_cols (X.jcolind_ a)).foldlM (times_mat_alloc_visit Y.ncols_) s else none)
        (fun _ => 0, nnzM)).map Prod.snd := by
    unfold times_mat_alloc_row row_cols row_positions
    simp only [foldlM_map_option Y.jcolind_ (times_mat_alloc_visit Y.ncols_)]
  rw [hgoal]
  simp only [] at hb
  rw [hb]
  unfold times_cols
  unfold times_visits at h
  unfold times_visits
  rw [h]
  rfl

/-- Row `i` of `times_mat_symbolic` writes the column indices of the row of the
product, given room for them. -/
theorem times_mat_symbolic_row_eq (X M Y : hiopMatrixSparseCSR K) (hX : X.WellFormed)
    (hY : Y.WellFormed) (hK : Y.nrows_ = X.ncols_) (i : Nat) (hi : i < X.nrows_)
    (it : Nat) (jM : Nat → Nat) (hcap : it + (X.times_cols Y i).length ≤ M.nnz_) :
    times_mat_symbolic_row X M Y i (it, jM) =
      some (it + (X.times_cols Y i).length, writeList jM it (X.times_cols Y i)) := by
  obtain ⟨flag1, h⟩ := times_mat_symbolic_visit_fold Y.ncols_ M.nnz_ (X.times_visits Y i)
    (fun _ => 0) it jM (times_visits_lt X Y hX hY hK i hi) hcap
  have hb := foldlM_bind_option (fun px => Y.row_cols (X.jcolind_ px))
    (times_mat_symbolic_visit Y.ncols_ M.nnz_) (fun px => X.jcolind_ px < X.ncols_)
    (X.row_positions i) (fun _ => 0, it, jM) (times_row_lt X hX i hi)
  have hgoal : times_mat_symbolic_row X M Y i (it, jM) =
      ((X.row_positions i).foldlM
        (fun s a => if X.jcolind_ a < X.ncols_ then
          (Y.row_cols (X.jcolind_ a)).foldlM (times_mat_symbolic_visit Y.ncols_ M.nnz_) s
          else none)
        (fun _ => 0, it, jM)).map Prod.snd := by
    unfold times_mat_symbolic_row row_cols row_positions
    simp only [foldlM_map_option Y.jcolind_ (times_mat_symbolic_visit Y.ncols_ M.nnz_)]
  rw [hgoal]
  simp only [] at hb
  rw [hb]
  unfold times_cols
  unfold times_visits at h
  unfold times_visits
  rw [h]
  rfl

/-- The count of `times_mat_alloc` after `n` rows. -/
theorem times_mat_alloc_rows (X Y : hiopMatrixSparseCSR K) (hX : X.WellFormed)
    (hY : Y.WellFormed) (hK : Y.nrows_ = X.ncols_) :
    ∀ n, n ≤ X.nrows_ →
      (List.range n).foldlM (fun nnzM i => times_mat_alloc_row X Y i nnzM) 0 =
        some (concat_rows (X.times_cols Y) n).length := by
  intro n
  induction n with
  | zero => intro _; rfl
  | succ n ih =>
    intro hn
    rw [List.range_succ, List.foldlM_append, ih (by omega)]
    simp only [Option.bind_eq_bind, Option.some_bind, List.foldlM_cons, List.foldlM_nil]
    rw [times_mat_alloc_row_eq X Y hX hY hK n (by omega), length_concat_rows_succ]
    rfl

/-- With non-zero dimensions and a count within `INT_MAX`, `times_mat_alloc`
returns a matrix with arrays, the rows of `X`, the columns of `Y` and one cell
per column index of the rows of the product. -/
theorem times_mat_alloc_eq (X Y : hiopMatrixSparseCSR K) (fresh : FreshArrays K)
    (hX : X.WellFormed) (hY : Y.WellFormed) (hK : Y.nrows_ = X.ncols_)
    (hrows : 0 < X.nrows_) (hcols : 0 < Y.ncols_)
    (hcount : (concat_rows (X.times_cols Y) X.nrows_).length ≤ INT_MAX) :
    ∃ M0, X.times_mat_alloc Y fresh = some (.allocated M0) ∧ M0.nrows_ = X.nrows_ ∧
      M0.ncols_ = Y.ncols_ ∧ M0.nnz_ = (concat_rows (X.times_cols Y) X.nrows_).length ∧
      M0.buf_col_ = none ∧ M0.row_starts_ = none := by
  unfold times_mat_alloc times_mat_alloc_nnz
  rw [if_pos hK, times_mat_alloc_rows X Y hX hY hK X.nrows_ (le_refl _)]
  simp only [Option.some_bind]
  rw [if_pos hcount]
  unfold create
  rw [if_neg (by omega)]
  unfold alloc
  simp only [Option.isNone_none, and_self, if_true, Option.map_some']
  exact ⟨_, rfl, rfl, rfl, rfl, rfl, rfl⟩

/-- What `times_mat_alloc` returns: nothing when the count is beyond
`INT_MAX`, an object without arrays when a dimension is zero, and an object
with arrays otherwise. -/
theorem times_mat_alloc_cases (X Y : hiopMatrixSparseCSR K) (fresh : FreshArrays K)
    (hX : X.WellFormed) (hY : Y.WellFormed) (hK : Y.nrows_ = X.ncols_) :
    (INT_MAX < (concat_rows (X.times_cols Y) X.nrows_).length →
      X.times_mat_alloc Y fresh = none) ∧
    ((concat_rows (X.times_cols Y) X.nrows_).length = 0 → X.nrows_ = 0 ∨ Y.ncols_ = 0 →
      X.times_mat_alloc Y fresh = some (.unallocated X.nrows_ Y.ncols_)) ∧
    (∀ M0, X.times_mat_alloc Y fresh = some (.allocated M0) →
      0 < X.nrows_ ∧ 0 < Y.ncols_ ∧
      (concat_rows (X.times_cols Y) X.nrows_).length ≤ INT_MAX) := by
  unfold times_mat_alloc times_mat_alloc_nnz
  rw [if_pos hK, times_mat_alloc_rows X Y hX hY hK X.nrows_ (le_refl _)]
  simp only [Option.some_bind]
  refine ⟨?_, ?_, ?_⟩
  · intro h
    rw [if_neg (by omega)]
  · intro h0 hz
    rw [if_pos (by rw [h0]; exact Nat.zero_le _)]
    unfold create
    rw [if_pos hz, if_pos h0]
  · intro M0 h
    by_cases h1 : (concat_rows (X.times_cols Y) X.nrows_).length ≤ INT_MAX
    · rw [if_pos h1] at h
      unfold create at h
      by_cases h2 : X.nrows_ = 0 ∨ Y.ncols_ = 0
      · rw [if_pos h2] at h
        by_cases h3 : (concat_rows (X.times_cols Y) X.nrows_).length = 0
        · rw [if_pos h3] at h
          cases h
        · rw [if_neg h3] at h
          cases h
      · exact ⟨by omega, by omega, h1⟩
    · rw [if_neg h1] at h
      cases h

/-- When `times_mat_symbolic` returns on what a constructor left, that
object has arrays. -/
theorem constructed_times_symbolic (X Y : hiopMatrixSparseCSR K) (M : Constructed K)
    (freshW : Nat → K) (Ms : hiopMatrixSparseCSR K)
    (h : Constructed.times_mat_symbolic X M Y freshW = some Ms) :
    ∃ M0, M = .allocated M0 ∧ X.times_mat_symbolic M0 Y freshW = some Ms := by
  cases M with
  | allocated M0 => exact ⟨M0, rfl, h⟩
  | unallocated rows cols => cases h

/-- On a matrix with the dimensions of the product and room for its column
indices, `times_mat_symbolic` returns, and the matrix carries the rows of the
product afterwards. -/
theorem times_mat_symbolic_eq (X M Y : hiopMatrixSparseCSR K) (freshW : Nat → K)
    (hX : X.WellFormed) (hY : Y.WellFormed) (hK : Y.nrows_ = X.ncols_)
    (h1 : M.nrows_ = X.nrows_) (h2 : M.ncols_ = Y.ncols_)
    (h3 : M.nnz_ = (concat_rows (X.times_cols Y) X.nrows_).length) :
    ∃ Ms, X.times_mat_symbolic M Y freshW = some Ms ∧ Ms.ncols_ = Y.ncols_ ∧
      Ms.values_ = M.values_ ∧ Ms.row_starts_ = M.row_starts_ ∧
      CarriesPattern (X.times_cols Y) X.nrows_ Ms := by
  unfold times_mat_symbolic
  rw [if_pos ⟨h1, h2, hK⟩]
  rw [pattern_rows_fold (X.times_cols Y) (times_mat_symbolic_row X M Y) X.nrows_ M.nnz_
    (fun i it jM hi hcap => times_mat_symbolic_row_eq X M Y hX hY hK i hi it jM hcap)
    (le_of_eq h3.symm) M.irowptr_ M.jcolind_ X.nrows_ (le_refl _)]
  rw [Option.map_some']
  refine ⟨_, rfl, h2, rfl, rfl, ?_⟩
  exact carriesPattern_of_fold _ _ _ M.irowptr_ M.jcolind_ h1 h3 rfl rfl

end csr_times_rows

/-! ## Product of two matrices: the pairs of the pattern -/

section csr_times_count

variable {K : Type} [LinearOrderedField K]

open hiopMatrixSparseCSR

theorem length_concat_rows_sum {α : Type} (row : Nat → List α) :
    ∀ n, (concat_rows row n).length = (Finset.range n).sum (fun i => (row i).length) := by
  intro n
  induction n with
  | zero => rfl
  | succ n ih => rw [length_concat_rows_succ, Finset.sum_range_succ, ih]

/-- Rows without a repeated column index, all below `m`, have as many cells
as there are pairs `(i, j)` with `j` in row `i`. -/
theorem length_concat_rows_card (row : Nat → List Nat) (n m : Nat)
    (hnd : ∀ i, i < n → (row i).Nodup) (hlt : ∀ i, i < n → ∀ j ∈ row i, j < m) :
    (concat_rows row n).length =
      (Finset.filter (fun ij : Nat × Nat => ij.2 ∈ row ij.1)
        (Finset.range n ×ˢ Finset.range m)).card := by
  rw [length_concat_rows_sum, Finset.card_filter, Finset.sum_product]
  apply Finset.sum_congr rfl
  intro i hi
  rw [Finset.mem_range] at hi
  rw [← Finset.card_filter, ← List.toFinset_card_of_nodup (hnd i hi)]
  congr 1
  ext j
  rw [List.mem_toFinset, Finset.mem_filter, Finset.mem_range]
  exact ⟨fun h => ⟨hlt i hi j h, h⟩, fun h => h.2⟩

/-- The number of column indices of the rows of the product is the number of
pairs `(i, j)` for which some `k` has `X(i,k)` and `Y(k,j)` both stored. -/
theorem times_cols_card (X Y : hiopMatrixSparseCSR K) (hX : X.WellFormed) (hY : Y.WellFormed)
    (hK : Y.nrows_ = X.ncols_) :
    (concat_rows (X.times_cols Y) X.nrows_).length =
      (Finset.filter
        (fun ij : Nat × Nat => ∃ k, k ∈ X.row_cols ij.1 ∧ ij.2 ∈ Y.row_cols k)
        (Finset.range X.nrows_ ×ˢ Finset.range Y.ncols_)).card := by
  rw [length_concat_rows_card (X.times_cols Y) X.nrows_ Y.ncols_
    (fun i _ => nodup_times_cols X Y i)
    (fun i hi j hj => times_visits_lt X Y hX hY hK i hi j
      ((mem_times_visits X Y i j).mpr ((mem_times_cols X Y i j).mp hj)))]
  congr 1
  apply Finset.filter_congr
  intro ij _
  exact mem_times_cols X Y ij.1 ij.2

end csr_times_count

/-! ## Compressed-row storage: the claim on the pattern of the product -/

section claims_csr_times

variable {K : Type} [LinearOrderedField K]

open hiopMatrixSparseCSR

theorem ex_csr_Z_wellFormed : ex_csr_Z.WellFormed := by
  refine ⟨rfl, ?_, rfl, ?_⟩
  · intro i hi
    have hi3 : i < 3 := hi
    interval_cases i <;> decide
  · intro p hp
    have hp4 : p < 4 := hp
    interval_cases p <;> decide

theorem ex_csr_firstcol_wellFormed : ex_csr_firstcol.WellFormed := by
  refine ⟨rfl, ?_, rfl, ?_⟩
  · intro i hi
    have hi2 : i < 2 := hi
    interval_cases i <;> decide
  · intro p hp
    have hp2 : p < 2 := hp
    interval_cases p <;> decide

/-- A row of `X` with a single stored entry, in column `k`, gives the product
the column indices of row `k` of `Y`. -/
theorem times_cols_length_single (X Y : hiopMatrixSparseCSR K) (i k : Nat)
    (h : X.row_cols i = [k]) :
    (X.times_cols Y i).length = (Y.row_cols k).toFinset.card := by
  rw [← List.toFinset_card_of_nodup (nodup_times_cols X Y i)]
  congr 1
  ext j
  rw [List.mem_toFinset, List.mem_toFinset, mem_times_cols, h]
  simp

/-- The number of column indices of the product of a matrix with two rows. -/
theorem times_count_two_rows (X Y : hiopMatrixSparseCSR K) (hn : X.nrows_ = 2) :
    (concat_rows (X.times_cols Y) X.nrows_).length =
      (X.times_cols Y 0).length + (X.times_cols Y 1).length := by
  rw [hn, length_concat_rows_sum, Finset.sum_range_succ, Finset.sum_range_one]

/-- C33, as stated, fails.  (1) For the 0 x 3 matrix `X` and the 3 x 2 matrix
`Y` with the rows `(5, 0)`, `(0, 6)`, `(7, 8)`, both with valid row pointers
and in-range column indices, `X.times_mat_alloc(Y)` counts no nonzero and
calls the constructor with a zero dimension, which allocates no array;
`times_mat_symbolic` on this object writes `irowptrM[m]` through `nullptr`.
(2) For the 2 x 2 matrix `X` with the rows `(1, 0)`, `(1, 0)` and the
2 x 2^30 matrix `Y` with a full row 0 and an empty row 1, which has 2^30
nonzeros, there are 2^31 pairs `(i, j)` for which some `k` has `X(i,k)` and
`Y(k,j)` both stored, which is beyond `INT_MAX`, and `times_mat_alloc` fails
its assertion `nnzM>=0`. -/
theorem times_alloc_without_arrays :
    (ex_csr_norows.WellFormed ∧ ex_csr_Z.WellFormed ∧
      ex_csr_Z.nrows_ = ex_csr_norows.ncols_ ∧
      ex_csr_norows.times_mat_alloc ex_csr_Z ex_fresh = some (.unallocated 0 2) ∧
      Constructed.times_mat_symbolic ex_csr_norows (.unallocated 0 2) ex_csr_Z (fun _ => 7) =
        none) ∧
    (ex_csr_firstcol.WellFormed ∧ ex_csr_top.WellFormed ∧
      ex_csr_top.nrows_ = ex_csr_firstcol.ncols_ ∧ ex_csr_firstcol.nnz_ ≤ INT_MAX ∧
      ex_csr_top.nnz_ ≤ INT_MAX ∧
      (Finset.filter
        (fun ij : Nat × Nat =>
          ∃ k, k ∈ ex_csr_firstcol.row_cols ij.1 ∧ ij.2 ∈ ex_csr_top.row_cols k)
        (Finset.range ex_csr_firstcol.nrows_ ×ˢ Finset.range ex_csr_top.ncols_)).card =
        2147483648 ∧
      ex_csr_firstcol.times_mat_alloc ex_csr_top ex_fresh = none) := by
  have r0 : ex_csr_firstcol.row_cols 0 = [0] := by decide
  have r1 : ex_csr_firstcol.row_cols 1 = [0] := by decide
  have c0 := card_row_cols ex_csr_top ex_csr_top_sorted 0 (by decide)
  have d0 : ex_csr_top.irowptr_ (0 + 1) - ex_csr_top.irowptr_ 0 = 1073741824 := by decide
  have hlen : (concat_rows (ex_csr_firstcol.times_cols ex_csr_top) ex_csr_firstcol.nrows_).length =
      2147483648 := by
    rw [times_count_two_rows ex_csr_firstcol ex_csr_top rfl,
      times_cols_length_single ex_csr_firstcol ex_csr_top 0 0 r0,
      times_cols_length_single ex_csr_firstcol ex_csr_top 1 0 r1, c0, d0]
  refine ⟨⟨ex_csr_norows_wellFormed, ex_csr_Z_wellFormed, rfl, ?_, rfl⟩,
    ex_csr_firstcol_wellFormed, ex_csr_top_wellFormed, rfl, by decide, by decide, ?_, ?_⟩
  · exact (times_mat_alloc_cases ex_csr_norows ex_csr_Z ex_fresh ex_csr_norows_wellFormed
      ex_csr_Z_wellFormed rfl).2.1 rfl (Or.inl rfl)
  · rw [← times_cols_card ex_csr_firstcol ex_csr_top ex_csr_firstcol_wellFormed
      ex_csr_top_wellFormed rfl, hlen]
  · apply (times_mat_alloc_cases ex_csr_firstcol ex_csr_top ex_fresh ex_csr_firstcol_wellFormed
      ex_csr_top_wellFormed rfl).1
    rw [hlen]
    decide

/-- C33, amended.  CSR product, symbolic.  For matrices `X` (m x K) and `Y`
(K x n) of non-zero dimensions `m` and `n` with valid row pointers and
in-range column indices, such that the number of pairs `(i, j)` for which some
`k` has `X(i,k)` and `Y(k,j)` both stored is within `INT_MAX`:
`times_mat_alloc` returns an m x n matrix with arrays whose number of nonzeros
is this number of pairs; `times_mat_symbolic` on this matrix passes all its
assertions, among them `nnzM < M.numberOfNonzeros()` before each write, and
leaves the dimensions, the number of nonzeros and the values alone; afterwards
row `i` holds each such `j` exactly once, and the row pointers start at `0`,
do not decrease and end, at `irowptr[m]`, at the allocated number of
nonzeros. -/
theorem times_symbolic_pattern (X Y : hiopMatrixSparseCSR K) (fresh : FreshArrays K)
    (freshW : Nat → K) (hX : X.WellFormed) (hY : Y.WellFormed) (hK : Y.nrows_ = X.ncols_)
    (hrows : 0 < X.nrows_) (hcols : 0 < Y.ncols_)
    (hcount : (Finset.filter
      (fun ij : Nat × Nat => ∃ k, k ∈ X.row_cols ij.1 ∧ ij.2 ∈ Y.row_cols k)
      (Finset.range X.nrows_ ×ˢ Finset.range Y.ncols_)).card ≤ INT_MAX) :
    ∃ M0 M, X.times_mat_alloc Y fresh = some (.allocated M0) ∧
      M0.nrows_ = X.nrows_ ∧ M0.ncols_ = Y.ncols_ ∧
      M0.nnz_ = (Finset.filter
        (fun ij : Nat × Nat => ∃ k, k ∈ X.row_cols ij.1 ∧ ij.2 ∈ Y.row_cols k)
        (Finset.range X.nrows_ ×ˢ Finset.range Y.ncols_)).card ∧
      Constructed.times_mat_symbolic X (.allocated M0) Y freshW = some M ∧
      M.nrows_ = X.nrows_ ∧ M.ncols_ = Y.ncols_ ∧ M.nnz_ = M0.nnz_ ∧ M.values_ = M0.values_ ∧
      (∀ i, i < X.nrows_ →
        (M.row_cols i).Nodup ∧
        ∀ j, j ∈ M.row_cols i ↔ ∃ k, k ∈ X.row_cols i ∧ j ∈ Y.row_cols k) ∧
      M.irowptr_ 0 = 0 ∧ (∀ i, i < M.nrows_ → M.irowptr_ i ≤ M.irowptr_ (i + 1)) ∧
      M.irowptr_ X.nrows_ = M0.nnz_ ∧ (∀ p, p < M.nnz_ → M.jcolind_ p < M.ncols_) := by
  have hcard := times_cols_card X Y hX hY hK
  obtain ⟨M0, a1, a2, a3, a4, _, _⟩ := times_mat_alloc_eq X Y fresh hX hY hK hrows hcols
    (by rw [hcard]; exact hcount)
  obtain ⟨M, b1, b2, b3, _, b5⟩ := times_mat_symbolic_eq X M0 Y freshW hX hY hK a2 a3 a4
  have hwf := carriesPattern_wellFormed b5 (fun r hr c hc => by
    rw [b2]
    exact times_visits_lt X Y hX hY hK r hr c
      ((mem_times_visits X Y r c).mpr ((mem_times_cols X Y r c).mp hc)))
  refine ⟨M0, M, a1, a2, a3, by rw [a4, hcard], b1, b5.nrows, b2, by rw [b5.nnz, a4], b3, ?_,
    hwf.first, hwf.mono, by rw [b5.rowptr _ (le_refl _), a4], hwf.cols⟩
  intro i hi
  rw [carriesPattern_row_cols b5 i hi]
  exact ⟨nodup_times_cols X Y i, mem_times_cols X Y i⟩

/-- Instance of `times_symbolic_pattern`: the 2 x 3 matrix with the rows
`(1, 0, 2)`, `(0, 3, 0)` times the 3 x 2 matrix with the rows `(5, 0)`,
`(0, 6)`, `(7, 8)`.  The product has three nonzeros, in the columns `0, 1` of
row 0, where column `0` is met twice, and in column `1` of row 1. -/
theorem times_symbolic_pattern_witness :
    ex_csr_X.WellFormed ∧ ex_csr_Z.WellFormed ∧
    ∃ M0 M, ex_csr_X.times_mat_alloc ex_csr_Z ex_fresh = some (.allocated M0) ∧ M0.nnz_ = 3 ∧
      Constructed.times_mat_symbolic ex_csr_X (.allocated M0) ex_csr_Z (fun _ => 7) = some M ∧
      (M.row_cols 0).Nodup ∧ (M.row_cols 0).toFinset = {0, 1} ∧
      (M.row_cols 1).toFinset = {1} ∧
      M.irowptr_ 0 = 0 ∧ M.irowptr_ 2 = 3 := by
  have hcard : (Finset.filter
      (fun ij : Nat × Nat => ∃ k, k ∈ ex_csr_X.row_cols ij.1 ∧ ij.2 ∈ ex_csr_Z.row_cols k)
      (Finset.range ex_csr_X.nrows_ ×ˢ Finset.range ex_csr_Z.ncols_)).card = 3 := by decide
  obtain ⟨M0, M, a1, _, _, a4, a5, _, _, _, _, a10, a11, _, a13, _⟩ :=
    times_symbolic_pattern ex_csr_X ex_csr_Z ex_fresh (fun _ => 7) ex_csr_X_wellFormed
      ex_csr_Z_wellFormed rfl (by decide) (by decide) (by rw [hcard]; decide)
  rw [hcard] at a4
  have r0 := a10 0 (by decide)
  have r1 := a10 1 (by decide)
  refine ⟨ex_csr_X_wellFormed, ex_csr_Z_wellFormed, M0, M, a1, a4, a5, r0.1, ?_, ?_, a11, ?_⟩
  · ext j
    rw [List.mem_toFinset, r0.2, ← mem_times_cols]
    have : ex_csr_X.times_cols ex_csr_Z 0 = [0, 1] := by decide
    rw [this]
    simp
  · ext j
    rw [List.mem_toFinset, r1.2, ← mem_times_cols]
    have : ex_csr_X.times_cols ex_csr_Z 1 = [1] := by decide
    rw [this]
    simp
  · have : ex_csr_X.nrows_ = 2 := rfl
    rw [this, a4] at a13
    exact a13

end claims_csr_times

/-! ## Product of two matrices: the values scattered into the buffer -/

section csr_times_scatter

variable {K : Type} [LinearOrderedField K]

open hiopMatrixSparseCSR

/-- The loop that adds terms to their cells of `W`, with the assertion that
the cells are below `n`. -/
theorem scatter_fold (n : Nat) :
    ∀ (l : List (Nat × K)) (W : Nat → K), (∀ t ∈ l, t.1 < n) →
      l.foldlM
        (fun (W : Nat → K) (t : Nat × K) =>
          if t.1 < n then some (Function.update W t.1 (W t.1 + t.2)) else none) W =
        some (scatterList W l) := by
  intro l
  induction l with
  | nil => intro W _; rfl
  | cons t l ih =>
    intro W h
    rw [List.foldlM_cons, if_pos (h t (List.mem_cons_self _ _))]
    simp only [Option.bind_eq_bind, Option.some_bind]
    rw [ih _ (fun t1 h1 => h t1 (List.mem_cons_of_mem _ h1))]
    rfl

/-- A cell of `W` after the terms of a list were added: what it held plus the
terms of the list for this cell. -/
theorem scatterList_apply (j : Nat) :
    ∀ (l : List (Nat × K)) (W : Nat → K),
      scatterList W l j = W j + ((l.filter (fun t => t.1 = j)).map Prod.snd).sum := by
  intro l
  induction l with
  | nil => intro W; simp [scatterList]
  | cons t l ih =>
    intro W
    obtain ⟨c, a⟩ := t
    have hstep : scatterList W ((c, a) :: l) = scatterList (Function.update W c (W c + a)) l :=
      rfl
    rw [hstep, ih]
    by_cases hc : c = j
    · subst hc
      rw [Function.update_same, List.filter_cons_of_pos (by simp), List.map_cons, List.sum_cons,
        add_assoc]
    · rw [Function.update_noteq (Ne.symm hc), List.filter_cons_of_neg (by simpa using hc)]

/-- The terms of row `i` are for cells below the number of columns of `Y`. -/
theorem times_terms_lt (X Y : hiopMatrixSparseCSR K) (hX : X.WellFormed) (hY : Y.WellFormed)
    (hK : Y.nrows_ = X.ncols_) (i : Nat) (hi : i < X.nrows_) :
    ∀ t ∈ X.times_terms Y i, t.1 < Y.ncols_ := by
  intro t ht
  unfold times_terms at ht
  rw [List.mem_flatMap] at ht
  obtain ⟨px, hpx, ht⟩ := ht
  have hk := times_row_lt X hX i hi px hpx
  rw [List.mem_map] at ht
  obtain ⟨py, hpy, rfl⟩ := ht
  unfold row_positions at hpy
  rw [mem_for_range] at hpy
  exact (hY.row _ (by omega)).2.2 py hpy.2

/-- The cells of the terms of row `i` are the column indices met in row `i`. -/
theorem times_terms_cols (X Y : hiopMatrixSparseCSR K) (i : Nat) :
    (X.times_terms Y i).map Prod.fst = X.times_visits Y i := by
  unfold times_terms times_visits row_cols
  rw [List.map_flatMap]
  congr 1
  funext px
  rw [List.map_map]
  rfl

/-- The first loop nest of row `i` of `times_mat_numeric` passes its
assertions and adds the terms of the row to `W`. -/
theorem times_mat_numeric_scatter_eq (X Y : hiopMatrixSparseCSR K) (hX : X.WellFormed)
    (hY : Y.WellFormed) (hK : Y.nrows_ = X.ncols_) (i : Nat) (hi : i < X.nrows_)
    (W : Nat → K) :
    times_mat_numeric_scatter X Y i W = some (scatterList W (X.times_terms Y i)) := by
  have hb := foldlM_bind_option
    (fun px => (Y.row_positions (X.jcolind_ px)).map
      (fun py => (Y.jcolind_ py, Y.values_ py * X.values_ px)))
    (fun (W : Nat → K) (t : Nat × K) =>
      if t.1 < Y.ncols_ then some (Function.update W t.1 (W t.1 + t.2)) else none)
    (fun px => X.jcolind_ px < X.ncols_)
    (X.row_positions i) W (times_row_lt X hX i hi)
  have hgoal : times_mat_numeric_scatter X Y i W =
      (X.row_positions i).foldlM
        (fun W a => if X.jcolind_ a < X.ncols_ then
          ((Y.row_positions (X.jcolind_ a)).map
            (fun py => (Y.jcolind_ py, Y.values_ py * X.values_ a))).foldlM
            (fun (W : Nat → K) (t : Nat × K) =>
              if t.1 < Y.ncols_ then some (Function.update W t.1 (W t.1 + t.2)) else none) W
          else none) W := by
    unfold times_mat_numeric_scatter row_positions
    congr 1
    funext W1 px
    simp only []
    rw [← foldlM_map_option (fun py => (Y.jcolind_ py, Y.values_ py * X.values_ px))
      (fun (W : Nat → K) (t : Nat × K) =>
        if t.1 < Y.ncols_ then some (Function.update W t.1 (W t.1 + t.2)) else none)]
  rw [hgoal]
  simp only [] at hb
  rw [hb]
  exact scatter_fold Y.ncols_ _ W (times_terms_lt X Y hX hY hK i hi)

end csr_times_scatter

/-! ## Product of two matrices: the terms of a cell and the entries -/

section csr_times_entries

variable {K : Type} [LinearOrderedField K]

open hiopMatrixSparseCSR

/-- The terms that a stored entry of `X` with value `c` contributes to cell
`j` from a row of `Y` sum to `c` times the entry of `Y` in that row. -/
theorem row_terms_sum (Y : hiopMatrixSparseCSR K) (c : K) (j : Nat) :
    ∀ l : List Nat,
      (((l.map (fun py => (Y.jcolind_ py, Y.values_ py * c))).filter
        (fun t => t.1 = j)).map Prod.snd).sum =
      ((l.filter (fun p => Y.jcolind_ p = j)).map Y.values_).sum * c := by
  intro l
  induction l with
  | nil => simp
  | cons p l ih =>
    rw [List.map_cons]
    by_cases h : Y.jcolind_ p = j
    · rw [List.filter_cons_of_pos (by simpa using h), List.filter_cons_of_pos (by simpa using h),
        List.map_cons, List.sum_cons, List.map_cons, List.sum_cons, ih, add_mul]
    · rw [List.filter_cons_of_neg (by simpa using h), List.filter_cons_of_neg (by simpa using h),
        ih]

/-- The terms for cell `j` from a list of positions of `X`, all with a column
index below `N`, sum to the sum over `k < N` of the values of the list in
column `k` times `Y(k, j)`. -/
theorem positions_terms_sum (X Y : hiopMatrixSparseCSR K) (N j : Nat) :
    ∀ l : List Nat, (∀ px ∈ l, X.jcolind_ px < N) →
      (((l.flatMap (fun px => (Y.row_positions (X.jcolind_ px)).map
          (fun py => (Y.jcolind_ py, Y.values_ py * X.values_ px)))).filter
        (fun t => t.1 = j)).map Prod.snd).sum =
      ∑ k in Finset.range N,
        ((l.filter (fun p => X.jcolind_ p = k)).map X.values_).sum * Y.entry k j := by
  intro l
  induction l with
  | nil => intro _; simp
  | cons px l ih =>
    intro h
    rw [List.flatMap_cons, List.filter_append, List.map_append, List.sum_append,
      row_terms_sum Y (X.values_ px) j, ih (fun p hp => h p (List.mem_cons_of_mem _ hp))]
    have hk : ∀ k ∈ Finset.range N,
        (((px :: l).filter (fun p => X.jcolind_ p = k)).map X.values_).sum * Y.entry k j =
        (if k = X.jcolind_ px then X.values_ px * Y.entry k j else 0) +
          ((l.filter (fun p => X.jcolind_ p = k)).map X.values_).sum * Y.entry k j := by
      intro k _
      by_cases e : X.jcolind_ px = k
      · rw [List.filter_cons_of_pos (by simpa using e), List.map_cons, List.sum_cons, add_mul,
          if_pos e.symm]
      · rw [List.filter_cons_of_neg (by simpa using e), if_neg (fun e1 => e e1.symm), zero_add]
    rw [Finset.sum_congr rfl hk, Finset.sum_add_distrib, Finset.sum_ite_eq',
      if_pos (Finset.mem_range.mpr (h px (List.mem_cons_self _ _)))]
    congr 1
    rw [mul_comm]
    rfl

/-- The terms of row `i` for cell `j` sum to `sum_k X(i,k) * Y(k,j)`. -/
theorem times_terms_sum (X Y : hiopMatrixSparseCSR K) (hX : X.WellFormed) (i : Nat)
    (hi : i < X.nrows_) (j : Nat) :
    (((X.times_terms Y i).filter (fun t => t.1 = j)).map Prod.snd).sum =
      ∑ k in Finset.range X.ncols_, X.entry i k * Y.entry k j :=
  positions_terms_sum X Y X.ncols_ j (X.row_positions i) (times_row_lt X hX i hi)

/-- A cell that is not a column index of row `i` of the product gets no
term. -/
theorem times_terms_absent (X Y : hiopMatrixSparseCSR K) (i j : Nat)
    (h : j ∉ X.times_cols Y i) :
    (X.times_terms Y i).filter (fun t => t.1 = j) = [] := by
  rw [List.filter_eq_nil_iff]
  intro t ht e
  apply h
  unfold times_cols
  rw [mem_new_cols]
  refine ⟨?_, rfl⟩
  rw [← times_terms_cols, List.mem_map]
  exact ⟨t, ht, by simpa using e⟩

/-- The second loop of a row of `times_mat_numeric` over positions with
distinct column indices: every position gets `alpha` times the cell of its
column index, and these cells are zeroed. -/
theorem gather_fold (jM : Nat → Nat) (alpha : K) :
    ∀ (l : List Nat) (W v : Nat → K), (l.map jM).Nodup →
      l.foldl
        (fun (s : (Nat → K) × (Nat → K)) p =>
          (Function.update s.1 (jM p) 0, Function.update s.2 p (s.2 p + alpha * s.1 (jM p))))
        (W, v) =
      (fun j => if j ∈ l.map jM then 0 else W j,
        fun p => if p ∈ l then v p + alpha * W (jM p) else v p) := by
  intro l
  induction l with
  | nil => intro W v _; simp
  | cons p l ih =>
    intro W v hnd
    rw [List.map_cons, List.nodup_cons] at hnd
    rw [List.foldl_cons, ih _ _ hnd.2]
    refine Prod.ext ?_ ?_
    · funext j
      simp only [List.map_cons, List.mem_cons]
      by_cases h1 : j ∈ l.map jM
      · rw [if_pos h1, if_pos (Or.inr h1)]
      · rw [if_neg h1]
        by_cases h2 : j = jM p
        · rw [if_pos (Or.inl h2), h2, Function.update_same]
        · rw [if_neg (by tauto), Function.update_noteq h2]
    · funext q
      simp only [List.mem_cons]
      by_cases h1 : q ∈ l
      · have hq : jM q ≠ jM p := fun e => hnd.1 (e ▸ List.mem_map_of_mem jM h1)
        have hqp : q ≠ p := fun e => hq (by rw [e])
        rw [if_pos h1, if_pos (Or.inr h1), Function.update_noteq hqp, Function.update_noteq hq]
      · rw [if_neg h1]
        by_cases h2 : q = p
        · rw [if_pos (Or.inl h2), h2, Function.update_same]
        · rw [if_neg (by tauto), Function.update_noteq h2]

end csr_times_entries

/-! ## Product of two matrices: the values -/

section csr_times_numeric

variable {K : Type} [LinearOrderedField K]

open hiopMatrixSparseCSR

/-- The positions of distinct rows of a matrix that carries a pattern are
distinct. -/
theorem carriesPattern_disjoint {row : Nat → List Nat} {N : Nat} {M : hiopMatrixSparseCSR K}
    (h : CarriesPattern row N M) (i n : Nat) (hin : i < n) (hn : n < N) (p : Nat)
    (hp : p ∈ M.row_positions i) : p ∉ M.row_positions n := by
  rw [carriesPattern_row_positions h i (by omega), mem_for_range] at hp
  rw [carriesPattern_row_positions h n hn, mem_for_range]
  have := length_concat_rows_mono row n (i + 1) (by omega)
  rw [length_concat_rows_succ] at this
  omega

/-- Row `i` of `times_mat_numeric` on a matrix that carries the pattern of the
product, with the first `n` cells of `W` at zero: the assertions pass, every
stored entry `(i, j)` of `M` gets `alpha * sum_k X(i,k) * Y(k,j)` added, and
the first `n` cells of `W` are at zero again. -/
theorem times_mat_numeric_row_eq (X M Y : hiopMatrixSparseCSR K) (alpha : K)
    (hX : X.WellFormed) (hY : Y.WellFormed) (hK : Y.nrows_ = X.ncols_)
    (hM : CarriesPattern (X.times_cols Y) X.nrows_ M) (i : Nat) (hi : i < X.nrows_)
    (W v : Nat → K) (hW : ∀ j, j < Y.ncols_ → W j = 0) :
    ∃ W1, (times_mat_numeric_scatter X Y i W).map
        (fun W2 => times_mat_numeric_gather M alpha i (W2, v)) =
      some (W1, fun p => if p ∈ M.row_positions i then
        v p + alpha * ∑ k in Finset.range X.ncols_, X.entry i k * Y.entry k (M.jcolind_ p)
        else v p) ∧
      ∀ j, j < Y.ncols_ → W1 j = 0 := by
  have hrow : (M.row_positions i).map M.jcolind_ = X.times_cols Y i :=
    carriesPattern_row_cols hM i hi
  have hnd : ((M.row_positions i).map M.jcolind_).Nodup := by
    rw [hrow]
    exact nodup_times_cols X Y i
  have hg := gather_fold M.jcolind_ alpha (M.row_positions i)
    (scatterList W (X.times_terms Y i)) v hnd
  rw [times_mat_numeric_scatter_eq X Y hX hY hK i hi, Option.map_some',
    show times_mat_numeric_gather M alpha i (scatterList W (X.times_terms Y i), v) = _ from hg]
  refine ⟨fun j => if j ∈ (M.row_positions i).map M.jcolind_ then 0
    else scatterList W (X.times_terms Y i) j, ?_, ?_⟩
  · congr 2
    funext p
    by_cases hp : p ∈ M.row_positions i
    · have hcol : M.jcolind_ p ∈ X.times_cols Y i := by
        rw [← hrow]
        exact List.mem_map_of_mem _ hp
      have hlt := times_visits_lt X Y hX hY hK i hi _
        ((mem_times_visits X Y i _).mpr ((mem_times_cols X Y i _).mp hcol))
      rw [if_pos hp, if_pos hp, scatterList_apply, hW _ hlt, zero_add,
        times_terms_sum X Y hX i hi]
    · rw [if_neg hp, if_neg hp]
  · intro j hj
    show (if j ∈ (M.row_positions i).map M.jcolind_ then (0 : K)
      else scatterList W (X.times_terms Y i) j) = 0
    by_cases h1 : j ∈ (M.row_positions i).map M.jcolind_
    · rw [if_pos h1]
    · rw [if_neg h1, scatterList_apply, hW j hj, zero_add,
        times_terms_absent X Y i j (by rw [← hrow]; exact h1)]
      rfl

/-- The first `n` passes of the loop over the rows of `times_mat_numeric` on a
matrix that carries the pattern of the product, entered with the first `n`
cells of `W` at zero: the assertions pass, the first `n` cells of `W` are at
zero afterwards, the stored entries of the rows dealt with got their sums
added, and the other cells of the values are as they were. -/
theorem times_mat_numeric_rows_eq (X M Y : hiopMatrixSparseCSR K) (alpha : K)
    (hX : X.WellFormed) (hY : Y.WellFormed) (hK : Y.nrows_ = X.ncols_)
    (hM : CarriesPattern (X.times_cols Y) X.nrows_ M) (W0 v0 : Nat → K)
    (hW0 : ∀ j, j < Y.ncols_ → W0 j = 0) :
    ∀ n, n ≤ X.nrows_ →
      ∃ W v, times_mat_numeric_rows X M Y alpha n (W0, v0) = some (W, v) ∧
        (∀ j, j < Y.ncols_ → W j = 0) ∧
        (∀ i, i < n → ∀ p ∈ M.row_positions i,
          v p = v0 p +
            alpha * ∑ k in Finset.range X.ncols_, X.entry i k * Y.entry k (M.jcolind_ p)) ∧
        (∀ p, (∀ i, i < n → p ∉ M.row_positions i) → v p = v0 p) := by
  intro n
  induction n with
  | zero =>
    intro _
    exact ⟨W0, v0, rfl, hW0, fun i hi => absurd hi (Nat.not_lt_zero _), fun _ _ => rfl⟩
  | succ n ih =>
    intro hn
    obtain ⟨W, v, e, hW, h1, h2⟩ := ih (by omega)
    obtain ⟨W1, e1, hW1⟩ := times_mat_numeric_row_eq X M Y alpha hX hY hK hM n (by omega) W v hW
    have e0 : (List.range n).foldlM
        (fun (s : (Nat → K) × (Nat → K)) i => (times_mat_numeric_scatter X Y i s.1).map
          (fun W => times_mat_numeric_gather M alpha i (W, s.2))) (W0, v0) = some (W, v) := e
    refine ⟨W1, fun p => if p ∈ M.row_positions n then
      v p + alpha * ∑ k in Finset.range X.ncols_, X.entry n k * Y.entry k (M.jcolind_ p)
      else v p, ?_, hW1, ?_, ?_⟩
    · unfold times_mat_numeric_rows
      rw [List.range_succ, List.foldlM_append, e0]
      simp only [Option.bind_eq_bind, Option.some_bind, List.foldlM_cons, List.foldlM_nil]
      rw [e1]
      rfl
    · intro i hi p hp
      simp only
      rcases Nat.eq_or_lt_of_le (Nat.le_of_lt_succ hi) with c | c
      · subst c
        rw [if_pos hp, h2 p (fun i1 hi1 hp1 =>
          carriesPattern_disjoint hM i1 i hi1 (by omega) p hp1 hp)]
      · rw [if_neg (carriesPattern_disjoint hM i n c (by omega) p hp)]
        exact h1 i c p hp
    · intro p hp
      simp only
      rw [if_neg (hp n (by omega))]
      exact h2 p (fun i hi => hp i (by omega))

/-- The array `valuesM` before the loop over the rows holds `beta` times the
values in its first `nnz_` cells. -/
theorem times_mat_numeric_scaled_eq (beta : K) (M : hiopMatrixSparseCSR K) (p : Nat)
    (hp : p < M.nnz_) : times_mat_numeric_scaled beta M p = beta * M.values_ p := by
  unfold times_mat_numeric_scaled
  by_cases h1 : beta = 1
  · rw [if_neg (not_not.mpr h1), h1, one_mul]
  · rw [if_pos h1]
    by_cases h0 : beta = 0
    · rw [if_pos h0, foldl_update_const,
        if_pos ((mem_for_range _ _ _).mpr ⟨Nat.zero_le _, hp⟩), h0, zero_mul]
    · rw [if_neg h0]
      unfold DSCAL
      exact if_pos hp

/-- The first `n` cells of the buffer are at zero before the loop over the
rows. -/
theorem times_mat_buffer_zero (M : hiopMatrixSparseCSR K) (n : Nat) (freshW : Nat → K) :
    ∀ j, j < n → times_mat_buffer M n freshW j = 0 := by
  intro j hj
  unfold times_mat_buffer
  rw [foldl_update_const, if_pos ((mem_for_range _ _ _).mpr ⟨Nat.zero_le _, hj⟩)]

/-- A matrix with the row pointers and column indices that
`times_mat_symbolic` left in what `times_mat_alloc` returned carries the
pattern of the product, whatever its values. -/
theorem carriesPattern_of_symbolic (X Y : hiopMatrixSparseCSR K) (fresh : FreshArrays K)
    (freshW : Nat → K) (M0 : Constructed K) (Ms : hiopMatrixSparseCSR K) (v : Nat → K)
    (hX : X.WellFormed) (hY : Y.WellFormed) (hK : Y.nrows_ = X.ncols_)
    (ha : X.times_mat_alloc Y fresh = some M0)
    (hs : Constructed.times_mat_symbolic X M0 Y freshW = some Ms) :
    CarriesPattern (X.times_cols Y) X.nrows_ { Ms with values_ := v } ∧ Ms.ncols_ = Y.ncols_ := by
  obtain ⟨M, rfl, hs1⟩ := constructed_times_symbolic X Y M0 freshW Ms hs
  obtain ⟨p1, p2, p3⟩ := (times_mat_alloc_cases X Y fresh hX hY hK).2.2 M ha
  obtain ⟨M1, a1, a2, a3, a4, _, _⟩ := times_mat_alloc_eq X Y fresh hX hY hK p1 p2 p3
  rw [ha] at a1
  cases a1
  obtain ⟨M2, b1, b2, _, _, b5⟩ := times_mat_symbolic_eq X M Y freshW hX hY hK a2 a3 a4
  rw [hs1] at b1
  cases b1
  exact ⟨⟨b5.nrows, b5.nnz, b5.rowptr, b5.cells⟩, b2⟩

end csr_times_numeric

/-! ## Compressed-row storage: the claim on the values of the product -/

section claims_csr_times_numeric

variable {K : Type} [LinearOrderedField K]

open hiopMatrixSparseCSR

/-- C35. CSR product, numeric.  For matrices `X` (m x K) and `Y` (K x n) with
valid row pointers and in-range column indices, and `M` with the row pointers
and column indices that `times_mat_symbolic(M, Y)` on `X` left in the matrix
from `times_mat_alloc`, and with any values: `times_mat_numeric(beta, M,
alpha, Y)` passes all its assertions and changes the values and the buffer
only; every stored entry `(i, j)` of `M` ends as
`beta * M(i,j) + alpha * sum_k X(i,k) * Y(k,j)`, this for every `beta`, `0` and
`1` included, where `X(i,k)` and `Y(k,j)` are the values stored at these
places, `0` if there is none (and their sum, should a column index be stored
twice in a row, so that rows without duplicates are covered); the first `n`
cells of the work buffer are all zero at the start of every row and after the
last one; and every column index touched while scattering row `i` is a column
index of row `i` of `M`. -/
theorem times_numeric_values (X Y : hiopMatrixSparseCSR K) (fresh : FreshArrays K)
    (freshW freshW1 : Nat → K) (M0 : Constructed K) (Ms : hiopMatrixSparseCSR K) (v : Nat → K)
    (beta alpha : K) (hX : X.WellFormed) (hY : Y.WellFormed) (hK : Y.nrows_ = X.ncols_)
    (ha : X.times_mat_alloc Y fresh = some M0)
    (hs : Constructed.times_mat_symbolic X M0 Y freshW = some Ms) :
    ∃ M1, X.times_mat_numeric beta { Ms with values_ := v } alpha Y freshW1 = some M1 ∧
      M1.nrows_ = Ms.nrows_ ∧ M1.ncols_ = Ms.ncols_ ∧ M1.nnz_ = Ms.nnz_ ∧
      M1.irowptr_ = Ms.irowptr_ ∧ M1.jcolind_ = Ms.jcolind_ ∧
      (∀ i, i < X.nrows_ → ∀ p ∈ Ms.row_positions i,
        M1.values_ p = beta * v p +
          alpha * ∑ k in Finset.range X.ncols_, X.entry i k * Y.entry k (Ms.jcolind_ p)) ∧
      (∀ i, i ≤ X.nrows_ → ∃ W vM,
        times_mat_numeric_rows X { Ms with values_ := v } Y alpha i
          (times_mat_buffer { Ms with values_ := v } Y.ncols_ freshW1,
            times_mat_numeric_scaled beta { Ms with values_ := v }) = some (W, vM) ∧
        ∀ j, j < Y.ncols_ → W j = 0) ∧
      (∀ i, i < X.nrows_ → ∀ t ∈ X.times_terms Y i, t.1 ∈ Ms.row_cols i) := by
  obtain ⟨hM, hcols⟩ := carriesPattern_of_symbolic X Y fresh freshW M0 Ms v hX hY hK ha hs
  have hrows := times_mat_numeric_rows_eq X { Ms with values_ := v } Y alpha hX hY hK hM
    (times_mat_buffer { Ms with values_ := v } Y.ncols_ freshW1)
    (times_mat_numeric_scaled beta { Ms with values_ := v })
    (times_mat_buffer_zero _ _ _)
  obtain ⟨W, vM, e, _, h1, _⟩ := hrows X.nrows_ (le_refl _)
  have hnum : X.times_mat_numeric beta { Ms with values_ := v } alpha Y freshW1 =
      some { Ms with values_ := vM, buf_col_ := some W } := by
    unfold times_mat_numeric
    rw [if_pos ⟨hM.nrows, hcols, hK⟩, e]
    rfl
  refine ⟨_, hnum, rfl, rfl, rfl, rfl, rfl, ?_, ?_, ?_⟩
  · intro i hi p hp
    have hp1 : p ∈ ({ Ms with values_ := v } : hiopMatrixSparseCSR K).row_positions i := hp
    have hlt : p < Ms.nnz_ := by
      rw [carriesPattern_row_positions hM i hi, mem_for_range] at hp1
      have h3 : Ms.nnz_ = (concat_rows (X.times_cols Y) X.nrows_).length := hM.nnz
      have h4 := length_concat_rows_mono (X.times_cols Y) X.nrows_ (i + 1) (by omega)
      rw [length_concat_rows_succ] at h4
      omega
    show vM p = _
    rw [h1 i hi p hp1, times_mat_numeric_scaled_eq beta { Ms with values_ := v } p hlt]
  · intro i hi
    obtain ⟨W2, v2, e2, z2, _, _⟩ := hrows i hi
    exact ⟨W2, v2, e2, z2⟩
  · intro i hi t ht
    have hr : Ms.row_cols i = X.times_cols Y i := carriesPattern_row_cols hM i hi
    rw [hr]
    unfold times_cols
    rw [mem_new_cols]
    refine ⟨?_, rfl⟩
    rw [← times_terms_cols, List.mem_map]
    exact ⟨t, ht, rfl⟩

/-- Instance of `times_numeric_values`: the 2 x 3 matrix `X` with the rows
`(1, 0, 2)`, `(0, 3, 0)`, the 3 x 2 matrix `Y` with the rows `(5, 0)`,
`(0, 6)`, `(7, 8)`, and `M` with the pattern of the product and the value `1`
in every cell.  `times_mat_numeric(2, M, 3, Y)` leaves `2 M + 3 X Y`: `59, 50`
in row 0 and `56` in row 1. -/
theorem times_numeric_values_witness :
    ex_csr_X.WellFormed ∧ ex_csr_Z.WellFormed ∧
    ∃ M0 Ms M1, ex_csr_X.times_mat_alloc ex_csr_Z ex_fresh = some M0 ∧
      Constructed.times_mat_symbolic ex_csr_X M0 ex_csr_Z (fun _ => 7) = some Ms ∧
      ex_csr_X.times_mat_numeric 2 { Ms with values_ := fun _ => 1 } 3 ex_csr_Z (fun _ => 9) =
        some M1 ∧
      Ms.row_positions 0 = [0, 1] ∧ Ms.row_positions 1 = [2] ∧
      M1.values_ 0 = 59 ∧ M1.values_ 1 = 50 ∧ M1.values_ 2 = 56 := by
  obtain ⟨M0, a1, a2, a3, a4, _, _⟩ := times_mat_alloc_eq ex_csr_X ex_csr_Z ex_fresh
    ex_csr_X_wellFormed ex_csr_Z_wellFormed rfl (by decide) (by decide) (by decide)
  obtain ⟨Ms, b1, _, _, _, b2⟩ := times_mat_symbolic_eq ex_csr_X M0 ex_csr_Z (fun _ => 7)
    ex_csr_X_wellFormed ex_csr_Z_wellFormed rfl a2 a3 a4
  obtain ⟨M1, c1, _, _, _, _, _, c7, _⟩ := times_numeric_values ex_csr_X ex_csr_Z ex_fresh
    (fun _ => 7) (fun _ => 9) (.allocated M0) Ms (fun _ => 1) 2 3 ex_csr_X_wellFormed ex_csr_Z_wellFormed
    rfl a1 b1
  have r0 : Ms.row_positions 0 = [0, 1] := by
    unfold row_positions
    rw [b2.rowptr 0 (by decide), b2.rowptr 1 (by decide)]
    decide
  have r1 : Ms.row_positions 1 = [2] := by
    unfold row_positions
    rw [b2.rowptr 1 (by decide), b2.rowptr 2 (by decide)]
    decide
  have j0 : Ms.jcolind_ 0 = 0 := b2.cells 0 0 0 (by decide) (by decide)
  have j1 : Ms.jcolind_ 1 = 1 := b2.cells 0 1 1 (by decide) (by decide)
  have j2 : Ms.jcolind_ 2 = 1 := b2.cells 1 0 1 (by decide) (by decide)
  have v0 := c7 0 (by decide) 0 (by rw [r0]; decide)
  have v1 := c7 0 (by decide) 1 (by rw [r0]; decide)
  have v2 := c7 1 (by decide) 2 (by rw [r1]; decide)
  rw [j0] at v0
  rw [j1] at v1
  rw [j2] at v2
  have s00 : ∑ k in Finset.range ex_csr_X.ncols_,
      ex_csr_X.entry 0 k * ex_csr_Z.entry k 0 = 19 := by
    show ∑ k in Finset.range 3, ex_csr_X.entry 0 k * ex_csr_Z.entry k 0 = 19
    simp [Finset.sum_range_succ, entry, row_positions, for_range, ex_csr_X, ex_csr_Z,
      List.range', List.filter]
    norm_num
  have s01 : ∑ k in Finset.range ex_csr_X.ncols_,
      ex_csr_X.entry 0 k * ex_csr_Z.entry k 1 = 16 := by
    show ∑ k in Finset.range 3, ex_csr_X.entry 0 k * ex_csr_Z.entry k 1 = 16
    simp [Finset.sum_range_succ, entry, row_positions, for_range, ex_csr_X, ex_csr_Z,
      List.range', List.filter]
    norm_num
  have s11 : ∑ k in Finset.range ex_csr_X.ncols_,
      ex_csr_X.entry 1 k * ex_csr_Z.entry k 1 = 18 := by
    show ∑ k in Finset.range 3, ex_csr_X.entry 1 k * ex_csr_Z.entry k 1 = 18
    simp [Finset.sum_range_succ, entry, row_positions, for_range, ex_csr_X, ex_csr_Z,
      List.range', List.filter]
    norm_num
  rw [s00] at v0
  rw [s01] at v1
  rw [s11] at v2
  refine ⟨ex_csr_X_wellFormed, ex_csr_Z_wellFormed, .allocated M0, Ms, M1, a1, b1, c1, r0, r1, ?_, ?_, ?_⟩
  · rw [v0]; norm_num
  · rw [v1]; norm_num
  · rw [v2]; norm_num

end claims_csr_times_numeric

/-! ## Transpose of a triplet matrix: counts, row starts and cells -/

namespace hiopMatrixSparseTriplet

variable {K : Type} [LinearOrderedField K]

theorem col_count_succ (T : hiopMatrixSparseTriplet K) (t c : Nat) :
    T.col_count (t + 1) c = T.col_count t c + if T.j_col t = c then 1 else 0 := by
  unfold col_count
  rw [List.range_succ, List.filter_append, List.length_append]
  congr 1
  by_cases h : T.j_col t = c
  · rw [if_pos h, List.filter_cons_of_pos (by simpa using h)]
    rfl
  · rw [if_neg h, List.filter_cons_of_neg (by simpa using h)]
    rfl

theorem col_count_mono (T : hiopMatrixSparseTriplet K) (c : Nat) :
    ∀ (t1 t : Nat), t ≤ t1 → T.col_count t c ≤ T.col_count t1 c := by
  intro t1
  induction t1 with
  | zero =>
    intro t ht
    rw [Nat.le_zero.mp ht]
  | succ t1 ih =>
    intro t ht
    rcases Nat.eq_or_lt_of_le ht with e | e
    · rw [e]
    · have := ih t (by omega)
      rw [col_count_succ]
      omega

/-- The count of its column goes up at an entry. -/
theorem col_count_lt (T : hiopMatrixSparseTriplet K) (it t : Nat) (h : it < t) :
    T.col_count it (T.j_col it) < T.col_count t (T.j_col it) := by
  have h1 := col_count_mono T (T.j_col it) t (it + 1) h
  rw [col_count_succ, if_pos rfl] at h1
  omega

/-- The entries of a column are numbered without a gap. -/
theorem col_count_surj (T : hiopMatrixSparseTriplet K) (c k : Nat) :
    ∀ t, k < T.col_count t c → ∃ it, it < t ∧ T.j_col it = c ∧ T.col_count it c = k := by
  intro t
  induction t with
  | zero =>
    intro h
    exact absurd h (Nat.not_lt_zero _)
  | succ t ih =>
    intro h
    by_cases h1 : k < T.col_count t c
    · obtain ⟨it, a1, a2, a3⟩ := ih h1
      exact ⟨it, by omega, a2, a3⟩
    · rw [col_count_succ] at h
      by_cases h2 : T.j_col t = c
      · rw [if_pos h2] at h
        exact ⟨t, by omega, h2, by omega⟩
      · rw [if_neg h2] at h
        omega

theorem col_count_congr (T T1 : hiopMatrixSparseTriplet K) (c : Nat) :
    ∀ t, (∀ it, it < t → T1.j_col it = T.j_col it) → T1.col_count t c = T.col_count t c := by
  intro t
  induction t with
  | zero => intro _; rfl
  | succ t ih =>
    intro h
    rw [col_count_succ, col_count_succ, ih (fun it hit => h it (by omega)), h t (by omega)]

theorem col_start_succ (T : hiopMatrixSparseTriplet K) (i : Nat) :
    T.col_start (i + 1) = T.col_start i + T.col_count T.numberOfNonzeros i := by
  unfold col_start
  rw [Finset.sum_range_succ]

theorem col_start_mono (T : hiopMatrixSparseTriplet K) :
    ∀ (j i : Nat), i ≤ j → T.col_start i ≤ T.col_start j := by
  intro j
  induction j with
  | zero =>
    intro i hi
    rw [Nat.le_zero.mp hi]
  | succ j ih =>
    intro i hi
    rcases Nat.eq_or_lt_of_le hi with e | e
    · rw [e]
    · have := ih i (by omega)
      rw [col_start_succ]
      omega

/-- The counts of the columns below `n` add up to the number of entries when
every column index is below `n`. -/
theorem sum_col_count (T : hiopMatrixSparseTriplet K) (n : Nat) :
    ∀ t, (∀ it, it < t → T.j_col it < n) → ∑ c in Finset.range n, T.col_count t c = t := by
  intro t
  induction t with
  | zero =>
    intro _
    exact Finset.sum_eq_zero (fun c _ => rfl)
  | succ t ih =>
    intro h
    have hc : ∀ c ∈ Finset.range n, T.col_count (t + 1) c =
        T.col_count t c + if c = T.j_col t then 1 else 0 := by
      intro c _
      rw [col_count_succ]
      congr 1
      by_cases e : T.j_col t = c
      · rw [if_pos e, if_pos e.symm]
      · rw [if_neg e, if_neg (fun e1 => e e1.symm)]
    rw [Finset.sum_congr rfl hc, Finset.sum_add_distrib, ih (fun it hit => h it (by omega)),
      Finset.sum_ite_eq', if_pos (Finset.mem_range.mpr (h t (by omega)))]

/-- The cumulative count ends at the number of entries. -/
theorem col_start_last (T : hiopMatrixSparseTriplet K) (hT : T.InRange) :
    T.col_start T.n = T.numberOfNonzeros :=
  sum_col_count T T.n T.numberOfNonzeros hT.col

/-- The cell of an entry is in the row of its column. -/
theorem transpose_pos_row (T : hiopMatrixSparseTriplet K) (it : Nat)
    (h : it < T.numberOfNonzeros) :
    T.col_start (T.j_col it) ≤ T.transpose_pos it ∧
      T.transpose_pos it < T.col_start (T.j_col it + 1) := by
  unfold transpose_pos
  have := col_count_lt T it T.numberOfNonzeros h
  rw [col_start_succ]
  omega

theorem transpose_pos_lt (T : hiopMatrixSparseTriplet K) (hT : T.InRange) (it : Nat)
    (h : it < T.numberOfNonzeros) : T.transpose_pos it < T.numberOfNonzeros := by
  have h1 := (transpose_pos_row T it h).2
  have h2 := col_start_mono T T.n (T.j_col it + 1) (hT.col it h)
  rw [col_start_last T hT] at h2
  omega

/-- Of two entries of a column, the earlier one has the earlier cell. -/
theorem transpose_pos_order (T : hiopMatrixSparseTriplet K) (it1 it2 : Nat)
    (h2 : it2 < T.numberOfNonzeros) (hc : T.j_col it1 = T.j_col it2)
    (hp : T.transpose_pos it1 < T.transpose_pos it2) : it1 < it2 := by
  by_contra hn
  unfold transpose_pos at hp
  rw [hc] at hp
  have := col_count_mono T (T.j_col it2) it1 it2 (by omega)
  omega

/-- Distinct entries have distinct cells. -/
theorem transpose_pos_inj (T : hiopMatrixSparseTriplet K) (it1 it2 : Nat)
    (h1 : it1 < T.numberOfNonzeros) (h2 : it2 < T.numberOfNonzeros)
    (hp : T.transpose_pos it1 = T.transpose_pos it2) : it1 = it2 := by
  have r1 := transpose_pos_row T it1 h1
  have r2 := transpose_pos_row T it2 h2
  have hc : T.j_col it1 = T.j_col it2 := by
    rcases Nat.lt_trichotomy (T.j_col it1) (T.j_col it2) with c | c | c
    · have := col_start_mono T (T.j_col it2) (T.j_col it1 + 1) c
      omega
    · exact c
    · have := col_start_mono T (T.j_col it1) (T.j_col it2 + 1) c
      omega
  unfold transpose_pos at hp
  rw [hc] at hp
  rcases Nat.lt_trichotomy it1 it2 with c | c | c
  · have := col_count_lt T it1 it2 c
    rw [hc] at this
    omega
  · exact c
  · have := col_count_lt T it2 it1 c
    omega

/-- Every cell of a row of the transpose is the cell of an entry of the
column. -/
theorem transpose_pos_surj (T : hiopMatrixSparseTriplet K) (c p : Nat)
    (h1 : T.col_start c ≤ p) (h2 : p < T.col_start (c + 1)) :
    ∃ it, it < T.numberOfNonzeros ∧ T.j_col it = c ∧ T.transpose_pos it = p := by
  rw [col_start_succ] at h2
  obtain ⟨it, a1, a2, a3⟩ := col_count_surj T c (p - T.col_start c) T.numberOfNonzeros
    (by omega)
  refine ⟨it, a1, a2, ?_⟩
  unfold transpose_pos
  rw [a2, a3]
  omega

/-- Every cell below the number of entries is the cell of an entry. -/
theorem transpose_pos_cover (T : hiopMatrixSparseTriplet K) (hT : T.InRange) (p : Nat)
    (hp : p < T.numberOfNonzeros) :
    ∃ it, it < T.numberOfNonzeros ∧ T.transpose_pos it = p := by
  have key : ∀ n, p < T.col_start n → ∃ c, c < n ∧ T.col_start c ≤ p ∧
      p < T.col_start (c + 1) := by
    intro n
    induction n with
    | zero =>
      intro h
      exact absurd h (Nat.not_lt_zero _)
    | succ n ih =>
      intro h
      by_cases h1 : p < T.col_start n
      · obtain ⟨c, a1, a2, a3⟩ := ih h1
        exact ⟨c, by omega, a2, a3⟩
      · exact ⟨n, by omega, by omega, h⟩
  obtain ⟨c, _, a2, a3⟩ := key T.n (by rw [col_start_last T hT]; exact hp)
  obtain ⟨it, b1, _, b3⟩ := transpose_pos_surj T c p a2 a3
  exact ⟨it, b1, b3⟩

/-- Entries sorted by (row, column) without a duplicate: of two entries, the
later one has a greater row index, or the same row index and a greater column
index. -/
theorem sorted_lex (T : hiopMatrixSparseTriplet K) (hs : T.SortedNoDup) :
    ∀ (it2 it1 : Nat), it1 < it2 → it2 < T.numberOfNonzeros →
      T.i_row it1 < T.i_row it2 ∨ (T.i_row it1 = T.i_row it2 ∧ T.j_col it1 < T.j_col it2) := by
  intro it2
  induction it2 with
  | zero =>
    intro it1 h _
    exact absurd h (Nat.not_lt_zero _)
  | succ it2 ih =>
    intro it1 h1 h2
    have hstep := hs it2 h2
    rcases Nat.eq_or_lt_of_le (Nat.le_of_lt_succ h1) with e | e
    · rw [e]
      exact hstep
    · have := ih it1 e (by omega)
      omega

/-- Of two entries of a column, the later one has the greater row index. -/
theorem sorted_col (T : hiopMatrixSparseTriplet K) (hs : T.SortedNoDup) (it1 it2 : Nat)
    (h1 : it1 < it2) (h2 : it2 < T.numberOfNonzeros) (hc : T.j_col it1 = T.j_col it2) :
    T.i_row it1 < T.i_row it2 := by
  have := sorted_lex T hs it2 it1 h1 h2
  omega

end hiopMatrixSparseTriplet

/-! ## Transpose of a triplet matrix: the loops -/

section csr_transpose_loops

variable {K : Type} [LinearOrderedField K]

open hiopMatrixSparseCSR hiopMatrixSparseTriplet

/-- The loop that counts the entries of each column adds the counts to `w`. -/
theorem form_transpose_count_eq (nrows : Nat) (T : hiopMatrixSparseTriplet K) (w : Nat → Nat) :
    ∀ t, (∀ it, it < t → T.j_col it < nrows) →
      form_transpose_count nrows t T w = some (fun r => w r + T.col_count t r) := by
  intro t
  induction t with
  | zero =>
    intro _
    unfold form_transpose_count
    rw [for_range_nil _ _ (le_refl _)]
    rfl
  | succ t ih =>
    intro h
    have e := ih (fun it hit => h it (by omega))
    unfold form_transpose_count at e
    unfold form_transpose_count
    rw [for_range_concat 0 t (Nat.zero_le _), List.foldlM_append, e]
    simp only [Option.bind_eq_bind, Option.some_bind, List.foldlM_cons, List.foldlM_nil]
    rw [if_pos (h t (by omega))]
    simp only [Option.some_bind, Option.pure_def]
    congr 1
    funext r
    rw [col_count_succ]
    by_cases hr : r = T.j_col t
    · subst hr
      rw [Function.update_same, if_pos rfl, add_assoc]
    · rw [Function.update_noteq hr, if_neg (fun e1 => hr e1.symm), add_zero]

/-- The loop of the cumulative sums: `irowptr_[i]` is the sum of the counts
below `i` for `i` up to `nrows_`, and so is `w[i]` for `i` below `nrows_`. -/
theorem form_transpose_cumsum_eq (irowptr w : Nat → Nat) :
    ∀ n, form_transpose_cumsum n (irowptr, w) =
      (fun i => if i ≤ n then ∑ c in Finset.range i, w c else irowptr i,
        fun i => if i < n then ∑ c in Finset.range i, w c else w i) := by
  intro n
  induction n with
  | zero =>
    unfold form_transpose_cumsum
    rw [for_range_nil _ _ (le_refl _), List.foldl_nil]
    refine Prod.ext ?_ ?_
    · funext i
      by_cases hi : i = 0
      · subst hi
        simp
      · simp only
        rw [Function.update_noteq hi, if_neg (by omega)]
    · funext i
      simp
  | succ n ih =>
    unfold form_transpose_cumsum at ih
    unfold form_transpose_cumsum
    rw [for_range_concat 1 (n + 1) (by omega), List.foldl_append, ih]
    simp only [List.foldl_cons, List.foldl_nil, Nat.add_sub_cancel]
    refine Prod.ext ?_ ?_
    · funext i
      simp only
      by_cases h1 : i = n + 1
      · subst h1
        rw [Function.update_same, if_pos (le_refl _), if_pos (le_refl _), if_neg (lt_irrefl _),
          Finset.sum_range_succ]
      · rw [Function.update_noteq h1]
        by_cases h2 : i ≤ n
        · rw [if_pos h2, if_pos (by omega)]
        · rw [if_neg h2, if_neg (by omega)]
    · funext i
      simp only
      by_cases h1 : i = n
      · subst h1
        rw [Function.update_same, Function.update_noteq (by omega)]
        simp
      · rw [Function.update_noteq h1]
        by_cases h2 : i < n
        · rw [if_pos h2, if_pos (by omega)]
        · rw [if_neg h2, if_neg (by omega)]

/-- The rollback of `row_starts_`. -/
theorem form_transpose_rollback_eq (rs : Nat → Nat) :
    ∀ n, form_transpose_rollback n rs =
      fun i => if i = 0 then 0 else if i < n then rs (i - 1) else rs i := by
  have key : ∀ (n : Nat) (rs : Nat → Nat),
      (for_range 1 n).reverse.foldl (fun rs i => Function.update rs i (rs (i - 1))) rs =
        fun i => if 1 ≤ i ∧ i < n then rs (i - 1) else rs i := by
    intro n
    induction n with
    | zero =>
      intro rs
      rw [for_range_nil _ _ (by omega)]
      funext i
      simp
    | succ n ih =>
      intro rs
      by_cases hn : 1 ≤ n
      · rw [for_range_concat 1 n hn, List.reverse_append, List.reverse_singleton,
          List.singleton_append, List.foldl_cons, ih]
        funext i
        by_cases h1 : i = n
        · subst h1
          rw [if_neg (by omega), if_pos (by omega), Function.update_same]
        · by_cases h2 : 1 ≤ i ∧ i < n
          · rw [if_pos h2, if_pos (by omega), Function.update_noteq (by omega)]
          · rw [if_neg h2, if_neg (by omega), Function.update_noteq h1]
      · rw [for_range_nil _ _ (by omega)]
        funext i
        rw [if_neg (by omega)]
        rfl
  intro n
  unfold form_transpose_rollback
  rw [key]
  funext i
  by_cases h0 : i = 0
  · subst h0
    rw [Function.update_same, if_pos rfl]
  · rw [Function.update_noteq h0, if_neg h0]
    by_cases h1 : i < n
    · rw [if_pos h1, if_pos ⟨by omega, h1⟩]
    · rw [if_neg h1, if_neg (fun h => h1 h.2)]

/-- The loop that populates an array from the entries of `T`, entered with
`row_starts_` at the row starts and with the cumulative counts as row
pointers: its assertions pass, every entry is put in its cell, and
`row_starts_` has gone up by the counts. -/
theorem form_transpose_put_fold {α : Type} (T : hiopMatrixSparseTriplet K) (hT : T.InRange)
    (irowptr : Nat → Nat) (hrp : ∀ i, i ≤ T.n → irowptr i = T.col_start i)
    (src dst : Nat → α) (rs : Nat → Nat) (hrs : ∀ i, i < T.n → rs i = T.col_start i) :
    ∀ t, t ≤ T.numberOfNonzeros →
      (for_range 0 t).foldlM (form_transpose_put T.numberOfNonzeros T.m irowptr T src) (dst, rs) =
        some (T.transpose_fill src dst t, fun r => rs r + T.col_count t r) := by
  intro t
  induction t with
  | zero =>
    intro _
    rw [for_range_nil _ _ (le_refl _)]
    rfl
  | succ t ih =>
    intro ht
    have hc := hT.col t (by omega)
    have hpos : rs (T.j_col t) + T.col_count t (T.j_col t) = T.transpose_pos t := by
      rw [hrs _ hc]
      rfl
    have hrow := transpose_pos_row T t (by omega)
    have hlt := transpose_pos_lt T hT t (by omega)
    rw [for_range_concat 0 t (Nat.zero_le _), List.foldlM_append, ih (by omega)]
    simp only [Option.bind_eq_bind, Option.some_bind, List.foldlM_cons, List.foldlM_nil]
    unfold form_transpose_put
    simp only [Function.update_same]
    rw [hpos, if_pos hlt, if_pos (hT.row t (by omega)), if_pos (by
      have h1 := hrp (T.j_col t + 1) hc
      omega)]
    simp only [Option.some_bind, Option.pure_def]
    congr 1
    refine Prod.ext rfl ?_
    funext r
    simp only
    rw [col_count_succ]
    by_cases hr : r = T.j_col t
    · subst hr
      rw [Function.update_same, if_pos rfl, ← hpos]
      omega
    · rw [Function.update_noteq hr, if_neg (fun e1 => hr e1.symm), add_zero]

/-- The cell of an entry holds what was put there. -/
theorem transpose_fill_pos {α : Type} (T : hiopMatrixSparseTriplet K) (src dst : Nat → α) :
    ∀ t, t ≤ T.numberOfNonzeros → ∀ it, it < t →
      T.transpose_fill src dst t (T.transpose_pos it) = src it := by
  intro t
  induction t with
  | zero =>
    intro _ it h
    exact absurd h (Nat.not_lt_zero _)
  | succ t ih =>
    intro ht it hit
    show Function.update (T.transpose_fill src dst t) (T.transpose_pos t) (src t)
      (T.transpose_pos it) = src it
    rcases Nat.eq_or_lt_of_le (Nat.le_of_lt_succ hit) with e | e
    · rw [e, Function.update_same]
    · rw [Function.update_noteq (fun hp =>
        absurd (transpose_pos_inj T it t (by omega) (by omega) hp) (by omega))]
      exact ih (by omega) it e

/-- A cell that is the cell of no entry is left alone. -/
theorem transpose_fill_other {α : Type} (T : hiopMatrixSparseTriplet K) (src dst : Nat → α)
    (p : Nat) :
    ∀ t, (∀ it, it < t → T.transpose_pos it ≠ p) → T.transpose_fill src dst t p = dst p := by
  intro t
  induction t with
  | zero => intro _; rfl
  | succ t ih =>
    intro h
    show Function.update (T.transpose_fill src dst t) (T.transpose_pos t) (src t) p = dst p
    rw [Function.update_noteq (fun e => h t (by omega) e.symm)]
    exact ih (fun it hit => h it (by omega))

end csr_transpose_loops

/-! ## Transpose of a triplet matrix: what the two methods leave -/

section csr_transpose_result

variable {K : Type} [LinearOrderedField K]

open hiopMatrixSparseCSR hiopMatrixSparseTriplet

/-- In the transpose of a matrix sorted by (row, column) without a duplicate,
the column indices of a row are strictly increasing. -/
theorem transpose_row_lt (T : hiopMatrixSparseTriplet K) (hs : T.SortedNoDup)
    (jcolind : Nat → Nat)
    (hcells : ∀ it, it < T.numberOfNonzeros → jcolind (T.transpose_pos it) = T.i_row it)
    (c p q : Nat) (h1 : T.col_start c ≤ p) (h2 : p < q) (h3 : q < T.col_start (c + 1)) :
    jcolind p < jcolind q := by
  obtain ⟨it1, a1, a2, a3⟩ := transpose_pos_surj T c p h1 (by omega)
  obtain ⟨it2, b1, b2, b3⟩ := transpose_pos_surj T c q (by omega) h3
  have hc : T.j_col it1 = T.j_col it2 := by rw [a2, b2]
  have hlt := transpose_pos_order T it1 it2 b1 hc (by omega)
  have := sorted_col T hs it1 it2 hlt b1 hc
  rw [← a3, ← b3, hcells it1 a1, hcells it2 b1]
  exact this

/-- The assertions on the order of the column indices pass on the transpose. -/
theorem cols_sorted_check_transpose (T : hiopMatrixSparseTriplet K) (hs : T.SortedNoDup)
    (irowptr jcolind : Nat → Nat) (hrp : ∀ i, i ≤ T.n → irowptr i = T.col_start i)
    (hcells : ∀ it, it < T.numberOfNonzeros → jcolind (T.transpose_pos it) = T.i_row it) :
    cols_sorted_check T.n irowptr jcolind = true := by
  unfold cols_sorted_check
  rw [List.all_eq_true]
  intro i hi
  rw [mem_for_range] at hi
  rw [List.all_eq_true]
  intro itnz h
  rw [mem_for_range, hrp i (by omega), hrp (i + 1) (by omega)] at h
  rw [decide_eq_true_iff]
  exact transpose_row_lt T hs jcolind hcells i (itnz - 1) itnz (by omega) (by omega) h.2

/-- The first block of `form_transpose_from_symbolic` on an object whose
`row_starts_` is `nullptr` or whose sizes are not those of the transpose. -/
theorem form_transpose_resize_eq (A : hiopMatrixSparseCSR K) (T : hiopMatrixSparseTriplet K)
    (fresh : FreshArrays K)
    (hA : A.row_starts_ = none ∨
      (T.m ≠ A.ncols_ ∨ T.n ≠ A.nrows_ ∨ T.numberOfNonzeros ≠ A.nnz_)) :
    ∃ A0, form_transpose_resize A T fresh = some A0 ∧ A0.nrows_ = T.n ∧ A0.ncols_ = T.m ∧
      A0.nnz_ = T.numberOfNonzeros ∧ A0.row_starts_ = none := by
  unfold form_transpose_resize
  by_cases h : T.m ≠ A.ncols_ ∨ T.n ≠ A.nrows_ ∨ T.numberOfNonzeros ≠ A.nnz_
  · rw [if_pos h]
    unfold alloc dealloc
    simp only [Option.isNone_none, and_self, if_true]
    exact ⟨_, rfl, rfl, rfl, rfl, rfl⟩
  · rw [if_neg h]
    have h0 : A.row_starts_ = none := hA.resolve_right h
    simp only [not_or, not_not] at h
    exact ⟨A, rfl, h.2.1.symm, h.1.symm, h.2.2.symm, h0⟩

/-- On such an object and for a matrix with at least one entry, all in range
and sorted by (row, column) without a duplicate, `form_transpose_from_symbolic`
passes its assertions and leaves the pattern of the transpose; it leaves the
values and `buf_col_` as the first block left them. -/
theorem form_transpose_from_symbolic_eq (A : hiopMatrixSparseCSR K)
    (T : hiopMatrixSparseTriplet K) (fresh : FreshArrays K) (freshR : Nat → Nat)
    (hT : T.InRange) (hs : T.SortedNoDup) (hnnz : 0 < T.numberOfNonzeros)
    (hA : A.row_starts_ = none ∨
      (T.m ≠ A.ncols_ ∨ T.n ≠ A.nrows_ ∨ T.numberOfNonzeros ≠ A.nnz_)) :
    ∃ A1, form_transpose_from_symbolic A T fresh freshR = some A1 ∧ TransposePattern T A1 := by
  obtain ⟨A0, e0, s1, s2, s3, s4⟩ := form_transpose_resize_eq A T fresh hA
  have hw0 : ∀ r, r < T.n →
      (for_range 0 T.n).foldl (fun w i => Function.update w i 0) freshR r = 0 := by
    intro r hr
    rw [foldl_update_const, if_pos ((mem_for_range _ _ _).mpr ⟨Nat.zero_le _, hr⟩)]
  have hsum : ∀ i, i ≤ T.n →
      ∑ c in Finset.range i,
        ((for_range 0 T.n).foldl (fun w i => Function.update w i 0) freshR c +
          T.col_count T.numberOfNonzeros c) = T.col_start i := by
    intro i hi
    unfold col_start
    apply Finset.sum_congr rfl
    intro c hc
    rw [Finset.mem_range] at hc
    rw [hw0 c (by omega), zero_add]
  have hrp : ∀ i, i ≤ T.n →
      Function.update
        (fun i => if i ≤ T.n then
          ∑ c in Finset.range i,
            ((for_range 0 T.n).foldl (fun w i => Function.update w i 0) freshR c +
              T.col_count T.numberOfNonzeros c)
          else A0.irowptr_ i) T.n T.numberOfNonzeros i = T.col_start i := by
    intro i hi
    by_cases e : i = T.n
    · rw [e, Function.update_same, col_start_last T hT]
    · rw [Function.update_noteq e, if_pos hi, hsum i hi]
  have hrs : ∀ i, i < T.n →
      (fun i => if i < T.n then
        ∑ c in Finset.range i,
          ((for_range 0 T.n).foldl (fun w i => Function.update w i 0) freshR c +
            T.col_count T.numberOfNonzeros c)
        else (for_range 0 T.n).foldl (fun w i => Function.update w i 0) freshR i +
          T.col_count T.numberOfNonzeros i) i = T.col_start i := by
    intro i hi
    simp only
    rw [if_pos hi, hsum i (by omega)]
  have hput := form_transpose_put_fold T hT _ hrp T.i_row A0.jcolind_ _ hrs T.numberOfNonzeros
    (le_refl _)
  have hcells : ∀ it, it < T.numberOfNonzeros →
      T.transpose_fill T.i_row A0.jcolind_ T.numberOfNonzeros (T.transpose_pos it) =
        T.i_row it :=
    fun it hit => transpose_fill_pos T T.i_row A0.jcolind_ _ (le_refl _) it hit
  have hchk := cols_sorted_check_transpose T hs _ _ hrp hcells
  unfold form_transpose_from_symbolic
  rw [e0]
  simp only [Option.some_bind]
  rw [if_neg (by omega), s4]
  simp only [Option.isNone_none, if_true]
  rw [s1, s2, s3, form_transpose_count_eq T.n T _ T.numberOfNonzeros hT.col]
  simp only [Option.some_bind]
  rw [form_transpose_cumsum_eq, if_pos (by omega)]
  simp only
  rw [hput]
  simp only [Option.some_bind]
  rw [hchk]
  simp only [if_true]
  refine ⟨_, rfl, rfl, rfl, rfl, hrp, hcells, _, rfl, ?_⟩
  intro i hi
  rw [form_transpose_rollback_eq]
  simp only
  rw [hrp i (by omega)]
  by_cases h0 : i = 0
  · rw [if_pos h0, h0]
    rfl
  · rw [if_neg h0, if_pos hi, if_pos (by omega), hsum (i - 1) (by omega)]
    have := col_start_succ T (i - 1)
    rw [show i - 1 + 1 = i by omega] at this
    omega

/-- On an object that holds the pattern of the transpose,
`form_transpose_from_numeric` passes its assertions, puts the value of every
entry in its cell, leaves the other cells of the values and the pattern alone,
and leaves `row_starts_` at the row starts. -/
theorem form_transpose_from_numeric_eq (A : hiopMatrixSparseCSR K)
    (T : hiopMatrixSparseTriplet K) (hT : T.InRange) (hs : T.SortedNoDup)
    (hA : TransposePattern T A) :
    ∃ rs, form_transpose_from_numeric A T =
        some { A with values_ := T.transpose_fill T.M A.values_ T.numberOfNonzeros,
                      row_starts_ := some rs } ∧
      ∀ i, i < T.n → rs i = A.irowptr_ i := by
  obtain ⟨rs0, r1, r2⟩ := hA.starts
  have hrs : ∀ i, i < T.n → rs0 i = T.col_start i := fun i hi => by
    rw [r2 i hi, hA.rowptr i (by omega)]
  have hput := form_transpose_put_fold T hT A.irowptr_ hA.rowptr T.M A.values_ rs0 hrs
    T.numberOfNonzeros (le_refl _)
  have hchk := cols_sorted_check_transpose T hs A.irowptr_ A.jcolind_ hA.rowptr hA.cells
  unfold form_transpose_from_numeric
  rw [r1]
  simp only
  rw [if_pos ⟨hA.nrows, hA.ncols, hA.nnz⟩, hA.nrows, hA.ncols, hA.nnz, hchk]
  simp only [if_true]
  rw [hput, Option.map_some']
  refine ⟨_, rfl, ?_⟩
  intro i hi
  rw [form_transpose_rollback_eq]
  simp only
  rw [hA.rowptr i (by omega)]
  by_cases h0 : i = 0
  · rw [if_pos h0, h0]
    rfl
  · rw [if_neg h0, if_pos hi, hrs (i - 1) (by omega)]
    have := col_start_succ T (i - 1)
    rw [show i - 1 + 1 = i by omega] at this
    omega

end csr_transpose_result

/-! ## Transpose of a triplet matrix: the stored entries -/

section csr_transpose_facts

variable {K : Type} [LinearOrderedField K]

open hiopMatrixSparseCSR hiopMatrixSparseTriplet

theorem samePattern_inRange {T T1 : hiopMatrixSparseTriplet K} (h : T.SamePattern T1)
    (hT : T.InRange) : T1.InRange := by
  refine ⟨?_, ?_⟩
  · intro it hit
    rw [h.nnz] at hit
    rw [h.row it hit, h.m]
    exact hT.row it hit
  · intro it hit
    rw [h.nnz] at hit
    rw [h.col it hit, h.n]
    exact hT.col it hit

theorem samePattern_sorted {T T1 : hiopMatrixSparseTriplet K} (h : T.SamePattern T1)
    (hs : T.SortedNoDup) : T1.SortedNoDup := by
  intro it hit
  rw [h.nnz] at hit
  rw [h.row it (by omega), h.row (it + 1) hit, h.col it (by omega), h.col (it + 1) hit]
  exact hs it hit

theorem samePattern_col_start {T T1 : hiopMatrixSparseTriplet K} (h : T.SamePattern T1)
    (i : Nat) : T1.col_start i = T.col_start i := by
  unfold col_start
  apply Finset.sum_congr rfl
  intro c _
  rw [h.nnz]
  exact col_count_congr T T1 c _ h.col

/-- Matrices with the same pattern have their entries in the same cells of
the transpose. -/
theorem samePattern_transpose_pos {T T1 : hiopMatrixSparseTriplet K} (h : T.SamePattern T1)
    (it : Nat) (hit : it < T.numberOfNonzeros) : T1.transpose_pos it = T.transpose_pos it := by
  unfold transpose_pos
  rw [samePattern_col_start h, h.col it hit,
    col_count_congr T T1 _ it (fun k hk => h.col k (by omega))]

theorem transposePattern_congr {T T1 : hiopMatrixSparseTriplet K} (h : T.SamePattern T1)
    {A : hiopMatrixSparseCSR K} (hA : TransposePattern T A) : TransposePattern T1 A := by
  obtain ⟨rs, r1, r2⟩ := hA.starts
  refine ⟨by rw [hA.nrows, h.n], by rw [hA.ncols, h.m], by rw [hA.nnz, h.nnz], ?_, ?_,
    rs, r1, ?_⟩
  · intro i hi
    rw [h.n] at hi
    rw [samePattern_col_start h, hA.rowptr i hi]
  · intro it hit
    rw [h.nnz] at hit
    rw [samePattern_transpose_pos h it hit, h.row it hit]
    exact hA.cells it hit
  · intro i hi
    rw [h.n] at hi
    exact r2 i hi

/-- The column indices of the rows of an object that holds the pattern of the
transpose of a sorted matrix are strictly increasing. -/
theorem transposePattern_sorted {T : hiopMatrixSparseTriplet K} (hs : T.SortedNoDup)
    {A : hiopMatrixSparseCSR K} (hA : TransposePattern T A) : A.SortedRows := by
  intro i hi
  rw [hA.nrows] at hi
  unfold row_cols row_positions
  rw [pairwise_map_for_range, hA.rowptr i (by omega), hA.rowptr (i + 1) (by omega)]
  intro p q h1 h2 h3
  exact transpose_row_lt T hs A.jcolind_ hA.cells i p q h1 h2 h3

/-- The cell of an entry is a position of the row of its column. -/
theorem transposePattern_pos_mem {T : hiopMatrixSparseTriplet K} (hT : T.InRange)
    {A : hiopMatrixSparseCSR K} (hA : TransposePattern T A) (it : Nat)
    (hit : it < T.numberOfNonzeros) : T.transpose_pos it ∈ A.row_positions (T.j_col it) := by
  have hc := hT.col it hit
  unfold row_positions
  rw [mem_for_range, hA.rowptr _ (by omega), hA.rowptr _ hc]
  exact transpose_pos_row T it hit

/-- Every column index stored in a row of the transpose is the row index of
an entry of the column. -/
theorem transposePattern_only {T : hiopMatrixSparseTriplet K}
    {A : hiopMatrixSparseCSR K} (hA : TransposePattern T A) (c r : Nat) (hc : c < T.n)
    (hr : r ∈ A.row_cols c) :
    ∃ it, it < T.numberOfNonzeros ∧ T.j_col it = c ∧ T.i_row it = r := by
  rw [mem_row_cols, hA.rowptr c (by omega), hA.rowptr (c + 1) hc] at hr
  obtain ⟨p, p1, p2, rfl⟩ := hr
  obtain ⟨it, a1, a2, a3⟩ := transpose_pos_surj T c p p1 p2
  exact ⟨it, a1, a2, by rw [← a3, hA.cells it a1]⟩

/-- Without an entry, `form_transpose_from_symbolic` returns after its first
block. -/
theorem form_transpose_from_symbolic_empty (A : hiopMatrixSparseCSR K)
    (T : hiopMatrixSparseTriplet K) (fresh : FreshArrays K) (freshR : Nat → Nat)
    (hnnz : T.numberOfNonzeros = 0)
    (hA : T.m ≠ A.ncols_ ∨ T.n ≠ A.nrows_ ∨ T.numberOfNonzeros ≠ A.nnz_) :
    form_transpose_from_symbolic A T fresh freshR =
      some { nrows_ := T.n, ncols_ := T.m, nnz_ := 0, irowptr_ := fresh.irowptr,
             jcolind_ := fresh.jcolind, values_ := fresh.values, buf_col_ := none,
             row_starts_ := none } := by
  unfold form_transpose_from_symbolic form_transpose_resize
  rw [if_pos hA]
  unfold alloc dealloc
  simp only [Option.isNone_none, and_self, if_true, Option.some_bind]
  rw [if_pos (by rw [hnnz]), hnnz]

/-- With `row_starts_` at `nullptr`, `form_transpose_from_numeric` fails its
first assertion. -/
theorem form_transpose_from_numeric_null (A : hiopMatrixSparseCSR K)
    (T : hiopMatrixSparseTriplet K) (h : A.row_starts_ = none) :
    form_transpose_from_numeric A T = none := by
  unfold form_transpose_from_numeric
  rw [h]

/-- On an object with the sizes of the transpose whose `row_starts_` is
allocated, `form_transpose_from_symbolic` fails the assertion
`nullptr == row_starts_` when there is an entry. -/
theorem form_transpose_from_symbolic_again (A : hiopMatrixSparseCSR K)
    (T : hiopMatrixSparseTriplet K) (fresh : FreshArrays K) (freshR : Nat → Nat)
    (hnnz : 0 < T.numberOfNonzeros) (h1 : A.nrows_ = T.n) (h2 : A.ncols_ = T.m)
    (h3 : A.nnz_ = T.numberOfNonzeros) (rs : Nat → Nat) (h4 : A.row_starts_ = some rs) :
    form_transpose_from_symbolic A T fresh freshR = none := by
  unfold form_transpose_from_symbolic form_transpose_resize
  rw [if_neg (by rw [h1, h2, h3]; simp)]
  simp only [Option.some_bind]
  rw [if_neg (by omega), h4]
  rfl

end csr_transpose_facts

/-! ## Compressed-row storage: the claim on the transpose -/

section claims_csr_transpose

variable {K : Type} [LinearOrderedField K]

open hiopMatrixSparseCSR hiopMatrixSparseTriplet

theorem ex_triplet_inRange : ex_triplet.InRange := by
  refine ⟨?_, ?_⟩
  · intro it hit
    have h4 : it < 4 := hit
    interval_cases it <;> decide
  · intro it hit
    have h4 : it < 4 := hit
    interval_cases it <;> decide

theorem ex_triplet_sorted : ex_triplet.SortedNoDup := by
  intro it hit
  have h4 : it + 1 < 4 := hit
  have h3 : it < 3 := by omega
  interval_cases it <;> decide

theorem ex_triplet_samePattern : ex_triplet.SamePattern ex_triplet_new :=
  ⟨rfl, rfl, rfl, fun _ _ => rfl, fun _ _ => rfl⟩

/-- C34, as stated, fails.  The 1 x 1 triplet matrix without entries is sorted
and has no duplicate; on the 2 x 3 matrix `ex_csr_X`,
`form_transpose_from_symbolic` resizes the object and returns at
`if(nnz_<=0)`: `row_starts_` is still `nullptr`, the row pointers hold what
the new array held, here `7`, and not the cumulative counts `0`, and
`form_transpose_from_numeric` fails its first assertion.  And on an object
that was the target of `form_transpose_from_symbolic` before, with the same
matrix, the method fails its assertion `nullptr == row_starts_`. -/
theorem transpose_of_empty_unset :
    ex_triplet_empty.InRange ∧ ex_triplet_empty.SortedNoDup ∧
    (∃ A1, form_transpose_from_symbolic ex_csr_X ex_triplet_empty ex_fresh (fun _ => 9) =
        some A1 ∧
      A1.row_starts_ = none ∧ A1.irowptr_ 0 = 7 ∧
      A1.irowptr_ ex_triplet_empty.n ≠ ex_triplet_empty.numberOfNonzeros ∧
      form_transpose_from_numeric A1 ex_triplet_empty = none) ∧
    (∃ A1, form_transpose_from_symbolic ex_csr_X ex_triplet ex_fresh (fun _ => 9) = some A1 ∧
      form_transpose_from_symbolic A1 ex_triplet ex_fresh (fun _ => 9) = none) := by
  refine ⟨⟨fun it h => absurd h (Nat.not_lt_zero _), fun it h => absurd h (Nat.not_lt_zero _)⟩,
    fun it h => absurd h (Nat.not_lt_zero _), ?_, ?_⟩
  · refine ⟨_, form_transpose_from_symbolic_empty ex_csr_X ex_triplet_empty ex_fresh _ rfl
      (Or.inl (by decide)), rfl, rfl, by decide, ?_⟩
    exact form_transpose_from_numeric_null _ _ rfl
  · obtain ⟨A1, e, hA⟩ := form_transpose_from_symbolic_eq ex_csr_X ex_triplet ex_fresh
      (fun _ => 9) ex_triplet_inRange ex_triplet_sorted (by decide) (Or.inl rfl)
    obtain ⟨rs, r1, _⟩ := hA.starts
    exact ⟨A1, e, form_transpose_from_symbolic_again A1 ex_triplet ex_fresh _ (by decide)
      hA.nrows hA.ncols hA.nnz rs r1⟩

/-- C34, amended.  For a triplet matrix `T` (m x n) with at least one entry,
whose entries are in range and sorted by (row, column) with no duplicate
position, and an object whose `row_starts_` is `nullptr` or whose sizes are
not those of the transpose: `form_transpose_from_symbolic(T)` followed by
`form_transpose_from_numeric(T)` pass their assertions, those on the order of
the column indices included, and yield an n x m matrix with the number of
nonzeros of `T` that stores, for every entry `(r, c, v)` of `T`, the value `v`
at `(c, r)`, in the cell `transpose_pos`, and nothing else: every cell below
`nnz_` is the cell of an entry, and every column index of a row is the row
index of an entry of that column.  The row pointers are the cumulative
per-column counts of `T`, with `irowptr[n] = nnz`; the column indices of every
row are strictly increasing; after each call `row_starts_[i] = irowptr_[i]`
for every row `i`; and `form_transpose_from_numeric` on a matrix `T1` with the
pattern of `T` and other values passes its assertions again, leaves the
pattern alone and puts the values in the same cells. -/
theorem transpose_placement (A : hiopMatrixSparseCSR K) (T T1 : hiopMatrixSparseTriplet K)
    (fresh : FreshArrays K) (freshR : Nat → Nat)
    (hT : T.InRange) (hs : T.SortedNoDup) (hnnz : 0 < T.numberOfNonzeros)
    (hA : A.row_starts_ = none ∨
      (T.m ≠ A.ncols_ ∨ T.n ≠ A.nrows_ ∨ T.numberOfNonzeros ≠ A.nnz_))
    (h1 : T.SamePattern T1) :
    ∃ A1 A2 A3,
      form_transpose_from_symbolic A T fresh freshR = some A1 ∧
      form_transpose_from_numeric A1 T = some A2 ∧
      form_transpose_from_numeric A2 T1 = some A3 ∧
      A2.nrows_ = T.n ∧ A2.ncols_ = T.m ∧ A2.nnz_ = T.numberOfNonzeros ∧
      (∀ i, i ≤ T.n →
        A2.irowptr_ i = ∑ c in Finset.range i, T.col_count T.numberOfNonzeros c) ∧
      A2.irowptr_ T.n = T.numberOfNonzeros ∧
      (∀ it, it < T.numberOfNonzeros →
        T.transpose_pos it ∈ A2.row_positions (T.j_col it) ∧
        A2.jcolind_ (T.transpose_pos it) = T.i_row it ∧
        A2.values_ (T.transpose_pos it) = T.M it ∧
        A2.entry (T.j_col it) (T.i_row it) = T.M it) ∧
      (∀ p, p < T.numberOfNonzeros → ∃ it, it < T.numberOfNonzeros ∧ T.transpose_pos it = p) ∧
      (∀ c r, c < T.n → r ∈ A2.row_cols c →
        ∃ it, it < T.numberOfNonzeros ∧ T.j_col it = c ∧ T.i_row it = r) ∧
      A2.SortedRows ∧
      (∃ rs, A1.row_starts_ = some rs ∧ ∀ i, i < T.n → rs i = A1.irowptr_ i) ∧
      (∃ rs, A2.row_starts_ = some rs ∧ ∀ i, i < T.n → rs i = A2.irowptr_ i) ∧
      (∃ rs, A3.row_starts_ = some rs ∧ ∀ i, i < T.n → rs i = A3.irowptr_ i) ∧
      A3.irowptr_ = A2.irowptr_ ∧ A3.jcolind_ = A2.jcolind_ ∧
      (∀ it, it < T.numberOfNonzeros → A3.values_ (T.transpose_pos it) = T1.M it) := by
  obtain ⟨A1, e1, p1⟩ := form_transpose_from_symbolic_eq A T fresh freshR hT hs hnnz hA
  obtain ⟨rs2, e2, r2⟩ := form_transpose_from_numeric_eq A1 T hT hs p1
  have p2 : TransposePattern T
      { A1 with values_ := T.transpose_fill T.M A1.values_ T.numberOfNonzeros,
                row_starts_ := some rs2 } :=
    ⟨p1.nrows, p1.ncols, p1.nnz, p1.rowptr, p1.cells, rs2, rfl, r2⟩
  obtain ⟨rs3, e3, r3⟩ := form_transpose_from_numeric_eq _ T1 (samePattern_inRange h1 hT)
    (samePattern_sorted h1 hs) (transposePattern_congr h1 p2)
  rw [h1.n] at r3
  have hval : ∀ it, it < T.numberOfNonzeros →
      T.transpose_fill T.M A1.values_ T.numberOfNonzeros (T.transpose_pos it) = T.M it :=
    fun it hit => transpose_fill_pos T T.M A1.values_ _ (le_refl _) it hit
  have hsorted := transposePattern_sorted hs p2
  refine ⟨A1, _, _, e1, e2, e3, p2.nrows, p2.ncols, p2.nnz, p2.rowptr, ?_, ?_,
    transpose_pos_cover T hT, transposePattern_only p2, hsorted, p1.starts, ⟨rs2, rfl, r2⟩,
    ⟨rs3, rfl, r3⟩, rfl, rfl, ?_⟩
  · rw [p2.rowptr T.n (le_refl _), col_start_last T hT]
  · intro it hit
    have hmem := transposePattern_pos_mem hT p2 it hit
    refine ⟨hmem, p2.cells it hit, hval it hit, ?_⟩
    have hc := hT.col it hit
    unfold row_positions at hmem
    rw [mem_for_range] at hmem
    have := entry_of_position _ hsorted (T.j_col it) (by rw [p2.nrows]; exact hc)
      (T.transpose_pos it) hmem.1 hmem.2
    rw [p2.cells it hit] at this
    rw [this]
    exact hval it hit
  · intro it hit
    show T1.transpose_fill T1.M _ T1.numberOfNonzeros (T.transpose_pos it) = T1.M it
    rw [← samePattern_transpose_pos h1 it hit]
    exact transpose_fill_pos T1 T1.M _ _ (le_refl _) it (by rw [h1.nnz]; exact hit)

/-- Instance of `transpose_placement`: the 2 x 3 triplet matrix with the rows
`(1, 0, 2)` and `(0, 3, 4)`, transposed into an object that was a 2 x 3 matrix
with three nonzeros.  The transpose has the row pointers `0, 1, 2, 4` and the
values `1`, `3` and `2, 4`; with the values `10, 20, 30, 40` in the triplet
matrix, the second call of `form_transpose_from_numeric` leaves `10`, `30`
and `20, 40`. -/
theorem transpose_placement_witness :
    ex_triplet.InRange ∧ ex_triplet.SortedNoDup ∧ ex_triplet.SamePattern ex_triplet_new ∧
    ∃ A1 A2 A3,
      form_transpose_from_symbolic ex_csr_X ex_triplet ex_fresh (fun _ => 9) = some A1 ∧
      form_transpose_from_numeric A1 ex_triplet = some A2 ∧
      form_transpose_from_numeric A2 ex_triplet_new = some A3 ∧
      A2.nrows_ = 3 ∧ A2.ncols_ = 2 ∧ A2.nnz_ = 4 ∧
      A2.irowptr_ 0 = 0 ∧ A2.irowptr_ 1 = 1 ∧ A2.irowptr_ 2 = 2 ∧ A2.irowptr_ 3 = 4 ∧
      A2.jcolind_ 0 = 0 ∧ A2.jcolind_ 1 = 1 ∧ A2.jcolind_ 2 = 0 ∧ A2.jcolind_ 3 = 1 ∧
      A2.values_ 0 = 1 ∧ A2.values_ 1 = 3 ∧ A2.values_ 2 = 2 ∧ A2.values_ 3 = 4 ∧
      A3.values_ 0 = 10 ∧ A3.values_ 1 = 30 ∧ A3.values_ 2 = 20 ∧ A3.values_ 3 = 40 := by
  obtain ⟨A1, A2, A3, e1, e2, e3, a1, a2, a3, a4, _, a6, _, _, _, _, _, _, _, _, a7⟩ :=
    transpose_placement ex_csr_X ex_triplet ex_triplet_new ex_fresh (fun _ => 9)
      ex_triplet_inRange ex_triplet_sorted (by decide) (Or.inl rfl) ex_triplet_samePattern
  have q0 : ex_triplet.transpose_pos 0 = 0 := by decide
  have q1 : ex_triplet.transpose_pos 1 = 2 := by decide
  have q2 : ex_triplet.transpose_pos 2 = 1 := by decide
  have q3 : ex_triplet.transpose_pos 3 = 3 := by decide
  have b0 := a6 0 (by decide)
  have b1 := a6 1 (by decide)
  have b2 := a6 2 (by decide)
  have b3 := a6 3 (by decide)
  have c0 := a7 0 (by decide)
  have c1 := a7 1 (by decide)
  have c2 := a7 2 (by decide)
  have c3 := a7 3 (by decide)
  rw [q0] at b0 c0
  rw [q1] at b1 c1
  rw [q2] at b2 c2
  rw [q3] at b3 c3
  have i0 := a4 0 (by decide)
  have i1 := a4 1 (by decide)
  have i2 := a4 2 (by decide)
  have i3 := a4 3 (by decide)
  exact ⟨ex_triplet_inRange, ex_triplet_sorted, ex_triplet_samePattern, A1, A2, A3, e1, e2, e3,
    a1, a2, a3, by rw [i0]; decide, by rw [i1]; decide, by rw [i2]; decide, by rw [i3]; decide,
    b0.2.1, b2.2.1, b1.2.1, b3.2.1, b0.2.2.1, b2.2.2.1, b1.2.2.1, b3.2.2.1, c0, c2, c1, c3⟩

end claims_csr_transpose

end hiop
